import Mathlib

/-!
# Storage-engine core: extendible hash directory, LRU-K replacer, buffer pool, B+ tree

A shallow embedding of the C++ sources into Lean definitions, followed by
theorems about those definitions.

Conventions of the embedding
* `std::shared_ptr<Bucket>` values are indices into an arena (`buckets_`) of
  allocated buckets; `std::make_shared` appends to the arena, pointer equality
  is index equality.
* `std::unordered_map` is an association list with at most one entry per key.
* `while (true)` loops take a fuel argument and return `none` when it runs out.
* The system clock read by `LRUKReplacer::GetCurrentTime` is an explicit
  argument of `RecordAccess`.
* The B+ tree runs in one thread with one transaction. `root_page_id_latch_`
  is write-locked exactly while the page set of the transaction holds a
  `nullptr`; a call that locks the latch while it is write-locked waits for
  ever, which is the result `out_of_fuel` for every fuel.
-/

set_option autoImplicit false

/-! ## Extendible hash table (`src/container/hash/extendible_hash_table.cpp`) -/

namespace ExtendibleHashTable

/-- The macro `BUCKET_SIZE` of `extendible_hash_table.h`. -/
def BUCKET_SIZE : Nat := 2

/-- A bucket: `depth_` and the list `items_` of key/value pairs. -/
structure Bucket (K V : Type) where
  depth_ : Nat
  items_ : List (K × V)
deriving Repr, DecidableEq

namespace Bucket

variable {K V : Type}

/-- The constructor `Bucket(depth)`. -/
def new (depth : Nat) : Bucket K V := ⟨depth, []⟩

/-- `Bucket::IsFull`: `items_.size() >= BUCKET_SIZE`. -/
def IsFull (b : Bucket K V) : Bool := decide (b.items_.length ≥ BUCKET_SIZE)

/-- `Bucket::IncreaseDepth`. -/
def IncreaseDepth (b : Bucket K V) : Bucket K V := { b with depth_ := b.depth_ + 1 }

/-- The scan of `Bucket::Find`: the value of the first item whose key matches. -/
def findItem [DecidableEq K] (key : K) : List (K × V) → Option V
  | [] => none
  | it :: rest => if it.1 = key then some it.2 else findItem key rest

/-- The scan of `Bucket::Remove`: erase the first item whose key matches;
`none` when no item matches. -/
def removeItem [DecidableEq K] (key : K) : List (K × V) → Option (List (K × V))
  | [] => none
  | it :: rest =>
    if it.1 = key then some rest
    else match removeItem key rest with
      | some rest1 => some (it :: rest1)
      | none => none

/-- The first loop of `Bucket::Insert`: overwrite the value of the first item
whose key matches; `none` when no item matches. -/
def updateItem [DecidableEq K] (key : K) (value : V) : List (K × V) → Option (List (K × V))
  | [] => none
  | it :: rest =>
    if it.1 = key then some ((it.1, value) :: rest)
    else match updateItem key value rest with
      | some rest1 => some (it :: rest1)
      | none => none

/-- `Bucket::Find`. -/
def Find [DecidableEq K] (b : Bucket K V) (key : K) : Option V := findItem key b.items_

/-- `Bucket::Remove`: the bucket afterwards and the returned flag. -/
def Remove [DecidableEq K] (b : Bucket K V) (key : K) : Bucket K V × Bool :=
  match removeItem key b.items_ with
  | some items1 => ({ b with items_ := items1 }, true)
  | none => (b, false)

/-- `Bucket::Insert`: the bucket afterwards and the returned flag. -/
def Insert [DecidableEq K] (b : Bucket K V) (key : K) (value : V) : Bucket K V × Bool :=
  match updateItem key value b.items_ with
  | some items1 => ({ b with items_ := items1 }, true)
  | none =>
    if !b.IsFull then ({ b with items_ := b.items_ ++ [(key, value)] }, true)
    else (b, false)

end Bucket

/-- The table: `bucket_size_`, `global_depth_`, the directory of bucket
pointers, and the arena the pointers refer to. -/
structure Table (K V : Type) where
  bucket_size_ : Nat
  global_depth_ : Nat
  directory_ : List Nat
  buckets_ : List (Bucket K V)
deriving Repr, DecidableEq

variable {K V : Type}

/-- The constructor `ExtendibleHashTable(bucket_size)`: depth 0 and one bucket. -/
def Table.new (bucket_size : Nat) : Table K V :=
  ⟨bucket_size, 0, [0], [Bucket.new 0]⟩

/-- Dereference of a bucket pointer. -/
def Table.bucketAt (t : Table K V) (p : Nat) : Bucket K V := t.buckets_.getD p (Bucket.new 0)

/-- The expression `directory_[index]`. -/
def Table.dirAt (t : Table K V) (index : Nat) : Nat := t.directory_.getD index 0

/-- `IndexOf`: `std::hash<K>()(key) & ((1 << global_depth_) - 1)`; the hash
function is the argument `hash`. The int expression `1 << global_depth_` is
taken without overflow. -/
def IndexOf (hash : K → Nat) (t : Table K V) (key : K) : Nat :=
  hash key &&& ((1 <<< t.global_depth_) - 1)

/-- `Find`. -/
def Find [DecidableEq K] (hash : K → Nat) (t : Table K V) (key : K) : Option V :=
  (t.bucketAt (t.dirAt (IndexOf hash t key))).Find key

/-- `Remove`: the table afterwards and the returned flag. -/
def Remove [DecidableEq K] (hash : K → Nat) (t : Table K V) (key : K) : Table K V × Bool :=
  let bucket := t.dirAt (IndexOf hash t key)
  let r := (t.bucketAt bucket).Remove key
  ({ t with buckets_ := t.buckets_.set bucket r.1 }, r.2)

/-- The redirect loop of `SplitBucket` from directory index `i` on: a slot that
points to `old_bucket` and whose index has `high_bit` set now points to
`new_bucket`. -/
def redirectFrom (old_bucket new_bucket high_bit : Nat) : Nat → List Nat → List Nat
  | _, [] => []
  | i, b :: rest =>
    (if b = old_bucket ∧ (i &&& high_bit) ≠ 0 then new_bucket else b)
      :: redirectFrom old_bucket new_bucket high_bit (i + 1) rest

/-- The last loop of `SplitBucket`: `new_bucket->Insert` for every moved item. -/
def insertAll [DecidableEq K] (b : Bucket K V) : List (K × V) → Bucket K V
  | [] => b
  | it :: rest => insertAll (b.Insert it.1 it.2).1 rest

/-- `SplitBucket(directory_index)`. -/
def SplitBucket [DecidableEq K] (hash : K → Nat) (t : Table K V) (directory_index : Nat) :
    Table K V :=
  let old_bucket := t.dirAt directory_index
  let local_depth := (t.bucketAt old_bucket).depth_
  let t1 : Table K V :=
    if local_depth = t.global_depth_ then
      { t with directory_ := t.directory_ ++ t.directory_, global_depth_ := t.global_depth_ + 1 }
    else t
  let new_bucket := t1.buckets_.length
  let high_bit := 1 <<< local_depth
  let t2 : Table K V :=
    { t1 with
      directory_ := redirectFrom old_bucket new_bucket high_bit 0 t1.directory_ }
  let items := (t.bucketAt old_bucket).items_
  let new_items := items.filter (fun it => t2.dirAt (IndexOf hash t2 it.1) = new_bucket)
  let kept := items.filter (fun it => ¬ t2.dirAt (IndexOf hash t2 it.1) = new_bucket)
  { t2 with
    buckets_ := (t2.buckets_.set old_bucket ⟨local_depth + 1, kept⟩)
                  ++ [insertAll (Bucket.new (local_depth + 1)) new_items] }

/-- The loop of `Insert`: `none` when the fuel runs out before the bucket
accepts the pair. -/
def Insert [DecidableEq K] (hash : K → Nat) : Nat → Table K V → K → V → Option (Table K V)
  | 0, _, _, _ => none
  | fuel + 1, t, key, value =>
    let index := IndexOf hash t key
    let bucket := t.dirAt index
    let r := (t.bucketAt bucket).Insert key value
    if r.2 then some { t with buckets_ := t.buckets_.set bucket r.1 }
    else Insert hash fuel (SplitBucket hash t index) key value

/-- `GetGlobalDepth`. -/
def GetGlobalDepth (t : Table K V) : Nat := t.global_depth_

/-- `GetLocalDepth(directory_index)`. -/
def GetLocalDepth (t : Table K V) (directory_index : Nat) : Nat :=
  (t.bucketAt (t.dirAt directory_index)).depth_

/-- `GetNumBuckets`: the number of distinct pointers in the directory. -/
def GetNumBuckets (t : Table K V) : Nat := t.directory_.dedup.length

end ExtendibleHashTable

namespace ExtendibleHashTable

variable {K V : Type}

/-- Representation invariant of a table: the directory has `2 ^ global_depth_`
slots that point into the arena; every item sits in the bucket its key's
directory slot points to; a bucket holds no key twice and at most
`BUCKET_SIZE` items. -/
structure WF (hash : K → Nat) (t : Table K V) : Prop where
  dir_len : t.directory_.length = 2 ^ t.global_depth_
  dir_lt : ∀ p ∈ t.directory_, p < t.buckets_.length
  home : ∀ p ∈ t.directory_, ∀ it ∈ (t.bucketAt p).items_,
    t.dirAt (IndexOf hash t it.1) = p
  nodup : ∀ p ∈ t.directory_, ((t.bucketAt p).items_.map Prod.fst).Nodup
  cap : ∀ p ∈ t.directory_, (t.bucketAt p).items_.length ≤ BUCKET_SIZE

/-- A call of the public interface that changes the table. -/
inductive Op (K V : Type) where
  | insert (key : K) (value : V)
  | remove (key : K)
deriving Repr, DecidableEq

/-- Run a sequence of calls, each `Insert` with the given fuel. -/
def run [DecidableEq K] (hash : K → Nat) (fuel : Nat) : Table K V → List (Op K V) → Option (Table K V)
  | t, [] => some t
  | t, Op.insert key value :: rest =>
    match Insert hash fuel t key value with
    | some t1 => run hash fuel t1 rest
    | none => none
  | t, Op.remove key :: rest => run hash fuel (Remove hash t key).1 rest

/-- The effect of one call on what is expected for `key`. -/
def applyOp [DecidableEq K] (key : K) (cur : Option V) : Op K V → Option V
  | Op.insert k v => if k = key then some v else cur
  | Op.remove k => if k = key then none else cur

/-- The value of the most recent `Insert(key, v)` of the sequence, if `key` was
inserted and not removed afterwards. -/
def lastValue [DecidableEq K] (key : K) (ops : List (Op K V)) : Option V :=
  ops.foldl (applyOp key) none

end ExtendibleHashTable

namespace ExtendibleHashTable

/-- A sequence of calls that splits buckets, doubles the directory twice,
overwrites key 5 and removes key 2. -/
def sampleOps : List (Op Nat Nat) :=
  [Op.insert 1 10, Op.insert 2 20, Op.insert 3 30, Op.insert 4 40, Op.insert 5 50,
   Op.insert 5 55, Op.remove 2, Op.insert 9 90]

/-- The table `sampleOps` leaves, with the identity hash. -/
def sampleTable : Table Nat Nat :=
  { bucket_size_ := 2,
    global_depth_ := 3,
    directory_ := [0, 1, 0, 2, 0, 3, 0, 2],
    buckets_ := [{ depth_ := 1, items_ := [(4, 40)] },
                 { depth_ := 3, items_ := [(1, 10), (9, 90)] },
                 { depth_ := 2, items_ := [(3, 30)] },
                 { depth_ := 3, items_ := [(5, 55)] }] }

end ExtendibleHashTable

/-! ## Unordered maps as association lists -/

namespace UMap

variable {α β : Type} [DecidableEq α]

/-- `m.find(k)`: the value stored for `k`, if any. -/
def find (m : List (α × β)) (k : α) : Option β :=
  match m with
  | [] => none
  | e :: rest => if e.1 = k then some e.2 else find rest k

/-- `m.erase(k)`. -/
def erase (m : List (α × β)) (k : α) : List (α × β) := m.filter (fun e => ¬ e.1 = k)

/-- `m[k] = v`. -/
def put (m : List (α × β)) (k : α) (v : β) : List (α × β) := (k, v) :: erase m k

end UMap

/-! ## LRU-K replacer (`src/buffer/lru_k_replacer.cpp`) -/

namespace LRUKReplacer

/-- `std::numeric_limits<time_t>::max()` for a 64-bit signed `time_t`. -/
def TIME_MAX : Int := 2 ^ 63 - 1

/-- `static_cast<size_t>(x)` of a signed integer, `size_t` being 64 bits wide. -/
def castSizeT (x : Int) : Nat := (x % 2 ^ 64).toNat

/-- `x++` on a `size_t`. -/
def sizeInc (x : Nat) : Nat := (x + 1) % 2 ^ 64

/-- `x--` on a `size_t`. -/
def sizeDec (x : Nat) : Nat := (x + (2 ^ 64 - 1)) % 2 ^ 64

/-- `FrameInfo`: the access history, the evictable flag and the time of the
first access. -/
structure FrameInfo where
  history : List Int
  evictable : Bool
  earliest_time : Int
deriving Repr, DecidableEq

/-- The constructor `FrameInfo()`. -/
def FrameInfo.init : FrameInfo := ⟨[], false, 0⟩

/-- The replacer. `history_map_` and `cache_map_` map a frame id to its list
iterator; the model keeps their key sets, and erasing through the stored
iterator erases the frame id from the list. -/
structure Replacer where
  current_size_ : Nat
  replacer_size_ : Nat
  k_ : Nat
  frame_table_ : List (Int × FrameInfo)
  history_list_ : List Int
  cache_list_ : List Int
  history_map_ : List Int
  cache_map_ : List Int
deriving Repr, DecidableEq

/-- The constructor `LRUKReplacer(num_frames, k)`. -/
def Replacer.new (num_frames k : Nat) : Replacer :=
  ⟨0, num_frames, k, [], [], [], [], []⟩

/-- The read `frame_table_[frame_id]`: the entry, or a fresh `FrameInfo()`
when there is none. -/
def Replacer.tableAt (r : Replacer) (frame_id : Int) : FrameInfo :=
  (UMap.find r.frame_table_ frame_id).getD FrameInfo.init

/-- `RemoveFrame(frame_id)`. -/
def RemoveFrame (r : Replacer) (frame_id : Int) : Replacer :=
  let r1 : Replacer :=
    if frame_id ∈ r.history_map_ then
      { r with history_list_ := r.history_list_.erase frame_id,
               history_map_ := r.history_map_.erase frame_id }
    else r
  let r2 : Replacer :=
    if frame_id ∈ r1.cache_map_ then
      { r1 with cache_list_ := r1.cache_list_.erase frame_id,
                cache_map_ := r1.cache_map_.erase frame_id }
    else r1
  let r3 : Replacer :=
    if (r2.tableAt frame_id).evictable then { r2 with current_size_ := sizeDec r2.current_size_ }
    else r2
  { r3 with frame_table_ := UMap.erase r3.frame_table_ frame_id }

/-- The loop of `Evict` over the cache list, `frames` being the list from its
back to its front: the first evictable frame met. -/
def scanCache (r : Replacer) : List Int → Option Int
  | [] => none
  | frame_id :: rest => if (r.tableAt frame_id).evictable then some frame_id else scanCache r rest

/-- The loop of `Evict` over the history list: `candidate` and `earliest_time`
after the frames of the list were visited in order. -/
def scanHistory (r : Replacer) : List Int → Int × Int → Int × Int
  | [], acc => acc
  | frame :: rest, (candidate, earliest_time) =>
    let frame_info := r.tableAt frame
    if frame_info.evictable ∧ frame_info.earliest_time < earliest_time then
      scanHistory r rest (frame, frame_info.earliest_time)
    else scanHistory r rest (candidate, earliest_time)

/-- `Evict`: the replacer afterwards and the returned frame id. The frames of
the two lists are tracked in `frame_table_`, so the reads `frame_table_[f]` of
the scans add no entry. -/
def Evict (r : Replacer) : Replacer × Option Int :=
  match (if !r.cache_list_.isEmpty then scanCache r r.cache_list_.reverse else none) with
  | some frame_id => (RemoveFrame r frame_id, some frame_id)
  | none =>
    if !r.history_list_.isEmpty then
      let c := scanHistory r r.history_list_ (-1, TIME_MAX)
      if c.1 ≠ -1 then (RemoveFrame r c.1, some c.1) else (r, none)
    else (r, none)

/-- `RecordAccess(frame_id)`, the clock reading `current_time`. -/
def RecordAccess (r : Replacer) (frame_id : Int) (current_time : Int) : Replacer :=
  if castSizeT frame_id ≥ r.replacer_size_ then r
  else
    let frame_info := r.tableAt frame_id
    let history1 := frame_info.history ++ [current_time]
    let earliest1 := if history1.length = 1 then current_time else frame_info.earliest_time
    let history2 := if history1.length > r.k_ then history1.tail else history1
    let r1 : Replacer :=
      { r with frame_table_ := (UMap.put r.frame_table_ frame_id
          ⟨history2, frame_info.evictable, earliest1⟩) }
    if history2.length < r.k_ then
      let r2 : Replacer :=
        if frame_id ∉ r1.history_map_ then
          { r1 with history_list_ := frame_id :: r1.history_list_,
                    history_map_ := frame_id :: r1.history_map_ }
        else
          { r1 with history_list_ := frame_id :: r1.history_list_.erase frame_id }
      if frame_id ∈ r2.cache_map_ then
        { r2 with cache_list_ := r2.cache_list_.erase frame_id,
                  cache_map_ := r2.cache_map_.erase frame_id }
      else r2
    else
      let r2 : Replacer :=
        if frame_id ∉ r1.cache_map_ then
          { r1 with cache_list_ := frame_id :: r1.cache_list_,
                    cache_map_ := frame_id :: r1.cache_map_ }
        else
          { r1 with cache_list_ := frame_id :: r1.cache_list_.erase frame_id }
      if frame_id ∈ r2.history_map_ then
        { r2 with history_list_ := r2.history_list_.erase frame_id,
                  history_map_ := r2.history_map_.erase frame_id }
      else r2

/-- `SetEvictable(frame_id, set_evictable)`. -/
def SetEvictable (r : Replacer) (frame_id : Int) (set_evictable : Bool) : Replacer :=
  match UMap.find r.frame_table_ frame_id with
  | none => r
  | some frame_info =>
    let size1 :=
      if frame_info.evictable ∧ ¬ set_evictable then sizeDec r.current_size_
      else if ¬ frame_info.evictable ∧ set_evictable then sizeInc r.current_size_
      else r.current_size_
    { r with current_size_ := size1,
             frame_table_ := (UMap.put r.frame_table_ frame_id
               { frame_info with evictable := set_evictable }) }

/-- `Remove(frame_id)`. -/
def Remove (r : Replacer) (frame_id : Int) : Replacer :=
  match UMap.find r.frame_table_ frame_id with
  | none => r
  | some frame_info => if !frame_info.evictable then r else RemoveFrame r frame_id

/-- `Size`. -/
def Size (r : Replacer) : Nat := r.current_size_

/-- A call of the public interface; `access` carries the clock reading. -/
inductive Op where
  | access (frame_id : Int) (current_time : Int)
  | setEvictable (frame_id : Int) (set_evictable : Bool)
  | evict
  | remove (frame_id : Int)
deriving Repr, DecidableEq

/-- The replacer after one call. -/
def step (r : Replacer) : Op → Replacer
  | Op.access f t => RecordAccess r f t
  | Op.setEvictable f b => SetEvictable r f b
  | Op.evict => (Evict r).1
  | Op.remove f => Remove r f

/-- The replacer after a sequence of calls. -/
def run (r : Replacer) (ops : List Op) : Replacer := ops.foldl step r

/-- The number of tracked frames whose evictable flag is set. -/
def evictableCount (r : Replacer) : Nat :=
  (r.frame_table_.filter (fun e => e.2.evictable)).length

/-- Frame ids are `int32_t` values. -/
def validFrame (f : Int) : Prop := -(2 : Int) ^ 31 ≤ f ∧ f < 2 ^ 31

instance (f : Int) : Decidable (validFrame f) := by unfold validFrame; infer_instance

/-- The frame id passed by a call is an `int32_t` value. -/
def validOp : Op → Prop
  | Op.access f _ => validFrame f
  | Op.setEvictable f _ => validFrame f
  | Op.evict => True
  | Op.remove f => validFrame f

instance (op : Op) : Decidable (validOp op) := by
  cases op <;> unfold validOp <;> infer_instance

/-- The frame ids passed by a sequence of calls are `int32_t` values. -/
def validOps (ops : List Op) : Prop := ∀ op ∈ ops, validOp op

instance (ops : List Op) : Decidable (validOps ops) := by unfold validOps; infer_instance

end LRUKReplacer

namespace LRUKReplacer

/-- The invariant behind `Size`: one entry per tracked frame, frame ids in the
`int32_t` range, and `current_size_` counting the evictable entries. -/
structure SizeInv (r : Replacer) : Prop where
  nodup : (r.frame_table_.map Prod.fst).Nodup
  valid : ∀ f ∈ r.frame_table_.map Prod.fst, validFrame f
  size : r.current_size_ = evictableCount r

/-- The state of `test_lruk_simple.cpp` before its `Evict`: `k = 2`, frames
1 to 6 accessed once at times 1 to 6, frames 1 to 5 evictable, frame 6 not. -/
def sampleOps : List Op :=
  [Op.access 1 1, Op.access 2 2, Op.access 3 3, Op.access 4 4, Op.access 5 5, Op.access 6 6,
   Op.setEvictable 1 true, Op.setEvictable 2 true, Op.setEvictable 3 true,
   Op.setEvictable 4 true, Op.setEvictable 5 true, Op.setEvictable 6 false]

end LRUKReplacer

namespace LRUKReplacer

/-- Frame `f` is tracked, evictable, and has fewer than `k_` recorded accesses. -/
def YoungEvictable (r : Replacer) (f : Int) : Prop :=
  match UMap.find r.frame_table_ f with
  | some info => info.evictable = true ∧ info.history.length < r.k_
  | none => False

instance (r : Replacer) (f : Int) : Decidable (YoungEvictable r f) := by
  unfold YoungEvictable; split <;> infer_instance

/-- Frame `f` is tracked, evictable, and has `k_` or more recorded accesses. -/
def MatureEvictable (r : Replacer) (f : Int) : Prop :=
  match UMap.find r.frame_table_ f with
  | some info => info.evictable = true ∧ r.k_ ≤ info.history.length
  | none => False

instance (r : Replacer) (f : Int) : Decidable (MatureEvictable r f) := by
  unfold MatureEvictable; split <;> infer_instance

/-- The oldest access the history of `f` holds; for a frame with fewer than
`k_` accesses this is its first access. -/
def firstAccess (r : Replacer) (f : Int) : Int := (r.tableAt f).history.headD 0

/-- With `k_` accesses recorded, the oldest timestamp of the history is the
`k_`-th most recent access. -/
def kthRecent (r : Replacer) (f : Int) : Int := (r.tableAt f).history.headD 0

/-- The clock readings of the `RecordAccess` calls of a sequence, in order. -/
def timestamps : List Op → List Int
  | [] => []
  | Op.access _ t :: rest => t :: timestamps rest
  | Op.setEvictable _ _ :: rest => timestamps rest
  | Op.evict :: rest => timestamps rest
  | Op.remove _ :: rest => timestamps rest

/-- The clock readings of a sequence of calls increase strictly and stay below
`TIME_MAX`. -/
def StrictClock (ops : List Op) : Prop :=
  (timestamps ops).Pairwise (fun a b => a < b) ∧ ∀ t ∈ timestamps ops, t < TIME_MAX

instance (ops : List Op) : Decidable (StrictClock ops) := by unfold StrictClock; infer_instance

/-- The claim C5 in a state `r`: if every evictable frame has `k_` or more
accesses, `Evict` returns the evictable frame whose `k_`-th most recent access
is oldest. -/
def EvictsLargestKDistance (r : Replacer) : Prop :=
  (∃ f, MatureEvictable r f) → (∀ f, ¬ YoungEvictable r f) →
  ∃ g, (Evict r).2 = some g ∧ MatureEvictable r g ∧
    ∀ f, MatureEvictable r f → kthRecent r g ≤ kthRecent r f

/-- Structure of the two lists: each tracked frame is in the history list when
it has fewer than `k_` accesses and in the cache list otherwise, the maps have
the keys of their lists, nothing is listed twice, tracked frame ids passed the
range check, and a frame with fewer than `k_` accesses has its first access
as the oldest entry of its history. -/
structure ListInv (r : Replacer) : Prop where
  nodup : (r.frame_table_.map Prod.fst).Nodup
  hist_nodup : r.history_list_.Nodup
  cache_nodup : r.cache_list_.Nodup
  hmap_nodup : r.history_map_.Nodup
  cmap_nodup : r.cache_map_.Nodup
  hmap : ∀ f, f ∈ r.history_map_ ↔ f ∈ r.history_list_
  cmap : ∀ f, f ∈ r.cache_map_ ↔ f ∈ r.cache_list_
  hist : ∀ f, f ∈ r.history_list_ ↔
    ∃ info, UMap.find r.frame_table_ f = some info ∧ info.history.length < r.k_
  cache : ∀ f, f ∈ r.cache_list_ ↔
    ∃ info, UMap.find r.frame_table_ f = some info ∧ r.k_ ≤ info.history.length
  range : ∀ f info, UMap.find r.frame_table_ f = some info → castSizeT f < r.replacer_size_
  young_first : ∀ f info, UMap.find r.frame_table_ f = some info →
    info.history.length < r.k_ → info.history.head? = some info.earliest_time

/-- The earliest-access times of tracked frames are among the clock readings
`seen` so far, and different for different frames. -/
structure TimeInv (r : Replacer) (seen : List Int) : Prop where
  below : ∀ f info, UMap.find r.frame_table_ f = some info → info.earliest_time ∈ seen
  distinct : ∀ f g info1 info2, UMap.find r.frame_table_ f = some info1 →
    UMap.find r.frame_table_ g = some info2 → f ≠ g →
    info1.earliest_time ≠ info2.earliest_time

/-- Two frames with `k = 2` accesses each; frame 1 has the older second-most
recent access (time 2 against time 3) and the most recent access (time 5). -/
def reaccessOps : List Op :=
  [Op.access 1 1, Op.access 1 2, Op.access 2 3, Op.access 2 4, Op.access 1 5,
   Op.setEvictable 1 true, Op.setEvictable 2 true]

end LRUKReplacer

/-! ## Buffer pool manager (`src/buffer/buffer_pool_manager_instance.cpp`) -/

namespace BufferPoolManager

open ExtendibleHashTable (Table)
open LRUKReplacer (Replacer)

/-- The sentinel page id. -/
def INVALID_PAGE_ID : Int := -1

/-- Modelled from the spec: `PAGE_SIZE`, the fixed size of a page in bytes
("design parameter, e.g. 4096"); its definition is in a header outside the
sources at hand. -/
def PAGE_SIZE : Nat := 4096

/-- A frame of the pool: the page bytes and the metadata `page_id_`,
`pin_count_`, `is_dirty_`. -/
structure Page where
  data_ : List Nat
  page_id_ : Int
  pin_count_ : Int
  is_dirty_ : Bool
deriving Repr, DecidableEq

/-- `ResetMemory`: all bytes zero. -/
def zeroData : List Nat := List.replicate PAGE_SIZE 0

/-- A frame as the pool's constructor leaves it. -/
def Page.init : Page := ⟨zeroData, INVALID_PAGE_ID, 0, false⟩

/-- `std::hash<page_id_t>`: the identity, converted to `size_t`. -/
def pageHash (page_id : Int) : Nat := LRUKReplacer.castSizeT page_id

/-- The pool. `next_page_id_` and `disk_` stand for collaborators whose code is
outside the sources at hand: the page-id allocator and the disk manager. -/
structure BPM where
  pool_size_ : Nat
  pages_ : List Page
  page_table_ : Table Int Int
  replacer_ : Replacer
  free_list_ : List Int
  next_page_id_ : Int
  disk_ : List (Int × List Nat)
deriving Repr

/-- Modelled from the spec: `DiskManager::ReadPage`, which yields the bytes of
the last `WritePage` for the id (zero bytes for a page never written). -/
def ReadPage (disk : List (Int × List Nat)) (page_id : Int) : List Nat :=
  (UMap.find disk page_id).getD zeroData

/-- Modelled from the spec: `DiskManager::WritePage`. -/
def WritePage (disk : List (Int × List Nat)) (page_id : Int) (data : List Nat) :
    List (Int × List Nat) :=
  UMap.put disk page_id data

/-- The constructor: every frame on the free list, an empty page table of
default bucket size, a replacer for `pool_size` frames. -/
def BPM.new (pool_size replacer_k : Nat) : BPM :=
  { pool_size_ := pool_size,
    pages_ := List.replicate pool_size Page.init,
    page_table_ := Table.new ExtendibleHashTable.BUCKET_SIZE,
    replacer_ := Replacer.new pool_size replacer_k,
    free_list_ := (List.range pool_size).map Int.ofNat,
    next_page_id_ := 0,
    disk_ := [] }

/-- The expression `pages_[frame_id]`. -/
def BPM.pageAt (s : BPM) (frame_id : Int) : Page := s.pages_.getD frame_id.toNat Page.init

/-- Assignment to `pages_[frame_id]`. -/
def BPM.setPage (s : BPM) (frame_id : Int) (page : Page) : BPM :=
  { s with pages_ := s.pages_.set frame_id.toNat page }

/-- `GetAvailableFrame`: the pool afterwards and the frame, if any. -/
def GetAvailableFrame (s : BPM) : BPM × Option Int :=
  match s.free_list_ with
  | frame_id :: rest => ({ s with free_list_ := rest }, some frame_id)
  | [] =>
    match LRUKReplacer.Evict s.replacer_ with
    | (replacer1, some frame_id) =>
      let page := s.pageAt frame_id
      let disk1 := if page.is_dirty_ then WritePage s.disk_ page.page_id_ page.data_ else s.disk_
      let table1 := (ExtendibleHashTable.Remove pageHash s.page_table_ page.page_id_).1
      let s1 : BPM := { s with replacer_ := replacer1, disk_ := disk1, page_table_ := table1 }
      (s1.setPage frame_id ⟨zeroData, INVALID_PAGE_ID, 0, false⟩, some frame_id)
    | (_, none) => (s, none)

/-- `NewPgImp`: the pool afterwards, the id written to `*page_id` and the
returned frame (`none` for `nullptr`); `now` is the clock reading of the
replacer, `fuel` bounds the loop of the page table's `Insert`. -/
def NewPgImp (fuel : Nat) (s : BPM) (now : Int) : Option (BPM × Int × Option Int) :=
  let page_id := s.next_page_id_
  let s0 : BPM := { s with next_page_id_ := s.next_page_id_ + 1 }
  match GetAvailableFrame s0 with
  | (s1, none) => some (s1, page_id, none)
  | (s1, some frame_id) =>
    let s2 := s1.setPage frame_id ⟨zeroData, page_id, 1, false⟩
    match ExtendibleHashTable.Insert pageHash fuel s2.page_table_ page_id frame_id with
    | none => none
    | some table1 =>
      some ({ s2 with
              page_table_ := table1,
              replacer_ := (LRUKReplacer.SetEvictable
                (LRUKReplacer.RecordAccess s2.replacer_ frame_id now) frame_id false) },
            page_id, some frame_id)

/-- `FetchPgImp`: the pool afterwards and the returned frame. -/
def FetchPgImp (fuel : Nat) (s : BPM) (page_id : Int) (now : Int) : Option (BPM × Option Int) :=
  match ExtendibleHashTable.Find pageHash s.page_table_ page_id with
  | some frame_id =>
    let page := s.pageAt frame_id
    let s1 := s.setPage frame_id { page with pin_count_ := page.pin_count_ + 1 }
    some ({ s1 with replacer_ := (LRUKReplacer.SetEvictable
              (LRUKReplacer.RecordAccess s1.replacer_ frame_id now) frame_id false) },
          some frame_id)
  | none =>
    match GetAvailableFrame s with
    | (s1, none) => some (s1, none)
    | (s1, some frame_id) =>
      let s2 := s1.setPage frame_id ⟨ReadPage s1.disk_ page_id, page_id, 1, false⟩
      match ExtendibleHashTable.Insert pageHash fuel s2.page_table_ page_id frame_id with
      | none => none
      | some table1 =>
        some ({ s2 with
                page_table_ := table1,
                replacer_ := (LRUKReplacer.SetEvictable
                  (LRUKReplacer.RecordAccess s2.replacer_ frame_id now) frame_id false) },
              some frame_id)

/-- `UnpinPgImp`. -/
def UnpinPgImp (s : BPM) (page_id : Int) (is_dirty : Bool) : BPM × Bool :=
  match ExtendibleHashTable.Find pageHash s.page_table_ page_id with
  | none => (s, false)
  | some frame_id =>
    let page := s.pageAt frame_id
    if page.pin_count_ = 0 then (s, false)
    else
      let page1 : Page :=
        { page with pin_count_ := page.pin_count_ - 1,
                    is_dirty_ := if is_dirty then true else page.is_dirty_ }
      let s1 := s.setPage frame_id page1
      if page1.pin_count_ = 0 then
        ({ s1 with replacer_ := LRUKReplacer.SetEvictable s1.replacer_ frame_id true }, true)
      else (s1, true)

/-- `FlushPgImp`. -/
def FlushPgImp (s : BPM) (page_id : Int) : BPM × Bool :=
  match ExtendibleHashTable.Find pageHash s.page_table_ page_id with
  | none => (s, false)
  | some frame_id =>
    let page := s.pageAt frame_id
    let s1 : BPM := { s with disk_ := WritePage s.disk_ page_id page.data_ }
    (s1.setPage frame_id { page with is_dirty_ := false }, true)

/-- `DeletePgImp`. `DeallocatePage` leaves the disk contents as they are. -/
def DeletePgImp (s : BPM) (page_id : Int) : BPM × Bool :=
  match ExtendibleHashTable.Find pageHash s.page_table_ page_id with
  | none => (s, true)
  | some frame_id =>
    let page := s.pageAt frame_id
    if page.pin_count_ > 0 then (s, false)
    else
      let disk1 := if page.is_dirty_ then WritePage s.disk_ page_id page.data_ else s.disk_
      let s1 : BPM :=
        { s with disk_ := disk1,
                 page_table_ := (ExtendibleHashTable.Remove pageHash s.page_table_ page_id).1,
                 replacer_ := LRUKReplacer.Remove s.replacer_ frame_id }
      let s2 := s1.setPage frame_id ⟨zeroData, INVALID_PAGE_ID, 0, false⟩
      ({ s2 with free_list_ := s2.free_list_ ++ [frame_id] }, true)

/-- The loop of `FlushAllPgsImp` over the frames from index `i` on. -/
def flushFrom : Nat → List Page → List (Int × List Nat) → List Page × List (Int × List Nat)
  | _, [], disk => ([], disk)
  | i, page :: rest, disk =>
    if page.page_id_ ≠ INVALID_PAGE_ID ∧ page.is_dirty_ then
      let r := flushFrom (i + 1) rest (WritePage disk page.page_id_ page.data_)
      ({ page with is_dirty_ := false } :: r.1, r.2)
    else
      let r := flushFrom (i + 1) rest disk
      (page :: r.1, r.2)

/-- `FlushAllPgsImp`. -/
def FlushAllPgsImp (s : BPM) : BPM :=
  let r := flushFrom 0 s.pages_ s.disk_
  { s with pages_ := r.1, disk_ := r.2 }

/-- The caller of `NewPage`/`FetchPage` writing `data` through the returned
pointer while it holds a pin on the page. -/
def WriteData (s : BPM) (page_id : Int) (data : List Nat) : BPM :=
  match ExtendibleHashTable.Find pageHash s.page_table_ page_id with
  | none => s
  | some frame_id =>
    let page := s.pageAt frame_id
    if page.pin_count_ > 0 then s.setPage frame_id { page with data_ := data } else s

/-- A call of the public interface, with the clock reading where the replacer
records an access; `write` is the caller's write into a pinned page. -/
inductive Op where
  | newPage (now : Int)
  | fetchPage (page_id : Int) (now : Int)
  | unpinPage (page_id : Int) (is_dirty : Bool)
  | flushPage (page_id : Int)
  | flushAll
  | deletePage (page_id : Int)
  | write (page_id : Int) (data : List Nat)
deriving Repr, DecidableEq

/-- The pool after one call; `none` when the page table's `Insert` ran out of
fuel. -/
def step (fuel : Nat) (s : BPM) : Op → Option BPM
  | Op.newPage now => (NewPgImp fuel s now).map (fun r => r.1)
  | Op.fetchPage page_id now => (FetchPgImp fuel s page_id now).map (fun r => r.1)
  | Op.unpinPage page_id is_dirty => some (UnpinPgImp s page_id is_dirty).1
  | Op.flushPage page_id => some (FlushPgImp s page_id).1
  | Op.flushAll => some (FlushAllPgsImp s)
  | Op.deletePage page_id => some (DeletePgImp s page_id).1
  | Op.write page_id data => some (WriteData s page_id data)

/-- The pool after a sequence of calls. -/
def run (fuel : Nat) : BPM → List Op → Option BPM
  | s, [] => some s
  | s, op :: rest =>
    match step fuel s op with
    | some s1 => run fuel s1 rest
    | none => none

/-- `FetchPage` takes the id of an existing page: one that `NewPage` handed out
before the call. -/
def existingId (s : BPM) : Op → Bool
  | Op.fetchPage page_id _ => decide (page_id < s.next_page_id_)
  | _ => true

/-- Every `FetchPage` of the sequence is called with the id of an existing
page. -/
def fetchesExisting (fuel : Nat) : BPM → List Op → Bool
  | _, [] => true
  | s, op :: rest =>
    existingId s op &&
      (match step fuel s op with
       | some s1 => fetchesExisting fuel s1 rest
       | none => true)

end BufferPoolManager

namespace BufferPoolManager

/-- `page_table_->Find(page_id, frame_id)`. -/
def BPM.lookup (s : BPM) (page_id : Int) : Option Int :=
  ExtendibleHashTable.Find pageHash s.page_table_ page_id

/-- The invariant of the pool. `hole` is a frame that `GetAvailableFrame` has
just handed out and that the caller has not yet entered into the page table;
between public calls there is none.

The page table is well formed and maps a resident page id to a frame of the
pool that stores this id (`mapped`); resident ids were allocated (`fresh`);
the free list has no duplicates, holds frames of the pool that no page id maps
to and that store the invalid id; every frame of the pool is free or mapped
(`cover`); the replacer tracks only mapped frames, and for a mapped frame its
evictable flag is set exactly when the pin count is zero (`pinned`). -/
structure BPInvX (s : BPM) (hole : Option Int) : Prop where
  table_wf : ExtendibleHashTable.WF pageHash s.page_table_
  pages_len : s.pages_.length = s.pool_size_
  rep_size : s.replacer_.replacer_size_ = s.pool_size_
  pool_small : s.pool_size_ < 2 ^ 64
  mapped : ∀ p f : Int, s.lookup p = some f →
    0 ≤ f ∧ f < (s.pool_size_ : Int) ∧ (s.pageAt f).page_id_ = p
  fresh : ∀ p f : Int, s.lookup p = some f → p < s.next_page_id_
  free_nodup : s.free_list_.Nodup
  free_range : ∀ f : Int, f ∈ s.free_list_ → 0 ≤ f ∧ f < (s.pool_size_ : Int)
  free_unmapped : ∀ f : Int, f ∈ s.free_list_ → ∀ p : Int, s.lookup p ≠ some f
  free_invalid : ∀ f : Int, f ∈ s.free_list_ → (s.pageAt f).page_id_ = INVALID_PAGE_ID
  cover : ∀ f : Int, 0 ≤ f → f < (s.pool_size_ : Int) →
    hole = some f ∨ f ∈ s.free_list_ ∨ ∃ p : Int, s.lookup p = some f
  hole_ok : ∀ f : Int, hole = some f →
    0 ≤ f ∧ f < (s.pool_size_ : Int) ∧ f ∉ s.free_list_ ∧ (∀ p : Int, s.lookup p ≠ some f) ∧
    UMap.find s.replacer_.frame_table_ f = none
  tracked_resident : ∀ (f : Int) (info : LRUKReplacer.FrameInfo),
    UMap.find s.replacer_.frame_table_ f = some info → ∃ p : Int, s.lookup p = some f
  pinned : ∀ p f : Int, s.lookup p = some f →
    0 ≤ (s.pageAt f).pin_count_ ∧
    ∃ info, UMap.find s.replacer_.frame_table_ f = some info ∧
      (info.evictable = true ↔ (s.pageAt f).pin_count_ = 0)

/-- The invariant of the pool between public calls. -/
def BPInv (s : BPM) : Prop := BPInvX s none

/-- The logical content of page `p` is `B`: a resident page holds `B` in its
frame and is dirty or has `B` on disk, a page that is not resident has `B` on
disk; the id `p` is allocated. -/
def Content (s : BPM) (p : Int) (B : List Nat) : Prop :=
  p < s.next_page_id_ ∧
  match s.lookup p with
  | some f => (s.pageAt f).data_ = B ∧ ((s.pageAt f).is_dirty_ = true ∨ ReadPage s.disk_ p = B)
  | none => ReadPage s.disk_ p = B

/-- No call of the sequence is a write of the caller into page `p`. -/
def noWriteTo (p : Int) (ops : List Op) : Bool :=
  ops.all (fun op =>
    match op with
    | Op.write q _ => decide (q ≠ p)
    | _ => true)

end BufferPoolManager

namespace BufferPoolManager

/-- A pool of three frames: three pages created, a fourth `NewPage` that fails,
page 1 unpinned dirty and evicted by the next `NewPage`, a `FetchPage(1)` that
fails while all frames are pinned, page 0 unpinned, page 1 fetched back. -/
def sampleOps : List Op :=
  [Op.newPage 1, Op.newPage 2, Op.newPage 3, Op.newPage 4, Op.unpinPage 1 true, Op.newPage 5,
   Op.fetchPage 1 6, Op.unpinPage 0 false, Op.fetchPage 1 7]

/-- The pool `sampleOps` leaves. -/
def sampleState : BPM := (run 40 (BPM.new 3 2) sampleOps).getD (BPM.new 3 2)

/-- A pool of one frame: page 0 is created and unpinned clean. -/
def setupOps : List Op := [Op.newPage 1, Op.unpinPage 0 false]

/-- The pool `setupOps` leaves. -/
def setupState : BPM := (run 40 (BPM.new 1 2) setupOps).getD (BPM.new 1 2)

/-- Page 1 is created, which evicts page 0, and unpinned. -/
def evictOps : List Op := [Op.newPage 3, Op.unpinPage 1 false]

end BufferPoolManager

namespace BufferPoolManager

/-- A pool of one frame with page 0 created and still pinned. -/
def pinnedOps : List Op := [Op.newPage 1]

/-- The pool `pinnedOps` leaves. -/
def pinnedState : BPM := (run 40 (BPM.new 1 2) pinnedOps).getD (BPM.new 1 2)

/-- After the write and the dirty unpin of page 0: page 1 is created, which
evicts page 0, and is unpinned. -/
def afterOps : List Op := [Op.newPage 2, Op.unpinPage 1 false]

/-- The pool after the caller wrote `[7, 7]` into page 0, unpinned it dirty,
and `afterOps` ran. -/
def evictedState : BPM :=
  (run 40 (UnpinPgImp (WriteData pinnedState 0 [7, 7]) 0 true).1 afterOps).getD (BPM.new 1 2)

/-- The pool after `FetchPage(0)` in `evictedState`. -/
def refetchedState : BPM :=
  ((FetchPgImp 40 evictedState 0 3).map (fun r => r.1)).getD (BPM.new 1 2)

end BufferPoolManager

namespace ExtendibleHashTable

variable {K V : Type}

/-- Shape of a directory of `2 ^ gd` slots, where `dir i` is the bucket slot
`i` points to and `depth p` the local depth of bucket `p`: no local depth
exceeds `gd`, and two slots point to the same bucket exactly when their
indices agree on the low local-depth bits. -/
def ShapeF (gd : Nat) (dir : Nat → Nat) (depth : Nat → Nat) : Prop :=
  (∀ i, i < 2 ^ gd → depth (dir i) ≤ gd) ∧
  ∀ i j, i < 2 ^ gd → j < 2 ^ gd →
    (dir i = dir j ↔ i % 2 ^ depth (dir i) = j % 2 ^ depth (dir i))

/-- The directory shape of a table. -/
def Shape (t : Table K V) : Prop :=
  ShapeF t.global_depth_ t.dirAt (fun p => (t.bucketAt p).depth_)

end ExtendibleHashTable

namespace ExtendibleHashTable

variable {K V : Type}

/-- The flag `Insert` returns: its only return statement is `return true`,
reached when the bucket accepts the pair. -/
def InsertReturn [DecidableEq K] (hash : K → Nat) (fuel : Nat) (t : Table K V) (key : K)
    (value : V) : Option Bool :=
  (Insert hash fuel t key value).map (fun _ => true)

/-- A fresh table after `Insert(5, 50)`. -/
def dupTable : Table Nat Nat :=
  { bucket_size_ := 2, global_depth_ := 0, directory_ := [0],
    buckets_ := [{ depth_ := 0, items_ := [(5, 50)] }] }

/-- The table `dupTable` after `Insert(5, 55)`. -/
def dupTableAfter : Table Nat Nat :=
  { bucket_size_ := 2, global_depth_ := 0, directory_ := [0],
    buckets_ := [{ depth_ := 0, items_ := [(5, 55)] }] }

/-- A table constructed with `bucket_size = 1` after `Insert(0, 0)` and
`Insert(1, 1)`. -/
def oneSlotTable : Table Nat Nat :=
  { bucket_size_ := 1, global_depth_ := 0, directory_ := [0],
    buckets_ := [{ depth_ := 0, items_ := [(0, 0), (1, 1)] }] }

/-- A table constructed with `bucket_size = 3` after `Insert(0, 0)`,
`Insert(2, 2)` and `Insert(4, 4)`. -/
def threeSlotTable : Table Nat Nat :=
  { bucket_size_ := 3, global_depth_ := 2, directory_ := [0, 1, 2, 1],
    buckets_ := [{ depth_ := 2, items_ := [(0, 0), (4, 4)] },
                 { depth_ := 1, items_ := [] },
                 { depth_ := 2, items_ := [(2, 2)] }] }

end ExtendibleHashTable

/-! ## B+ tree pages (`src/storage/page/b_plus_tree_internal_page.cpp`; the
leaf page and the common page header follow the specification) -/

namespace BPlusTree

/-- `INVALID_PAGE_ID`. -/
def INVALID_PAGE_ID : Int := BufferPoolManager.INVALID_PAGE_ID

/-- `HEADER_PAGE_ID`: the header page has page id 0 (comment of
`UpdateRootPageId`). -/
def HEADER_PAGE_ID : Int := 0

/-- What stops an operation: a failed `assert`, a page pointer that does not
refer to a B+ tree page of the expected kind, an array slot outside
`[0, GetSize())`, or the fuel of a loop or recursion running out. -/
inductive Err where
  | assertion
  | bad_page
  | bad_index
  | out_of_fuel
deriving Repr, DecidableEq

/-- Modelled from the spec: `min_size = ⌈max_size / 2⌉`, for leaf and internal
pages alike (`BPlusTreePage::GetMinSize`). -/
def minSizeOf (max_size : Nat) : Nat := (max_size + 1) / 2

/-- Modelled from the spec: a leaf page; header fields page id, parent id, max
size, next-leaf id, and the sorted array of `(key, record-id)` pairs. The size
field is the length of `array_`. -/
structure LeafPage (K V : Type) where
  page_id_ : Int
  parent_page_id_ : Int
  max_size_ : Nat
  next_page_id_ : Int
  array_ : List (K × V)
deriving Repr, DecidableEq

/-- An internal page: header fields and the array of `(key, child page id)`
pairs; the key of slot 0 is unused. The size field is the length of `array_`. -/
structure InternalPage (K : Type) where
  page_id_ : Int
  parent_page_id_ : Int
  max_size_ : Nat
  array_ : List (K × Int)
deriving Repr, DecidableEq

namespace LeafPage

variable {K V : Type}

/-- Modelled from the spec: `Init(page_id, parent_id, max_size)`, an empty leaf
with no successor. -/
def Init (page_id parent_id : Int) (max_size : Nat) : LeafPage K V :=
  ⟨page_id, parent_id, max_size, INVALID_PAGE_ID, []⟩

/-- `GetSize`. -/
def GetSize (p : LeafPage K V) : Nat := p.array_.length

/-- Modelled from the spec: `GetMinSize`. -/
def GetMinSize (p : LeafPage K V) : Nat := minSizeOf p.max_size_

/-- Modelled from the spec: `KeyAt(index)`. -/
def KeyAt (p : LeafPage K V) (index : Nat) : Except Err K :=
  match p.array_.get? index with
  | some it => .ok it.1
  | none => .error .bad_index

/-- Modelled from the spec: insertion of a pair in sorted position; a list
that already holds the key is left as it is. -/
def insertSorted [LinearOrder K] (key : K) (value : V) : List (K × V) → List (K × V)
  | [] => [(key, value)]
  | it :: rest =>
    if it.1 < key then it :: insertSorted key value rest
    else if it.1 = key then it :: rest
    else (key, value) :: it :: rest

/-- Modelled from the spec: `Insert(key, value)`, "insert in sorted position;
on duplicate … without mutation"; the page afterwards and the returned size. -/
def Insert [LinearOrder K] (p : LeafPage K V) (key : K) (value : V) : LeafPage K V × Nat :=
  let p1 := { p with array_ := insertSorted key value p.array_ }
  (p1, p1.GetSize)

/-- Modelled from the spec: `Lookup(key)`, "search for the exact key". -/
def Lookup [DecidableEq K] (p : LeafPage K V) (key : K) : Option V :=
  (p.array_.find? (fun it => it.1 = key)).map Prod.snd

/-- Modelled from the spec: `RemoveAndDeleteRecord(key)`, "remove the entry";
the page afterwards and the returned size. -/
def RemoveAndDeleteRecord [DecidableEq K] (p : LeafPage K V) (key : K) : LeafPage K V × Nat :=
  let p1 := { p with array_ := p.array_.filter (fun it => ¬ it.1 = key) }
  (p1, p1.GetSize)

/-- Modelled from the spec: `MoveHalfTo(recipient)`, "move the upper half of
entries" to the new leaf: the entries from index `GetMinSize()` on. The pair is
the page and the recipient afterwards. -/
def MoveHalfTo (p recipient : LeafPage K V) : LeafPage K V × LeafPage K V :=
  ({ p with array_ := p.array_.take p.GetMinSize },
   { recipient with array_ := recipient.array_ ++ p.array_.drop p.GetMinSize })

/-- Modelled from the spec: `MoveAllTo(recipient)`, "merge node into sibling":
the recipient takes all entries and the successor link. -/
def MoveAllTo (p recipient : LeafPage K V) : LeafPage K V × LeafPage K V :=
  ({ p with array_ := [] },
   { recipient with array_ := recipient.array_ ++ p.array_, next_page_id_ := p.next_page_id_ })

/-- Modelled from the spec: `MoveFirstToEndOf(recipient)`, "move one entry
across" from the right sibling. -/
def MoveFirstToEndOf (p recipient : LeafPage K V) : LeafPage K V × LeafPage K V :=
  ({ p with array_ := p.array_.drop 1 },
   { recipient with array_ := recipient.array_ ++ p.array_.take 1 })

/-- Modelled from the spec: `MoveLastToFrontOf(recipient)`, "move one entry
across" from the left sibling. -/
def MoveLastToFrontOf (p recipient : LeafPage K V) : LeafPage K V × LeafPage K V :=
  ({ p with array_ := p.array_.take (p.array_.length - 1) },
   { recipient with array_ := p.array_.drop (p.array_.length - 1) ++ recipient.array_ })

end LeafPage

namespace InternalPage

variable {K : Type}

/-- `Init(page_id, parent_id, max_size)`. -/
def Init (page_id parent_id : Int) (max_size : Nat) : InternalPage K :=
  ⟨page_id, parent_id, max_size, []⟩

/-- `GetSize`. -/
def GetSize (p : InternalPage K) : Nat := p.array_.length

/-- Modelled from the spec: `GetMinSize`. -/
def GetMinSize (p : InternalPage K) : Nat := minSizeOf p.max_size_

/-- `KeyAt(index)`. -/
def KeyAt (p : InternalPage K) (index : Nat) : Except Err K :=
  match p.array_.get? index with
  | some it => .ok it.1
  | none => .error .bad_index

/-- `SetKeyAt(index, key)`; a write to a slot beyond `GetSize()` changes no
live entry. -/
def SetKeyAt (p : InternalPage K) (index : Nat) (key : K) : InternalPage K :=
  match p.array_.get? index with
  | some it => { p with array_ := p.array_.set index (key, it.2) }
  | none => p

/-- `ValueAt(index)`. -/
def ValueAt (p : InternalPage K) (index : Nat) : Except Err Int :=
  match p.array_.get? index with
  | some it => .ok it.2
  | none => .error .bad_index

/-- `ValueIndex(value)`: the first slot holding `value`, or `GetSize()`. -/
def ValueIndex (p : InternalPage K) (value : Int) : Nat :=
  (p.array_.takeWhile (fun it => ¬ it.2 = value)).length

/-- The `std::lower_bound` of `Lookup` over the slots from 1 on: the first slot
whose key is not less than `key`, or `GetSize()` (the range is partitioned
when the keys ascend). -/
def lowerBound [LinearOrder K] (p : InternalPage K) (key : K) : Nat :=
  1 + ((p.array_.drop 1).takeWhile (fun it => it.1 < key)).length

/-- `Lookup(key)`. -/
def Lookup [LinearOrder K] (p : InternalPage K) (key : K) : Except Err Int :=
  let target := p.lowerBound key
  if p.GetSize = 0 then .error .bad_index
  else if target ≥ p.GetSize then p.ValueAt (p.GetSize - 1)
  else
    match p.array_.get? target with
    | some it => if it.1 = key then .ok it.2 else p.ValueAt (target - 1)
    | none => .error .bad_index

/-- `PopulateNewRoot(old_value, new_key, new_value)` on a page of size 0; the
key of slot 0 is what the zeroed page holds. -/
def PopulateNewRoot [Inhabited K] (p : InternalPage K) (old_value : Int) (new_key : K)
    (new_value : Int) : InternalPage K :=
  { p with array_ := [(default, old_value), (new_key, new_value)] }

/-- `InsertNodeAfter(old_value, new_key, new_value)`. -/
def InsertNodeAfter (p : InternalPage K) (old_value : Int) (new_key : K) (new_value : Int) :
    Except Err (InternalPage K) :=
  let new_value_index := p.ValueIndex old_value + 1
  if new_value_index ≤ p.GetSize then
    .ok { p with array_ := p.array_.take new_value_index ++ (new_key, new_value)
                              :: p.array_.drop new_value_index }
  else .error .bad_index

/-- `Remove(index)`. -/
def Remove (p : InternalPage K) (index : Nat) : Except Err (InternalPage K) :=
  if index < p.GetSize then .ok { p with array_ := p.array_.eraseIdx index }
  else .error .bad_index

end InternalPage

end BPlusTree

/-! ## B+ tree (`src/storage/index/b_plus_tree.cpp`)

The buffer pool is taken with enough frames: a page, once written, is found
again under its id, `NewPage` and `FetchPage` never return null. The pool
keeps a pin count and a dirty flag per page id. Pointers to page data are page
ids; a change made through a pointer is written to the page at once. -/

namespace BPlusTree

/-- The data of a B+ tree page, viewed through `BPlusTreePage`. -/
inductive TreePage (K V : Type) where
  | leaf (p : LeafPage K V)
  | internal (p : InternalPage K)
deriving Repr, DecidableEq

namespace TreePage

variable {K V : Type}

/-- `IsLeafPage`. -/
def IsLeafPage : TreePage K V → Bool
  | leaf _ => true
  | internal _ => false

/-- `GetPageId`. -/
def GetPageId : TreePage K V → Int
  | leaf p => p.page_id_
  | internal p => p.page_id_

/-- `GetParentPageId`. -/
def GetParentPageId : TreePage K V → Int
  | leaf p => p.parent_page_id_
  | internal p => p.parent_page_id_

/-- `SetParentPageId`. -/
def SetParentPageId : TreePage K V → Int → TreePage K V
  | leaf p, id => leaf { p with parent_page_id_ := id }
  | internal p, id => internal { p with parent_page_id_ := id }

/-- `GetSize`. -/
def GetSize : TreePage K V → Nat
  | leaf p => p.GetSize
  | internal p => p.GetSize

/-- `GetMaxSize`. -/
def GetMaxSize : TreePage K V → Nat
  | leaf p => p.max_size_
  | internal p => p.max_size_

/-- Modelled from the spec: `GetMinSize`. -/
def GetMinSize (p : TreePage K V) : Nat := minSizeOf p.GetMaxSize

/-- Modelled from the spec: `IsRootPage`, the parent id is `INVALID_PAGE_ID`. -/
def IsRootPage (p : TreePage K V) : Bool := decide (p.GetParentPageId = INVALID_PAGE_ID)

end TreePage

/-- `enum class Operation`. -/
inductive Operation where
  | SEARCH
  | INSERT
  | DELETE
deriving Repr, DecidableEq

/-- The tree object together with what it reaches through its pointers: the
pages of the buffer pool by page id with their pin counts and dirty flags, the
id the pool allocates next, the root record of the header page, and the page
set and deleted page set of the one transaction the calls are made with
(`none` in the page set is the `nullptr` that stands for the root latch). The
latches of the pages are not part of the state: a page is write-latched while
it is in the page set, and an operation latches only pages below those of its
own page set. -/
structure Tree (K V : Type) where
  root_page_id_ : Int
  leaf_max_size_ : Nat
  internal_max_size_ : Nat
  pages_ : List (Int × TreePage K V)
  pin_count_ : List (Int × Nat)
  is_dirty_ : List (Int × Bool)
  next_page_id_ : Int
  header_record_ : Option Int
  page_set_ : List (Option Int)
  deleted_page_set_ : List Int
deriving Repr, DecidableEq

variable {K V : Type}

/-- The constructor: an empty tree. The header page (id 0) is allocated, the
pool hands out ids from 1 on. -/
def Tree.new (leaf_max_size internal_max_size : Nat) : Tree K V :=
  { root_page_id_ := INVALID_PAGE_ID, leaf_max_size_ := leaf_max_size,
    internal_max_size_ := internal_max_size, pages_ := [], pin_count_ := [], is_dirty_ := [],
    next_page_id_ := 1, header_record_ := none, page_set_ := [], deleted_page_set_ := [] }

/-- `IsEmpty`. -/
def IsEmpty (t : Tree K V) : Bool := decide (t.root_page_id_ = INVALID_PAGE_ID)

/-- Whether `root_page_id_latch_` is write-locked. `WLock()` is followed at once
by `transaction->AddIntoPageSet(nullptr)`, and `WUnlock()` is called only by
`ReleaseLatchFromQueue`, when it takes that entry out: the latch is
write-locked exactly while the page set holds a `nullptr`. -/
def Tree.rootLatchHeld (t : Tree K V) : Bool := t.page_set_.contains none

/-- The pin count of a page. -/
def Tree.pinOf (t : Tree K V) (page_id : Int) : Nat := (UMap.find t.pin_count_ page_id).getD 0

/-- The dirty flag of a page. -/
def Tree.dirtyOf (t : Tree K V) (page_id : Int) : Bool :=
  (UMap.find t.is_dirty_ page_id).getD false

/-- The data of the page with the given id, as a B+ tree page. -/
def Tree.pageAt (t : Tree K V) (page_id : Int) : Except Err (TreePage K V) :=
  match UMap.find t.pages_ page_id with
  | some p => .ok p
  | none => .error .bad_page

/-- The data of a page, reinterpreted as a leaf page. -/
def Tree.leafAt (t : Tree K V) (page_id : Int) : Except Err (LeafPage K V) :=
  match UMap.find t.pages_ page_id with
  | some (.leaf p) => .ok p
  | _ => .error .bad_page

/-- The data of a page, reinterpreted as an internal page. -/
def Tree.internalAt (t : Tree K V) (page_id : Int) : Except Err (InternalPage K) :=
  match UMap.find t.pages_ page_id with
  | some (.internal p) => .ok p
  | _ => .error .bad_page

/-- The pages after a write to page `page_id`: its data is replaced where it
stands, a page not yet written is added at the end. -/
def assign (m : List (Int × TreePage K V)) (page_id : Int) (p : TreePage K V) :
    List (Int × TreePage K V) :=
  match m with
  | [] => [(page_id, p)]
  | e :: rest => if e.1 = page_id then (page_id, p) :: rest else e :: assign rest page_id p

/-- A write through a pointer to the data of page `page_id`. -/
def Tree.setPage (t : Tree K V) (page_id : Int) (p : TreePage K V) : Tree K V :=
  { t with pages_ := assign t.pages_ page_id p }

/-- `buffer_pool_manager_->NewPage(&page_id)`: the fresh id, pinned once. -/
def NewPage (t : Tree K V) : Tree K V × Int :=
  ({ t with next_page_id_ := t.next_page_id_ + 1,
            pin_count_ := UMap.put t.pin_count_ t.next_page_id_ 1,
            is_dirty_ := UMap.put t.is_dirty_ t.next_page_id_ false },
   t.next_page_id_)

/-- The pin taken by `buffer_pool_manager_->FetchPage(page_id)`. -/
def Tree.pin (t : Tree K V) (page_id : Int) : Tree K V :=
  { t with pin_count_ := UMap.put t.pin_count_ page_id (t.pinOf page_id + 1) }

/-- `buffer_pool_manager_->FetchPage(page_id)` for a B+ tree page: the page is
pinned and its data returned. -/
def FetchPage (t : Tree K V) (page_id : Int) : Except Err (Tree K V × TreePage K V) :=
  match t.pageAt page_id with
  | .ok p => .ok (t.pin page_id, p)
  | .error e => .error e

/-- `buffer_pool_manager_->UnpinPage(page_id, is_dirty)`. -/
def UnpinPage (t : Tree K V) (page_id : Int) (is_dirty : Bool) : Tree K V :=
  if t.pinOf page_id = 0 then t
  else
    { t with pin_count_ := UMap.put t.pin_count_ page_id (t.pinOf page_id - 1),
             is_dirty_ := UMap.put t.is_dirty_ page_id (t.dirtyOf page_id || is_dirty) }

/-- `buffer_pool_manager_->DeletePage(page_id)`: refused while the page is
pinned. -/
def DeletePage (t : Tree K V) (page_id : Int) : Tree K V :=
  if t.pinOf page_id > 0 then t
  else
    { t with pages_ := UMap.erase t.pages_ page_id,
             pin_count_ := UMap.erase t.pin_count_ page_id,
             is_dirty_ := UMap.erase t.is_dirty_ page_id }

/-- `transaction->AddIntoPageSet(page)`. -/
def AddIntoPageSet (t : Tree K V) (page : Option Int) : Tree K V :=
  { t with page_set_ := t.page_set_ ++ [page] }

/-- `transaction->AddIntoDeletedPageSet(page_id)`. -/
def AddIntoDeletedPageSet (t : Tree K V) (page_id : Int) : Tree K V :=
  { t with deleted_page_set_ := t.deleted_page_set_ ++ [page_id] }

/-- `ReleaseLatchFromQueue`: every page of the page set is unpinned as not
dirty, front first. -/
def ReleaseLatchFromQueue (t : Tree K V) : Tree K V :=
  let t1 := t.page_set_.foldl
    (fun acc page => match page with
      | none => acc
      | some page_id => UnpinPage acc page_id false) t
  { t1 with page_set_ := [] }

/-- Modelled from the spec: `HeaderPage::InsertRecord(index_name_, root_id)`,
which adds the record of this index if the header page has none. -/
def HeaderInsertRecord (t : Tree K V) (root_id : Int) : Tree K V :=
  match t.header_record_ with
  | none => { t with header_record_ := some root_id }
  | some _ => t

/-- Modelled from the spec: `HeaderPage::UpdateRecord(index_name_, root_id)`,
which changes the record of this index if the header page has one. -/
def HeaderUpdateRecord (t : Tree K V) (root_id : Int) : Tree K V :=
  match t.header_record_ with
  | none => t
  | some _ => { t with header_record_ := some root_id }

/-- `UpdateRootPageId(insert_record)`. -/
def UpdateRootPageId (t : Tree K V) (insert_record : Int) : Tree K V :=
  let t1 := t.pin HEADER_PAGE_ID
  let t2 :=
    if insert_record ≠ 0 then HeaderInsertRecord t1 t1.root_page_id_
    else HeaderUpdateRecord t1 t1.root_page_id_
  UnpinPage t2 HEADER_PAGE_ID true

end BPlusTree

namespace BPlusTree

variable {K V : Type}

/-- The loop of `CopyNFrom`, and the tail of `CopyLastFrom` and
`CopyFirstFrom`: the page of each moved child is fetched, its parent id set to
the recipient's page id, and unpinned as dirty. -/
def adoptChildren (page_id : Int) : Tree K V → List (K × Int) → Except Err (Tree K V)
  | t, [] => .ok t
  | t, item :: rest =>
    match FetchPage t item.2 with
    | .error e => .error e
    | .ok (t1, node) =>
      adoptChildren page_id
        (UnpinPage (t1.setPage item.2 (node.SetParentPageId page_id)) item.2 true) rest

/-- `recipient->CopyNFrom(items, size, buffer_pool_manager)`; `recipient` is
the page id of the recipient. -/
def InternalPage.CopyNFrom (t : Tree K V) (recipient : Int) (items : List (K × Int)) :
    Except Err (Tree K V) := do
  let this ← t.internalAt recipient
  let t1 ← adoptChildren this.page_id_ t items
  let this1 ← t1.internalAt recipient
  pure (t1.setPage recipient (.internal { this1 with array_ := this1.array_ ++ items }))

/-- `recipient->CopyLastFrom(pair, buffer_pool_manager)`. -/
def InternalPage.CopyLastFrom (t : Tree K V) (recipient : Int) (pair : K × Int) :
    Except Err (Tree K V) := do
  let this ← t.internalAt recipient
  let t1 := t.setPage recipient (.internal { this with array_ := this.array_ ++ [pair] })
  adoptChildren this.page_id_ t1 [pair]

/-- `recipient->CopyFirstFrom(pair, buffer_pool_manager)`. -/
def InternalPage.CopyFirstFrom (t : Tree K V) (recipient : Int) (pair : K × Int) :
    Except Err (Tree K V) := do
  let this ← t.internalAt recipient
  let t1 := t.setPage recipient (.internal { this with array_ := pair :: this.array_ })
  adoptChildren this.page_id_ t1 [pair]

/-- `self.MoveHalfTo(recipient, buffer_pool_manager)` on the scratch copy
`self`: the copy afterwards and the pool. -/
def InternalPage.MoveHalfTo (t : Tree K V) (self : InternalPage K) (recipient : Int) :
    Except Err (Tree K V × InternalPage K) := do
  let start_split_index := self.GetMinSize
  if start_split_index > self.GetSize then throw Err.bad_index
  let t1 ← InternalPage.CopyNFrom t recipient (self.array_.drop start_split_index)
  pure (t1, { self with array_ := self.array_.take start_split_index })

/-- `page->MoveAllTo(recipient, middle_key, buffer_pool_manager)`. -/
def InternalPage.MoveAllTo (t : Tree K V) (page recipient : Int) (middle_key : K) :
    Except Err (Tree K V) := do
  let this ← t.internalAt page
  let this1 := this.SetKeyAt 0 middle_key
  let t1 := t.setPage page (.internal this1)
  let t2 ← InternalPage.CopyNFrom t1 recipient this1.array_
  let this2 ← t2.internalAt page
  pure (t2.setPage page (.internal { this2 with array_ := [] }))

/-- `page->MoveFirstToEndOf(recipient, middle_key, buffer_pool_manager)`. -/
def InternalPage.MoveFirstToEndOf (t : Tree K V) (page recipient : Int) (middle_key : K) :
    Except Err (Tree K V) := do
  let this ← t.internalAt page
  let this1 := this.SetKeyAt 0 middle_key
  let t1 := t.setPage page (.internal this1)
  match this1.array_ with
  | [] => throw Err.bad_index
  | first_item :: _ =>
    let t2 ← InternalPage.CopyLastFrom t1 recipient first_item
    let this2 ← t2.internalAt page
    pure (t2.setPage page (.internal { this2 with array_ := this2.array_.drop 1 }))

/-- `page->MoveLastToFrontOf(recipient, middle_key, buffer_pool_manager)`. -/
def InternalPage.MoveLastToFrontOf (t : Tree K V) (page recipient : Int) (middle_key : K) :
    Except Err (Tree K V) := do
  let this ← t.internalAt page
  match this.array_.getLast? with
  | none => throw Err.bad_index
  | some last_item =>
    let rec_page ← t.internalAt recipient
    let t1 := t.setPage recipient (.internal (rec_page.SetKeyAt 0 middle_key))
    let t2 ← InternalPage.CopyFirstFrom t1 recipient last_item
    let this2 ← t2.internalAt page
    pure (t2.setPage page
      (.internal { this2 with array_ := this2.array_.take (this2.array_.length - 1) }))

end BPlusTree

namespace BPlusTree

variable {K V : Type}

/-- The latch-crabbing step of `FindLeaf` on the root page: for an insertion or
a deletion the page set is released when the root is safe. -/
def crabRoot (t : Tree K V) (operation : Operation) (node : TreePage K V) : Tree K V :=
  match operation with
  | .SEARCH => t
  | .DELETE => if node.GetSize > 2 then ReleaseLatchFromQueue t else t
  | .INSERT =>
    let t1 :=
      if node.IsLeafPage ∧ node.GetSize + 1 < node.GetMaxSize then ReleaseLatchFromQueue t else t
    if ¬ node.IsLeafPage ∧ node.GetSize < node.GetMaxSize then ReleaseLatchFromQueue t1 else t1

/-- The latch-crabbing step of `FindLeaf` on the way from `page` to its child. -/
def crabChild (t : Tree K V) (operation : Operation) (page : Int) (child_node : TreePage K V) :
    Tree K V :=
  match operation with
  | .SEARCH => UnpinPage t page false
  | .INSERT =>
    let t1 := AddIntoPageSet t (some page)
    let t2 :=
      if child_node.IsLeafPage ∧ child_node.GetSize + 1 < child_node.GetMaxSize
      then ReleaseLatchFromQueue t1 else t1
    if ¬ child_node.IsLeafPage ∧ child_node.GetSize < child_node.GetMaxSize
    then ReleaseLatchFromQueue t2 else t2
  | .DELETE =>
    let t1 := AddIntoPageSet t (some page)
    if child_node.GetSize > child_node.GetMinSize then ReleaseLatchFromQueue t1 else t1

/-- The `while (!node->IsLeafPage())` loop of `FindLeaf`; `page` is the id of
the page the loop stands on, `node` its data. -/
def descend [LinearOrder K] (key : K) (operation : Operation) (leftMost rightMost : Bool) :
    Nat → Tree K V → Int → TreePage K V → Except Err (Tree K V × Int)
  | _, t, page, .leaf _ => .ok (t, page)
  | 0, _, _, .internal _ => .error .out_of_fuel
  | fuel + 1, t, page, .internal i_node =>
    let child := if leftMost then i_node.ValueAt 0
      else if rightMost then
        (if i_node.GetSize = 0 then .error .bad_index else i_node.ValueAt (i_node.GetSize - 1))
      else i_node.Lookup key
    match child with
    | .error e => .error e
    | .ok child_node_page_id =>
      if ¬ child_node_page_id > 0 then .error .assertion
      else
        match FetchPage t child_node_page_id with
        | .error e => .error e
        | .ok (t1, child_node) =>
          descend key operation leftMost rightMost fuel
            (crabChild t1 operation page child_node) child_node_page_id child_node

/-- `FindLeaf(key, operation, transaction, leftMost, rightMost)`: the pool
afterwards and the id of the leaf page, which is left pinned. -/
def FindLeaf [LinearOrder K] (fuel : Nat) (t : Tree K V) (key : K) (operation : Operation)
    (leftMost rightMost : Bool) : Except Err (Tree K V × Int) :=
  if operation = .SEARCH ∧ leftMost ∧ rightMost then .error .assertion
  else if t.root_page_id_ = INVALID_PAGE_ID then .error .assertion
  else
    match FetchPage t t.root_page_id_ with
    | .error e => .error e
    | .ok (t1, node) =>
      descend key operation leftMost rightMost fuel (crabRoot t1 operation node)
        t.root_page_id_ node

/-- `GetValue(key, result, transaction)`: the pool afterwards and the value
pushed to `result`, if the key exists (the call then returns true). It starts
with `root_page_id_latch_.RLock()`, which `FindLeaf` unlocks: in the one thread
of the model a latch that is write-locked stays so, and the call waits for
ever, which is to run out of fuel whatever the fuel. -/
def GetValue [LinearOrder K] (fuel : Nat) (t : Tree K V) (key : K) :
    Except Err (Tree K V × Option V) :=
  if t.rootLatchHeld then .error .out_of_fuel
  else do
    let (t1, leaf_page) ← FindLeaf fuel t key .SEARCH false false
    let node ← t1.leafAt leaf_page
    let existed := node.Lookup key
    pure (UnpinPage t1 leaf_page false, existed)

/-- `StartNewTree(key, value)`. -/
def StartNewTree [LinearOrder K] (t : Tree K V) (key : K) (value : V) : Tree K V :=
  let (t1, page_id) := NewPage t
  let t2 := { t1 with root_page_id_ := page_id }
  let leaf : LeafPage K V := LeafPage.Init t2.root_page_id_ INVALID_PAGE_ID t2.leaf_max_size_
  let t3 := t2.setPage page_id (.leaf (leaf.Insert key value).1)
  UnpinPage t3 page_id true

/-- `Split(node)` for a leaf page `node`: the pool afterwards and the new
page. -/
def SplitLeaf (t : Tree K V) (node : Int) : Except Err (Tree K V × Int) := do
  let (t1, new_page_id) := NewPage t
  let leaf ← t1.leafAt node
  let new_leaf : LeafPage K V := LeafPage.Init new_page_id leaf.parent_page_id_ t1.leaf_max_size_
  let (leaf1, new_leaf1) := leaf.MoveHalfTo new_leaf
  let t2 := t1.setPage new_page_id (.leaf new_leaf)
  let t3 := t2.setPage node (.leaf leaf1)
  pure (t3.setPage new_page_id (.leaf new_leaf1), new_page_id)

/-- `Split(node)` for the scratch copy `node` of an internal page: the pool
afterwards, the copy afterwards and the new page. -/
def SplitInternal (t : Tree K V) (node : InternalPage K) :
    Except Err (Tree K V × InternalPage K × Int) := do
  let (t1, new_page_id) := NewPage t
  let new_internal : InternalPage K :=
    InternalPage.Init new_page_id node.parent_page_id_ t1.internal_max_size_
  let t2 := t1.setPage new_page_id (.internal new_internal)
  let (t3, node1) ← InternalPage.MoveHalfTo t2 node new_page_id
  pure (t3, node1, new_page_id)

/-- `InsertIntoParent(old_node, key, new_node, transaction)`; the two nodes
are given by the ids of their pages. -/
def InsertIntoParent [Inhabited K] (fuel : Nat) (t : Tree K V) (old_node : Int) (key : K)
    (new_node : Int) : Except Err (Tree K V) :=
  match fuel with
  | 0 => .error .out_of_fuel
  | fuel + 1 => do
    let old ← t.pageAt old_node
    let new ← t.pageAt new_node
    if old.IsRootPage then
      let (t1, page_id) := NewPage t
      let t2 := { t1 with root_page_id_ := page_id }
      let new_root : InternalPage K :=
        (InternalPage.Init t2.root_page_id_ INVALID_PAGE_ID t2.internal_max_size_).PopulateNewRoot
          old.GetPageId key new.GetPageId
      let t3 := t2.setPage page_id (.internal new_root)
      let old1 ← t3.pageAt old_node
      let t4 := t3.setPage old_node (old1.SetParentPageId new_root.page_id_)
      let new1 ← t4.pageAt new_node
      let t5 := t4.setPage new_node (new1.SetParentPageId new_root.page_id_)
      let t6 := UnpinPage t5 page_id true
      pure (ReleaseLatchFromQueue (UpdateRootPageId t6 0))
    else
      let (t1, parent) ← FetchPage t old.GetParentPageId
      match parent with
      | .leaf _ => throw Err.bad_page
      | .internal parent_node =>
        if parent_node.GetSize < t1.internal_max_size_ then
          let parent_node1 ← parent_node.InsertNodeAfter old.GetPageId key new.GetPageId
          let t2 := t1.setPage old.GetParentPageId (.internal parent_node1)
          pure (UnpinPage (ReleaseLatchFromQueue t2) old.GetParentPageId true)
        else
          let copy_parent_node ← parent_node.InsertNodeAfter old.GetPageId key new.GetPageId
          let (t2, copy1, parent_new_sibling_node) ← SplitInternal t1 copy_parent_node
          let sibling ← t2.internalAt parent_new_sibling_node
          let new_key ← sibling.KeyAt 0
          let t3 := t2.setPage old.GetParentPageId (.internal copy1)
          let t4 ← InsertIntoParent fuel t3 old.GetParentPageId new_key parent_new_sibling_node
          let sibling1 ← t4.internalAt parent_new_sibling_node
          pure (UnpinPage (UnpinPage t4 old.GetParentPageId true) sibling1.page_id_ true)

/-- `InsertIntoLeaf(key, value, transaction)`: the pool afterwards and the
returned flag. -/
def InsertIntoLeaf [LinearOrder K] [Inhabited K] (fuel : Nat) (t : Tree K V) (key : K)
    (value : V) : Except Err (Tree K V × Bool) := do
  let (t1, leaf_page) ← FindLeaf fuel t key .INSERT false false
  let node ← t1.leafAt leaf_page
  let size := node.GetSize
  let (node1, new_size) := node.Insert key value
  let t2 := t1.setPage leaf_page (.leaf node1)
  if new_size = size then
    pure (UnpinPage (ReleaseLatchFromQueue t2) leaf_page false, false)
  else if new_size < t2.leaf_max_size_ then
    pure (UnpinPage (ReleaseLatchFromQueue t2) leaf_page true, true)
  else
    let (t3, sibling_leaf_node) ← SplitLeaf t2 leaf_page
    let node2 ← t3.leafAt leaf_page
    let sibling ← t3.leafAt sibling_leaf_node
    let t4 := t3.setPage sibling_leaf_node
      (.leaf { sibling with next_page_id_ := node2.next_page_id_ })
    let sibling1 ← t4.leafAt sibling_leaf_node
    let node3 ← t4.leafAt leaf_page
    let t5 := t4.setPage leaf_page (.leaf { node3 with next_page_id_ := sibling1.page_id_ })
    let sibling2 ← t5.leafAt sibling_leaf_node
    let risen_key ← sibling2.KeyAt 0
    let t6 ← InsertIntoParent fuel t5 leaf_page risen_key sibling_leaf_node
    let sibling3 ← t6.leafAt sibling_leaf_node
    pure (UnpinPage (UnpinPage t6 leaf_page true) sibling3.page_id_ true, true)

/-- `Insert(key, value, transaction)`: the pool afterwards and the returned
flag. It starts with `root_page_id_latch_.WLock()`: when the latch is still
write-locked the call waits for ever, which is to run out of fuel whatever the
fuel. -/
def Insert [LinearOrder K] [Inhabited K] (fuel : Nat) (t : Tree K V) (key : K) (value : V) :
    Except Err (Tree K V × Bool) :=
  if t.rootLatchHeld then .error .out_of_fuel
  else
    let t1 := AddIntoPageSet t none
    if IsEmpty t1 then .ok (ReleaseLatchFromQueue (StartNewTree t1 key value), true)
    else InsertIntoLeaf fuel t1 key value

end BPlusTree

namespace BPlusTree

variable {K V : Type}

/-- `AdjustRoot(old_root_node)`: the pool afterwards and the returned flag. -/
def AdjustRoot (t : Tree K V) (old_root_node : Int) : Except Err (Tree K V × Bool) := do
  let old_root ← t.pageAt old_root_node
  match old_root with
  | .internal root_node =>
    if root_node.GetSize = 1 then
      let child ← root_node.ValueAt 0
      let (t1, only_child_node) ← FetchPage t child
      let t2 := t1.setPage child (only_child_node.SetParentPageId INVALID_PAGE_ID)
      let only_child_node1 ← t2.pageAt child
      let t3 := { t2 with root_page_id_ := only_child_node1.GetPageId }
      pure (UnpinPage (UpdateRootPageId t3 0) child true, true)
    else pure (t, false)
  | .leaf root_node =>
    if root_node.GetSize = 0 then pure ({ t with root_page_id_ := INVALID_PAGE_ID }, true)
    else pure (t, false)

/-- `Redistribute(neighbor_node, node, parent, index, from_prev)`; the three
pages are given by their ids. -/
def Redistribute (t : Tree K V) (neighbor_node node parent : Int) (index : Nat)
    (from_prev : Bool) : Except Err (Tree K V) := do
  let n ← t.pageAt node
  match n with
  | .leaf leaf_node =>
    let neighbor_leaf_node ← t.leafAt neighbor_node
    if ¬ from_prev then
      let (neighbor1, leaf1) := neighbor_leaf_node.MoveFirstToEndOf leaf_node
      let t1 := (t.setPage neighbor_node (.leaf neighbor1)).setPage node (.leaf leaf1)
      let neighbor2 ← t1.leafAt neighbor_node
      let key ← neighbor2.KeyAt 0
      let p ← t1.internalAt parent
      pure (t1.setPage parent (.internal (p.SetKeyAt (index + 1) key)))
    else
      let (neighbor1, leaf1) := neighbor_leaf_node.MoveLastToFrontOf leaf_node
      let t1 := (t.setPage neighbor_node (.leaf neighbor1)).setPage node (.leaf leaf1)
      let leaf2 ← t1.leafAt node
      let key ← leaf2.KeyAt 0
      let p ← t1.internalAt parent
      pure (t1.setPage parent (.internal (p.SetKeyAt index key)))
  | .internal _ =>
    let p ← t.internalAt parent
    if ¬ from_prev then
      let middle_key ← p.KeyAt (index + 1)
      let t1 ← InternalPage.MoveFirstToEndOf t neighbor_node node middle_key
      let neighbor1 ← t1.internalAt neighbor_node
      let key ← neighbor1.KeyAt 0
      let p1 ← t1.internalAt parent
      pure (t1.setPage parent (.internal (p1.SetKeyAt (index + 1) key)))
    else
      let middle_key ← p.KeyAt index
      let t1 ← InternalPage.MoveLastToFrontOf t neighbor_node node middle_key
      let internal1 ← t1.internalAt node
      let key ← internal1.KeyAt 0
      let p1 ← t1.internalAt parent
      pure (t1.setPage parent (.internal (p1.SetKeyAt index key)))

/-- `Coalesce(neighbor_node, node, parent, index, transaction)`; `recurse` is
the call `CoalesceOrRedistribute(parent, transaction)` that ends it. -/
def Coalesce (recurse : Tree K V → Int → Except Err (Tree K V × Bool)) (t : Tree K V)
    (neighbor_node node parent : Int) (index : Nat) : Except Err (Tree K V × Bool) := do
  let p ← t.internalAt parent
  let middle_key ← p.KeyAt index
  let n ← t.pageAt node
  let t1 ←
    (match n with
     | .leaf leaf_node => do
       let prev_leaf_node ← t.leafAt neighbor_node
       let (leaf1, prev1) := leaf_node.MoveAllTo prev_leaf_node
       pure ((t.setPage node (.leaf leaf1)).setPage neighbor_node (.leaf prev1))
     | .internal _ => InternalPage.MoveAllTo t node neighbor_node middle_key)
  let p1 ← t1.internalAt parent
  let p2 ← p1.Remove index
  recurse (t1.setPage parent (.internal p2)) parent

/-- `CoalesceOrRedistribute(node, transaction)`: the pool afterwards and the
returned flag. -/
def CoalesceOrRedistribute (fuel : Nat) (t : Tree K V) (node : Int) :
    Except Err (Tree K V × Bool) :=
  match fuel with
  | 0 => .error .out_of_fuel
  | fuel + 1 => do
    let n ← t.pageAt node
    if n.IsRootPage then
      let (t1, root_should_delete) ← AdjustRoot t node
      pure (ReleaseLatchFromQueue t1, root_should_delete)
    else if n.GetSize ≥ n.GetMinSize then
      pure (ReleaseLatchFromQueue t, false)
    else
      let parent_page := n.GetParentPageId
      let (t1, parent) ← FetchPage t parent_page
      match parent with
      | .leaf _ => throw Err.bad_page
      | .internal parent_node =>
        let idx := parent_node.ValueIndex n.GetPageId
        if idx > 0 then
          let sibling_page ← parent_node.ValueAt (idx - 1)
          let (t2, sibling_node) ← FetchPage t1 sibling_page
          if sibling_node.GetSize > sibling_node.GetMinSize then
            let t3 ← Redistribute t2 sibling_page node parent_page idx true
            let t4 := ReleaseLatchFromQueue t3
            pure (UnpinPage (UnpinPage t4 parent_page true) sibling_page true, false)
          else
            let (t3, parent_node_should_delete) ←
              Coalesce (CoalesceOrRedistribute fuel) t2 sibling_page node parent_page idx
            let p ← t3.internalAt parent_page
            let t4 := if parent_node_should_delete then AddIntoDeletedPageSet t3 p.page_id_ else t3
            pure (UnpinPage (UnpinPage t4 parent_page true) sibling_page true, true)
        else if idx + 1 ≠ parent_node.GetSize then
          let sibling_page ← parent_node.ValueAt (idx + 1)
          let (t2, sibling_node) ← FetchPage t1 sibling_page
          if sibling_node.GetSize > sibling_node.GetMinSize then
            let t3 ← Redistribute t2 sibling_page node parent_page idx false
            let t4 := ReleaseLatchFromQueue t3
            pure (UnpinPage (UnpinPage t4 parent_page true) sibling_page true, false)
          else
            let sibling_idx := parent_node.ValueIndex sibling_node.GetPageId
            let (t3, parent_node_should_delete) ←
              Coalesce (CoalesceOrRedistribute fuel) t2 node sibling_page parent_page sibling_idx
            let s ← t3.pageAt sibling_page
            let t4 := AddIntoDeletedPageSet t3 s.GetPageId
            let p ← t4.internalAt parent_page
            let t5 := if parent_node_should_delete then AddIntoDeletedPageSet t4 p.page_id_ else t4
            pure (UnpinPage (UnpinPage t5 parent_page true) sibling_page true, false)
        else pure (t1, false)

/-- `Remove(key, transaction)`. It starts with `root_page_id_latch_.WLock()`:
when the latch is still write-locked the call waits for ever, which is to run
out of fuel whatever the fuel. The comparison
`node->GetSize() == node->RemoveAndDeleteRecord(key, comparator_)` is taken
left to right: the size before the removal against the size after it. -/
def Remove [LinearOrder K] (fuel : Nat) (t : Tree K V) (key : K) : Except Err (Tree K V) :=
  if t.rootLatchHeld then .error .out_of_fuel
  else do
    let t0 := AddIntoPageSet t none
    if IsEmpty t0 then pure (ReleaseLatchFromQueue t0)
    else
      let (t1, leaf_page) ← FindLeaf fuel t0 key .DELETE false false
      let node ← t1.leafAt leaf_page
      let size := node.GetSize
      let (node1, new_size) := node.RemoveAndDeleteRecord key
      let t2 := t1.setPage leaf_page (.leaf node1)
      if size = new_size then
        pure (UnpinPage (ReleaseLatchFromQueue t2) leaf_page false)
      else
        let (t3, node_should_delete) ← CoalesceOrRedistribute fuel t2 leaf_page
        let node2 ← t3.leafAt leaf_page
        let t4 := if node_should_delete then AddIntoDeletedPageSet t3 node2.page_id_ else t3
        let t5 := UnpinPage t4 leaf_page true
        let t6 := t5.deleted_page_set_.foldl DeletePage t5
        pure { t6 with deleted_page_set_ := [] }

end BPlusTree

namespace BPlusTree

variable {K V : Type}

/-- `Begin()`: the pool afterwards and the leftmost leaf page the iterator
starts on (left pinned), `none` for the iterator of an empty tree. On a tree
with a root it calls `root_page_id_latch_.RLock()` first and waits for ever
when the latch is write-locked. -/
def Begin [LinearOrder K] [Inhabited K] (fuel : Nat) (t : Tree K V) :
    Except Err (Tree K V × Option Int) :=
  if t.root_page_id_ = INVALID_PAGE_ID then .ok (t, none)
  else if t.rootLatchHeld then .error .out_of_fuel
  else
    match FindLeaf fuel t default .SEARCH true false with
    | .error e => .error e
    | .ok (t1, leftmost_page) => .ok (t1, some leftmost_page)

/-- A call of `Insert` or `Remove`. -/
inductive Op (K V : Type) where
  | insert (key : K) (value : V)
  | remove (key : K)
deriving Repr, DecidableEq

/-- Run a sequence of calls, each with the given fuel. -/
def run [LinearOrder K] [Inhabited K] (fuel : Nat) : Tree K V → List (Op K V) → Except Err (Tree K V)
  | t, [] => .ok t
  | t, .insert key value :: rest =>
    match Insert fuel t key value with
    | .error e => .error e
    | .ok (t1, _) => run fuel t1 rest
  | t, .remove key :: rest =>
    match Remove fuel t key with
    | .error e => .error e
    | .ok t1 => run fuel t1 rest

end BPlusTree

namespace LRUKReplacer

/-- The number of `RecordAccess(f)` calls in a sequence of calls. -/
def accessCount (f : Int) : List Op → Nat
  | [] => 0
  | Op.access g _ :: rest => (if g = f then 1 else 0) + accessCount f rest
  | Op.setEvictable _ _ :: rest => accessCount f rest
  | Op.evict :: rest => accessCount f rest
  | Op.remove _ :: rest => accessCount f rest

/-- The call `op`, made in state `r`, is neither `Remove(f)` nor an `Evict`
that returns `f`. -/
def sparesFrame (f : Int) (r : Replacer) : Op → Bool
  | Op.remove g => decide (g ≠ f)
  | Op.evict => decide ((Evict r).2 ≠ some f)
  | _ => true

/-- No call of the sequence, run from `r`, is a `Remove(f)` or an `Evict` that
returns `f`. -/
def keepsFrame (f : Int) : Replacer → List Op → Bool
  | _, [] => true
  | r, op :: rest => sparesFrame f r op && keepsFrame f (step r op) rest

/-- Three accesses of frame 1 and one of frame 2, interleaved with an `Evict`
that finds nothing evictable. -/
def groupOps : List Op :=
  [Op.access 1 1, Op.access 2 2, Op.evict, Op.access 1 3, Op.setEvictable 2 true, Op.access 1 4]

end LRUKReplacer

namespace LRUKReplacer

/-- Frame 1 accessed and left pinned, frame 2 accessed and made evictable. -/
def removeOps : List Op := [Op.access 1 1, Op.access 2 2, Op.setEvictable 2 true]

end LRUKReplacer

namespace BufferPoolManager

/-- The pool of three frames after its first `NewPage`. -/
def firstPageState : BPM :=
  ((NewPgImp 40 (BPM.new 3 2) 1).map (fun r => r.1)).getD (BPM.new 3 2)

/-- Three pages are created in a pool of three frames and stay pinned. -/
def fillOps : List Op := [Op.newPage 1, Op.newPage 2, Op.newPage 3]

/-- The pool `fillOps` leaves: no free frame, every frame pinned. -/
def fullState : BPM := (run 40 (BPM.new 3 2) fillOps).getD (BPM.new 3 2)

end BufferPoolManager

namespace BufferPoolManager

/-- A pool of one frame: page 0 is created and fetched again, so that two
callers hold a pin on it. -/
def sharedOps : List Op := [Op.newPage 1, Op.fetchPage 0 2]

/-- The pool `sharedOps` leaves. -/
def sharedState : BPM := (run 40 (BPM.new 1 2) sharedOps).getD (BPM.new 1 2)

end BufferPoolManager

namespace ExtendibleHashTable

/-- `std::hash<int>`: the identity, converted to `size_t`. -/
def intHash (key : Int) : Nat := LRUKReplacer.castSizeT key

/-- The inserts of the scenario: keys 1 to 5 in this order, with the values
`"a"` to `"e"`. -/
def fiveInserts : List (Op Int String) :=
  [Op.insert 1 "a", Op.insert 2 "b", Op.insert 3 "c", Op.insert 4 "d", Op.insert 5 "e"]

/-- The table the five inserts leave. -/
def fiveTable : Table Int String :=
  { bucket_size_ := 2,
    global_depth_ := 2,
    directory_ := [0, 1, 0, 2],
    buckets_ := [{ depth_ := 1, items_ := [(2, "b"), (4, "d")] },
                 { depth_ := 2, items_ := [(1, "a"), (5, "e")] },
                 { depth_ := 2, items_ := [(3, "c")] }] }

end ExtendibleHashTable

namespace BufferPoolManager

/-- The pool of three frames, all pinned, after a fourth `NewPage` failed. -/
def failedState : BPM := ((NewPgImp 40 fullState 4).map (fun r => r.1)).getD fullState

/-- The caller writes `[7, 7]` into page `p`, unpins it dirty, and calls
`NewPage` again. -/
def evictResult (p : Int) : Option (BPM × Int × Option Int) :=
  NewPgImp 40 (UnpinPgImp (WriteData failedState p [7, 7]) p true).1 5

/-- The pool after that `NewPage`. -/
def evictedPool (p : Int) : BPM := ((evictResult p).map (fun r => r.1)).getD failedState

/-- Page `q` is unpinned and `FetchPage(p)` is called. -/
def refetchResult (p q : Int) : Option (BPM × Option Int) :=
  FetchPgImp 40 (UnpinPgImp (evictedPool p) q false).1 p 7

/-- The pool after that `FetchPage`. -/
def refetchedPool (p q : Int) : BPM :=
  ((refetchResult p q).map (fun r => r.1)).getD failedState

end BufferPoolManager

/-! ## B+ tree: representation invariant -/

namespace BPlusTree

variable {K V : Type}

/-- The page map of the pool: the data found under each page id. -/
def Tree.pm (t : Tree K V) : Int → Option (TreePage K V) := fun page_id => UMap.find t.pages_ page_id

/-- What the invariant records of a leaf page: its page id, its `next_page_id`
and its pairs. -/
structure LeafView (K V : Type) where
  id : Int
  next : Int
  items : List (K × V)

/-- Strict order of two optional key bounds; `none` is no bound. -/
def ltB [LT K] (lo hi : Option K) : Prop := ∀ l u, lo = some l → hi = some u → l < u

/-- The key `k` lies in `[lo, hi)`; `none` is no bound. -/
def inB [LT K] [LE K] (lo hi : Option K) (k : K) : Prop :=
  (∀ l, lo = some l → l ≤ k) ∧ (∀ u, hi = some u → k < u)

/-- The lower bound of what follows in an internal page: the key of the next
entry, or the upper bound of the page. -/
def nextLo (rest : List (K × Int)) (hi : Option K) : Option K :=
  match rest with
  | [] => hi
  | e :: _ => some e.1

/-- A run of entries of an internal page: the child of each entry represents,
by `R`, the keys from the lower bound handed down to it up to the key of the
next entry, and the bounds ascend strictly. The leaves of the children, left
to right, are `ls`; the page ids they occupy are `ids`. -/
def KidsL [LT K] (R : Int → Option K → Option K → List (LeafView K V) → List Int → Prop) :
    Option K → List (K × Int) → Option K → List (LeafView K V) → List Int → Prop
  | _, [], _, ls, ids => ls = [] ∧ ids = []
  | lo, e :: rest, hi, ls, ids =>
    ltB lo (nextLo rest hi) ∧
    ∃ ls1 ls2 ids1 ids2, ls = ls1 ++ ls2 ∧ ids = ids1 ++ ids2 ∧
      R e.2 lo (nextLo rest hi) ls1 ids1 ∧ KidsL R (nextLo rest hi) rest hi ls2 ids2

/-- The subtree of height `h` rooted at page `pid` is well formed in the page
map `P`: the page records `pid` and the parent `par`, the keys of a leaf ascend
strictly within `[lo, hi)`, the children of an internal page partition
`[lo, hi)` at its keys. With `strict`, a leaf holds a pair and an internal page
two children; below the top page this always holds. -/
def Rep [LinearOrder K] (P : Int → Option (TreePage K V)) (lm im : Nat) :
    Bool → Nat → Int → Int → Option K → Option K → List (LeafView K V) → List Int → Prop
  | strict, 0, pid, par, lo, hi, ls, ids =>
    ∃ L : LeafPage K V, P pid = some (.leaf L) ∧ L.page_id_ = pid ∧ L.parent_page_id_ = par ∧
      L.max_size_ = lm ∧ (L.array_.map Prod.fst).Pairwise (· < ·) ∧
      (∀ e ∈ L.array_, inB lo hi e.1) ∧ (strict = true → L.array_ ≠ []) ∧
      ls = [⟨pid, L.next_page_id_, L.array_⟩] ∧ ids = [pid]
  | strict, h + 1, pid, par, lo, hi, ls, ids =>
    ∃ (N : InternalPage K) (ids1 : List Int), P pid = some (.internal N) ∧ N.page_id_ = pid ∧
      N.parent_page_id_ = par ∧ N.max_size_ = im ∧ N.array_ ≠ [] ∧
      (strict = true → 2 ≤ N.array_.length) ∧
      KidsL (fun c lo1 hi1 ls1 ids2 => Rep P lm im true h c pid lo1 hi1 ls1 ids2)
        lo N.array_ hi ls ids1 ∧
      ids = pid :: ids1

/-- The tree around a subtree: page `pid` at height `h`, `d` levels below the
root, with parent `par` and key range `[lo, hi)`, sits in a well-formed rest of
the tree whose leaves to the left are `lsL`, to the right `lsR`, on the pages
`idsC`. -/
def Ctx [LinearOrder K] (P : Int → Option (TreePage K V)) (lm im : Nat) (root : Int) :
    Nat → Nat → Int → Int → Option K → Option K →
      List (LeafView K V) → List (LeafView K V) → List Int → Prop
  | 0, _, pid, par, lo, hi, lsL, lsR, idsC =>
    pid = root ∧ par = INVALID_PAGE_ID ∧ lo = none ∧ hi = none ∧ lsL = [] ∧ lsR = [] ∧ idsC = []
  | d + 1, h, pid, par, lo, hi, lsL, lsR, idsC =>
    ∃ (N : InternalPage K) (A : List (K × Int)) (kc : K) (B : List (K × Int)) (gpar : Int)
      (loP hiP : Option K) (lsA lsB lsL1 lsR1 : List (LeafView K V)) (idsA idsB idsC1 : List Int),
      P par = some (.internal N) ∧ N.page_id_ = par ∧ N.parent_page_id_ = gpar ∧
      N.max_size_ = im ∧ N.array_ = A ++ (kc, pid) :: B ∧ 2 ≤ N.array_.length ∧
      lo = (if A = [] then loP else some kc) ∧ hi = nextLo B hiP ∧ ltB lo hi ∧
      KidsL (fun c lo1 hi1 ls1 ids2 => Rep P lm im true h c par lo1 hi1 ls1 ids2)
        loP A lo lsA idsA ∧
      KidsL (fun c lo1 hi1 ls1 ids2 => Rep P lm im true h c par lo1 hi1 ls1 ids2)
        hi B hiP lsB idsB ∧
      Ctx P lm im root d (h + 1) par gpar loP hiP lsL1 lsR1 idsC1 ∧
      lsL = lsL1 ++ lsA ∧ lsR = lsB ++ lsR1 ∧ idsC = par :: (idsA ++ idsB ++ idsC1)

/-- The `next_page_id` links of the leaves `ls`, in order, end in `last`. -/
def Chain : List (LeafView K V) → Int → Prop
  | [], _ => True
  | [a], last => a.next = last
  | a :: b :: rest, last => a.next = b.id ∧ Chain (b :: rest) last

/-- The pairs stored in the leaves `ls`, left to right. -/
def contents (ls : List (LeafView K V)) : List (K × V) := (ls.map (fun L => L.items)).flatten

/-- The pages reached from the root form a well-formed tree with the leaves
`ls`, on distinct page ids that the pool has handed out. -/
def WellFormed [LinearOrder K] (t : Tree K V) (ls : List (LeafView K V)) : Prop :=
  ∃ h ids, Rep t.pm t.leaf_max_size_ t.internal_max_size_ true h t.root_page_id_
      INVALID_PAGE_ID none none ls ids ∧
    ids.Nodup ∧ ∀ id ∈ ids, 0 < id ∧ id < t.next_page_id_

/-- Representation invariant of the tree between calls, with the leaves `ls`
of the tree from left to right: the sizes are at least 1 and 3, no page waits
for deletion, the pool hands out positive ids; an empty tree has no root;
otherwise the tree is well formed and its leaves are chained in order. -/
structure TreeInv [LinearOrder K] (t : Tree K V) (ls : List (LeafView K V)) : Prop where
  lm_ge : 1 ≤ t.leaf_max_size_
  im_ge : 3 ≤ t.internal_max_size_
  deleted_nil : t.deleted_page_set_ = []
  next_pos : 0 < t.next_page_id_
  shape : (t.root_page_id_ = INVALID_PAGE_ID ∧ ls = []) ∨
    (WellFormed t ls ∧ Chain ls INVALID_PAGE_ID)

/-- The second state differs from the first in pin counts, dirty flags, the
page set and the header record at most. -/
def SameCore (t t1 : Tree K V) : Prop :=
  t1.pages_ = t.pages_ ∧ t1.root_page_id_ = t.root_page_id_ ∧
  t1.next_page_id_ = t.next_page_id_ ∧ t1.leaf_max_size_ = t.leaf_max_size_ ∧
  t1.internal_max_size_ = t.internal_max_size_ ∧ t1.deleted_page_set_ = t.deleted_page_set_

/-- The effect of one call on the value expected for `key`: `Insert` stores a
value only when the key has none. -/
def applyOp [DecidableEq K] (key : K) (cur : Option V) : Op K V → Option V
  | .insert k v => if k = key then (if cur.isSome then cur else some v) else cur
  | .remove k => if k = key then none else cur

/-- The value the sequence of calls leaves for `key`. -/
def expected [DecidableEq K] (key : K) (ops : List (Op K V)) : Option V :=
  ops.foldl (applyOp key) none

end BPlusTree

namespace BPlusTree

variable {K V : Type}

/-- The value a list of pairs holds for `key`. -/
def lookupKV [DecidableEq K] (l : List (K × V)) (key : K) : Option V :=
  (l.find? (fun it => it.1 = key)).map Prod.snd

/-- The kind and the recorded page id of a page. -/
def kindId (p : TreePage K V) : Bool × Int := (p.IsLeafPage, p.GetPageId)

/-- Every page the pool had handed out keeps its kind and its recorded id, and
the pool hands out no id twice. -/
def KindPres (t t1 : Tree K V) : Prop :=
  t.next_page_id_ ≤ t1.next_page_id_ ∧
  ∀ id, id < t.next_page_id_ → (t.pm id).isSome → (t1.pm id).map kindId = (t.pm id).map kindId

/-- The second state has the root, the sizes, the next page id and the deleted
page set of the first. -/
def SameMeta (t t1 : Tree K V) : Prop :=
  t1.root_page_id_ = t.root_page_id_ ∧ t1.next_page_id_ = t.next_page_id_ ∧
  t1.leaf_max_size_ = t.leaf_max_size_ ∧ t1.internal_max_size_ = t.internal_max_size_ ∧
  t1.deleted_page_set_ = t.deleted_page_set_

end BPlusTree

namespace BPlusTree

variable {K V : Type}

/-- What `InsertIntoParent` owes when `old_node` lies `d` levels below the
root: called on a tree that is well formed around the pair of `old_node`
(keys below `key`) and `new_node` (keys from `key` on), it returns, unless the
fuel is `d` or less, a well-formed tree with the leaves of both in place. -/
def IIPSpec (K V : Type) [LinearOrder K] [Inhabited K] (d : Nat) : Prop :=
  ∀ (fuel : Nat) (t : Tree K V) (o n : Int) (key : K) (h : Nat) (par : Int)
    (lo hi : Option K) (lsL lsR lsO lsN : List (LeafView K V)) (idsC idsO idsN : List Int),
    3 ≤ t.internal_max_size_ →
    Ctx t.pm t.leaf_max_size_ t.internal_max_size_ t.root_page_id_ d h o par lo hi lsL lsR idsC →
    Rep t.pm t.leaf_max_size_ t.internal_max_size_ true h o par lo (some key) lsO idsO →
    Rep t.pm t.leaf_max_size_ t.internal_max_size_ true h n par (some key) hi lsN idsN →
    (idsO ++ idsN ++ idsC).Nodup →
    (∀ id ∈ idsO ++ idsN ++ idsC, 0 < id ∧ id < t.next_page_id_) →
    (fuel ≤ d ∧ InsertIntoParent fuel t o key n = .error .out_of_fuel) ∨
    ∃ t1, InsertIntoParent fuel t o key n = .ok t1 ∧
      t1.leaf_max_size_ = t.leaf_max_size_ ∧ t1.internal_max_size_ = t.internal_max_size_ ∧
      t1.deleted_page_set_ = t.deleted_page_set_ ∧ KindPres t t1 ∧
      WellFormed t1 (lsL ++ (lsO ++ lsN) ++ lsR)

end BPlusTree

namespace BPlusTree

variable {K V : Type}

/-- The page id of the first leaf of `ls`, or `last` when there is none. -/
def headId (ls : List (LeafView K V)) (last : Int) : Int :=
  match ls with
  | [] => last
  | a :: _ => a.id

end BPlusTree

namespace BPlusTree

variable {K V : Type}

/-- What `CoalesceOrRedistribute` leaves: an empty tree, or a well-formed tree
with the leaves `ls1` on the pages `ids1`. -/
def Settled [LinearOrder K] (t1 : Tree K V) (lm im : Nat) (ls1 : List (LeafView K V))
    (ids1 : List Int) : Prop :=
  (t1.root_page_id_ = INVALID_PAGE_ID ∧ ls1 = [] ∧ ids1 = []) ∨
  ∃ h1, Rep t1.pm lm im true h1 t1.root_page_id_ INVALID_PAGE_ID none none ls1 ids1

/-- What `CoalesceOrRedistribute` owes when `node` lies `d` levels below the
root: called on a tree that is well formed around `node`, whose page may hold
too few entries, it returns, unless the fuel is `d` or less, a tree that is
empty or well formed, with the same pairs in the leaves, on pages of the old
tree; the pages it marks for deletion, and `node` when the flag is set, are no
longer part of the tree. -/
def CORSpec (K V : Type) [LinearOrder K] (d : Nat) : Prop :=
  ∀ (fuel : Nat) (t : Tree K V) (node : Int) (h : Nat) (par : Int)
    (lo hi : Option K) (lsL lsR ls : List (LeafView K V)) (idsC ids : List Int),
    1 ≤ t.leaf_max_size_ → 3 ≤ t.internal_max_size_ → t.deleted_page_set_ = [] →
    Ctx t.pm t.leaf_max_size_ t.internal_max_size_ t.root_page_id_ d h node par lo hi lsL lsR
      idsC →
    Rep t.pm t.leaf_max_size_ t.internal_max_size_ false h node par lo hi ls ids →
    (ids ++ idsC).Nodup →
    (∀ id ∈ ids ++ idsC, 0 < id ∧ id < t.next_page_id_) →
    Chain (lsL ++ ls ++ lsR) INVALID_PAGE_ID →
    (fuel ≤ d ∧ CoalesceOrRedistribute fuel t node = .error .out_of_fuel) ∨
    ∃ t1 b, CoalesceOrRedistribute fuel t node = .ok (t1, b) ∧
      t1.leaf_max_size_ = t.leaf_max_size_ ∧ t1.internal_max_size_ = t.internal_max_size_ ∧
      t1.next_page_id_ = t.next_page_id_ ∧ KindPres t t1 ∧
      ∃ ls1 ids1, Settled t1 t.leaf_max_size_ t.internal_max_size_ ls1 ids1 ∧
        Chain ls1 INVALID_PAGE_ID ∧ contents ls1 = contents (lsL ++ ls ++ lsR) ∧
        ids1.Nodup ∧ (∀ id ∈ ids1, id ∈ ids ++ idsC) ∧
        (∀ id ∈ t1.deleted_page_set_, id ∉ ids1) ∧ (b = true → node ∉ ids1)

end BPlusTree

namespace BPlusTree

variable {K V : Type}

/-- What a finished `CoalesceOrRedistribute(node)` leaves, called on `t` with
the leaves `lsAll` on the pages `idsAll`: the sizes and the next page id are
kept, the pages keep their kinds, the tree is empty or well formed with the
same pairs on distinct pages among `idsAll`, none of them scheduled for
deletion, and `node` is none of them when the flag is set. -/
def CORPost [LinearOrder K] (t : Tree K V) (node : Int) (lsAll : List (LeafView K V))
    (idsAll : List Int) (res : Tree K V × Bool) : Prop :=
  res.1.leaf_max_size_ = t.leaf_max_size_ ∧ res.1.internal_max_size_ = t.internal_max_size_ ∧
  res.1.next_page_id_ = t.next_page_id_ ∧ KindPres t res.1 ∧
  ∃ ls1 ids1, Settled res.1 t.leaf_max_size_ t.internal_max_size_ ls1 ids1 ∧
    Chain ls1 INVALID_PAGE_ID ∧ contents ls1 = contents lsAll ∧
    ids1.Nodup ∧ (∀ id ∈ ids1, id ∈ idsAll) ∧
    (∀ id ∈ res.1.deleted_page_set_, id ∉ ids1) ∧ (res.2 = true → node ∉ ids1)

/-- Two adjacent children `l` and `r` of the page `par`, which lies `d` levels
below the root: the tree is well formed around the pair, the subtrees of `l`
and `r` are well formed (strictly so as `sl` and `sr` say) on either side of
the key `kr`, on distinct pages that the pool has handed out, and the leaves
are chained in order. -/
structure PairCtx [LinearOrder K] (t : Tree K V) (d h : Nat) (par gpar l r : Int)
    (N : InternalPage K) (X Y : List (K × Int)) (kl kr : K) (loP hiP : Option K)
    (sl sr : Bool) (lsX lsl lsr lsY lsL1 lsR1 : List (LeafView K V))
    (idsX idsl idsr idsY idsC1 : List Int) : Prop where
  lm_ge : 1 ≤ t.leaf_max_size_
  im_ge : 3 ≤ t.internal_max_size_
  deleted_nil : t.deleted_page_set_ = []
  ctx : Ctx t.pm t.leaf_max_size_ t.internal_max_size_ t.root_page_id_ d (h + 1) par gpar
    loP hiP lsL1 lsR1 idsC1
  pg : t.pm par = some (.internal N)
  pg_id : N.page_id_ = par
  pg_par : N.parent_page_id_ = gpar
  pg_max : N.max_size_ = t.internal_max_size_
  arr : N.array_ = X ++ (kl, l) :: (kr, r) :: Y
  kidsX : KidsL (fun c lo1 hi1 ls1 ids2 =>
      Rep t.pm t.leaf_max_size_ t.internal_max_size_ true h c par lo1 hi1 ls1 ids2)
    loP X (some kl) lsX idsX
  kidsY : KidsL (fun c lo1 hi1 ls1 ids2 =>
      Rep t.pm t.leaf_max_size_ t.internal_max_size_ true h c par lo1 hi1 ls1 ids2)
    (nextLo Y hiP) Y hiP lsY idsY
  left : Rep t.pm t.leaf_max_size_ t.internal_max_size_ sl h l par
    (if X = [] then loP else some kl) (some kr) lsl idsl
  right : Rep t.pm t.leaf_max_size_ t.internal_max_size_ sr h r par (some kr) (nextLo Y hiP)
    lsr idsr
  ltL : ltB (if X = [] then loP else some kl) (some kr)
  ltR : ltB (some kr) (nextLo Y hiP)
  nodup : ((par :: (idsX ++ ((idsl ++ idsr) ++ idsY))) ++ idsC1).Nodup
  bound : ∀ id ∈ (par :: (idsX ++ ((idsl ++ idsr) ++ idsY))) ++ idsC1,
    0 < id ∧ id < t.next_page_id_
  chain : Chain (lsL1 ++ (lsX ++ ((lsl ++ lsr) ++ lsY)) ++ lsR1) INVALID_PAGE_ID

end BPlusTree

namespace BPlusTree

variable {K V : Type}

end BPlusTree

namespace BPlusTree

/-- The calls `Insert(1, 10)`, ..., `Insert(n, 10 n)`. -/
def insertsTo (n : Nat) : List (Op Nat Nat) :=
  (List.range n).map (fun i => Op.insert (i + 1) (10 * (i + 1)))

/-- The tree with `leaf_max_size = 4` and `internal_max_size = 4` after the
calls `ops`, each run with the given fuel; the empty tree if a call fails. -/
def treeAfter (fuel : Nat) (ops : List (Op Nat Nat)) : Tree Nat Nat :=
  match run fuel (Tree.new 4 4) ops with
  | .ok t => t
  | .error _ => Tree.new 4 4

end BPlusTree

namespace BPlusTree

/-- Twenty calls of `Insert` followed by seven calls of `Remove`. -/
def mixedCalls : List (Op Nat Nat) :=
  insertsTo 20 ++ [Op.remove 3, Op.remove 4, Op.remove 11, Op.remove 12, Op.remove 13,
    Op.remove 1, Op.remove 20]

end BPlusTree

namespace LRUKReplacer

/-- The clock readings of the `RecordAccess` calls of a sequence stay below
`TIME_MAX`, the largest `time_t` value (the clock counts seconds). -/
def ClockInRange (ops : List Op) : Prop := ∀ t ∈ timestamps ops, t < TIME_MAX

instance (ops : List Op) : Decidable (ClockInRange ops) := by unfold ClockInRange; infer_instance

/-- The call is `RecordAccess(f)`. -/
def isAccessOf (f : Int) : Op → Bool
  | Op.access g _ => decide (g = f)
  | Op.setEvictable _ _ => false
  | Op.evict => false
  | Op.remove _ => false

/-- No call of the sequence is `RecordAccess(f)`. -/
def noAccess (f : Int) (ops : List Op) : Prop := ∀ op ∈ ops, isAccessOf f op = false

instance (f : Int) (ops : List Op) : Decidable (noAccess f ops) := by
  unfold noAccess; infer_instance

/-- The earliest-access time of every tracked frame is below `TIME_MAX`. -/
def EarliestBelowMax (r : Replacer) : Prop :=
  ∀ f info, UMap.find r.frame_table_ f = some info → info.earliest_time < TIME_MAX

/-- Calls after the state of `test_lruk_simple.cpp`: nothing accesses frame 1. -/
def laterOps : List Op :=
  [Op.access 2 7, Op.setEvictable 1 true, Op.evict, Op.remove 1, Op.access 3 7]

/-- The state of `test_lruk_simple.cpp` before its first `Evict`. -/
def sampleState : Replacer := run (Replacer.new 7 2) sampleOps

end LRUKReplacer

namespace LRUKReplacer

/-- The position, counted from 1 and read on the calls listed latest first, of
the latest `RecordAccess(f)`; 0 when there is none. -/
def lastAccessRev (f : Int) : List Op → Nat
  | [] => 0
  | op :: rest => if isAccessOf f op then rest.length + 1 else lastAccessRev f rest

/-- The position, counted from 1, of the latest `RecordAccess(f)` call in a
sequence of calls; 0 when there is none. -/
def lastAccess (f : Int) (ops : List Op) : Nat := lastAccessRev f ops.reverse

/-- Frame `g` stands before frame `f` in the list `l`. -/
def Before (l : List Int) (g f : Int) : Prop := [g, f].Sublist l

instance (l : List Int) (g f : Int) : Decidable (Before l g f) := by
  unfold Before; infer_instance

/-- The clock stands still: frames 1, 2, 3 are first accessed in this order
within the same second, and all three are evictable (`k = 2`). -/
def sameSecondOps : List Op :=
  [Op.access 1 5, Op.access 2 5, Op.access 3 5,
   Op.setEvictable 1 true, Op.setEvictable 2 true, Op.setEvictable 3 true]

end LRUKReplacer

namespace ExtendibleHashTable

variable {K V : Type}

/-- The table after the first `n` passes of the loop of `Insert(key, _)` that
end in `SplitBucket(IndexOf(key))`. -/
def splitsFor [DecidableEq K] (hash : K → Nat) (key : K) : Nat → Table K V → Table K V
  | 0, t => t
  | n + 1, t => SplitBucket hash (splitsFor hash key n t) (IndexOf hash (splitsFor hash key n t) key)

/-- Keys of three bits hashed to themselves, as `std::hash<int>` does. -/
def bitsHash : Fin 8 → Nat := fun k => k.val

/-- Keys 0 and 4 fill the only bucket; they agree on their two low bits with
each other and on the lowest bit with key 2. -/
def fillOps : List (Op (Fin 8) Nat) := [Op.insert 0 0, Op.insert 4 40]

/-- The table `fillOps` leaves. -/
def fillTable : Table (Fin 8) Nat :=
  { bucket_size_ := 2, global_depth_ := 0, directory_ := [0],
    buckets_ := [{ depth_ := 0, items_ := [(0, 0), (4, 40)] }] }

/-- The table after `Insert(2, 20)` on `fillTable`: two splits, then the pair
is accepted. -/
def fillTableAfter : Table (Fin 8) Nat :=
  { bucket_size_ := 2, global_depth_ := 2, directory_ := [0, 1, 2, 1],
    buckets_ := [{ depth_ := 2, items_ := [(0, 0), (4, 40)] },
                 { depth_ := 1, items_ := [] },
                 { depth_ := 2, items_ := [(2, 20)] }] }

end ExtendibleHashTable

namespace BPlusTree

/-- An internal page with separators 10, 20, 30 and an arbitrary key in slot 0. -/
def lookupPage : InternalPage Nat := ⟨7, -1, 4, [(99, 100), (10, 101), (20, 102), (30, 103)]⟩

end BPlusTree

namespace BPlusTree

/-- A tree whose root (page 1) is an internal page left with one child, the
leaf page 2. -/
def loneChildTree : Tree Nat Nat :=
  { root_page_id_ := 1, leaf_max_size_ := 4, internal_max_size_ := 4,
    pages_ := [(1, .internal ⟨1, -1, 4, [(0, 2)]⟩), (2, .leaf ⟨2, 1, 4, -1, [(5, 50)]⟩)],
    pin_count_ := [], is_dirty_ := [], next_page_id_ := 3, header_record_ := some 1,
    page_set_ := [], deleted_page_set_ := [] }

/-- A tree whose root (page 1) is a leaf page without entries. -/
def emptyLeafTree : Tree Nat Nat :=
  { root_page_id_ := 1, leaf_max_size_ := 4, internal_max_size_ := 4,
    pages_ := [(1, .leaf ⟨1, -1, 4, -1, []⟩)],
    pin_count_ := [], is_dirty_ := [], next_page_id_ := 2, header_record_ := some 1,
    page_set_ := [], deleted_page_set_ := [] }

end BPlusTree

namespace BPlusTree

variable {K : Type}

/-- The slots of an internal page in order, each as its key followed by its
child pointer. -/
def slotSeq : List (K × Int) → List (K ⊕ Int)
  | [] => []
  | e :: rest => Sum.inl e.1 :: Sum.inr e.2 :: slotSeq rest

/-- The in-order sequence of child pointers and separator keys of an internal
page: the key of slot 0 is unused and left out. -/
def inorderSeq (arr : List (K × Int)) : List (K ⊕ Int) := (slotSeq arr).tail

/-- The in-order sequence spanning a left sibling, the parent's separator
between the two, and the right sibling. -/
def spanSeq (left : List (K × Int)) (sep : K) (right : List (K × Int)) : List (K ⊕ Int) :=
  inorderSeq left ++ Sum.inl sep :: inorderSeq right

/-- A parent (page 1) over two internal siblings (pages 2 and 3) whose children
are the leaf pages 10 to 14. -/
def siblingTree : Tree Nat Nat :=
  { root_page_id_ := 1, leaf_max_size_ := 4, internal_max_size_ := 4,
    pages_ := [(1, .internal ⟨1, -1, 4, [(0, 2), (50, 3)]⟩),
               (2, .internal ⟨2, 1, 4, [(0, 10), (10, 11), (20, 12)]⟩),
               (3, .internal ⟨3, 1, 4, [(0, 13), (60, 14)]⟩),
               (10, .leaf ⟨10, 2, 4, 11, [(1, 1)]⟩), (11, .leaf ⟨11, 2, 4, 12, [(10, 10)]⟩),
               (12, .leaf ⟨12, 2, 4, 13, [(20, 20)]⟩), (13, .leaf ⟨13, 3, 4, 14, [(50, 50)]⟩),
               (14, .leaf ⟨14, 3, 4, -1, [(60, 60)]⟩)],
    pin_count_ := [], is_dirty_ := [], next_page_id_ := 15, header_record_ := some 1,
    page_set_ := [], deleted_page_set_ := [] }

end BPlusTree

namespace BPlusTree

/-- A tree with `internal_max_size = 3` whose root (page 1) is full, after the
leaf page 3 was split into the pages 3 and 5 at key 15. -/
def fullParentTree : Tree Nat Nat :=
  { root_page_id_ := 1, leaf_max_size_ := 3, internal_max_size_ := 3,
    pages_ := [(1, .internal ⟨1, -1, 3, [(0, 2), (10, 3), (20, 4)]⟩),
               (2, .leaf ⟨2, 1, 3, 3, [(1, 1), (2, 2)]⟩),
               (3, .leaf ⟨3, 1, 3, 5, [(10, 10), (11, 11)]⟩),
               (4, .leaf ⟨4, 1, 3, -1, [(20, 20), (21, 21)]⟩),
               (5, .leaf ⟨5, 1, 3, 4, [(15, 15), (16, 16)]⟩)],
    pin_count_ := [], is_dirty_ := [], next_page_id_ := 6, header_record_ := some 1,
    page_set_ := [], deleted_page_set_ := [] }

/-- The pages of the tree `InsertIntoParent(3, 15, 5)` leaves from
`fullParentTree`, or none when the call fails. -/
def fullParentAfter : List (Int × TreePage Nat Nat) :=
  match InsertIntoParent 3 fullParentTree 3 15 5 with
  | .ok t => t.pages_
  | .error _ => []

end BPlusTree

namespace BPlusTree

variable {K V : Type}

/-- The second state has the pin count of the first for every page, and its
page set. -/
def PinSame (t T : Tree K V) : Prop :=
  (∀ id, T.pinOf id = t.pinOf id) ∧ T.page_set_ = t.page_set_

/-- What a copy of `items` into the page `rcp` owes to the child pages: each
moved child is the page it was with `rcp` as its parent id, the pages other
than `rcp` and the moved children are as before, and every pin count is what it
was (each fetch is matched by one unpin). -/
def Adopted (t T : Tree K V) (rcp : Int) (items : List (K × Int)) : Prop :=
  (∀ c ∈ items.map Prod.snd, T.pm c = (t.pm c).map (fun p => p.SetParentPageId rcp)) ∧
  (∀ c ∈ items.map Prod.snd, (T.pm c).map TreePage.GetParentPageId = some rcp) ∧
  (∀ id, id ≠ rcp → id ∉ items.map Prod.snd → T.pm id = t.pm id) ∧
  ∀ id, T.pinOf id = t.pinOf id

/-- The tree `siblingTree` with page 12 pinned twice and page 3 pinned once. -/
def pinnedSiblingTree : Tree Nat Nat :=
  { siblingTree with pin_count_ := [(12, 2), (3, 1)] }

end BPlusTree

namespace BPlusTree

/-- The calls `Remove(n)`, ..., `Remove(1)`. -/
def removesFrom (n : Nat) : List (Op Nat Nat) :=
  ((List.range n).map (fun i => Op.remove (i + 1))).reverse

/-- The pairs `(1, 10)`, ..., `(n, 10 n)`. -/
def pairsTo (n : Nat) : List (Nat × Nat) :=
  (List.range n).map (fun i => (i + 1, 10 * (i + 1)))

/-- The keys `n`, ..., `1`. -/
def keysFrom (n : Nat) : List Nat := ((List.range n).map (fun i => i + 1)).reverse

end BPlusTree

namespace BPlusTree

variable {K V : Type}

/-- The pins `held`, and one more on page `id`. -/
def bump (held : Int → Nat) (id : Int) : Int → Nat :=
  fun x => if x = id then held x + 1 else held x

/-- Pin accounting: the pin count of every page is the number of times the page
stands in the page set plus the number of pins the calls in progress hold on
it. -/
def Bal (t : Tree K V) (held : Int → Nat) : Prop :=
  ∀ id, t.pinOf id = t.page_set_.count (some id) + held id

/-- The page set is empty and the pin count of every page is the number of
pins the calls in progress hold on it. -/
def BalZ (t : Tree K V) (held : Int → Nat) : Prop :=
  (∀ id, t.pinOf id = held id) ∧ t.page_set_ = []

/-- The pool has handed out the ids below `next_page_id_` only: no page at or
above it holds data or a pin. -/
def Fresh (t : Tree K V) : Prop :=
  0 < t.next_page_id_ ∧ (∀ id, 0 < t.pinOf id → id < t.next_page_id_) ∧
  ∀ id, (t.pm id).isSome = true → id < t.next_page_id_

/-- The second state has the pin counts, the page set and the next page id of
the first, and data on no page the first has none on. -/
def Quiet (t T : Tree K V) : Prop :=
  PinSame t T ∧ T.next_page_id_ = t.next_page_id_ ∧
  ∀ id, (T.pm id).isSome = true → (t.pm id).isSome = true

/-- The pool between two calls: no page is pinned, the page set is empty, and
the pool has handed out the ids below `next_page_id_` only. -/
def PoolIdle (t : Tree K V) : Prop :=
  (∀ id, t.pinOf id = 0) ∧ t.page_set_ = [] ∧ Fresh t

end BPlusTree

namespace BPlusTree

variable {K V : Type}

/-- Every page of the first state is a page of the second, with the page id it
records. -/
def IdPres (t T : Tree K V) : Prop :=
  ∀ id p, t.pm id = some p → ∃ q, T.pm id = some q ∧ q.GetPageId = p.GetPageId

end BPlusTree

namespace BPlusTree

variable {K V : Type}

/-- The state `s` reached from `t`: the pin accounting holds with the pins
`held`, the pool has handed out the ids below `next_page_id_` only, and every
page of `t` is a page of `s` with the page id it records. -/
def Track (t s : Tree K V) (held : Int → Nat) : Prop :=
  Bal s held ∧ Fresh s ∧ IdPres t s

end BPlusTree

namespace BPlusTree

variable {K V : Type}

/-- What `CoalesceOrRedistribute` owes to the pins when `node` lies `d` levels
below the root: called on a tree that is well formed around `node`, a call
that returns has released the page set and unpinned every page it has
pinned. -/
def CORPin (K V : Type) [LinearOrder K] (d : Nat) : Prop :=
  ∀ (fuel : Nat) (t : Tree K V) (node : Int) (h : Nat) (par : Int)
    (lo hi : Option K) (lsL lsR ls : List (LeafView K V)) (idsC ids : List Int),
    1 ≤ t.leaf_max_size_ → 3 ≤ t.internal_max_size_ → t.deleted_page_set_ = [] →
    Ctx t.pm t.leaf_max_size_ t.internal_max_size_ t.root_page_id_ d h node par lo hi lsL lsR
      idsC →
    Rep t.pm t.leaf_max_size_ t.internal_max_size_ false h node par lo hi ls ids →
    (ids ++ idsC).Nodup →
    (∀ id ∈ ids ++ idsC, 0 < id ∧ id < t.next_page_id_) →
    Chain (lsL ++ ls ++ lsR) INVALID_PAGE_ID →
    ∀ (T : Tree K V) (b : Bool) (held : Int → Nat),
      CoalesceOrRedistribute fuel t node = .ok (T, b) → Bal t held → BalZ T held

end BPlusTree

namespace BPlusTree

variable {K V : Type}

/-- The second state has the next page id of the first, and data on no page
the first has none on. -/
def DomLe (t T : Tree K V) : Prop :=
  T.next_page_id_ = t.next_page_id_ ∧ ∀ id, (T.pm id).isSome = true → (t.pm id).isSome = true

/-- `Remove`, from the result of `CoalesceOrRedistribute` to the loop over the
deleted page set: the leaf is scheduled for deletion if the flag says so, and
is unpinned as dirty. -/
def beforeDeletes (t3 : Tree K V) (node_should_delete : Bool) (leaf_page : Int)
    (node2 : LeafPage K V) : Tree K V :=
  UnpinPage (if node_should_delete then AddIntoDeletedPageSet t3 node2.page_id_ else t3)
    leaf_page true

/-- `Remove`, the loop over the deleted page set: `DeletePage` is called on
every page of the set, in order, and the set is cleared. -/
def deleteAll (t5 : Tree K V) : Tree K V :=
  { t5.deleted_page_set_.foldl DeletePage t5 with deleted_page_set_ := [] }

end BPlusTree

namespace BPlusTree

variable {K V : Type}

/-- The tree in a pool whose pin counts are `pins`: the pins that other users
of the pool hold on its pages. -/
def withPins (t : Tree K V) (pins : List (Int × Nat)) : Tree K V :=
  { t with pin_count_ := pins }

end BPlusTree

namespace BPlusTree

/-- The tree with `leaf_max_size = 2` and `internal_max_size = 2` after the
calls `ops`, each run with the given fuel; the empty tree if a call fails. -/
def narrowTreeAfter (fuel : Nat) (ops : List (Op Nat Nat)) : Tree Nat Nat :=
  match run fuel (Tree.new 2 2) ops with
  | .ok t => t
  | .error _ => Tree.new 2 2

end BPlusTree

namespace BPlusTree

end BPlusTree

namespace BufferPoolManager

/-- A pool of two frames in which `FetchPage(0)` is called before any page
exists: the caller fetches id 0, writes `[9, 9]`, unpins dirty; then `NewPage`
hands out id 0. -/
def phantomOps : List Op :=
  [Op.fetchPage 0 1, Op.write 0 [9, 9], Op.unpinPage 0 true, Op.newPage 2]

/-- The pool `phantomOps` leaves. -/
def phantomState : BPM := (run 40 (BPM.new 2 2) phantomOps).getD (BPM.new 2 2)

/-- After `phantomOps`, page 0 is fetched a second time (pin count 2). -/
def staleOps : List Op := phantomOps ++ [Op.fetchPage 0 3]

/-- The pool `staleOps` leaves. -/
def staleState : BPM := (run 40 (BPM.new 2 2) staleOps).getD (BPM.new 2 2)

/-- After the write of `[7, 7]` into page 0 and its first dirty unpin: the
second unpin, two `NewPage` calls (ids 1 and 2) and the unpin of page 1. -/
def staleAfterOps : List Op :=
  [Op.unpinPage 0 true, Op.newPage 4, Op.newPage 5, Op.unpinPage 1 false]

/-- The pool after the caller wrote `[7, 7]` into page 0 of `staleState`,
unpinned it dirty, and the first `n` calls of `staleAfterOps` ran. -/
def staleEvicted (n : Nat) : BPM :=
  (run 40 (UnpinPgImp (WriteData staleState 0 [7, 7]) 0 true).1 (staleAfterOps.take n)).getD
    (BPM.new 2 2)

/-- The pool after `FetchPage(0)` in `staleEvicted 4`. -/
def staleRefetched : BPM :=
  ((FetchPgImp 40 (staleEvicted 4) 0 6).map (fun r => r.1)).getD (BPM.new 2 2)

end BufferPoolManager

namespace ExtendibleHashTable

variable {K V : Type}

end ExtendibleHashTable

/-! # Part II. Theorems -/

/-! ### Lemmas on bucket item lists -/

namespace ExtendibleHashTable

namespace Bucket

variable {K V : Type} [DecidableEq K]

theorem findItem_eq_none_iff (key : K) (l : List (K × V)) :
    findItem key l = none ↔ key ∉ l.map Prod.fst := by
  induction l with
  | nil => simp [findItem]
  | cons it rest ih =>
    by_cases h : it.1 = key
    · simp [findItem, h]
    · have h1 : ¬ key = it.1 := fun e => h e.symm
      simp [findItem, h, h1, ih]

theorem updateItem_eq_none_iff (key : K) (value : V) (l : List (K × V)) :
    updateItem key value l = none ↔ key ∉ l.map Prod.fst := by
  induction l with
  | nil => simp [updateItem]
  | cons it rest ih =>
    by_cases h : it.1 = key
    · simp [updateItem, h]
    · have h1 : ¬ key = it.1 := fun e => h e.symm
      rw [List.map_cons, List.mem_cons, not_or, ← ih]
      cases hu : updateItem key value rest <;> simp [updateItem, h, h1, hu]

theorem updateItem_keys (key : K) (value : V) (l l1 : List (K × V))
    (h : updateItem key value l = some l1) : l1.map Prod.fst = l.map Prod.fst := by
  induction l generalizing l1 with
  | nil => simp [updateItem] at h
  | cons it rest ih =>
    by_cases hk : it.1 = key
    · simp [updateItem, hk] at h
      subst h; simp [hk]
    · cases hu : updateItem key value rest with
      | none => simp [updateItem, hk, hu] at h
      | some r =>
        simp [updateItem, hk, hu] at h
        subst h; simp [ih r hu]

theorem findItem_updateItem (key : K) (value : V) (l l1 : List (K × V))
    (h : updateItem key value l = some l1) (key1 : K) :
    findItem key1 l1 = if key1 = key then some value else findItem key1 l := by
  induction l generalizing l1 with
  | nil => simp [updateItem] at h
  | cons it rest ih =>
    by_cases hk : it.1 = key
    · simp [updateItem, hk] at h
      subst h
      by_cases h1 : key1 = key
      · simp [findItem, h1]
      · have h2 : ¬ key = key1 := fun e => h1 e.symm
        simp [findItem, h1, h2, hk]
    · cases hu : updateItem key value rest with
      | none => simp [updateItem, hk, hu] at h
      | some r =>
        simp [updateItem, hk, hu] at h
        subst h
        by_cases h1 : it.1 = key1
        · have h2 : ¬ key1 = key := fun e => hk (h1.trans e)
          simp [findItem, h1, h2]
        · simp [findItem, h1, ih r hu]

theorem findItem_append_single (key : K) (value : V) (l : List (K × V))
    (hnot : key ∉ l.map Prod.fst) (key1 : K) :
    findItem key1 (l ++ [(key, value)]) = if key1 = key then some value else findItem key1 l := by
  induction l with
  | nil =>
    by_cases h1 : key = key1
    · simp [findItem, h1]
    · have h2 : ¬ key1 = key := fun e => h1 e.symm
      simp [findItem, h1, h2]
  | cons it rest ih =>
    have hr : key ∉ rest.map Prod.fst := fun hm => hnot (by simp at hm ⊢; exact Or.inr hm)
    have hit : ¬ it.1 = key := fun e => hnot (by simp [← e])
    by_cases h1 : it.1 = key1
    · have h2 : ¬ key1 = key := fun e => hit (h1.trans e)
      simp [findItem, h1, h2]
    · simp [findItem, h1, ih hr]

theorem removeItem_eq_none_iff (key : K) (l : List (K × V)) :
    removeItem key l = none ↔ key ∉ l.map Prod.fst := by
  induction l with
  | nil => simp [removeItem]
  | cons it rest ih =>
    by_cases h : it.1 = key
    · simp [removeItem, h]
    · have h1 : ¬ key = it.1 := fun e => h e.symm
      rw [List.map_cons, List.mem_cons, not_or, ← ih]
      cases hu : removeItem key rest <;> simp [removeItem, h, h1, hu]

theorem removeItem_sublist (key : K) (l l1 : List (K × V))
    (h : removeItem key l = some l1) : l1.Sublist l := by
  induction l generalizing l1 with
  | nil => simp [removeItem] at h
  | cons it rest ih =>
    by_cases hk : it.1 = key
    · simp [removeItem, hk] at h
      subst h; exact List.sublist_cons_self _ _
    · cases hu : removeItem key rest with
      | none => simp [removeItem, hk, hu] at h
      | some r =>
        simp [removeItem, hk, hu] at h
        subst h; exact (ih r hu).cons₂ _

theorem findItem_removeItem (key : K) (l l1 : List (K × V))
    (hnd : (l.map Prod.fst).Nodup)
    (h : removeItem key l = some l1) (key1 : K) :
    findItem key1 l1 = if key1 = key then none else findItem key1 l := by
  induction l generalizing l1 with
  | nil => simp [removeItem] at h
  | cons it rest ih =>
    simp only [List.map_cons, List.nodup_cons] at hnd
    by_cases hk : it.1 = key
    · simp [removeItem, hk] at h
      subst h
      by_cases h1 : key1 = key
      · subst h1
        have : findItem key1 rest = none := (findItem_eq_none_iff _ _).2 (hk ▸ hnd.1)
        simp [this]
      · have h2 : ¬ key = key1 := fun e => h1 e.symm
        simp [findItem, h1, h2, hk]
    · cases hu : removeItem key rest with
      | none => simp [removeItem, hk, hu] at h
      | some r =>
        simp [removeItem, hk, hu] at h
        subst h
        by_cases h1 : it.1 = key1
        · have h2 : ¬ key1 = key := fun e => hk (h1.trans e)
          simp [findItem, h1, h2]
        · simp [findItem, h1, ih r hnd.2 hu]

theorem findItem_filter (p : K → Bool) (l : List (K × V)) (key : K) :
    findItem key (l.filter (fun it => p it.1)) = if p key then findItem key l else none := by
  induction l with
  | nil => simp [findItem]
  | cons it rest ih =>
    by_cases h1 : it.1 = key
    · subst h1
      cases hp : p it.1
      · rw [List.filter_cons_of_neg (by simp [hp]), ih, hp]; simp
      · rw [List.filter_cons_of_pos (by simp [hp])]; simp [findItem]
    · cases hp : p it.1
      · rw [List.filter_cons_of_neg (by simp [hp]), ih]; simp [findItem, h1]
      · rw [List.filter_cons_of_pos (by simp [hp])]; simp [findItem, h1, ih]

end Bucket

end ExtendibleHashTable

/-! ### The table operations keep the invariant and the contents -/

namespace ExtendibleHashTable


variable {K V : Type}

theorem IndexOf_eq (hash : K → Nat) (t : Table K V) (key : K) :
    IndexOf hash t key = hash key % 2 ^ t.global_depth_ := by
  unfold IndexOf
  rw [Nat.one_shiftLeft, Nat.and_pow_two_sub_one_eq_mod]

theorem getD_set_eq {α : Type} (l : List α) (i j : Nat) (a d : α) :
    (l.set i a).getD j d = if i = j ∧ i < l.length then a else l.getD j d := by
  simp only [List.getD_eq_getElem?_getD, List.getElem?_set]
  by_cases h : i = j
  · subst h
    by_cases h2 : i < l.length
    · simp [h2]
    · simp [h2, List.getElem?_eq_none (Nat.le_of_not_lt h2)]
  · simp [h]

theorem bucketAt_set (t : Table K V) (b : Nat) (B : Bucket K V) (p : Nat) :
    ({ t with buckets_ := t.buckets_.set b B } : Table K V).bucketAt p
      = if b = p ∧ b < t.buckets_.length then B else t.bucketAt p := by
  simp only [Table.bucketAt]
  exact getD_set_eq _ _ _ _ _

theorem getD_mem {α : Type} (l : List α) (i : Nat) (d : α) (h : i < l.length) :
    l.getD i d ∈ l := by
  rw [List.getD_eq_getElem?_getD, List.getElem?_eq_getElem h]
  exact List.getElem_mem h

theorem WF.index_lt {hash : K → Nat} {t : Table K V} (h : WF hash t) (key : K) :
    IndexOf hash t key < t.directory_.length := by
  rw [IndexOf_eq, h.dir_len]
  exact Nat.mod_lt _ (Nat.pos_pow_of_pos _ (by decide))

theorem WF.dirAt_mem {hash : K → Nat} {t : Table K V} (h : WF hash t) (key : K) :
    t.dirAt (IndexOf hash t key) ∈ t.directory_ :=
  getD_mem _ _ _ (h.index_lt key)

theorem WF_new (hash : K → Nat) (bucket_size : Nat) : WF hash (Table.new bucket_size : Table K V) where
  dir_len := by simp [Table.new]
  dir_lt := by simp [Table.new]
  home := by simp [Table.new, Table.bucketAt, Bucket.new]
  nodup := by simp [Table.new, Table.bucketAt, Bucket.new]
  cap := by simp [Table.new, Table.bucketAt, Bucket.new]

/-- Two keys whose directory slots point to different buckets are different. -/
theorem ne_of_dirAt_ne (hash : K → Nat) (t : Table K V) (key key1 : K)
    (h : t.dirAt (IndexOf hash t key1) ≠ t.dirAt (IndexOf hash t key)) : key1 ≠ key := by
  intro e; subst e; exact h rfl

variable [DecidableEq K]

theorem Bucket.Remove_items (b : Bucket K V) (key : K) (hnd : (b.items_.map Prod.fst).Nodup) :
    (b.Remove key).1.items_.Sublist b.items_ ∧
    ∀ key1, Bucket.findItem key1 (b.Remove key).1.items_
      = if key1 = key then none else Bucket.findItem key1 b.items_ := by
  cases hr : Bucket.removeItem key b.items_ with
  | none =>
    simp only [Bucket.Remove, hr]
    refine ⟨List.Sublist.refl _, fun key1 => ?_⟩
    by_cases e : key1 = key
    · subst e
      rw [if_pos rfl, Bucket.findItem_eq_none_iff, ← Bucket.removeItem_eq_none_iff]; exact hr
    · rw [if_neg e]
  | some items1 =>
    simp only [Bucket.Remove, hr]
    exact ⟨Bucket.removeItem_sublist key _ _ hr, Bucket.findItem_removeItem key _ _ hnd hr⟩

theorem Remove_spec {hash : K → Nat} {t : Table K V} (h : WF hash t) (key : K) :
    WF hash (Remove hash t key).1 ∧
    ∀ key1, Find hash (Remove hash t key).1 key1
      = if key1 = key then none else Find hash t key1 := by
  have hb := h.dirAt_mem key
  have hblt := h.dir_lt _ hb
  obtain ⟨hsub, hfind⟩ := Bucket.Remove_items (t.bucketAt (t.dirAt (IndexOf hash t key))) key
    (h.nodup _ hb)
  simp only [Remove]
  refine ⟨⟨h.dir_len, ?_, ?_, ?_, ?_⟩, fun key1 => ?_⟩
  · intro p hp; simpa using h.dir_lt p hp
  · intro p hp it hit
    rw [bucketAt_set] at hit
    show t.dirAt (IndexOf hash t it.1) = p
    split at hit
    · next hc => rw [← hc.1]; exact h.home _ hb it (hsub.subset hit)
    · exact h.home p hp it hit
  · intro p hp
    rw [bucketAt_set]
    split
    · exact (h.nodup _ hb).sublist (hsub.map _)
    · exact h.nodup p hp
  · intro p hp
    rw [bucketAt_set]
    split
    · exact le_trans hsub.length_le (h.cap _ hb)
    · exact h.cap p hp
  · show (Table.bucketAt _ (t.dirAt (IndexOf hash t key1))).Find key1 = _
    rw [bucketAt_set]
    by_cases hc : t.dirAt (IndexOf hash t key) = t.dirAt (IndexOf hash t key1)
    · rw [if_pos ⟨hc, hblt⟩]
      simp only [Bucket.Find, Find]
      rw [hfind, hc]
    · rw [if_neg (fun hh => hc hh.1)]
      have : key1 ≠ key := ne_of_dirAt_ne hash t key key1 (fun e => hc e.symm)
      simp [this, Find]




variable {K V : Type} [DecidableEq K]

theorem Bucket.updateItem_mem (key : K) (value : V) (l l1 : List (K × V))
    (h : Bucket.updateItem key value l = some l1) :
    ∀ it ∈ l1, it ∈ l ∨ it.1 = key := by
  induction l generalizing l1 with
  | nil => simp [Bucket.updateItem] at h
  | cons x rest ih =>
    by_cases hk : x.1 = key
    · simp [Bucket.updateItem, hk] at h
      subst h
      intro it hit
      rcases List.mem_cons.1 hit with e | e
      · right; rw [e]
      · left; exact List.mem_cons_of_mem _ e
    · cases hu : Bucket.updateItem key value rest with
      | none => simp [Bucket.updateItem, hk, hu] at h
      | some r =>
        simp [Bucket.updateItem, hk, hu] at h
        subst h
        intro it hit
        rcases List.mem_cons.1 hit with e | e
        · left; rw [e]; exact List.mem_cons_self _ _
        · rcases ih r hu it e with h1 | h1
          · left; exact List.mem_cons_of_mem _ h1
          · right; exact h1

theorem Bucket.Insert_true (b : Bucket K V) (key : K) (value : V)
    (hnd : (b.items_.map Prod.fst).Nodup) (hok : (b.Insert key value).2 = true) :
    (∀ key1, Bucket.findItem key1 (b.Insert key value).1.items_
      = if key1 = key then some value else Bucket.findItem key1 b.items_) ∧
    ((b.Insert key value).1.items_.map Prod.fst).Nodup ∧
    (∀ it ∈ (b.Insert key value).1.items_, it ∈ b.items_ ∨ it.1 = key) ∧
    (b.items_.length ≤ BUCKET_SIZE → (b.Insert key value).1.items_.length ≤ BUCKET_SIZE) ∧
    (b.Insert key value).1.depth_ = b.depth_ := by
  cases hu : Bucket.updateItem key value b.items_ with
  | some items1 =>
    simp only [Bucket.Insert, hu]
    refine ⟨Bucket.findItem_updateItem key value _ _ hu, ?_, Bucket.updateItem_mem key value _ _ hu,
      ?_, trivial⟩
    · rw [Bucket.updateItem_keys key value _ _ hu]; exact hnd
    · intro hc
      have := congrArg List.length (Bucket.updateItem_keys key value _ _ hu)
      simp only [List.length_map] at this
      omega
  | none =>
    have hnot := (Bucket.updateItem_eq_none_iff key value _).1 hu
    by_cases hf : b.IsFull = true
    · simp [Bucket.Insert, hu, hf] at hok
    · simp only [Bucket.Insert, hu]
      simp only [Bool.not_eq_true] at hf
      simp only [hf, Bool.not_false, if_true]
      refine ⟨Bucket.findItem_append_single key value _ hnot, ?_, ?_, ?_, trivial⟩
      · rw [List.map_append, List.nodup_append]
        refine ⟨hnd, by simp, ?_⟩
        intro a ha hb
        simp at hb
        subst hb
        exact hnot ha
      · intro it hit
        rcases List.mem_append.1 hit with e | e
        · exact Or.inl e
        · right; simp at e; rw [e]
      · intro _
        simp only [Bucket.IsFull, decide_eq_false_iff_not, not_le] at hf
        simp only [List.length_append, List.length_singleton]
        omega

theorem Bucket.Insert_false (b : Bucket K V) (key : K) (value : V)
    (hok : (b.Insert key value).2 = false) :
    BUCKET_SIZE ≤ b.items_.length ∧ key ∉ b.items_.map Prod.fst := by
  cases hu : Bucket.updateItem key value b.items_ with
  | some items1 => simp [Bucket.Insert, hu] at hok
  | none =>
    have hnot := (Bucket.updateItem_eq_none_iff key value _).1 hu
    by_cases hf : b.IsFull = true
    · refine ⟨?_, hnot⟩
      simpa [Bucket.IsFull] using hf
    · simp only [Bool.not_eq_true] at hf
      simp [Bucket.Insert, hu, hf] at hok

/-- The bucket accepts the pair: the table afterwards maps `key` to `value`
and every other key as before. -/
theorem Insert_accept {hash : K → Nat} {t : Table K V} (h : WF hash t) (key : K) (value : V)
    (hok : ((t.bucketAt (t.dirAt (IndexOf hash t key))).Insert key value).2 = true) :
    let t1 : Table K V := { t with buckets_ := (t.buckets_.set (t.dirAt (IndexOf hash t key))
      ((t.bucketAt (t.dirAt (IndexOf hash t key))).Insert key value).1) }
    WF hash t1 ∧
    ∀ key1, Find hash t1 key1 = if key1 = key then some value else Find hash t key1 := by
  have hb := h.dirAt_mem key
  have hblt := h.dir_lt _ hb
  obtain ⟨hfind, hnd, hmem, hcap, _⟩ :=
    Bucket.Insert_true (t.bucketAt (t.dirAt (IndexOf hash t key))) key value (h.nodup _ hb) hok
  intro t1
  refine ⟨⟨h.dir_len, ?_, ?_, ?_, ?_⟩, fun key1 => ?_⟩
  · intro p hp; simpa [t1] using h.dir_lt p hp
  · intro p hp it hit
    simp only [t1] at hit
    rw [bucketAt_set] at hit
    show t.dirAt (IndexOf hash t it.1) = p
    split at hit
    · next hc =>
      rw [← hc.1]
      rcases hmem it hit with e | e
      · exact h.home _ hb it e
      · rw [e]
    · exact h.home p hp it hit
  · intro p hp
    simp only [t1]
    rw [bucketAt_set]
    split
    · exact hnd
    · exact h.nodup p hp
  · intro p hp
    simp only [t1]
    rw [bucketAt_set]
    split
    · exact hcap (h.cap _ hb)
    · exact h.cap p hp
  · show (Table.bucketAt _ (t.dirAt (IndexOf hash t key1))).Find key1 = _
    rw [bucketAt_set]
    by_cases hc : t.dirAt (IndexOf hash t key) = t.dirAt (IndexOf hash t key1)
    · rw [if_pos ⟨hc, hblt⟩]
      simp only [Bucket.Find, Find]
      rw [hfind, hc]
    · rw [if_neg (fun hh => hc hh.1)]
      have : key1 ≠ key := ne_of_dirAt_ne hash t key key1 (fun e => hc e.symm)
      simp [this, Find]



end ExtendibleHashTable
namespace ExtendibleHashTable

variable {K V : Type}

theorem getD_append_self {α : Type} (l : List α) (i : Nat) (hi : i < 2 * l.length) (d : α) :
    (l ++ l).getD i d = l.getD (i % l.length) d := by
  simp only [List.getD_eq_getElem?_getD]
  by_cases h : i < l.length
  · rw [List.getElem?_append_left h, Nat.mod_eq_of_lt h]
  · have h1 : l.length ≤ i := Nat.le_of_not_lt h
    rw [List.getElem?_append_right h1]
    have : i % l.length = i - l.length := by
      rw [Nat.mod_eq_sub_mod h1, Nat.mod_eq_of_lt (by omega)]
    rw [this]

theorem redirectFrom_length (o n hb : Nat) (s : Nat) (l : List Nat) :
    (redirectFrom o n hb s l).length = l.length := by
  induction l generalizing s with
  | nil => rfl
  | cons b rest ih => simp [redirectFrom, ih]

theorem redirectFrom_getD (o n hb : Nat) (s : Nat) (l : List Nat) (i : Nat) (d : Nat)
    (hi : i < l.length) :
    (redirectFrom o n hb s l).getD i d
      = if l.getD i d = o ∧ ((s + i) &&& hb) ≠ 0 then n else l.getD i d := by
  induction l generalizing s i with
  | nil => simp at hi
  | cons b rest ih =>
    cases i with
    | zero => simp [redirectFrom]
    | succ j =>
      simp only [redirectFrom, List.getD_cons_succ]
      rw [ih (s + 1) j (by simpa using hi)]
      have : s + 1 + j = s + (j + 1) := by omega
      rw [this]

theorem redirectFrom_mem (o n hb : Nat) (s : Nat) (l : List Nat) (p : Nat)
    (hp : p ∈ redirectFrom o n hb s l) : p ∈ l ∨ p = n := by
  induction l generalizing s with
  | nil => simp [redirectFrom] at hp
  | cons b rest ih =>
    simp only [redirectFrom, List.mem_cons] at hp
    rcases hp with e | e
    · split at e
      · exact Or.inr e
      · left; rw [e]; exact List.mem_cons_self _ _
    · rcases ih (s + 1) e with h1 | h1
      · left; exact List.mem_cons_of_mem _ h1
      · exact Or.inr h1

variable [DecidableEq K]

theorem insertAll_spec (d : Nat) (acc l : List (K × V))
    (hnd : ((acc ++ l).map Prod.fst).Nodup) (hlen : (acc ++ l).length ≤ BUCKET_SIZE) :
    insertAll (⟨d, acc⟩ : Bucket K V) l = ⟨d, acc ++ l⟩ := by
  induction l generalizing acc with
  | nil => simp [insertAll]
  | cons it rest ih =>
    have hnot : it.1 ∉ acc.map Prod.fst := by
      intro hm
      rw [List.map_append, List.nodup_append] at hnd
      exact hnd.2.2 hm (by simp)
    have hu := (Bucket.updateItem_eq_none_iff it.1 it.2 acc).2 hnot
    have hfull : (⟨d, acc⟩ : Bucket K V).IsFull = false := by
      simp only [Bucket.IsFull, decide_eq_false_iff_not, not_le]
      simp only [List.length_append, List.length_cons] at hlen
      omega
    have h1 : ((⟨d, acc⟩ : Bucket K V).Insert it.1 it.2).1 = ⟨d, acc ++ [it]⟩ := by
      simp [Bucket.Insert, hu, hfull]
    simp only [insertAll, h1]
    rw [ih (acc ++ [it]) (by simpa using hnd) (by simpa using hlen)]
    simp

end ExtendibleHashTable
namespace ExtendibleHashTable

variable {K V : Type} [DecidableEq K]

theorem split_core {hash : K → Nat} {t t1 : Table K V} (h : WF hash t)
    (old : Nat) (hold : old ∈ t.directory_) (hb ld : Nat)
    (F1 : t1.directory_.length = 2 ^ t1.global_depth_)
    (F2 : ∀ key, t1.dirAt (IndexOf hash t1 key) = t.dirAt (IndexOf hash t key))
    (F3 : ∀ p ∈ t1.directory_, p ∈ t.directory_)
    (F4 : t1.buckets_ = t.buckets_) :
    let t2 : Table K V :=
      { t1 with directory_ := redirectFrom old t1.buckets_.length hb 0 t1.directory_ }
    let items := (t.bucketAt old).items_
    let t3 : Table K V :=
      { t2 with
        buckets_ := (t2.buckets_.set old ⟨ld + 1,
            items.filter (fun it => ¬ t2.dirAt (IndexOf hash t2 it.1) = t1.buckets_.length)⟩)
          ++ [insertAll (Bucket.new (ld + 1))
            (items.filter (fun it => t2.dirAt (IndexOf hash t2 it.1) = t1.buckets_.length))] }
    WF hash t3 ∧ ∀ key, Find hash t3 key = Find hash t key := by
  intro t2 items t3
  have holdlt : old < t.buckets_.length := h.dir_lt _ hold
  -- where a key's slot points after the redirect
  have G1 : ∀ key, (t.dirAt (IndexOf hash t key) ≠ old →
        t2.dirAt (IndexOf hash t2 key) = t.dirAt (IndexOf hash t key)) ∧
      (t.dirAt (IndexOf hash t key) = old →
        t2.dirAt (IndexOf hash t2 key) = old ∨ t2.dirAt (IndexOf hash t2 key) = t.buckets_.length) := by
    intro key
    have hi : IndexOf hash t1 key < t1.directory_.length := by
      rw [IndexOf_eq, F1]; exact Nat.mod_lt _ (Nat.pos_pow_of_pos _ (by decide))
    have e : t2.dirAt (IndexOf hash t2 key)
        = if t1.dirAt (IndexOf hash t1 key) = old ∧ ((0 + IndexOf hash t1 key) &&& hb) ≠ 0
          then t1.buckets_.length else t1.dirAt (IndexOf hash t1 key) :=
      redirectFrom_getD old t1.buckets_.length hb 0 t1.directory_ _ 0 hi
    rw [F2 key, F4] at e
    constructor
    · intro hne
      rw [e, if_neg (fun hh => hne hh.1)]
    · intro heq
      rw [e]
      split
      · exact Or.inr rfl
      · exact Or.inl heq
  have G2 : ∀ p ∈ t2.directory_, p ∈ t.directory_ ∨ p = t.buckets_.length := by
    intro p hp
    rcases redirectFrom_mem _ _ _ _ _ _ hp with e | e
    · exact Or.inl (F3 p e)
    · right; rw [e, F4]
  have hItemsNd : (items.map Prod.fst).Nodup := h.nodup _ hold
  have hItemsCap : items.length ≤ BUCKET_SIZE := h.cap _ hold
  have G4 : insertAll (Bucket.new (ld + 1))
      (items.filter (fun it => t2.dirAt (IndexOf hash t2 it.1) = t1.buckets_.length))
      = ⟨ld + 1, items.filter (fun it => t2.dirAt (IndexOf hash t2 it.1) = t1.buckets_.length)⟩ := by
    have := insertAll_spec (ld + 1) ([] : List (K × V))
      (items.filter (fun it => t2.dirAt (IndexOf hash t2 it.1) = t1.buckets_.length))
      (by simpa using hItemsNd.sublist ((List.filter_sublist _).map _))
      (by simpa using le_trans (List.length_filter_le _ _) hItemsCap)
    simpa [Bucket.new] using this
  -- the buckets of the result
  have G3new : t3.bucketAt t.buckets_.length
      = ⟨ld + 1, items.filter (fun it => t2.dirAt (IndexOf hash t2 it.1) = t1.buckets_.length)⟩ := by
    show List.getD ((t1.buckets_.set old _) ++ [insertAll _ _]) t.buckets_.length _ = _
    rw [G4, List.getD_eq_getElem?_getD, List.getElem?_append_right (by simp [F4])]
    simp [F4]
  have G3lt : ∀ p, p < t.buckets_.length → t3.bucketAt p
      = if old = p then ⟨ld + 1,
          items.filter (fun it => ¬ t2.dirAt (IndexOf hash t2 it.1) = t1.buckets_.length)⟩
        else t.bucketAt p := by
    intro p hp
    show List.getD ((t1.buckets_.set old _) ++ [insertAll _ _]) p _ = _
    rw [List.getD_eq_getElem?_getD, List.getElem?_append_left (by simpa [F4] using hp),
      ← List.getD_eq_getElem?_getD, getD_set_eq, F4]
    by_cases e : old = p
    · rw [if_pos ⟨e, holdlt⟩, if_pos e]
    · rw [if_neg (fun hh => e hh.1), if_neg e]; rfl
  have hIdx : ∀ key, IndexOf hash t3 key = IndexOf hash t2 key := fun _ => rfl
  have hDir : ∀ i, t3.dirAt i = t2.dirAt i := fun _ => rfl
  have hnewne : old ≠ t.buckets_.length := Nat.ne_of_lt holdlt
  refine ⟨⟨?_, ?_, ?_, ?_, ?_⟩, fun key => ?_⟩
  · show (redirectFrom old t1.buckets_.length hb 0 t1.directory_).length = 2 ^ t1.global_depth_
    rw [redirectFrom_length, F1]
  · intro p hp
    have : t3.buckets_.length = t.buckets_.length + 1 := by simp [t3, t2, F4]
    rw [this]
    rcases G2 p hp with e | e
    · exact Nat.lt_succ_of_lt (h.dir_lt p e)
    · omega
  · intro p hp it hit
    rw [hDir, hIdx]
    rcases G2 p hp with e | e
    · have hplt := h.dir_lt p e
      rw [G3lt p hplt] at hit
      split at hit
      · next hop =>
        subst hop
        simp only [List.mem_filter, decide_not, Bool.not_eq_true', decide_eq_false_iff_not] at hit
        have hhome := h.home _ hold it hit.1
        rcases (G1 it.1).2 hhome with e1 | e1
        · exact e1
        · exact absurd (F4 ▸ e1) hit.2
      · next hop =>
        have hhome := h.home p e it hit
        rw [(G1 it.1).1 (by rw [hhome]; exact fun e2 => hop e2.symm), hhome]
    · subst e
      rw [G3new] at hit
      simp only [List.mem_filter, decide_eq_true_eq] at hit
      rw [hit.2, F4]
  · intro p hp
    rcases G2 p hp with e | e
    · rw [G3lt p (h.dir_lt p e)]
      split
      · exact hItemsNd.sublist ((List.filter_sublist _).map _)
      · exact h.nodup p e
    · subst e
      rw [G3new]
      exact hItemsNd.sublist ((List.filter_sublist _).map _)
  · intro p hp
    rcases G2 p hp with e | e
    · rw [G3lt p (h.dir_lt p e)]
      split
      · exact le_trans (List.length_filter_le _ _) hItemsCap
      · exact h.cap p e
    · subst e
      rw [G3new]
      exact le_trans (List.length_filter_le _ _) hItemsCap
  · show (t3.bucketAt (t3.dirAt (IndexOf hash t3 key))).Find key = _
    rw [hDir, hIdx]
    have hmem := h.dirAt_mem key
    by_cases hp : t.dirAt (IndexOf hash t key) = old
    · rcases (G1 key).2 hp with e | e
      · rw [e, G3lt old holdlt, if_pos rfl]
        simp only [Bucket.Find, Find, hp]
        have := Bucket.findItem_filter
          (fun k => decide (¬ t2.dirAt (IndexOf hash t2 k) = t1.buckets_.length)) items key
        rw [this, F4]
        simp [e, hnewne]
      · rw [e, G3new]
        simp only [Bucket.Find, Find, hp]
        have := Bucket.findItem_filter
          (fun k => decide (t2.dirAt (IndexOf hash t2 k) = t1.buckets_.length)) items key
        rw [this, F4]
        simp [e]
    · rw [(G1 key).1 hp, G3lt _ (h.dir_lt _ hmem), if_neg (fun e => hp e.symm)]
      rfl

end ExtendibleHashTable
namespace ExtendibleHashTable

variable {K V : Type} [DecidableEq K]

/-- `SplitBucket` keeps the representation invariant and moves no key out of
reach: every `Find` answers as before. -/
theorem SplitBucket_spec {hash : K → Nat} {t : Table K V} (h : WF hash t) (idx : Nat)
    (hidx : idx < t.directory_.length) :
    WF hash (SplitBucket hash t idx) ∧
    ∀ key, Find hash (SplitBucket hash t idx) key = Find hash t key := by
  have hold : t.dirAt idx ∈ t.directory_ := getD_mem _ _ _ hidx
  by_cases hd : (t.bucketAt (t.dirAt idx)).depth_ = t.global_depth_
  · have hlenpos : 0 < t.directory_.length := by
      rw [h.dir_len]; exact Nat.pos_pow_of_pos _ (by decide)
    have key := @split_core K V _ hash t
      { t with directory_ := t.directory_ ++ t.directory_, global_depth_ := t.global_depth_ + 1 }
      h (t.dirAt idx) hold (1 <<< (t.bucketAt (t.dirAt idx)).depth_) (t.bucketAt (t.dirAt idx)).depth_
      (by simp [h.dir_len, pow_succ]; ring)
      (by
        intro key
        simp only [Table.dirAt, IndexOf_eq]
        rw [getD_append_self _ _ (by
          rw [h.dir_len, ← pow_succ']
          exact Nat.mod_lt _ (Nat.pos_pow_of_pos _ (by decide)))]
        rw [h.dir_len, Nat.mod_mod_of_dvd _ (pow_dvd_pow 2 (Nat.le_succ _))])
      (by intro p hp; simpa using hp)
      rfl
    unfold SplitBucket
    simp only [hd, if_true] at key ⊢
    exact key
  · have key := @split_core K V _ hash t t
      h (t.dirAt idx) hold (1 <<< (t.bucketAt (t.dirAt idx)).depth_) (t.bucketAt (t.dirAt idx)).depth_
      h.dir_len (fun _ => rfl) (fun _ hp => hp) rfl
    unfold SplitBucket
    simp only [hd, if_false] at key ⊢
    exact key

/-- A completed `Insert` keeps the invariant, maps `key` to `value` and every
other key as before. -/
theorem Insert_spec {hash : K → Nat} (fuel : Nat) {t t1 : Table K V} (h : WF hash t)
    (key : K) (value : V) (hrun : Insert hash fuel t key value = some t1) :
    WF hash t1 ∧
    ∀ key1, Find hash t1 key1 = if key1 = key then some value else Find hash t key1 := by
  induction fuel generalizing t with
  | zero => simp [Insert] at hrun
  | succ n ih =>
    simp only [Insert] at hrun
    by_cases hok : ((t.bucketAt (t.dirAt (IndexOf hash t key))).Insert key value).2 = true
    · rw [if_pos hok] at hrun
      injection hrun with hrun
      subst hrun
      exact Insert_accept h key value hok
    · rw [if_neg hok] at hrun
      obtain ⟨hwf, hfind⟩ := SplitBucket_spec h (IndexOf hash t key) (h.index_lt key)
      obtain ⟨hwf1, hfind1⟩ := ih hwf hrun
      refine ⟨hwf1, fun key1 => ?_⟩
      rw [hfind1, hfind]

/-- After a completed run, `Find` answers what the sequence of calls leaves for
the key. -/
theorem run_spec {hash : K → Nat} (fuel : Nat) (ops : List (Op K V)) {t t1 : Table K V}
    (h : WF hash t) (hrun : run hash fuel t ops = some t1) :
    WF hash t1 ∧ ∀ key, Find hash t1 key = ops.foldl (applyOp key) (Find hash t key) := by
  induction ops generalizing t with
  | nil =>
    simp only [run, Option.some.injEq] at hrun
    subst hrun
    exact ⟨h, fun _ => rfl⟩
  | cons op rest ih =>
    cases op with
    | insert k v =>
      simp only [run] at hrun
      cases hi : Insert hash fuel t k v with
      | none => simp [hi] at hrun
      | some t2 =>
        simp only [hi] at hrun
        obtain ⟨hwf, hfind⟩ := Insert_spec fuel h k v hi
        obtain ⟨hwf1, hfind1⟩ := ih hwf hrun
        refine ⟨hwf1, fun key => ?_⟩
        rw [hfind1, hfind, List.foldl_cons]
        simp only [applyOp]
        by_cases e : k = key
        · simp [e]
        · have : ¬ key = k := fun e1 => e e1.symm
          simp [e, this]
    | remove k =>
      simp only [run] at hrun
      obtain ⟨hwf, hfind⟩ := Remove_spec h k
      obtain ⟨hwf1, hfind1⟩ := ih hwf hrun
      refine ⟨hwf1, fun key => ?_⟩
      rw [hfind1, hfind, List.foldl_cons]
      simp only [applyOp]
      by_cases e : k = key
      · simp [e]
      · have : ¬ key = k := fun e1 => e e1.symm
        simp [e, this]

/-- C1. After any completed sequence of `Insert` and `Remove` calls on a fresh
table, a key that was inserted and not removed afterwards is found, with the
value of its most recent `Insert`, whatever splits and directory doublings
happened on the way. -/
theorem find_returns_last_inserted (hash : K → Nat) (fuel bucket_size : Nat)
    (ops : List (Op K V)) (t : Table K V)
    (hrun : run hash fuel (Table.new bucket_size) ops = some t)
    (key : K) (value : V) (hlast : lastValue key ops = some value) :
    Find hash t key = some value := by
  obtain ⟨_, hfind⟩ := run_spec fuel ops (WF_new hash bucket_size) hrun
  rw [hfind]
  have : Find hash (Table.new bucket_size : Table K V) key = none := by
    simp [Find, Table.new, Table.bucketAt, Table.dirAt, Bucket.new, Bucket.Find, Bucket.findItem]
  rw [this]
  exact hlast

end ExtendibleHashTable

namespace ExtendibleHashTable

/-- Witness for C1: the sample run completes, key 5 was last inserted with 55,
and `Find` returns 55. -/
theorem find_returns_last_inserted_witness :
    run (fun k : Nat => k) 8 (Table.new 2) sampleOps = some sampleTable ∧
    lastValue 5 sampleOps = some 55 ∧
    Find (fun k : Nat => k) sampleTable 5 = some 55 :=
  ⟨by decide, by decide,
   find_returns_last_inserted (fun k : Nat => k) 8 2 sampleOps sampleTable (by decide) 5 55
     (by decide)⟩

end ExtendibleHashTable

/-! ### Association lists and the LRU-K replacer -/

namespace UMap

variable {α β : Type} [DecidableEq α]

theorem find_erase (m : List (α × β)) (k k1 : α) :
    find (erase m k) k1 = if k1 = k then none else find m k1 := by
  induction m with
  | nil => simp [erase, find]
  | cons e rest ih =>
    simp only [erase] at ih ⊢
    by_cases h : e.1 = k
    · rw [List.filter_cons_of_neg (by simpa using h), ih]
      by_cases h1 : k1 = k
      · simp [h1]
      · have : ¬ e.1 = k1 := fun e1 => h1 (e1 ▸ h)
        simp [h1, find, this]
    · rw [List.filter_cons_of_pos (by simpa using h)]
      simp only [find, ih]
      by_cases h2 : e.1 = k1
      · have : ¬ k1 = k := fun e1 => h (h2.trans e1)
        simp [h2, this]
      · simp [h2]

theorem find_put (m : List (α × β)) (k : α) (v : β) (k1 : α) :
    find (put m k v) k1 = if k1 = k then some v else find m k1 := by
  simp only [put, find, find_erase]
  by_cases h : k = k1
  · simp [h]
  · have : ¬ k1 = k := fun e => h e.symm
    simp [h, this]

theorem find_eq_none_iff (m : List (α × β)) (k : α) :
    find m k = none ↔ k ∉ m.map Prod.fst := by
  induction m with
  | nil => simp [find]
  | cons e rest ih =>
    by_cases h : e.1 = k
    · simp [find, h]
    · have h1 : ¬ k = e.1 := fun e1 => h e1.symm
      rw [List.map_cons, List.mem_cons, not_or, ← ih]
      simp [find, h, h1]

theorem find_some_mem (m : List (α × β)) (k : α) (v : β) (h : find m k = some v) :
    (k, v) ∈ m := by
  induction m with
  | nil => simp [find] at h
  | cons e rest ih =>
    by_cases h1 : e.1 = k
    · simp [find, h1] at h
      have : e = (k, v) := by rw [← h1, ← h]
      rw [this]; exact List.mem_cons_self _ _
    · simp [find, h1] at h
      exact List.mem_cons_of_mem _ (ih h)

theorem mem_find_of_nodup (m : List (α × β)) (hnd : (m.map Prod.fst).Nodup) (k : α) (v : β)
    (h : (k, v) ∈ m) : find m k = some v := by
  induction m with
  | nil => simp at h
  | cons e rest ih =>
    simp only [List.map_cons, List.nodup_cons] at hnd
    rcases List.mem_cons.1 h with e1 | e1
    · subst e1; simp [find]
    · have : ¬ e.1 = k := by
        intro e2
        apply hnd.1
        rw [e2]
        exact List.mem_map.2 ⟨(k, v), e1, rfl⟩
      simp [find, this, ih hnd.2 e1]

theorem keys_erase_sublist (m : List (α × β)) (k : α) :
    ((erase m k).map Prod.fst).Sublist (m.map Prod.fst) :=
  (List.filter_sublist _).map _

theorem nodup_erase (m : List (α × β)) (k : α) (hnd : (m.map Prod.fst).Nodup) :
    ((erase m k).map Prod.fst).Nodup := hnd.sublist (keys_erase_sublist m k)

theorem not_mem_keys_erase (m : List (α × β)) (k : α) : k ∉ (erase m k).map Prod.fst := by
  rw [← find_eq_none_iff, find_erase]; simp

theorem nodup_put (m : List (α × β)) (k : α) (v : β) (hnd : (m.map Prod.fst).Nodup) :
    ((put m k v).map Prod.fst).Nodup := by
  simp only [put, List.map_cons, List.nodup_cons]
  exact ⟨not_mem_keys_erase m k, nodup_erase m k hnd⟩

theorem mem_keys_put (m : List (α × β)) (k : α) (v : β) (k1 : α)
    (h : k1 ∈ (put m k v).map Prod.fst) : k1 = k ∨ k1 ∈ m.map Prod.fst := by
  simp only [put, List.map_cons, List.mem_cons] at h
  rcases h with e | e
  · exact Or.inl e
  · exact Or.inr ((keys_erase_sublist m k).subset e)

/-- Counting the entries that satisfy `p`: erasing key `k` removes what the
entry of `k` contributed. -/
theorem count_erase (p : β → Bool) (m : List (α × β)) (hnd : (m.map Prod.fst).Nodup) (k : α) :
    (m.filter (fun e => p e.2)).length
      = ((erase m k).filter (fun e => p e.2)).length
        + (match find m k with
           | some v => if p v then 1 else 0
           | none => 0) := by
  induction m with
  | nil => simp [erase, find]
  | cons e rest ih =>
    simp only [List.map_cons, List.nodup_cons] at hnd
    have ih1 := ih hnd.2
    by_cases h : e.1 = k
    · have hnone : find rest k = none := by
        rw [find_eq_none_iff, ← h]; exact hnd.1
      simp only [hnone, Nat.add_zero] at ih1
      have he : erase (e :: rest) k = erase rest k := by
        simp only [erase]
        rw [List.filter_cons_of_neg (by simpa using h)]
      rw [he]
      simp only [find, h, if_true]
      by_cases hp : p e.2
      · rw [List.filter_cons_of_pos (by simpa using hp)]
        simp only [List.length_cons, hp, if_true]
        omega
      · rw [List.filter_cons_of_neg (by simpa using hp)]
        simp only [hp]
        simpa using ih1
    · have he : erase (e :: rest) k = e :: erase rest k := by
        simp only [erase]
        rw [List.filter_cons_of_pos (by simpa using h)]
      rw [he]
      simp only [find, h, if_false]
      by_cases hp : p e.2
      · rw [List.filter_cons_of_pos (by simpa using hp), List.filter_cons_of_pos (by simpa using hp)]
        simp only [List.length_cons]
        omega
      · rw [List.filter_cons_of_neg (by simpa using hp), List.filter_cons_of_neg (by simpa using hp)]
        exact ih1

theorem count_put (p : β → Bool) (m : List (α × β)) (k : α) (v : β) :
    ((put m k v).filter (fun e => p e.2)).length
      = ((erase m k).filter (fun e => p e.2)).length + (if p v then 1 else 0) := by
  simp only [put]
  by_cases hp : p v
  · rw [List.filter_cons_of_pos (by simpa using hp)]
    simp [hp]
  · rw [List.filter_cons_of_neg (by simpa using hp)]
    simp [hp]

end UMap
namespace LRUKReplacer

theorem tableAt_evictable (r : Replacer) (f : Int) (h : (r.tableAt f).evictable = true) :
    ∃ info, UMap.find r.frame_table_ f = some info ∧ info.evictable = true := by
  unfold Replacer.tableAt at h
  cases hf : UMap.find r.frame_table_ f with
  | none => simp [hf, FrameInfo.init] at h
  | some info => exact ⟨info, rfl, by simpa [hf] using h⟩

theorem tableAt_of_find (r : Replacer) (f : Int) (info : FrameInfo)
    (h : UMap.find r.frame_table_ f = some info) : r.tableAt f = info := by
  simp [Replacer.tableAt, h]

theorem scanCache_some (r : Replacer) (l : List Int) (f : Int) (h : scanCache r l = some f) :
    f ∈ l ∧ (r.tableAt f).evictable = true := by
  induction l with
  | nil => simp [scanCache] at h
  | cons g rest ih =>
    simp only [scanCache] at h
    by_cases hg : (r.tableAt g).evictable = true
    · rw [if_pos hg] at h
      injection h with h
      subst h
      exact ⟨List.mem_cons_self _ _, hg⟩
    · rw [if_neg hg] at h
      exact ⟨List.mem_cons_of_mem _ (ih h).1, (ih h).2⟩

theorem scanCache_none (r : Replacer) (l : List Int) (h : scanCache r l = none) :
    ∀ f ∈ l, (r.tableAt f).evictable = false := by
  induction l with
  | nil => simp
  | cons g rest ih =>
    simp only [scanCache] at h
    by_cases hg : (r.tableAt g).evictable = true
    · rw [if_pos hg] at h; cases h
    · rw [if_neg hg] at h
      intro f hf
      rcases List.mem_cons.1 hf with e | e
      · subst e; simpa using hg
      · exact ih h f e

/-- The candidate after the history scan is the one it started with, or a
frame of the list whose evictable flag is set. -/
theorem scanHistory_candidate (r : Replacer) (l : List Int) (c e : Int) :
    (scanHistory r l (c, e)).1 = c ∨
    ((scanHistory r l (c, e)).1 ∈ l ∧ (r.tableAt (scanHistory r l (c, e)).1).evictable = true) := by
  induction l generalizing c e with
  | nil => left; rfl
  | cons g rest ih =>
    simp only [scanHistory]
    split
    · next hc =>
      rcases ih g (r.tableAt g).earliest_time with h1 | h1
      · right
        rw [h1]
        exact ⟨List.mem_cons_self _ _, hc.1⟩
      · right; exact ⟨List.mem_cons_of_mem _ h1.1, h1.2⟩
    · rcases ih c e with h1 | h1
      · left; exact h1
      · right; exact ⟨List.mem_cons_of_mem _ h1.1, h1.2⟩

/-- `Evict` without the emptiness guards, which the scans make redundant. -/
theorem Evict_eq (r : Replacer) :
    Evict r =
      match scanCache r r.cache_list_.reverse with
      | some frame_id => (RemoveFrame r frame_id, some frame_id)
      | none =>
        if (scanHistory r r.history_list_ (-1, TIME_MAX)).1 ≠ -1 then
          (RemoveFrame r (scanHistory r r.history_list_ (-1, TIME_MAX)).1,
            some (scanHistory r r.history_list_ (-1, TIME_MAX)).1)
        else (r, none) := by
  unfold Evict
  have h1 : (if !r.cache_list_.isEmpty then scanCache r r.cache_list_.reverse else none)
      = scanCache r r.cache_list_.reverse := by
    cases hc : r.cache_list_ with
    | nil => simp [scanCache]
    | cons a l => simp
  rw [h1]
  cases scanCache r r.cache_list_.reverse with
  | some g => rfl
  | none =>
    cases hh : r.history_list_ with
    | nil => simp [scanHistory]
    | cons a l => simp

/-- What `Evict` returns comes from one of the two lists and has its evictable
flag set. -/
theorem Evict_some (r : Replacer) (f : Int) (h : (Evict r).2 = some f) :
    (f ∈ r.cache_list_ ∨ f ∈ r.history_list_) ∧ (r.tableAt f).evictable = true := by
  rw [Evict_eq] at h
  cases hc : scanCache r r.cache_list_.reverse with
  | some g =>
    simp only [hc, Option.some.injEq] at h
    subst h
    have := scanCache_some r _ _ hc
    exact ⟨Or.inl (by simpa using this.1), this.2⟩
  | none =>
    simp only [hc] at h
    by_cases hne : (scanHistory r r.history_list_ (-1, TIME_MAX)).1 ≠ -1
    · rw [if_pos hne] at h
      simp only [Option.some.injEq] at h
      subst h
      rcases scanHistory_candidate r r.history_list_ (-1) TIME_MAX with h1 | h1
      · exact absurd h1 hne
      · exact ⟨Or.inr h1.1, h1.2⟩
    · rw [if_neg hne] at h
      cases h

/-- C9. Whenever `Evict` returns a frame id, that frame was tracked and its
evictable flag was true just before the call; in particular a frame whose flag
is false is never returned. -/
theorem evict_returns_evictable (r : Replacer) (f : Int) (h : (Evict r).2 = some f) :
    ∃ info, UMap.find r.frame_table_ f = some info ∧ info.evictable = true :=
  tableAt_evictable r f (Evict_some r f h).2


theorem valid_keys_length_le (l : List Int) (hnd : l.Nodup) (hv : ∀ f ∈ l, validFrame f) :
    l.length ≤ 2 ^ 32 := by
  have h1 : l.toFinset ⊆ Finset.Ico (-(2 : Int) ^ 31) (2 ^ 31) := by
    intro x hx
    rw [List.mem_toFinset] at hx
    rw [Finset.mem_Ico]
    exact hv x hx
  have h2 := Finset.card_le_card h1
  rw [List.toFinset_card_of_nodup hnd, Int.card_Ico] at h2
  have : ((2 : Int) ^ 31 - -(2 : Int) ^ 31).toNat = 2 ^ 32 := by decide
  rw [this] at h2
  exact h2

theorem evictableCount_le (r : Replacer) : evictableCount r ≤ r.frame_table_.length :=
  List.length_filter_le _ _

theorem SizeInv.table_le {r : Replacer} (h : SizeInv r) : r.frame_table_.length ≤ 2 ^ 32 := by
  have := valid_keys_length_le _ h.nodup h.valid
  simpa using this

theorem sizeDec_pos (x : Nat) (h1 : 0 < x) (h2 : x < 2 ^ 64) : sizeDec x = x - 1 := by
  unfold sizeDec
  have : x + (2 ^ 64 - 1) = (x - 1) + 2 ^ 64 := by omega
  rw [this, Nat.add_mod_right, Nat.mod_eq_of_lt (by omega)]

theorem sizeInc_lt (x : Nat) (h2 : x + 1 < 2 ^ 64) : sizeInc x = x + 1 := by
  unfold sizeInc
  exact Nat.mod_eq_of_lt h2

theorem SizeInv_new (n k : Nat) : SizeInv (Replacer.new n k) :=
  ⟨by simp [Replacer.new], by simp [Replacer.new], by simp [Replacer.new, evictableCount]⟩

/-- A state that differs from `r` in the lists only keeps the invariant. -/
theorem SizeInv_of_same {r r1 : Replacer} (h : SizeInv r)
    (ht : r1.frame_table_ = r.frame_table_) (hs : r1.current_size_ = r.current_size_) :
    SizeInv r1 :=
  ⟨ht ▸ h.nodup, ht ▸ h.valid, by rw [hs, h.size]; simp [evictableCount, ht]⟩

theorem RemoveFrame_table (r : Replacer) (f : Int) :
    (RemoveFrame r f).frame_table_ = UMap.erase r.frame_table_ f := by
  unfold RemoveFrame
  simp only []
  split <;> split <;> split <;> rfl

theorem RemoveFrame_size (r : Replacer) (f : Int) :
    (RemoveFrame r f).current_size_
      = if (r.tableAt f).evictable then sizeDec r.current_size_ else r.current_size_ := by
  unfold RemoveFrame
  simp only []
  have key : ∀ r2 : Replacer, r2.frame_table_ = r.frame_table_ → r2.current_size_ = r.current_size_ →
      (if (r2.tableAt f).evictable = true then
          ({ r2 with current_size_ := sizeDec r2.current_size_ } : Replacer) else r2).current_size_
      = if (r.tableAt f).evictable then sizeDec r.current_size_ else r.current_size_ := by
    intro r2 h1 h2
    have : r2.tableAt f = r.tableAt f := by simp [Replacer.tableAt, h1]
    rw [this]
    split <;> simp [h2]
  split <;> split <;> exact key _ rfl rfl

theorem SizeInv_RemoveFrame {r : Replacer} (h : SizeInv r) (f : Int) :
    SizeInv (RemoveFrame r f) := by
  refine ⟨?_, ?_, ?_⟩
  · rw [RemoveFrame_table]; exact UMap.nodup_erase _ _ h.nodup
  · rw [RemoveFrame_table]
    intro g hg
    exact h.valid g ((UMap.keys_erase_sublist _ _).subset hg)
  · rw [RemoveFrame_size]
    have hc := UMap.count_erase (fun i : FrameInfo => i.evictable) r.frame_table_ h.nodup f
    have hle := evictableCount_le r
    have hlen := h.table_le
    have hsz := h.size
    unfold evictableCount at hsz hle ⊢
    rw [RemoveFrame_table]
    unfold Replacer.tableAt
    cases hf : UMap.find r.frame_table_ f with
    | none =>
      simp only [hf, Option.getD_none, FrameInfo.init] at hc ⊢
      simp only [Bool.false_eq_true, ↓reduceIte] at hc ⊢
      omega
    | some info =>
      simp only [hf, Option.getD_some] at hc ⊢
      by_cases he : info.evictable = true
      · rw [if_pos he] at hc ⊢
        rw [sizeDec_pos _ (by omega) (by omega)]
        omega
      · rw [if_neg he] at hc ⊢
        omega

theorem SizeInv_Evict {r : Replacer} (h : SizeInv r) : SizeInv (Evict r).1 := by
  rw [Evict_eq]
  split
  · exact SizeInv_RemoveFrame h _
  · split
    · exact SizeInv_RemoveFrame h _
    · exact h

theorem SizeInv_Remove {r : Replacer} (h : SizeInv r) (f : Int) : SizeInv (Remove r f) := by
  unfold Remove
  split
  · exact h
  · split
    · exact h
    · exact SizeInv_RemoveFrame h _

theorem SizeInv_SetEvictable {r : Replacer} (h : SizeInv r) (f : Int) (b : Bool) :
    SizeInv (SetEvictable r f b) := by
  unfold SetEvictable
  split
  · exact h
  · next info hf =>
    have hmem : f ∈ r.frame_table_.map Prod.fst :=
      List.mem_map.2 ⟨(f, info), UMap.find_some_mem _ _ _ hf, rfl⟩
    refine ⟨UMap.nodup_put _ _ _ h.nodup, ?_, ?_⟩
    · intro g hg
      rcases UMap.mem_keys_put _ _ _ _ hg with e | e
      · rw [e]; exact h.valid f hmem
      · exact h.valid g e
    · have hc := UMap.count_erase (fun i : FrameInfo => i.evictable) r.frame_table_ h.nodup f
      have hp := UMap.count_put (fun i : FrameInfo => i.evictable) r.frame_table_ f
        { info with evictable := b }
      have hlen := h.table_le
      have hle := evictableCount_le r
      have hsz := h.size
      have hlen1 : (UMap.erase r.frame_table_ f).length + 1 ≤ r.frame_table_.length := by
        have hne : (f, info) ∈ r.frame_table_ := UMap.find_some_mem _ _ _ hf
        have : (UMap.erase r.frame_table_ f).length < r.frame_table_.length := by
          unfold UMap.erase
          apply List.length_filter_lt_length_iff_exists.2
          exact ⟨(f, info), hne, by simp⟩
        omega
      have hle2 : ((UMap.erase r.frame_table_ f).filter (fun e => e.2.evictable)).length
          ≤ (UMap.erase r.frame_table_ f).length := List.length_filter_le _ _
      unfold evictableCount at hsz hle ⊢
      simp only [hf] at hc
      simp only [] at hp ⊢
      rw [hp]
      by_cases he : info.evictable = true <;> cases b
      · rw [if_pos he] at hc
        rw [if_pos ⟨he, by simp⟩, if_neg (by simp), sizeDec_pos _ (by omega) (by omega)]
        omega
      · rw [if_pos he] at hc
        rw [if_neg (by simp), if_neg (by simp [he]), if_pos rfl]
        omega
      · rw [if_neg he] at hc
        rw [if_neg (by simp [he]), if_neg (by simp), if_neg (by simp)]
        omega
      · rw [if_neg he] at hc
        rw [if_neg (by simp [he]), if_pos ⟨he, rfl⟩, if_pos rfl, sizeInc_lt _ (by omega)]
        omega


/-- The entry `RecordAccess` writes for the frame. -/
theorem RecordAccess_table (r : Replacer) (f : Int) (t : Int)
    (hg : ¬ castSizeT f ≥ r.replacer_size_) :
    (RecordAccess r f t).frame_table_ = UMap.put r.frame_table_ f
      ⟨(if ((r.tableAt f).history ++ [t]).length > r.k_ then ((r.tableAt f).history ++ [t]).tail
          else (r.tableAt f).history ++ [t]),
        (r.tableAt f).evictable,
        (if ((r.tableAt f).history ++ [t]).length = 1 then t else (r.tableAt f).earliest_time)⟩ := by
  unfold RecordAccess
  rw [if_neg hg]
  simp only [apply_ite Replacer.frame_table_, ite_self]

theorem RecordAccess_size (r : Replacer) (f : Int) (t : Int) :
    (RecordAccess r f t).current_size_ = r.current_size_ := by
  unfold RecordAccess
  simp only [apply_ite Replacer.current_size_, ite_self]

theorem SizeInv_RecordAccess {r : Replacer} (h : SizeInv r) (f : Int) (t : Int)
    (hv : validFrame f) : SizeInv (RecordAccess r f t) := by
  by_cases hg : castSizeT f ≥ r.replacer_size_
  · have : RecordAccess r f t = r := by unfold RecordAccess; rw [if_pos hg]
    rw [this]; exact h
  · refine ⟨?_, ?_, ?_⟩
    · rw [RecordAccess_table r f t hg]; exact UMap.nodup_put _ _ _ h.nodup
    · rw [RecordAccess_table r f t hg]
      intro g hgm
      rcases UMap.mem_keys_put _ _ _ _ hgm with e | e
      · rw [e]; exact hv
      · exact h.valid g e
    · rw [RecordAccess_size]
      unfold evictableCount
      rw [RecordAccess_table r f t hg, UMap.count_put (fun i : FrameInfo => i.evictable)]
      have hc := UMap.count_erase (fun i : FrameInfo => i.evictable) r.frame_table_ h.nodup f
      have hsz := h.size
      unfold evictableCount at hsz
      rw [hsz, hc]
      unfold Replacer.tableAt
      cases hf : UMap.find r.frame_table_ f with
      | none => simp [FrameInfo.init]
      | some info => simp

theorem SizeInv_run (ops : List Op) (r : Replacer) (h : SizeInv r) (hv : validOps ops) :
    SizeInv (run r ops) := by
  induction ops generalizing r with
  | nil => exact h
  | cons op rest ih =>
    have hv2 : validOps rest := fun o ho => hv o (List.mem_cons_of_mem _ ho)
    have hv1 : validOp op := hv op (List.mem_cons_self _ _)
    cases op with
    | access f t => exact ih _ (SizeInv_RecordAccess h f t hv1) hv2
    | setEvictable f b => exact ih _ (SizeInv_SetEvictable h f b) hv2
    | evict => exact ih _ (SizeInv_Evict h) hv2
    | remove f => exact ih _ (SizeInv_Remove h f) hv2

/-- C8. After any sequence of `RecordAccess`, `SetEvictable`, `Evict` and
`Remove` calls on a fresh replacer (frame ids being `int32_t` values), `Size()`
is the number of tracked frames whose evictable flag is true. -/
theorem size_counts_evictable (num_frames k : Nat) (ops : List Op) (hv : validOps ops) :
    Size (run (Replacer.new num_frames k) ops)
      = evictableCount (run (Replacer.new num_frames k) ops) :=
  (SizeInv_run ops _ (SizeInv_new num_frames k) hv).size

set_option maxRecDepth 100000 in
/-- Witness for C8: the six accesses of the test, frames 1 to 5 evictable and
frame 6 not, give `Size() == 5`. -/
theorem size_counts_evictable_witness :
    validOps sampleOps ∧
    Size (run (Replacer.new 7 2) sampleOps) = 5 ∧
    Size (run (Replacer.new 7 2) sampleOps) = evictableCount (run (Replacer.new 7 2) sampleOps) :=
  ⟨by decide, by decide, size_counts_evictable 7 2 sampleOps (by decide)⟩

set_option maxRecDepth 100000 in
/-- Witness for C9: in the state of the test `Evict` returns frame 1, which is
tracked and evictable. -/
theorem evict_returns_evictable_witness :
    (Evict (run (Replacer.new 7 2) sampleOps)).2 = some 1 ∧
    ∃ info, UMap.find (run (Replacer.new 7 2) sampleOps).frame_table_ 1 = some info ∧
      info.evictable = true :=
  ⟨by decide, evict_returns_evictable (run (Replacer.new 7 2) sampleOps) 1 (by decide)⟩


set_option maxRecDepth 100000 in
/-- C5, the code at the failing input. With `k = 2`, frame 1 accessed at times
1, 2, 5 and frame 2 at times 3, 4, both evictable and both with `k` accesses:
frame 1 has the older `k`-th most recent access (2 against 3), and `Evict`
returns frame 2. -/
theorem evict_ignores_kth_access :
    kthRecent (run (Replacer.new 7 2) reaccessOps) 1 = 2 ∧
    kthRecent (run (Replacer.new 7 2) reaccessOps) 2 = 3 ∧
    MatureEvictable (run (Replacer.new 7 2) reaccessOps) 1 ∧
    MatureEvictable (run (Replacer.new 7 2) reaccessOps) 2 ∧
    StrictClock reaccessOps ∧
    (Evict (run (Replacer.new 7 2) reaccessOps)).2 = some 2 ∧
    ¬ EvictsLargestKDistance (run (Replacer.new 7 2) reaccessOps) := by
  refine ⟨by decide, by decide, by decide, by decide, by decide, by decide, ?_⟩
  intro h
  have hy : ∀ f, ¬ YoungEvictable (run (Replacer.new 7 2) reaccessOps) f := by
    intro f hf
    unfold YoungEvictable at hf
    split at hf
    · next info hfind =>
      have hmem := UMap.find_some_mem _ _ _ hfind
      have hall : ∀ e ∈ (run (Replacer.new 7 2) reaccessOps).frame_table_,
          ¬ e.2.history.length < (run (Replacer.new 7 2) reaccessOps).k_ := by decide
      exact hall _ hmem hf.2
    · exact hf
  obtain ⟨g, hg, _, hmin⟩ := h ⟨1, by decide⟩ hy
  have h2 : (Evict (run (Replacer.new 7 2) reaccessOps)).2 = some 2 := by decide
  rw [h2] at hg
  injection hg with hg
  subst hg
  have := hmin 1 (by decide)
  revert this
  decide


theorem RemoveFrame_fields (r : Replacer) (f : Int)
    (hh : ∀ g, g ∈ r.history_map_ ↔ g ∈ r.history_list_)
    (hc : ∀ g, g ∈ r.cache_map_ ↔ g ∈ r.cache_list_) :
    (RemoveFrame r f).history_list_ = r.history_list_.erase f ∧
    (RemoveFrame r f).history_map_ = r.history_map_.erase f ∧
    (RemoveFrame r f).cache_list_ = r.cache_list_.erase f ∧
    (RemoveFrame r f).cache_map_ = r.cache_map_.erase f ∧
    (RemoveFrame r f).k_ = r.k_ ∧
    (RemoveFrame r f).replacer_size_ = r.replacer_size_ := by
  unfold RemoveFrame
  simp only [apply_ite Replacer.history_list_, apply_ite Replacer.history_map_,
    apply_ite Replacer.cache_list_, apply_ite Replacer.cache_map_, apply_ite Replacer.k_,
    apply_ite Replacer.replacer_size_, ite_self]
  refine ⟨?_, ?_, ?_, ?_, trivial, trivial⟩
  · split
    · rfl
    · next hn => rw [List.erase_of_not_mem (fun hm => hn ((hh f).2 hm))]
  · split
    · rfl
    · next hn => rw [List.erase_of_not_mem hn]
  · split
    · rfl
    · next hn => rw [List.erase_of_not_mem (fun hm => hn ((hc f).2 hm))]
  · split
    · rfl
    · next hn => rw [List.erase_of_not_mem hn]


/-- The history `RecordAccess` stores for the frame. -/
theorem RecordAccess_fields_young (r : Replacer) (f t : Int)
    (hg : ¬ castSizeT f ≥ r.replacer_size_)
    (hh : ∀ g, g ∈ r.history_map_ ↔ g ∈ r.history_list_)
    (hc : ∀ g, g ∈ r.cache_map_ ↔ g ∈ r.cache_list_)
    (hy : (if ((r.tableAt f).history ++ [t]).length > r.k_ then ((r.tableAt f).history ++ [t]).tail
          else (r.tableAt f).history ++ [t]).length < r.k_) :
    (RecordAccess r f t).history_list_ = f :: r.history_list_.erase f ∧
    (RecordAccess r f t).history_map_ = (if f ∉ r.history_map_ then f :: r.history_map_
      else r.history_map_) ∧
    (RecordAccess r f t).cache_list_ = r.cache_list_.erase f ∧
    (RecordAccess r f t).cache_map_ = r.cache_map_.erase f ∧
    (RecordAccess r f t).k_ = r.k_ ∧
    (RecordAccess r f t).replacer_size_ = r.replacer_size_ := by
  unfold RecordAccess
  rw [if_neg hg]
  simp only []
  rw [if_pos hy]
  simp only [apply_ite Replacer.history_list_, apply_ite Replacer.history_map_,
    apply_ite Replacer.cache_list_, apply_ite Replacer.cache_map_, apply_ite Replacer.k_,
    apply_ite Replacer.replacer_size_, ite_self]
  refine ⟨?_, trivial, ?_, ?_, trivial, trivial⟩
  · split
    · next hn => rw [List.erase_of_not_mem (fun hm => hn ((hh f).2 hm))]
    · rfl
  · split
    · rfl
    · next hn => rw [List.erase_of_not_mem (fun hm => hn ((hc f).2 hm))]
  · split
    · rfl
    · next hn => rw [List.erase_of_not_mem hn]

theorem RecordAccess_fields_mature (r : Replacer) (f t : Int)
    (hg : ¬ castSizeT f ≥ r.replacer_size_)
    (hh : ∀ g, g ∈ r.history_map_ ↔ g ∈ r.history_list_)
    (hc : ∀ g, g ∈ r.cache_map_ ↔ g ∈ r.cache_list_)
    (hy : ¬ (if ((r.tableAt f).history ++ [t]).length > r.k_ then ((r.tableAt f).history ++ [t]).tail
          else (r.tableAt f).history ++ [t]).length < r.k_) :
    (RecordAccess r f t).cache_list_ = f :: r.cache_list_.erase f ∧
    (RecordAccess r f t).cache_map_ = (if f ∉ r.cache_map_ then f :: r.cache_map_
      else r.cache_map_) ∧
    (RecordAccess r f t).history_list_ = r.history_list_.erase f ∧
    (RecordAccess r f t).history_map_ = r.history_map_.erase f ∧
    (RecordAccess r f t).k_ = r.k_ ∧
    (RecordAccess r f t).replacer_size_ = r.replacer_size_ := by
  unfold RecordAccess
  rw [if_neg hg]
  simp only []
  rw [if_neg hy]
  simp only [apply_ite Replacer.history_list_, apply_ite Replacer.history_map_,
    apply_ite Replacer.cache_list_, apply_ite Replacer.cache_map_, apply_ite Replacer.k_,
    apply_ite Replacer.replacer_size_, ite_self]
  refine ⟨?_, trivial, ?_, ?_, trivial, trivial⟩
  · split
    · next hn => rw [List.erase_of_not_mem (fun hm => hn ((hc f).2 hm))]
    · rfl
  · split
    · rfl
    · next hn => rw [List.erase_of_not_mem (fun hm => hn ((hh f).2 hm))]
  · split
    · rfl
    · next hn => rw [List.erase_of_not_mem hn]

/-- Membership in a key set after the `push_front` of `RecordAccess`. -/
theorem mem_pushed (f : Int) (m l : List Int) (hm : ∀ g, g ∈ m ↔ g ∈ l) (hnd : l.Nodup) (g : Int) :
    g ∈ (if f ∉ m then f :: m else m) ↔ g ∈ f :: l.erase f := by
  by_cases hf : f ∈ m
  · rw [if_neg (not_not.2 hf)]
    by_cases e : g = f
    · subst e; simp [hf]
    · rw [hm, List.mem_cons, hnd.mem_erase_iff]
      simp [e]
  · rw [if_pos hf]
    have hfl : f ∉ l := fun h => hf ((hm f).2 h)
    rw [List.erase_of_not_mem hfl, List.mem_cons, List.mem_cons, hm]

theorem nodup_pushed (f : Int) (m : List Int) (hnd : m.Nodup) :
    (if f ∉ m then f :: m else m).Nodup := by
  split
  · next h => exact List.nodup_cons.2 ⟨h, hnd⟩
  · exact hnd

theorem nodup_cons_erase (f : Int) (l : List Int) (hnd : l.Nodup) : (f :: l.erase f).Nodup :=
  List.nodup_cons.2 ⟨fun h => (hnd.mem_erase_iff.1 h).1 rfl, hnd.erase f⟩


theorem ListInv_new (n k : Nat) : ListInv (Replacer.new n k) := by
  refine ⟨?_, ?_, ?_, ?_, ?_, ?_, ?_, ?_, ?_, ?_, ?_⟩ <;> simp [Replacer.new, UMap.find]

theorem tableAt_history_nonempty (r : Replacer) (f : Int) (a : Int) (l : List Int)
    (h : (r.tableAt f).history = a :: l) : UMap.find r.frame_table_ f = some (r.tableAt f) := by
  unfold Replacer.tableAt at h ⊢
  cases hf : UMap.find r.frame_table_ f with
  | none => simp [hf, FrameInfo.init] at h
  | some info => simp

theorem ListInv_RecordAccess {r : Replacer} (h : ListInv r) (f t : Int) :
    ListInv (RecordAccess r f t) := by
  by_cases hg : castSizeT f ≥ r.replacer_size_
  · have : RecordAccess r f t = r := by unfold RecordAccess; rw [if_pos hg]
    rw [this]; exact h
  · have htab := RecordAccess_table r f t hg
    have hfind : ∀ g, UMap.find (RecordAccess r f t).frame_table_ g
        = if g = f then some ⟨(if ((r.tableAt f).history ++ [t]).length > r.k_
              then ((r.tableAt f).history ++ [t]).tail else (r.tableAt f).history ++ [t]),
            (r.tableAt f).evictable,
            (if ((r.tableAt f).history ++ [t]).length = 1 then t else (r.tableAt f).earliest_time)⟩
          else UMap.find r.frame_table_ g := by
      intro g; rw [htab, UMap.find_put]
    -- the entry written for `f`
    have hfirst : (if ((r.tableAt f).history ++ [t]).length > r.k_
          then ((r.tableAt f).history ++ [t]).tail else (r.tableAt f).history ++ [t]).length < r.k_ →
        (if ((r.tableAt f).history ++ [t]).length > r.k_
          then ((r.tableAt f).history ++ [t]).tail else (r.tableAt f).history ++ [t]).head?
        = some (if ((r.tableAt f).history ++ [t]).length = 1 then t
            else (r.tableAt f).earliest_time) := by
      intro hy
      by_cases hlen : ((r.tableAt f).history ++ [t]).length > r.k_
      · rw [if_pos hlen] at hy
        simp only [List.length_tail] at hy
        omega
      · rw [if_neg hlen] at hy ⊢
        cases hh : (r.tableAt f).history with
        | nil => simp
        | cons a l =>
          have htr := tableAt_history_nonempty r f a l hh
          have hyoung : (r.tableAt f).history.length < r.k_ := by
            simp only [List.length_append, List.length_singleton] at hy; omega
          have := h.young_first f _ htr hyoung
          rw [hh] at this
          simp only [List.head?_cons, Option.some.injEq] at this
          simp [this]
    by_cases hy : (if ((r.tableAt f).history ++ [t]).length > r.k_
          then ((r.tableAt f).history ++ [t]).tail else (r.tableAt f).history ++ [t]).length < r.k_
    · obtain ⟨e1, e2, e3, e4, e5, e6⟩ := RecordAccess_fields_young r f t hg h.hmap h.cmap hy
      refine ⟨?_, ?_, ?_, ?_, ?_, ?_, ?_, ?_, ?_, ?_, ?_⟩
      · rw [htab]; exact UMap.nodup_put _ _ _ h.nodup
      · rw [e1]; exact nodup_cons_erase f _ h.hist_nodup
      · rw [e3]; exact h.cache_nodup.erase f
      · rw [e2]; exact nodup_pushed f _ h.hmap_nodup
      · rw [e4]; exact h.cmap_nodup.erase f
      · intro g; rw [e1, e2]; exact mem_pushed f _ _ h.hmap h.hist_nodup g
      · intro g; rw [e3, e4, h.cmap_nodup.mem_erase_iff, h.cache_nodup.mem_erase_iff, h.cmap]
      · intro g
        rw [e1, e5, hfind]
        by_cases e : g = f
        · subst e
          simp only [List.mem_cons, true_or, if_true, true_iff]
          exact ⟨_, rfl, hy⟩
        · rw [if_neg e, List.mem_cons, h.hist_nodup.mem_erase_iff, ← h.hist]
          simp [e]
      · intro g
        rw [e3, e5, hfind]
        by_cases e : g = f
        · subst e
          simp only [h.cache_nodup.mem_erase_iff, ne_eq, not_true_eq_false, false_and, if_true,
            false_iff, not_exists, not_and]
          intro info hi
          injection hi with hi
          subst hi
          simpa using hy
        · rw [if_neg e, h.cache_nodup.mem_erase_iff, ← h.cache]
          simp [e]
      · intro g info hgi
        rw [hfind] at hgi
        rw [e6]
        by_cases e : g = f
        · subst e; simpa using hg
        · rw [if_neg e] at hgi; exact h.range g info hgi
      · intro g info hgi hlt
        rw [hfind] at hgi
        rw [e5] at hlt
        by_cases e : g = f
        · subst e
          rw [if_pos rfl] at hgi
          injection hgi with hgi
          subst hgi
          exact hfirst hy
        · rw [if_neg e] at hgi; exact h.young_first g info hgi hlt
    · obtain ⟨e1, e2, e3, e4, e5, e6⟩ := RecordAccess_fields_mature r f t hg h.hmap h.cmap hy
      refine ⟨?_, ?_, ?_, ?_, ?_, ?_, ?_, ?_, ?_, ?_, ?_⟩
      · rw [htab]; exact UMap.nodup_put _ _ _ h.nodup
      · rw [e3]; exact h.hist_nodup.erase f
      · rw [e1]; exact nodup_cons_erase f _ h.cache_nodup
      · rw [e4]; exact h.hmap_nodup.erase f
      · rw [e2]; exact nodup_pushed f _ h.cmap_nodup
      · intro g; rw [e3, e4, h.hmap_nodup.mem_erase_iff, h.hist_nodup.mem_erase_iff, h.hmap]
      · intro g; rw [e1, e2]; exact mem_pushed f _ _ h.cmap h.cache_nodup g
      · intro g
        rw [e3, e5, hfind]
        by_cases e : g = f
        · subst e
          simp only [h.hist_nodup.mem_erase_iff, ne_eq, not_true_eq_false, false_and, if_true,
            false_iff, not_exists, not_and]
          intro info hi
          injection hi with hi
          subst hi
          exact hy
        · rw [if_neg e, h.hist_nodup.mem_erase_iff, ← h.hist]
          simp [e]
      · intro g
        rw [e1, e5, hfind]
        by_cases e : g = f
        · subst e
          simp only [List.mem_cons, true_or, if_true, true_iff]
          exact ⟨_, rfl, by simpa using hy⟩
        · rw [if_neg e, List.mem_cons, h.cache_nodup.mem_erase_iff, ← h.cache]
          simp [e]
      · intro g info hgi
        rw [hfind] at hgi
        rw [e6]
        by_cases e : g = f
        · subst e; simpa using hg
        · rw [if_neg e] at hgi; exact h.range g info hgi
      · intro g info hgi hlt
        rw [hfind] at hgi
        rw [e5] at hlt
        by_cases e : g = f
        · subst e
          rw [if_pos rfl] at hgi
          injection hgi with hgi
          subst hgi
          exact absurd hlt hy
        · rw [if_neg e] at hgi; exact h.young_first g info hgi hlt


theorem ListInv_RemoveFrame {r : Replacer} (h : ListInv r) (f : Int) :
    ListInv (RemoveFrame r f) := by
  obtain ⟨e1, e2, e3, e4, e5, e6⟩ := RemoveFrame_fields r f h.hmap h.cmap
  have htab := RemoveFrame_table r f
  have hfind : ∀ g, UMap.find (RemoveFrame r f).frame_table_ g
      = if g = f then none else UMap.find r.frame_table_ g := by
    intro g; rw [htab, UMap.find_erase]
  refine ⟨?_, ?_, ?_, ?_, ?_, ?_, ?_, ?_, ?_, ?_, ?_⟩
  · rw [htab]; exact UMap.nodup_erase _ _ h.nodup
  · rw [e1]; exact h.hist_nodup.erase f
  · rw [e3]; exact h.cache_nodup.erase f
  · rw [e2]; exact h.hmap_nodup.erase f
  · rw [e4]; exact h.cmap_nodup.erase f
  · intro g; rw [e1, e2, h.hmap_nodup.mem_erase_iff, h.hist_nodup.mem_erase_iff, h.hmap]
  · intro g; rw [e3, e4, h.cmap_nodup.mem_erase_iff, h.cache_nodup.mem_erase_iff, h.cmap]
  · intro g
    rw [e1, e5, hfind, h.hist_nodup.mem_erase_iff]
    by_cases e : g = f
    · simp [e]
    · rw [if_neg e, ← h.hist]; simp [e]
  · intro g
    rw [e3, e5, hfind, h.cache_nodup.mem_erase_iff]
    by_cases e : g = f
    · simp [e]
    · rw [if_neg e, ← h.cache]; simp [e]
  · intro g info hgi
    rw [hfind] at hgi
    rw [e6]
    by_cases e : g = f
    · rw [if_pos e] at hgi; cases hgi
    · rw [if_neg e] at hgi; exact h.range g info hgi
  · intro g info hgi hlt
    rw [hfind] at hgi
    rw [e5] at hlt
    by_cases e : g = f
    · rw [if_pos e] at hgi; cases hgi
    · rw [if_neg e] at hgi; exact h.young_first g info hgi hlt

theorem ListInv_Evict {r : Replacer} (h : ListInv r) : ListInv (Evict r).1 := by
  rw [Evict_eq]
  split
  · exact ListInv_RemoveFrame h _
  · split
    · exact ListInv_RemoveFrame h _
    · exact h

theorem ListInv_Remove {r : Replacer} (h : ListInv r) (f : Int) : ListInv (Remove r f) := by
  unfold Remove
  split
  · exact h
  · split
    · exact h
    · exact ListInv_RemoveFrame h _

theorem SetEvictable_find (r : Replacer) (f : Int) (b : Bool) (g : Int) :
    UMap.find (SetEvictable r f b).frame_table_ g
      = if g = f then (UMap.find r.frame_table_ f).map (fun i => { i with evictable := b })
        else UMap.find r.frame_table_ g := by
  unfold SetEvictable
  split
  · next hf =>
    by_cases e : g = f
    · rw [if_pos e, e, hf]; rfl
    · rw [if_neg e]
  · next info hf =>
    simp only [UMap.find_put, hf, Option.map_some']

theorem ListInv_SetEvictable {r : Replacer} (h : ListInv r) (f : Int) (b : Bool) :
    ListInv (SetEvictable r f b) := by
  have hfind := SetEvictable_find r f b
  have hsame : (SetEvictable r f b).history_list_ = r.history_list_ ∧
      (SetEvictable r f b).history_map_ = r.history_map_ ∧
      (SetEvictable r f b).cache_list_ = r.cache_list_ ∧
      (SetEvictable r f b).cache_map_ = r.cache_map_ ∧
      (SetEvictable r f b).k_ = r.k_ ∧
      (SetEvictable r f b).replacer_size_ = r.replacer_size_ := by
    unfold SetEvictable
    split <;> exact ⟨rfl, rfl, rfl, rfl, rfl, rfl⟩
  obtain ⟨e1, e2, e3, e4, e5, e6⟩ := hsame
  -- entries keep their history and earliest time
  have hlift : ∀ g info, UMap.find (SetEvictable r f b).frame_table_ g = some info →
      ∃ info0, UMap.find r.frame_table_ g = some info0 ∧ info.history = info0.history ∧
        info.earliest_time = info0.earliest_time := by
    intro g info hgi
    rw [hfind] at hgi
    by_cases e : g = f
    · rw [if_pos e] at hgi
      cases hf : UMap.find r.frame_table_ f with
      | none => rw [hf] at hgi; cases hgi
      | some i0 =>
        rw [hf] at hgi
        simp only [Option.map_some', Option.some.injEq] at hgi
        subst hgi
        exact ⟨i0, by rw [e, hf], rfl, rfl⟩
    · rw [if_neg e] at hgi
      exact ⟨info, hgi, rfl, rfl⟩
  have hlower : ∀ g info0, UMap.find r.frame_table_ g = some info0 →
      ∃ info, UMap.find (SetEvictable r f b).frame_table_ g = some info ∧
        info.history = info0.history := by
    intro g info0 hgi
    rw [hfind]
    by_cases e : g = f
    · rw [if_pos e, ← e, hgi]; exact ⟨_, rfl, rfl⟩
    · rw [if_neg e]; exact ⟨info0, hgi, rfl⟩
  refine ⟨?_, ?_, ?_, ?_, ?_, ?_, ?_, ?_, ?_, ?_, ?_⟩
  · unfold SetEvictable
    split
    · exact h.nodup
    · exact UMap.nodup_put _ _ _ h.nodup
  · rw [e1]; exact h.hist_nodup
  · rw [e3]; exact h.cache_nodup
  · rw [e2]; exact h.hmap_nodup
  · rw [e4]; exact h.cmap_nodup
  · intro g; rw [e1, e2]; exact h.hmap g
  · intro g; rw [e3, e4]; exact h.cmap g
  · intro g
    rw [e1, e5, h.hist]
    constructor
    · rintro ⟨i0, h0, hl⟩
      obtain ⟨i, hi, hh⟩ := hlower g i0 h0
      exact ⟨i, hi, by rw [hh]; exact hl⟩
    · rintro ⟨i, hi, hl⟩
      obtain ⟨i0, h0, hh, _⟩ := hlift g i hi
      exact ⟨i0, h0, by rw [← hh]; exact hl⟩
  · intro g
    rw [e3, e5, h.cache]
    constructor
    · rintro ⟨i0, h0, hl⟩
      obtain ⟨i, hi, hh⟩ := hlower g i0 h0
      exact ⟨i, hi, by rw [hh]; exact hl⟩
    · rintro ⟨i, hi, hl⟩
      obtain ⟨i0, h0, hh, _⟩ := hlift g i hi
      exact ⟨i0, h0, by rw [← hh]; exact hl⟩
  · intro g info hgi
    obtain ⟨i0, h0, _, _⟩ := hlift g info hgi
    rw [e6]; exact h.range g i0 h0
  · intro g info hgi hlt
    obtain ⟨i0, h0, hh, he⟩ := hlift g info hgi
    rw [e5, hh] at hlt
    rw [hh, he]; exact h.young_first g i0 h0 hlt

theorem ListInv_run (ops : List Op) (r : Replacer) (h : ListInv r) : ListInv (run r ops) := by
  induction ops generalizing r with
  | nil => exact h
  | cons op rest ih =>
    cases op with
    | access f t => exact ih _ (ListInv_RecordAccess h f t)
    | setEvictable f b => exact ih _ (ListInv_SetEvictable h f b)
    | evict => exact ih _ (ListInv_Evict h)
    | remove f => exact ih _ (ListInv_Remove h f)


theorem TimeInv_new (n k : Nat) : TimeInv (Replacer.new n k) [] :=
  ⟨by simp [Replacer.new, UMap.find], by simp [Replacer.new, UMap.find]⟩

/-- An operation that adds no entry and changes no earliest time keeps the
time invariant. -/
theorem TimeInv_of_lift {r r1 : Replacer} {seen : List Int} (h : TimeInv r seen)
    (hl : ∀ g info, UMap.find r1.frame_table_ g = some info →
      ∃ info0, UMap.find r.frame_table_ g = some info0 ∧
        info.earliest_time = info0.earliest_time) : TimeInv r1 seen := by
  refine ⟨?_, ?_⟩
  · intro g info hgi
    obtain ⟨i0, h0, he⟩ := hl g info hgi
    rw [he]; exact h.below g i0 h0
  · intro g1 g2 i1 i2 h1 h2 hne
    obtain ⟨j1, hj1, he1⟩ := hl g1 i1 h1
    obtain ⟨j2, hj2, he2⟩ := hl g2 i2 h2
    rw [he1, he2]; exact h.distinct g1 g2 j1 j2 hj1 hj2 hne

theorem TimeInv_RemoveFrame {r : Replacer} {seen : List Int} (h : TimeInv r seen) (f : Int) :
    TimeInv (RemoveFrame r f) seen := by
  apply TimeInv_of_lift h
  intro g info hgi
  rw [RemoveFrame_table, UMap.find_erase] at hgi
  by_cases e : g = f
  · rw [if_pos e] at hgi; cases hgi
  · rw [if_neg e] at hgi; exact ⟨info, hgi, rfl⟩

theorem TimeInv_Evict {r : Replacer} {seen : List Int} (h : TimeInv r seen) :
    TimeInv (Evict r).1 seen := by
  rw [Evict_eq]
  split
  · exact TimeInv_RemoveFrame h _
  · split
    · exact TimeInv_RemoveFrame h _
    · exact h

theorem TimeInv_Remove {r : Replacer} {seen : List Int} (h : TimeInv r seen) (f : Int) :
    TimeInv (Remove r f) seen := by
  unfold Remove
  split
  · exact h
  · split
    · exact h
    · exact TimeInv_RemoveFrame h _

theorem TimeInv_SetEvictable {r : Replacer} {seen : List Int} (h : TimeInv r seen) (f : Int)
    (b : Bool) : TimeInv (SetEvictable r f b) seen := by
  apply TimeInv_of_lift h
  intro g info hgi
  rw [SetEvictable_find] at hgi
  by_cases e : g = f
  · rw [if_pos e] at hgi
    cases hf : UMap.find r.frame_table_ f with
    | none => rw [hf] at hgi; cases hgi
    | some i0 =>
      rw [hf] at hgi
      simp only [Option.map_some', Option.some.injEq] at hgi
      subst hgi
      exact ⟨i0, by rw [e, hf], rfl⟩
  · rw [if_neg e] at hgi
    exact ⟨info, hgi, rfl⟩

theorem TimeInv_RecordAccess {r : Replacer} {seen : List Int} (h : TimeInv r seen) (f t : Int)
    (hlt : ∀ e ∈ seen, e < t) : TimeInv (RecordAccess r f t) (t :: seen) := by
  by_cases hg : castSizeT f ≥ r.replacer_size_
  · have : RecordAccess r f t = r := by unfold RecordAccess; rw [if_pos hg]
    rw [this]
    exact ⟨fun g i hgi => List.mem_cons_of_mem _ (h.below g i hgi), h.distinct⟩
  · have hfind : ∀ g, UMap.find (RecordAccess r f t).frame_table_ g
        = if g = f then some ⟨(if ((r.tableAt f).history ++ [t]).length > r.k_
              then ((r.tableAt f).history ++ [t]).tail else (r.tableAt f).history ++ [t]),
            (r.tableAt f).evictable,
            (if ((r.tableAt f).history ++ [t]).length = 1 then t else (r.tableAt f).earliest_time)⟩
          else UMap.find r.frame_table_ g := by
      intro g; rw [RecordAccess_table r f t hg, UMap.find_put]
    -- the earliest time written for `f` is `t` or the one `f` had as a tracked frame
    have hf : (if ((r.tableAt f).history ++ [t]).length = 1 then t
          else (r.tableAt f).earliest_time) = t ∨
        ∃ i0, UMap.find r.frame_table_ f = some i0 ∧
          (if ((r.tableAt f).history ++ [t]).length = 1 then t
            else (r.tableAt f).earliest_time) = i0.earliest_time := by
      by_cases h1 : ((r.tableAt f).history ++ [t]).length = 1
      · left; rw [if_pos h1]
      · right
        rw [if_neg h1]
        cases hh : (r.tableAt f).history with
        | nil => rw [hh] at h1; simp at h1
        | cons a l => exact ⟨_, tableAt_history_nonempty r f a l hh, rfl⟩
    refine ⟨?_, ?_⟩
    · intro g info hgi
      rw [hfind] at hgi
      by_cases e : g = f
      · rw [if_pos e] at hgi
        injection hgi with hgi
        subst hgi
        rcases hf with h1 | ⟨i0, h0, h1⟩
        · simp only []; rw [h1]; exact List.mem_cons_self _ _
        · simp only []; rw [h1]; exact List.mem_cons_of_mem _ (h.below f i0 h0)
      · rw [if_neg e] at hgi
        exact List.mem_cons_of_mem _ (h.below g info hgi)
    · intro g1 g2 i1 i2 h1 h2 hne
      rw [hfind] at h1 h2
      by_cases e1 : g1 = f
      · have e2 : ¬ g2 = f := fun e => hne (e1.trans e.symm)
        rw [if_pos e1] at h1
        rw [if_neg e2] at h2
        injection h1 with h1
        subst h1
        simp only []
        rcases hf with hh | ⟨i0, h0, hh⟩
        · rw [hh]; exact fun e => absurd (hlt _ (h.below g2 i2 h2)) (by rw [← e]; exact lt_irrefl _)
        · rw [hh]; exact h.distinct f g2 i0 i2 h0 h2 (fun e => e2 e.symm)
      · rw [if_neg e1] at h1
        by_cases e2 : g2 = f
        · rw [if_pos e2] at h2
          injection h2 with h2
          subst h2
          simp only []
          rcases hf with hh | ⟨i0, h0, hh⟩
          · rw [hh]; exact fun e => absurd (hlt _ (h.below g1 i1 h1)) (by rw [e]; exact lt_irrefl _)
          · rw [hh]; exact h.distinct g1 f i1 i0 h1 h0 e1
        · rw [if_neg e2] at h2
          exact h.distinct g1 g2 i1 i2 h1 h2 hne

theorem TimeInv_run (ops : List Op) (r : Replacer) (seen : List Int) (h : TimeInv r seen)
    (hp : (timestamps ops).Pairwise (fun a b => a < b))
    (hs : ∀ e ∈ seen, ∀ t ∈ timestamps ops, e < t) :
    ∃ seen1, TimeInv (run r ops) seen1 ∧ ∀ e ∈ seen1, e ∈ seen ∨ e ∈ timestamps ops := by
  induction ops generalizing r seen with
  | nil => exact ⟨seen, h, fun e he => Or.inl he⟩
  | cons op rest ih =>
    cases op with
    | access f t =>
      simp only [timestamps, List.pairwise_cons] at hp
      have h1 := TimeInv_RecordAccess h f t
        (fun e he => hs e he t (by simp [timestamps]))
      obtain ⟨s1, hs1, hsub⟩ := ih _ (t :: seen) h1 hp.2 (by
        intro e he t1 ht1
        rcases List.mem_cons.1 he with e1 | e1
        · rw [e1]; exact hp.1 t1 ht1
        · exact hs e e1 t1 (by simp [timestamps, ht1]))
      refine ⟨s1, hs1, fun e he => ?_⟩
      rcases hsub e he with e1 | e1
      · rcases List.mem_cons.1 e1 with e2 | e2
        · right; simp [timestamps, e2]
        · exact Or.inl e2
      · right; simp [timestamps, e1]
    | setEvictable f b => exact ih _ seen (TimeInv_SetEvictable h f b) hp hs
    | evict => exact ih _ seen (TimeInv_Evict h) hp hs
    | remove f => exact ih _ seen (TimeInv_Remove h f) hp hs

theorem run_replacer_size (ops : List Op) (r : Replacer) :
    (run r ops).replacer_size_ = r.replacer_size_ := by
  induction ops generalizing r with
  | nil => rfl
  | cons op rest ih =>
    have key : (step r op).replacer_size_ = r.replacer_size_ := by
      cases op with
      | access f t =>
        simp only [step]
        unfold RecordAccess
        simp only [apply_ite Replacer.replacer_size_, ite_self]
      | setEvictable f b =>
        simp only [step]
        unfold SetEvictable
        split <;> rfl
      | evict =>
        simp only [step]
        have hrf : ∀ g, (RemoveFrame r g).replacer_size_ = r.replacer_size_ := by
          intro g
          unfold RemoveFrame
          simp only [apply_ite Replacer.replacer_size_, ite_self]
        rw [Evict_eq]
        split
        · exact hrf _
        · split
          · exact hrf _
          · rfl
      | remove f =>
        simp only [step]
        unfold Remove
        split
        · rfl
        · split
          · rfl
          · unfold RemoveFrame
            simp only [apply_ite Replacer.replacer_size_, ite_self]
    show (run (step r op) rest).replacer_size_ = _
    rw [ih, key]


/-- The history scan keeps the smallest earliest time met among evictable
frames, together with the frame it belongs to. -/
theorem scanHistory_spec (r : Replacer) (l : List Int) (c e : Int) :
    (scanHistory r l (c, e)).2 ≤ e ∧
    (∀ g ∈ l, (r.tableAt g).evictable = true →
      (scanHistory r l (c, e)).2 ≤ (r.tableAt g).earliest_time) ∧
    (scanHistory r l (c, e) = (c, e) ∨
      ((scanHistory r l (c, e)).1 ∈ l ∧
       (r.tableAt (scanHistory r l (c, e)).1).evictable = true ∧
       (r.tableAt (scanHistory r l (c, e)).1).earliest_time = (scanHistory r l (c, e)).2 ∧
       (scanHistory r l (c, e)).2 < e)) := by
  induction l generalizing c e with
  | nil => simp [scanHistory]
  | cons a rest ih =>
    simp only [scanHistory]
    by_cases hc : (r.tableAt a).evictable = true ∧ (r.tableAt a).earliest_time < e
    · rw [if_pos hc]
      obtain ⟨h1, h2, h3⟩ := ih a (r.tableAt a).earliest_time
      refine ⟨le_trans h1 (le_of_lt hc.2), ?_, ?_⟩
      · intro g hg hev
        rcases List.mem_cons.1 hg with e1 | e1
        · rw [e1]; exact h1
        · exact h2 g e1 hev
      · right
        rcases h3 with h3 | h3
        · rw [h3]
          exact ⟨List.mem_cons_self _ _, hc.1, rfl, hc.2⟩
        · exact ⟨List.mem_cons_of_mem _ h3.1, h3.2.1, h3.2.2.1, lt_trans h3.2.2.2 hc.2⟩
    · rw [if_neg hc]
      obtain ⟨h1, h2, h3⟩ := ih c e
      refine ⟨h1, ?_, ?_⟩
      · intro g hg hev
        rcases List.mem_cons.1 hg with e1 | e1
        · rw [e1]
          have : ¬ (r.tableAt a).earliest_time < e := fun hlt => hc ⟨e1 ▸ hev, hlt⟩
          exact le_trans h1 (not_lt.1 this)
        · exact h2 g e1 hev
      · rcases h3 with h3 | h3
        · exact Or.inl h3
        · exact Or.inr ⟨List.mem_cons_of_mem _ h3.1, h3.2⟩

theorem YoungEvictable_iff (r : Replacer) (f : Int) :
    YoungEvictable r f ↔ ∃ info, UMap.find r.frame_table_ f = some info ∧
      info.evictable = true ∧ info.history.length < r.k_ := by
  unfold YoungEvictable
  cases UMap.find r.frame_table_ f with
  | none => simp
  | some info => simp

theorem MatureEvictable_iff (r : Replacer) (f : Int) :
    MatureEvictable r f ↔ ∃ info, UMap.find r.frame_table_ f = some info ∧
      info.evictable = true ∧ r.k_ ≤ info.history.length := by
  unfold MatureEvictable
  cases UMap.find r.frame_table_ f with
  | none => simp
  | some info => simp

/-- In a state that satisfies the list and time invariants, with every seen
clock reading below `TIME_MAX` and no evictable frame in the cache list, `Evict`
returns the evictable history-list frame whose first access is earliest. -/
theorem Evict_young {r : Replacer} {seen : List Int} (hl : ListInv r) (ht : TimeInv r seen)
    (hseen : ∀ e ∈ seen, e < TIME_MAX) (hsize : r.replacer_size_ < 2 ^ 64)
    (f0 : Int) (hf0 : YoungEvictable r f0) (hno : ∀ g, ¬ MatureEvictable r g) :
    ∃ g, (Evict r).2 = some g ∧ YoungEvictable r g ∧
      ∀ f, YoungEvictable r f → f ≠ g → firstAccess r g < firstAccess r f := by
  -- the cache scan finds nothing
  have hcache : scanCache r r.cache_list_.reverse = none := by
    cases hc : scanCache r r.cache_list_.reverse with
    | none => rfl
    | some g =>
      exfalso
      obtain ⟨hg1, hg2⟩ := scanCache_some r _ _ hc
      obtain ⟨info, hi, hk⟩ := (hl.cache g).1 (by simpa using hg1)
      apply hno g
      rw [MatureEvictable_iff]
      exact ⟨info, hi, by rw [← tableAt_of_find r g info hi]; exact hg2, hk⟩
  -- facts on young evictable frames
  have hyoung : ∀ f, YoungEvictable r f →
      f ∈ r.history_list_ ∧ (r.tableAt f).evictable = true ∧
      (r.tableAt f).earliest_time < TIME_MAX ∧
      firstAccess r f = (r.tableAt f).earliest_time := by
    intro f hf
    obtain ⟨info, hi, hev, hlen⟩ := (YoungEvictable_iff r f).1 hf
    have hta := tableAt_of_find r f info hi
    refine ⟨(hl.hist f).2 ⟨info, hi, hlen⟩, by rw [hta]; exact hev,
      by rw [hta]; exact hseen _ (ht.below f info hi), ?_⟩
    unfold firstAccess
    rw [hta]
    have := hl.young_first f info hi hlen
    cases hh : info.history with
    | nil => rw [hh] at this; cases this
    | cons a l =>
      rw [hh] at this
      simp only [List.head?_cons, Option.some.injEq] at this
      simp [this]
  obtain ⟨hm0, hev0, hlt0, _⟩ := hyoung f0 hf0
  obtain ⟨_, hmin, hres⟩ := scanHistory_spec r r.history_list_ (-1) TIME_MAX
  have hres2 : (scanHistory r r.history_list_ (-1, TIME_MAX)).1 ∈ r.history_list_ ∧
      (r.tableAt (scanHistory r r.history_list_ (-1, TIME_MAX)).1).evictable = true ∧
      (r.tableAt (scanHistory r r.history_list_ (-1, TIME_MAX)).1).earliest_time
        = (scanHistory r r.history_list_ (-1, TIME_MAX)).2 := by
    rcases hres with h1 | h1
    · exfalso
      have := hmin f0 hm0 hev0
      rw [h1] at this
      exact absurd hlt0 (not_lt.2 this)
    · exact ⟨h1.1, h1.2.1, h1.2.2.1⟩
  obtain ⟨hgm, hgev, hget⟩ := hres2
  obtain ⟨ginfo, hgi, hglen⟩ := (hl.hist _).1 hgm
  have hgne : (scanHistory r r.history_list_ (-1, TIME_MAX)).1 ≠ -1 := by
    intro e
    have := hl.range _ ginfo hgi
    rw [e] at this
    have h1 : castSizeT (-1) = 2 ^ 64 - 1 := by decide
    rw [h1] at this
    omega
  have hgy : YoungEvictable r (scanHistory r r.history_list_ (-1, TIME_MAX)).1 := by
    rw [YoungEvictable_iff]
    exact ⟨ginfo, hgi, by rw [← tableAt_of_find r _ ginfo hgi]; exact hgev, hglen⟩
  refine ⟨(scanHistory r r.history_list_ (-1, TIME_MAX)).1, ?_, hgy, ?_⟩
  · rw [Evict_eq, hcache]
    simp only []
    rw [if_pos hgne]
  · intro f hf hne
    obtain ⟨hfm, hfev, _, hfa⟩ := hyoung f hf
    obtain ⟨_, _, _, hga⟩ := hyoung _ hgy
    rw [hfa, hga]
    have hle := hmin f hfm hfev
    rw [← hget] at hle
    obtain ⟨finfo, hfi, _, _⟩ := (YoungEvictable_iff r f).1 hf
    have hd := ht.distinct _ f ginfo finfo hgi hfi (fun e => hne e.symm)
    rw [tableAt_of_find r _ ginfo hgi, tableAt_of_find r f finfo hfi] at hle ⊢
    exact lt_of_le_of_ne hle hd

/-- The history scan of `Evict` is right when it is reached. With strictly
increasing clock readings below `TIME_MAX`: in every state where some evictable
frame has fewer than `k` recorded accesses and no evictable frame has `k` or
more, `Evict` returns the evictable frame with fewer than `k` accesses whose
first access is earliest. -/
theorem evict_oldest_young_when_cache_idle (num_frames k : Nat) (ops : List Op)
    (hn : num_frames < 2 ^ 64) (hclock : StrictClock ops)
    (f0 : Int) (hf0 : YoungEvictable (run (Replacer.new num_frames k) ops) f0)
    (hno : ∀ g, ¬ MatureEvictable (run (Replacer.new num_frames k) ops) g) :
    ∃ g, (Evict (run (Replacer.new num_frames k) ops)).2 = some g ∧
      YoungEvictable (run (Replacer.new num_frames k) ops) g ∧
      ∀ f, YoungEvictable (run (Replacer.new num_frames k) ops) f → f ≠ g →
        firstAccess (run (Replacer.new num_frames k) ops) g
          < firstAccess (run (Replacer.new num_frames k) ops) f := by
  have hl := ListInv_run ops _ (ListInv_new num_frames k)
  obtain ⟨seen, ht, hsub⟩ := TimeInv_run ops _ [] (TimeInv_new num_frames k) hclock.1 (by simp)
  have hseen : ∀ e ∈ seen, e < TIME_MAX := by
    intro e he
    rcases hsub e he with h1 | h1
    · simp at h1
    · exact hclock.2 e h1
  have hsize : (run (Replacer.new num_frames k) ops).replacer_size_ < 2 ^ 64 := by
    rw [run_replacer_size]; exact hn
  exact Evict_young hl ht hseen hsize f0 hf0 hno


set_option maxRecDepth 100000 in
/-- In the state of the test no evictable frame has `k = 2` accesses. -/
theorem sample_no_mature : ∀ g, ¬ MatureEvictable (run (Replacer.new 7 2) sampleOps) g := by
  intro g hg
  rw [MatureEvictable_iff] at hg
  obtain ⟨info, hi, _, hk⟩ := hg
  have hmem := UMap.find_some_mem _ _ _ hi
  have hall : ∀ e ∈ (run (Replacer.new 7 2) sampleOps).frame_table_,
      ¬ (run (Replacer.new 7 2) sampleOps).k_ ≤ e.2.history.length := by decide
  exact hall _ hmem hk

set_option maxRecDepth 100000 in
/-- The state of the test: `k = 2`, frames 1 to 6 accessed once at times 1 to
6, frames 1 to 5 evictable; `Evict` returns frame 1. -/
theorem evict_oldest_young_when_cache_idle_witness :
    StrictClock sampleOps ∧
    YoungEvictable (run (Replacer.new 7 2) sampleOps) 1 ∧
    (Evict (run (Replacer.new 7 2) sampleOps)).2 = some 1 ∧
    ∃ g, (Evict (run (Replacer.new 7 2) sampleOps)).2 = some g ∧
      YoungEvictable (run (Replacer.new 7 2) sampleOps) g ∧
      ∀ f, YoungEvictable (run (Replacer.new 7 2) sampleOps) f → f ≠ g →
        firstAccess (run (Replacer.new 7 2) sampleOps) g
          < firstAccess (run (Replacer.new 7 2) sampleOps) f :=
  ⟨by decide, by decide, by decide,
   evict_oldest_young_when_cache_idle 7 2 sampleOps (by decide) (by decide) 1 (by decide)
     sample_no_mature⟩

end LRUKReplacer

/-! ### The buffer pool keeps its invariant and the logical page contents -/

namespace BufferPoolManager

open LRUKReplacer (castSizeT)

theorem castSizeT_of_range (f : Int) (h0 : 0 ≤ f) (h1 : f < 2 ^ 64) : castSizeT f = f.toNat := by
  unfold castSizeT
  rw [Int.emod_eq_of_lt h0 h1]

theorem toNat_inj_of_nonneg (f g : Int) (hf : 0 ≤ f) (hg : 0 ≤ g) (h : f.toNat = g.toNat) :
    f = g := by
  omega

theorem pageAt_setPage (s : BPM) (f g : Int) (pg : Page) (hf : 0 ≤ f) (hg : 0 ≤ g)
    (hlt : f.toNat < s.pages_.length) :
    (s.setPage f pg).pageAt g = if g = f then pg else s.pageAt g := by
  unfold BPM.setPage BPM.pageAt
  simp only []
  rw [ExtendibleHashTable.getD_set_eq]
  by_cases e : g = f
  · subst e; simp [hlt]
  · have : ¬ f.toNat = g.toNat := fun h => e (toNat_inj_of_nonneg g f hg hf h.symm)
    simp [e, this]

theorem setPage_fields (s : BPM) (f : Int) (pg : Page) :
    (s.setPage f pg).page_table_ = s.page_table_ ∧
    (s.setPage f pg).replacer_ = s.replacer_ ∧
    (s.setPage f pg).free_list_ = s.free_list_ ∧
    (s.setPage f pg).next_page_id_ = s.next_page_id_ ∧
    (s.setPage f pg).disk_ = s.disk_ ∧
    (s.setPage f pg).pool_size_ = s.pool_size_ ∧
    (s.setPage f pg).pages_.length = s.pages_.length := by
  unfold BPM.setPage
  simp

/-- Recording an access for a frame of the pool and pinning it: the frame is
tracked and not evictable, the entries of the other frames stay. -/
theorem touch_find (r : LRUKReplacer.Replacer) (f now : Int)
    (hg : castSizeT f < r.replacer_size_) (g : Int) :
    (g = f → ∃ info, UMap.find (LRUKReplacer.SetEvictable
        (LRUKReplacer.RecordAccess r f now) f false).frame_table_ g = some info ∧
        info.evictable = false) ∧
    (g ≠ f → UMap.find (LRUKReplacer.SetEvictable
        (LRUKReplacer.RecordAccess r f now) f false).frame_table_ g
      = UMap.find r.frame_table_ g) := by
  have h1 := LRUKReplacer.RecordAccess_table r f now (by omega)
  constructor
  · intro e
    subst e
    rw [LRUKReplacer.SetEvictable_find, if_pos rfl, h1, UMap.find_put, if_pos rfl]
    exact ⟨_, rfl, rfl⟩
  · intro e
    rw [LRUKReplacer.SetEvictable_find, if_neg e, h1, UMap.find_put, if_neg e]

theorem touch_size (r : LRUKReplacer.Replacer) (f now : Int) :
    (LRUKReplacer.SetEvictable (LRUKReplacer.RecordAccess r f now) f false).replacer_size_
      = r.replacer_size_ := by
  have h1 : ∀ r0 : LRUKReplacer.Replacer, ∀ b,
      (LRUKReplacer.SetEvictable r0 f b).replacer_size_ = r0.replacer_size_ := by
    intro r0 b
    unfold LRUKReplacer.SetEvictable
    split <;> rfl
  rw [h1]
  unfold LRUKReplacer.RecordAccess
  simp only [apply_ite LRUKReplacer.Replacer.replacer_size_, ite_self]

theorem SetEvictable_size (r : LRUKReplacer.Replacer) (f : Int) (b : Bool) :
    (LRUKReplacer.SetEvictable r f b).replacer_size_ = r.replacer_size_ := by
  unfold LRUKReplacer.SetEvictable
  split <;> rfl

theorem RemoveFrame_size_eq (r : LRUKReplacer.Replacer) (f : Int) :
    (LRUKReplacer.RemoveFrame r f).replacer_size_ = r.replacer_size_ := by
  unfold LRUKReplacer.RemoveFrame
  simp only [apply_ite LRUKReplacer.Replacer.replacer_size_, ite_self]

/-- What `Evict` does to the replacer: the victim's entry is erased. -/
theorem Evict_result (r : LRUKReplacer.Replacer) :
    (∀ f, (LRUKReplacer.Evict r).2 = some f →
      (LRUKReplacer.Evict r).1.frame_table_ = UMap.erase r.frame_table_ f ∧
      (LRUKReplacer.Evict r).1.replacer_size_ = r.replacer_size_) ∧
    ((LRUKReplacer.Evict r).2 = none → (LRUKReplacer.Evict r).1 = r) := by
  rw [LRUKReplacer.Evict_eq]
  split
  · next g hg =>
    refine ⟨fun f hf => ?_, fun h => by cases h⟩
    simp only [Option.some.injEq] at hf
    subst hf
    exact ⟨LRUKReplacer.RemoveFrame_table r g, RemoveFrame_size_eq r g⟩
  · split
    · refine ⟨fun f hf => ?_, fun h => by cases h⟩
      simp only [Option.some.injEq] at hf
      rw [← hf]
      exact ⟨LRUKReplacer.RemoveFrame_table r _, RemoveFrame_size_eq r _⟩
    · exact ⟨fun f hf => (by cases hf), fun _ => rfl⟩

theorem Remove_result (r : LRUKReplacer.Replacer) (f : Int) (info : LRUKReplacer.FrameInfo)
    (hf : UMap.find r.frame_table_ f = some info) (hev : info.evictable = true) :
    (LRUKReplacer.Remove r f).frame_table_ = UMap.erase r.frame_table_ f ∧
    (LRUKReplacer.Remove r f).replacer_size_ = r.replacer_size_ := by
  unfold LRUKReplacer.Remove
  rw [hf]
  simp only [hev, Bool.not_true, Bool.false_eq_true, if_false]
  exact ⟨LRUKReplacer.RemoveFrame_table r f, RemoveFrame_size_eq r f⟩


theorem lookup_setPage (s : BPM) (f : Int) (pg : Page) (p : Int) :
    (s.setPage f pg).lookup p = s.lookup p := rfl

/-- A frame that the replacer hands out as victim is in the pool, holds a
resident page with pin count zero, and its entry is evictable. -/
theorem victim_unpinned {s : BPM} {hole : Option Int} (h : BPInvX s hole) (f : Int)
    (hev : (LRUKReplacer.Evict s.replacer_).2 = some f) :
    0 ≤ f ∧ f < (s.pool_size_ : Int) ∧ s.lookup (s.pageAt f).page_id_ = some f ∧
    (s.pageAt f).pin_count_ = 0 := by
  obtain ⟨info, hi, hevict⟩ := LRUKReplacer.evict_returns_evictable s.replacer_ f hev
  obtain ⟨p, hp⟩ := h.tracked_resident f info hi
  obtain ⟨h0, h1, h2⟩ := h.mapped p f hp
  obtain ⟨_, info1, hi1, hiff⟩ := h.pinned p f hp
  rw [hi] at hi1
  injection hi1 with hi1
  subst hi1
  exact ⟨h0, h1, by rw [h2]; exact hp, hiff.1 hevict⟩

/-- `GetAvailableFrame` on a pool that satisfies the invariant: the frame it
returns is of the pool, is neither free nor mapped nor tracked afterwards, and
the rest of the invariant holds. -/
theorem GetAvailableFrame_inv {s : BPM} (h : BPInv s) :
    (∀ s1 f, GetAvailableFrame s = (s1, some f) →
      BPInvX s1 (some f) ∧ s1.next_page_id_ = s.next_page_id_ ∧
      (∀ q, s1.lookup q = none ∨ s1.lookup q = s.lookup q) ∧
      (∀ q, s.lookup q = none → s1.lookup q = none)) ∧
    (∀ s1, GetAvailableFrame s = (s1, none) → s1 = s) := by
  unfold GetAvailableFrame
  cases hfl : s.free_list_ with
  | cons f rest =>
    simp only []
    refine ⟨fun s1 f1 heq => ?_, fun s1 heq => by cases heq⟩
    simp only [Prod.mk.injEq, Option.some.injEq] at heq
    obtain ⟨hs1, hf1⟩ := heq
    subst hs1; subst hf1
    have hfm : f ∈ s.free_list_ := by rw [hfl]; exact List.mem_cons_self _ _
    have hnd : (f :: rest).Nodup := hfl ▸ h.free_nodup
    have hsub : ∀ g, g ∈ rest → g ∈ s.free_list_ := fun g hg => by
      rw [hfl]; exact List.mem_cons_of_mem _ hg
    refine ⟨⟨h.table_wf, h.pages_len, h.rep_size, h.pool_small, h.mapped, h.fresh,
      (List.nodup_cons.1 hnd).2, fun g hg => h.free_range g (hsub g hg),
      fun g hg => h.free_unmapped g (hsub g hg), fun g hg => h.free_invalid g (hsub g hg),
      ?_, ?_, h.tracked_resident, h.pinned⟩, rfl, fun q => Or.inr rfl, fun q hq => hq⟩
    · intro g hg0 hg1
      rcases h.cover g hg0 hg1 with e | e | e
      · cases e
      · rw [hfl] at e
        rcases List.mem_cons.1 e with e1 | e1
        · left; rw [e1]
        · right; left; exact e1
      · right; right; exact e
    · intro g hg
      injection hg with hg
      subst hg
      refine ⟨(h.free_range f hfm).1, (h.free_range f hfm).2, (List.nodup_cons.1 hnd).1,
        h.free_unmapped f hfm, ?_⟩
      cases hfi : UMap.find s.replacer_.frame_table_ f with
      | none => rfl
      | some info =>
        obtain ⟨p, hp⟩ := h.tracked_resident f info hfi
        exact absurd hp (h.free_unmapped f hfm p)
  | nil =>
    simp only []
    cases hev : LRUKReplacer.Evict s.replacer_ with
    | mk rep1 res =>
      cases res with
      | none =>
        simp only []
        refine ⟨fun s1 f1 heq => (by cases heq), fun s1 heq => ?_⟩
        simp only [Prod.mk.injEq, and_true] at heq
        exact heq.symm
      | some f =>
        simp only []
        refine ⟨fun s1 f1 heq => ?_, fun s1 heq => by cases heq⟩
        simp only [Prod.mk.injEq, Option.some.injEq] at heq
        obtain ⟨hs1, hf1⟩ := heq
        subst hf1
        have hev2 : (LRUKReplacer.Evict s.replacer_).2 = some f := by rw [hev]
        have hev1 : (LRUKReplacer.Evict s.replacer_).1 = rep1 := by rw [hev]
        obtain ⟨hf0, hf1, hres, hpin⟩ := victim_unpinned h f hev2
        obtain ⟨hrt, hrs⟩ := (Evict_result s.replacer_).1 f hev2
        rw [hev1] at hrt hrs
        have hflt : f.toNat < s.pages_.length := by rw [h.pages_len]; omega
        obtain ⟨hwf1, hfind1⟩ := ExtendibleHashTable.Remove_spec h.table_wf (s.pageAt f).page_id_
        -- observations on the new state
        have hlook : ∀ q, s1.lookup q
            = if q = (s.pageAt f).page_id_ then none else s.lookup q := by
          intro q; rw [← hs1]; exact hfind1 q
        have hpage : ∀ g, 0 ≤ g → s1.pageAt g
            = if g = f then ⟨zeroData, INVALID_PAGE_ID, 0, false⟩ else s.pageAt g := by
          intro g hg; rw [← hs1]
          exact pageAt_setPage _ f g _ hf0 hg hflt
        have hrep : s1.replacer_ = rep1 := by rw [← hs1]; rfl
        have hfree : s1.free_list_ = [] := by rw [← hs1]; rfl
        have hpool : s1.pool_size_ = s.pool_size_ := by rw [← hs1]; rfl
        have hnext : s1.next_page_id_ = s.next_page_id_ := by rw [← hs1]; rfl
        have hlen : s1.pages_.length = s.pages_.length := by
          rw [← hs1]; simp [BPM.setPage]
        have htab : s1.page_table_
            = (ExtendibleHashTable.Remove pageHash s.page_table_ (s.pageAt f).page_id_).1 := by
          rw [← hs1]; rfl
        -- a page other than the victim's is mapped to another frame
        have hother : ∀ q g, q ≠ (s.pageAt f).page_id_ → s.lookup q = some g → g ≠ f := by
          intro q g hq hg e
          subst e
          exact hq (h.mapped q g hg).2.2.symm
        refine ⟨⟨by rw [htab]; exact hwf1, by rw [hlen, hpool]; exact h.pages_len,
          by rw [hrep, hrs, hpool]; exact h.rep_size, by rw [hpool]; exact h.pool_small,
          ?_, ?_, by rw [hfree]; exact List.nodup_nil, by rw [hfree]; simp, by rw [hfree]; simp,
          by rw [hfree]; simp, ?_, ?_, ?_, ?_⟩, hnext, ?_, ?_⟩
        · intro q g hq
          rw [hlook] at hq
          by_cases e : q = (s.pageAt f).page_id_
          · rw [if_pos e] at hq; cases hq
          · rw [if_neg e] at hq
            obtain ⟨a, b, c⟩ := h.mapped q g hq
            rw [hpool, hpage g a, if_neg (hother q g e hq)]
            exact ⟨a, b, c⟩
        · intro q g hq
          rw [hlook] at hq
          by_cases e : q = (s.pageAt f).page_id_
          · rw [if_pos e] at hq; cases hq
          · rw [if_neg e] at hq
            rw [hnext]; exact h.fresh q g hq
        · intro g hg0 hg1
          rw [hpool] at hg1
          by_cases e : g = f
          · left; rw [e]
          · right; right
            rcases h.cover g hg0 hg1 with c | c | ⟨q, hq⟩
            · cases c
            · rw [hfl] at c; cases c
            · refine ⟨q, ?_⟩
              rw [hlook]
              have : q ≠ (s.pageAt f).page_id_ := by
                intro e1
                rw [e1, hres] at hq
                injection hq with hq
                exact e hq.symm
              rw [if_neg this]; exact hq
        · intro g hg
          injection hg with hg
          subst hg
          refine ⟨hf0, by rw [hpool]; exact hf1, by rw [hfree]; simp, ?_, ?_⟩
          · intro q hq
            rw [hlook] at hq
            by_cases e : q = (s.pageAt f).page_id_
            · rw [if_pos e] at hq; cases hq
            · rw [if_neg e] at hq; exact hother q f e hq rfl
          · rw [hrep, hrt, UMap.find_erase, if_pos rfl]
        · intro g info hgi
          rw [hrep, hrt, UMap.find_erase] at hgi
          by_cases e : g = f
          · rw [if_pos e] at hgi; cases hgi
          · rw [if_neg e] at hgi
            obtain ⟨q, hq⟩ := h.tracked_resident g info hgi
            refine ⟨q, ?_⟩
            rw [hlook]
            have : q ≠ (s.pageAt f).page_id_ := by
              intro e1
              rw [e1, hres] at hq
              injection hq with hq
              exact e hq.symm
            rw [if_neg this]; exact hq
        · intro q g hq
          rw [hlook] at hq
          by_cases e : q = (s.pageAt f).page_id_
          · rw [if_pos e] at hq; cases hq
          · rw [if_neg e] at hq
            have hgf := hother q g e hq
            obtain ⟨a, info, hi, hiff⟩ := h.pinned q g hq
            rw [hpage g (h.mapped q g hq).1, if_neg hgf]
            refine ⟨a, info, ?_, hiff⟩
            rw [hrep, hrt, UMap.find_erase, if_neg hgf]; exact hi
        · intro q
          rw [hlook]
          by_cases e : q = (s.pageAt f).page_id_
          · left; rw [if_pos e]
          · right; rw [if_neg e]
        · intro q hq
          rw [hlook]
          split
          · rfl
          · exact hq


/-- Entering page `p` into the frame that `GetAvailableFrame` handed out
restores the invariant. -/
theorem install_inv {s1 : BPM} {f : Int} (h : BPInvX s1 (some f)) (p : Int) (data : List Nat)
    (now : Int) (fuel : Nat) (table1 : ExtendibleHashTable.Table Int Int)
    (hp : s1.lookup p = none) (hfresh : p < s1.next_page_id_)
    (hins : ExtendibleHashTable.Insert pageHash fuel
      (s1.setPage f ⟨data, p, 1, false⟩).page_table_ p f = some table1) :
    BPInv { (s1.setPage f ⟨data, p, 1, false⟩) with
            page_table_ := table1,
            replacer_ := (LRUKReplacer.SetEvictable
              (LRUKReplacer.RecordAccess (s1.setPage f ⟨data, p, 1, false⟩).replacer_ f now)
              f false) } := by
  obtain ⟨hf0, hf1, hffree, hfun, hftr⟩ := h.hole_ok f rfl
  have hflt : f.toNat < s1.pages_.length := by rw [h.pages_len]; omega
  obtain ⟨hwf1, hfind1⟩ := ExtendibleHashTable.Insert_spec fuel h.table_wf p f hins
  have hcast : castSizeT f < s1.replacer_.replacer_size_ := by
    rw [castSizeT_of_range f hf0 (by have := h.pool_small; omega), h.rep_size]; omega
  generalize hs2 : ({ (s1.setPage f ⟨data, p, 1, false⟩) with
            page_table_ := table1,
            replacer_ := (LRUKReplacer.SetEvictable
              (LRUKReplacer.RecordAccess (s1.setPage f ⟨data, p, 1, false⟩).replacer_ f now)
              f false) } : BPM) = s2
  have hlook : ∀ q, s2.lookup q = if q = p then some f else s1.lookup q := by
    intro q; rw [← hs2]; exact hfind1 q
  have hpage : ∀ g, 0 ≤ g → s2.pageAt g
      = if g = f then ⟨data, p, 1, false⟩ else s1.pageAt g := by
    intro g hg; rw [← hs2]
    exact pageAt_setPage s1 f g _ hf0 hg hflt
  have hrep : s2.replacer_ = LRUKReplacer.SetEvictable
      (LRUKReplacer.RecordAccess s1.replacer_ f now) f false := by rw [← hs2]; rfl
  have hfree : s2.free_list_ = s1.free_list_ := by rw [← hs2]; rfl
  have hpool : s2.pool_size_ = s1.pool_size_ := by rw [← hs2]; rfl
  have hnext : s2.next_page_id_ = s1.next_page_id_ := by rw [← hs2]; rfl
  have hlen : s2.pages_.length = s1.pages_.length := by rw [← hs2]; simp [BPM.setPage]
  have htab : s2.page_table_ = table1 := by rw [← hs2]
  have hother : ∀ q g, q ≠ p → s1.lookup q = some g → g ≠ f := by
    intro q g _ hg e
    subst e
    exact hfun q hg
  refine ⟨by rw [htab]; exact hwf1, by rw [hlen, hpool]; exact h.pages_len,
    by rw [hrep, touch_size, hpool]; exact h.rep_size, by rw [hpool]; exact h.pool_small,
    ?_, ?_, by rw [hfree]; exact h.free_nodup,
    fun g hg => by rw [hpool]; exact h.free_range g (hfree ▸ hg), ?_, ?_, ?_,
    fun g hg => (by cases hg), ?_, ?_⟩
  · intro q g hq
    rw [hlook] at hq
    rw [hpool]
    by_cases e : q = p
    · rw [if_pos e] at hq
      injection hq with hq
      subst hq
      rw [hpage f hf0, if_pos rfl]
      exact ⟨hf0, hf1, e.symm⟩
    · rw [if_neg e] at hq
      obtain ⟨a, b, c⟩ := h.mapped q g hq
      rw [hpage g a, if_neg (hother q g e hq)]
      exact ⟨a, b, c⟩
  · intro q g hq
    rw [hlook] at hq
    rw [hnext]
    by_cases e : q = p
    · rw [e]; exact hfresh
    · rw [if_neg e] at hq; exact h.fresh q g hq
  · intro g hg q hq
    rw [hfree] at hg
    rw [hlook] at hq
    by_cases e : q = p
    · rw [if_pos e] at hq
      injection hq with hq
      exact hffree (hq ▸ hg)
    · rw [if_neg e] at hq
      exact h.free_unmapped g hg q hq
  · intro g hg
    rw [hfree] at hg
    have hgf : g ≠ f := fun e => hffree (e ▸ hg)
    rw [hpage g (h.free_range g hg).1, if_neg hgf]
    exact h.free_invalid g hg
  · intro g hg0 hg1
    rw [hpool] at hg1
    right
    rcases h.cover g hg0 hg1 with c | c | ⟨q, hq⟩
    · injection c with c
      right
      refine ⟨p, ?_⟩
      rw [hlook, if_pos rfl, c]
    · left; rw [hfree]; exact c
    · right
      refine ⟨q, ?_⟩
      rw [hlook]
      have : q ≠ p := fun e => by rw [e, hp] at hq; cases hq
      rw [if_neg this]; exact hq
  · intro g info hgi
    rw [hrep] at hgi
    by_cases e : g = f
    · exact ⟨p, by rw [hlook, if_pos rfl, e]⟩
    · rw [(touch_find s1.replacer_ f now hcast g).2 e] at hgi
      obtain ⟨q, hq⟩ := h.tracked_resident g info hgi
      refine ⟨q, ?_⟩
      rw [hlook]
      have : q ≠ p := fun e => by rw [e, hp] at hq; cases hq
      rw [if_neg this]; exact hq
  · intro q g hq
    rw [hlook] at hq
    by_cases e : q = p
    · rw [if_pos e] at hq
      injection hq with hq
      subst hq
      rw [hpage f hf0, if_pos rfl, hrep]
      obtain ⟨info, hi, hev⟩ := (touch_find s1.replacer_ f now hcast f).1 rfl
      refine ⟨(by show (0 : Int) ≤ 1; decide), info, hi, ?_⟩
      rw [hev]
      simp
    · rw [if_neg e] at hq
      have hgf := hother q g e hq
      obtain ⟨a, info, hi, hiff⟩ := h.pinned q g hq
      rw [hpage g (h.mapped q g hq).1, if_neg hgf, hrep,
        (touch_find s1.replacer_ f now hcast g).2 hgf]
      exact ⟨a, info, hi, hiff⟩


/-- A state that keeps the page table, the free list and the page ids of the
frames, and whose replacer entries still match the pin counts, keeps the
invariant. -/
theorem inv_of_obs {s s2 : BPM} (h : BPInv s)
    (htab : s2.page_table_ = s.page_table_) (hfree : s2.free_list_ = s.free_list_)
    (hnext : s.next_page_id_ ≤ s2.next_page_id_) (hpool : s2.pool_size_ = s.pool_size_)
    (hlen : s2.pages_.length = s.pages_.length)
    (hrs : s2.replacer_.replacer_size_ = s.replacer_.replacer_size_)
    (hid : ∀ g, 0 ≤ g → (s2.pageAt g).page_id_ = (s.pageAt g).page_id_)
    (hpinned : ∀ p g, s.lookup p = some g → 0 ≤ (s2.pageAt g).pin_count_ ∧
      ∃ info, UMap.find s2.replacer_.frame_table_ g = some info ∧
        (info.evictable = true ↔ (s2.pageAt g).pin_count_ = 0))
    (htracked : ∀ g info, UMap.find s2.replacer_.frame_table_ g = some info →
      ∃ info0, UMap.find s.replacer_.frame_table_ g = some info0) :
    BPInv s2 := by
  have hlook : ∀ q, s2.lookup q = s.lookup q := by
    intro q; unfold BPM.lookup; rw [htab]
  refine ⟨by rw [htab]; exact h.table_wf, by rw [hlen, hpool]; exact h.pages_len,
    by rw [hrs, hpool]; exact h.rep_size, by rw [hpool]; exact h.pool_small,
    ?_, ?_, by rw [hfree]; exact h.free_nodup,
    fun g hg => by rw [hpool]; exact h.free_range g (hfree ▸ hg), ?_, ?_, ?_,
    fun g hg => (by cases hg), ?_, ?_⟩
  · intro q g hq
    rw [hlook] at hq
    obtain ⟨a, b, c⟩ := h.mapped q g hq
    rw [hpool, hid g a]
    exact ⟨a, b, c⟩
  · intro q g hq
    rw [hlook] at hq
    exact lt_of_lt_of_le (h.fresh q g hq) hnext
  · intro g hg q
    rw [hlook]
    exact h.free_unmapped g (hfree ▸ hg) q
  · intro g hg
    rw [hfree] at hg
    rw [hid g (h.free_range g hg).1]
    exact h.free_invalid g hg
  · intro g hg0 hg1
    rw [hpool] at hg1
    rcases h.cover g hg0 hg1 with c | c | ⟨q, hq⟩
    · cases c
    · right; left; rw [hfree]; exact c
    · right; right; exact ⟨q, by rw [hlook]; exact hq⟩
  · intro g info hgi
    obtain ⟨i0, h0⟩ := htracked g info hgi
    obtain ⟨q, hq⟩ := h.tracked_resident g i0 h0
    exact ⟨q, by rw [hlook]; exact hq⟩
  · intro q g hq
    rw [hlook] at hq
    exact hpinned q g hq

theorem BPInv_new (pool_size k : Nat) (hsmall : pool_size < 2 ^ 64) :
    BPInv (BPM.new pool_size k) := by
  have hlook : ∀ q, (BPM.new pool_size k).lookup q = none := by
    intro q
    simp [BPM.lookup, BPM.new, ExtendibleHashTable.Find, ExtendibleHashTable.Table.new,
      ExtendibleHashTable.Table.bucketAt, ExtendibleHashTable.Table.dirAt,
      ExtendibleHashTable.Bucket.new, ExtendibleHashTable.Bucket.Find,
      ExtendibleHashTable.Bucket.findItem]
  have hmem : ∀ f : Int, f ∈ (BPM.new pool_size k).free_list_ ↔ 0 ≤ f ∧ f < (pool_size : Int) := by
    intro f
    simp only [BPM.new, List.mem_map, List.mem_range]
    constructor
    · rintro ⟨a, ha, rfl⟩
      simp only [Int.ofNat_eq_coe]
      omega
    · rintro ⟨h0, h1⟩
      exact ⟨f.toNat, by omega, by simp only [Int.ofNat_eq_coe]; omega⟩
  have hpage : ∀ f, (BPM.new pool_size k).pageAt f = Page.init := by
    intro f
    simp only [BPM.pageAt, BPM.new, List.getD_eq_getElem?_getD]
    cases hh : (List.replicate pool_size Page.init)[f.toNat]? with
    | none => rfl
    | some x =>
      have := List.getElem?_mem hh
      rw [List.mem_replicate] at this
      simp [this.2]
  refine ⟨ExtendibleHashTable.WF_new _ _, by simp [BPM.new], rfl, hsmall, ?_, ?_, ?_, ?_, ?_, ?_,
    ?_, fun g hg => (by cases hg), ?_, ?_⟩
  · intro q g hq; rw [hlook] at hq; cases hq
  · intro q g hq; rw [hlook] at hq; cases hq
  · simp only [BPM.new]
    apply List.Nodup.map
    · intro a b hab; exact Int.ofNat.inj hab
    · exact List.nodup_range _
  · intro f hf; exact (hmem f).1 hf
  · intro f _ q; rw [hlook]; simp
  · intro f _; rw [hpage]; rfl
  · intro f h0 h1
    right; left
    exact (hmem f).2 ⟨h0, h1⟩
  · intro f info hfi
    simp [BPM.new, LRUKReplacer.Replacer.new, UMap.find] at hfi
  · intro q g hq; rw [hlook] at hq; cases hq


theorem pageAt_congr (s1 s2 : BPM) (h : s2.pages_ = s1.pages_) (g : Int) :
    s2.pageAt g = s1.pageAt g := by
  unfold BPM.pageAt; rw [h]

theorem pageAt_of_set (s s1 : BPM) (f : Int) (pg : Page)
    (hpages : s1.pages_ = s.pages_.set f.toNat pg) (hf : 0 ≤ f)
    (hlt : f.toNat < s.pages_.length) (g : Int) (hg : 0 ≤ g) :
    s1.pageAt g = if g = f then pg else s.pageAt g := by
  rw [← pageAt_setPage s f g pg hf hg hlt]
  exact pageAt_congr (s.setPage f pg) s1 hpages g

theorem BPInv_bump {s : BPM} (h : BPInv s) :
    BPInv { s with next_page_id_ := s.next_page_id_ + 1 } :=
  inv_of_obs h rfl rfl (by show s.next_page_id_ ≤ s.next_page_id_ + 1; omega) rfl rfl rfl
    (fun _ _ => rfl) (fun p g hp => h.pinned p g hp) (fun g info hg => ⟨info, hg⟩)

theorem NewPgImp_inv {s s1 : BPM} (h : BPInv s) (fuel : Nat) (now : Int) (pid : Int)
    (res : Option Int) (hrun : NewPgImp fuel s now = some (s1, pid, res)) : BPInv s1 := by
  unfold NewPgImp at hrun
  simp only [] at hrun
  have hb := BPInv_bump h
  obtain ⟨hsome, hnone⟩ := GetAvailableFrame_inv hb
  cases hg : GetAvailableFrame { s with next_page_id_ := s.next_page_id_ + 1 } with
  | mk s0 r =>
    rw [hg] at hrun
    cases r with
    | none =>
      simp only [Option.some.injEq, Prod.mk.injEq] at hrun
      rw [← hrun.1, hnone s0 hg]
      exact hb
    | some f =>
      simp only [] at hrun
      obtain ⟨hx, hnext, _, hkeep⟩ := hsome s0 f hg
      have hnotres : s0.lookup s.next_page_id_ = none := by
        apply hkeep
        cases hl : s.lookup s.next_page_id_ with
        | none => exact hl
        | some g => exact absurd (h.fresh _ g hl) (lt_irrefl _)
      cases hi : ExtendibleHashTable.Insert pageHash fuel
          (s0.setPage f ⟨zeroData, s.next_page_id_, 1, false⟩).page_table_ s.next_page_id_ f with
      | none => rw [hi] at hrun; cases hrun
      | some table1 =>
        rw [hi] at hrun
        simp only [Option.some.injEq, Prod.mk.injEq] at hrun
        rw [← hrun.1]
        exact install_inv hx s.next_page_id_ zeroData now fuel table1 hnotres
          (by rw [hnext]; show s.next_page_id_ < s.next_page_id_ + 1; omega) hi

theorem FetchPgImp_inv {s s1 : BPM} (h : BPInv s) (fuel : Nat) (p now : Int)
    (res : Option Int) (hex : p < s.next_page_id_)
    (hrun : FetchPgImp fuel s p now = some (s1, res)) : BPInv s1 := by
  unfold FetchPgImp at hrun
  cases hl : ExtendibleHashTable.Find pageHash s.page_table_ p with
  | some f =>
    rw [hl] at hrun
    simp only [Option.some.injEq, Prod.mk.injEq] at hrun
    have hl' : s.lookup p = some f := hl
    obtain ⟨hf0, hf1, hfid⟩ := h.mapped p f hl'
    obtain ⟨hpin0, info, hi, hiff⟩ := h.pinned p f hl'
    have hflt : f.toNat < s.pages_.length := by rw [h.pages_len]; omega
    have hcast : castSizeT f < s.replacer_.replacer_size_ := by
      rw [castSizeT_of_range f hf0 (by have := h.pool_small; omega), h.rep_size]; omega
    have hpages : s1.pages_ = s.pages_.set f.toNat
        ⟨(s.pageAt f).data_, (s.pageAt f).page_id_, (s.pageAt f).pin_count_ + 1,
          (s.pageAt f).is_dirty_⟩ := by rw [← hrun.1]; rfl
    have hrep : s1.replacer_ = LRUKReplacer.SetEvictable
        (LRUKReplacer.RecordAccess s.replacer_ f now) f false := by rw [← hrun.1]; rfl
    have hpa := pageAt_of_set s s1 f _ hpages hf0 hflt
    apply inv_of_obs h (by rw [← hrun.1]; rfl) (by rw [← hrun.1]; rfl)
      (by rw [← hrun.1]; exact le_refl _) (by rw [← hrun.1]; rfl) (by rw [hpages]; simp)
      (by rw [hrep]; exact touch_size _ _ _)
    · intro g hg
      rw [hpa g hg]
      split
      · next e => rw [e]
      · rfl
    · intro q g hq
      rw [hpa g (h.mapped q g hq).1]
      by_cases e : g = f
      · rw [if_pos e, hrep]
        obtain ⟨info1, hi1, hev⟩ := (touch_find s.replacer_ f now hcast g).1 e
        refine ⟨(by show 0 ≤ (s.pageAt f).pin_count_ + 1; omega), info1, hi1, ?_⟩
        rw [hev]
        show (false = true) ↔ (s.pageAt f).pin_count_ + 1 = 0
        constructor
        · intro hh; cases hh
        · intro hh; omega
      · rw [if_neg e, hrep]
        obtain ⟨a, info1, hi1, hiff1⟩ := h.pinned q g hq
        exact ⟨a, info1, by rw [← hi1]; exact (touch_find s.replacer_ f now hcast g).2 e, hiff1⟩
    · intro g info1 hgi
      rw [hrep] at hgi
      by_cases e : g = f
      · exact ⟨info, by rw [e]; exact hi⟩
      · exact ⟨info1, by rw [← hgi]; exact ((touch_find s.replacer_ f now hcast g).2 e).symm⟩
  | none =>
    rw [hl] at hrun
    simp only [] at hrun
    obtain ⟨hsome, hnone⟩ := GetAvailableFrame_inv h
    cases hg : GetAvailableFrame s with
    | mk s0 r =>
      rw [hg] at hrun
      cases r with
      | none =>
        simp only [Option.some.injEq, Prod.mk.injEq] at hrun
        rw [← hrun.1, hnone s0 hg]
        exact h
      | some f =>
        simp only [] at hrun
        obtain ⟨hx, hnext, _, hkeep⟩ := hsome s0 f hg
        cases hi : ExtendibleHashTable.Insert pageHash fuel
            (s0.setPage f ⟨ReadPage s0.disk_ p, p, 1, false⟩).page_table_ p f with
        | none => rw [hi] at hrun; cases hrun
        | some table1 =>
          rw [hi] at hrun
          simp only [Option.some.injEq, Prod.mk.injEq] at hrun
          rw [← hrun.1]
          exact install_inv hx p (ReadPage s0.disk_ p) now fuel table1 (hkeep p hl)
            (by rw [hnext]; exact hex) hi


theorem UnpinPgImp_inv {s : BPM} (h : BPInv s) (p : Int) (is_dirty : Bool) :
    BPInv (UnpinPgImp s p is_dirty).1 := by
  unfold UnpinPgImp
  cases hl : ExtendibleHashTable.Find pageHash s.page_table_ p with
  | none => exact h
  | some f =>
    simp only []
    have hl' : s.lookup p = some f := hl
    obtain ⟨hf0, hf1, hfid⟩ := h.mapped p f hl'
    obtain ⟨hpin0, info, hi, hiff⟩ := h.pinned p f hl'
    have hflt : f.toNat < s.pages_.length := by rw [h.pages_len]; omega
    by_cases hz : (s.pageAt f).pin_count_ = 0
    · rw [if_pos hz]; exact h
    · rw [if_neg hz]
      by_cases hz1 : (s.pageAt f).pin_count_ - 1 = 0
      · rw [if_pos hz1]
        generalize hs1 : ({ (s.setPage f { s.pageAt f with
            pin_count_ := (s.pageAt f).pin_count_ - 1,
            is_dirty_ := if is_dirty then true else (s.pageAt f).is_dirty_ }) with
          replacer_ := LRUKReplacer.SetEvictable
            (s.setPage f { s.pageAt f with
              pin_count_ := (s.pageAt f).pin_count_ - 1,
              is_dirty_ := if is_dirty then true else (s.pageAt f).is_dirty_ }).replacer_
            f true } : BPM) = s1
        have hpages : s1.pages_ = s.pages_.set f.toNat
            ⟨(s.pageAt f).data_, (s.pageAt f).page_id_, (s.pageAt f).pin_count_ - 1,
              if is_dirty then true else (s.pageAt f).is_dirty_⟩ := by rw [← hs1]; rfl
        have hrep : s1.replacer_ = LRUKReplacer.SetEvictable s.replacer_ f true := by
          rw [← hs1]; rfl
        have hpa := pageAt_of_set s s1 f _ hpages hf0 hflt
        apply inv_of_obs h (by rw [← hs1]; rfl) (by rw [← hs1]; rfl)
          (by rw [← hs1]; exact le_refl _) (by rw [← hs1]; rfl) (by rw [hpages]; simp)
          (by rw [hrep]; exact SetEvictable_size _ _ _)
        · intro g hg
          rw [hpa g hg]
          split
          · next e => rw [e]
          · rfl
        · intro q g hq
          rw [hpa g (h.mapped q g hq).1, hrep, LRUKReplacer.SetEvictable_find]
          by_cases e : g = f
          · rw [if_pos e, if_pos e, hi]
            refine ⟨(by show 0 ≤ (s.pageAt f).pin_count_ - 1; omega), _, rfl, ?_⟩
            show (true = true) ↔ (s.pageAt f).pin_count_ - 1 = 0
            exact ⟨fun _ => hz1, fun _ => rfl⟩
          · rw [if_neg e, if_neg e]
            exact h.pinned q g hq
        · intro g info1 hgi
          rw [hrep, LRUKReplacer.SetEvictable_find] at hgi
          by_cases e : g = f
          · exact ⟨info, by rw [e]; exact hi⟩
          · rw [if_neg e] at hgi; exact ⟨info1, hgi⟩
      · rw [if_neg hz1]
        generalize hs1 : (s.setPage f { s.pageAt f with
            pin_count_ := (s.pageAt f).pin_count_ - 1,
            is_dirty_ := if is_dirty then true else (s.pageAt f).is_dirty_ } : BPM) = s1
        have hpages : s1.pages_ = s.pages_.set f.toNat
            ⟨(s.pageAt f).data_, (s.pageAt f).page_id_, (s.pageAt f).pin_count_ - 1,
              if is_dirty then true else (s.pageAt f).is_dirty_⟩ := by rw [← hs1]; rfl
        have hrep : s1.replacer_ = s.replacer_ := by rw [← hs1]; rfl
        have hpa := pageAt_of_set s s1 f _ hpages hf0 hflt
        apply inv_of_obs h (by rw [← hs1]; rfl) (by rw [← hs1]; rfl)
          (by rw [← hs1]; exact le_refl _) (by rw [← hs1]; rfl) (by rw [hpages]; simp)
          (by rw [hrep])
        · intro g hg
          rw [hpa g hg]
          split
          · next e => rw [e]
          · rfl
        · intro q g hq
          rw [hpa g (h.mapped q g hq).1, hrep]
          by_cases e : g = f
          · rw [if_pos e, e]
            refine ⟨(by show 0 ≤ (s.pageAt f).pin_count_ - 1; omega), info, hi, ?_⟩
            show info.evictable = true ↔ (s.pageAt f).pin_count_ - 1 = 0
            constructor
            · intro hh; exact absurd (hiff.1 hh) hz
            · intro hh; exact absurd hh hz1
          · rw [if_neg e]
            exact h.pinned q g hq
        · intro g info1 hgi
          rw [hrep] at hgi
          exact ⟨info1, hgi⟩

/-- A state that differs only in page bytes, dirty flags and disk contents
keeps the invariant. -/
theorem inv_of_same_meta {s s1 : BPM} (h : BPInv s)
    (htab : s1.page_table_ = s.page_table_) (hfree : s1.free_list_ = s.free_list_)
    (hnext : s1.next_page_id_ = s.next_page_id_) (hpool : s1.pool_size_ = s.pool_size_)
    (hlen : s1.pages_.length = s.pages_.length) (hrep : s1.replacer_ = s.replacer_)
    (hmeta : ∀ g, (s1.pageAt g).page_id_ = (s.pageAt g).page_id_ ∧
      (s1.pageAt g).pin_count_ = (s.pageAt g).pin_count_) : BPInv s1 := by
  apply inv_of_obs h htab hfree (le_of_eq hnext.symm) hpool hlen (by rw [hrep])
  · intro g _; exact (hmeta g).1
  · intro q g hq
    rw [(hmeta g).2, hrep]
    exact h.pinned q g hq
  · intro g info hgi
    rw [hrep] at hgi
    exact ⟨info, hgi⟩

theorem FlushPgImp_inv {s : BPM} (h : BPInv s) (p : Int) : BPInv (FlushPgImp s p).1 := by
  unfold FlushPgImp
  cases hl : ExtendibleHashTable.Find pageHash s.page_table_ p with
  | none => exact h
  | some f =>
    simp only []
    have hl' : s.lookup p = some f := hl
    obtain ⟨hf0, hf1, hfid⟩ := h.mapped p f hl'
    have hflt : f.toNat < s.pages_.length := by rw [h.pages_len]; omega
    generalize hs1 : (BPM.setPage { s with disk_ := WritePage s.disk_ p (s.pageAt f).data_ } f
        { s.pageAt f with is_dirty_ := false } : BPM) = s1
    have hpages : s1.pages_ = s.pages_.set f.toNat
        ⟨(s.pageAt f).data_, (s.pageAt f).page_id_, (s.pageAt f).pin_count_, false⟩ := by
      rw [← hs1]; rfl
    have hpa := pageAt_of_set s s1 f _ hpages hf0 hflt
    apply inv_of_same_meta h (by rw [← hs1]; rfl) (by rw [← hs1]; rfl) (by rw [← hs1]; rfl)
      (by rw [← hs1]; rfl) (by rw [hpages]; simp) (by rw [← hs1]; rfl)
    intro g
    by_cases hg : 0 ≤ g
    · rw [hpa g hg]
      split
      · next e => rw [e]; exact ⟨rfl, rfl⟩
      · exact ⟨rfl, rfl⟩
    · have e : g.toNat = (0 : Int).toNat := by
        rw [Int.toNat_eq_zero.2 (by omega)]; rfl
      have h1 : s1.pageAt g = s1.pageAt 0 := by unfold BPM.pageAt; rw [e]
      have h2 : s.pageAt g = s.pageAt 0 := by unfold BPM.pageAt; rw [e]
      rw [h1, h2, hpa 0 (le_refl _)]
      split
      · next e0 => rw [← e0]; exact ⟨rfl, rfl⟩
      · exact ⟨rfl, rfl⟩

theorem WriteData_inv {s : BPM} (h : BPInv s) (p : Int) (data : List Nat) :
    BPInv (WriteData s p data) := by
  unfold WriteData
  cases hl : ExtendibleHashTable.Find pageHash s.page_table_ p with
  | none => exact h
  | some f =>
    simp only []
    split
    · have hl' : s.lookup p = some f := hl
      obtain ⟨hf0, hf1, hfid⟩ := h.mapped p f hl'
      have hflt : f.toNat < s.pages_.length := by rw [h.pages_len]; omega
      generalize hs1 : (s.setPage f { s.pageAt f with data_ := data } : BPM) = s1
      have hpages : s1.pages_ = s.pages_.set f.toNat
          ⟨data, (s.pageAt f).page_id_, (s.pageAt f).pin_count_, (s.pageAt f).is_dirty_⟩ := by
        rw [← hs1]; rfl
      have hpa := pageAt_of_set s s1 f _ hpages hf0 hflt
      apply inv_of_same_meta h (by rw [← hs1]; rfl) (by rw [← hs1]; rfl) (by rw [← hs1]; rfl)
        (by rw [← hs1]; rfl) (by rw [hpages]; simp) (by rw [← hs1]; rfl)
      intro g
      by_cases hg : 0 ≤ g
      · rw [hpa g hg]
        split
        · next e => rw [e]; exact ⟨rfl, rfl⟩
        · exact ⟨rfl, rfl⟩
      · have e : g.toNat = (0 : Int).toNat := by
          rw [Int.toNat_eq_zero.2 (by omega)]; rfl
        have h1 : s1.pageAt g = s1.pageAt 0 := by unfold BPM.pageAt; rw [e]
        have h2 : s.pageAt g = s.pageAt 0 := by unfold BPM.pageAt; rw [e]
        rw [h1, h2, hpa 0 (le_refl _)]
        split
        · next e0 => rw [← e0]; exact ⟨rfl, rfl⟩
        · exact ⟨rfl, rfl⟩
    · exact h

/-- `FlushAllPgsImp` changes dirty flags only: the frames keep their bytes, page
ids and pin counts. -/
theorem flushFrom_pages (i : Nat) (pages : List Page) (disk : List (Int × List Nat)) :
    (flushFrom i pages disk).1.length = pages.length ∧
    ∀ n d, ((flushFrom i pages disk).1.getD n d).page_id_ = (pages.getD n d).page_id_ ∧
      ((flushFrom i pages disk).1.getD n d).pin_count_ = (pages.getD n d).pin_count_ ∧
      ((flushFrom i pages disk).1.getD n d).data_ = (pages.getD n d).data_ := by
  induction pages generalizing i disk with
  | nil => simp [flushFrom]
  | cons pg rest ih =>
    simp only [flushFrom]
    split
    · obtain ⟨h1, h2⟩ := ih (i + 1) (WritePage disk pg.page_id_ pg.data_)
      refine ⟨by simp [h1], fun n d => ?_⟩
      cases n with
      | zero => exact ⟨rfl, rfl, rfl⟩
      | succ m => simpa using h2 m d
    · obtain ⟨h1, h2⟩ := ih (i + 1) disk
      refine ⟨by simp [h1], fun n d => ?_⟩
      cases n with
      | zero => exact ⟨rfl, rfl, rfl⟩
      | succ m => simpa using h2 m d

theorem FlushAllPgsImp_inv {s : BPM} (h : BPInv s) : BPInv (FlushAllPgsImp s) := by
  obtain ⟨h1, h2⟩ := flushFrom_pages 0 s.pages_ s.disk_
  apply @inv_of_same_meta s (FlushAllPgsImp s) h rfl rfl rfl rfl h1 rfl
  intro g
  exact ⟨(h2 g.toNat Page.init).1, (h2 g.toNat Page.init).2.1⟩


theorem DeletePgImp_inv {s : BPM} (h : BPInv s) (p : Int) : BPInv (DeletePgImp s p).1 := by
  unfold DeletePgImp
  cases hl : ExtendibleHashTable.Find pageHash s.page_table_ p with
  | none => exact h
  | some f =>
    simp only []
    by_cases hpin : (s.pageAt f).pin_count_ > 0
    · rw [if_pos hpin]; exact h
    · rw [if_neg hpin]
      have hl' : s.lookup p = some f := hl
      obtain ⟨hf0, hf1, hfid⟩ := h.mapped p f hl'
      obtain ⟨hpin0, info, hi, hiff⟩ := h.pinned p f hl'
      have hz : (s.pageAt f).pin_count_ = 0 := by omega
      have hflt : f.toNat < s.pages_.length := by rw [h.pages_len]; omega
      obtain ⟨hrt, hrs⟩ := Remove_result s.replacer_ f info hi (hiff.2 hz)
      obtain ⟨hwf1, hfind1⟩ := ExtendibleHashTable.Remove_spec h.table_wf p
      generalize hs1 : ({ (BPM.setPage
          { s with disk_ := (if (s.pageAt f).is_dirty_ then
                      WritePage s.disk_ p (s.pageAt f).data_ else s.disk_),
                   page_table_ := (ExtendibleHashTable.Remove pageHash s.page_table_ p).1,
                   replacer_ := LRUKReplacer.Remove s.replacer_ f }
          f ⟨zeroData, INVALID_PAGE_ID, 0, false⟩) with
          free_list_ := (BPM.setPage
            { s with disk_ := (if (s.pageAt f).is_dirty_ then
                        WritePage s.disk_ p (s.pageAt f).data_ else s.disk_),
                     page_table_ := (ExtendibleHashTable.Remove pageHash s.page_table_ p).1,
                     replacer_ := LRUKReplacer.Remove s.replacer_ f }
            f ⟨zeroData, INVALID_PAGE_ID, 0, false⟩).free_list_ ++ [f] } : BPM) = s1
      have hpages : s1.pages_ = s.pages_.set f.toNat ⟨zeroData, INVALID_PAGE_ID, 0, false⟩ := by
        rw [← hs1]; rfl
      have hrep : s1.replacer_ = LRUKReplacer.Remove s.replacer_ f := by rw [← hs1]; rfl
      have htab : s1.page_table_ = (ExtendibleHashTable.Remove pageHash s.page_table_ p).1 := by
        rw [← hs1]; rfl
      have hfree : s1.free_list_ = s.free_list_ ++ [f] := by rw [← hs1]; rfl
      have hpool : s1.pool_size_ = s.pool_size_ := by rw [← hs1]; rfl
      have hnext : s1.next_page_id_ = s.next_page_id_ := by rw [← hs1]; rfl
      have hpa := pageAt_of_set s s1 f _ hpages hf0 hflt
      have hlook : ∀ q, s1.lookup q = if q = p then none else s.lookup q := by
        intro q; unfold BPM.lookup; rw [htab]; exact hfind1 q
      have hother : ∀ q g, q ≠ p → s.lookup q = some g → g ≠ f := by
        intro q g hq hg e
        subst e
        exact hq ((h.mapped q g hg).2.2.symm.trans hfid)
      have hffree : f ∉ s.free_list_ := fun hm => h.free_unmapped f hm p hl'
      have hmapne : ∀ q g, s.lookup q = some g → g ≠ f → q ≠ p := by
        intro q g hq hg e
        rw [e, hl'] at hq
        injection hq with hq
        exact hg hq.symm
      refine ⟨by rw [htab]; exact hwf1, by rw [hpages, hpool]; simpa using h.pages_len,
        by rw [hrep, hrs, hpool]; exact h.rep_size, by rw [hpool]; exact h.pool_small,
        ?_, ?_, ?_, ?_, ?_, ?_, ?_, fun g hg => (by cases hg), ?_, ?_⟩
      · intro q g hq
        rw [hlook] at hq
        by_cases e : q = p
        · rw [if_pos e] at hq; cases hq
        · rw [if_neg e] at hq
          obtain ⟨a, b, c⟩ := h.mapped q g hq
          rw [hpool, hpa g a, if_neg (hother q g e hq)]
          exact ⟨a, b, c⟩
      · intro q g hq
        rw [hlook] at hq
        by_cases e : q = p
        · rw [if_pos e] at hq; cases hq
        · rw [if_neg e] at hq
          rw [hnext]; exact h.fresh q g hq
      · rw [hfree, List.nodup_append]
        refine ⟨h.free_nodup, List.nodup_singleton f, ?_⟩
        intro a ha hb
        simp only [List.mem_singleton] at hb
        exact hffree (hb ▸ ha)
      · intro g hg
        rw [hfree, List.mem_append, List.mem_singleton] at hg
        rw [hpool]
        rcases hg with e | e
        · exact h.free_range g e
        · rw [e]; exact ⟨hf0, hf1⟩
      · intro g hg q hq
        rw [hlook] at hq
        by_cases e : q = p
        · rw [if_pos e] at hq; cases hq
        · rw [if_neg e] at hq
          rw [hfree, List.mem_append, List.mem_singleton] at hg
          rcases hg with e1 | e1
          · exact h.free_unmapped g e1 q hq
          · exact hother q g e hq e1
      · intro g hg
        rw [hfree, List.mem_append, List.mem_singleton] at hg
        rcases hg with e | e
        · have hgf : g ≠ f := fun e1 => hffree (e1 ▸ e)
          rw [hpa g (h.free_range g e).1, if_neg hgf]
          exact h.free_invalid g e
        · rw [e, hpa f hf0, if_pos rfl]
      · intro g hg0 hg1
        rw [hpool] at hg1
        right
        by_cases e : g = f
        · left; rw [hfree, e]; simp
        · rcases h.cover g hg0 hg1 with c | c | ⟨q, hq⟩
          · cases c
          · left; rw [hfree]; exact List.mem_append_left _ c
          · right
            refine ⟨q, ?_⟩
            rw [hlook, if_neg (hmapne q g hq e)]; exact hq
      · intro g info1 hgi
        rw [hrep, hrt, UMap.find_erase] at hgi
        by_cases e : g = f
        · rw [if_pos e] at hgi; cases hgi
        · rw [if_neg e] at hgi
          obtain ⟨q, hq⟩ := h.tracked_resident g info1 hgi
          refine ⟨q, ?_⟩
          rw [hlook, if_neg (hmapne q g hq e)]; exact hq
      · intro q g hq
        rw [hlook] at hq
        by_cases e : q = p
        · rw [if_pos e] at hq; cases hq
        · rw [if_neg e] at hq
          have hgf := hother q g e hq
          obtain ⟨a, info1, hi1, hiff1⟩ := h.pinned q g hq
          rw [hpa g (h.mapped q g hq).1, if_neg hgf]
          refine ⟨a, info1, ?_, hiff1⟩
          rw [hrep, hrt, UMap.find_erase, if_neg hgf]; exact hi1

/-- One admissible call keeps the invariant. -/
theorem step_inv {s s1 : BPM} (h : BPInv s) (fuel : Nat) (op : Op)
    (hex : existingId s op = true) (hrun : step fuel s op = some s1) : BPInv s1 := by
  cases op with
  | newPage now =>
    simp only [step, Option.map_eq_some'] at hrun
    obtain ⟨⟨s2, pid, res⟩, hr, he⟩ := hrun
    simp only [] at he
    subst he
    exact NewPgImp_inv h fuel now pid res hr
  | fetchPage p now =>
    simp only [step, Option.map_eq_some'] at hrun
    obtain ⟨⟨s2, res⟩, hr, he⟩ := hrun
    simp only [] at he
    subst he
    exact FetchPgImp_inv h fuel p now res (by simpa [existingId] using hex) hr
  | unpinPage p d =>
    simp only [step, Option.some.injEq] at hrun
    rw [← hrun]; exact UnpinPgImp_inv h p d
  | flushPage p =>
    simp only [step, Option.some.injEq] at hrun
    rw [← hrun]; exact FlushPgImp_inv h p
  | flushAll =>
    simp only [step, Option.some.injEq] at hrun
    rw [← hrun]; exact FlushAllPgsImp_inv h
  | deletePage p =>
    simp only [step, Option.some.injEq] at hrun
    rw [← hrun]; exact DeletePgImp_inv h p
  | write p data =>
    simp only [step, Option.some.injEq] at hrun
    rw [← hrun]; exact WriteData_inv h p data

theorem run_inv (fuel : Nat) (ops : List Op) {s s1 : BPM} (h : BPInv s)
    (hex : fetchesExisting fuel s ops = true) (hrun : run fuel s ops = some s1) : BPInv s1 := by
  induction ops generalizing s with
  | nil =>
    simp only [run, Option.some.injEq] at hrun
    rw [← hrun]; exact h
  | cons op rest ih =>
    simp only [run] at hrun
    simp only [fetchesExisting, Bool.and_eq_true] at hex
    cases hs : step fuel s op with
    | none => rw [hs] at hrun; cases hrun
    | some s2 =>
      rw [hs] at hrun hex
      exact ih (step_inv h fuel op hex.1 hs) hex.2 hrun

end BufferPoolManager
namespace BufferPoolManager

theorem getD_of_isSome {α : Type} (o : Option α) (d : α) (h : o.isSome = true) :
    o = some (o.getD d) := by
  cases o with
  | none => cases h
  | some a => rfl

/-- C6, amended. In every state reached from the initial pool by `NewPage`,
`FetchPage` of ids that `NewPage` has handed out before the call, `UnpinPage`,
`FlushPage`, `FlushAll` and `DeletePage`: the page table is injective, each mapped frame is a frame of the pool and stores
the page id mapped to it, and every frame of the pool is either on the free
list exactly once and unmapped, or off the free list and the image of exactly
one resident page id. -/
theorem pool_frames_partition (pool_size k fuel : Nat) (ops : List Op) (s : BPM)
    (hsmall : pool_size < 2 ^ 64)
    (hex : fetchesExisting fuel (BPM.new pool_size k) ops = true)
    (hrun : run fuel (BPM.new pool_size k) ops = some s) :
    (∀ p q f : Int, s.lookup p = some f → s.lookup q = some f → p = q) ∧
    (∀ p f : Int, s.lookup p = some f →
      0 ≤ f ∧ f < (s.pool_size_ : Int) ∧ (s.pageAt f).page_id_ = p) ∧
    (∀ f : Int, 0 ≤ f → f < (s.pool_size_ : Int) →
      (s.free_list_.count f = 1 ∧ ∀ p : Int, s.lookup p ≠ some f) ∨
      (f ∉ s.free_list_ ∧ ∃ p : Int, s.lookup p = some f ∧
        ∀ q : Int, s.lookup q = some f → q = p)) := by
  have h := run_inv fuel ops (BPInv_new pool_size k hsmall) hex hrun
  have hinj : ∀ p q f : Int, s.lookup p = some f → s.lookup q = some f → p = q := by
    intro p q f hp hq
    rw [← (h.mapped p f hp).2.2, ← (h.mapped q f hq).2.2]
  refine ⟨hinj, h.mapped, ?_⟩
  intro f h0 h1
  rcases h.cover f h0 h1 with c | c | ⟨p, hp⟩
  · cases c
  · left
    exact ⟨List.count_eq_one_of_mem h.free_nodup c, h.free_unmapped f c⟩
  · right
    exact ⟨fun hm => h.free_unmapped f hm p hp, p, hp, fun q hq => hinj q p f hq hp⟩

/-- C7. In every reachable state, the frame of a resident page is tracked by
the replacer and marked evictable exactly when the page's pin count is zero;
so a frame the replacer would evict holds a page whose pin count is zero. -/
theorem evictable_iff_unpinned (pool_size k fuel : Nat) (ops : List Op) (s : BPM)
    (hsmall : pool_size < 2 ^ 64)
    (hex : fetchesExisting fuel (BPM.new pool_size k) ops = true)
    (hrun : run fuel (BPM.new pool_size k) ops = some s) :
    (∀ p f : Int, s.lookup p = some f →
      ∃ info, UMap.find s.replacer_.frame_table_ f = some info ∧
        (info.evictable = true ↔ (s.pageAt f).pin_count_ = 0)) ∧
    (∀ f : Int, (LRUKReplacer.Evict s.replacer_).2 = some f →
      ¬ (s.pageAt f).pin_count_ > 0 ∧ s.lookup (s.pageAt f).page_id_ = some f) := by
  have h := run_inv fuel ops (BPInv_new pool_size k hsmall) hex hrun
  refine ⟨fun p f hp => (h.pinned p f hp).2, fun f hf => ?_⟩
  obtain ⟨_, _, hres, hpin⟩ := victim_unpinned h f hf
  exact ⟨by omega, hres⟩

set_option maxRecDepth 100000 in
theorem sampleState_run : run 40 (BPM.new 3 2) sampleOps = some sampleState :=
  getD_of_isSome _ _ (by decide)

set_option maxRecDepth 100000 in
/-- Witness for C6 (amended): the sample run, after which page 1 is in frame 0, page 4
in frame 1 and page 2 in frame 2. -/
theorem pool_frames_partition_witness :
    fetchesExisting 40 (BPM.new 3 2) sampleOps = true ∧
    run 40 (BPM.new 3 2) sampleOps = some sampleState ∧
    sampleState.lookup 1 = some 0 ∧ sampleState.lookup 4 = some 1 ∧
    sampleState.lookup 2 = some 2 ∧ sampleState.free_list_ = [] ∧
    ((∀ p q f : Int, sampleState.lookup p = some f → sampleState.lookup q = some f → p = q) ∧
    (∀ p f : Int, sampleState.lookup p = some f →
      0 ≤ f ∧ f < (sampleState.pool_size_ : Int) ∧ (sampleState.pageAt f).page_id_ = p) ∧
    (∀ f : Int, 0 ≤ f → f < (sampleState.pool_size_ : Int) →
      (sampleState.free_list_.count f = 1 ∧ ∀ p : Int, sampleState.lookup p ≠ some f) ∨
      (f ∉ sampleState.free_list_ ∧ ∃ p : Int, sampleState.lookup p = some f ∧
        ∀ q : Int, sampleState.lookup q = some f → q = p))) :=
  ⟨by decide, sampleState_run, by decide, by decide, by decide, by decide,
   pool_frames_partition 3 2 40 sampleOps sampleState (by decide) (by decide) sampleState_run⟩


set_option maxRecDepth 100000 in
theorem setupState_run : run 40 (BPM.new 1 2) setupOps = some setupState :=
  getD_of_isSome _ _ (by decide)

set_option maxRecDepth 100000 in
/-- Witness for C7: in the one-frame pool page 0 sits in frame 0 with pin count
zero, the replacer would evict frame 0, and the theorem applies. -/
theorem evictable_iff_unpinned_witness :
    fetchesExisting 40 (BPM.new 1 2) setupOps = true ∧
    run 40 (BPM.new 1 2) setupOps = some setupState ∧
    setupState.lookup 0 = some 0 ∧ (setupState.pageAt 0).pin_count_ = 0 ∧
    (LRUKReplacer.Evict setupState.replacer_).2 = some 0 ∧
    ((∀ p f : Int, setupState.lookup p = some f →
      ∃ info, UMap.find setupState.replacer_.frame_table_ f = some info ∧
        (info.evictable = true ↔ (setupState.pageAt f).pin_count_ = 0)) ∧
    (∀ f : Int, (LRUKReplacer.Evict setupState.replacer_).2 = some f →
      ¬ (setupState.pageAt f).pin_count_ > 0 ∧
      setupState.lookup (setupState.pageAt f).page_id_ = some f)) :=
  ⟨by decide, setupState_run, by decide, by decide, by decide,
   evictable_iff_unpinned 1 2 40 setupOps setupState (by decide) (by decide) setupState_run⟩

theorem ReadPage_WritePage (disk : List (Int × List Nat)) (q p : Int) (data : List Nat) :
    ReadPage (WritePage disk q data) p = if p = q then data else ReadPage disk p := by
  unfold ReadPage WritePage
  rw [UMap.find_put]
  split <;> rfl

/-- A state that keeps the mapping of `p`, the bytes of its frame, and what is
on disk for `p` when that was `B`, keeps the logical content of `p`. -/
theorem content_of_obs {s s1 : BPM} {p : Int} {B : List Nat} (hc : Content s p B)
    (hnext : s.next_page_id_ ≤ s1.next_page_id_) (hlook : s1.lookup p = s.lookup p)
    (hdata : ∀ f, s.lookup p = some f → (s1.pageAt f).data_ = (s.pageAt f).data_ ∧
      ((s.pageAt f).is_dirty_ = true →
        (s1.pageAt f).is_dirty_ = true ∨ ReadPage s1.disk_ p = B))
    (hdisk : ReadPage s.disk_ p = B → ReadPage s1.disk_ p = B) : Content s1 p B := by
  obtain ⟨h1, h2⟩ := hc
  refine ⟨lt_of_lt_of_le h1 hnext, ?_⟩
  rw [hlook]
  cases hl : s.lookup p with
  | none =>
    rw [hl] at h2
    exact hdisk h2
  | some f =>
    rw [hl] at h2
    obtain ⟨hd1, hd2⟩ := hdata f hl
    refine ⟨by rw [hd1]; exact h2.1, ?_⟩
    rcases h2.2 with e | e
    · exact hd2 e
    · exact Or.inr (hdisk e)

/-- `GetAvailableFrame` keeps the logical content of every page: a dirty
victim is written to disk before its frame is reset. -/
theorem GetAvailableFrame_content {s : BPM} (h : BPInv s) {p : Int} {B : List Nat}
    (hc : Content s p B) (s1 : BPM) (r : Option Int) (hg : GetAvailableFrame s = (s1, r)) :
    Content s1 p B := by
  unfold GetAvailableFrame at hg
  cases hfl : s.free_list_ with
  | cons f rest =>
    rw [hfl] at hg
    simp only [Prod.mk.injEq] at hg
    rw [← hg.1]
    exact content_of_obs hc (le_refl _) rfl (fun f hf => ⟨rfl, fun hd => Or.inl hd⟩) (fun e => e)
  | nil =>
    rw [hfl] at hg
    simp only [] at hg
    cases hev : LRUKReplacer.Evict s.replacer_ with
    | mk rep1 res =>
      rw [hev] at hg
      cases res with
      | none =>
        simp only [Prod.mk.injEq] at hg
        rw [← hg.1]; exact hc
      | some f =>
        simp only [Prod.mk.injEq] at hg
        have hev2 : (LRUKReplacer.Evict s.replacer_).2 = some f := by rw [hev]
        obtain ⟨hf0, hf1, hres, hpin⟩ := victim_unpinned h f hev2
        have hflt : f.toNat < s.pages_.length := by rw [h.pages_len]; omega
        obtain ⟨_, hfind1⟩ := ExtendibleHashTable.Remove_spec h.table_wf (s.pageAt f).page_id_
        have hlook : ∀ q, s1.lookup q
            = if q = (s.pageAt f).page_id_ then none else s.lookup q := by
          intro q; rw [← hg.1]; exact hfind1 q
        have hpages : s1.pages_ = s.pages_.set f.toNat ⟨zeroData, INVALID_PAGE_ID, 0, false⟩ := by
          rw [← hg.1]; rfl
        have hpa := pageAt_of_set s s1 f _ hpages hf0 hflt
        have hdisk : s1.disk_ = if (s.pageAt f).is_dirty_ then
            WritePage s.disk_ (s.pageAt f).page_id_ (s.pageAt f).data_ else s.disk_ := by
          rw [← hg.1]; rfl
        have hnext : s1.next_page_id_ = s.next_page_id_ := by rw [← hg.1]; rfl
        by_cases e : p = (s.pageAt f).page_id_
        · -- the victim is the frame of `p`
          obtain ⟨h1, h2⟩ := hc
          rw [e, hres] at h2
          refine ⟨by rw [hnext]; exact h1, ?_⟩
          rw [hlook, if_pos e, hdisk]
          simp only []
          by_cases hd : (s.pageAt f).is_dirty_ = true
          · rw [if_pos hd, ReadPage_WritePage, if_pos e]; exact h2.1
          · rw [if_neg hd]
            rcases h2.2 with e1 | e1
            · exact absurd e1 hd
            · rw [e]; exact e1
        · apply content_of_obs hc (le_of_eq hnext.symm) (by rw [hlook, if_neg e])
          · intro g hgl
            have hgf : g ≠ f := by
              intro e1
              rw [e1] at hgl
              exact e (h.mapped p f hgl).2.2.symm
            rw [hpa g (h.mapped p g hgl).1, if_neg hgf]
            exact ⟨rfl, fun hd => Or.inl hd⟩
          · intro hB
            rw [hdisk]
            split
            · rw [ReadPage_WritePage, if_neg e]; exact hB
            · exact hB


/-- Entering a page `q` into the handed-out frame keeps the logical content of
`p`: for `q ≠ p` nothing of `p` is touched, for `q = p` the frame receives
what the disk holds for `p`. -/
theorem install_content {s1 : BPM} {f : Int} (h : BPInvX s1 (some f)) (q : Int) (data : List Nat)
    (now : Int) (fuel : Nat) (table1 : ExtendibleHashTable.Table Int Int)
    (hins : ExtendibleHashTable.Insert pageHash fuel
      (s1.setPage f ⟨data, q, 1, false⟩).page_table_ q f = some table1)
    {p : Int} {B : List Nat} (hc : Content s1 p B)
    (hq : q = p → s1.lookup p = none ∧ data = ReadPage s1.disk_ p) :
    Content { (s1.setPage f ⟨data, q, 1, false⟩) with
            page_table_ := table1,
            replacer_ := (LRUKReplacer.SetEvictable
              (LRUKReplacer.RecordAccess (s1.setPage f ⟨data, q, 1, false⟩).replacer_ f now)
              f false) } p B := by
  obtain ⟨hf0, hf1, hffree, hfun, hftr⟩ := h.hole_ok f rfl
  have hflt : f.toNat < s1.pages_.length := by rw [h.pages_len]; omega
  obtain ⟨hwf1, hfind1⟩ := ExtendibleHashTable.Insert_spec fuel h.table_wf q f hins
  generalize hs2 : ({ (s1.setPage f ⟨data, q, 1, false⟩) with
            page_table_ := table1,
            replacer_ := (LRUKReplacer.SetEvictable
              (LRUKReplacer.RecordAccess (s1.setPage f ⟨data, q, 1, false⟩).replacer_ f now)
              f false) } : BPM) = s2
  have hlook : ∀ x, s2.lookup x = if x = q then some f else s1.lookup x := by
    intro x; rw [← hs2]; exact hfind1 x
  have hpages : s2.pages_ = s1.pages_.set f.toNat ⟨data, q, 1, false⟩ := by rw [← hs2]; rfl
  have hpa := pageAt_of_set s1 s2 f _ hpages hf0 hflt
  have hdisk : s2.disk_ = s1.disk_ := by rw [← hs2]; rfl
  have hnext : s2.next_page_id_ = s1.next_page_id_ := by rw [← hs2]; rfl
  by_cases e : q = p
  · obtain ⟨hnone, hdat⟩ := hq e
    obtain ⟨h1, h2⟩ := hc
    rw [hnone] at h2
    refine ⟨by rw [hnext]; exact h1, ?_⟩
    rw [hlook, if_pos e.symm]
    simp only []
    rw [hpa f hf0, if_pos rfl, hdisk]
    exact ⟨by rw [hdat]; exact h2, Or.inr h2⟩
  · have e' : ¬ p = q := fun x => e x.symm
    apply content_of_obs hc (le_of_eq hnext.symm) (by rw [hlook, if_neg e'])
    · intro g hgl
      have hgf : g ≠ f := fun e1 => hfun p (e1 ▸ hgl)
      rw [hpa g (h.mapped p g hgl).1, if_neg hgf]
      exact ⟨rfl, fun hd => Or.inl hd⟩
    · intro hB; rw [hdisk]; exact hB

theorem NewPgImp_content {s s1 : BPM} (h : BPInv s) (fuel : Nat) (now : Int) (pid : Int)
    (res : Option Int) (hrun : NewPgImp fuel s now = some (s1, pid, res))
    {p : Int} {B : List Nat} (hc : Content s p B) : Content s1 p B := by
  unfold NewPgImp at hrun
  simp only [] at hrun
  have hb := BPInv_bump h
  have hcb : Content { s with next_page_id_ := s.next_page_id_ + 1 } p B :=
    content_of_obs hc (by show s.next_page_id_ ≤ s.next_page_id_ + 1; omega) rfl
      (fun f hf => ⟨rfl, fun hd => Or.inl hd⟩) (fun e => e)
  obtain ⟨hsome, hnone⟩ := GetAvailableFrame_inv hb
  cases hg : GetAvailableFrame { s with next_page_id_ := s.next_page_id_ + 1 } with
  | mk s0 r =>
    have hc0 := GetAvailableFrame_content hb hcb s0 r hg
    rw [hg] at hrun
    cases r with
    | none =>
      simp only [Option.some.injEq, Prod.mk.injEq] at hrun
      rw [← hrun.1]; exact hc0
    | some f =>
      simp only [] at hrun
      obtain ⟨hx, hnext, _, hkeep⟩ := hsome s0 f hg
      cases hi : ExtendibleHashTable.Insert pageHash fuel
          (s0.setPage f ⟨zeroData, s.next_page_id_, 1, false⟩).page_table_ s.next_page_id_ f with
      | none => rw [hi] at hrun; cases hrun
      | some table1 =>
        rw [hi] at hrun
        simp only [Option.some.injEq, Prod.mk.injEq] at hrun
        rw [← hrun.1]
        apply install_content hx s.next_page_id_ zeroData now fuel table1 hi hc0
        intro e
        exact absurd hc.1 (by rw [← e]; exact lt_irrefl _)

theorem FetchPgImp_content {s s1 : BPM} (h : BPInv s) (fuel : Nat) (q now : Int)
    (res : Option Int) (hrun : FetchPgImp fuel s q now = some (s1, res))
    {p : Int} {B : List Nat} (hc : Content s p B) :
    Content s1 p B ∧ (q = p → ∀ f, res = some f → (s1.pageAt f).data_ = B) := by
  unfold FetchPgImp at hrun
  cases hl : ExtendibleHashTable.Find pageHash s.page_table_ q with
  | some f =>
    rw [hl] at hrun
    simp only [Option.some.injEq, Prod.mk.injEq] at hrun
    have hl' : s.lookup q = some f := hl
    obtain ⟨hf0, hf1, hfid⟩ := h.mapped q f hl'
    have hflt : f.toNat < s.pages_.length := by rw [h.pages_len]; omega
    have hpages : s1.pages_ = s.pages_.set f.toNat
        ⟨(s.pageAt f).data_, (s.pageAt f).page_id_, (s.pageAt f).pin_count_ + 1,
          (s.pageAt f).is_dirty_⟩ := by rw [← hrun.1]; rfl
    have hpa := pageAt_of_set s s1 f _ hpages hf0 hflt
    have hdisk : s1.disk_ = s.disk_ := by rw [← hrun.1]; rfl
    have hmeta : ∀ g, 0 ≤ g → (s1.pageAt g).data_ = (s.pageAt g).data_ ∧
        (s1.pageAt g).is_dirty_ = (s.pageAt g).is_dirty_ := by
      intro g hg
      rw [hpa g hg]
      split
      · next e => rw [e]; exact ⟨rfl, rfl⟩
      · exact ⟨rfl, rfl⟩
    refine ⟨?_, ?_⟩
    · apply content_of_obs hc (by rw [← hrun.1]; exact le_refl _) (by rw [← hrun.1]; rfl)
      · intro g hgl
        obtain ⟨m1, m2⟩ := hmeta g (h.mapped p g hgl).1
        exact ⟨m1, fun hd => Or.inl (by rw [m2]; exact hd)⟩
      · intro hB; rw [hdisk]; exact hB
    · intro e g hres
      rw [← hrun.2] at hres
      injection hres with hres
      subst hres
      rw [(hmeta f hf0).1]
      obtain ⟨_, h2⟩ := hc
      rw [← e, hl'] at h2
      exact h2.1
  | none =>
    rw [hl] at hrun
    simp only [] at hrun
    obtain ⟨hsome, hnone⟩ := GetAvailableFrame_inv h
    cases hg : GetAvailableFrame s with
    | mk s0 r =>
      have hc0 := GetAvailableFrame_content h hc s0 r hg
      rw [hg] at hrun
      cases r with
      | none =>
        simp only [Option.some.injEq, Prod.mk.injEq] at hrun
        rw [← hrun.1]
        exact ⟨hc0, fun _ f hres => by rw [← hrun.2] at hres; cases hres⟩
      | some f =>
        simp only [] at hrun
        obtain ⟨hx, hnext, _, hkeep⟩ := hsome s0 f hg
        cases hi : ExtendibleHashTable.Insert pageHash fuel
            (s0.setPage f ⟨ReadPage s0.disk_ q, q, 1, false⟩).page_table_ q f with
        | none => rw [hi] at hrun; cases hrun
        | some table1 =>
          rw [hi] at hrun
          simp only [Option.some.injEq, Prod.mk.injEq] at hrun
          have hq : q = p → s0.lookup p = none ∧ ReadPage s0.disk_ q = ReadPage s0.disk_ p :=
            fun e => ⟨e ▸ hkeep q hl, by rw [e]⟩
          have hc1 := install_content hx q (ReadPage s0.disk_ q) now fuel table1 hi hc0 hq
          rw [hrun.1] at hc1
          refine ⟨hc1, fun e g hres => ?_⟩
          rw [← hrun.2] at hres
          injection hres with hres
          subst hres
          obtain ⟨hf0, hf1, _, _, _⟩ := hx.hole_ok f rfl
          have hflt : f.toNat < s0.pages_.length := by rw [hx.pages_len]; omega
          have hpages : s1.pages_ = s0.pages_.set f.toNat ⟨ReadPage s0.disk_ q, q, 1, false⟩ := by
            rw [← hrun.1]; rfl
          rw [pageAt_of_set s0 s1 f _ hpages hf0 hflt f hf0, if_pos rfl]
          obtain ⟨_, h2⟩ := hc0
          rw [(hq e).1] at h2
          rw [e]; exact h2


/-- What the flush loop leaves on disk for page `p`, when every dirty frame
that stores a valid id `p` holds the bytes `B`. -/
theorem flushFrom_disk (p : Int) (B : List Nat) (i : Nat) (pages : List Page)
    (disk : List (Int × List Nat))
    (huni : ∀ pg ∈ pages, pg.page_id_ = p → pg.page_id_ ≠ INVALID_PAGE_ID →
      pg.is_dirty_ = true → pg.data_ = B) :
    (ReadPage disk p = B → ReadPage (flushFrom i pages disk).2 p = B) ∧
    ((∃ pg ∈ pages, pg.page_id_ = p ∧ pg.page_id_ ≠ INVALID_PAGE_ID ∧ pg.is_dirty_ = true) →
      ReadPage (flushFrom i pages disk).2 p = B) := by
  induction pages generalizing i disk with
  | nil => exact ⟨fun h => h, fun ⟨pg, hm, _⟩ => by cases hm⟩
  | cons pg rest ih =>
    have huni' : ∀ x ∈ rest, x.page_id_ = p → x.page_id_ ≠ INVALID_PAGE_ID →
        x.is_dirty_ = true → x.data_ = B := fun x hx => huni x (List.mem_cons_of_mem _ hx)
    simp only [flushFrom]
    by_cases hcnd : pg.page_id_ ≠ INVALID_PAGE_ID ∧ pg.is_dirty_ = true
    · rw [if_pos hcnd]
      simp only []
      obtain ⟨iha, ihb⟩ := ih (i + 1) (WritePage disk pg.page_id_ pg.data_) huni'
      have hstep : (p = pg.page_id_ ∨ ReadPage disk p = B) →
          ReadPage (WritePage disk pg.page_id_ pg.data_) p = B := by
        intro hh
        rw [ReadPage_WritePage]
        by_cases e : p = pg.page_id_
        · rw [if_pos e]
          exact huni pg (List.mem_cons_self _ _) e.symm hcnd.1 hcnd.2
        · rw [if_neg e]
          rcases hh with h1 | h1
          · exact absurd h1 e
          · exact h1
      refine ⟨fun hB => iha (hstep (Or.inr hB)), ?_⟩
      rintro ⟨x, hx, hx1, hx2, hx3⟩
      rcases List.mem_cons.1 hx with e | e
      · subst e
        exact iha (hstep (Or.inl hx1.symm))
      · exact ihb ⟨x, e, hx1, hx2, hx3⟩
    · rw [if_neg hcnd]
      simp only []
      obtain ⟨iha, ihb⟩ := ih (i + 1) disk huni'
      refine ⟨iha, ?_⟩
      rintro ⟨x, hx, hx1, hx2, hx3⟩
      rcases List.mem_cons.1 hx with e | e
      · subst e
        exact absurd ⟨hx2, hx3⟩ hcnd
      · exact ihb ⟨x, e, hx1, hx2, hx3⟩

/-- A dirty frame stays dirty in the flush loop unless it stores a valid page
id, in which case the loop wrote it. -/
theorem flushFrom_dirty (i : Nat) (pages : List Page) (disk : List (Int × List Nat)) (n : Nat)
    (d : Page) (hn : n < pages.length) (hd : (pages.getD n d).is_dirty_ = true) :
    ((flushFrom i pages disk).1.getD n d).is_dirty_ = true ∨
    (pages.getD n d).page_id_ ≠ INVALID_PAGE_ID := by
  induction pages generalizing i disk n with
  | nil => simp at hn
  | cons pg rest ih =>
    simp only [flushFrom]
    by_cases hcnd : pg.page_id_ ≠ INVALID_PAGE_ID ∧ pg.is_dirty_ = true
    · rw [if_pos hcnd]
      cases n with
      | zero => right; exact hcnd.1
      | succ m =>
        simp only [List.getD_cons_succ] at hd ⊢
        exact ih (i + 1) _ m (by simpa using hn) hd
    · rw [if_neg hcnd]
      cases n with
      | zero =>
        simp only [List.getD_cons_zero] at hd ⊢
        by_cases e : pg.page_id_ = INVALID_PAGE_ID
        · left; exact hd
        · right; exact e
      | succ m =>
        simp only [List.getD_cons_succ] at hd ⊢
        exact ih (i + 1) _ m (by simpa using hn) hd

theorem mem_pages_pageAt (s : BPM) (pg : Page) (hm : pg ∈ s.pages_) :
    ∃ g : Int, 0 ≤ g ∧ g < (s.pages_.length : Int) ∧ s.pageAt g = pg := by
  obtain ⟨n, hn, he⟩ := List.getElem_of_mem hm
  refine ⟨(n : Int), by omega, by omega, ?_⟩
  unfold BPM.pageAt
  simp only [Int.toNat_ofNat, List.getD_eq_getElem?_getD, List.getElem?_eq_getElem hn,
    Option.getD_some]
  exact he

theorem FlushAllPgsImp_content {s : BPM} (h : BPInv s) {p : Int} {B : List Nat}
    (hc : Content s p B) : Content (FlushAllPgsImp s) p B := by
  have huni : ∀ pg ∈ s.pages_, pg.page_id_ = p → pg.page_id_ ≠ INVALID_PAGE_ID →
      pg.is_dirty_ = true → pg.data_ = B := by
    intro pg hm hid hvalid _
    obtain ⟨g, hg0, hg1, hpg⟩ := mem_pages_pageAt s pg hm
    rw [h.pages_len] at hg1
    rcases h.cover g hg0 hg1 with c | c | ⟨q, hq⟩
    · cases c
    · have := h.free_invalid g c
      rw [hpg] at this
      exact absurd this hvalid
    · have hqid := (h.mapped q g hq).2.2
      rw [hpg, hid] at hqid
      obtain ⟨_, h2⟩ := hc
      rw [hqid] at h2
      rw [hq] at h2
      rw [← hpg]; exact h2.1
  obtain ⟨hda, hdb⟩ := flushFrom_disk p B 0 s.pages_ s.disk_ huni
  obtain ⟨_, hmeta⟩ := flushFrom_pages 0 s.pages_ s.disk_
  apply @content_of_obs s (FlushAllPgsImp s) p B hc (le_refl _) rfl
  · intro f hf
    obtain ⟨hf0, hf1, hfid⟩ := h.mapped p f hf
    refine ⟨(hmeta f.toNat Page.init).2.2, fun hd => ?_⟩
    have hflt : f.toNat < s.pages_.length := by rw [h.pages_len]; omega
    rcases flushFrom_dirty 0 s.pages_ s.disk_ f.toNat Page.init hflt hd with e | e
    · exact Or.inl e
    · right
      apply hdb
      refine ⟨s.pageAt f, ?_, hfid, ?_, hd⟩
      · unfold BPM.pageAt
        rw [List.getD_eq_getElem?_getD, List.getElem?_eq_getElem hflt]
        exact List.getElem_mem hflt
      · exact e
  · exact hda

theorem UnpinPgImp_content {s : BPM} (h : BPInv s) (q : Int) (is_dirty : Bool)
    {p : Int} {B : List Nat} (hc : Content s p B) : Content (UnpinPgImp s q is_dirty).1 p B := by
  unfold UnpinPgImp
  cases hl : ExtendibleHashTable.Find pageHash s.page_table_ q with
  | none => exact hc
  | some f =>
    simp only []
    have hl' : s.lookup q = some f := hl
    obtain ⟨hf0, hf1, hfid⟩ := h.mapped q f hl'
    have hflt : f.toNat < s.pages_.length := by rw [h.pages_len]; omega
    by_cases hz : (s.pageAt f).pin_count_ = 0
    · rw [if_pos hz]; exact hc
    · rw [if_neg hz]
      have key : ∀ s1 : BPM, s1.pages_ = s.pages_.set f.toNat
            ⟨(s.pageAt f).data_, (s.pageAt f).page_id_, (s.pageAt f).pin_count_ - 1,
              if is_dirty then true else (s.pageAt f).is_dirty_⟩ →
          s1.page_table_ = s.page_table_ → s1.disk_ = s.disk_ →
          s1.next_page_id_ = s.next_page_id_ → Content s1 p B := by
        intro s1 hpages htab hdisk hnext
        have hpa := pageAt_of_set s s1 f _ hpages hf0 hflt
        apply content_of_obs hc (le_of_eq hnext.symm) (by unfold BPM.lookup; rw [htab])
        · intro g hgl
          rw [hpa g (h.mapped p g hgl).1]
          split
          · next e =>
            rw [e]
            refine ⟨rfl, fun hd => Or.inl ?_⟩
            show (if is_dirty then true else (s.pageAt f).is_dirty_) = true
            rw [hd]; simp
          · exact ⟨rfl, fun hd => Or.inl hd⟩
        · intro hB; rw [hdisk]; exact hB
      split
      · exact key _ rfl rfl rfl rfl
      · exact key _ rfl rfl rfl rfl

theorem FlushPgImp_content {s : BPM} (h : BPInv s) (q : Int)
    {p : Int} {B : List Nat} (hc : Content s p B) : Content (FlushPgImp s q).1 p B := by
  unfold FlushPgImp
  cases hl : ExtendibleHashTable.Find pageHash s.page_table_ q with
  | none => exact hc
  | some f =>
    simp only []
    have hl' : s.lookup q = some f := hl
    obtain ⟨hf0, hf1, hfid⟩ := h.mapped q f hl'
    have hflt : f.toNat < s.pages_.length := by rw [h.pages_len]; omega
    generalize hs1 : (BPM.setPage { s with disk_ := WritePage s.disk_ q (s.pageAt f).data_ } f
        { s.pageAt f with is_dirty_ := false } : BPM) = s1
    have hpages : s1.pages_ = s.pages_.set f.toNat
        ⟨(s.pageAt f).data_, (s.pageAt f).page_id_, (s.pageAt f).pin_count_, false⟩ := by
      rw [← hs1]; rfl
    have hpa := pageAt_of_set s s1 f _ hpages hf0 hflt
    have hdisk : s1.disk_ = WritePage s.disk_ q (s.pageAt f).data_ := by rw [← hs1]; rfl
    apply content_of_obs hc (by rw [← hs1]; exact le_refl _) (by rw [← hs1]; rfl)
    · intro g hgl
      rw [hpa g (h.mapped p g hgl).1]
      split
      · next e =>
        rw [e]
        refine ⟨rfl, fun _ => Or.inr ?_⟩
        have hqp : q = p := by
          rw [← hfid, ← (h.mapped p g hgl).2.2, e]
        rw [hdisk, ReadPage_WritePage, if_pos hqp.symm]
        obtain ⟨_, h2⟩ := hc
        rw [hgl] at h2
        rw [← e]; exact h2.1
      · exact ⟨rfl, fun hd => Or.inl hd⟩
    · intro hB
      rw [hdisk, ReadPage_WritePage]
      by_cases e : p = q
      · rw [if_pos e]
        obtain ⟨_, h2⟩ := hc
        rw [e, hl'] at h2
        exact h2.1
      · rw [if_neg e]; exact hB

theorem WriteData_content {s : BPM} (h : BPInv s) (q : Int) (data : List Nat)
    {p : Int} {B : List Nat} (hc : Content s p B) (hne : q ≠ p) :
    Content (WriteData s q data) p B := by
  unfold WriteData
  cases hl : ExtendibleHashTable.Find pageHash s.page_table_ q with
  | none => exact hc
  | some f =>
    simp only []
    split
    · have hl' : s.lookup q = some f := hl
      obtain ⟨hf0, hf1, hfid⟩ := h.mapped q f hl'
      have hflt : f.toNat < s.pages_.length := by rw [h.pages_len]; omega
      generalize hs1 : (s.setPage f { s.pageAt f with data_ := data } : BPM) = s1
      have hpages : s1.pages_ = s.pages_.set f.toNat
          ⟨data, (s.pageAt f).page_id_, (s.pageAt f).pin_count_, (s.pageAt f).is_dirty_⟩ := by
        rw [← hs1]; rfl
      have hpa := pageAt_of_set s s1 f _ hpages hf0 hflt
      apply content_of_obs hc (by rw [← hs1]; exact le_refl _) (by rw [← hs1]; rfl)
      · intro g hgl
        have hgf : g ≠ f := by
          intro e
          apply hne
          rw [← hfid, ← (h.mapped p g hgl).2.2, e]
        rw [hpa g (h.mapped p g hgl).1, if_neg hgf]
        exact ⟨rfl, fun hd => Or.inl hd⟩
      · intro hB
        have : s1.disk_ = s.disk_ := by rw [← hs1]; rfl
        rw [this]; exact hB
    · exact hc

end BufferPoolManager

namespace BufferPoolManager

open LRUKReplacer (castSizeT)

theorem DeletePgImp_content {s : BPM} (h : BPInv s) (q : Int)
    {p : Int} {B : List Nat} (hc : Content s p B) : Content (DeletePgImp s q).1 p B := by
  unfold DeletePgImp
  cases hl : ExtendibleHashTable.Find pageHash s.page_table_ q with
  | none => exact hc
  | some f =>
    simp only []
    by_cases hpin : (s.pageAt f).pin_count_ > 0
    · rw [if_pos hpin]; exact hc
    · rw [if_neg hpin]
      have hl' : s.lookup q = some f := hl
      obtain ⟨hf0, hf1, hfid⟩ := h.mapped q f hl'
      have hflt : f.toNat < s.pages_.length := by rw [h.pages_len]; omega
      obtain ⟨_, hfind1⟩ := ExtendibleHashTable.Remove_spec h.table_wf q
      generalize hs1 : ({ (BPM.setPage
          { s with disk_ := (if (s.pageAt f).is_dirty_ then
                      WritePage s.disk_ q (s.pageAt f).data_ else s.disk_),
                   page_table_ := (ExtendibleHashTable.Remove pageHash s.page_table_ q).1,
                   replacer_ := LRUKReplacer.Remove s.replacer_ f }
          f ⟨zeroData, INVALID_PAGE_ID, 0, false⟩) with
          free_list_ := (BPM.setPage
            { s with disk_ := (if (s.pageAt f).is_dirty_ then
                        WritePage s.disk_ q (s.pageAt f).data_ else s.disk_),
                     page_table_ := (ExtendibleHashTable.Remove pageHash s.page_table_ q).1,
                     replacer_ := LRUKReplacer.Remove s.replacer_ f }
            f ⟨zeroData, INVALID_PAGE_ID, 0, false⟩).free_list_ ++ [f] } : BPM) = s1
      have hpages : s1.pages_ = s.pages_.set f.toNat ⟨zeroData, INVALID_PAGE_ID, 0, false⟩ := by
        rw [← hs1]; rfl
      have htab : s1.page_table_ = (ExtendibleHashTable.Remove pageHash s.page_table_ q).1 := by
        rw [← hs1]; rfl
      have hdisk : s1.disk_ = if (s.pageAt f).is_dirty_ then
          WritePage s.disk_ q (s.pageAt f).data_ else s.disk_ := by rw [← hs1]; rfl
      have hnext : s1.next_page_id_ = s.next_page_id_ := by rw [← hs1]; rfl
      have hpa := pageAt_of_set s s1 f _ hpages hf0 hflt
      have hlook : ∀ x, s1.lookup x = if x = q then none else s.lookup x := by
        intro x; unfold BPM.lookup; rw [htab]; exact hfind1 x
      by_cases e : p = q
      · obtain ⟨h1, h2⟩ := hc
        rw [e, hl'] at h2
        refine ⟨by rw [hnext]; exact h1, ?_⟩
        rw [hlook, if_pos e, hdisk]
        simp only []
        by_cases hd : (s.pageAt f).is_dirty_ = true
        · rw [if_pos hd, ReadPage_WritePage, if_pos e]; exact h2.1
        · rw [if_neg hd]
          rcases h2.2 with e1 | e1
          · exact absurd e1 hd
          · rw [e]; exact e1
      · apply content_of_obs hc (le_of_eq hnext.symm) (by rw [hlook, if_neg e])
        · intro g hgl
          have hgf : g ≠ f := by
            intro e1
            apply e
            rw [← (h.mapped p g hgl).2.2, ← hfid, e1]
          rw [hpa g (h.mapped p g hgl).1, if_neg hgf]
          exact ⟨rfl, fun hd => Or.inl hd⟩
        · intro hB
          rw [hdisk]
          split
          · rw [ReadPage_WritePage, if_neg e]; exact hB
          · exact hB

/-- One call that is not a write of the caller into `p` keeps the logical
content of `p`. -/
theorem step_content {s s1 : BPM} (h : BPInv s) (fuel : Nat) (op : Op)
    {p : Int} {B : List Nat} (hc : Content s p B) (hnw : noWriteTo p [op] = true)
    (hrun : step fuel s op = some s1) : Content s1 p B := by
  cases op with
  | newPage now =>
    simp only [step, Option.map_eq_some'] at hrun
    obtain ⟨⟨s2, pid, res⟩, hr, he⟩ := hrun
    simp only [] at he
    subst he
    exact NewPgImp_content h fuel now pid res hr hc
  | fetchPage q now =>
    simp only [step, Option.map_eq_some'] at hrun
    obtain ⟨⟨s2, res⟩, hr, he⟩ := hrun
    simp only [] at he
    subst he
    exact (FetchPgImp_content h fuel q now res hr hc).1
  | unpinPage q d =>
    simp only [step, Option.some.injEq] at hrun
    rw [← hrun]; exact UnpinPgImp_content h q d hc
  | flushPage q =>
    simp only [step, Option.some.injEq] at hrun
    rw [← hrun]; exact FlushPgImp_content h q hc
  | flushAll =>
    simp only [step, Option.some.injEq] at hrun
    rw [← hrun]; exact FlushAllPgsImp_content h hc
  | deletePage q =>
    simp only [step, Option.some.injEq] at hrun
    rw [← hrun]; exact DeletePgImp_content h q hc
  | write q data =>
    simp only [step, Option.some.injEq] at hrun
    rw [← hrun]
    apply WriteData_content h q data hc
    simpa [noWriteTo] using hnw

theorem run_content (fuel : Nat) (ops : List Op) {s s1 : BPM} (h : BPInv s)
    {p : Int} {B : List Nat} (hc : Content s p B) (hnw : noWriteTo p ops = true)
    (hex : fetchesExisting fuel s ops = true) (hrun : run fuel s ops = some s1) :
    BPInv s1 ∧ Content s1 p B := by
  induction ops generalizing s with
  | nil =>
    simp only [run, Option.some.injEq] at hrun
    rw [← hrun]; exact ⟨h, hc⟩
  | cons op rest ih =>
    simp only [run] at hrun
    simp only [fetchesExisting, Bool.and_eq_true] at hex
    simp only [noWriteTo, List.all_cons, Bool.and_eq_true] at hnw
    cases hs : step fuel s op with
    | none => rw [hs] at hrun; cases hrun
    | some s2 =>
      rw [hs] at hrun hex
      exact ih (step_inv h fuel op hex.1 hs)
        (step_content h fuel op hc (by simpa [noWriteTo] using hnw.1) hs)
        (by simpa [noWriteTo] using hnw.2) hex.2 hrun

/-- After the caller's write of `B` into the pinned page `p` and an unpin with
the dirty flag, the logical content of `p` is `B`. -/
theorem content_after_dirty_unpin {s : BPM} (h : BPInv s) (p f : Int) (B : List Nat)
    (hres : s.lookup p = some f) (hpin : (s.pageAt f).pin_count_ > 0) :
    Content (UnpinPgImp (WriteData s p B) p true).1 p B := by
  obtain ⟨hf0, hf1, hfid⟩ := h.mapped p f hres
  have hflt : f.toNat < s.pages_.length := by rw [h.pages_len]; omega
  have hw : WriteData s p B = s.setPage f { s.pageAt f with data_ := B } := by
    unfold WriteData
    have : ExtendibleHashTable.Find pageHash s.page_table_ p = some f := hres
    rw [this]
    simp only []
    rw [if_pos hpin]
  have hwl : (WriteData s p B).lookup p = some f := by rw [hw]; exact hres
  have hwp : (WriteData s p B).pageAt f = ⟨B, (s.pageAt f).page_id_, (s.pageAt f).pin_count_,
      (s.pageAt f).is_dirty_⟩ := by
    rw [hw, pageAt_setPage s f f _ hf0 hf0 hflt, if_pos rfl]
  have hwlen : f.toNat < (WriteData s p B).pages_.length := by
    rw [hw]; simpa [BPM.setPage] using hflt
  have hwnext : (WriteData s p B).next_page_id_ = s.next_page_id_ := by rw [hw]; rfl
  generalize hs0 : WriteData s p B = s0 at hwl hwp hwlen hwnext
  have hne : ¬ (s0.pageAt f).pin_count_ = 0 := by rw [hwp]; show ¬ (s.pageAt f).pin_count_ = 0; omega
  unfold UnpinPgImp
  have : ExtendibleHashTable.Find pageHash s0.page_table_ p = some f := hwl
  rw [this]
  simp only []
  rw [if_neg hne]
  have key : ∀ s1 : BPM, s1.pages_ = s0.pages_.set f.toNat
        ⟨(s0.pageAt f).data_, (s0.pageAt f).page_id_, (s0.pageAt f).pin_count_ - 1, true⟩ →
      s1.page_table_ = s0.page_table_ → s1.next_page_id_ = s0.next_page_id_ →
      Content s1 p B := by
    intro s1 hpages htab hnext
    refine ⟨by rw [hnext, hwnext]; exact h.fresh p f hres, ?_⟩
    have hl1 : s1.lookup p = some f := by unfold BPM.lookup; rw [htab]; exact hwl
    rw [hl1]
    simp only []
    rw [pageAt_of_set s0 s1 f _ hpages hf0 hwlen f hf0, if_pos rfl]
    exact ⟨by show (s0.pageAt f).data_ = B; rw [hwp], Or.inl rfl⟩
  split
  · exact key _ rfl rfl rfl
  · exact key _ rfl rfl rfl

/-- C2, amended. In a pool reached by calls in which `FetchPage` is given only
ids that `NewPage` has handed out before the call, with a disk manager that
reads back what was last written: bytes `B` are written into the pinned
resident page `p`, `p` is unpinned with `dirty = true`, then any calls follow
that do not write into `p` again (further unpins down to pin count 0, the
`NewPage`/`FetchPage` of other ids that evict the frame of `p`, flushes,
deletes); if a later `FetchPage(p)` returns a frame, that frame holds exactly
`B`. -/
theorem dirty_page_survives_eviction (pool_size k fuel : Nat) (ops0 : List Op) (s : BPM)
    (hsmall : pool_size < 2 ^ 64)
    (hex0 : fetchesExisting fuel (BPM.new pool_size k) ops0 = true)
    (hrun0 : run fuel (BPM.new pool_size k) ops0 = some s)
    (p f : Int) (B : List Nat)
    (hres : s.lookup p = some f) (hpin : (s.pageAt f).pin_count_ > 0)
    (ops : List Op) (s1 : BPM) (hnw : noWriteTo p ops = true)
    (hex : fetchesExisting fuel (UnpinPgImp (WriteData s p B) p true).1 ops = true)
    (hrun : run fuel (UnpinPgImp (WriteData s p B) p true).1 ops = some s1)
    (now : Int) (s2 : BPM) (f2 : Int)
    (hfetch : FetchPgImp fuel s1 p now = some (s2, some f2)) :
    (s2.pageAt f2).data_ = B := by
  have h := run_inv fuel ops0 (BPInv_new pool_size k hsmall) hex0 hrun0
  have hc := content_after_dirty_unpin h p f B hres hpin
  have h1 := UnpinPgImp_inv (WriteData_inv h p B) p true
  obtain ⟨h2, hc2⟩ := run_content fuel ops h1 hc hnw hex hrun
  exact (FetchPgImp_content h2 fuel p now (some f2) hfetch hc2).2 rfl f2 rfl

set_option maxRecDepth 100000 in
theorem pinnedState_run : run 40 (BPM.new 1 2) pinnedOps = some pinnedState :=
  getD_of_isSome _ _ (by decide)

set_option maxRecDepth 100000 in
theorem evictedState_run :
    run 40 (UnpinPgImp (WriteData pinnedState 0 [7, 7]) 0 true).1 afterOps = some evictedState :=
  getD_of_isSome _ _ (by decide)

theorem fetch_result_of_parts (o : Option (BPM × Option Int)) (d : BPM) (r : Option Int)
    (h : o.map (fun x => x.2) = some r) : o = some ((o.map (fun x => x.1)).getD d, r) := by
  cases o with
  | none => cases h
  | some x =>
    simp only [Option.map_some', Option.some.injEq] at h
    simp [← h]

set_option maxRecDepth 100000 in
theorem refetchedState_run : FetchPgImp 40 evictedState 0 3 = some (refetchedState, some 0) :=
  fetch_result_of_parts _ _ _ (by decide)

set_option maxRecDepth 100000 in
/-- Witness for C2 (amended): one frame; page 0 is pinned, `[7, 7]` is written into it, it
is unpinned dirty; `NewPage` evicts it for page 1 (the frame then holds page 1
and the disk holds `[7, 7]` for page 0); page 1 is unpinned; `FetchPage(0)`
returns frame 0 with `[7, 7]`. -/
theorem dirty_page_survives_eviction_witness :
    pinnedState.lookup 0 = some 0 ∧ (pinnedState.pageAt 0).pin_count_ > 0 ∧
    evictedState.lookup 0 = none ∧ (evictedState.pageAt 0).page_id_ = 1 ∧
    ReadPage evictedState.disk_ 0 = [7, 7] ∧
    FetchPgImp 40 evictedState 0 3 = some (refetchedState, some 0) ∧
    (refetchedState.pageAt 0).data_ = [7, 7] :=
  ⟨by decide, by decide, by decide, by decide, by decide, refetchedState_run,
   dirty_page_survives_eviction 1 2 40 pinnedOps pinnedState (by decide) (by decide)
     pinnedState_run 0 0 [7, 7] (by decide) (by decide) afterOps evictedState (by decide)
     (by decide) evictedState_run 3 refetchedState 0 refetchedState_run⟩

end BufferPoolManager

namespace ExtendibleHashTable

theorem mod_two_pow_succ_iff (i j n : Nat) :
    i % 2 ^ (n + 1) = j % 2 ^ (n + 1) ↔
      i % 2 ^ n = j % 2 ^ n ∧ i / 2 ^ n % 2 = j / 2 ^ n % 2 := by
  rw [Nat.mod_pow_succ, Nat.mod_pow_succ]
  have hi : i % 2 ^ n < 2 ^ n := Nat.mod_lt _ (Nat.pos_pow_of_pos _ (by decide))
  have hj : j % 2 ^ n < 2 ^ n := Nat.mod_lt _ (Nat.pos_pow_of_pos _ (by decide))
  rcases Nat.mod_two_eq_zero_or_one (i / 2 ^ n) with a | a <;>
  rcases Nat.mod_two_eq_zero_or_one (j / 2 ^ n) with b | b <;>
  rw [a, b] <;> constructor <;> intro h <;> omega

theorem and_high_bit_ne_zero (i n : Nat) :
    (i &&& (1 <<< n)) ≠ 0 ↔ i / 2 ^ n % 2 = 1 := by
  rw [Nat.one_shiftLeft]
  have e : i.testBit n = decide (i / 2 ^ n % 2 = 1) := Nat.testBit_to_div_mod
  constructor
  · intro h
    by_contra hc
    apply h
    apply Nat.eq_of_testBit_eq
    intro k
    rw [Nat.testBit_and, Nat.testBit_two_pow, Nat.zero_testBit]
    by_cases hk : n = k
    · subst hk
      rw [e]; simp [hc]
    · simp [hk]
  · intro h hz
    have : (i &&& 2 ^ n).testBit n = false := by rw [hz]; exact Nat.zero_testBit n
    rw [Nat.testBit_and, Nat.testBit_two_pow, e] at this
    simp [h] at this

theorem mod_mod_two_pow (i d g : Nat) (h : d ≤ g) : i % 2 ^ g % 2 ^ d = i % 2 ^ d :=
  Nat.mod_mod_of_dvd _ (pow_dvd_pow 2 h)

end ExtendibleHashTable
namespace ExtendibleHashTable

theorem ShapeF_double {gd : Nat} {dir depth : Nat → Nat} (h : ShapeF gd dir depth) :
    ShapeF (gd + 1) (fun i => dir (i % 2 ^ gd)) depth := by
  have hpos : 0 < 2 ^ gd := Nat.pos_pow_of_pos _ (by decide)
  refine ⟨fun i _ => ?_, fun i j _ _ => ?_⟩
  · exact Nat.le_succ_of_le (h.1 _ (Nat.mod_lt _ hpos))
  · show dir (i % 2 ^ gd) = dir (j % 2 ^ gd) ↔ _
    rw [h.2 _ _ (Nat.mod_lt _ hpos) (Nat.mod_lt _ hpos),
      mod_mod_two_pow _ _ _ (h.1 _ (Nat.mod_lt _ hpos)),
      mod_mod_two_pow _ _ _ (h.1 _ (Nat.mod_lt _ hpos))]

theorem ShapeF_redirect {gd : Nat} {dir depth dir2 depth2 : Nat → Nat}
    (h : ShapeF gd dir depth)
    (old new ld : Nat) (hld : ld = depth old) (hlt : ld < gd)
    (hfresh : ∀ i, i < 2 ^ gd → dir i ≠ new)
    (hdir2 : ∀ i, i < 2 ^ gd →
      dir2 i = if dir i = old ∧ i / 2 ^ ld % 2 = 1 then new else dir i)
    (hold : depth2 old = ld + 1) (hnew : depth2 new = ld + 1)
    (hother : ∀ p, p ≠ old → p ≠ new → depth2 p = depth p) :
    ShapeF gd dir2 depth2 := by
  have T : ∀ i, i < 2 ^ gd →
      (dir i = old ∧ i / 2 ^ ld % 2 = 1 ∧ dir2 i = new ∧ depth2 (dir2 i) = ld + 1) ∨
      (dir i = old ∧ i / 2 ^ ld % 2 ≠ 1 ∧ dir2 i = old ∧ depth2 (dir2 i) = ld + 1) ∨
      (dir i ≠ old ∧ dir2 i = dir i ∧ depth2 (dir2 i) = depth (dir i)) := by
    intro i hi
    have e := hdir2 i hi
    by_cases hio : dir i = old
    · by_cases hb : i / 2 ^ ld % 2 = 1
      · rw [if_pos ⟨hio, hb⟩] at e
        exact Or.inl ⟨hio, hb, e, by rw [e, hnew]⟩
      · rw [if_neg (fun hh => hb hh.2)] at e
        exact Or.inr (Or.inl ⟨hio, hb, e.trans hio, by rw [e, hio, hold]⟩)
    · rw [if_neg (fun hh => hio hh.1)] at e
      exact Or.inr (Or.inr ⟨hio, e, by rw [e, hother _ hio (hfresh i hi)]⟩)
  refine ⟨fun i hi => ?_, fun i j hi hj => ?_⟩
  · rcases T i hi with ⟨_, _, _, e⟩ | ⟨_, _, _, e⟩ | ⟨_, _, e⟩
    · omega
    · omega
    · rw [e]; exact h.1 i hi
  · have hsh := h.2 i j hi hj
    have hsh1 := h.2 j i hj hi
    have hfi := hfresh i hi
    have hfj := hfresh j hj
    rcases T i hi with ⟨a1, a2, a3, a4⟩ | ⟨a1, a2, a3, a4⟩ | ⟨a1, a3, a4⟩ <;>
    rcases T j hj with ⟨b1, b2, b3, _⟩ | ⟨b1, b2, b3, _⟩ | ⟨b1, b3, _⟩ <;>
    rw [a4, a3, b3]
    · rw [mod_two_pow_succ_iff, a2, b2]
      rw [a1, ← hld] at hsh
      exact ⟨fun _ => ⟨hsh.1 b1.symm, rfl⟩, fun _ => rfl⟩
    · rw [mod_two_pow_succ_iff]
      constructor
      · intro e; exact absurd (a1.symm.trans (e.symm ▸ a1)) (by intro; exact hfi (a1.trans e.symm))
      · rintro ⟨_, e⟩; omega
    · rw [mod_two_pow_succ_iff]
      rw [a1, ← hld] at hsh
      constructor
      · intro e; exact absurd e.symm hfj
      · rintro ⟨e, _⟩; exact absurd (hsh.2 e).symm b1
    · rw [mod_two_pow_succ_iff]
      constructor
      · intro e; exact absurd (b1.trans e) hfj
      · rintro ⟨_, e⟩; omega
    · rw [mod_two_pow_succ_iff]
      rw [a1, ← hld] at hsh
      have hb : i / 2 ^ ld % 2 = j / 2 ^ ld % 2 := by omega
      exact ⟨fun _ => ⟨hsh.1 b1.symm, hb⟩, fun _ => rfl⟩
    · rw [mod_two_pow_succ_iff]
      rw [a1, ← hld] at hsh
      constructor
      · intro e; exact absurd e.symm b1
      · rintro ⟨e, _⟩; exact absurd (hsh.2 e).symm b1
    · constructor
      · intro e; exact absurd e hfi
      · intro e; exact absurd ((hsh.2 e).trans b1) a1
    · constructor
      · intro e; exact absurd e a1
      · intro e; exact absurd ((hsh.2 e).trans b1) a1
    · exact hsh

end ExtendibleHashTable
namespace ExtendibleHashTable

variable {K V : Type} [DecidableEq K]

theorem ShapeF_congr {gd : Nat} {dir dir1 depth depth1 : Nat → Nat}
    (hdir : ∀ i, i < 2 ^ gd → dir1 i = dir i) (hdepth : ∀ p, depth1 p = depth p)
    (h : ShapeF gd dir depth) : ShapeF gd dir1 depth1 := by
  refine ⟨fun i hi => ?_, fun i j hi hj => ?_⟩
  · rw [hdir i hi, hdepth]; exact h.1 i hi
  · rw [hdir i hi, hdir j hj, hdepth]; exact h.2 i j hi hj

theorem Bucket.Insert_depth (b : Bucket K V) (key : K) (value : V) :
    (b.Insert key value).1.depth_ = b.depth_ := by
  unfold Bucket.Insert
  split
  · rfl
  · split <;> rfl

theorem Bucket.Remove_depth (b : Bucket K V) (key : K) :
    (b.Remove key).1.depth_ = b.depth_ := by
  unfold Bucket.Remove
  split <;> rfl

theorem insertAll_depth (b : Bucket K V) (l : List (K × V)) :
    (insertAll b l).depth_ = b.depth_ := by
  induction l generalizing b with
  | nil => rfl
  | cons it rest ih => rw [insertAll, ih, Bucket.Insert_depth]

theorem getD_set_append {α : Type} (l : List α) (o p : Nat) (a b d : α) :
    ((l.set o a) ++ [b]).getD p d
      = if p = l.length then b else if o = p ∧ o < l.length then a else l.getD p d := by
  by_cases hp : p = l.length
  · rw [if_pos hp, List.getD_eq_getElem?_getD, List.getElem?_append_right (by simp [hp])]
    simp [hp]
  · rw [if_neg hp]
    by_cases hlt : p < l.length
    · rw [List.getD_eq_getElem?_getD, List.getElem?_append_left (by simpa using hlt),
        ← List.getD_eq_getElem?_getD, getD_set_eq]
    · have h1 : l.length < p := by omega
      rw [List.getD_eq_getElem?_getD, List.getElem?_eq_none (by simp; omega)]
      rw [if_neg (fun hh => by omega), List.getD_eq_getElem?_getD,
        List.getElem?_eq_none (by omega)]

/-- Shape after the redirect and redistribution steps of `SplitBucket`. -/
theorem split_shape_core {t t1 : Table K V} (old ld : Nat)
    (hsh : ShapeF t1.global_depth_ t1.dirAt (fun p => (t.bucketAt p).depth_))
    (F1 : t1.directory_.length = 2 ^ t1.global_depth_)
    (F4 : t1.buckets_ = t.buckets_)
    (hld : ld = (t.bucketAt old).depth_) (hlt : ld < t1.global_depth_)
    (holdlt : old < t.buckets_.length)
    (hdirlt : ∀ i, i < 2 ^ t1.global_depth_ → t1.dirAt i < t.buckets_.length)
    (kept moved : List (K × V)) :
    let t2 : Table K V :=
      { t1 with directory_ := redirectFrom old t1.buckets_.length (1 <<< ld) 0 t1.directory_ }
    let t3 : Table K V :=
      { t2 with
        buckets_ := (t2.buckets_.set old ⟨ld + 1, kept⟩)
          ++ [insertAll (Bucket.new (ld + 1)) moved] }
    Shape t3 := by
  intro t2 t3
  have hB : ∀ p, t3.bucketAt p
      = if p = t.buckets_.length then insertAll (Bucket.new (ld + 1)) moved
        else if old = p ∧ old < t.buckets_.length then ⟨ld + 1, kept⟩ else t.bucketAt p := by
    intro p
    show List.getD ((t1.buckets_.set old _) ++ [insertAll _ _]) p _ = _
    rw [getD_set_append, F4]
    rfl
  apply ShapeF_redirect hsh old t.buckets_.length ld hld hlt
    (fun i hi => Nat.ne_of_lt (hdirlt i hi))
  · intro i hi
    have e := redirectFrom_getD old t1.buckets_.length (1 <<< ld) 0 t1.directory_ i 0
      (by rw [F1]; exact hi)
    rw [Nat.zero_add, F4] at e
    show List.getD (redirectFrom old t1.buckets_.length (1 <<< ld) 0 t1.directory_) i 0 = _
    rw [F4, e]
    by_cases hb : i / 2 ^ ld % 2 = 1
    · have := (and_high_bit_ne_zero i ld).2 hb
      by_cases ho : t1.directory_.getD i 0 = old
      · rw [if_pos ⟨ho, this⟩]
        exact (if_pos (⟨ho, hb⟩ : t1.dirAt i = old ∧ i / 2 ^ ld % 2 = 1)).symm
      · rw [if_neg (fun hh => ho hh.1)]
        exact (if_neg (fun hh : t1.dirAt i = old ∧ i / 2 ^ ld % 2 = 1 => ho hh.1)).symm
    · have : ¬ (i &&& 1 <<< ld) ≠ 0 := fun hh => hb ((and_high_bit_ne_zero i ld).1 hh)
      rw [if_neg (fun hh => this hh.2), if_neg (fun hh => hb hh.2)]
      rfl
  · show (t3.bucketAt old).depth_ = ld + 1
    rw [hB, if_neg (Nat.ne_of_lt holdlt), if_pos ⟨rfl, holdlt⟩]
  · show (t3.bucketAt t.buckets_.length).depth_ = ld + 1
    rw [hB, if_pos rfl, insertAll_depth]
    rfl
  · intro p hp1 hp2
    show (t3.bucketAt p).depth_ = _
    rw [hB, if_neg hp2, if_neg (fun hh => hp1 hh.1.symm)]

end ExtendibleHashTable

namespace ExtendibleHashTable

variable {K V : Type}

theorem Shape_new (bucket_size : Nat) : Shape (Table.new bucket_size : Table K V) := by
  refine ⟨fun i hi => ?_, fun i j hi hj => ?_⟩
  · have : i = 0 := by simpa [Table.new] using hi
    subst this
    exact Nat.le_refl 0
  · have e1 : i = 0 := by simpa [Table.new] using hi
    have e2 : j = 0 := by simpa [Table.new] using hj
    subst e1; subst e2
    exact ⟨fun _ => rfl, fun _ => rfl⟩

theorem WF.dirAt_lt {hash : K → Nat} {t : Table K V} (h : WF hash t) (i : Nat)
    (hi : i < 2 ^ t.global_depth_) : t.dirAt i < t.buckets_.length :=
  h.dir_lt _ (getD_mem _ _ _ (by rw [h.dir_len]; exact hi))

/-- Replacing a bucket by one of the same depth keeps the directory shape. -/
theorem Shape_set {t : Table K V} (hs : Shape t) (b : Nat) (B : Bucket K V)
    (hB : B.depth_ = (t.bucketAt b).depth_) :
    Shape ({ t with buckets_ := t.buckets_.set b B } : Table K V) := by
  apply ShapeF_congr (fun _ _ => rfl) _ hs
  intro p
  show (Table.bucketAt _ p).depth_ = _
  rw [bucketAt_set]
  split
  · next hh => rw [hB, hh.1]
  · rfl

end ExtendibleHashTable

namespace ExtendibleHashTable

variable {K V : Type} [DecidableEq K]

/-- `SplitBucket` keeps the directory shape. -/
theorem SplitBucket_shape {hash : K → Nat} {t : Table K V} (h : WF hash t) (hs : Shape t)
    (idx : Nat) (hidx : idx < t.directory_.length) :
    Shape (SplitBucket hash t idx) := by
  have hidx1 : idx < 2 ^ t.global_depth_ := by rw [← h.dir_len]; exact hidx
  have hpos : 0 < 2 ^ t.global_depth_ := Nat.pos_pow_of_pos _ (by decide)
  have hle : (t.bucketAt (t.dirAt idx)).depth_ ≤ t.global_depth_ := hs.1 idx hidx1
  by_cases hd : (t.bucketAt (t.dirAt idx)).depth_ = t.global_depth_
  · have hD : ∀ i, i < 2 ^ (t.global_depth_ + 1) →
        (t.directory_ ++ t.directory_).getD i 0 = t.dirAt (i % 2 ^ t.global_depth_) := by
      intro i hi
      rw [getD_append_self _ _ (by rw [h.dir_len, ← pow_succ']; exact hi), h.dir_len]
      rfl
    have key := @split_shape_core K V _ t
      { t with directory_ := t.directory_ ++ t.directory_, global_depth_ := t.global_depth_ + 1 }
      (t.dirAt idx) (t.bucketAt (t.dirAt idx)).depth_
      (ShapeF_congr hD (fun _ => rfl) (ShapeF_double hs))
      (by simp [h.dir_len, pow_succ]; ring)
      rfl rfl (by show _ < t.global_depth_ + 1; omega) (h.dirAt_lt idx hidx1)
      (by
        intro i hi
        show (t.directory_ ++ t.directory_).getD i 0 < _
        rw [hD i hi]
        exact h.dirAt_lt _ (Nat.mod_lt _ hpos))
    unfold SplitBucket
    simp only [hd, if_true] at key ⊢
    exact key _ _
  · have key := @split_shape_core K V _ t t
      (t.dirAt idx) (t.bucketAt (t.dirAt idx)).depth_
      hs h.dir_len rfl rfl (by omega) (h.dirAt_lt idx hidx1) (fun i hi => h.dirAt_lt i hi)
    unfold SplitBucket
    simp only [hd, if_false] at key ⊢
    exact key _ _

theorem Remove_shape {hash : K → Nat} {t : Table K V} (hs : Shape t) (key : K) :
    Shape (Remove hash t key).1 :=
  Shape_set hs _ _ (Bucket.Remove_depth _ _)

theorem Insert_shape {hash : K → Nat} (fuel : Nat) {t t1 : Table K V} (h : WF hash t)
    (hs : Shape t) (key : K) (value : V) (hrun : Insert hash fuel t key value = some t1) :
    Shape t1 := by
  induction fuel generalizing t with
  | zero => simp [Insert] at hrun
  | succ n ih =>
    simp only [Insert] at hrun
    by_cases hok : ((t.bucketAt (t.dirAt (IndexOf hash t key))).Insert key value).2 = true
    · rw [if_pos hok] at hrun
      injection hrun with hrun
      subst hrun
      exact Shape_set hs _ _ (Bucket.Insert_depth _ _ _)
    · rw [if_neg hok] at hrun
      exact ih (SplitBucket_spec h _ (h.index_lt key)).1
        (SplitBucket_shape h hs _ (h.index_lt key)) hrun

theorem run_shape {hash : K → Nat} (fuel : Nat) (ops : List (Op K V)) {t t1 : Table K V}
    (h : WF hash t) (hs : Shape t) (hrun : run hash fuel t ops = some t1) : Shape t1 := by
  induction ops generalizing t with
  | nil =>
    simp only [run, Option.some.injEq] at hrun
    subst hrun
    exact hs
  | cons op rest ih =>
    cases op with
    | insert k v =>
      simp only [run] at hrun
      cases hi : Insert hash fuel t k v with
      | none => simp [hi] at hrun
      | some t2 =>
        simp only [hi] at hrun
        exact ih (Insert_spec fuel h k v hi).1 (Insert_shape fuel h hs k v hi) hrun
    | remove k =>
      simp only [run] at hrun
      exact ih (Remove_spec h k).1 (Remove_shape hs k) hrun

end ExtendibleHashTable

namespace ExtendibleHashTable

variable {K V : Type} [DecidableEq K]

/-- C18. Directory invariant of every table reached from a fresh one by
completed `Insert` and `Remove` calls: if the directory indices `i` and `j`
agree on the low `GetLocalDepth(i)` bits then `directory_[i]` and
`directory_[j]` are the same bucket, and every key stored in the bucket of slot
`i` has a hash whose low `GetLocalDepth(i)` bits equal those of `i`. -/
theorem directory_low_bits_invariant (hash : K → Nat) (fuel bucket_size : Nat)
    (ops : List (Op K V)) (t : Table K V)
    (hrun : run hash fuel (Table.new bucket_size) ops = some t)
    (i j : Nat) (hi : i < t.directory_.length) (hj : j < t.directory_.length) :
    (i % 2 ^ GetLocalDepth t i = j % 2 ^ GetLocalDepth t i → t.dirAt i = t.dirAt j) ∧
    ∀ it ∈ (t.bucketAt (t.dirAt i)).items_,
      hash it.1 % 2 ^ GetLocalDepth t i = i % 2 ^ GetLocalDepth t i := by
  have hwf := (run_spec fuel ops (WF_new hash bucket_size) hrun).1
  have hs := run_shape fuel ops (WF_new hash bucket_size) (Shape_new bucket_size) hrun
  have hi1 : i < 2 ^ t.global_depth_ := by rw [← hwf.dir_len]; exact hi
  have hj1 : j < 2 ^ t.global_depth_ := by rw [← hwf.dir_len]; exact hj
  refine ⟨fun e => (hs.2 i j hi1 hj1).2 e, fun it hit => ?_⟩
  have hhome := hwf.home _ (getD_mem _ _ _ hi) it hit
  have hk : IndexOf hash t it.1 < 2 ^ t.global_depth_ := by
    rw [IndexOf_eq]; exact Nat.mod_lt _ (Nat.pos_pow_of_pos _ (by decide))
  have e := (hs.2 i _ hi1 hk).1 hhome.symm
  rw [IndexOf_eq] at e
  have hle : (t.bucketAt (t.dirAt i)).depth_ ≤ t.global_depth_ := hs.1 i hi1
  have e2 : hash it.1 % 2 ^ t.global_depth_ % 2 ^ (t.bucketAt (t.dirAt i)).depth_
      = hash it.1 % 2 ^ (t.bucketAt (t.dirAt i)).depth_ := mod_mod_two_pow _ _ _ hle
  show hash it.1 % 2 ^ (t.bucketAt (t.dirAt i)).depth_ = i % 2 ^ (t.bucketAt (t.dirAt i)).depth_
  rw [← e2]
  exact e.symm

/-- C19. Depth bounds of every table reached from a fresh one by completed
`Insert` and `Remove` calls: `GetLocalDepth(i) ≤ GetGlobalDepth()` for every
directory index, the directory has `2 ^ GetGlobalDepth()` slots, and
`GetNumBuckets() ≤ 2 ^ GetGlobalDepth()`. -/
theorem depth_bounds (hash : K → Nat) (fuel bucket_size : Nat)
    (ops : List (Op K V)) (t : Table K V)
    (hrun : run hash fuel (Table.new bucket_size) ops = some t) :
    (∀ i, i < t.directory_.length → GetLocalDepth t i ≤ GetGlobalDepth t) ∧
    t.directory_.length = 2 ^ GetGlobalDepth t ∧
    GetNumBuckets t ≤ 2 ^ GetGlobalDepth t := by
  have hwf := (run_spec fuel ops (WF_new hash bucket_size) hrun).1
  have hs := run_shape fuel ops (WF_new hash bucket_size) (Shape_new bucket_size) hrun
  refine ⟨fun i hi => hs.1 i (by rw [← hwf.dir_len]; exact hi), hwf.dir_len, ?_⟩
  show t.directory_.dedup.length ≤ 2 ^ t.global_depth_
  rw [← hwf.dir_len]
  exact (List.dedup_sublist _).length_le

end ExtendibleHashTable

namespace ExtendibleHashTable

/-- Witness for C18 on the sample table: slot 0 has local depth 1 and slots 0
and 2 agree on the low bit. -/
theorem directory_low_bits_invariant_witness :
    run (fun k : Nat => k) 8 (Table.new 2) sampleOps = some sampleTable ∧
    0 < sampleTable.directory_.length ∧ 2 < sampleTable.directory_.length ∧
    ((0 % 2 ^ GetLocalDepth sampleTable 0 = 2 % 2 ^ GetLocalDepth sampleTable 0 →
        sampleTable.dirAt 0 = sampleTable.dirAt 2) ∧
      ∀ it ∈ (sampleTable.bucketAt (sampleTable.dirAt 0)).items_,
        (fun k : Nat => k) it.1 % 2 ^ GetLocalDepth sampleTable 0
          = 0 % 2 ^ GetLocalDepth sampleTable 0) :=
  ⟨by decide, by decide, by decide,
   directory_low_bits_invariant (fun k : Nat => k) 8 2 sampleOps sampleTable (by decide) 0 2
     (by decide) (by decide)⟩

/-- Witness for C19 on the sample table. -/
theorem depth_bounds_witness :
    run (fun k : Nat => k) 8 (Table.new 2) sampleOps = some sampleTable ∧
    ((∀ i, i < sampleTable.directory_.length →
        GetLocalDepth sampleTable i ≤ GetGlobalDepth sampleTable) ∧
      sampleTable.directory_.length = 2 ^ GetGlobalDepth sampleTable ∧
      GetNumBuckets sampleTable ≤ 2 ^ GetGlobalDepth sampleTable) :=
  ⟨by decide, depth_bounds (fun k : Nat => k) 8 2 sampleOps sampleTable (by decide)⟩

end ExtendibleHashTable

namespace ExtendibleHashTable

variable {K V : Type} [DecidableEq K]

theorem map_set_same {α β : Type} (f : α → β) (l : List α) (i : Nat) (a d : α)
    (h : f a = f (l.getD i d)) : (l.set i a).map f = l.map f := by
  induction l generalizing i with
  | nil => rfl
  | cons x rest ih =>
    cases i with
    | zero => simpa using h
    | succ j =>
      simp only [List.set_cons_succ, List.map_cons]
      rw [ih j (by simpa using h)]

/-- The table `Insert` leaves when `key` is present: the first pass of the
loop overwrites the value in the key's bucket. -/
theorem Insert_present {hash : K → Nat} {t : Table K V} (key : K) (old value : V)
    (hpresent : Find hash t key = some old) (fuel : Nat) :
    ∃ items1, Bucket.updateItem key value (t.bucketAt (t.dirAt (IndexOf hash t key))).items_
        = some items1 ∧
      t.dirAt (IndexOf hash t key) < t.buckets_.length ∧
      Insert hash (fuel + 1) t key value
        = some { t with buckets_ := (t.buckets_.set (t.dirAt (IndexOf hash t key))
            ⟨(t.bucketAt (t.dirAt (IndexOf hash t key))).depth_, items1⟩) } := by
  have hmem : key ∈ (t.bucketAt (t.dirAt (IndexOf hash t key))).items_.map Prod.fst := by
    by_contra hc
    have := (Bucket.findItem_eq_none_iff key _).2 hc
    simp only [Find, Bucket.Find] at hpresent
    rw [this] at hpresent
    cases hpresent
  cases hu : Bucket.updateItem key value (t.bucketAt (t.dirAt (IndexOf hash t key))).items_ with
  | none => exact absurd hmem ((Bucket.updateItem_eq_none_iff key value _).1 hu)
  | some items1 =>
    refine ⟨items1, rfl, ?_, ?_⟩
    · by_contra hc
      have : t.bucketAt (t.dirAt (IndexOf hash t key)) = Bucket.new 0 := by
        simp only [Table.bucketAt, List.getD_eq_getElem?_getD]
        rw [List.getElem?_eq_none (by omega)]
        rfl
      rw [this] at hmem
      simp [Bucket.new] at hmem
    · simp only [Insert, Bucket.Insert, hu, if_true]

/-- C14. `Insert(key, value)` when `key` is present returns (the run yields a
table on the first pass of the loop, whatever the fuel), replaces the value of
`key`, and splits nothing: directory, global depth, number of buckets, the
depth and the keys of every bucket are as before, and every other key keeps its
value. -/
theorem insert_existing_overwrites (hash : K → Nat) (t : Table K V) (key : K) (old value : V)
    (hpresent : Find hash t key = some old) (fuel : Nat) :
    ∃ t1, Insert hash (fuel + 1) t key value = some t1 ∧
      InsertReturn hash (fuel + 1) t key value = some true ∧
      Find hash t1 key = some value ∧
      (∀ key1, key1 ≠ key → Find hash t1 key1 = Find hash t key1) ∧
      t1.directory_ = t.directory_ ∧
      GetGlobalDepth t1 = GetGlobalDepth t ∧
      GetNumBuckets t1 = GetNumBuckets t ∧
      t1.buckets_.map (fun b => (b.depth_, b.items_.map Prod.fst))
        = t.buckets_.map (fun b => (b.depth_, b.items_.map Prod.fst)) := by
  obtain ⟨items1, hu, hlt, hrun⟩ := Insert_present key old value hpresent fuel
  have hfind : ∀ key1, Find hash
      ({ t with buckets_ := (t.buckets_.set (t.dirAt (IndexOf hash t key))
            ⟨(t.bucketAt (t.dirAt (IndexOf hash t key))).depth_, items1⟩) } : Table K V)
        key1 = if key1 = key then some value else Find hash t key1 := by
    intro key1
    show (Table.bucketAt _ (t.dirAt (IndexOf hash t key1))).Find key1 = _
    rw [bucketAt_set]
    by_cases hc : t.dirAt (IndexOf hash t key) = t.dirAt (IndexOf hash t key1)
    · rw [if_pos ⟨hc, hlt⟩]
      show Bucket.findItem key1 items1 = _
      rw [Bucket.findItem_updateItem key value _ _ hu key1, hc]
      rfl
    · rw [if_neg (fun hh => hc hh.1)]
      have : key1 ≠ key := ne_of_dirAt_ne hash t key key1 (fun e => hc e.symm)
      rw [if_neg this]
      rfl
  refine ⟨_, hrun, ?_, ?_, ?_, rfl, rfl, rfl, ?_⟩
  · simp only [InsertReturn, hrun, Option.map_some']
  · rw [hfind, if_pos rfl]
  · intro key1 hne
    rw [hfind, if_neg hne]
  · apply map_set_same _ _ _ _ (Bucket.new 0)
    show (_, items1.map Prod.fst) = (_, _)
    rw [Bucket.updateItem_keys key value _ _ hu]
    rfl

/-- The value `Find` reports for `key` in the table `Insert_present` describes
is the inserted one. -/
theorem Find_set_updateItem (hash : K → Nat) (t : Table K V) (key : K) (value : V)
    (items1 : List (K × V))
    (hu : Bucket.updateItem key value (t.bucketAt (t.dirAt (IndexOf hash t key))).items_
        = some items1)
    (hlt : t.dirAt (IndexOf hash t key) < t.buckets_.length) :
    Find hash
      ({ t with buckets_ := (t.buckets_.set (t.dirAt (IndexOf hash t key))
            ⟨(t.bucketAt (t.dirAt (IndexOf hash t key))).depth_, items1⟩) } : Table K V)
        key = some value := by
  show (Table.bucketAt _ (t.dirAt (IndexOf hash t key))).Find key = _
  rw [bucketAt_set, if_pos ⟨rfl, hlt⟩]
  show Bucket.findItem key items1 = _
  rw [Bucket.findItem_updateItem key value _ _ hu key, if_pos rfl]

/-- C15, amended. `Insert(key, value)` when `key` is present is not reported as
an error: the call returns true, and it overwrites the value, `Find(key)` on
the table it leaves reports `value`. -/
theorem insert_existing_returns_true (hash : K → Nat) (t : Table K V) (key : K)
    (old value : V) (hpresent : Find hash t key = some old) (fuel : Nat) :
    InsertReturn hash (fuel + 1) t key value = some true ∧
    ∃ t1, Insert hash (fuel + 1) t key value = some t1 ∧
      Find hash t1 key = some value := by
  obtain ⟨items1, hu, hlt, hrun⟩ := Insert_present key old value hpresent fuel
  refine ⟨?_, _, hrun, Find_set_updateItem hash t key value items1 hu hlt⟩
  simp only [InsertReturn, hrun, Option.map_some']

end ExtendibleHashTable

namespace ExtendibleHashTable

/-- Witness for C14: key 5 of the sample table is overwritten. -/
theorem insert_existing_overwrites_witness :
    Find (fun k : Nat => k) sampleTable 5 = some 55 ∧
    ∃ t1, Insert (fun k : Nat => k) (0 + 1) sampleTable 5 56 = some t1 ∧
      InsertReturn (fun k : Nat => k) (0 + 1) sampleTable 5 56 = some true ∧
      Find (fun k : Nat => k) t1 5 = some 56 ∧
      (∀ key1, key1 ≠ 5 → Find (fun k : Nat => k) t1 key1 = Find (fun k : Nat => k) sampleTable key1) ∧
      t1.directory_ = sampleTable.directory_ ∧
      GetGlobalDepth t1 = GetGlobalDepth sampleTable ∧
      GetNumBuckets t1 = GetNumBuckets sampleTable ∧
      t1.buckets_.map (fun b => (b.depth_, b.items_.map Prod.fst))
        = sampleTable.buckets_.map (fun b => (b.depth_, b.items_.map Prod.fst)) :=
  ⟨by decide, insert_existing_overwrites (fun k : Nat => k) sampleTable 5 55 56 (by decide) 0⟩

/-- Counterexample to C15 as stated: inserting the present key 5 again returns
true, not false, and the new value is stored. -/
theorem insert_duplicate_not_rejected :
    Insert (fun k : Nat => k) 1 (Table.new 2) 5 50 = some dupTable ∧
    InsertReturn (fun k : Nat => k) 1 dupTable 5 55 = some true ∧
    InsertReturn (fun k : Nat => k) 1 dupTable 5 55 ≠ some false ∧
    Insert (fun k : Nat => k) 1 dupTable 5 55 = some dupTableAfter := by
  decide

/-- Witness for the amended C15. -/
theorem insert_existing_returns_true_witness :
    Find (fun k : Nat => k) dupTable 5 = some 50 ∧
    InsertReturn (fun k : Nat => k) (0 + 1) dupTable 5 55 = some true ∧
    ∃ t1, Insert (fun k : Nat => k) (0 + 1) dupTable 5 55 = some t1 ∧
      Find (fun k : Nat => k) t1 5 = some 55 :=
  ⟨by decide, insert_existing_returns_true (fun k : Nat => k) dupTable 5 50 55 (by decide) 0⟩

end ExtendibleHashTable

namespace ExtendibleHashTable

variable {K V : Type} [DecidableEq K]

theorem Bucket.Remove_flag (b : Bucket K V) (key : K) :
    (b.Remove key).2 = true ↔ key ∈ b.items_.map Prod.fst := by
  unfold Bucket.Remove
  cases hr : Bucket.removeItem key b.items_ with
  | none =>
    have := (Bucket.removeItem_eq_none_iff key _).1 hr
    simp [this]
  | some l =>
    have : key ∈ b.items_.map Prod.fst := by
      by_contra hc
      rw [(Bucket.removeItem_eq_none_iff key _).2 hc] at hr
      cases hr
    simp [this]

theorem Find_isSome_iff (hash : K → Nat) (t : Table K V) (key : K) :
    (Find hash t key).isSome = true ↔
      key ∈ (t.bucketAt (t.dirAt (IndexOf hash t key))).items_.map Prod.fst := by
  show (Bucket.findItem key _).isSome = true ↔ _
  cases hf : Bucket.findItem key (t.bucketAt (t.dirAt (IndexOf hash t key))).items_ with
  | none =>
    have := (Bucket.findItem_eq_none_iff key _).1 hf
    simp [this]
  | some v =>
    have : key ∈ (t.bucketAt (t.dirAt (IndexOf hash t key))).items_.map Prod.fst := by
      by_contra hc
      rw [(Bucket.findItem_eq_none_iff key _).2 hc] at hf
      cases hf
    simp [this]

/-- C16. On every table reached from a fresh one by completed `Insert` and
`Remove` calls, `Remove(key)` returns true exactly when `key` was present;
afterwards `Find(key)` finds nothing, every other key is found as before, and
the directory, the global depth and every local depth are unchanged. -/
theorem remove_iff_present (hash : K → Nat) (fuel bucket_size : Nat)
    (ops : List (Op K V)) (t : Table K V)
    (hrun : run hash fuel (Table.new bucket_size) ops = some t) (key : K) :
    ((Remove hash t key).2 = true ↔ (Find hash t key).isSome = true) ∧
    Find hash (Remove hash t key).1 key = none ∧
    (∀ key1, key1 ≠ key → Find hash (Remove hash t key).1 key1 = Find hash t key1) ∧
    (Remove hash t key).1.directory_ = t.directory_ ∧
    GetGlobalDepth (Remove hash t key).1 = GetGlobalDepth t ∧
    (∀ p, ((Remove hash t key).1.bucketAt p).depth_ = (t.bucketAt p).depth_) ∧
    ∀ i, GetLocalDepth (Remove hash t key).1 i = GetLocalDepth t i := by
  have hwf := (run_spec fuel ops (WF_new hash bucket_size) hrun).1
  have hfind := (Remove_spec hwf key).2
  have hdepth : ∀ p, ((Remove hash t key).1.bucketAt p).depth_ = (t.bucketAt p).depth_ := by
    intro p
    have e := bucketAt_set t (t.dirAt (IndexOf hash t key))
      ((t.bucketAt (t.dirAt (IndexOf hash t key))).Remove key).1 p
    show (Table.bucketAt _ p).depth_ = _
    simp only [Remove]
    rw [e]
    split
    · next hh => rw [Bucket.Remove_depth, hh.1]
    · rfl
  refine ⟨?_, ?_, ?_, rfl, rfl, hdepth, fun i => hdepth _⟩
  · rw [Find_isSome_iff]
    exact Bucket.Remove_flag _ key
  · rw [hfind, if_pos rfl]
  · intro key1 hne
    rw [hfind, if_neg hne]

end ExtendibleHashTable

namespace ExtendibleHashTable

/-- Witness for C16: removing key 5 from the sample table. -/
theorem remove_iff_present_witness :
    run (fun k : Nat => k) 8 (Table.new 2) sampleOps = some sampleTable ∧
    (Remove (fun k : Nat => k) sampleTable 5).2 = true ∧
    Find (fun k : Nat => k) sampleTable 5 = some 55 ∧
    Find (fun k : Nat => k) (Remove (fun k : Nat => k) sampleTable 5).1 5 = none :=
  ⟨by decide, by decide, by decide,
   (remove_iff_present (fun k : Nat => k) 8 2 sampleOps sampleTable (by decide) 5).2.1⟩

/-- C17, what the code does: the capacity of a bucket is the macro
`BUCKET_SIZE` (two pairs) whatever `bucket_size` the table was constructed
with. Constructed with `bucket_size = 1`, the only bucket takes two pairs
without a split; constructed with `bucket_size = 3`, the third insertion into a
bucket holding two pairs splits it. -/
theorem bucket_capacity_ignores_bucket_size :
    run (fun k : Nat => k) 8 (Table.new 1) [Op.insert 0 0, Op.insert 1 1] = some oneSlotTable ∧
    oneSlotTable.bucket_size_ = 1 ∧
    (oneSlotTable.bucketAt (oneSlotTable.dirAt 0)).items_.length = 2 ∧
    GetGlobalDepth oneSlotTable = 0 ∧
    run (fun k : Nat => k) 8 (Table.new 3) [Op.insert 0 0, Op.insert 2 2, Op.insert 4 4]
      = some threeSlotTable ∧
    threeSlotTable.bucket_size_ = 3 ∧
    (run (fun k : Nat => k) 8 (Table.new 3) [Op.insert 0 0, Op.insert 2 2]).map
      (fun t => ((t.bucketAt (t.dirAt 0)).items_.length, (t.bucketAt (t.dirAt 0)).IsFull,
        GetNumBuckets t)) = some (2, true, 1) ∧
    GetNumBuckets threeSlotTable = 3 := by
  decide

end ExtendibleHashTable

namespace ExtendibleHashTable

variable {K V : Type} [DecidableEq K]

end ExtendibleHashTable

namespace ExtendibleHashTable

end ExtendibleHashTable

namespace BPlusTree

/-- C13, what the code does: `GetValue` on an empty tree does not return
false. It calls `FindLeaf` without a look at `IsEmpty()`, and `FindLeaf` stops
at `assert(root_page_id_ != INVALID_PAGE_ID)`; so on a fresh tree, for every
key, and on a tree whose last key was removed. -/
theorem getvalue_on_empty_tree_fails_assert :
    (∀ (leaf_max_size internal_max_size fuel key : Nat),
      GetValue fuel (Tree.new leaf_max_size internal_max_size : Tree Nat Nat) key
        = .error Err.assertion) ∧
    (run 4 (Tree.new 4 4 : Tree Nat Nat) [Op.insert 1 10, Op.remove 1]).map
        (fun t => (IsEmpty t, t.root_page_id_)) = .ok (true, INVALID_PAGE_ID) ∧
    ((run 4 (Tree.new 4 4 : Tree Nat Nat) [Op.insert 1 10, Op.remove 1]).bind
        (fun t => GetValue 4 t 1)) = .error Err.assertion ∧
    ((run 4 (Tree.new 4 4 : Tree Nat Nat) [Op.insert 1 10, Op.remove 1]).bind
        (fun t => Begin 4 t)).map Prod.snd = .ok none := by
  refine ⟨fun _ _ _ _ => rfl, rfl, rfl, rfl⟩

end BPlusTree

namespace LRUKReplacer

theorem step_k (r : Replacer) (op : Op) : (step r op).k_ = r.k_ := by
  cases op with
  | access f t =>
    show (RecordAccess r f t).k_ = r.k_
    unfold RecordAccess
    simp only [apply_ite Replacer.k_, ite_self]
  | setEvictable f b =>
    show (SetEvictable r f b).k_ = r.k_
    unfold SetEvictable
    split <;> rfl
  | evict =>
    show (Evict r).1.k_ = r.k_
    have hR : ∀ g, (RemoveFrame r g).k_ = r.k_ := by
      intro g
      unfold RemoveFrame
      simp only [apply_ite Replacer.k_, ite_self]
    rw [Evict_eq]
    split
    · exact hR _
    · split
      · exact hR _
      · rfl
  | remove f =>
    show (Remove r f).k_ = r.k_
    unfold Remove
    split
    · rfl
    · split
      · rfl
      · unfold RemoveFrame
        simp only [apply_ite Replacer.k_, ite_self]

theorem step_replacer_size (r : Replacer) (op : Op) :
    (step r op).replacer_size_ = r.replacer_size_ :=
  run_replacer_size [op] r

/-- The record of frame `f` after `c` accesses since it was last untracked:
none for `c = 0`, otherwise a history of `min c k_` timestamps. -/
theorem step_history (r : Replacer) (f : Int) (op : Op) (c : Nat)
    (hr : castSizeT f < r.replacer_size_)
    (hs : sparesFrame f r op = true)
    (h : (c = 0 ∧ UMap.find r.frame_table_ f = none) ∨
      (1 ≤ c ∧ ∃ info, UMap.find r.frame_table_ f = some info ∧
        info.history.length = min c r.k_)) :
    (c + accessCount f [op] = 0 ∧ UMap.find (step r op).frame_table_ f = none) ∨
      (1 ≤ c + accessCount f [op] ∧ ∃ info, UMap.find (step r op).frame_table_ f = some info ∧
        info.history.length = min (c + accessCount f [op]) r.k_) := by
  cases op with
  | access g t =>
    show (_ ∧ UMap.find (RecordAccess r g t).frame_table_ f = none) ∨
      (_ ∧ ∃ info, UMap.find (RecordAccess r g t).frame_table_ f = some info ∧ _)
    by_cases e : g = f
    · subst e
      rw [RecordAccess_table r g t (by omega)]
      simp only [accessCount, if_true, UMap.find_put]
      right
      refine ⟨by omega, _, rfl, ?_⟩
      rcases h with ⟨h0, hn⟩ | ⟨h1, info, hi, hl⟩
      · have : (r.tableAt g).history = [] := by
          unfold Replacer.tableAt
          rw [hn]
          rfl
        rw [this, h0]
        simp only [List.nil_append, List.length_singleton]
        split
        · next hk => simp only [List.tail_cons, List.length_nil]; omega
        · next hk => simp only [List.length_singleton]; omega
      · have : (r.tableAt g).history = info.history := by
          unfold Replacer.tableAt
          rw [hi]
          rfl
        rw [this]
        split
        · next hk =>
          simp only [List.length_tail, List.length_append, List.length_singleton] at hk ⊢
          omega
        · next hk =>
          simp only [List.length_append, List.length_singleton] at hk ⊢
          omega
    · by_cases hg : castSizeT g ≥ r.replacer_size_
      · have : RecordAccess r g t = r := by
          unfold RecordAccess
          rw [if_pos hg]
        rw [this]
        simpa [accessCount, e] using h
      · rw [RecordAccess_table r g t hg, UMap.find_put, if_neg (fun e1 => e e1.symm)]
        simpa [accessCount, e] using h
  | setEvictable g b =>
    show (_ ∧ UMap.find (SetEvictable r g b).frame_table_ f = none) ∨
      (_ ∧ ∃ info, UMap.find (SetEvictable r g b).frame_table_ f = some info ∧ _)
    rw [SetEvictable_find]
    simp only [accessCount, Nat.add_zero]
    by_cases e : f = g
    · subst e
      rw [if_pos rfl]
      rcases h with ⟨h0, hn⟩ | ⟨h1, info, hi, hl⟩
      · left
        rw [hn]
        exact ⟨h0, rfl⟩
      · right
        rw [hi]
        exact ⟨h1, _, rfl, hl⟩
    · rw [if_neg e]
      exact h
  | evict =>
    show (_ ∧ UMap.find (Evict r).1.frame_table_ f = none) ∨
      (_ ∧ ∃ info, UMap.find (Evict r).1.frame_table_ f = some info ∧ _)
    simp only [accessCount, Nat.add_zero]
    have hs1 : (Evict r).2 ≠ some f := by simpa [sparesFrame] using hs
    have key : UMap.find (Evict r).1.frame_table_ f = UMap.find r.frame_table_ f := by
      cases hv : (Evict r).2 with
      | none => rw [(BufferPoolManager.Evict_result r).2 hv]
      | some g =>
        rw [((BufferPoolManager.Evict_result r).1 g hv).1, UMap.find_erase,
          if_neg (fun e => hs1 (by rw [hv, e]))]
    rw [key]
    exact h
  | remove g =>
    show (_ ∧ UMap.find (Remove r g).frame_table_ f = none) ∨
      (_ ∧ ∃ info, UMap.find (Remove r g).frame_table_ f = some info ∧ _)
    simp only [accessCount, Nat.add_zero]
    have hs1 : g ≠ f := by simpa [sparesFrame] using hs
    have key : UMap.find (Remove r g).frame_table_ f = UMap.find r.frame_table_ f := by
      unfold Remove
      split
      · rfl
      · split
        · rfl
        · rw [RemoveFrame_table, UMap.find_erase, if_neg (fun e => hs1 e.symm)]
    rw [key]
    exact h

theorem accessCount_cons (f : Int) (op : Op) (rest : List Op) :
    accessCount f (op :: rest) = accessCount f [op] + accessCount f rest := by
  cases op <;> simp [accessCount]

theorem run_history (f : Int) (ops : List Op) (r : Replacer) (c : Nat)
    (hr : castSizeT f < r.replacer_size_)
    (hs : keepsFrame f r ops = true)
    (h : (c = 0 ∧ UMap.find r.frame_table_ f = none) ∨
      (1 ≤ c ∧ ∃ info, UMap.find r.frame_table_ f = some info ∧
        info.history.length = min c r.k_)) :
    (c + accessCount f ops = 0 ∧ UMap.find (run r ops).frame_table_ f = none) ∨
      (1 ≤ c + accessCount f ops ∧ ∃ info, UMap.find (run r ops).frame_table_ f = some info ∧
        info.history.length = min (c + accessCount f ops) r.k_) := by
  induction ops generalizing r c with
  | nil => simpa [accessCount, run] using h
  | cons op rest ih =>
    simp only [keepsFrame, Bool.and_eq_true] at hs
    have h1 := step_history r f op c hr hs.1 h
    have h2 := ih (step r op) (c + accessCount f [op])
      (by rw [step_replacer_size]; exact hr) hs.2 (by rw [step_k]; exact h1)
    rw [step_k] at h2
    rw [accessCount_cons, ← Nat.add_assoc]
    exact h2

theorem run_k (ops : List Op) (r : Replacer) : (run r ops).k_ = r.k_ := by
  induction ops generalizing r with
  | nil => rfl
  | cons op rest ih =>
    show (run (step r op) rest).k_ = r.k_
    rw [ih, step_k]

/-- C21. In a replacer with `k ≥ 1` and a frame id `f` below `num_frames`,
starting from any reached state in which `f` is not tracked and running calls
none of which is `Remove(f)` or an `Evict` returning `f`: if the calls contain
`k` or more `RecordAccess(f)`, then `f` is in the cache list (and its map) and
not in the history list (nor its map); if they contain at least one and fewer
than `k`, then `f` is in the history list and not in the cache list. -/
theorem access_count_decides_group (num_frames k : Nat) (hk : 1 ≤ k) (f : Int)
    (hf0 : 0 ≤ f) (hf1 : f < (num_frames : Int)) (ops0 ops : List Op)
    (hstart : UMap.find (run (Replacer.new num_frames k) ops0).frame_table_ f = none)
    (hkeep : keepsFrame f (run (Replacer.new num_frames k) ops0) ops = true) :
    (k ≤ accessCount f ops →
      f ∈ (run (run (Replacer.new num_frames k) ops0) ops).cache_list_ ∧
      f ∈ (run (run (Replacer.new num_frames k) ops0) ops).cache_map_ ∧
      f ∉ (run (run (Replacer.new num_frames k) ops0) ops).history_list_ ∧
      f ∉ (run (run (Replacer.new num_frames k) ops0) ops).history_map_) ∧
    (1 ≤ accessCount f ops → accessCount f ops < k →
      f ∈ (run (run (Replacer.new num_frames k) ops0) ops).history_list_ ∧
      f ∈ (run (run (Replacer.new num_frames k) ops0) ops).history_map_ ∧
      f ∉ (run (run (Replacer.new num_frames k) ops0) ops).cache_list_ ∧
      f ∉ (run (run (Replacer.new num_frames k) ops0) ops).cache_map_) := by
  have hcast : castSizeT f < num_frames := by
    unfold castSizeT
    omega
  have hsz : (run (Replacer.new num_frames k) ops0).replacer_size_ = num_frames :=
    run_replacer_size ops0 _
  have hkk : (run (Replacer.new num_frames k) ops0).k_ = k := run_k ops0 _
  have hL : ListInv (run (run (Replacer.new num_frames k) ops0) ops) :=
    ListInv_run ops _ (ListInv_run ops0 _ (ListInv_new num_frames k))
  have hk2 : (run (run (Replacer.new num_frames k) ops0) ops).k_ = k := by
    rw [run_k, hkk]
  have hH := run_history f ops (run (Replacer.new num_frames k) ops0) 0
    (by rw [hsz]; exact hcast) hkeep (Or.inl ⟨rfl, hstart⟩)
  rw [hkk, Nat.zero_add] at hH
  constructor
  · intro hc
    rcases hH with ⟨h0, _⟩ | ⟨_, info, hi, hl⟩
    · omega
    · have hin : f ∈ (run (run (Replacer.new num_frames k) ops0) ops).cache_list_ :=
        (hL.cache f).2 ⟨info, hi, by rw [hk2, hl]; omega⟩
      have hout : f ∉ (run (run (Replacer.new num_frames k) ops0) ops).history_list_ := by
        intro hm
        obtain ⟨info1, hi1, hl1⟩ := (hL.hist f).1 hm
        rw [hi] at hi1
        cases hi1
        rw [hk2, hl] at hl1
        omega
      exact ⟨hin, (hL.cmap f).2 hin, hout, fun hm => hout ((hL.hmap f).1 hm)⟩
  · intro h1 hc
    rcases hH with ⟨h0, _⟩ | ⟨_, info, hi, hl⟩
    · omega
    · have hin : f ∈ (run (run (Replacer.new num_frames k) ops0) ops).history_list_ :=
        (hL.hist f).2 ⟨info, hi, by rw [hk2, hl]; omega⟩
      have hout : f ∉ (run (run (Replacer.new num_frames k) ops0) ops).cache_list_ := by
        intro hm
        obtain ⟨info1, hi1, hl1⟩ := (hL.cache f).1 hm
        rw [hi] at hi1
        cases hi1
        rw [hk2, hl] at hl1
        omega
      exact ⟨hin, (hL.hmap f).2 hin, hout, fun hm => hout ((hL.cmap f).1 hm)⟩

theorem access_count_decides_group_witness :
    (3 ≤ accessCount 1 groupOps →
      (1 : Int) ∈ (run (run (Replacer.new 7 3) []) groupOps).cache_list_ ∧
      (1 : Int) ∈ (run (run (Replacer.new 7 3) []) groupOps).cache_map_ ∧
      (1 : Int) ∉ (run (run (Replacer.new 7 3) []) groupOps).history_list_ ∧
      (1 : Int) ∉ (run (run (Replacer.new 7 3) []) groupOps).history_map_) ∧
    (1 ≤ accessCount 1 groupOps → accessCount 1 groupOps < 3 →
      (1 : Int) ∈ (run (run (Replacer.new 7 3) []) groupOps).history_list_ ∧
      (1 : Int) ∈ (run (run (Replacer.new 7 3) []) groupOps).history_map_ ∧
      (1 : Int) ∉ (run (run (Replacer.new 7 3) []) groupOps).cache_list_ ∧
      (1 : Int) ∉ (run (run (Replacer.new 7 3) []) groupOps).cache_map_) :=
  access_count_decides_group 7 3 (by decide) 1 (by decide) (by decide) [] groupOps
    (by decide) (by decide)

end LRUKReplacer

namespace LRUKReplacer

theorem evictableCount_pos (r : Replacer) (f : Int) (info : FrameInfo)
    (hf : UMap.find r.frame_table_ f = some info) (he : info.evictable = true) :
    0 < evictableCount r := by
  unfold evictableCount
  apply List.length_pos_of_mem (a := (f, info))
  rw [List.mem_filter]
  exact ⟨UMap.find_some_mem _ _ _ hf, by simpa using he⟩

/-- C22. In every state reached from a fresh replacer: `Remove(f)` of a
tracked frame whose evictable flag is false, and `Remove(f)` of an untracked
frame, return the replacer unchanged; `Remove(f)` of a tracked evictable frame
erases its record, takes `f` out of both lists and both maps, leaves the
records and list membership of every other frame as they were, and decreases
`Size()` by exactly one. -/
theorem remove_rejects_pinned (num_frames k : Nat) (ops : List Op) (hv : validOps ops) (f : Int) :
    (∀ info, UMap.find (run (Replacer.new num_frames k) ops).frame_table_ f = some info →
      info.evictable = false →
      Remove (run (Replacer.new num_frames k) ops) f = run (Replacer.new num_frames k) ops) ∧
    (UMap.find (run (Replacer.new num_frames k) ops).frame_table_ f = none →
      Remove (run (Replacer.new num_frames k) ops) f = run (Replacer.new num_frames k) ops) ∧
    (∀ info, UMap.find (run (Replacer.new num_frames k) ops).frame_table_ f = some info →
      info.evictable = true →
      UMap.find (Remove (run (Replacer.new num_frames k) ops) f).frame_table_ f = none ∧
      f ∉ (Remove (run (Replacer.new num_frames k) ops) f).history_list_ ∧
      f ∉ (Remove (run (Replacer.new num_frames k) ops) f).cache_list_ ∧
      f ∉ (Remove (run (Replacer.new num_frames k) ops) f).history_map_ ∧
      f ∉ (Remove (run (Replacer.new num_frames k) ops) f).cache_map_ ∧
      (∀ g, g ≠ f →
        UMap.find (Remove (run (Replacer.new num_frames k) ops) f).frame_table_ g
          = UMap.find (run (Replacer.new num_frames k) ops).frame_table_ g ∧
        (g ∈ (Remove (run (Replacer.new num_frames k) ops) f).history_list_ ↔
          g ∈ (run (Replacer.new num_frames k) ops).history_list_) ∧
        (g ∈ (Remove (run (Replacer.new num_frames k) ops) f).cache_list_ ↔
          g ∈ (run (Replacer.new num_frames k) ops).cache_list_)) ∧
      1 ≤ Size (run (Replacer.new num_frames k) ops) ∧
      Size (Remove (run (Replacer.new num_frames k) ops) f)
        = Size (run (Replacer.new num_frames k) ops) - 1) := by
  generalize hr : run (Replacer.new num_frames k) ops = r
  have hS : SizeInv r := hr ▸ SizeInv_run ops _ (SizeInv_new num_frames k) hv
  have hL : ListInv r := hr ▸ ListInv_run ops _ (ListInv_new num_frames k)
  refine ⟨fun info hf he => ?_, fun hf => ?_, fun info hf he => ?_⟩
  · unfold Remove
    rw [hf]
    simp [he]
  · unfold Remove
    rw [hf]
  · have hrem : Remove r f = RemoveFrame r f := by
      unfold Remove
      rw [hf]
      simp [he]
    have hL1 : ListInv (RemoveFrame r f) := ListInv_RemoveFrame hL f
    obtain ⟨e1, e2, e3, e4, -, -⟩ := RemoveFrame_fields r f hL.hmap hL.cmap
    have hpos := evictableCount_pos r f info hf he
    have hle := hS.table_le
    have hcl := evictableCount_le r
    have hsz := hS.size
    rw [hrem]
    refine ⟨?_, ?_, ?_, ?_, ?_, fun g hg => ⟨?_, ?_, ?_⟩, ?_, ?_⟩
    · rw [RemoveFrame_table, UMap.find_erase, if_pos rfl]
    · rw [e1]
      exact fun hm => (List.Nodup.mem_erase_iff hL.hist_nodup).1 hm |>.1 rfl
    · rw [e3]
      exact fun hm => (List.Nodup.mem_erase_iff hL.cache_nodup).1 hm |>.1 rfl
    · rw [e2]
      exact fun hm => (List.Nodup.mem_erase_iff hL.hmap_nodup).1 hm |>.1 rfl
    · rw [e4]
      exact fun hm => (List.Nodup.mem_erase_iff hL.cmap_nodup).1 hm |>.1 rfl
    · rw [RemoveFrame_table, UMap.find_erase, if_neg hg]
    · rw [e1, List.mem_erase_of_ne hg]
    · rw [e3, List.mem_erase_of_ne hg]
    · show 1 ≤ r.current_size_
      omega
    · show (RemoveFrame r f).current_size_ = r.current_size_ - 1
      rw [RemoveFrame_size, tableAt_of_find r f info hf, he, if_pos rfl]
      exact sizeDec_pos _ (by omega) (by omega)

theorem remove_rejects_pinned_witness :
    (∀ info, UMap.find (run (Replacer.new 7 2) removeOps).frame_table_ 2 = some info →
      info.evictable = false →
      Remove (run (Replacer.new 7 2) removeOps) 2 = run (Replacer.new 7 2) removeOps) ∧
    (UMap.find (run (Replacer.new 7 2) removeOps).frame_table_ 2 = none →
      Remove (run (Replacer.new 7 2) removeOps) 2 = run (Replacer.new 7 2) removeOps) ∧
    (∀ info, UMap.find (run (Replacer.new 7 2) removeOps).frame_table_ 2 = some info →
      info.evictable = true →
      UMap.find (Remove (run (Replacer.new 7 2) removeOps) 2).frame_table_ 2 = none ∧
      (2 : Int) ∉ (Remove (run (Replacer.new 7 2) removeOps) 2).history_list_ ∧
      (2 : Int) ∉ (Remove (run (Replacer.new 7 2) removeOps) 2).cache_list_ ∧
      (2 : Int) ∉ (Remove (run (Replacer.new 7 2) removeOps) 2).history_map_ ∧
      (2 : Int) ∉ (Remove (run (Replacer.new 7 2) removeOps) 2).cache_map_ ∧
      (∀ g, g ≠ 2 →
        UMap.find (Remove (run (Replacer.new 7 2) removeOps) 2).frame_table_ g
          = UMap.find (run (Replacer.new 7 2) removeOps).frame_table_ g ∧
        (g ∈ (Remove (run (Replacer.new 7 2) removeOps) 2).history_list_ ↔
          g ∈ (run (Replacer.new 7 2) removeOps).history_list_) ∧
        (g ∈ (Remove (run (Replacer.new 7 2) removeOps) 2).cache_list_ ↔
          g ∈ (run (Replacer.new 7 2) removeOps).cache_list_)) ∧
      1 ≤ Size (run (Replacer.new 7 2) removeOps) ∧
      Size (Remove (run (Replacer.new 7 2) removeOps) 2)
        = Size (run (Replacer.new 7 2) removeOps) - 1) :=
  remove_rejects_pinned 7 2 removeOps (by decide) 2

end LRUKReplacer

namespace BufferPoolManager

/-- A successful `NewPage` on a pool that satisfies the invariant. -/
theorem NewPgImp_result {s s1 : BPM} (h : BPInv s) (fuel : Nat) (now : Int) (pid f : Int)
    (hrun : NewPgImp fuel s now = some (s1, pid, some f)) :
    pid = s.next_page_id_ ∧ s1.pageAt f = ⟨zeroData, pid, 1, false⟩ ∧ s1.lookup pid = some f ∧
    ∃ info, UMap.find s1.replacer_.frame_table_ f = some info ∧ info.evictable = false := by
  have hinv1 := NewPgImp_inv h fuel now pid (some f) hrun
  unfold NewPgImp at hrun
  simp only [] at hrun
  have hb := BPInv_bump h
  obtain ⟨hsome, hnone⟩ := GetAvailableFrame_inv hb
  cases hg : GetAvailableFrame { s with next_page_id_ := s.next_page_id_ + 1 } with
  | mk s0 r =>
    rw [hg] at hrun
    cases r with
    | none =>
      simp only [Option.some.injEq, Prod.mk.injEq] at hrun
      exact absurd hrun.2.2 (by simp)
    | some g =>
      simp only [] at hrun
      obtain ⟨hx, hnext, _, hkeep⟩ := hsome s0 g hg
      obtain ⟨hg0, hg1, -, -, -⟩ := hx.hole_ok g rfl
      have hglt : g.toNat < s0.pages_.length := by rw [hx.pages_len]; omega
      cases hi : ExtendibleHashTable.Insert pageHash fuel
          (s0.setPage g ⟨zeroData, s.next_page_id_, 1, false⟩).page_table_ s.next_page_id_ g with
      | none => rw [hi] at hrun; cases hrun
      | some table1 =>
        rw [hi] at hrun
        simp only [Option.some.injEq, Prod.mk.injEq] at hrun
        obtain ⟨hs1, hpid, hf⟩ := hrun
        subst hf
        subst hpid
        have hpage : s1.pageAt g = ⟨zeroData, s.next_page_id_, 1, false⟩ := by
          rw [← hs1]
          have := pageAt_setPage s0 g g ⟨zeroData, s.next_page_id_, 1, false⟩ hg0 hg0 hglt
          rw [if_pos rfl] at this
          exact this
        have hlook : s1.lookup s.next_page_id_ = some g := by
          have := (ExtendibleHashTable.Insert_spec fuel hx.table_wf s.next_page_id_ g hi).2
            s.next_page_id_
          rw [if_pos rfl] at this
          rw [← hs1]
          exact this
        refine ⟨rfl, hpage, hlook, ?_⟩
        obtain ⟨_, info, hinfo, hiff⟩ := hinv1.pinned _ g hlook
        refine ⟨info, hinfo, ?_⟩
        cases he : info.evictable with
        | false => rfl
        | true =>
          have := hiff.1 he
          rw [hpage] at this
          cases this

/-- C23. In every state reached from the initial pool: when `NewPage` returns a
frame, the id written to the out parameter is the fresh id, the frame holds
all-zero data, that page id, pin count 1 and a clear dirty flag, the page table
maps the id to the frame, and the replacer tracks the frame as not evictable. -/
theorem new_page_pins_zeroed_frame (pool_size k fuel : Nat) (ops : List Op) (s : BPM)
    (hsmall : pool_size < 2 ^ 64)
    (hex : fetchesExisting fuel (BPM.new pool_size k) ops = true)
    (hrun : run fuel (BPM.new pool_size k) ops = some s)
    (fuel1 : Nat) (now : Int) (s1 : BPM) (pid f : Int)
    (hnew : NewPgImp fuel1 s now = some (s1, pid, some f)) :
    pid = s.next_page_id_ ∧
    (s1.pageAt f).data_ = List.replicate PAGE_SIZE 0 ∧
    (s1.pageAt f).page_id_ = pid ∧
    (s1.pageAt f).pin_count_ = 1 ∧
    (s1.pageAt f).is_dirty_ = false ∧
    ExtendibleHashTable.Find pageHash s1.page_table_ pid = some f ∧
    ∃ info, UMap.find s1.replacer_.frame_table_ f = some info ∧ info.evictable = false := by
  have h := run_inv fuel ops (BPInv_new pool_size k hsmall) hex hrun
  obtain ⟨h1, h2, h3, h4⟩ := NewPgImp_result h fuel1 now pid f hnew
  rw [h2]
  exact ⟨h1, rfl, rfl, rfl, rfl, h3, h4⟩

theorem new_result_of_parts (o : Option (BPM × Int × Option Int)) (d : BPM) (r : Int × Option Int)
    (h : o.map (fun x => x.2) = some r) : o = some ((o.map (fun x => x.1)).getD d, r) := by
  cases o with
  | none => cases h
  | some x =>
    simp only [Option.map_some', Option.some.injEq] at h
    simp [← h]

set_option maxRecDepth 100000 in
theorem firstPageState_run : NewPgImp 40 (BPM.new 3 2) 1 = some (firstPageState, 0, some 0) :=
  new_result_of_parts _ _ _ (by decide)

set_option maxRecDepth 100000 in
theorem new_page_pins_zeroed_frame_witness :
    NewPgImp 40 (BPM.new 3 2) 1 = some (firstPageState, 0, some 0) ∧
    ((0 : Int) = (BPM.new 3 2).next_page_id_ ∧
    (firstPageState.pageAt 0).data_ = List.replicate PAGE_SIZE 0 ∧
    (firstPageState.pageAt 0).page_id_ = 0 ∧
    (firstPageState.pageAt 0).pin_count_ = 1 ∧
    (firstPageState.pageAt 0).is_dirty_ = false ∧
    ExtendibleHashTable.Find pageHash firstPageState.page_table_ 0 = some 0 ∧
    ∃ info, UMap.find firstPageState.replacer_.frame_table_ 0 = some info ∧
      info.evictable = false) :=
  ⟨firstPageState_run,
   new_page_pins_zeroed_frame 3 2 40 [] (BPM.new 3 2) (by decide) (by decide) rfl 40 1
     firstPageState 0 0 firstPageState_run⟩

/-- With no free frame and every frame pinned, the replacer has no victim and
`GetAvailableFrame` fails without touching the pool. -/
theorem GetAvailableFrame_none {s : BPM} (h : BPInv s) (hfree : s.free_list_ = [])
    (hpin : ∀ pg ∈ s.pages_, pg.pin_count_ > 0) :
    GetAvailableFrame s = (s, none) := by
  have hev : (LRUKReplacer.Evict s.replacer_).2 = none := by
    cases hv : (LRUKReplacer.Evict s.replacer_).2 with
    | none => rfl
    | some f =>
      obtain ⟨h0, h1, _, h3⟩ := victim_unpinned h f hv
      have hm : s.pageAt f ∈ s.pages_ := by
        unfold BPM.pageAt
        have hlt : f.toNat < s.pages_.length := by rw [h.pages_len]; omega
        rw [List.getD_eq_getElem?_getD, List.getElem?_eq_getElem hlt, Option.getD_some]
        exact List.getElem_mem hlt
      have := hpin _ hm
      omega
  have hst := (Evict_result s.replacer_).2 hev
  unfold GetAvailableFrame
  rw [hfree]
  simp only []
  have hpair : LRUKReplacer.Evict s.replacer_ = (s.replacer_, none) := Prod.ext hst hev
  rw [hpair]

/-- C24. In every reached state with an empty free list and every frame
pinned: `NewPage` returns no frame, `FetchPage` of an id that is not resident
returns no frame, and the failed `FetchPage` leaves the whole pool as it was
(in particular the pin count, page id and dirty flag of every frame and the
page table); the failed `NewPage` changes nothing but the id allocator. -/
theorem all_pinned_no_frame (pool_size k fuel : Nat) (ops : List Op) (s : BPM)
    (hsmall : pool_size < 2 ^ 64)
    (hex : fetchesExisting fuel (BPM.new pool_size k) ops = true)
    (hrun : run fuel (BPM.new pool_size k) ops = some s)
    (hfree : s.free_list_ = [])
    (hpin : ∀ pg ∈ s.pages_, pg.pin_count_ > 0) :
    (∀ (fuel1 : Nat) (now : Int),
      NewPgImp fuel1 s now
        = some ({ s with next_page_id_ := s.next_page_id_ + 1 }, s.next_page_id_, none)) ∧
    (∀ (fuel1 : Nat) (p now : Int),
      ExtendibleHashTable.Find pageHash s.page_table_ p = none →
      FetchPgImp fuel1 s p now = some (s, none)) := by
  have h := run_inv fuel ops (BPInv_new pool_size k hsmall) hex hrun
  constructor
  · intro fuel1 now
    have hb := BPInv_bump h
    have hg := GetAvailableFrame_none hb hfree hpin
    unfold NewPgImp
    simp only []
    rw [hg]
  · intro fuel1 p now hp
    have hg := GetAvailableFrame_none h hfree hpin
    unfold FetchPgImp
    rw [hp]
    simp only []
    rw [hg]

set_option maxRecDepth 100000 in
theorem fullState_run : run 40 (BPM.new 3 2) fillOps = some fullState :=
  getD_of_isSome _ _ (by decide)

set_option maxRecDepth 100000 in
theorem all_pinned_no_frame_witness :
    (∀ (fuel1 : Nat) (now : Int),
      NewPgImp fuel1 fullState now
        = some ({ fullState with next_page_id_ := fullState.next_page_id_ + 1 },
            fullState.next_page_id_, none)) ∧
    (∀ (fuel1 : Nat) (p now : Int),
      ExtendibleHashTable.Find pageHash fullState.page_table_ p = none →
      FetchPgImp fuel1 fullState p now = some (fullState, none)) :=
  all_pinned_no_frame 3 2 40 fillOps fullState (by decide) (by decide) fullState_run
    (by decide) (by decide)

end BufferPoolManager

namespace BufferPoolManager

/-- `UnpinPgImp` on a resident page with a nonzero pin count, field by field. -/
theorem UnpinPgImp_eq (s : BPM) (p : Int) (d : Bool) (f : Int)
    (hl : ExtendibleHashTable.Find pageHash s.page_table_ p = some f)
    (hz : (s.pageAt f).pin_count_ ≠ 0) :
    (UnpinPgImp s p d).2 = true ∧
    (UnpinPgImp s p d).1.pages_ = s.pages_.set f.toNat
      ⟨(s.pageAt f).data_, (s.pageAt f).page_id_, (s.pageAt f).pin_count_ - 1,
        if d then true else (s.pageAt f).is_dirty_⟩ ∧
    (UnpinPgImp s p d).1.page_table_ = s.page_table_ ∧
    (UnpinPgImp s p d).1.disk_ = s.disk_ ∧
    (UnpinPgImp s p d).1.free_list_ = s.free_list_ ∧
    (UnpinPgImp s p d).1.next_page_id_ = s.next_page_id_ ∧
    (UnpinPgImp s p d).1.pool_size_ = s.pool_size_ ∧
    (UnpinPgImp s p d).1.replacer_ =
      if (s.pageAt f).pin_count_ - 1 = 0 then LRUKReplacer.SetEvictable s.replacer_ f true
      else s.replacer_ := by
  unfold UnpinPgImp
  rw [hl]
  simp only []
  rw [if_neg hz]
  by_cases hz1 : (s.pageAt f).pin_count_ - 1 = 0
  · rw [if_pos hz1, if_pos hz1]
    exact ⟨rfl, rfl, rfl, rfl, rfl, rfl, rfl, rfl⟩
  · rw [if_neg hz1, if_neg hz1]
    exact ⟨rfl, rfl, rfl, rfl, rfl, rfl, rfl, rfl⟩

/-- `FetchPgImp` of a resident page, field by field. -/
theorem FetchPgImp_resident (fuel : Nat) (s : BPM) (p now : Int) (f : Int)
    (hl : ExtendibleHashTable.Find pageHash s.page_table_ p = some f) :
    ∃ s1, FetchPgImp fuel s p now = some (s1, some f) ∧
      s1.pages_ = s.pages_.set f.toNat
        ⟨(s.pageAt f).data_, (s.pageAt f).page_id_, (s.pageAt f).pin_count_ + 1,
          (s.pageAt f).is_dirty_⟩ ∧
      s1.page_table_ = s.page_table_ ∧ s1.disk_ = s.disk_ ∧ s1.free_list_ = s.free_list_ ∧
      s1.next_page_id_ = s.next_page_id_ ∧ s1.pool_size_ = s.pool_size_ ∧
      s1.replacer_ = LRUKReplacer.SetEvictable
        (LRUKReplacer.RecordAccess s.replacer_ f now) f false := by
  unfold FetchPgImp
  rw [hl]
  exact ⟨_, rfl, rfl, rfl, rfl, rfl, rfl, rfl, rfl⟩

theorem pageAt_mem_set (s : BPM) (f : Int) (hlt : f.toNat < s.pages_.length) :
    s.pages_.set f.toNat (s.pageAt f) = s.pages_ := by
  unfold BPM.pageAt
  rw [List.getD_eq_getElem?_getD, List.getElem?_eq_getElem hlt, Option.getD_some]
  apply List.ext_getElem (by simp)
  intro i h1 h2
  rw [List.getElem_set]
  split
  · next e => subst e; rfl
  · rfl

/-- C25. In every reached state and for every resident page id: `FetchPage`
returns the frame the page table maps the id to, for every fuel, with the
frame's bytes, page id and dirty flag as they were (nothing is read from disk)
and the pin count one higher, every other frame, the page table and the disk
untouched; the `UnpinPage(id, false)` that follows succeeds and leaves all
frames (bytes, dirty flags, pin counts), the page table, the disk and the free
list exactly as before the pair of calls. -/
theorem fetch_unpin_roundtrip (pool_size k fuel : Nat) (ops : List Op) (s : BPM)
    (hsmall : pool_size < 2 ^ 64)
    (hex : fetchesExisting fuel (BPM.new pool_size k) ops = true)
    (hrun : run fuel (BPM.new pool_size k) ops = some s)
    (p f : Int) (hl : ExtendibleHashTable.Find pageHash s.page_table_ p = some f)
    (fuel1 : Nat) (now : Int) :
    ∃ s1, FetchPgImp fuel1 s p now = some (s1, some f) ∧
      (s1.pageAt f).data_ = (s.pageAt f).data_ ∧
      (s1.pageAt f).page_id_ = p ∧
      (s1.pageAt f).is_dirty_ = (s.pageAt f).is_dirty_ ∧
      (s1.pageAt f).pin_count_ = (s.pageAt f).pin_count_ + 1 ∧
      (∀ g : Int, 0 ≤ g → g ≠ f → s1.pageAt g = s.pageAt g) ∧
      s1.page_table_ = s.page_table_ ∧ s1.disk_ = s.disk_ ∧
      (UnpinPgImp s1 p false).2 = true ∧
      (UnpinPgImp s1 p false).1.pages_ = s.pages_ ∧
      (UnpinPgImp s1 p false).1.page_table_ = s.page_table_ ∧
      (UnpinPgImp s1 p false).1.disk_ = s.disk_ ∧
      (UnpinPgImp s1 p false).1.free_list_ = s.free_list_ := by
  have h := run_inv fuel ops (BPInv_new pool_size k hsmall) hex hrun
  obtain ⟨hf0, hf1, hfid⟩ := h.mapped p f hl
  obtain ⟨hpin0, -⟩ := h.pinned p f hl
  have hflt : f.toNat < s.pages_.length := by rw [h.pages_len]; omega
  obtain ⟨s1, hfetch, hpages, htab, hdisk, hfree, -, -, -⟩ := FetchPgImp_resident fuel1 s p now f hl
  have hpa := pageAt_of_set s s1 f _ hpages hf0 hflt
  have hpf := hpa f hf0
  rw [if_pos rfl] at hpf
  have hl1 : ExtendibleHashTable.Find pageHash s1.page_table_ p = some f := by rw [htab]; exact hl
  have hz : (s1.pageAt f).pin_count_ ≠ 0 := by
    rw [hpf]
    show (s.pageAt f).pin_count_ + 1 ≠ 0
    omega
  obtain ⟨u1, u2, u3, u4, u5, -, -, -⟩ := UnpinPgImp_eq s1 p false f hl1 hz
  refine ⟨s1, hfetch, by rw [hpf], by rw [hpf]; exact hfid, by rw [hpf], by rw [hpf],
    fun g hg hne => ?_, htab, hdisk, u1, ?_, by rw [u3, htab], by rw [u4, hdisk],
    by rw [u5, hfree]⟩
  · rw [hpa g hg, if_neg hne]
  · rw [u2, hpf, hpages, List.set_set]
    have e : (⟨(s.pageAt f).data_, (s.pageAt f).page_id_, (s.pageAt f).pin_count_ + 1 - 1,
        if false = true then true else (s.pageAt f).is_dirty_⟩ : Page) = s.pageAt f := by
      rw [Int.add_sub_cancel]
      rfl
    rw [e]
    exact pageAt_mem_set s f hflt

set_option maxRecDepth 100000 in
theorem fetch_unpin_roundtrip_witness :
    ExtendibleHashTable.Find pageHash setupState.page_table_ 0 = some 0 ∧
    ∃ s1, FetchPgImp 40 setupState 0 5 = some (s1, some 0) ∧
      (s1.pageAt 0).data_ = (setupState.pageAt 0).data_ ∧
      (s1.pageAt 0).page_id_ = 0 ∧
      (s1.pageAt 0).is_dirty_ = (setupState.pageAt 0).is_dirty_ ∧
      (s1.pageAt 0).pin_count_ = (setupState.pageAt 0).pin_count_ + 1 ∧
      (∀ g : Int, 0 ≤ g → g ≠ 0 → s1.pageAt g = setupState.pageAt g) ∧
      s1.page_table_ = setupState.page_table_ ∧ s1.disk_ = setupState.disk_ ∧
      (UnpinPgImp s1 0 false).2 = true ∧
      (UnpinPgImp s1 0 false).1.pages_ = setupState.pages_ ∧
      (UnpinPgImp s1 0 false).1.page_table_ = setupState.page_table_ ∧
      (UnpinPgImp s1 0 false).1.disk_ = setupState.disk_ ∧
      (UnpinPgImp s1 0 false).1.free_list_ = setupState.free_list_ :=
  ⟨by decide,
   fetch_unpin_roundtrip 1 2 40 setupOps setupState (by decide) (by decide) setupState_run
     0 0 (by decide) 40 5⟩

/-- C26. `UnpinPage(id, d)` returns false exactly when the id is not resident
or the pin count of its frame is 0, and then the pool is unchanged. In every
reached state a call that returns true lowers the pin count of the frame by
exactly one, leaves the other frames and the page table alone, calls
`SetEvictable(frame, true)` exactly when the new count is 0, and afterwards
the replacer's evictable flag of the frame is set exactly when the new count
is 0. -/
theorem unpin_fails_iff_absent_or_unpinned (pool_size k fuel : Nat) (ops : List Op) (s : BPM)
    (hsmall : pool_size < 2 ^ 64)
    (hex : fetchesExisting fuel (BPM.new pool_size k) ops = true)
    (hrun : run fuel (BPM.new pool_size k) ops = some s)
    (p : Int) (d : Bool) :
    ((UnpinPgImp s p d).2 = false ↔
      (ExtendibleHashTable.Find pageHash s.page_table_ p = none ∨
       ∃ f, ExtendibleHashTable.Find pageHash s.page_table_ p = some f ∧
         (s.pageAt f).pin_count_ = 0)) ∧
    ((UnpinPgImp s p d).2 = false → (UnpinPgImp s p d).1 = s) ∧
    (∀ f, ExtendibleHashTable.Find pageHash s.page_table_ p = some f →
      (UnpinPgImp s p d).2 = true →
      ((UnpinPgImp s p d).1.pageAt f).pin_count_ = (s.pageAt f).pin_count_ - 1 ∧
      (∀ g : Int, 0 ≤ g → g ≠ f → (UnpinPgImp s p d).1.pageAt g = s.pageAt g) ∧
      (UnpinPgImp s p d).1.page_table_ = s.page_table_ ∧
      (UnpinPgImp s p d).1.replacer_ =
        (if ((UnpinPgImp s p d).1.pageAt f).pin_count_ = 0
          then LRUKReplacer.SetEvictable s.replacer_ f true else s.replacer_) ∧
      ∃ info, UMap.find (UnpinPgImp s p d).1.replacer_.frame_table_ f = some info ∧
        (info.evictable = true ↔ ((UnpinPgImp s p d).1.pageAt f).pin_count_ = 0)) := by
  have h := run_inv fuel ops (BPInv_new pool_size k hsmall) hex hrun
  have hval : (UnpinPgImp s p d).2 = false ↔
      (ExtendibleHashTable.Find pageHash s.page_table_ p = none ∨
       ∃ f, ExtendibleHashTable.Find pageHash s.page_table_ p = some f ∧
         (s.pageAt f).pin_count_ = 0) := by
    cases hl : ExtendibleHashTable.Find pageHash s.page_table_ p with
    | none =>
      unfold UnpinPgImp
      rw [hl]
      simp
    | some f =>
      by_cases hz : (s.pageAt f).pin_count_ = 0
      · have : (UnpinPgImp s p d).2 = false := by
          unfold UnpinPgImp
          rw [hl]
          simp only []
          rw [if_pos hz]
        simp [this, hz]
      · have := (UnpinPgImp_eq s p d f hl hz).1
        simp [this, hz]
  refine ⟨hval, fun hfalse => ?_, fun f hl htrue => ?_⟩
  · rcases hval.1 hfalse with hl | ⟨f, hl, hz⟩
    · unfold UnpinPgImp
      rw [hl]
    · unfold UnpinPgImp
      rw [hl]
      simp only []
      rw [if_pos hz]
  · have hz : (s.pageAt f).pin_count_ ≠ 0 := by
      intro hz
      have := hval.2 (Or.inr ⟨f, hl, hz⟩)
      rw [htrue] at this
      cases this
    obtain ⟨hf0, hf1, hfid⟩ := h.mapped p f hl
    have hflt : f.toNat < s.pages_.length := by rw [h.pages_len]; omega
    obtain ⟨-, u2, u3, -, -, -, -, u8⟩ := UnpinPgImp_eq s p d f hl hz
    have hpa := pageAt_of_set s (UnpinPgImp s p d).1 f _ u2 hf0 hflt
    have hpf := hpa f hf0
    rw [if_pos rfl] at hpf
    have hinv := UnpinPgImp_inv h p d
    have hl1 : (UnpinPgImp s p d).1.lookup p = some f := by
      unfold BPM.lookup
      rw [u3]
      exact hl
    refine ⟨by rw [hpf], fun g hg hne => by rw [hpa g hg, if_neg hne], u3, ?_,
      (hinv.pinned p f hl1).2⟩
    rw [u8, hpf]

set_option maxRecDepth 100000 in
theorem unpin_fails_iff_absent_or_unpinned_witness :
    ((UnpinPgImp fullState 1 true).2 = false ↔
      (ExtendibleHashTable.Find pageHash fullState.page_table_ 1 = none ∨
       ∃ f, ExtendibleHashTable.Find pageHash fullState.page_table_ 1 = some f ∧
         (fullState.pageAt f).pin_count_ = 0)) ∧
    ((UnpinPgImp fullState 1 true).2 = false → (UnpinPgImp fullState 1 true).1 = fullState) ∧
    (∀ f, ExtendibleHashTable.Find pageHash fullState.page_table_ 1 = some f →
      (UnpinPgImp fullState 1 true).2 = true →
      ((UnpinPgImp fullState 1 true).1.pageAt f).pin_count_
        = (fullState.pageAt f).pin_count_ - 1 ∧
      (∀ g : Int, 0 ≤ g → g ≠ f → (UnpinPgImp fullState 1 true).1.pageAt g = fullState.pageAt g) ∧
      (UnpinPgImp fullState 1 true).1.page_table_ = fullState.page_table_ ∧
      (UnpinPgImp fullState 1 true).1.replacer_ =
        (if ((UnpinPgImp fullState 1 true).1.pageAt f).pin_count_ = 0
          then LRUKReplacer.SetEvictable fullState.replacer_ f true else fullState.replacer_) ∧
      ∃ info, UMap.find (UnpinPgImp fullState 1 true).1.replacer_.frame_table_ f = some info ∧
        (info.evictable = true ↔ ((UnpinPgImp fullState 1 true).1.pageAt f).pin_count_ = 0)) :=
  unpin_fails_iff_absent_or_unpinned 3 2 40 fillOps fullState (by decide) (by decide)
    fullState_run 1 true

/-- What `GetAvailableFrame` leaves on disk when the free list is empty and
the replacer picks frame `f`: a dirty victim is written back first. -/
theorem GetAvailableFrame_victim_disk (s : BPM) (f : Int) (hfree : s.free_list_ = [])
    (hev : (LRUKReplacer.Evict s.replacer_).2 = some f) :
    (GetAvailableFrame s).2 = some f ∧
    (GetAvailableFrame s).1.disk_ =
      if (s.pageAt f).is_dirty_ then WritePage s.disk_ (s.pageAt f).page_id_ (s.pageAt f).data_
      else s.disk_ := by
  have hpair : LRUKReplacer.Evict s.replacer_ = ((LRUKReplacer.Evict s.replacer_).1, some f) :=
    Prod.ext rfl hev
  unfold GetAvailableFrame
  rw [hfree]
  simp only []
  rw [hpair]
  exact ⟨rfl, rfl⟩

/-- C27. In every reached state, after an `UnpinPage(id, d)` that returns
true the dirty flag of the page's frame is the old flag OR `d` and the bytes of
the frame are as before; an `UnpinPage(id, false)` by another pinner after it
leaves flag and bytes as they are; and when the frame, still dirty, is then
taken as victim by `GetAvailableFrame`, the bytes are on disk under the page's
id afterwards. -/
theorem unpin_ors_dirty_flag (pool_size k fuel : Nat) (ops : List Op) (s : BPM)
    (hsmall : pool_size < 2 ^ 64)
    (hex : fetchesExisting fuel (BPM.new pool_size k) ops = true)
    (hrun : run fuel (BPM.new pool_size k) ops = some s)
    (p f : Int) (d : Bool)
    (hl : ExtendibleHashTable.Find pageHash s.page_table_ p = some f)
    (htrue : (UnpinPgImp s p d).2 = true) :
    ((UnpinPgImp s p d).1.pageAt f).is_dirty_ = ((s.pageAt f).is_dirty_ || d) ∧
    ((UnpinPgImp s p d).1.pageAt f).data_ = (s.pageAt f).data_ ∧
    ((UnpinPgImp (UnpinPgImp s p d).1 p false).1.pageAt f).is_dirty_
      = ((s.pageAt f).is_dirty_ || d) ∧
    ((UnpinPgImp (UnpinPgImp s p d).1 p false).1.pageAt f).data_ = (s.pageAt f).data_ ∧
    (((s.pageAt f).is_dirty_ || d) = true →
      (UnpinPgImp (UnpinPgImp s p d).1 p false).1.free_list_ = [] →
      (LRUKReplacer.Evict (UnpinPgImp (UnpinPgImp s p d).1 p false).1.replacer_).2 = some f →
      (GetAvailableFrame (UnpinPgImp (UnpinPgImp s p d).1 p false).1).2 = some f ∧
      ReadPage (GetAvailableFrame (UnpinPgImp (UnpinPgImp s p d).1 p false).1).1.disk_ p
        = (s.pageAt f).data_) := by
  have h := run_inv fuel ops (BPInv_new pool_size k hsmall) hex hrun
  obtain ⟨hf0, hf1, hfid⟩ := h.mapped p f hl
  have hflt : f.toNat < s.pages_.length := by rw [h.pages_len]; omega
  have hz : (s.pageAt f).pin_count_ ≠ 0 := by
    intro hz
    have : (UnpinPgImp s p d).2 = false := by
      unfold UnpinPgImp
      rw [hl]
      simp only []
      rw [if_pos hz]
    rw [htrue] at this
    cases this
  obtain ⟨-, u2, u3, -, -, -, -, -⟩ := UnpinPgImp_eq s p d f hl hz
  have hpa := pageAt_of_set s (UnpinPgImp s p d).1 f _ u2 hf0 hflt
  have hpf := hpa f hf0
  rw [if_pos rfl] at hpf
  have hdirty1 : ((UnpinPgImp s p d).1.pageAt f).is_dirty_ = ((s.pageAt f).is_dirty_ || d) := by
    rw [hpf]
    show (if d = true then true else (s.pageAt f).is_dirty_) = _
    cases d <;> simp
  have hdata1 : ((UnpinPgImp s p d).1.pageAt f).data_ = (s.pageAt f).data_ := by rw [hpf]
  have hinv1 := UnpinPgImp_inv h p d
  have hl1 : ExtendibleHashTable.Find pageHash (UnpinPgImp s p d).1.page_table_ p = some f := by
    rw [u3]
    exact hl
  have hflt1 : f.toNat < (UnpinPgImp s p d).1.pages_.length := by
    rw [hinv1.pages_len]
    have := (hinv1.mapped p f hl1).2.1
    omega
  have hsecond : ((UnpinPgImp (UnpinPgImp s p d).1 p false).1.pageAt f).is_dirty_
        = ((UnpinPgImp s p d).1.pageAt f).is_dirty_ ∧
      ((UnpinPgImp (UnpinPgImp s p d).1 p false).1.pageAt f).data_
        = ((UnpinPgImp s p d).1.pageAt f).data_ := by
    by_cases hz1 : ((UnpinPgImp s p d).1.pageAt f).pin_count_ = 0
    · have : (UnpinPgImp (UnpinPgImp s p d).1 p false).1 = (UnpinPgImp s p d).1 := by
        generalize (UnpinPgImp s p d).1 = s1 at hl1 hz1
        unfold UnpinPgImp
        rw [hl1]
        simp only []
        rw [if_pos hz1]
      rw [this]
      exact ⟨rfl, rfl⟩
    · obtain ⟨-, v2, -, -, -, -, -, -⟩ := UnpinPgImp_eq (UnpinPgImp s p d).1 p false f hl1 hz1
      have hpb := pageAt_of_set (UnpinPgImp s p d).1 (UnpinPgImp (UnpinPgImp s p d).1 p false).1
        f _ v2 hf0 hflt1 f hf0
      rw [if_pos rfl] at hpb
      rw [hpb]
      exact ⟨rfl, rfl⟩
  refine ⟨hdirty1, hdata1, by rw [hsecond.1, hdirty1], by rw [hsecond.2, hdata1], ?_⟩
  intro hd hfree hev
  have hinv2 := UnpinPgImp_inv hinv1 p false
  obtain ⟨_, _, hlk, _⟩ := victim_unpinned hinv2 f hev
  obtain ⟨g1, g2⟩ := GetAvailableFrame_victim_disk _ f hfree hev
  have hpid : ((UnpinPgImp (UnpinPgImp s p d).1 p false).1.pageAt f).page_id_ = p := by
    have hl2 : (UnpinPgImp (UnpinPgImp s p d).1 p false).1.lookup p = some f := by
      have e : (UnpinPgImp (UnpinPgImp s p d).1 p false).1.page_table_ = s.page_table_ := by
        by_cases hz1 : ((UnpinPgImp s p d).1.pageAt f).pin_count_ = 0
        · have : (UnpinPgImp (UnpinPgImp s p d).1 p false).1 = (UnpinPgImp s p d).1 := by
            generalize (UnpinPgImp s p d).1 = s1 at hl1 hz1
            unfold UnpinPgImp
            rw [hl1]
            simp only []
            rw [if_pos hz1]
          rw [this, u3]
        · rw [(UnpinPgImp_eq (UnpinPgImp s p d).1 p false f hl1 hz1).2.2.1, u3]
      unfold BPM.lookup
      rw [e]
      exact hl
    exact (hinv2.mapped p f hl2).2.2
  refine ⟨g1, ?_⟩
  rw [g2, hsecond.1, hdirty1, hd, if_pos rfl, hpid, ReadPage_WritePage, if_pos rfl, hsecond.2,
    hdata1]

set_option maxRecDepth 100000 in
theorem sharedState_run : run 40 (BPM.new 1 2) sharedOps = some sharedState :=
  getD_of_isSome _ _ (by decide)

set_option maxRecDepth 100000 in
/-- Witness for C27: page 0 of a one-frame pool is pinned twice; the first
pinner unpins it dirty, the second clean; the frame is then the replacer's
victim and the theorem applies. -/
theorem unpin_ors_dirty_flag_witness :
    (sharedState.pageAt 0).pin_count_ = 2 ∧
    (UnpinPgImp (UnpinPgImp sharedState 0 true).1 0 false).1.free_list_ = [] ∧
    (LRUKReplacer.Evict (UnpinPgImp (UnpinPgImp sharedState 0 true).1 0 false).1.replacer_).2
      = some 0 ∧
    (((UnpinPgImp sharedState 0 true).1.pageAt 0).is_dirty_
      = ((sharedState.pageAt 0).is_dirty_ || true) ∧
    ((UnpinPgImp sharedState 0 true).1.pageAt 0).data_ = (sharedState.pageAt 0).data_ ∧
    ((UnpinPgImp (UnpinPgImp sharedState 0 true).1 0 false).1.pageAt 0).is_dirty_
      = ((sharedState.pageAt 0).is_dirty_ || true) ∧
    ((UnpinPgImp (UnpinPgImp sharedState 0 true).1 0 false).1.pageAt 0).data_
      = (sharedState.pageAt 0).data_ ∧
    (((sharedState.pageAt 0).is_dirty_ || true) = true →
      (UnpinPgImp (UnpinPgImp sharedState 0 true).1 0 false).1.free_list_ = [] →
      (LRUKReplacer.Evict (UnpinPgImp (UnpinPgImp sharedState 0 true).1 0 false).1.replacer_).2
        = some 0 →
      (GetAvailableFrame (UnpinPgImp (UnpinPgImp sharedState 0 true).1 0 false).1).2 = some 0 ∧
      ReadPage (GetAvailableFrame (UnpinPgImp (UnpinPgImp sharedState 0 true).1 0 false).1).1.disk_ 0
        = (sharedState.pageAt 0).data_)) :=
  ⟨by decide, by decide, by decide,
   unpin_ors_dirty_flag 1 2 40 sharedOps sharedState (by decide) (by decide) sharedState_run
     0 0 true (by decide) (by decide)⟩

/-- The replacer after `GetAvailableFrame`: untouched, or after one `Evict`. -/
theorem GetAvailableFrame_replacer (s : BPM) :
    (GetAvailableFrame s).1.replacer_ = s.replacer_ ∨
    (GetAvailableFrame s).1.replacer_ = (LRUKReplacer.Evict s.replacer_).1 := by
  unfold GetAvailableFrame
  cases s.free_list_ with
  | cons f rest => exact Or.inl rfl
  | nil =>
    simp only []
    cases hv : LRUKReplacer.Evict s.replacer_ with
    | mk r1 o =>
      cases o with
      | none => exact Or.inl rfl
      | some f => exact Or.inr rfl

theorem GetAvailableFrame_ListInv (s : BPM) (h : LRUKReplacer.ListInv s.replacer_) :
    LRUKReplacer.ListInv (GetAvailableFrame s).1.replacer_ := by
  rcases GetAvailableFrame_replacer s with e | e
  · rw [e]; exact h
  · rw [e]; exact LRUKReplacer.ListInv_Evict h

/-- Every call of the pool keeps the list structure of its replacer. -/
theorem step_ListInv (fuel : Nat) (s s1 : BPM) (op : Op)
    (h : LRUKReplacer.ListInv s.replacer_) (hstep : step fuel s op = some s1) :
    LRUKReplacer.ListInv s1.replacer_ := by
  have touch : ∀ (r : LRUKReplacer.Replacer) (f now : Int), LRUKReplacer.ListInv r →
      LRUKReplacer.ListInv (LRUKReplacer.SetEvictable (LRUKReplacer.RecordAccess r f now) f false) :=
    fun r f now hr => LRUKReplacer.ListInv_SetEvictable (LRUKReplacer.ListInv_RecordAccess hr f now)
      f false
  cases op with
  | newPage now =>
    simp only [step, NewPgImp, Option.map_eq_some'] at hstep
    obtain ⟨res, hres, hs1⟩ := hstep
    have hg := GetAvailableFrame_ListInv { s with next_page_id_ := s.next_page_id_ + 1 } h
    cases hga : GetAvailableFrame { s with next_page_id_ := s.next_page_id_ + 1 } with
    | mk s0 o =>
      rw [hga] at hres hg
      cases o with
      | none =>
        simp only [Option.some.injEq] at hres
        rw [← hs1, ← hres]
        exact hg
      | some f =>
        simp only [] at hres
        cases hi : ExtendibleHashTable.Insert pageHash fuel
            (s0.setPage f ⟨zeroData, s.next_page_id_, 1, false⟩).page_table_ s.next_page_id_ f with
        | none => rw [hi] at hres; cases hres
        | some table1 =>
          rw [hi] at hres
          simp only [Option.some.injEq] at hres
          rw [← hs1, ← hres]
          exact touch _ f now hg
  | fetchPage p now =>
    simp only [step, Option.map_eq_some'] at hstep
    obtain ⟨res, hres, hs1⟩ := hstep
    unfold FetchPgImp at hres
    cases hl : ExtendibleHashTable.Find pageHash s.page_table_ p with
    | some f =>
      rw [hl] at hres
      simp only [Option.some.injEq] at hres
      rw [← hs1, ← hres]
      exact touch _ f now h
    | none =>
      rw [hl] at hres
      simp only [] at hres
      have hg := GetAvailableFrame_ListInv s h
      cases hga : GetAvailableFrame s with
      | mk s0 o =>
        rw [hga] at hres hg
        cases o with
        | none =>
          simp only [Option.some.injEq] at hres
          rw [← hs1, ← hres]
          exact hg
        | some f =>
          simp only [] at hres
          cases hi : ExtendibleHashTable.Insert pageHash fuel
              (s0.setPage f ⟨ReadPage s0.disk_ p, p, 1, false⟩).page_table_ p f with
          | none => rw [hi] at hres; cases hres
          | some table1 =>
            rw [hi] at hres
            simp only [Option.some.injEq] at hres
            rw [← hs1, ← hres]
            exact touch _ f now hg
  | unpinPage p d =>
    simp only [step, Option.some.injEq] at hstep
    rw [← hstep]
    unfold UnpinPgImp
    cases hl : ExtendibleHashTable.Find pageHash s.page_table_ p with
    | none => exact h
    | some f =>
      simp only []
      split
      · exact h
      · split
        · exact LRUKReplacer.ListInv_SetEvictable h f true
        · exact h
  | flushPage p =>
    simp only [step, Option.some.injEq] at hstep
    rw [← hstep]
    unfold FlushPgImp
    cases hl : ExtendibleHashTable.Find pageHash s.page_table_ p with
    | none => exact h
    | some f => exact h
  | flushAll =>
    simp only [step, Option.some.injEq] at hstep
    rw [← hstep]
    exact h
  | deletePage p =>
    simp only [step, Option.some.injEq] at hstep
    rw [← hstep]
    unfold DeletePgImp
    cases hl : ExtendibleHashTable.Find pageHash s.page_table_ p with
    | none => exact h
    | some f =>
      simp only []
      split
      · exact h
      · exact LRUKReplacer.ListInv_Remove h f
  | write p data =>
    simp only [step, Option.some.injEq] at hstep
    rw [← hstep]
    unfold WriteData
    cases hl : ExtendibleHashTable.Find pageHash s.page_table_ p with
    | none => exact h
    | some f =>
      simp only []
      split
      · exact h
      · exact h

theorem run_ListInv (fuel : Nat) (ops : List Op) (s s1 : BPM)
    (h : LRUKReplacer.ListInv s.replacer_) (hrun : run fuel s ops = some s1) :
    LRUKReplacer.ListInv s1.replacer_ := by
  induction ops generalizing s with
  | nil =>
    simp only [run, Option.some.injEq] at hrun
    rw [← hrun]
    exact h
  | cons op rest ih =>
    simp only [run] at hrun
    cases hst : step fuel s op with
    | none => rw [hst] at hrun; cases hrun
    | some s2 =>
      rw [hst] at hrun
      exact ih s2 (step_ListInv fuel s s2 op h hst) hrun

/-- `DeletePgImp` on a resident page that is not pinned, field by field. -/
theorem DeletePgImp_eq (s : BPM) (p f : Int)
    (hl : ExtendibleHashTable.Find pageHash s.page_table_ p = some f)
    (hz : ¬ (s.pageAt f).pin_count_ > 0) :
    (DeletePgImp s p).2 = true ∧
    (DeletePgImp s p).1.pages_ = s.pages_.set f.toNat ⟨zeroData, INVALID_PAGE_ID, 0, false⟩ ∧
    (DeletePgImp s p).1.page_table_ = (ExtendibleHashTable.Remove pageHash s.page_table_ p).1 ∧
    (DeletePgImp s p).1.replacer_ = LRUKReplacer.Remove s.replacer_ f ∧
    (DeletePgImp s p).1.free_list_ = s.free_list_ ++ [f] ∧
    (DeletePgImp s p).1.disk_ =
      (if (s.pageAt f).is_dirty_ then WritePage s.disk_ p (s.pageAt f).data_ else s.disk_) ∧
    (DeletePgImp s p).1.next_page_id_ = s.next_page_id_ ∧
    (DeletePgImp s p).1.pool_size_ = s.pool_size_ := by
  unfold DeletePgImp
  rw [hl]
  simp only []
  rw [if_neg hz]
  exact ⟨rfl, rfl, rfl, rfl, rfl, rfl, rfl, rfl⟩

/-- C28. `DeletePage(id)` returns false exactly when the id is resident in a
frame with pin count above 0, and then the pool is unchanged; for an id that is
not resident it returns true and the pool is unchanged. In every reached state,
for a resident id whose frame has pin count 0 it returns true, the bytes are on
disk afterwards if the frame was dirty (the disk is untouched otherwise), the
id is no longer in the page table while every other id maps as before, the
replacer no longer tracks the frame, the frame holds zero bytes, the invalid
id, pin count 0 and a clear dirty flag, every other frame is as before, and the
frame is appended to the free list. -/
theorem delete_fails_iff_pinned (pool_size k fuel : Nat) (ops : List Op) (s : BPM)
    (hsmall : pool_size < 2 ^ 64)
    (hex : fetchesExisting fuel (BPM.new pool_size k) ops = true)
    (hrun : run fuel (BPM.new pool_size k) ops = some s)
    (p : Int) :
    ((DeletePgImp s p).2 = false ↔
      ∃ f, ExtendibleHashTable.Find pageHash s.page_table_ p = some f ∧
        (s.pageAt f).pin_count_ > 0) ∧
    ((DeletePgImp s p).2 = false → (DeletePgImp s p).1 = s) ∧
    (ExtendibleHashTable.Find pageHash s.page_table_ p = none → DeletePgImp s p = (s, true)) ∧
    (∀ f, ExtendibleHashTable.Find pageHash s.page_table_ p = some f →
      (s.pageAt f).pin_count_ = 0 →
      (DeletePgImp s p).2 = true ∧
      ((s.pageAt f).is_dirty_ = true →
        ReadPage (DeletePgImp s p).1.disk_ p = (s.pageAt f).data_) ∧
      ((s.pageAt f).is_dirty_ = false → (DeletePgImp s p).1.disk_ = s.disk_) ∧
      (∀ q, ExtendibleHashTable.Find pageHash (DeletePgImp s p).1.page_table_ q
        = if q = p then none else ExtendibleHashTable.Find pageHash s.page_table_ q) ∧
      UMap.find (DeletePgImp s p).1.replacer_.frame_table_ f = none ∧
      f ∉ (DeletePgImp s p).1.replacer_.history_list_ ∧
      f ∉ (DeletePgImp s p).1.replacer_.cache_list_ ∧
      (DeletePgImp s p).1.pageAt f = ⟨List.replicate PAGE_SIZE 0, INVALID_PAGE_ID, 0, false⟩ ∧
      (∀ g : Int, 0 ≤ g → g ≠ f → (DeletePgImp s p).1.pageAt g = s.pageAt g) ∧
      (DeletePgImp s p).1.free_list_ = s.free_list_ ++ [f]) := by
  have h := run_inv fuel ops (BPInv_new pool_size k hsmall) hex hrun
  have hval : (DeletePgImp s p).2 = false ↔
      ∃ f, ExtendibleHashTable.Find pageHash s.page_table_ p = some f ∧
        (s.pageAt f).pin_count_ > 0 := by
    cases hl : ExtendibleHashTable.Find pageHash s.page_table_ p with
    | none =>
      unfold DeletePgImp
      rw [hl]
      simp
    | some f =>
      by_cases hz : (s.pageAt f).pin_count_ > 0
      · have : (DeletePgImp s p).2 = false := by
          unfold DeletePgImp
          rw [hl]
          simp only []
          rw [if_pos hz]
        simp [this, hz]
      · have := (DeletePgImp_eq s p f hl hz).1
        simp only [this, Option.some.injEq, exists_eq_left', false_iff]
        simpa using hz
  refine ⟨hval, fun hfalse => ?_, fun hl => ?_, fun f hl hz => ?_⟩
  · obtain ⟨f, hl, hz⟩ := hval.1 hfalse
    unfold DeletePgImp
    rw [hl]
    simp only []
    rw [if_pos hz]
  · unfold DeletePgImp
    rw [hl]
  · have hz1 : ¬ (s.pageAt f).pin_count_ > 0 := by omega
    obtain ⟨d1, d2, d3, d4, d5, d6, -, -⟩ := DeletePgImp_eq s p f hl hz1
    obtain ⟨hf0, hf1, hfid⟩ := h.mapped p f hl
    obtain ⟨-, info, hi, hiff⟩ := h.pinned p f hl
    have hflt : f.toNat < s.pages_.length := by rw [h.pages_len]; omega
    have hpa := pageAt_of_set s (DeletePgImp s p).1 f _ d2 hf0 hflt
    have hL0 : LRUKReplacer.ListInv s.replacer_ :=
      run_ListInv fuel ops _ s (LRUKReplacer.ListInv_new pool_size k) hrun
    have hL1 := LRUKReplacer.ListInv_RemoveFrame hL0 f
    have hgone : UMap.find (LRUKReplacer.RemoveFrame s.replacer_ f).frame_table_ f = none := by
      rw [LRUKReplacer.RemoveFrame_table, UMap.find_erase, if_pos rfl]
    have hrem : LRUKReplacer.Remove s.replacer_ f = LRUKReplacer.RemoveFrame s.replacer_ f := by
      unfold LRUKReplacer.Remove
      rw [hi]
      simp [hiff.2 hz]
    refine ⟨d1, fun hd => ?_, fun hd => ?_, fun q => ?_, ?_, ?_, ?_, ?_, fun g hg hne => ?_, d5⟩
    · rw [d6, hd, if_pos rfl, ReadPage_WritePage, if_pos rfl]
    · rw [d6, hd]
      rfl
    · rw [d3]
      exact (ExtendibleHashTable.Remove_spec h.table_wf p).2 q
    · rw [d4, hrem]
      exact hgone
    · rw [d4, hrem]
      intro hm
      obtain ⟨info1, hi1, -⟩ := (hL1.hist f).1 hm
      rw [hgone] at hi1
      cases hi1
    · rw [d4, hrem]
      intro hm
      obtain ⟨info1, hi1, -⟩ := (hL1.cache f).1 hm
      rw [hgone] at hi1
      cases hi1
    · have := hpa f hf0
      rw [if_pos rfl] at this
      exact this
    · rw [hpa g hg, if_neg hne]

set_option maxRecDepth 100000 in
/-- Witness for C28: in the one-frame pool page 0 is resident with pin count
0, and the theorem applies to `DeletePage(0)`. -/
theorem delete_fails_iff_pinned_witness :
    ExtendibleHashTable.Find pageHash setupState.page_table_ 0 = some 0 ∧
    (setupState.pageAt 0).pin_count_ = 0 ∧
    (((DeletePgImp setupState 0).2 = false ↔
      ∃ f, ExtendibleHashTable.Find pageHash setupState.page_table_ 0 = some f ∧
        (setupState.pageAt f).pin_count_ > 0) ∧
    ((DeletePgImp setupState 0).2 = false → (DeletePgImp setupState 0).1 = setupState) ∧
    (ExtendibleHashTable.Find pageHash setupState.page_table_ 0 = none →
      DeletePgImp setupState 0 = (setupState, true)) ∧
    (∀ f, ExtendibleHashTable.Find pageHash setupState.page_table_ 0 = some f →
      (setupState.pageAt f).pin_count_ = 0 →
      (DeletePgImp setupState 0).2 = true ∧
      ((setupState.pageAt f).is_dirty_ = true →
        ReadPage (DeletePgImp setupState 0).1.disk_ 0 = (setupState.pageAt f).data_) ∧
      ((setupState.pageAt f).is_dirty_ = false →
        (DeletePgImp setupState 0).1.disk_ = setupState.disk_) ∧
      (∀ q, ExtendibleHashTable.Find pageHash (DeletePgImp setupState 0).1.page_table_ q
        = if q = 0 then none else ExtendibleHashTable.Find pageHash setupState.page_table_ q) ∧
      UMap.find (DeletePgImp setupState 0).1.replacer_.frame_table_ f = none ∧
      f ∉ (DeletePgImp setupState 0).1.replacer_.history_list_ ∧
      f ∉ (DeletePgImp setupState 0).1.replacer_.cache_list_ ∧
      (DeletePgImp setupState 0).1.pageAt f
        = ⟨List.replicate PAGE_SIZE 0, INVALID_PAGE_ID, 0, false⟩ ∧
      (∀ g : Int, 0 ≤ g → g ≠ f → (DeletePgImp setupState 0).1.pageAt g = setupState.pageAt g) ∧
      (DeletePgImp setupState 0).1.free_list_ = setupState.free_list_ ++ [f])) :=
  ⟨by decide, by decide,
   delete_fails_iff_pinned 1 2 40 setupOps setupState (by decide) (by decide) setupState_run 0⟩

end BufferPoolManager

namespace ExtendibleHashTable

/-- C29. Starting from an empty table with bucket size 2 and the identity hash
on `int` keys, the inserts `(1,"a"), (2,"b"), (3,"c"), (4,"d"), (5,"e")` all
return, and the table they leave has global depth at least 2 (it is 2), at
least 3 buckets (there are 3), and `Find` returns the inserted value for each
of the five keys. -/
theorem five_inserts_split_twice :
    run intHash 8 (Table.new 2) fiveInserts = some fiveTable ∧
    2 ≤ GetGlobalDepth fiveTable ∧ GetGlobalDepth fiveTable = 2 ∧
    3 ≤ GetNumBuckets fiveTable ∧ GetNumBuckets fiveTable = 3 ∧
    Find intHash fiveTable 1 = some "a" ∧ Find intHash fiveTable 2 = some "b" ∧
    Find intHash fiveTable 3 = some "c" ∧ Find intHash fiveTable 4 = some "d" ∧
    Find intHash fiveTable 5 = some "e" := by
  decide

end ExtendibleHashTable

namespace BufferPoolManager

set_option maxRecDepth 100000 in
theorem failedState_run : NewPgImp 40 fullState 4 = some (failedState, 3, none) :=
  new_result_of_parts _ _ _ (by decide)

set_option maxRecDepth 100000 in
theorem evictedPool_run (p : Int) (hp : p ∈ [(0 : Int), 1, 2]) :
    evictResult p = some (evictedPool p, 4, some p) := by
  simp only [List.mem_cons, List.mem_singleton, List.not_mem_nil, or_false] at hp
  rcases hp with e | e | e <;> subst e <;> exact new_result_of_parts _ _ _ (by decide)

set_option maxRecDepth 100000 in
/-- In the scenario of pool size 3, with page 1 as the page that was unpinned
dirty and evicted: the `FetchPage(1)` that follows the fourth `NewPage` with no
unpin in between finds all three frames pinned and returns no frame. -/
theorem refetch_without_unpin_fails :
    run 40 (BPM.new 3 2) fillOps = some fullState ∧
    fullState.pages_.map (fun pg => (pg.page_id_, pg.pin_count_)) = [(0, 1), (1, 1), (2, 1)] ∧
    NewPgImp 40 fullState 4 = some (failedState, 3, none) ∧
    evictResult 1 = some (evictedPool 1, 4, some 1) ∧
    ReadPage (evictedPool 1).disk_ 1 = [7, 7] ∧
    (evictedPool 1).pages_.map (fun pg => (pg.page_id_, pg.pin_count_))
      = [(0, 1), (4, 1), (2, 1)] ∧
    (FetchPgImp 40 (evictedPool 1) 1 6).map (fun r => r.2) = some none :=
  ⟨fullState_run, by decide, failedState_run, evictedPool_run 1 (by decide), by decide, by decide,
   by decide⟩

set_option maxRecDepth 100000 in
/-- C30, amended. Pool size 3: three `NewPage` calls return frames holding
pages 0, 1, 2 with pin count 1; a fourth `NewPage` returns no frame. For each
of the three pages `p`: after the caller wrote `[7, 7]` into `p` and called
`UnpinPage(p, true)`, the next `NewPage` returns the frame of `p`, `p` is no
longer resident and the disk holds `[7, 7]` for it. A `FetchPage(p)` issued
then, while all three frames are pinned, returns no frame; after any other
resident page `q` was unpinned, `FetchPage(p)` returns a frame that holds page
`p` with the bytes `[7, 7]` and pin count 1. -/
theorem refetch_after_unpin_reads_back (p q : Int) (hp : p ∈ [(0 : Int), 1, 2])
    (hq : q ∈ [(0 : Int), 1, 2, 4]) (hpq : q ≠ p) :
    run 40 (BPM.new 3 2) fillOps = some fullState ∧
    fullState.pages_.map (fun pg => (pg.page_id_, pg.pin_count_)) = [(0, 1), (1, 1), (2, 1)] ∧
    NewPgImp 40 fullState 4 = some (failedState, 3, none) ∧
    evictResult p = some (evictedPool p, 4, some p) ∧
    ExtendibleHashTable.Find pageHash (evictedPool p).page_table_ p = none ∧
    ReadPage (evictedPool p).disk_ p = [7, 7] ∧
    (FetchPgImp 40 (evictedPool p) p 6).map (fun r => r.2) = some none ∧
    (UnpinPgImp (evictedPool p) q false).2 = true ∧
    ∃ g, refetchResult p q = some (refetchedPool p q, some g) ∧
      ((refetchedPool p q).pageAt g).data_ = [7, 7] ∧
      ((refetchedPool p q).pageAt g).page_id_ = p ∧
      ((refetchedPool p q).pageAt g).pin_count_ = 1 := by
  refine ⟨fullState_run, by decide, failedState_run, evictedPool_run p hp, ?_⟩
  simp only [List.mem_cons, List.mem_singleton, List.not_mem_nil, or_false] at hp hq
  rcases hp with e | e | e <;> subst e <;> rcases hq with e | e | e | e <;> subst e <;>
    first
    | exact absurd rfl hpq
    | exact ⟨by decide, by decide, by decide, by decide, 0,
        fetch_result_of_parts _ _ _ (by decide), by decide, by decide, by decide⟩
    | exact ⟨by decide, by decide, by decide, by decide, 1,
        fetch_result_of_parts _ _ _ (by decide), by decide, by decide, by decide⟩
    | exact ⟨by decide, by decide, by decide, by decide, 2,
        fetch_result_of_parts _ _ _ (by decide), by decide, by decide, by decide⟩

set_option maxRecDepth 100000 in
theorem refetch_after_unpin_reads_back_witness :
    run 40 (BPM.new 3 2) fillOps = some fullState ∧
    fullState.pages_.map (fun pg => (pg.page_id_, pg.pin_count_)) = [(0, 1), (1, 1), (2, 1)] ∧
    NewPgImp 40 fullState 4 = some (failedState, 3, none) ∧
    evictResult 1 = some (evictedPool 1, 4, some 1) ∧
    ExtendibleHashTable.Find pageHash (evictedPool 1).page_table_ 1 = none ∧
    ReadPage (evictedPool 1).disk_ 1 = [7, 7] ∧
    (FetchPgImp 40 (evictedPool 1) 1 6).map (fun r => r.2) = some none ∧
    (UnpinPgImp (evictedPool 1) 0 false).2 = true ∧
    ∃ g, refetchResult 1 0 = some (refetchedPool 1 0, some g) ∧
      ((refetchedPool 1 0).pageAt g).data_ = [7, 7] ∧
      ((refetchedPool 1 0).pageAt g).page_id_ = 1 ∧
      ((refetchedPool 1 0).pageAt g).pin_count_ = 1 :=
  refetch_after_unpin_reads_back 1 0 (by decide) (by decide) (by decide)

end BufferPoolManager

namespace BPlusTree

/-- C11, what the code does: when `Remove(k)` takes the last key out of the
tree, the root page id becomes `INVALID_PAGE_ID` and the `GetValue(k)` that
follows does not return false: it stops at the assertion of `FindLeaf`. While
the tree keeps a key, `GetValue` of the removed key returns false and the other
key keeps its value. -/
theorem getvalue_after_last_remove_asserts :
    (run 4 (Tree.new 4 4 : Tree Nat Nat)
        [Op.insert 5 50, Op.insert 7 70, Op.remove 5, Op.remove 7]).map
        (fun t => t.root_page_id_) = .ok INVALID_PAGE_ID ∧
    ((run 4 (Tree.new 4 4 : Tree Nat Nat)
        [Op.insert 5 50, Op.insert 7 70, Op.remove 5, Op.remove 7]).bind
        (fun t => GetValue 4 t 7)).map Prod.snd = .error Err.assertion ∧
    ((run 4 (Tree.new 4 4 : Tree Nat Nat)
        [Op.insert 5 50, Op.insert 7 70, Op.remove 5]).bind
        (fun t => GetValue 4 t 5)).map Prod.snd = .ok none ∧
    ((run 4 (Tree.new 4 4 : Tree Nat Nat)
        [Op.insert 5 50, Op.insert 7 70, Op.remove 5]).bind
        (fun t => GetValue 4 t 7)).map Prod.snd = .ok (some 70) := by
  refine ⟨rfl, rfl, rfl, rfl⟩

end BPlusTree

/-! ## B+ tree: the invariant is kept by `Insert` and `Remove` -/

namespace BPlusTree

variable {K V : Type}

theorem find_assign (m : List (Int × TreePage K V)) (id : Int) (p : TreePage K V) (id1 : Int) :
    UMap.find (assign m id p) id1 = if id1 = id then some p else UMap.find m id1 := by
  induction m with
  | nil =>
    simp only [assign, UMap.find]
    by_cases h : id = id1
    · simp [h]
    · have : ¬ id1 = id := fun e => h e.symm
      simp [h, this]
  | cons e rest ih =>
    simp only [assign]
    by_cases he : e.1 = id
    · rw [if_pos he]
      simp only [UMap.find]
      by_cases h : id1 = id
      · simp [h]
      · have h1 : ¬ id = id1 := fun e => h e.symm
        have h2 : ¬ e.1 = id1 := fun e1 => h1 (he ▸ e1)
        simp [h, h1, h2]
    · rw [if_neg he]
      simp only [UMap.find]
      by_cases h : e.1 = id1
      · have : ¬ id1 = id := fun e1 => he (h.trans e1)
        simp [h, this]
      · simp [h, ih]

theorem pm_setPage (t : Tree K V) (id : Int) (p : TreePage K V) (id1 : Int) :
    (t.setPage id p).pm id1 = if id1 = id then some p else t.pm id1 :=
  find_assign t.pages_ id p id1

theorem pm_setPage_self (t : Tree K V) (id : Int) (p : TreePage K V) :
    (t.setPage id p).pm id = some p := by
  rw [pm_setPage, if_pos rfl]

theorem pm_setPage_ne (t : Tree K V) (id : Int) (p : TreePage K V) (id1 : Int) (h : id1 ≠ id) :
    (t.setPage id p).pm id1 = t.pm id1 := by
  rw [pm_setPage, if_neg h]

theorem pageAt_eq (t : Tree K V) (id : Int) (p : TreePage K V) (h : t.pm id = some p) :
    t.pageAt id = .ok p := by
  unfold Tree.pageAt
  unfold Tree.pm at h
  rw [h]

theorem leafAt_eq (t : Tree K V) (id : Int) (L : LeafPage K V) (h : t.pm id = some (.leaf L)) :
    t.leafAt id = .ok L := by
  unfold Tree.leafAt
  unfold Tree.pm at h
  rw [h]

theorem internalAt_eq (t : Tree K V) (id : Int) (N : InternalPage K)
    (h : t.pm id = some (.internal N)) : t.internalAt id = .ok N := by
  unfold Tree.internalAt
  unfold Tree.pm at h
  rw [h]

theorem FetchPage_eq (t : Tree K V) (id : Int) (p : TreePage K V) (h : t.pm id = some p) :
    FetchPage t id = .ok (t.pin id, p) := by
  unfold FetchPage
  rw [pageAt_eq t id p h]

theorem SameCore.refl (t : Tree K V) : SameCore t t := ⟨rfl, rfl, rfl, rfl, rfl, rfl⟩

theorem SameCore.trans {t t1 t2 : Tree K V} (h1 : SameCore t t1) (h2 : SameCore t1 t2) :
    SameCore t t2 :=
  ⟨h2.1.trans h1.1, h2.2.1.trans h1.2.1, h2.2.2.1.trans h1.2.2.1,
   h2.2.2.2.1.trans h1.2.2.2.1, h2.2.2.2.2.1.trans h1.2.2.2.2.1,
   h2.2.2.2.2.2.trans h1.2.2.2.2.2⟩

theorem SameCore.pm {t t1 : Tree K V} (h : SameCore t t1) : t1.pm = t.pm := by
  unfold Tree.pm
  rw [h.1]

theorem SameCore_pin (t : Tree K V) (id : Int) : SameCore t (t.pin id) :=
  ⟨rfl, rfl, rfl, rfl, rfl, rfl⟩

theorem SameCore_UnpinPage (t : Tree K V) (id : Int) (d : Bool) : SameCore t (UnpinPage t id d) := by
  unfold UnpinPage
  split
  · exact SameCore.refl t
  · exact ⟨rfl, rfl, rfl, rfl, rfl, rfl⟩

theorem SameCore_AddIntoPageSet (t : Tree K V) (p : Option Int) :
    SameCore t (AddIntoPageSet t p) := ⟨rfl, rfl, rfl, rfl, rfl, rfl⟩

theorem SameCore_foldl_unpin (l : List (Option Int)) (t : Tree K V) :
    SameCore t (l.foldl (fun acc page => match page with
      | none => acc
      | some page_id => UnpinPage acc page_id false) t) := by
  induction l generalizing t with
  | nil => exact SameCore.refl t
  | cons p rest ih =>
    simp only [List.foldl_cons]
    cases p with
    | none => exact ih t
    | some id => exact (SameCore_UnpinPage t id false).trans (ih _)

theorem SameCore_ReleaseLatchFromQueue (t : Tree K V) : SameCore t (ReleaseLatchFromQueue t) := by
  unfold ReleaseLatchFromQueue
  have h := SameCore_foldl_unpin t.page_set_ t
  exact ⟨h.1, h.2.1, h.2.2.1, h.2.2.2.1, h.2.2.2.2.1, h.2.2.2.2.2⟩

theorem SameCore_crabRoot (t : Tree K V) (op : Operation) (node : TreePage K V) :
    SameCore t (crabRoot t op node) := by
  unfold crabRoot
  cases op with
  | SEARCH => exact SameCore.refl t
  | DELETE =>
    simp only
    split
    · exact SameCore_ReleaseLatchFromQueue t
    · exact SameCore.refl t
  | INSERT =>
    simp only
    split <;> split
    · exact (SameCore_ReleaseLatchFromQueue t).trans (SameCore_ReleaseLatchFromQueue _)
    · exact SameCore_ReleaseLatchFromQueue t
    · exact SameCore_ReleaseLatchFromQueue t
    · exact SameCore.refl t

theorem SameCore_crabChild (t : Tree K V) (op : Operation) (page : Int) (node : TreePage K V) :
    SameCore t (crabChild t op page node) := by
  unfold crabChild
  cases op with
  | SEARCH => exact SameCore_UnpinPage t page false
  | DELETE =>
    simp only
    split
    · exact (SameCore_AddIntoPageSet t _).trans (SameCore_ReleaseLatchFromQueue _)
    · exact SameCore_AddIntoPageSet t _
  | INSERT =>
    simp only
    split <;> split
    · exact ((SameCore_AddIntoPageSet t _).trans (SameCore_ReleaseLatchFromQueue _)).trans
        (SameCore_ReleaseLatchFromQueue _)
    · exact (SameCore_AddIntoPageSet t _).trans (SameCore_ReleaseLatchFromQueue _)
    · exact (SameCore_AddIntoPageSet t _).trans (SameCore_ReleaseLatchFromQueue _)
    · exact SameCore_AddIntoPageSet t _

end BPlusTree

namespace BPlusTree

variable {K V : Type}

theorem nextLo_append (A B : List (K × Int)) (hi : Option K) :
    nextLo (A ++ B) hi = nextLo A (nextLo B hi) := by
  cases A <;> rfl

section

variable [LinearOrder K]

theorem ltB_trans {a : Option K} {b : K} {c : Option K} (h1 : ltB a (some b))
    (h2 : ltB (some b) c) : ltB a c :=
  fun l u hl hu => lt_trans (h1 l b hl rfl) (h2 b u rfl hu)

theorem KidsL_ltB {R : Int → Option K → Option K → List (LeafView K V) → List Int → Prop}
    {lo hi : Option K} {A : List (K × Int)} {ls : List (LeafView K V)} {ids : List Int}
    (hne : A ≠ []) (h : KidsL R lo A hi ls ids) : ltB lo hi := by
  induction A generalizing lo ls ids with
  | nil => exact absurd rfl hne
  | cons e rest ih =>
    obtain ⟨hlt, ls1, ls2, ids1, ids2, _, _, _, hk⟩ := h
    cases rest with
    | nil => exact hlt
    | cons e1 rest1 => exact ltB_trans hlt (ih (by simp) hk)

theorem KidsL_append_intro
    {R : Int → Option K → Option K → List (LeafView K V) → List Int → Prop}
    {lo hi : Option K} {A B : List (K × Int)} {ls1 ls2 : List (LeafView K V)}
    {ids1 ids2 : List Int}
    (h1 : KidsL R lo A (nextLo B hi) ls1 ids1)
    (h2 : KidsL R (if A = [] then lo else nextLo B hi) B hi ls2 ids2) :
    KidsL R lo (A ++ B) hi (ls1 ++ ls2) (ids1 ++ ids2) := by
  induction A generalizing lo ls1 ids1 with
  | nil =>
    obtain ⟨e1, e2⟩ := h1
    subst e1; subst e2
    simpa using h2
  | cons e rest ih =>
    obtain ⟨hlt, la, lb, ia, ib, e1, e2, hR, hk⟩ := h1
    subst e1; subst e2
    rw [if_neg (by simp)] at h2
    show KidsL R lo (e :: (rest ++ B)) hi _ _
    refine ⟨by rw [nextLo_append]; exact hlt, la, lb ++ ls2, ia, ib ++ ids2,
      by simp, by simp, by rw [nextLo_append]; exact hR, ?_⟩
    rw [nextLo_append]
    apply ih hk
    by_cases hr : rest = []
    · subst hr
      simpa [nextLo] using h2
    · rw [if_neg hr]; exact h2

theorem KidsL_append_elim
    {R : Int → Option K → Option K → List (LeafView K V) → List Int → Prop}
    {lo hi : Option K} {A B : List (K × Int)} {ls : List (LeafView K V)} {ids : List Int}
    (h : KidsL R lo (A ++ B) hi ls ids) :
    ∃ ls1 ls2 ids1 ids2, ls = ls1 ++ ls2 ∧ ids = ids1 ++ ids2 ∧
      KidsL R lo A (nextLo B hi) ls1 ids1 ∧
      KidsL R (if A = [] then lo else nextLo B hi) B hi ls2 ids2 := by
  induction A generalizing lo ls ids with
  | nil => exact ⟨[], ls, [], ids, rfl, rfl, ⟨rfl, rfl⟩, by simpa using h⟩
  | cons e rest ih =>
    have h0 : KidsL R lo (e :: (rest ++ B)) hi ls ids := h
    obtain ⟨hlt, la, lb, ia, ib, e1, e2, hR, hk⟩ := h0
    rw [nextLo_append] at hlt hR hk
    obtain ⟨l1, l2, i1, i2, e3, e4, hk1, hk2⟩ := ih hk
    refine ⟨la ++ l1, l2, ia ++ i1, i2, by rw [e1, e3, List.append_assoc],
      by rw [e2, e4, List.append_assoc], ⟨hlt, la, l1, ia, i1, rfl, rfl, hR, hk1⟩, ?_⟩
    rw [if_neg (by simp)]
    by_cases hr : rest = []
    · subst hr
      simpa [nextLo] using hk2
    · rw [if_neg hr] at hk2; exact hk2

theorem KidsL_imp
    {R R1 : Int → Option K → Option K → List (LeafView K V) → List Int → Prop}
    {lo hi : Option K} {A : List (K × Int)} {ls : List (LeafView K V)} {ids : List Int}
    (S : Int → Prop) (hS : ∀ id ∈ ids, S id)
    (H : ∀ c lo1 hi1 ls1 ids1, (∀ id ∈ ids1, S id) → R c lo1 hi1 ls1 ids1 → R1 c lo1 hi1 ls1 ids1)
    (h : KidsL R lo A hi ls ids) : KidsL R1 lo A hi ls ids := by
  induction A generalizing lo ls ids with
  | nil => exact h
  | cons e rest ih =>
    obtain ⟨hlt, la, lb, ia, ib, e1, e2, hR, hk⟩ := h
    subst e2
    refine ⟨hlt, la, lb, ia, ib, e1, rfl,
      H _ _ _ _ _ (fun id hid => hS id (List.mem_append_left _ hid)) hR,
      ih (fun id hid => hS id (List.mem_append_right _ hid)) hk⟩

/-- The entries of a run name the roots of its subtrees: every child id is on
the pages of the run when `R` puts the root of a subtree on its pages. -/
theorem KidsL_child_mem
    {R : Int → Option K → Option K → List (LeafView K V) → List Int → Prop}
    {lo hi : Option K} {A : List (K × Int)} {ls : List (LeafView K V)} {ids : List Int}
    (H : ∀ c lo1 hi1 ls1 ids1, R c lo1 hi1 ls1 ids1 → c ∈ ids1)
    (h : KidsL R lo A hi ls ids) : ∀ e ∈ A, e.2 ∈ ids := by
  induction A generalizing lo ls ids with
  | nil => intro e he; cases he
  | cons e rest ih =>
    obtain ⟨_, la, lb, ia, ib, _, e2, hR, hk⟩ := h
    subst e2
    intro e1 he1
    rcases List.mem_cons.1 he1 with h1 | h1
    · subst h1; exact List.mem_append_left _ (H _ _ _ _ _ hR)
    · exact List.mem_append_right _ (ih hk e1 h1)

theorem KidsL_inB
    {R : Int → Option K → Option K → List (LeafView K V) → List Int → Prop}
    {lo hi : Option K} {A : List (K × Int)} {ls : List (LeafView K V)} {ids : List Int}
    (H : ∀ c lo1 hi1 ls1 ids1, R c lo1 hi1 ls1 ids1 →
      ∀ L ∈ ls1, ∀ e ∈ L.items, inB lo1 hi1 e.1)
    (h : KidsL R lo A hi ls ids) : ∀ L ∈ ls, ∀ e ∈ L.items, inB lo hi e.1 := by
  induction A generalizing lo ls ids with
  | nil =>
    obtain ⟨e1, _⟩ := h
    subst e1
    intro L hL; cases hL
  | cons e rest ih =>
    obtain ⟨hlt, la, lb, ia, ib, e1, e2, hR, hk⟩ := h
    subst e1
    intro L hL x hx
    rcases List.mem_append.1 hL with h1 | h1
    · have hb := H _ _ _ _ _ hR L h1 x hx
      refine ⟨hb.1, fun u hu => ?_⟩
      cases rest with
      | nil => exact hb.2 u hu
      | cons e1 rest1 =>
        have h2 : ltB (some e1.1) hi := KidsL_ltB (by simp) hk
        exact lt_trans (hb.2 e1.1 rfl) (h2 e1.1 u rfl hu)
    · have hb := ih hk L h1 x hx
      refine ⟨fun l hl => ?_, hb.2⟩
      cases rest with
      | nil =>
        obtain ⟨e3, _⟩ := hk
        subst e3; cases h1
      | cons e1 rest1 =>
        exact le_trans (le_of_lt (hlt l e1.1 hl rfl)) (hb.1 e1.1 rfl)

end

end BPlusTree

namespace BPlusTree

variable {K V : Type} [LinearOrder K]

theorem Rep_root_mem {P : Int → Option (TreePage K V)} {lm im : Nat} {s : Bool} {h : Nat}
    {pid par : Int} {lo hi : Option K} {ls : List (LeafView K V)} {ids : List Int}
    (hr : Rep P lm im s h pid par lo hi ls ids) : ∃ ids1, ids = pid :: ids1 := by
  cases h with
  | zero =>
    obtain ⟨L, _, _, _, _, _, _, _, _, e⟩ := hr
    exact ⟨[], e⟩
  | succ n =>
    obtain ⟨N, ids1, _, _, _, _, _, _, _, e⟩ := hr
    exact ⟨ids1, e⟩

theorem Rep_pid_mem {P : Int → Option (TreePage K V)} {lm im : Nat} {s : Bool} {h : Nat}
    {pid par : Int} {lo hi : Option K} {ls : List (LeafView K V)} {ids : List Int}
    (hr : Rep P lm im s h pid par lo hi ls ids) : pid ∈ ids := by
  obtain ⟨ids1, e⟩ := Rep_root_mem hr
  rw [e]; exact List.mem_cons_self _ _

theorem Rep_weaken {P : Int → Option (TreePage K V)} {lm im : Nat} {s : Bool} {h : Nat}
    {pid par : Int} {lo hi : Option K} {ls : List (LeafView K V)} {ids : List Int}
    (hr : Rep P lm im true h pid par lo hi ls ids) : Rep P lm im s h pid par lo hi ls ids := by
  cases h with
  | zero =>
    obtain ⟨L, h1, h2, h3, h4, h5, h6, h7, h8, h9⟩ := hr
    exact ⟨L, h1, h2, h3, h4, h5, h6, fun _ => h7 rfl, h8, h9⟩
  | succ n =>
    obtain ⟨N, ids1, h1, h2, h3, h4, h5, h6, h7, h8⟩ := hr
    exact ⟨N, ids1, h1, h2, h3, h4, h5, fun _ => h6 rfl, h7, h8⟩

theorem Rep_frame {P P1 : Int → Option (TreePage K V)} {lm im : Nat} {s : Bool} {h : Nat}
    {pid par : Int} {lo hi : Option K} {ls : List (LeafView K V)} {ids : List Int}
    (hP : ∀ id ∈ ids, P1 id = P id)
    (hr : Rep P lm im s h pid par lo hi ls ids) : Rep P1 lm im s h pid par lo hi ls ids := by
  induction h generalizing s pid par lo hi ls ids with
  | zero =>
    obtain ⟨L, h1, h2, h3, h4, h5, h6, h7, h8, h9⟩ := hr
    refine ⟨L, ?_, h2, h3, h4, h5, h6, h7, h8, h9⟩
    rw [hP pid (by rw [h9]; exact List.mem_cons_self _ _), h1]
  | succ n ih =>
    obtain ⟨N, ids1, h1, h2, h3, h4, h5, h6, h7, h8⟩ := hr
    refine ⟨N, ids1, ?_, h2, h3, h4, h5, h6, ?_, h8⟩
    · rw [hP pid (by rw [h8]; exact List.mem_cons_self _ _), h1]
    · apply KidsL_imp (fun id => P1 id = P id)
        (fun id hid => hP id (by rw [h8]; exact List.mem_cons_of_mem _ hid)) _ h7
      intro c lo1 hi1 ls1 ids2 hS hrc
      exact ih hS hrc

theorem Rep_inB {P : Int → Option (TreePage K V)} {lm im : Nat} {s : Bool} {h : Nat}
    {pid par : Int} {lo hi : Option K} {ls : List (LeafView K V)} {ids : List Int}
    (hr : Rep P lm im s h pid par lo hi ls ids) : ∀ L ∈ ls, ∀ e ∈ L.items, inB lo hi e.1 := by
  induction h generalizing s pid par lo hi ls ids with
  | zero =>
    obtain ⟨L, h1, h2, h3, h4, h5, h6, h7, h8, h9⟩ := hr
    subst h8
    intro L1 hL1 e he
    rw [List.mem_singleton] at hL1
    subst hL1
    exact h6 e he
  | succ n ih =>
    obtain ⟨N, ids1, h1, h2, h3, h4, h5, h6, h7, h8⟩ := hr
    exact KidsL_inB (fun c lo1 hi1 ls1 ids2 hrc => ih hrc) h7

theorem KidsL_ls_ne
    {R : Int → Option K → Option K → List (LeafView K V) → List Int → Prop}
    {lo hi : Option K} {A : List (K × Int)} {ls : List (LeafView K V)} {ids : List Int}
    (H : ∀ c lo1 hi1 ls1 ids1, R c lo1 hi1 ls1 ids1 → ls1 ≠ [])
    (hne : A ≠ []) (h : KidsL R lo A hi ls ids) : ls ≠ [] := by
  cases A with
  | nil => exact absurd rfl hne
  | cons e rest =>
    obtain ⟨_, la, lb, ia, ib, e1, _, hR, _⟩ := h
    subst e1
    have := H _ _ _ _ _ hR
    intro hc
    exact this (List.append_eq_nil.1 hc).1

theorem Rep_ls_ne {P : Int → Option (TreePage K V)} {lm im : Nat} {s : Bool} {h : Nat}
    {pid par : Int} {lo hi : Option K} {ls : List (LeafView K V)} {ids : List Int}
    (hr : Rep P lm im s h pid par lo hi ls ids) : ls ≠ [] := by
  induction h generalizing s pid par lo hi ls ids with
  | zero =>
    obtain ⟨L, h1, h2, h3, h4, h5, h6, h7, h8, h9⟩ := hr
    rw [h8]; simp
  | succ n ih =>
    obtain ⟨N, ids1, h1, h2, h3, h4, h5, h6, h7, h8⟩ := hr
    exact KidsL_ls_ne (fun c lo1 hi1 ls1 ids2 hrc => ih hrc) h5 h7

end BPlusTree

namespace BPlusTree

variable {K V : Type} [LinearOrder K]

theorem KidsL_lo_lt
    {R : Int → Option K → Option K → List (LeafView K V) → List Int → Prop}
    {lo hi : Option K} {A : List (K × Int)} {ls : List (LeafView K V)} {ids : List Int}
    (h : KidsL R lo A hi ls ids) : ∀ e ∈ A.drop 1, ltB lo (some e.1) := by
  induction A generalizing lo ls ids with
  | nil => intro e he; cases he
  | cons e rest ih =>
    obtain ⟨hlt, la, lb, ia, ib, _, _, _, hk⟩ := h
    intro x hx
    simp only [List.drop_succ_cons, List.drop_zero] at hx
    cases rest with
    | nil => cases hx
    | cons e1 rest1 =>
      rcases List.mem_cons.1 hx with h1 | h1
      · subst h1; exact hlt
      · exact ltB_trans hlt (ih hk x (by simpa using h1))

theorem KidsL_sorted
    {R : Int → Option K → Option K → List (LeafView K V) → List Int → Prop}
    {lo hi : Option K} {A : List (K × Int)} {ls : List (LeafView K V)} {ids : List Int}
    (h : KidsL R lo A hi ls ids) : ((A.drop 1).map Prod.fst).Pairwise (· < ·) := by
  induction A generalizing lo ls ids with
  | nil => simp
  | cons e rest ih =>
    obtain ⟨hlt, la, lb, ia, ib, _, _, _, hk⟩ := h
    simp only [List.drop_succ_cons, List.drop_zero]
    cases rest with
    | nil => simp
    | cons e1 rest1 =>
      have h1 := ih hk
      have h2 := KidsL_lo_lt hk
      simp only [List.drop_succ_cons, List.drop_zero] at h1 h2
      simp only [List.map_cons, List.pairwise_cons]
      refine ⟨fun k hk1 => ?_, h1⟩
      obtain ⟨x, hx, rfl⟩ := List.mem_map.1 hk1
      exact h2 x hx e1.1 x.1 rfl rfl

/-- The entry whose range holds `key`. -/
theorem KidsL_locate
    {R : Int → Option K → Option K → List (LeafView K V) → List Int → Prop}
    {lo hi : Option K} {A : List (K × Int)} {ls : List (LeafView K V)} {ids : List Int}
    (key : K) (hne : A ≠ []) (h : KidsL R lo A hi ls ids) (hin : inB lo hi key) :
    ∃ A1 kc c A2, A = A1 ++ (kc, c) :: A2 ∧
      inB (if A1 = [] then lo else some kc) (nextLo A2 hi) key := by
  induction A generalizing lo ls ids with
  | nil => exact absurd rfl hne
  | cons e rest ih =>
    obtain ⟨hlt, la, lb, ia, ib, _, _, _, hk⟩ := h
    cases rest with
    | nil => exact ⟨[], e.1, e.2, [], rfl, by simpa [nextLo] using hin⟩
    | cons e1 rest1 =>
      by_cases hkey : key < e1.1
      · refine ⟨[], e.1, e.2, e1 :: rest1, rfl, ?_⟩
        simp only [if_true, nextLo]
        exact ⟨hin.1, fun u hu => by cases hu; exact hkey⟩
      · have hin1 : inB (some e1.1) hi key :=
          ⟨fun l hl => by cases hl; exact not_lt.1 hkey, hin.2⟩
        obtain ⟨A1, kc, c, A2, e2, hb⟩ := ih (by simp) hk hin1
        refine ⟨e :: A1, kc, c, A2, by rw [e2]; rfl, ?_⟩
        rw [if_neg (by simp)]
        cases A1 with
        | nil =>
          simp only [List.nil_append, List.cons.injEq] at e2
          rw [if_pos rfl, e2.1] at hb
          exact hb
        | cons a A1r =>
          rw [if_neg (by simp)] at hb
          exact hb

theorem takeWhile_none {α : Type} (p : α → Bool) (l : List α) (h : ∀ e ∈ l.head?, p e = false) :
    l.takeWhile p = [] := by
  cases l with
  | nil => rfl
  | cons a rest =>
    have := h a (by simp)
    simp [List.takeWhile_cons, this]

theorem getq_mid {α : Type} (A : List α) (x : α) (B : List α) :
    (A ++ x :: B).get? A.length = some x := by
  rw [List.get?_eq_getElem?, List.getElem?_append_right (Nat.le_refl _)]
  simp

theorem getq_mid_succ {α : Type} (A : List α) (x y : α) (B : List α) :
    (A ++ x :: y :: B).get? (A.length + 1) = some y := by
  rw [List.get?_eq_getElem?, List.getElem?_append_right (by omega)]
  simp

theorem lowerBound_spec (N : InternalPage K) (A : List (K × Int)) (kc : K) (c : Int)
    (B : List (K × Int)) (key : K) (harr : N.array_ = A ++ (kc, c) :: B)
    (hsorted : ((N.array_.drop 1).map Prod.fst).Pairwise (· < ·))
    (hlo : A ≠ [] → kc ≤ key) (hhi : ∀ e ∈ B, key < e.1) :
    N.lowerBound key = if A ≠ [] ∧ kc = key then A.length else A.length + 1 := by
  have hB : B.takeWhile (fun it => decide (it.1 < key)) = [] := by
    apply takeWhile_none
    intro e he
    have : e ∈ B := by
      cases B with
      | nil => simp at he
      | cons b rest => simp at he; subst he; simp
    simpa using le_of_lt (hhi e this)
  unfold InternalPage.lowerBound
  rw [harr]
  cases A with
  | nil =>
    rw [if_neg (fun hh => hh.1 rfl)]
    simp only [List.nil_append, List.drop_succ_cons, List.drop_zero, hB, List.length_nil]
  | cons a A1 =>
    rw [harr] at hsorted
    simp only [List.cons_append, List.drop_succ_cons, List.drop_zero, List.map_append,
      List.map_cons, List.pairwise_append, List.pairwise_cons] at hsorted
    have hA1 : ∀ e ∈ A1, decide (e.1 < key) = true := by
      intro e he
      have h1 : e.1 < kc := hsorted.2.2 e.1 (List.mem_map_of_mem _ he) kc (by simp)
      simpa using lt_of_lt_of_le h1 (hlo (by simp))
    simp only [List.cons_append, List.drop_succ_cons, List.drop_zero]
    rw [List.takeWhile_append_of_pos hA1, List.takeWhile_cons]
    by_cases hk : kc < key
    · have hne : ¬ kc = key := ne_of_lt hk
      have hd : decide ((kc, c).1 < key) = true := by simpa using hk
      rw [if_pos hd, hB,
        if_neg (show ¬ ((a :: A1) ≠ [] ∧ kc = key) from fun hh => hne hh.2)]
      simp only [List.length_append, List.length_cons, List.length_nil]
      omega
    · have hke : kc = key := le_antisymm (hlo (by simp)) (not_lt.1 hk)
      have hd : ¬ decide ((kc, c).1 < key) = true := by simpa using hk
      rw [if_neg hd, if_pos (show (a :: A1) ≠ [] ∧ kc = key from ⟨by simp, hke⟩)]
      simp only [List.append_nil, List.length_cons]
      omega

/-- `Lookup` returns the child of the last entry whose key is not above `key`,
the child of slot 0 if there is none. -/
theorem Lookup_spec (N : InternalPage K) (A : List (K × Int)) (kc : K) (c : Int)
    (B : List (K × Int)) (key : K) (harr : N.array_ = A ++ (kc, c) :: B)
    (hsorted : ((N.array_.drop 1).map Prod.fst).Pairwise (· < ·))
    (hlo : A ≠ [] → kc ≤ key) (hhi : ∀ e ∈ B, key < e.1) :
    N.Lookup key = .ok c := by
  have hlb := lowerBound_spec N A kc c B key harr hsorted hlo hhi
  have hsize : N.GetSize = A.length + 1 + B.length := by
    simp only [InternalPage.GetSize, harr, List.length_append, List.length_cons]
    omega
  have hval : N.ValueAt A.length = .ok c := by
    simp only [InternalPage.ValueAt, harr, getq_mid]
  unfold InternalPage.Lookup
  simp only []
  rw [if_neg (by omega)]
  by_cases hcase : A ≠ [] ∧ kc = key
  · rw [if_pos hcase] at hlb
    rw [hlb, if_neg (by omega), harr, getq_mid]
    simp only [hcase.2, if_true]
  · rw [if_neg hcase] at hlb
    rw [hlb]
    cases B with
    | nil =>
      rw [if_pos (by simp at hsize; omega)]
      have : N.GetSize - 1 = A.length := by simp at hsize; omega
      rw [this, hval]
    | cons b rest =>
      have hb : ¬ b.1 = key := ne_of_gt (hhi b (by simp))
      rw [if_neg (by simp at hsize; omega), harr, getq_mid_succ]
      simp only [hb, if_false]
      have : A.length + 1 - 1 = A.length := by omega
      rw [this, hval]

end BPlusTree

namespace BPlusTree

variable {K V : Type} [LinearOrder K]

theorem Rep_page {P : Int → Option (TreePage K V)} {lm im : Nat} {s : Bool} {h : Nat}
    {pid par : Int} {lo hi : Option K} {ls : List (LeafView K V)} {ids : List Int}
    (hr : Rep P lm im s h pid par lo hi ls ids) :
    ∃ node, P pid = some node ∧ node.GetPageId = pid ∧ node.GetParentPageId = par ∧
      (node.IsLeafPage = true ↔ h = 0) := by
  cases h with
  | zero =>
    obtain ⟨L, h1, h2, h3, _⟩ := hr
    exact ⟨.leaf L, h1, h2, h3, by simp [TreePage.IsLeafPage]⟩
  | succ n =>
    obtain ⟨N, ids1, h1, h2, h3, _⟩ := hr
    exact ⟨.internal N, h1, h2, h3, by simp [TreePage.IsLeafPage]⟩

theorem KidsL_nil_iff
    {R : Int → Option K → Option K → List (LeafView K V) → List Int → Prop}
    {lo hi : Option K} {ls : List (LeafView K V)} {ids : List Int} :
    KidsL R lo [] hi ls ids ↔ ls = [] ∧ ids = [] := Iff.rfl

theorem perm_focus (a : Int) (x y z w : List Int) :
    (a :: (x ++ (y ++ z)) ++ w).Perm (y ++ a :: (x ++ z ++ w)) := by
  rw [List.perm_iff_count]
  intro b
  simp only [List.count_append, List.count_cons, List.cons_append]
  omega

/-- The descent of `FindLeaf` for a key: from a well-formed subtree it arrives,
fuel permitting, at the leaf whose range holds the key, and changes nothing but
pins and the page set. -/
theorem descend_spec (op : Operation) (key : K) (root : Int)
    (P : Int → Option (TreePage K V)) (lm im : Nat) :
    ∀ (h d fuel : Nat) (t : Tree K V) (pid par : Int) (node : TreePage K V)
      (lo hi : Option K) (ls lsL lsR : List (LeafView K V)) (ids idsC : List Int),
      t.pm = P →
      Rep P lm im true h pid par lo hi ls ids →
      Ctx P lm im root d h pid par lo hi lsL lsR idsC →
      P pid = some node → inB lo hi key → (∀ id ∈ ids, 0 < id) →
      (fuel < h ∧ descend key op false false fuel t pid node = .error .out_of_fuel) ∨
      ∃ t1 leaf parL loL hiL lsL1 lsR1 idsC1 L,
        descend key op false false fuel t pid node = .ok (t1, leaf) ∧ SameCore t t1 ∧
        Ctx P lm im root (d + h) 0 leaf parL loL hiL lsL1 lsR1 idsC1 ∧
        Rep P lm im true 0 leaf parL loL hiL [L] [leaf] ∧ inB loL hiL key ∧
        lsL ++ ls ++ lsR = lsL1 ++ [L] ++ lsR1 ∧ (ids ++ idsC).Perm (leaf :: idsC1) := by
  intro h
  induction h with
  | zero =>
    intro d fuel t pid par node lo hi ls lsL lsR ids idsC hP hr hc hnode hin hpos
    right
    have hr0 := hr
    obtain ⟨L, h1, h2, h3, h4, h5, h6, h7, h8, h9⟩ := hr
    rw [h1] at hnode
    injection hnode with hnode
    subst hnode
    subst h8; subst h9
    refine ⟨t, pid, par, lo, hi, lsL, lsR, idsC, _, ?_, SameCore.refl t, hc, hr0, hin, rfl,
      List.Perm.refl _⟩
    cases fuel <;> rfl
  | succ n ih =>
    intro d fuel t pid par node lo hi ls lsL lsR ids idsC hP hr hc hnode hin hpos
    obtain ⟨N, ids1, h1, h2, h3, h4, h5, h6, h7, h8⟩ := hr
    rw [h1] at hnode
    injection hnode with hnode
    subst hnode
    cases fuel with
    | zero => exact Or.inl ⟨Nat.succ_pos _, rfl⟩
    | succ f =>
      obtain ⟨A1, kc, c, A2, harr, hb⟩ := KidsL_locate key h5 h7 hin
      have hsorted := KidsL_sorted h7
      rw [harr] at h7
      obtain ⟨la, lb, ia, ib, e1, e2, hkA, hkB⟩ := KidsL_append_elim h7
      obtain ⟨hlt, lsc, ls2, idsc, ids2, e3, e4, hRc, hk2⟩ := hkB
      have hhi : ∀ e ∈ A2, key < e.1 := by
        intro e he
        cases A2 with
        | nil => cases he
        | cons e0 r =>
          have hk0 : key < e0.1 := hb.2 e0.1 rfl
          rcases List.mem_cons.1 he with h0 | h0
          · rw [h0]; exact hk0
          · exact lt_trans hk0 (KidsL_lo_lt hk2 e (by simpa using h0) e0.1 e.1 rfl rfl)
      have hlo : A1 ≠ [] → kc ≤ key := by
        intro hne
        rw [if_neg hne] at hb
        exact hb.1 kc rfl
      have hlook := Lookup_spec N A1 kc c A2 key harr hsorted hlo hhi
      have hcmem : c ∈ ids := by
        rw [h8, e2, e4]
        exact List.mem_cons_of_mem _ (List.mem_append_right _
          (List.mem_append_left _ (Rep_pid_mem hRc)))
      have hcpos : 0 < c := hpos c hcmem
      obtain ⟨nodec, hPc, _, _, _⟩ := Rep_page hRc
      have hfetch := FetchPage_eq t c nodec (by rw [hP]; exact hPc)
      have hstep : descend key op false false (f + 1) t pid (.internal N)
          = descend key op false false f (crabChild (t.pin c) op pid nodec) c nodec := by
        simp only [descend, hlook, hfetch, Bool.false_eq_true, if_false]
        rw [if_neg (by simpa using hcpos)]
      have hsc : SameCore t (crabChild (t.pin c) op pid nodec) :=
        (SameCore_pin t c).trans (SameCore_crabChild _ _ _ _)
      have hctx : Ctx P lm im root (d + 1) n c pid (if A1 = [] then lo else some kc)
          (nextLo A2 hi) (lsL ++ la) (ls2 ++ lsR) (pid :: (ia ++ ids2 ++ idsC)) := by
        refine ⟨N, A1, kc, A2, par, lo, hi, la, ls2, lsL, lsR, ia, ids2, idsC, h1, h2, h3, h4,
          harr, h6 rfl, rfl, rfl, hlt, ?_, hk2, hc, rfl, rfl, rfl⟩
        by_cases hA : A1 = []
        · subst hA
          exact hkA
        · rw [if_neg hA]
          exact hkA
      have hposc : ∀ id ∈ idsc, 0 < id := by
        intro id hid
        apply hpos
        rw [h8, e2, e4]
        exact List.mem_cons_of_mem _ (List.mem_append_right _ (List.mem_append_left _ hid))
      rcases ih (d + 1) f (crabChild (t.pin c) op pid nodec) c pid nodec _ _ lsc (lsL ++ la)
        (ls2 ++ lsR) idsc (pid :: (ia ++ ids2 ++ idsC)) (by rw [hsc.pm, hP]) hRc hctx hPc hb hposc
        with hfail | ⟨t1, leaf, parL, loL, hiL, lsL1, lsR1, idsC1, L, hd, hsc1, hc1, hr1, hin1,
          els, eids⟩
      · left
        exact ⟨Nat.succ_lt_succ hfail.1, by rw [hstep]; exact hfail.2⟩
      · right
        have ed : d + 1 + n = d + (n + 1) := by omega
        rw [ed] at hc1
        refine ⟨t1, leaf, parL, loL, hiL, lsL1, lsR1, idsC1, L, by rw [hstep]; exact hd,
          hsc.trans hsc1, hc1, hr1, hin1, ?_, ?_⟩
        · rw [← els, e1, e3]
          simp only [List.append_assoc]
        · refine List.Perm.trans ?_ eids
          rw [h8, e2, e4]
          exact perm_focus pid ia idsc ids2 idsC

end BPlusTree

namespace BPlusTree

variable {K V : Type} [LinearOrder K]

theorem Ctx_frame {P P1 : Int → Option (TreePage K V)} {lm im : Nat} {root : Int} {d h : Nat}
    {pid par : Int} {lo hi : Option K} {lsL lsR : List (LeafView K V)} {idsC : List Int}
    (hP : ∀ id ∈ idsC, P1 id = P id)
    (hc : Ctx P lm im root d h pid par lo hi lsL lsR idsC) :
    Ctx P1 lm im root d h pid par lo hi lsL lsR idsC := by
  induction d generalizing h pid par lo hi lsL lsR idsC with
  | zero => exact hc
  | succ n ih =>
    obtain ⟨N, A, kc, B, gpar, loP, hiP, lsA, lsB, lsL1, lsR1, idsA, idsB, idsC1, h1, h2, h3, h4,
      h5, h6, h7, h8, h9, h10, h11, h12, h13, h14, h15⟩ := hc
    subst h15
    refine ⟨N, A, kc, B, gpar, loP, hiP, lsA, lsB, lsL1, lsR1, idsA, idsB, idsC1, ?_, h2, h3, h4,
      h5, h6, h7, h8, h9, ?_, ?_, ?_, h13, h14, rfl⟩
    · rw [hP par (List.mem_cons_self _ _), h1]
    · apply KidsL_imp (fun id => P1 id = P id) _ _ h10
      · intro id hid
        exact hP id (List.mem_cons_of_mem _ (List.mem_append_left _ (List.mem_append_left _ hid)))
      · intro c lo1 hi1 ls1 ids2 hS hrc
        exact Rep_frame hS hrc
    · apply KidsL_imp (fun id => P1 id = P id) _ _ h11
      · intro id hid
        exact hP id (List.mem_cons_of_mem _ (List.mem_append_left _ (List.mem_append_right _ hid)))
      · intro c lo1 hi1 ls1 ids2 hS hrc
        exact Rep_frame hS hrc
    · apply ih _ h12
      intro id hid
      exact hP id (List.mem_cons_of_mem _ (List.mem_append_right _ hid))

theorem perm_plug (a : Int) (x y z w : List Int) :
    ((a :: (x ++ y ++ z)) ++ w).Perm (y ++ a :: (x ++ z ++ w)) := by
  rw [List.perm_iff_count]
  intro b
  simp only [List.count_append, List.count_cons, List.cons_append]
  omega

/-- A well-formed subtree put into the hole of a context gives a well-formed
tree from the root. -/
theorem Ctx_plug {P : Int → Option (TreePage K V)} {lm im : Nat} {root : Int} {d h : Nat}
    {pid par : Int} {lo hi : Option K} {lsL lsR ls : List (LeafView K V)} {idsC ids : List Int}
    (hc : Ctx P lm im root d h pid par lo hi lsL lsR idsC)
    (hr : Rep P lm im true h pid par lo hi ls ids) :
    ∃ ids1, Rep P lm im true (h + d) root INVALID_PAGE_ID none none (lsL ++ ls ++ lsR) ids1 ∧
      ids1.Perm (ids ++ idsC) := by
  induction d generalizing h pid par lo hi lsL lsR ls idsC ids with
  | zero =>
    obtain ⟨e1, e2, e3, e4, e5, e6, e7⟩ := hc
    subst e1; subst e2; subst e3; subst e4; subst e5; subst e6; subst e7
    exact ⟨ids, by simpa using hr, by simp⟩
  | succ n ih =>
    obtain ⟨N, A, kc, B, gpar, loP, hiP, lsA, lsB, lsL1, lsR1, idsA, idsB, idsC1, h1, h2, h3, h4,
      h5, h6, h7, h8, h9, h10, h11, h12, h13, h14, h15⟩ := hc
    subst h13; subst h14; subst h15
    have hk : KidsL (fun c lo1 hi1 ls1 ids2 => Rep P lm im true h c par lo1 hi1 ls1 ids2)
        loP (A ++ (kc, pid) :: B) hiP (lsA ++ (ls ++ lsB)) (idsA ++ (ids ++ idsB)) := by
      apply KidsL_append_intro
      · by_cases hA : A = []
        · subst hA
          exact h10
        · rw [h7, if_neg hA] at h10
          exact h10
      · have e0 : (if A = [] then loP else nextLo ((kc, pid) :: B) hiP) = lo := h7.symm
        rw [e0]
        refine ⟨by rw [← h8]; exact h9, ls, lsB, ids, idsB, rfl, rfl, ?_, ?_⟩
        · rw [← h8]; exact hr
        · rw [← h8]; exact h11
    have hrp : Rep P lm im true (h + 1) par gpar loP hiP (lsA ++ (ls ++ lsB))
        (par :: (idsA ++ (ids ++ idsB))) :=
      ⟨N, _, h1, h2, h3, h4, by rw [h5]; simp, fun _ => h6, by rw [h5]; exact hk, rfl⟩
    obtain ⟨ids1, hr1, hp1⟩ := ih h12 hrp
    have e : h + 1 + n = h + (n + 1) := by omega
    rw [e] at hr1
    refine ⟨ids1, by simpa [List.append_assoc] using hr1, hp1.trans ?_⟩
    have := perm_plug par idsA ids idsB idsC1
    simpa [List.append_assoc] using this

theorem Rep_height_lt {P : Int → Option (TreePage K V)} {lm im : Nat} {s : Bool} {h : Nat}
    {pid par : Int} {lo hi : Option K} {ls : List (LeafView K V)} {ids : List Int}
    (hr : Rep P lm im s h pid par lo hi ls ids) : h < ids.length := by
  induction h generalizing s pid par lo hi ls ids with
  | zero =>
    obtain ⟨ids1, e⟩ := Rep_root_mem hr
    rw [e]; simp
  | succ n ih =>
    obtain ⟨N, ids1, h1, h2, h3, h4, h5, h6, h7, h8⟩ := hr
    subst h8
    cases hN : N.array_ with
    | nil => exact absurd hN h5
    | cons e rest =>
      rw [hN] at h7
      obtain ⟨_, la, lb, ia, ib, _, e2, hR, _⟩ := h7
      have := ih hR
      rw [e2]
      simp only [List.length_cons, List.length_append]
      omega

end BPlusTree

namespace BPlusTree

variable {K V : Type} [LinearOrder K]

theorem lookupKV_nil (k : K) : lookupKV ([] : List (K × V)) k = none := rfl

theorem lookupKV_cons (e : K × V) (l : List (K × V)) (k : K) :
    lookupKV (e :: l) k = if e.1 = k then some e.2 else lookupKV l k := by
  unfold lookupKV
  by_cases h : e.1 = k
  · simp [List.find?_cons, h]
  · simp [List.find?_cons, h]

theorem lookupKV_eq_none (l : List (K × V)) (k : K) (h : ∀ e ∈ l, e.1 ≠ k) :
    lookupKV l k = none := by
  induction l with
  | nil => rfl
  | cons e rest ih =>
    rw [lookupKV_cons, if_neg (h e (List.mem_cons_self _ _))]
    exact ih (fun x hx => h x (List.mem_cons_of_mem _ hx))

theorem lookupKV_isSome_iff (l : List (K × V)) (k : K) :
    (lookupKV l k).isSome = true ↔ k ∈ l.map Prod.fst := by
  induction l with
  | nil => simp [lookupKV_nil]
  | cons e rest ih =>
    rw [lookupKV_cons]
    by_cases h : e.1 = k
    · simp [h]
    · rw [if_neg h, ih]
      simp only [List.map_cons, List.mem_cons]
      constructor
      · intro hm; exact Or.inr hm
      · intro hm
        rcases hm with h1 | h1
        · exact absurd h1.symm h
        · exact h1

theorem lookupKV_append (l1 l2 : List (K × V)) (k : K) :
    lookupKV (l1 ++ l2) k = (lookupKV l1 k).or (lookupKV l2 k) := by
  induction l1 with
  | nil => simp [lookupKV_nil]
  | cons e rest ih =>
    rw [List.cons_append, lookupKV_cons, lookupKV_cons]
    by_cases h : e.1 = k
    · simp [h]
    · rw [if_neg h, if_neg h, ih]

theorem lookupKV_filter (l : List (K × V)) (key k1 : K) :
    lookupKV (l.filter (fun it => ¬ it.1 = key)) k1
      = if k1 = key then none else lookupKV l k1 := by
  induction l with
  | nil => simp [lookupKV_nil]
  | cons e rest ih =>
    by_cases h : e.1 = key
    · rw [List.filter_cons_of_neg (by simpa using h), ih, lookupKV_cons]
      by_cases h1 : k1 = key
      · rw [if_pos h1, if_pos h1]
      · rw [if_neg h1, if_neg h1, if_neg (fun e1 => h1 (e1.symm.trans h))]
    · rw [List.filter_cons_of_pos (by simpa using h), lookupKV_cons, lookupKV_cons, ih]
      by_cases h1 : k1 = key
      · rw [if_pos h1, if_pos h1, if_neg (fun e1 => h (e1.trans h1))]
      · rw [if_neg h1, if_neg h1]

theorem insertSorted_mem (key : K) (value : V) (l : List (K × V)) :
    ∀ e ∈ LeafPage.insertSorted key value l, e ∈ l ∨ e = (key, value) := by
  induction l with
  | nil =>
    intro e he
    simp only [LeafPage.insertSorted, List.mem_singleton] at he
    exact Or.inr he
  | cons x rest ih =>
    intro e he
    simp only [LeafPage.insertSorted] at he
    split at he
    · rcases List.mem_cons.1 he with h1 | h1
      · exact Or.inl (h1 ▸ List.mem_cons_self _ _)
      · rcases ih e h1 with h2 | h2
        · exact Or.inl (List.mem_cons_of_mem _ h2)
        · exact Or.inr h2
    · split at he
      · exact Or.inl he
      · rcases List.mem_cons.1 he with h1 | h1
        · exact Or.inr h1
        · exact Or.inl h1

theorem insertSorted_ne_nil (key : K) (value : V) (l : List (K × V)) :
    LeafPage.insertSorted key value l ≠ [] := by
  cases l with
  | nil => simp [LeafPage.insertSorted]
  | cons x rest =>
    simp only [LeafPage.insertSorted]
    split
    · simp
    · split <;> simp

theorem insertSorted_sorted (key : K) (value : V) (l : List (K × V))
    (hs : (l.map Prod.fst).Pairwise (· < ·)) :
    ((LeafPage.insertSorted key value l).map Prod.fst).Pairwise (· < ·) := by
  induction l with
  | nil => simp [LeafPage.insertSorted]
  | cons x rest ih =>
    simp only [List.map_cons, List.pairwise_cons] at hs
    simp only [LeafPage.insertSorted]
    split
    · next hlt =>
      simp only [List.map_cons, List.pairwise_cons]
      refine ⟨fun k hk => ?_, ih hs.2⟩
      obtain ⟨e, he, rfl⟩ := List.mem_map.1 hk
      rcases insertSorted_mem key value rest e he with h1 | h1
      · exact hs.1 e.1 (List.mem_map_of_mem _ h1)
      · rw [h1]; exact hlt
    · next hnlt =>
      split
      · simp only [List.map_cons, List.pairwise_cons]; exact hs
      · next hne =>
        have hgt : key < x.1 := lt_of_le_of_ne (not_lt.1 hnlt) (fun e => hne e.symm)
        simp only [List.map_cons, List.pairwise_cons]
        refine ⟨fun k hk => ?_, hs⟩
        rcases List.mem_cons.1 hk with h1 | h1
        · rw [h1]; exact hgt
        · exact lt_trans hgt (hs.1 k h1)

theorem lookupKV_insertSorted (key : K) (value : V) (l : List (K × V))
    (hs : (l.map Prod.fst).Pairwise (· < ·)) (k1 : K) :
    lookupKV (LeafPage.insertSorted key value l) k1
      = if k1 = key then (if (lookupKV l key).isSome then lookupKV l key else some value)
        else lookupKV l k1 := by
  induction l with
  | nil =>
    simp only [LeafPage.insertSorted, lookupKV_cons, lookupKV_nil]
    by_cases h : k1 = key
    · simp [h]
    · have : ¬ key = k1 := fun e => h e.symm
      simp [h, this]
  | cons x rest ih =>
    simp only [List.map_cons, List.pairwise_cons] at hs
    simp only [LeafPage.insertSorted]
    split
    · next hlt =>
      rw [lookupKV_cons, ih hs.2, lookupKV_cons, lookupKV_cons]
      have hne : ¬ x.1 = key := ne_of_lt hlt
      rw [if_neg hne]
      by_cases h : k1 = key
      · rw [if_pos h, if_pos h, if_neg (fun e => hne (e.trans h))]
      · rw [if_neg h, if_neg h]
    · next hnlt =>
      split
      · next heq =>
        by_cases h : k1 = key
        · rw [if_pos h, h]
          simp [lookupKV_cons, heq]
        · rw [if_neg h]
      · next hne =>
        have hgt : key < x.1 := lt_of_le_of_ne (not_lt.1 hnlt) (fun e => hne e.symm)
        have hnone : lookupKV (x :: rest) key = none := by
          apply lookupKV_eq_none
          intro e he
          rcases List.mem_cons.1 he with h1 | h1
          · rw [h1]; exact ne_of_gt hgt
          · exact ne_of_gt (lt_trans hgt (hs.1 e.1 (List.mem_map_of_mem _ h1)))
        rw [lookupKV_cons (key, value)]
        by_cases h : k1 = key
        · rw [if_pos h, hnone]
          simp [h]
        · rw [if_neg h, if_neg (fun e : (key, value).1 = k1 => h e.symm)]

theorem insertSorted_of_present (key : K) (value : V) (l : List (K × V))
    (hs : (l.map Prod.fst).Pairwise (· < ·)) (hp : (lookupKV l key).isSome = true) :
    LeafPage.insertSorted key value l = l := by
  induction l with
  | nil => simp [lookupKV_nil] at hp
  | cons x rest ih =>
    simp only [List.map_cons, List.pairwise_cons] at hs
    simp only [LeafPage.insertSorted]
    split
    · next hlt =>
      rw [lookupKV_cons, if_neg (ne_of_lt hlt)] at hp
      rw [ih hs.2 hp]
    · next hnlt =>
      split
      · rfl
      · next hne =>
        exfalso
        have hgt : key < x.1 := lt_of_le_of_ne (not_lt.1 hnlt) (fun e => hne e.symm)
        rw [lookupKV_isSome_iff] at hp
        rcases List.mem_cons.1 hp with h1 | h1
        · exact hne h1.symm
        · exact absurd (hs.1 key h1) (not_lt.2 (le_of_lt hgt))

theorem insertSorted_length (key : K) (value : V) (l : List (K × V))
    (hs : (l.map Prod.fst).Pairwise (· < ·)) (hp : lookupKV l key = none) :
    (LeafPage.insertSorted key value l).length = l.length + 1 := by
  induction l with
  | nil => rfl
  | cons x rest ih =>
    simp only [List.map_cons, List.pairwise_cons] at hs
    rw [lookupKV_cons] at hp
    have hne : ¬ x.1 = key := by
      intro e; rw [if_pos e] at hp; cases hp
    rw [if_neg hne] at hp
    simp only [LeafPage.insertSorted]
    split
    · simp [ih hs.2 hp]
    · rfl

end BPlusTree

namespace BPlusTree

variable {K V : Type}

theorem contents_append (l1 l2 : List (LeafView K V)) :
    contents (l1 ++ l2) = contents l1 ++ contents l2 := by
  simp [contents]

theorem mem_contents (ls : List (LeafView K V)) (e : K × V) :
    e ∈ contents ls ↔ ∃ L ∈ ls, e ∈ L.items := by
  simp [contents]

theorem SameMeta.refl_meta (t : Tree K V) : SameMeta t t := ⟨rfl, rfl, rfl, rfl, rfl⟩

theorem SameMeta.trans_meta {t t1 t2 : Tree K V} (h1 : SameMeta t t1) (h2 : SameMeta t1 t2) :
    SameMeta t t2 :=
  ⟨h2.1.trans h1.1, h2.2.1.trans h1.2.1, h2.2.2.1.trans h1.2.2.1,
   h2.2.2.2.1.trans h1.2.2.2.1, h2.2.2.2.2.trans h1.2.2.2.2⟩

theorem SameCore.meta {t t1 : Tree K V} (h : SameCore t t1) : SameMeta t t1 :=
  ⟨h.2.1, h.2.2.1, h.2.2.2.1, h.2.2.2.2.1, h.2.2.2.2.2⟩

theorem SameMeta_setPage (t : Tree K V) (id : Int) (p : TreePage K V) :
    SameMeta t (t.setPage id p) := ⟨rfl, rfl, rfl, rfl, rfl⟩

theorem SameCore_UpdateRootPageId (t : Tree K V) (r : Int) : SameCore t (UpdateRootPageId t r) := by
  unfold UpdateRootPageId
  have h1 : ∀ (t0 : Tree K V) (x : Int), SameCore t0 (HeaderInsertRecord t0 x) := by
    intro t0 x
    unfold HeaderInsertRecord
    split
    · exact ⟨rfl, rfl, rfl, rfl, rfl, rfl⟩
    · exact SameCore.refl _
  have h2 : ∀ (t0 : Tree K V) (x : Int), SameCore t0 (HeaderUpdateRecord t0 x) := by
    intro t0 x
    unfold HeaderUpdateRecord
    split
    · exact SameCore.refl _
    · exact ⟨rfl, rfl, rfl, rfl, rfl, rfl⟩
  simp only []
  split
  · exact ((SameCore_pin t _).trans (h1 _ _)).trans (SameCore_UnpinPage _ _ _)
  · exact ((SameCore_pin t _).trans (h2 _ _)).trans (SameCore_UnpinPage _ _ _)

end BPlusTree

namespace BPlusTree

variable {K V : Type} [LinearOrder K]

/-- The leaves left of a hole hold keys below its lower bound, the leaves right
of it keys from its upper bound on. -/
theorem Ctx_bounds {P : Int → Option (TreePage K V)} {lm im : Nat} {root : Int} {d h : Nat}
    {pid par : Int} {lo hi : Option K} {lsL lsR : List (LeafView K V)} {idsC : List Int}
    (hc : Ctx P lm im root d h pid par lo hi lsL lsR idsC) :
    (∀ L ∈ lsL, ∀ e ∈ L.items, ∃ l, lo = some l ∧ e.1 < l) ∧
    (∀ L ∈ lsR, ∀ e ∈ L.items, ∃ u, hi = some u ∧ u ≤ e.1) := by
  induction d generalizing h pid par lo hi lsL lsR idsC with
  | zero =>
    obtain ⟨_, _, _, _, e5, e6, _⟩ := hc
    subst e5; subst e6
    exact ⟨fun L hL => (by cases hL), fun L hL => (by cases hL)⟩
  | succ n ih =>
    obtain ⟨N, A, kc, B, gpar, loP, hiP, lsA, lsB, lsL1, lsR1, idsA, idsB, idsC1, h1, h2, h3, h4,
      h5, h6, h7, h8, h9, h10, h11, h12, h13, h14, h15⟩ := hc
    subst h13; subst h14
    obtain ⟨ihL, ihR⟩ := ih h12
    constructor
    · intro L hL e he
      by_cases hA : A = []
      · subst hA
        obtain ⟨e1, _⟩ := h10
        subst e1
        rw [if_pos rfl] at h7
        rw [h7]
        exact ihL L (by simpa using hL) e he
      · rw [if_neg hA] at h7
        subst h7
        rcases List.mem_append.1 hL with hm | hm
        · obtain ⟨l, hl, hlt⟩ := ihL L hm e he
          exact ⟨kc, rfl, lt_trans hlt (KidsL_ltB hA h10 l kc hl rfl)⟩
        · have := KidsL_inB (fun c lo1 hi1 ls1 ids2 hrc => Rep_inB hrc) h10 L hm e he
          exact ⟨kc, rfl, this.2 kc rfl⟩
    · intro L hL e he
      cases B with
      | nil =>
        obtain ⟨e1, _⟩ := h11
        subst e1
        rw [h8]
        exact ihR L (by simpa using hL) e he
      | cons b rest =>
        have hb : hi = some b.1 := h8
        subst hb
        rcases List.mem_append.1 hL with hm | hm
        · have := KidsL_inB (fun c lo1 hi1 ls1 ids2 hrc => Rep_inB hrc) h11 L hm e he
          exact ⟨b.1, rfl, this.1 b.1 rfl⟩
        · obtain ⟨u, hu, hle⟩ := ihR L hm e he
          exact ⟨b.1, rfl, le_trans (le_of_lt (KidsL_ltB (by simp) h11 b.1 u rfl hu)) hle⟩

/-- A key in the range of the leaf a context is focused on is looked up in that
leaf alone. -/
theorem lookupKV_focus {P : Int → Option (TreePage K V)} {lm im : Nat} {root : Int} {d h : Nat}
    {pid par : Int} {lo hi : Option K} {lsL lsR : List (LeafView K V)} {idsC : List Int}
    (hc : Ctx P lm im root d h pid par lo hi lsL lsR idsC) (key : K) (hin : inB lo hi key)
    (ls : List (LeafView K V)) :
    lookupKV (contents (lsL ++ ls ++ lsR)) key = lookupKV (contents ls) key := by
  obtain ⟨hL, hR⟩ := Ctx_bounds hc
  have h1 : lookupKV (contents lsL) key = none := by
    apply lookupKV_eq_none
    intro e he
    obtain ⟨L, hLm, hem⟩ := (mem_contents lsL e).1 he
    obtain ⟨l, hl, hlt⟩ := hL L hLm e hem
    exact ne_of_lt (lt_of_lt_of_le hlt (hin.1 l hl))
  have h2 : lookupKV (contents lsR) key = none := by
    apply lookupKV_eq_none
    intro e he
    obtain ⟨L, hLm, hem⟩ := (mem_contents lsR e).1 he
    obtain ⟨u, hu, hle⟩ := hR L hLm e hem
    exact ne_of_gt (lt_of_lt_of_le (hin.2 u hu) hle)
  rw [contents_append, contents_append, lookupKV_append, lookupKV_append, h1, h2]
  cases lookupKV (contents ls) key <;> rfl

end BPlusTree

namespace BPlusTree

variable {K V : Type}

theorem SetParentPageId_idem (p : TreePage K V) (a b : Int) :
    (p.SetParentPageId a).SetParentPageId b = p.SetParentPageId b := by
  cases p <;> rfl

theorem kindId_SetParentPageId (p : TreePage K V) (a : Int) :
    kindId (p.SetParentPageId a) = kindId p := by
  cases p <;> rfl

theorem GetPageId_SetParentPageId (p : TreePage K V) (a : Int) :
    (p.SetParentPageId a).GetPageId = p.GetPageId := by
  cases p <;> rfl

theorem KindPres.refl_kind (t : Tree K V) : KindPres t t := ⟨le_refl _, fun _ _ _ => rfl⟩

theorem KindPres.trans_kind {t t1 t2 : Tree K V} (h1 : KindPres t t1) (h2 : KindPres t1 t2) :
    KindPres t t2 := by
  refine ⟨le_trans h1.1 h2.1, fun id hid hs => ?_⟩
  have e1 := h1.2 id hid hs
  have hs1 : (t1.pm id).isSome := by
    cases h : t1.pm id with
    | none =>
      rw [h] at e1
      cases h0 : t.pm id with
      | none => rw [h0] at hs; cases hs
      | some p => rw [h0] at e1; cases e1
    | some p => rfl
  rw [h2.2 id (lt_of_lt_of_le hid h1.1) hs1, e1]

theorem SameCore.kind {t t1 : Tree K V} (h : SameCore t t1) : KindPres t t1 :=
  ⟨le_of_eq h.2.2.1.symm, fun id _ _ => by rw [h.pm]⟩

theorem KindPres_setPage (t : Tree K V) (id : Int) (p : TreePage K V)
    (h : ∀ p0, t.pm id = some p0 → kindId p = kindId p0) : KindPres t (t.setPage id p) := by
  refine ⟨le_refl _, fun id1 _ hs => ?_⟩
  rw [pm_setPage]
  by_cases e : id1 = id
  · subst e
    rw [if_pos rfl]
    cases h0 : t.pm id1 with
    | none => rw [h0] at hs; cases hs
    | some p0 => simp [h p0 h0]
  · rw [if_neg e]

theorem ValueIndex_spec (N : InternalPage K) (A : List (K × Int)) (kc : K) (o : Int)
    (B : List (K × Int)) (harr : N.array_ = A ++ (kc, o) :: B) (hA : ∀ e ∈ A, e.2 ≠ o) :
    N.ValueIndex o = A.length := by
  unfold InternalPage.ValueIndex
  rw [harr, List.takeWhile_append_of_pos (by intro e he; simpa using hA e he),
    List.takeWhile_cons]
  simp

theorem InsertNodeAfter_spec (N : InternalPage K) (A : List (K × Int)) (kc : K) (o : Int)
    (B : List (K × Int)) (key : K) (n : Int) (harr : N.array_ = A ++ (kc, o) :: B)
    (hA : ∀ e ∈ A, e.2 ≠ o) :
    N.InsertNodeAfter o key n
      = .ok { N with array_ := A ++ (kc, o) :: (key, n) :: B } := by
  unfold InternalPage.InsertNodeAfter
  rw [ValueIndex_spec N A kc o B harr hA]
  simp only [InternalPage.GetSize]
  rw [if_pos (by rw [harr]; simp)]
  have e1 : N.array_.take (A.length + 1) = A ++ [(kc, o)] := by
    rw [harr]
    have : A ++ (kc, o) :: B = (A ++ [(kc, o)]) ++ B := by simp
    rw [this, List.take_left' (by simp)]
  have e2 : N.array_.drop (A.length + 1) = B := by
    rw [harr]
    have : A ++ (kc, o) :: B = (A ++ [(kc, o)]) ++ B := by simp
    rw [this, List.drop_left' (by simp)]
  rw [e1, e2]
  simp

theorem adoptChildren_spec (q : Int) (items : List (K × Int)) (t : Tree K V)
    (hpages : ∀ e ∈ items, (t.pm e.2).isSome = true) :
    ∃ t1, adoptChildren q t items = .ok t1 ∧ SameMeta t t1 ∧
      ∀ id, t1.pm id = if id ∈ items.map Prod.snd
        then (t.pm id).map (fun p => p.SetParentPageId q) else t.pm id := by
  induction items generalizing t with
  | nil => exact ⟨t, rfl, SameMeta.refl_meta t, fun id => by simp⟩
  | cons e rest ih =>
    have hs := hpages e (List.mem_cons_self _ _)
    cases hp : t.pm e.2 with
    | none => rw [hp] at hs; cases hs
    | some node =>
      have hfetch := FetchPage_eq t e.2 node hp
      have hpm : ∀ id, (UnpinPage ((t.pin e.2).setPage e.2 (node.SetParentPageId q)) e.2 true).pm id
          = if id = e.2 then some (node.SetParentPageId q) else t.pm id := by
        intro id
        rw [(SameCore_UnpinPage _ _ _).pm, pm_setPage, (SameCore_pin t e.2).pm]
      have hmeta : SameMeta t
          (UnpinPage ((t.pin e.2).setPage e.2 (node.SetParentPageId q)) e.2 true) :=
        ((SameCore_pin t e.2).meta.trans_meta (SameMeta_setPage _ _ _)).trans_meta
          (SameCore_UnpinPage _ _ _).meta
      obtain ⟨t1, hrun, hm1, hpm1⟩ := ih
        (UnpinPage ((t.pin e.2).setPage e.2 (node.SetParentPageId q)) e.2 true)
        (by
          intro x hx
          rw [hpm]
          split
          · rfl
          · exact hpages x (List.mem_cons_of_mem _ hx))
      refine ⟨t1, ?_, hmeta.trans_meta hm1, fun id => ?_⟩
      · simp only [adoptChildren, hfetch]
        exact hrun
      · rw [hpm1, hpm]
        have hmem : id ∈ (e :: rest).map Prod.snd ↔ id = e.2 ∨ id ∈ rest.map Prod.snd := by
          simp only [List.map_cons, List.mem_cons]
        by_cases h1 : id = e.2
        · rw [if_pos h1, if_pos (hmem.2 (Or.inl h1)), h1, hp]
          by_cases h2 : e.2 ∈ rest.map Prod.snd
          · rw [if_pos h2]
            simp only [Option.map_some', SetParentPageId_idem]
          · rw [if_neg h2]
            rfl
        · rw [if_neg h1]
          by_cases h2 : id ∈ rest.map Prod.snd
          · rw [if_pos h2, if_pos (hmem.2 (Or.inr h2))]
          · rw [if_neg h2, if_neg (fun hh => (hmem.1 hh).elim h1 h2)]

end BPlusTree

namespace BPlusTree

variable {K V : Type} [LinearOrder K]

theorem Rep_reparent {P P1 : Int → Option (TreePage K V)} {lm im : Nat} {s : Bool} {h : Nat}
    {pid par : Int} {lo hi : Option K} {ls : List (LeafView K V)} {ids : List Int}
    (par1 : Int) (hr : Rep P lm im s h pid par lo hi ls ids) (hnd : ids.Nodup)
    (hpid : P1 pid = (P pid).map (fun p => p.SetParentPageId par1))
    (hother : ∀ id ∈ ids, id ≠ pid → P1 id = P id) :
    Rep P1 lm im s h pid par1 lo hi ls ids := by
  cases h with
  | zero =>
    obtain ⟨L, h1, h2, h3, h4, h5, h6, h7, h8, h9⟩ := hr
    rw [h1] at hpid
    exact ⟨{ L with parent_page_id_ := par1 }, hpid, h2, rfl, h4, h5, h6, h7, h8, h9⟩
  | succ n =>
    obtain ⟨N, ids1, h1, h2, h3, h4, h5, h6, h7, h8⟩ := hr
    rw [h1] at hpid
    subst h8
    have hnd1 := List.nodup_cons.1 hnd
    refine ⟨{ N with parent_page_id_ := par1 }, ids1, hpid, h2, rfl, h4, h5, h6, ?_, rfl⟩
    apply KidsL_imp (fun id => id ∈ ids1) (fun id hid => hid) _ h7
    intro c lo1 hi1 ls1 ids2 hS hrc
    apply Rep_frame _ hrc
    intro id hid
    exact hother id (List.mem_cons_of_mem _ (hS id hid))
      (fun e => hnd1.1 (e ▸ hS id hid))

theorem KidsL_adopt {P P1 : Int → Option (TreePage K V)} {lm im : Nat} {h : Nat}
    {par q : Int} {lo hi : Option K} {A : List (K × Int)} {ls : List (LeafView K V)}
    {ids : List Int}
    (hk : KidsL (fun c lo1 hi1 ls1 ids2 => Rep P lm im true h c par lo1 hi1 ls1 ids2)
      lo A hi ls ids)
    (hnd : ids.Nodup)
    (hP1 : ∀ id ∈ ids, P1 id = if id ∈ A.map Prod.snd
      then (P id).map (fun p => p.SetParentPageId q) else P id) :
    KidsL (fun c lo1 hi1 ls1 ids2 => Rep P1 lm im true h c q lo1 hi1 ls1 ids2)
      lo A hi ls ids := by
  induction A generalizing lo ls ids with
  | nil => exact hk
  | cons e rest ih =>
    obtain ⟨hlt, la, lb, ia, ib, e1, e2, hR, hk2⟩ := hk
    subst e2
    have hnd2 := List.nodup_append.1 hnd
    have hkids := KidsL_child_mem (fun c lo1 hi1 ls1 ids1 hrc => Rep_pid_mem hrc) hk2
    have hroot := Rep_pid_mem hR
    refine ⟨hlt, la, lb, ia, ib, e1, rfl, ?_, ?_⟩
    · apply Rep_reparent q hR hnd2.1
      · rw [hP1 e.2 (List.mem_append_left _ hroot), if_pos (by simp)]
      · intro id hid hne
        rw [hP1 id (List.mem_append_left _ hid), if_neg]
        intro hmem
        simp only [List.map_cons, List.mem_cons] at hmem
        rcases hmem with h1 | h1
        · exact hne h1
        · obtain ⟨x, hx, rfl⟩ := List.mem_map.1 h1
          exact hnd2.2.2 hid (hkids x hx)
    · apply ih hk2 hnd2.2.1
      intro id hid
      rw [hP1 id (List.mem_append_right _ hid)]
      have hne : id ≠ e.2 := fun e0 => hnd2.2.2 hroot (e0 ▸ hid)
      by_cases h2 : id ∈ rest.map Prod.snd
      · rw [if_pos h2, if_pos (by simp [h2])]
      · rw [if_neg h2, if_neg (by simp [hne, h2])]

end BPlusTree

namespace BPlusTree

variable {K V : Type}

theorem pm_NewPage (t : Tree K V) : (NewPage t).1.pm = t.pm := rfl

theorem ok_bind {ε α β : Type} (a : α) (f : α → Except ε β) :
    (Except.ok a >>= f) = f a := rfl

theorem error_bind {ε α β : Type} (e : ε) (f : α → Except ε β) :
    ((Except.error e : Except ε α) >>= f) = Except.error e := rfl

theorem pageAt_setPage_eq (t : Tree K V) (id : Int) (p : TreePage K V) (id1 : Int) :
    (t.setPage id p).pageAt id1 = if id1 = id then .ok p else t.pageAt id1 := by
  unfold Tree.pageAt
  have := pm_setPage t id p id1
  unfold Tree.pm at this
  rw [this]
  by_cases h : id1 = id
  · rw [if_pos h, if_pos h]
  · rw [if_neg h, if_neg h]

theorem pageAt_withRoot (t : Tree K V) (r : Int) (id : Int) :
    ({ t with root_page_id_ := r } : Tree K V).pageAt id = t.pageAt id := rfl

theorem pageAt_NewPage (t : Tree K V) (id : Int) : (NewPage t).1.pageAt id = t.pageAt id := rfl

theorem NewPage_snd (t : Tree K V) : (NewPage t).2 = t.next_page_id_ := rfl

theorem perm_cons_fresh_nodup {l : List Int} (r : Int) (hnd : l.Nodup) (hr : r ∉ l) :
    (r :: l).Nodup := List.nodup_cons.2 ⟨hr, hnd⟩

end BPlusTree

namespace BPlusTree

variable {K V : Type} [LinearOrder K] [Inhabited K]

/-- `InsertIntoParent` when `old_node` is the root: a new root with the two
nodes as children. -/
theorem InsertIntoParent_root (fuel : Nat) (t : Tree K V) (o n : Int) (key : K) (h : Nat)
    (lsO lsN : List (LeafView K V)) (idsO idsN : List Int)
    (hro : Rep t.pm t.leaf_max_size_ t.internal_max_size_ true h o INVALID_PAGE_ID none
      (some key) lsO idsO)
    (hrn : Rep t.pm t.leaf_max_size_ t.internal_max_size_ true h n INVALID_PAGE_ID (some key)
      none lsN idsN)
    (hnd : (idsO ++ idsN).Nodup)
    (hbd : ∀ id ∈ idsO ++ idsN, 0 < id ∧ id < t.next_page_id_) :
    ∃ t1, InsertIntoParent (fuel + 1) t o key n = .ok t1 ∧
      t1.root_page_id_ = t.next_page_id_ ∧ t1.next_page_id_ = t.next_page_id_ + 1 ∧
      t1.leaf_max_size_ = t.leaf_max_size_ ∧ t1.internal_max_size_ = t.internal_max_size_ ∧
      t1.deleted_page_set_ = t.deleted_page_set_ ∧ KindPres t t1 ∧
      Rep t1.pm t.leaf_max_size_ t.internal_max_size_ true (h + 1) t.next_page_id_
        INVALID_PAGE_ID none none (lsO ++ lsN) (t.next_page_id_ :: (idsO ++ idsN)) := by
  obtain ⟨nodeO, hPo, hidO, hparO, _⟩ := Rep_page hro
  obtain ⟨nodeN, hPn, hidN, hparN, _⟩ := Rep_page hrn
  have hnd2 := List.nodup_append.1 hnd
  have hoO := Rep_pid_mem hro
  have hnN := Rep_pid_mem hrn
  have hor : o ≠ t.next_page_id_ := ne_of_lt (hbd o (List.mem_append_left _ hoO)).2
  have hnr : n ≠ t.next_page_id_ := ne_of_lt (hbd n (List.mem_append_right _ hnN)).2
  have hno : n ≠ o := fun e => hnd2.2.2 hoO (e ▸ hnN)
  have hroot : nodeO.IsRootPage = true := by
    simp [TreePage.IsRootPage, hparO]
  simp only [InsertIntoParent, pageAt_eq t o nodeO hPo, pageAt_eq t n nodeN hPn, ok_bind, hroot,
    if_true, pageAt_setPage_eq, pageAt_withRoot, pageAt_NewPage, NewPage_snd, if_neg hor, if_neg hnr,
    if_neg hno, hidO, hidN]
  generalize hX : Tree.setPage _ n _ = X
  have hpm : ∀ id, X.pm id = if id = n then some (nodeN.SetParentPageId t.next_page_id_)
      else if id = o then some (nodeO.SetParentPageId t.next_page_id_)
      else if id = t.next_page_id_ then some (.internal
        ⟨t.next_page_id_, INVALID_PAGE_ID, t.internal_max_size_, [(default, o), (key, n)]⟩)
      else t.pm id := by
    intro id
    rw [← hX, pm_setPage, pm_setPage, pm_setPage]
    rfl
  have hXm : X.root_page_id_ = t.next_page_id_ ∧ X.next_page_id_ = t.next_page_id_ + 1 ∧
      X.leaf_max_size_ = t.leaf_max_size_ ∧ X.internal_max_size_ = t.internal_max_size_ ∧
      X.deleted_page_set_ = t.deleted_page_set_ := by
    rw [← hX]
    exact ⟨rfl, rfl, rfl, rfl, rfl⟩
  have hsc : SameCore X (ReleaseLatchFromQueue (UpdateRootPageId (UnpinPage X t.next_page_id_ true) 0)) :=
    ((SameCore_UnpinPage _ _ _).trans (SameCore_UpdateRootPageId _ _)).trans
      (SameCore_ReleaseLatchFromQueue _)
  have hkind : KindPres t X := by
    refine ⟨by rw [hXm.2.1]; omega, fun id hid hs => ?_⟩
    rw [hpm]
    by_cases h1 : id = n
    · rw [if_pos h1, h1, hPn]
      simp [kindId_SetParentPageId]
    · rw [if_neg h1]
      by_cases h2 : id = o
      · rw [if_pos h2, h2, hPo]
        simp [kindId_SetParentPageId]
      · rw [if_neg h2, if_neg (ne_of_lt hid)]
  have hro1 : Rep X.pm t.leaf_max_size_ t.internal_max_size_ true h o t.next_page_id_ none
      (some key) lsO idsO := by
    apply Rep_reparent t.next_page_id_ hro hnd2.1
    · rw [hpm, if_neg (fun e => hno e.symm), if_pos rfl, hPo]
      rfl
    · intro id hid hne
      rw [hpm, if_neg (fun e : id = n => hnd2.2.2 hid (e ▸ hnN)), if_neg hne,
        if_neg (ne_of_lt (hbd id (List.mem_append_left _ hid)).2)]
  have hrn1 : Rep X.pm t.leaf_max_size_ t.internal_max_size_ true h n t.next_page_id_ (some key)
      none lsN idsN := by
    apply Rep_reparent t.next_page_id_ hrn hnd2.2.1
    · rw [hpm, if_pos rfl, hPn]
      rfl
    · intro id hid hne
      rw [hpm, if_neg hne, if_neg (fun e : id = o => hnd2.2.2 (e ▸ hoO) hid),
        if_neg (ne_of_lt (hbd id (List.mem_append_right _ hid)).2)]
  refine ⟨_, rfl, hsc.2.1.trans hXm.1, hsc.2.2.1.trans hXm.2.1, hsc.2.2.2.1.trans hXm.2.2.1,
    hsc.2.2.2.2.1.trans hXm.2.2.2.1, hsc.2.2.2.2.2.trans hXm.2.2.2.2, hkind.trans_kind hsc.kind, ?_⟩
  rw [hsc.pm]
  refine ⟨⟨t.next_page_id_, INVALID_PAGE_ID, t.internal_max_size_, [(default, o), (key, n)]⟩,
    idsO ++ idsN, ?_, rfl, rfl, rfl, by simp, fun _ => by simp, ?_, rfl⟩
  · rw [hpm, if_neg (fun e => hnr e.symm), if_neg (fun e => hor e.symm), if_pos rfl]
  · refine ⟨fun l u hl _ => (by cases hl), lsO, lsN, idsO, idsN, rfl, rfl, hro1, ?_⟩
    exact ⟨fun l u _ hu => (by cases hu), lsN, [], idsN, [], by simp, by simp, hrn1, ⟨rfl, rfl⟩⟩

end BPlusTree

namespace BPlusTree

variable {K V : Type} [LinearOrder K]

theorem Rep_ltB {P : Int → Option (TreePage K V)} {lm im : Nat} {h : Nat}
    {pid par : Int} {lo hi : Option K} {ls : List (LeafView K V)} {ids : List Int}
    (hr : Rep P lm im true h pid par lo hi ls ids) : ltB lo hi := by
  cases h with
  | zero =>
    obtain ⟨L, h1, h2, h3, h4, h5, h6, h7, h8, h9⟩ := hr
    cases hL : L.array_ with
    | nil => exact absurd hL (h7 rfl)
    | cons e rest =>
      have := h6 e (by rw [hL]; exact List.mem_cons_self _ _)
      exact fun l u hl hu => lt_of_le_of_lt (this.1 l hl) (this.2 u hu)
  | succ n =>
    obtain ⟨N, ids1, h1, h2, h3, h4, h5, h6, h7, h8⟩ := hr
    exact KidsL_ltB h5 h7

theorem mem_of_perm_bound {l l1 : List Int} {b : Int} (hp : l1.Perm l)
    (hb : ∀ id ∈ l, 0 < id ∧ id < b) : ∀ id ∈ l1, 0 < id ∧ id < b :=
  fun id hid => hb id (hp.mem_iff.1 hid)

theorem perm_room (p : Int) (a o n b c : List Int) :
    ((p :: (a ++ (o ++ (n ++ b)))) ++ c).Perm (o ++ n ++ (p :: (a ++ b ++ c))) := by
  rw [List.perm_iff_count]
  intro x
  simp only [List.count_append, List.count_cons, List.cons_append]
  omega

theorem KidsL_mid_intro
    {R : Int → Option K → Option K → List (LeafView K V) → List Int → Prop}
    {loP lo hi : Option K} {A B : List (K × Int)} {kc : K} {c : Int}
    {lsA ls2 : List (LeafView K V)} {idsA ids2 : List Int}
    (hA : KidsL R loP A lo lsA idsA) (hlo : lo = (if A = [] then loP else some kc))
    (hB : KidsL R lo ((kc, c) :: B) hi ls2 ids2) :
    KidsL R loP (A ++ (kc, c) :: B) hi (lsA ++ ls2) (idsA ++ ids2) := by
  apply KidsL_append_intro
  · by_cases hA0 : A = []
    · subst hA0
      exact hA
    · rw [if_neg hA0] at hlo
      rw [hlo] at hA
      exact hA
  · rw [← show lo = (if A = [] then loP else nextLo ((kc, c) :: B) hi) from hlo]
    exact hB

end BPlusTree

namespace BPlusTree

variable {K V : Type} [LinearOrder K] [Inhabited K]

/-- `InsertIntoParent` when the parent has room: the pair goes in right after
`old_node`. -/
theorem InsertIntoParent_room (fuel : Nat) (t : Tree K V) (o n : Int) (key : K) (d h : Nat)
    (par : Int) (lo hi : Option K) (lsL lsR lsO lsN : List (LeafView K V))
    (idsC idsO idsN : List Int)
    (hctx : Ctx t.pm t.leaf_max_size_ t.internal_max_size_ t.root_page_id_ (d + 1) h o par lo hi
      lsL lsR idsC)
    (hro : Rep t.pm t.leaf_max_size_ t.internal_max_size_ true h o par lo (some key) lsO idsO)
    (hrn : Rep t.pm t.leaf_max_size_ t.internal_max_size_ true h n par (some key) hi lsN idsN)
    (hnd : (idsO ++ idsN ++ idsC).Nodup)
    (hbd : ∀ id ∈ idsO ++ idsN ++ idsC, 0 < id ∧ id < t.next_page_id_)
    (hroom : ∀ N, t.pm par = some (.internal N) → N.GetSize < t.internal_max_size_) :
    ∃ t1, InsertIntoParent (fuel + 1) t o key n = .ok t1 ∧
      t1.leaf_max_size_ = t.leaf_max_size_ ∧ t1.internal_max_size_ = t.internal_max_size_ ∧
      t1.deleted_page_set_ = t.deleted_page_set_ ∧ KindPres t t1 ∧
      WellFormed t1 (lsL ++ (lsO ++ lsN) ++ lsR) := by
  obtain ⟨N, A, kc, B, gpar, loP, hiP, lsA, lsB, lsL1, lsR1, idsA, idsB, idsC1, h1, h2, h3, h4,
    h5, h6, h7, h8, h9, h10, h11, h12, h13, h14, h15⟩ := hctx
  obtain ⟨nodeO, hPo, hidO, hparO, _⟩ := Rep_page hro
  obtain ⟨nodeN, hPn, hidN, hparN, _⟩ := Rep_page hrn
  have hoO := Rep_pid_mem hro
  have hnN := Rep_pid_mem hrn
  have hlk : ltB lo (some key) := Rep_ltB hro
  have hkh : ltB (some key) hi := Rep_ltB hrn
  subst h15
  have hparpos : 0 < par := (hbd par (by simp)).1
  have hnotroot : nodeO.IsRootPage = false := by
    simp only [TreePage.IsRootPage, hparO, INVALID_PAGE_ID, BufferPoolManager.INVALID_PAGE_ID,
      decide_eq_false_iff_not]
    omega
  -- page ids: pairwise distinct groups
  have hndO : idsO.Nodup := (List.nodup_append.1 (List.nodup_append.1 hnd).1).1
  have hcnt : ∀ x : Int, (idsO ++ idsN ++ (par :: (idsA ++ idsB ++ idsC1))).count x ≤ 1 :=
    fun x => List.nodup_iff_count_le_one.1 hnd x
  have hkidsA := KidsL_child_mem (fun c lo1 hi1 ls1 ids1 hrc => Rep_pid_mem hrc) h10
  have hAo : ∀ e ∈ A, e.2 ≠ o := by
    intro e he e0
    have c1 := hcnt o
    have c2 : 0 < idsO.count o := List.count_pos_iff.2 hoO
    have c3 : 0 < idsA.count o := List.count_pos_iff.2 (e0 ▸ hkidsA e he)
    simp only [List.count_append, List.count_cons] at c1
    omega
  have hins := InsertNodeAfter_spec N A kc o B key n h5 hAo
  have hsize := hroom N h1
  simp only [InsertIntoParent, pageAt_eq t o nodeO hPo, pageAt_eq t n nodeN hPn, ok_bind,
    hnotroot, Bool.false_eq_true, if_false, hparO, FetchPage_eq t par _ h1, hidO, hidN]
  rw [if_pos (show N.GetSize < (t.pin par).internal_max_size_ from hsize), hins]
  simp only [ok_bind]
  generalize hX : Tree.setPage _ par _ = X
  have hpm : ∀ id, X.pm id = if id = par
      then some (.internal { N with array_ := A ++ (kc, o) :: (key, n) :: B }) else t.pm id := by
    intro id
    rw [← hX, pm_setPage]
    rfl
  have hXm : SameMeta t X := by
    rw [← hX]
    exact ⟨rfl, rfl, rfl, rfl, rfl⟩
  have hsc : SameCore X (UnpinPage (ReleaseLatchFromQueue X) par true) :=
    (SameCore_ReleaseLatchFromQueue _).trans (SameCore_UnpinPage _ _ _)
  have hkind : KindPres t X := by
    refine ⟨by rw [hXm.2.1], fun id hid hs => ?_⟩
    rw [hpm]
    by_cases e : id = par
    · rw [if_pos e, e, h1]
      simp [kindId, TreePage.IsLeafPage, TreePage.GetPageId]
    · rw [if_neg e]
  -- the pages below the parent are untouched
  have hframe : ∀ ids : List Int, (∀ id ∈ ids, id ≠ par) → ∀ id ∈ ids, X.pm id = t.pm id := by
    intro ids hne id hid
    rw [hpm, if_neg (hne id hid)]
  have hne_of : ∀ (l : List Int), (∀ x, l.count x + (if x = par then 1 else 0) ≤ 1) →
      ∀ id ∈ l, id ≠ par := by
    intro l hl id hid e
    have c1 := hl id
    have c2 : 0 < l.count id := List.count_pos_iff.2 hid
    rw [if_pos e] at c1
    omega
  have hcnt1 : ∀ x : Int, idsO.count x + idsN.count x + ((if x = par then 1 else 0)
      + (idsA.count x + idsB.count x + idsC1.count x)) ≤ 1 := by
    intro x
    have := hcnt x
    simp only [List.count_append, List.count_cons] at this
    have e : (if par = x then 1 else 0) = (if x = par then 1 else 0) := by
      by_cases hx : x = par
      · rw [if_pos hx, if_pos hx.symm]
      · rw [if_neg hx, if_neg (fun e => hx e.symm)]
    simp only [beq_iff_eq] at this
    rw [e] at this
    omega
  have hro1 := Rep_frame (hframe idsO (hne_of idsO (fun x => by have := hcnt1 x; omega))) hro
  have hrn1 := Rep_frame (hframe idsN (hne_of idsN (fun x => by have := hcnt1 x; omega))) hrn
  have hA1 := KidsL_imp (fun id => X.pm id = t.pm id)
    (hframe idsA (hne_of idsA (fun x => by have := hcnt1 x; omega)))
    (fun c lo1 hi1 ls1 ids2 hS hrc => Rep_frame hS hrc) h10
  have hB1 := KidsL_imp (fun id => X.pm id = t.pm id)
    (hframe idsB (hne_of idsB (fun x => by have := hcnt1 x; omega)))
    (fun c lo1 hi1 ls1 ids2 hS hrc => Rep_frame hS hrc) h11
  have hC1 := Ctx_frame (hframe idsC1 (hne_of idsC1 (fun x => by have := hcnt1 x; omega))) h12
  -- the children of the parent after the insertion
  have hkids : KidsL (fun c lo1 hi1 ls1 ids2 =>
        Rep X.pm t.leaf_max_size_ t.internal_max_size_ true h c par lo1 hi1 ls1 ids2)
      loP (A ++ (kc, o) :: (key, n) :: B) hiP (lsA ++ (lsO ++ (lsN ++ lsB)))
      (idsA ++ (idsO ++ (idsN ++ idsB))) := by
    refine KidsL_mid_intro hA1 h7 ⟨hlk, lsO, lsN ++ lsB, idsO, idsN ++ idsB, rfl, rfl, hro1, ?_⟩
    refine ⟨?_, lsN, lsB, idsN, idsB, rfl, rfl, ?_, ?_⟩
    · rw [← h8]; exact hkh
    · rw [← h8]; exact hrn1
    · rw [← h8]; exact hB1
  have hRepPar : Rep X.pm t.leaf_max_size_ t.internal_max_size_ true (h + 1) par gpar loP hiP
      (lsA ++ (lsO ++ (lsN ++ lsB))) (par :: (idsA ++ (idsO ++ (idsN ++ idsB)))) := by
    refine ⟨{ N with array_ := A ++ (kc, o) :: (key, n) :: B }, _, ?_, h2, h3, h4, by simp,
      fun _ => by simp; omega, hkids, rfl⟩
    rw [hpm, if_pos rfl]
  obtain ⟨ids1, hrep1, hperm1⟩ := Ctx_plug hC1 hRepPar
  refine ⟨_, rfl, ?_, ?_, ?_, hkind.trans_kind hsc.kind, h + 1 + d, ids1, ?_, ?_, ?_⟩
  · rw [hsc.2.2.2.1, hXm.2.2.1]
  · rw [hsc.2.2.2.2.1, hXm.2.2.2.1]
  · rw [hsc.2.2.2.2.2, hXm.2.2.2.2]
  · rw [hsc.pm, hsc.2.2.2.1, hsc.2.2.2.2.1, hsc.2.1, hXm.2.2.1, hXm.2.2.2.1, hXm.1, h13, h14]
    have e : lsL1 ++ lsA ++ (lsO ++ lsN) ++ (lsB ++ lsR1)
        = lsL1 ++ (lsA ++ (lsO ++ (lsN ++ lsB))) ++ lsR1 := by
      simp only [List.append_assoc]
    rw [e]
    exact hrep1
  · exact (hperm1.trans (perm_room par idsA idsO idsN idsB idsC1)).nodup_iff.2 hnd
  · intro id hid
    have := hbd id (((hperm1.trans (perm_room par idsA idsO idsN idsB idsC1)).mem_iff).1 hid)
    rw [hsc.2.2.1, hXm.2.1]
    exact this

end BPlusTree

namespace BPlusTree

variable {K V : Type}

theorem internalAt_setPage_self (t : Tree K V) (id : Int) (N : InternalPage K) :
    (t.setPage id (.internal N)).internalAt id = .ok N :=
  internalAt_eq _ _ _ (pm_setPage_self t id _)

/-- `Split` of the scratch copy of an internal page: the new page gets the
entries from `GetMinSize()` on and adopts their children. -/
theorem SplitInternal_spec (t : Tree K V) (copy : InternalPage K)
    (hmin : minSizeOf copy.max_size_ ≤ copy.array_.length)
    (hpages : ∀ e ∈ copy.array_.drop (minSizeOf copy.max_size_), (t.pm e.2).isSome = true)
    (hfresh : ∀ e ∈ copy.array_.drop (minSizeOf copy.max_size_), e.2 ≠ t.next_page_id_) :
    ∃ t2, SplitInternal t copy
        = .ok (t2, { copy with array_ := copy.array_.take (minSizeOf copy.max_size_) },
            t.next_page_id_) ∧
      t2.root_page_id_ = t.root_page_id_ ∧ t2.next_page_id_ = t.next_page_id_ + 1 ∧
      t2.leaf_max_size_ = t.leaf_max_size_ ∧ t2.internal_max_size_ = t.internal_max_size_ ∧
      t2.deleted_page_set_ = t.deleted_page_set_ ∧
      ∀ id, t2.pm id =
        if id = t.next_page_id_ then
          some (.internal ⟨t.next_page_id_, copy.parent_page_id_, t.internal_max_size_,
            copy.array_.drop (minSizeOf copy.max_size_)⟩)
        else if id ∈ (copy.array_.drop (minSizeOf copy.max_size_)).map Prod.snd then
          (t.pm id).map (fun p => p.SetParentPageId t.next_page_id_)
        else t.pm id := by
  generalize hT : (NewPage t).1.setPage t.next_page_id_
    (.internal (InternalPage.Init t.next_page_id_ copy.parent_page_id_
      (NewPage t).1.internal_max_size_)) = T
  have hTpm : ∀ id, T.pm id = if id = t.next_page_id_ then
      some (.internal ⟨t.next_page_id_, copy.parent_page_id_, t.internal_max_size_, []⟩)
      else t.pm id := by
    intro id
    rw [← hT, pm_setPage]
    rfl
  have hTm : T.root_page_id_ = t.root_page_id_ ∧ T.next_page_id_ = t.next_page_id_ + 1 ∧
      T.leaf_max_size_ = t.leaf_max_size_ ∧ T.internal_max_size_ = t.internal_max_size_ ∧
      T.deleted_page_set_ = t.deleted_page_set_ := by
    rw [← hT]
    exact ⟨rfl, rfl, rfl, rfl, rfl⟩
  have hpagesT : ∀ e ∈ copy.array_.drop (minSizeOf copy.max_size_), (T.pm e.2).isSome = true := by
    intro e he
    rw [hTpm, if_neg (hfresh e he)]
    exact hpages e he
  obtain ⟨t1, had, hm1, hpm1⟩ := adoptChildren_spec t.next_page_id_
    (copy.array_.drop (minSizeOf copy.max_size_)) T hpagesT
  have hnot : t.next_page_id_ ∉ (copy.array_.drop (minSizeOf copy.max_size_)).map Prod.snd := by
    intro hm
    obtain ⟨e, he, he2⟩ := List.mem_map.1 hm
    exact hfresh e he he2
  have hrec : T.internalAt t.next_page_id_
      = .ok ⟨t.next_page_id_, copy.parent_page_id_, t.internal_max_size_, []⟩ :=
    internalAt_eq _ _ _ (by rw [hTpm, if_pos rfl])
  have hrec1 : t1.internalAt t.next_page_id_
      = .ok ⟨t.next_page_id_, copy.parent_page_id_, t.internal_max_size_, []⟩ :=
    internalAt_eq _ _ _ (by rw [hpm1, if_neg hnot, hTpm, if_pos rfl])
  refine ⟨t1.setPage t.next_page_id_ (.internal ⟨t.next_page_id_, copy.parent_page_id_,
    t.internal_max_size_, copy.array_.drop (minSizeOf copy.max_size_)⟩), ?_,
    hm1.1.trans hTm.1, hm1.2.1.trans hTm.2.1, hm1.2.2.1.trans hTm.2.2.1,
    hm1.2.2.2.1.trans hTm.2.2.2.1, hm1.2.2.2.2.trans hTm.2.2.2.2, ?_⟩
  · simp only [SplitInternal, NewPage_snd, ok_bind, InternalPage.MoveHalfTo,
      InternalPage.GetMinSize, InternalPage.GetSize, InternalPage.CopyNFrom]
    rw [hT]
    have hle : ¬ minSizeOf copy.max_size_ > copy.array_.length := by omega
    simp only [hle, if_false, hrec, ok_bind, had, hrec1, List.nil_append]
    rfl
  · intro id
    rw [pm_setPage]
    by_cases e : id = t.next_page_id_
    · rw [if_pos e, if_pos e]
    · rw [if_neg e, if_neg e, hpm1]
      by_cases e1 : id ∈ (copy.array_.drop (minSizeOf copy.max_size_)).map Prod.snd
      · rw [if_pos e1, if_pos e1, hTpm, if_neg e]
      · rw [if_neg e1, if_neg e1, hTpm, if_neg e]

end BPlusTree

namespace BPlusTree

variable {K V : Type}

theorem internalAt_of_kind (t : Tree K V) (id : Int)
    (h : (t.pm id).map kindId = some (false, id)) :
    ∃ N : InternalPage K, t.pm id = some (.internal N) ∧ N.page_id_ = id := by
  cases hp : t.pm id with
  | none => rw [hp] at h; cases h
  | some p =>
    rw [hp] at h
    cases p with
    | leaf L => simp [kindId, TreePage.IsLeafPage] at h
    | internal N =>
      simp only [Option.map_some', kindId, TreePage.IsLeafPage, TreePage.GetPageId,
        Option.some.injEq, Prod.mk.injEq, true_and] at h
      exact ⟨N, rfl, h⟩

theorem leafAt_of_kind (t : Tree K V) (id : Int)
    (h : (t.pm id).map kindId = some (true, id)) :
    ∃ L : LeafPage K V, t.pm id = some (.leaf L) ∧ L.page_id_ = id := by
  cases hp : t.pm id with
  | none => rw [hp] at h; cases h
  | some p =>
    rw [hp] at h
    cases p with
    | internal N => simp [kindId, TreePage.IsLeafPage] at h
    | leaf L =>
      simp only [Option.map_some', kindId, TreePage.IsLeafPage, TreePage.GetPageId,
        Option.some.injEq, Prod.mk.injEq, true_and] at h
      exact ⟨L, rfl, h⟩

end BPlusTree

namespace BPlusTree

variable {K V : Type} [LinearOrder K]

theorem KidsL_child_prop
    {R : Int → Option K → Option K → List (LeafView K V) → List Int → Prop}
    {lo hi : Option K} {A : List (K × Int)} {ls : List (LeafView K V)} {ids : List Int}
    (Q : Int → Prop) (H : ∀ c lo1 hi1 ls1 ids1, R c lo1 hi1 ls1 ids1 → Q c)
    (h : KidsL R lo A hi ls ids) : ∀ e ∈ A, Q e.2 := by
  induction A generalizing lo ls ids with
  | nil => intro e he; cases he
  | cons a rest ih =>
    obtain ⟨_, ls1, ls2, ids1, ids2, _, _, hr, hk⟩ := h
    intro e he
    rcases List.mem_cons.1 he with e1 | e1
    · rw [e1]; exact H _ _ _ _ _ hr
    · exact ih hk e e1

theorem WellFormed_of_SameCore {t t1 : Tree K V} (h : SameCore t t1)
    {ls : List (LeafView K V)} (hw : WellFormed t ls) : WellFormed t1 ls := by
  obtain ⟨hh, ids, hr, hnd, hb⟩ := hw
  refine ⟨hh, ids, ?_, hnd, ?_⟩
  · rw [h.pm, h.2.2.2.1, h.2.2.2.2.1, h.2.1]
    exact hr
  · rw [h.2.2.1]
    exact hb

theorem perm_split (p s : Int) (x y c : List Int) :
    ((p :: x) ++ (s :: y) ++ c).Perm (s :: ((p :: (x ++ y)) ++ c)) := by
  rw [List.perm_iff_count]
  intro z
  simp only [List.count_append, List.count_cons, List.cons_append]
  omega

end BPlusTree

namespace BPlusTree

variable {K V : Type} [LinearOrder K] [Inhabited K]

/-- `InsertIntoParent` when the parent is full: the parent is split and the
pair of the two halves goes one level up. -/
theorem InsertIntoParent_split (fuel : Nat) (t : Tree K V) (o n : Int) (key : K) (d h : Nat)
    (par : Int) (lo hi : Option K) (lsL lsR lsO lsN : List (LeafView K V))
    (idsC idsO idsN : List Int)
    (hrec : IIPSpec K V d)
    (him : 3 ≤ t.internal_max_size_)
    (hctx : Ctx t.pm t.leaf_max_size_ t.internal_max_size_ t.root_page_id_ (d + 1) h o par lo hi
      lsL lsR idsC)
    (hro : Rep t.pm t.leaf_max_size_ t.internal_max_size_ true h o par lo (some key) lsO idsO)
    (hrn : Rep t.pm t.leaf_max_size_ t.internal_max_size_ true h n par (some key) hi lsN idsN)
    (hnd : (idsO ++ idsN ++ idsC).Nodup)
    (hbd : ∀ id ∈ idsO ++ idsN ++ idsC, 0 < id ∧ id < t.next_page_id_)
    (hfull : ∀ N, t.pm par = some (.internal N) → ¬ N.GetSize < t.internal_max_size_) :
    (fuel ≤ d ∧ InsertIntoParent (fuel + 1) t o key n = .error .out_of_fuel) ∨
    ∃ t1, InsertIntoParent (fuel + 1) t o key n = .ok t1 ∧
      t1.leaf_max_size_ = t.leaf_max_size_ ∧ t1.internal_max_size_ = t.internal_max_size_ ∧
      t1.deleted_page_set_ = t.deleted_page_set_ ∧ KindPres t t1 ∧
      WellFormed t1 (lsL ++ (lsO ++ lsN) ++ lsR) := by
  obtain ⟨N, A, kc, B, gpar, loP, hiP, lsA, lsB, lsL1, lsR1, idsA, idsB, idsC1, h1, h2, h3, h4,
    h5, h6, h7, h8, h9, h10, h11, h12, h13, h14, h15⟩ := hctx
  obtain ⟨nodeO, hPo, hidO, hparO, _⟩ := Rep_page hro
  obtain ⟨nodeN, hPn, hidN, hparN, _⟩ := Rep_page hrn
  have hoO := Rep_pid_mem hro
  have hnN := Rep_pid_mem hrn
  have hlk : ltB lo (some key) := Rep_ltB hro
  have hkh : ltB (some key) hi := Rep_ltB hrn
  subst h15
  have hparpos : 0 < par := (hbd par (by simp)).1
  have hparlt : par < t.next_page_id_ := (hbd par (by simp)).2
  have hnotroot : nodeO.IsRootPage = false := by
    simp only [TreePage.IsRootPage, hparO, INVALID_PAGE_ID, BufferPoolManager.INVALID_PAGE_ID,
      decide_eq_false_iff_not]
    omega
  have hcnt : ∀ x : Int, (idsO ++ idsN ++ (par :: (idsA ++ idsB ++ idsC1))).count x ≤ 1 :=
    fun x => List.nodup_iff_count_le_one.1 hnd x
  have hkidsA := KidsL_child_mem (fun c lo1 hi1 ls1 ids1 hrc => Rep_pid_mem hrc) h10
  have hAo : ∀ e ∈ A, e.2 ≠ o := by
    intro e he e0
    have c1 := hcnt o
    have c2 : 0 < idsO.count o := List.count_pos_iff.2 hoO
    have c3 : 0 < idsA.count o := List.count_pos_iff.2 (e0 ▸ hkidsA e he)
    simp only [List.count_append, List.count_cons] at c1
    omega
  have hins := InsertNodeAfter_spec N A kc o B key n h5 hAo
  have hsize := hfull N h1
  -- the children of the scratch copy, in the page map before the split
  have hkidsF : KidsL (fun c lo1 hi1 ls1 ids2 =>
        Rep t.pm t.leaf_max_size_ t.internal_max_size_ true h c par lo1 hi1 ls1 ids2)
      loP (A ++ (kc, o) :: (key, n) :: B) hiP (lsA ++ (lsO ++ (lsN ++ lsB)))
      (idsA ++ (idsO ++ (idsN ++ idsB))) := by
    refine KidsL_mid_intro h10 h7 ⟨hlk, lsO, lsN ++ lsB, idsO, idsN ++ idsB, rfl, rfl, hro, ?_⟩
    refine ⟨?_, lsN, lsB, idsN, idsB, rfl, rfl, ?_, ?_⟩
    · rw [← h8]; exact hkh
    · rw [← h8]; exact hrn
    · rw [← h8]; exact h11
  generalize hFull : A ++ (kc, o) :: (key, n) :: B = Full at hins hkidsF
  have hFlen : Full.length = N.array_.length + 1 := by
    rw [← hFull, h5]
    simp only [List.length_append, List.length_cons]
    omega
  have hNle : t.internal_max_size_ ≤ N.array_.length := by
    have : ¬ N.array_.length < t.internal_max_size_ := hsize
    omega
  have hm2 : 2 ≤ minSizeOf t.internal_max_size_ := by unfold minSizeOf; omega
  have hmle : minSizeOf t.internal_max_size_ + 2 ≤ Full.length := by unfold minSizeOf; omega
  -- every child of the copy has a page, with an id the pool has handed out
  have hchild : ∀ e ∈ Full, (t.pm e.2).isSome = true ∧ e.2 ∈ idsA ++ (idsO ++ (idsN ++ idsB)) := by
    intro e he
    refine ⟨?_, KidsL_child_mem (fun c lo1 hi1 ls1 ids1 hrc => Rep_pid_mem hrc) hkidsF e he⟩
    exact KidsL_child_prop (fun c => (t.pm c).isSome = true)
      (fun c lo1 hi1 ls1 ids1 hrc => by
        obtain ⟨nd, hnd1, _⟩ := Rep_page hrc
        rw [hnd1]; rfl) hkidsF e he
  have hidsF_bd : ∀ id ∈ idsA ++ (idsO ++ (idsN ++ idsB)), 0 < id ∧ id < t.next_page_id_ := by
    intro id hid
    apply hbd
    simp only [List.mem_append, List.mem_cons] at hid ⊢
    tauto
  have hsplit := SplitInternal_spec (t.pin par)
    ({ N with array_ := Full } : InternalPage K)
    (by show minSizeOf N.max_size_ ≤ Full.length; rw [h4]; omega)
    (fun e he => (hchild e (List.mem_of_mem_drop he)).1)
    (fun e he => ne_of_lt (hidsF_bd e.2 (hchild e (List.mem_of_mem_drop he)).2).2)
  obtain ⟨t2, hsp, hm1, hm2', hm3, hm4, hm5, hpm2⟩ := hsplit
  dsimp only at hsp hpm2
  simp only [h4] at hsp hpm2
  generalize hm : minSizeOf t.internal_max_size_ = m at hm2 hmle hsp hpm2
  have hLR : Full.take m ++ Full.drop m = Full := List.take_append_drop m Full
  have hLlen : (Full.take m).length = m := by rw [List.length_take]; omega
  have hRlen : (Full.drop m).length = Full.length - m := List.length_drop _ _
  obtain ⟨k0, c0, Rt, hRt⟩ : ∃ k0 c0 Rt, Full.drop m = (k0, c0) :: Rt := by
    cases hd : Full.drop m with
    | nil => rw [hd] at hRlen; simp at hRlen; omega
    | cons e r => exact ⟨e.1, e.2, r, rfl⟩
  have hLne : Full.take m ≠ [] := by
    intro e
    rw [e] at hLlen
    simp at hLlen
    omega
  generalize hL : Full.take m = L at hLR hLlen hLne hsp
  rw [hRt] at hLR hRlen hpm2
  -- the children of the two halves
  rw [← hLR] at hkidsF
  obtain ⟨ls1, ls2, ids1, ids2, hls, hids, hk1, hk2⟩ := KidsL_append_elim hkidsF
  rw [if_neg hLne] at hk2
  have hnl : nextLo ((k0, c0) :: Rt) hiP = some k0 := rfl
  rw [hnl] at hk1 hk2
  -- unfold the call
  simp only [InsertIntoParent, pageAt_eq t o nodeO hPo, pageAt_eq t n nodeN hPn, ok_bind,
    hnotroot, Bool.false_eq_true, if_false, hparO, FetchPage_eq t par _ h1, hidO, hidN]
  rw [if_neg (show ¬ N.GetSize < (t.pin par).internal_max_size_ from hsize), hins]
  simp only [ok_bind, h4]
  rw [hsp]
  simp only [ok_bind]
  have hsib : t2.pm (t.pin par).next_page_id_ = some (.internal
      ⟨t.next_page_id_, N.parent_page_id_, t.internal_max_size_, (k0, c0) :: Rt⟩) := by
    rw [hpm2, if_pos rfl]
    rfl
  rw [internalAt_eq t2 _ _ hsib]
  simp only [ok_bind, InternalPage.KeyAt, List.get?_cons_zero]
  have hnx : (t.pin par).next_page_id_ = t.next_page_id_ := rfl
  have hpmpin : (t.pin par).pm = t.pm := rfl
  rw [hnx] at hm2' hpm2 hsib ⊢
  rw [hpmpin] at hpm2
  generalize hs : t.next_page_id_ = s at hm2' hpm2 hsib hbd hidsF_bd hparlt ⊢
  generalize hT3 : t2.setPage par (.internal
    ⟨N.page_id_, N.parent_page_id_, t.internal_max_size_, L⟩) = T3
  have hT3m : T3.root_page_id_ = t.root_page_id_ ∧ T3.next_page_id_ = s + 1 ∧
      T3.leaf_max_size_ = t.leaf_max_size_ ∧ T3.internal_max_size_ = t.internal_max_size_ ∧
      T3.deleted_page_set_ = t.deleted_page_set_ := by
    rw [← hT3]
    exact ⟨hm1, hm2', hm3, hm4, hm5⟩
  have hpars : par ≠ s := ne_of_lt hparlt
  have hpm3 : ∀ id, T3.pm id =
      if id = par then some (.internal ⟨par, gpar, t.internal_max_size_, L⟩)
      else if id = s then some (.internal ⟨s, gpar, t.internal_max_size_, (k0, c0) :: Rt⟩)
      else if id ∈ List.map Prod.snd ((k0, c0) :: Rt) then
        (t.pm id).map (fun p => p.SetParentPageId s)
      else t.pm id := by
    intro id
    rw [← hT3, pm_setPage, hpm2, h2, h3]
    rfl
  -- the page ids of the two halves
  have hcnt2 : ∀ x : Int, ids1.count x + ids2.count x + ((if x = par then 1 else 0)
      + idsC1.count x) ≤ 1 := by
    intro x
    have := hcnt x
    have e : (if par = x then 1 else 0) = (if x = par then 1 else 0) := by
      by_cases hx : x = par
      · rw [if_pos hx, if_pos hx.symm]
      · rw [if_neg hx, if_neg (fun e => hx e.symm)]
    have e2 : (idsA ++ (idsO ++ (idsN ++ idsB))).count x = ids1.count x + ids2.count x := by
      rw [hids, List.count_append]
    simp only [List.count_append, List.count_cons, beq_iff_eq] at this e2
    rw [e] at this
    omega
  have hsub : ∀ id, id ∈ ids1 ++ ids2 → 0 < id ∧ id < s := by
    intro id hid
    rw [← hids] at hid
    exact hidsF_bd id hid
  have hRtmem : ∀ id ∈ List.map Prod.snd ((k0, c0) :: Rt), id ∈ ids2 := by
    intro id hid
    obtain ⟨e, he, he2⟩ := List.mem_map.1 hid
    rw [← he2]
    exact KidsL_child_mem (fun c lo1 hi1 ls1 ids1 hrc => Rep_pid_mem hrc) hk2 e he
  have hcp : ∀ (l : List Int) (x : Int), x ∈ l → 0 < l.count x :=
    fun l x hx => List.count_pos_iff.2 hx
  have hnd12 : (ids1 ++ ids2).Nodup := by
    rw [List.nodup_iff_count_le_one]
    intro x
    have := hcnt2 x
    rw [List.count_append]
    omega
  have hnd12' := List.nodup_append.1 hnd12
  have hf1 : ∀ id ∈ ids1, T3.pm id = t.pm id := by
    intro id hid
    have c := hcnt2 id
    have c1 := hcp _ _ hid
    have e1 : id ≠ par := fun e => by rw [if_pos e] at c; omega
    have e2 : id ≠ s := ne_of_lt (hsub id (List.mem_append_left _ hid)).2
    have e3 : id ∉ List.map Prod.snd ((k0, c0) :: Rt) := fun hm => by
      have := hcp _ _ (hRtmem id hm)
      omega
    rw [hpm3, if_neg e1, if_neg e2, if_neg e3]
  have hf2 : ∀ id ∈ ids2, T3.pm id = if id ∈ List.map Prod.snd ((k0, c0) :: Rt)
      then (t.pm id).map (fun p => p.SetParentPageId s) else t.pm id := by
    intro id hid
    have c := hcnt2 id
    have c1 := hcp _ _ hid
    have e1 : id ≠ par := fun e => by rw [if_pos e] at c; omega
    have e2 : id ≠ s := ne_of_lt (hsub id (List.mem_append_right _ hid)).2
    rw [hpm3, if_neg e1, if_neg e2]
  have hfC : ∀ id ∈ idsC1, T3.pm id = t.pm id := by
    intro id hid
    have c := hcnt2 id
    have c1 := hcp _ _ hid
    have e1 : id ≠ par := fun e => by rw [if_pos e] at c; omega
    have e2 : id ≠ s := ne_of_lt (hbd id (by simp [hid])).2
    have e3 : id ∉ List.map Prod.snd ((k0, c0) :: Rt) := fun hm => by
      have := hcp _ _ (hRtmem id hm)
      omega
    rw [hpm3, if_neg e1, if_neg e2, if_neg e3]
  have hRep1 : Rep T3.pm T3.leaf_max_size_ T3.internal_max_size_ true (h + 1) par gpar loP
      (some k0) ls1 (par :: ids1) := by
    rw [hT3m.2.2.1, hT3m.2.2.2.1]
    refine ⟨⟨par, gpar, t.internal_max_size_, L⟩, ids1, by rw [hpm3, if_pos rfl], rfl, rfl, rfl,
      hLne, fun _ => by show 2 ≤ L.length; omega, ?_, rfl⟩
    exact KidsL_imp (fun id => T3.pm id = t.pm id) hf1
      (fun c lo1 hi1 ls3 ids3 hS hrc => Rep_frame hS hrc) hk1
  have hRep2 : Rep T3.pm T3.leaf_max_size_ T3.internal_max_size_ true (h + 1) s gpar (some k0)
      hiP ls2 (s :: ids2) := by
    rw [hT3m.2.2.1, hT3m.2.2.2.1]
    refine ⟨⟨s, gpar, t.internal_max_size_, (k0, c0) :: Rt⟩, ids2,
      by rw [hpm3, if_neg (fun e => hpars e.symm), if_pos rfl], rfl, rfl, rfl,
      by simp, fun _ => by show 2 ≤ ((k0, c0) :: Rt).length; omega, ?_, rfl⟩
    exact KidsL_adopt hk2 hnd12'.2.1 hf2
  have hCtx3 : Ctx T3.pm T3.leaf_max_size_ T3.internal_max_size_ T3.root_page_id_ d (h + 1) par
      gpar loP hiP lsL1 lsR1 idsC1 := by
    rw [hT3m.2.2.1, hT3m.2.2.2.1, hT3m.1]
    exact Ctx_frame hfC h12
  have hnd3 : ((par :: ids1) ++ (s :: ids2) ++ idsC1).Nodup := by
    rw [List.nodup_iff_count_le_one]
    intro x
    have c := hcnt2 x
    simp only [List.count_append, List.count_cons, List.cons_append, beq_iff_eq]
    by_cases hx : x = s
    · have z1 : ids1.count x = 0 := List.count_eq_zero.2 (fun hm =>
        absurd hx (ne_of_lt (hsub x (List.mem_append_left _ hm)).2))
      have z2 : ids2.count x = 0 := List.count_eq_zero.2 (fun hm =>
        absurd hx (ne_of_lt (hsub x (List.mem_append_right _ hm)).2))
      have z3 : idsC1.count x = 0 := List.count_eq_zero.2 (fun hm =>
        absurd hx (ne_of_lt (hbd x (by simp [hm])).2))
      have z4 : ¬ par = x := fun e => hpars (e.trans hx)
      rw [z1, z2, z3, if_neg z4, if_pos hx.symm]
    · have z4 : ¬ s = x := fun e => hx e.symm
      rw [if_neg z4]
      by_cases hp : x = par
      · rw [if_pos hp] at c
        rw [if_pos hp.symm]
        omega
      · rw [if_neg hp] at c
        rw [if_neg (fun e => hp e.symm)]
        omega
  have hbd3 : ∀ id ∈ (par :: ids1) ++ (s :: ids2) ++ idsC1, 0 < id ∧ id < T3.next_page_id_ := by
    intro id hid
    rw [hT3m.2.1]
    simp only [List.mem_append, List.mem_cons] at hid
    rcases hid with ((e | e) | (e | e)) | e
    · rw [e]; omega
    · have := hsub id (List.mem_append_left _ e); omega
    · rw [e]; have := hsub c0 (List.mem_append_right _ (hRtmem c0 (by simp))); omega
    · have := hsub id (List.mem_append_right _ e); omega
    · have := hbd id (by simp [e]); omega
  have hkind3 : KindPres t T3 := by
    refine ⟨by rw [hT3m.2.1, hs]; omega, fun id hid hsome => ?_⟩
    rw [hs] at hid
    rw [hpm3]
    by_cases e1 : id = par
    · rw [if_pos e1, e1, h1]
      simp [kindId, TreePage.IsLeafPage, TreePage.GetPageId, h2]
    · rw [if_neg e1, if_neg (ne_of_lt hid)]
      by_cases e3 : id ∈ List.map Prod.snd ((k0, c0) :: Rt)
      · rw [if_pos e3]
        cases hp : t.pm id with
        | none => rfl
        | some p => simp [kindId_SetParentPageId]
      · rw [if_neg e3]
  have him3 : 3 ≤ T3.internal_max_size_ := by rw [hT3m.2.2.2.1]; exact him
  rcases hrec fuel T3 par s k0 (h + 1) gpar loP hiP lsL1 lsR1 ls1 ls2 idsC1 (par :: ids1)
    (s :: ids2) him3 hCtx3 hRep1 hRep2 hnd3 hbd3 with ⟨hfu, herr⟩ | ⟨t4, hok, l4, i4, d4, hk4, hw4⟩
  · left
    refine ⟨hfu, ?_⟩
    rw [herr]
    rfl
  · right
    rw [hok]
    simp only [ok_bind]
    have hs3 : T3.pm s = some (.internal ⟨s, gpar, t.internal_max_size_, (k0, c0) :: Rt⟩) := by
      rw [hpm3, if_neg (fun e => hpars e.symm), if_pos rfl]
    have hk4s := hk4.2 s (by rw [hT3m.2.1]; omega) (by rw [hs3]; rfl)
    rw [hs3] at hk4s
    obtain ⟨N4, hN4, hN4id⟩ := internalAt_of_kind t4 s hk4s
    rw [internalAt_eq t4 s N4 hN4]
    simp only [ok_bind]
    have hsc : SameCore t4 (UnpinPage (UnpinPage t4 par true) N4.page_id_ true) :=
      (SameCore_UnpinPage _ _ _).trans (SameCore_UnpinPage _ _ _)
    refine ⟨_, rfl, ?_, ?_, ?_, (hkind3.trans_kind hk4).trans_kind hsc.kind, ?_⟩
    · rw [hsc.2.2.2.1, l4, hT3m.2.2.1]
    · rw [hsc.2.2.2.2.1, i4, hT3m.2.2.2.1]
    · rw [hsc.2.2.2.2.2, d4, hT3m.2.2.2.2]
    · apply WellFormed_of_SameCore hsc
      have e : lsL ++ (lsO ++ lsN) ++ lsR = lsL1 ++ (ls1 ++ ls2) ++ lsR1 := by
        rw [h13, h14, ← hls]
        simp only [List.append_assoc]
      rw [e]
      exact hw4

end BPlusTree

namespace BPlusTree

variable {K V : Type} [LinearOrder K] [Inhabited K]

/-- `InsertIntoParent` restores the tree at every depth, given fuel for the
levels above `old_node`. -/
theorem InsertIntoParent_spec : ∀ d, IIPSpec K V d := by
  intro d
  induction d with
  | zero =>
    intro fuel t o n key h par lo hi lsL lsR lsO lsN idsC idsO idsN him hctx hro hrn hnd hbd
    obtain ⟨e1, e2, e3, e4, e5, e6, e7⟩ := hctx
    subst e2 e3 e4 e5 e6 e7
    cases fuel with
    | zero => exact Or.inl ⟨le_refl _, rfl⟩
    | succ f =>
      right
      simp only [List.append_nil] at hnd hbd
      obtain ⟨t1, hok, hroot, hnext, hl, hi1, hd, hk, hrep⟩ :=
        InsertIntoParent_root f t o n key h lsO lsN idsO idsN hro hrn hnd hbd
      refine ⟨t1, hok, hl, hi1, hd, hk, h + 1, t.next_page_id_ :: (idsO ++ idsN), ?_, ?_, ?_⟩
      · rw [hl, hi1, hroot]
        simpa using hrep
      · refine List.nodup_cons.2 ⟨fun hm => ?_, hnd⟩
        exact absurd (hbd _ hm).2 (lt_irrefl _)
      · intro id hid
        rw [hnext]
        rcases List.mem_cons.1 hid with e | e
        · rw [e]
          have := hbd o (List.mem_append_left _ (Rep_pid_mem hro))
          omega
        · have := hbd id e
          omega
  | succ d ih =>
    intro fuel t o n key h par lo hi lsL lsR lsO lsN idsC idsO idsN him hctx hro hrn hnd hbd
    cases fuel with
    | zero => exact Or.inl ⟨Nat.zero_le _, rfl⟩
    | succ f =>
      have hN : ∃ N : InternalPage K, t.pm par = some (.internal N) := by
        obtain ⟨N, A, kc, B, gpar, loP, hiP, lsA, lsB, lsL1, lsR1, idsA, idsB, idsC1, h1, _⟩ :=
          hctx
        exact ⟨N, h1⟩
      obtain ⟨N, hN⟩ := hN
      by_cases hs : N.GetSize < t.internal_max_size_
      · right
        exact InsertIntoParent_room f t o n key d h par lo hi lsL lsR lsO lsN idsC idsO idsN
          hctx hro hrn hnd hbd (fun N1 h1 => by
            rw [hN] at h1
            cases h1
            exact hs)
      · rcases InsertIntoParent_split f t o n key d h par lo hi lsL lsR lsO lsN idsC idsO idsN
          ih him hctx hro hrn hnd hbd (fun N1 h1 => by
            rw [hN] at h1
            cases h1
            exact hs) with ⟨hf, herr⟩ | hok
        · exact Or.inl ⟨Nat.succ_le_succ hf, herr⟩
        · exact Or.inr hok

end BPlusTree

namespace BPlusTree

variable {K V : Type}

theorem contents_singleton (L : LeafView K V) : contents [L] = L.items := by
  simp [contents]

end BPlusTree

namespace BPlusTree

variable {K V : Type}

/-- With an empty page set the root latch is free. -/
theorem rootLatchHeld_of_nil {t : Tree K V} (h : t.page_set_ = []) :
    t.rootLatchHeld = false := by
  unfold Tree.rootLatchHeld
  rw [h]
  rfl

variable [LinearOrder K]

/-- `GetValue` with the root latch free: the call goes on to `FindLeaf`. -/
theorem GetValue_free {t : Tree K V} (hfree : t.rootLatchHeld = false) (fuel : Nat) (key : K) :
    GetValue fuel t key = (do
      let (t1, leaf_page) ← FindLeaf fuel t key .SEARCH false false
      let node ← t1.leafAt leaf_page
      let existed := node.Lookup key
      pure (UnpinPage t1 leaf_page false, existed)) := by
  unfold GetValue
  rw [hfree]
  rfl

/-- `GetValue` with the root latch write-locked never returns. -/
theorem GetValue_held {t : Tree K V} (hheld : t.rootLatchHeld = true) (fuel : Nat) (key : K) :
    GetValue fuel t key = .error .out_of_fuel := by
  unfold GetValue
  rw [hheld]
  rfl

theorem GetValue_unlatched {t : Tree K V} {fuel : Nat} {key : K} {r : Tree K V × Option V}
    (h : GetValue fuel t key = .ok r) : t.rootLatchHeld = false := by
  cases hl : t.rootLatchHeld with
  | false => rfl
  | true =>
    rw [GetValue_held hl] at h
    cases h

/-- `Remove` with the root latch free. -/
theorem Remove_free {t : Tree K V} (hfree : t.rootLatchHeld = false) (fuel : Nat) (key : K) :
    Remove fuel t key = (do
      let t0 := AddIntoPageSet t none
      if IsEmpty t0 then pure (ReleaseLatchFromQueue t0)
      else
        let (t1, leaf_page) ← FindLeaf fuel t0 key .DELETE false false
        let node ← t1.leafAt leaf_page
        let size := node.GetSize
        let (node1, new_size) := node.RemoveAndDeleteRecord key
        let t2 := t1.setPage leaf_page (.leaf node1)
        if size = new_size then
          pure (UnpinPage (ReleaseLatchFromQueue t2) leaf_page false)
        else
          let (t3, node_should_delete) ← CoalesceOrRedistribute fuel t2 leaf_page
          let node2 ← t3.leafAt leaf_page
          let t4 := if node_should_delete then AddIntoDeletedPageSet t3 node2.page_id_ else t3
          let t5 := UnpinPage t4 leaf_page true
          let t6 := t5.deleted_page_set_.foldl DeletePage t5
          pure { t6 with deleted_page_set_ := [] }) := by
  unfold Remove
  rw [hfree]
  rfl

/-- `Remove` with the root latch write-locked never returns. -/
theorem Remove_held {t : Tree K V} (hheld : t.rootLatchHeld = true) (fuel : Nat) (key : K) :
    Remove fuel t key = .error .out_of_fuel := by
  unfold Remove
  rw [hheld]
  rfl

theorem Remove_unlatched {t : Tree K V} {fuel : Nat} {key : K} {r : Tree K V}
    (h : Remove fuel t key = .ok r) : t.rootLatchHeld = false := by
  cases hl : t.rootLatchHeld with
  | false => rfl
  | true =>
    rw [Remove_held hl] at h
    cases h

variable [Inhabited K]

/-- `Insert` with the root latch free. -/
theorem Insert_free {t : Tree K V} (hfree : t.rootLatchHeld = false) (fuel : Nat) (key : K)
    (value : V) :
    Insert fuel t key value =
      (let t1 := AddIntoPageSet t none
       if IsEmpty t1 then .ok (ReleaseLatchFromQueue (StartNewTree t1 key value), true)
       else InsertIntoLeaf fuel t1 key value) := by
  unfold Insert
  rw [hfree]
  rfl

/-- `Insert` with the root latch write-locked never returns. -/
theorem Insert_held {t : Tree K V} (hheld : t.rootLatchHeld = true) (fuel : Nat) (key : K)
    (value : V) : Insert fuel t key value = .error .out_of_fuel := by
  unfold Insert
  rw [hheld]
  rfl

theorem Insert_unlatched {t : Tree K V} {fuel : Nat} {key : K} {value : V}
    {r : Tree K V × Bool} (h : Insert fuel t key value = .ok r) : t.rootLatchHeld = false := by
  cases hl : t.rootLatchHeld with
  | false => rfl
  | true =>
    rw [Insert_held hl] at h
    cases h

/-- `Begin` on a tree with a root and the root latch free. -/
theorem Begin_free {t : Tree K V} (hne : t.root_page_id_ ≠ INVALID_PAGE_ID)
    (hfree : t.rootLatchHeld = false) (fuel : Nat) :
    Begin fuel t =
      (match FindLeaf fuel t default .SEARCH true false with
       | .error e => .error e
       | .ok (t1, leftmost_page) => .ok (t1, some leftmost_page)) := by
  unfold Begin
  rw [if_neg hne, hfree]
  rfl

end BPlusTree

namespace BPlusTree

variable {K V : Type} [LinearOrder K]

/-- `FindLeaf` on a well-formed tree: unless the fuel is below the height, it
returns the leaf whose key range holds `key`, together with the rest of the
tree around this leaf. -/
theorem FindLeaf_spec (op : Operation) (key : K) (fuel : Nat) (t : Tree K V) (h : Nat)
    (ls : List (LeafView K V)) (ids : List Int)
    (hr : Rep t.pm t.leaf_max_size_ t.internal_max_size_ true h t.root_page_id_
      INVALID_PAGE_ID none none ls ids)
    (hpos : ∀ id ∈ ids, 0 < id) :
    (fuel < h ∧ FindLeaf fuel t key op false false = .error .out_of_fuel) ∨
    ∃ t1 leaf parL loL hiL lsL1 lsR1 idsC1 L,
      FindLeaf fuel t key op false false = .ok (t1, leaf) ∧ SameCore t t1 ∧
      Ctx t.pm t.leaf_max_size_ t.internal_max_size_ t.root_page_id_ h 0 leaf parL loL hiL
        lsL1 lsR1 idsC1 ∧
      Rep t.pm t.leaf_max_size_ t.internal_max_size_ true 0 leaf parL loL hiL [L] [leaf] ∧
      inB loL hiL key ∧ ls = lsL1 ++ [L] ++ lsR1 ∧ ids.Perm (leaf :: idsC1) := by
  obtain ⟨node, hP, -, -, -⟩ := Rep_page hr
  have hroot : t.root_page_id_ ≠ INVALID_PAGE_ID := by
    have := hpos _ (Rep_pid_mem hr)
    intro e
    rw [e] at this
    exact absurd this (by decide)
  have hsc : SameCore t (crabRoot (t.pin t.root_page_id_) op node) :=
    (SameCore_pin t _).trans (SameCore_crabRoot _ _ _)
  have hunf : FindLeaf fuel t key op false false
      = descend key op false false fuel (crabRoot (t.pin t.root_page_id_) op node)
          t.root_page_id_ node := by
    unfold FindLeaf
    rw [if_neg (by simp), if_neg hroot, FetchPage_eq t _ node hP]
  rw [hunf]
  have hctx0 : Ctx t.pm t.leaf_max_size_ t.internal_max_size_ t.root_page_id_ 0 h
      t.root_page_id_ INVALID_PAGE_ID none none [] [] [] := by
    unfold Ctx
    exact ⟨rfl, rfl, rfl, rfl, rfl, rfl, rfl⟩
  have hin : inB (none : Option K) none key := ⟨fun l hl => (by cases hl), fun u hu => (by cases hu)⟩
  rcases descend_spec op key t.root_page_id_ t.pm t.leaf_max_size_ t.internal_max_size_ h 0 fuel
    (crabRoot (t.pin t.root_page_id_) op node) t.root_page_id_ INVALID_PAGE_ID node none none
    ls [] [] ids [] hsc.pm hr hctx0 hP hin hpos with ⟨hf, herr⟩ | ⟨t1, leaf, parL, loL, hiL,
      lsL1, lsR1, idsC1, L, hok, hsc1, hc, hrl, hinl, hls, hperm⟩
  · exact Or.inl ⟨hf, herr⟩
  · right
    refine ⟨t1, leaf, parL, loL, hiL, lsL1, lsR1, idsC1, L, hok, hsc.trans hsc1, ?_, hrl, hinl,
      ?_, ?_⟩
    · simpa using hc
    · simpa using hls
    · simpa using hperm

theorem Lookup_eq_lookupKV (L : LeafPage K V) (key : K) : L.Lookup key = lookupKV L.array_ key :=
  rfl

/-- `GetValue` on a well-formed tree returns the value the leaves hold for the
key. -/
theorem GetValue_spec (key : K) (fuel : Nat) (t : Tree K V) (h : Nat)
    (ls : List (LeafView K V)) (ids : List Int)
    (hr : Rep t.pm t.leaf_max_size_ t.internal_max_size_ true h t.root_page_id_
      INVALID_PAGE_ID none none ls ids)
    (hpos : ∀ id ∈ ids, 0 < id) (hfree : t.rootLatchHeld = false) :
    (fuel < h ∧ GetValue fuel t key = .error .out_of_fuel) ∨
    ∃ t1, GetValue fuel t key = .ok (t1, lookupKV (contents ls) key) ∧ SameCore t t1 := by
  rcases FindLeaf_spec .SEARCH key fuel t h ls ids hr hpos with ⟨hf, herr⟩ | ⟨t1, leaf, parL,
    loL, hiL, lsL1, lsR1, idsC1, L, hok, hsc, hc, hrl, hinl, hls, hperm⟩
  · left
    refine ⟨hf, ?_⟩
    rw [GetValue_free hfree]
    rw [herr]
    rfl
  · right
    obtain ⟨Lp, hLp, hid, hpar, hmax, hsorted, hbnd, hne, hview, -⟩ := hrl
    have hLp1 : t1.pm leaf = some (.leaf Lp) := by rw [hsc.pm]; exact hLp
    refine ⟨UnpinPage t1 leaf false, ?_, hsc.trans (SameCore_UnpinPage _ _ _)⟩
    rw [GetValue_free hfree]
    rw [hok]
    simp only [ok_bind, leafAt_eq t1 leaf Lp hLp1]
    have e : lookupKV (contents ls) key = Lp.Lookup key := by
      rw [hls, lookupKV_focus hc key hinl [L], contents_singleton, Lookup_eq_lookupKV]
      simp only [List.cons.injEq, and_true] at hview
      rw [hview]
    rw [e]
    rfl

end BPlusTree

namespace BPlusTree

variable {K V : Type}

theorem Chain_cons (a : LeafView K V) (rest : List (LeafView K V)) (last : Int) :
    Chain (a :: rest) last ↔ a.next = headId rest last ∧ Chain rest last := by
  cases rest with
  | nil => simp [Chain, headId]
  | cons b r => simp [Chain, headId]

theorem headId_append (X Y : List (LeafView K V)) (last : Int) :
    headId (X ++ Y) last = headId X (headId Y last) := by
  cases X <;> rfl

theorem Chain_append (X Y : List (LeafView K V)) (last : Int) :
    Chain (X ++ Y) last ↔ Chain X (headId Y last) ∧ Chain Y last := by
  induction X with
  | nil => simp [Chain]
  | cons a r ih =>
    rw [List.cons_append, Chain_cons, Chain_cons, ih, headId_append]
    tauto

/-- A leaf is replaced by one with the same id and successor. -/
theorem Chain_replace {X Y : List (LeafView K V)} {a b : LeafView K V} {last : Int}
    (h : Chain (X ++ [a] ++ Y) last) (hid : b.id = a.id) (hnext : b.next = a.next) :
    Chain (X ++ [b] ++ Y) last := by
  rw [List.append_assoc, Chain_append, List.singleton_append, Chain_cons] at h ⊢
  refine ⟨?_, ?_, h.2.2⟩
  · have : headId (b :: Y) last = headId (a :: Y) last := hid
    rw [this]
    exact h.1
  · rw [hnext]
    exact h.2.1

/-- A leaf is split in two, the second linked behind the first. -/
theorem Chain_split {X Y : List (LeafView K V)} {a b c : LeafView K V} {last : Int}
    (h : Chain (X ++ [a] ++ Y) last) (hid : b.id = a.id) (hbc : b.next = c.id)
    (hnext : c.next = a.next) : Chain (X ++ ([b] ++ [c]) ++ Y) last := by
  rw [List.append_assoc, Chain_append, List.singleton_append, Chain_cons] at h
  rw [List.append_assoc, Chain_append]
  show Chain X (headId (b :: c :: Y) last) ∧ Chain (b :: c :: Y) last
  rw [Chain_cons, Chain_cons]
  refine ⟨?_, hbc, ?_, h.2.2⟩
  · have : headId (b :: c :: Y) last = headId (a :: Y) last := hid
    rw [this]
    exact h.1
  · rw [hnext]
    exact h.2.1

/-- Two neighbouring leaves are merged into one that keeps the id of the first
and the successor of the second. -/
theorem Chain_merge {X Y : List (LeafView K V)} {a b c : LeafView K V} {last : Int}
    (h : Chain (X ++ ([a] ++ [b]) ++ Y) last) (hid : c.id = a.id) (hnext : c.next = b.next) :
    Chain (X ++ [c] ++ Y) last := by
  rw [List.append_assoc, Chain_append] at h
  have h2 : Chain (a :: b :: Y) last := h.2
  rw [Chain_cons, Chain_cons] at h2
  rw [List.append_assoc, Chain_append, List.singleton_append, Chain_cons]
  refine ⟨?_, ?_, h2.2.2⟩
  · have : headId (c :: Y) last = headId ([a] ++ [b] ++ Y) last := hid
    rw [this]
    exact h.1
  · rw [hnext]
    exact h2.2.1

end BPlusTree

namespace BPlusTree

variable {K V : Type}

theorem assign_same (m : List (Int × TreePage K V)) (id : Int) (p : TreePage K V)
    (h : UMap.find m id = some p) : assign m id p = m := by
  induction m with
  | nil => simp [UMap.find] at h
  | cons e rest ih =>
    unfold assign
    unfold UMap.find at h
    by_cases he : e.1 = id
    · rw [if_pos he] at h ⊢
      simp only [Option.some.injEq] at h
      rw [← h, ← he]
    · rw [if_neg he] at h ⊢
      rw [ih h]

theorem setPage_same (t : Tree K V) (id : Int) (p : TreePage K V) (h : t.pm id = some p) :
    t.setPage id p = t := by
  unfold Tree.setPage
  rw [assign_same t.pages_ id p h]

theorem leafAt_setPage_leaf (t : Tree K V) (id : Int) (L : LeafPage K V) (id1 : Int) :
    (t.setPage id (.leaf L)).leafAt id1 = if id1 = id then .ok L else t.leafAt id1 := by
  unfold Tree.leafAt
  have := pm_setPage t id (.leaf L) id1
  unfold Tree.pm at this
  rw [this]
  by_cases e : id1 = id
  · rw [if_pos e, if_pos e]
  · rw [if_neg e, if_neg e]

theorem leafAt_NewPage (t : Tree K V) (id : Int) : (NewPage t).1.leafAt id = t.leafAt id := rfl

theorem perm_nodup_bound {ids l : List Int} {b : Int} (hp : ids.Perm l) (hnd : ids.Nodup)
    (hb : ∀ id ∈ ids, 0 < id ∧ id < b) : l.Nodup ∧ ∀ id ∈ l, 0 < id ∧ id < b :=
  ⟨hp.nodup_iff.1 hnd, fun id hid => hb id (hp.mem_iff.2 hid)⟩

end BPlusTree

namespace BPlusTree

variable {K V : Type} [LinearOrder K]

/-- The leaf found for a key is rewritten with the pairs `arr`: the tree around
it stays, and the leaf is well formed again when `arr` ascends within the key
range of the leaf. -/
theorem leaf_update {t T : Tree K V} {D : Nat} {leaf parL : Int} {loL hiL : Option K}
    {lsL1 lsR1 : List (LeafView K V)} {idsC1 : List Int} {L : LeafView K V}
    {Lp : LeafPage K V} (arr : List (K × V)) (s : Bool)
    (hc : Ctx t.pm t.leaf_max_size_ t.internal_max_size_ t.root_page_id_ D 0 leaf parL loL hiL
      lsL1 lsR1 idsC1)
    (hrl : Rep t.pm t.leaf_max_size_ t.internal_max_size_ true 0 leaf parL loL hiL [L] [leaf])
    (hLp : t.pm leaf = some (.leaf Lp))
    (hnd : (leaf :: idsC1).Nodup)
    (hT : ∀ id, T.pm id = if id = leaf then some (.leaf { Lp with array_ := arr }) else t.pm id)
    (hsorted : (arr.map Prod.fst).Pairwise (· < ·))
    (hbnd : ∀ e ∈ arr, inB loL hiL e.1)
    (hne : s = true → arr ≠ []) :
    Ctx T.pm t.leaf_max_size_ t.internal_max_size_ t.root_page_id_ D 0 leaf parL loL hiL
      lsL1 lsR1 idsC1 ∧
    Rep T.pm t.leaf_max_size_ t.internal_max_size_ s 0 leaf parL loL hiL
      [⟨leaf, Lp.next_page_id_, arr⟩] [leaf] ∧
    L = ⟨leaf, Lp.next_page_id_, Lp.array_⟩ := by
  obtain ⟨Lq, hLq, hid, hpar, hmax, -, -, -, hview, -⟩ := hrl
  rw [hLp] at hLq
  simp only [Option.some.injEq, TreePage.leaf.injEq] at hLq
  subst hLq
  have hnotin : leaf ∉ idsC1 := (List.nodup_cons.1 hnd).1
  refine ⟨?_, ?_, ?_⟩
  · apply Ctx_frame _ hc
    intro id hid
    rw [hT, if_neg (fun e : id = leaf => hnotin (e ▸ hid))]
  · exact ⟨{ Lp with array_ := arr }, by rw [hT, if_pos rfl], hid, hpar, hmax, hsorted, hbnd, hne,
      rfl, rfl⟩
  · simpa using hview

end BPlusTree

namespace BPlusTree

variable {K V : Type} [LinearOrder K]

theorem lookupKV_around (X Y A B : List (LeafView K V)) (k : K)
    (h : lookupKV (contents A) k = lookupKV (contents B) k) :
    lookupKV (contents (X ++ A ++ Y)) k = lookupKV (contents (X ++ B ++ Y)) k := by
  simp only [contents_append, lookupKV_append, h]

theorem inB_of_mem_insertSorted {lo hi : Option K} (key : K) (value : V) (l : List (K × V))
    (hl : ∀ e ∈ l, inB lo hi e.1) (hk : inB lo hi key) :
    ∀ e ∈ LeafPage.insertSorted key value l, inB lo hi e.1 := by
  intro e he
  rcases insertSorted_mem key value l e he with h1 | h1
  · exact hl e h1
  · rw [h1]; exact hk

end BPlusTree

namespace BPlusTree

variable {K V : Type} [LinearOrder K] [Inhabited K]

/-- `InsertIntoLeaf` on a well-formed tree. -/
theorem InsertIntoLeaf_spec (key : K) (value : V) (fuel : Nat) (t : Tree K V) (h : Nat)
    (ls : List (LeafView K V)) (ids : List Int)
    (hlm : 1 ≤ t.leaf_max_size_) (him : 3 ≤ t.internal_max_size_)
    (hr : Rep t.pm t.leaf_max_size_ t.internal_max_size_ true h t.root_page_id_
      INVALID_PAGE_ID none none ls ids)
    (hnd : ids.Nodup) (hbd : ∀ id ∈ ids, 0 < id ∧ id < t.next_page_id_)
    (hch : Chain ls INVALID_PAGE_ID) :
    (fuel ≤ h ∧ InsertIntoLeaf fuel t key value = .error .out_of_fuel) ∨
    ∃ t1 ls1,
      InsertIntoLeaf fuel t key value = .ok (t1, !(lookupKV (contents ls) key).isSome) ∧
      t1.leaf_max_size_ = t.leaf_max_size_ ∧ t1.internal_max_size_ = t.internal_max_size_ ∧
      t1.deleted_page_set_ = t.deleted_page_set_ ∧
      WellFormed t1 ls1 ∧ Chain ls1 INVALID_PAGE_ID ∧
      (∀ k, lookupKV (contents ls1) k
        = if k = key then
            (if (lookupKV (contents ls) key).isSome then lookupKV (contents ls) key
             else some value)
          else lookupKV (contents ls) k) ∧
      ((lookupKV (contents ls) key).isSome = true →
        t1.pages_ = t.pages_ ∧ t1.root_page_id_ = t.root_page_id_ ∧
        t1.next_page_id_ = t.next_page_id_ ∧ ls1 = ls) := by
  rcases FindLeaf_spec .INSERT key fuel t h ls ids hr (fun id hid => (hbd id hid).1) with
    ⟨hf, herr⟩ | ⟨t1, leaf, parL, loL, hiL, lsL1, lsR1, idsC1, L, hok, hsc, hc, hrl, hinl, hls,
      hperm⟩
  · left
    refine ⟨Nat.le_of_lt hf, ?_⟩
    unfold InsertIntoLeaf
    rw [herr]
    rfl
  obtain ⟨hnd1, hbd1⟩ := perm_nodup_bound hperm hnd hbd
  have hrl0 := hrl
  obtain ⟨Lp, hLp, hid, hpar, hmax, hsorted, hbnd, hne, hview, -⟩ := hrl
  have hLp1 : t1.pm leaf = some (.leaf Lp) := by rw [hsc.pm]; exact hLp
  have hLv : L = ⟨leaf, Lp.next_page_id_, Lp.array_⟩ := by simpa using hview
  have hlk : lookupKV (contents ls) key = lookupKV Lp.array_ key := by
    rw [hls, lookupKV_focus hc key hinl [L], contents_singleton, hLv]
  unfold InsertIntoLeaf
  rw [hok]
  simp only [ok_bind, leafAt_eq t1 leaf Lp hLp1, LeafPage.Insert, LeafPage.GetSize]
  by_cases hpres : (lookupKV Lp.array_ key).isSome = true
  · -- the key is there: nothing changes
    right
    have hsame := insertSorted_of_present key value Lp.array_ hsorted hpres
    rw [hsame, if_pos rfl]
    have hset : t1.setPage leaf (.leaf { Lp with array_ := Lp.array_ }) = t1 :=
      setPage_same t1 leaf _ hLp1
    rw [hset]
    have hsc2 : SameCore t (UnpinPage (ReleaseLatchFromQueue t1) leaf false) :=
      (hsc.trans (SameCore_ReleaseLatchFromQueue _)).trans (SameCore_UnpinPage _ _ _)
    refine ⟨_, ls, ?_, hsc2.2.2.2.1, hsc2.2.2.2.2.1, hsc2.2.2.2.2.2,
      WellFormed_of_SameCore hsc2 ⟨h, ids, hr, hnd, hbd⟩, hch, ?_,
      fun _ => ⟨hsc2.1, hsc2.2.1, hsc2.2.2.1, rfl⟩⟩
    · rw [hlk, hpres]
      rfl
    · intro k
      by_cases hk : k = key
      · rw [if_pos hk, hk, hlk, if_pos hpres]
      · rw [if_neg hk]
  have hnone : lookupKV Lp.array_ key = none := by
    cases hv : lookupKV Lp.array_ key with
    | none => rfl
    | some v => rw [hv] at hpres; exact absurd rfl hpres
  have hlen := insertSorted_length key value Lp.array_ hsorted hnone
  have hins_sorted := insertSorted_sorted key value Lp.array_ hsorted
  have hins_bnd := inB_of_mem_insertSorted key value Lp.array_ hbnd hinl
  have hins_ne := insertSorted_ne_nil key value Lp.array_
  have hins_lk := lookupKV_insertSorted key value Lp.array_ hsorted
  generalize hins : LeafPage.insertSorted key value Lp.array_ = ins at *
  rw [if_neg (by omega)]
  -- what the leaves hold afterwards, for any leaves in place of the old leaf
  have hpost : ∀ X : List (LeafView K V), contents X = ins →
      ∀ k, lookupKV (contents (lsL1 ++ X ++ lsR1)) k
        = if k = key then
            (if (lookupKV (contents ls) key).isSome then lookupKV (contents ls) key
             else some value)
          else lookupKV (contents ls) k := by
    intro X hX k
    by_cases hk : k = key
    · rw [if_pos hk, hk, lookupKV_focus hc key hinl X, hX, hins_lk, if_pos rfl, hlk]
    · rw [if_neg hk, hls]
      apply lookupKV_around
      rw [hX, hins_lk, if_neg hk, contents_singleton, hLv]
  have hflag : (!(lookupKV (contents ls) key).isSome) = true := by
    rw [hlk, hnone]
    rfl
  have hnoabs : (lookupKV (contents ls) key).isSome = true → False := by
    rw [hlk, hnone]
    intro hh
    cases hh
  rw [hflag]
  generalize hT2 : t1.setPage leaf (.leaf { Lp with array_ := ins }) = T2
  have hT2pm : ∀ id, T2.pm id = if id = leaf then some (.leaf { Lp with array_ := ins })
      else t.pm id := by
    intro id
    rw [← hT2, pm_setPage, hsc.pm]
  have hT2m : SameMeta t T2 := by
    rw [← hT2]
    exact hsc.meta.trans_meta (SameMeta_setPage _ _ _)
  obtain ⟨hc2, hrl2, -⟩ := leaf_update ins true hc hrl0 hLp hnd1 hT2pm hins_sorted hins_bnd
    (fun _ => hins_ne)
  by_cases hroom : ins.length < T2.leaf_max_size_
  · right
    rw [if_pos hroom]
    have hsc2 : SameCore T2 (UnpinPage (ReleaseLatchFromQueue T2) leaf true) :=
      (SameCore_ReleaseLatchFromQueue _).trans (SameCore_UnpinPage _ _ _)
    obtain ⟨ids2, hrep2, hperm2⟩ := Ctx_plug hc2 hrl2
    have hperm3 : ids2.Perm ids := hperm2.trans hperm.symm
    refine ⟨_, lsL1 ++ [⟨leaf, Lp.next_page_id_, ins⟩] ++ lsR1, rfl,
      hsc2.2.2.2.1.trans hT2m.2.2.1, hsc2.2.2.2.2.1.trans hT2m.2.2.2.1,
      hsc2.2.2.2.2.2.trans hT2m.2.2.2.2, ?_, ?_, hpost _ (contents_singleton _),
      fun hh => (hnoabs hh).elim⟩
    · apply WellFormed_of_SameCore hsc2
      refine ⟨0 + h, ids2, ?_, hperm3.nodup_iff.2 hnd, fun id hid => ?_⟩
      · rw [hT2m.2.2.1, hT2m.2.2.2.1, hT2m.1]
        exact hrep2
      · rw [hT2m.2.1]
        exact hbd id (hperm3.mem_iff.1 hid)
    · rw [hls] at hch
      exact Chain_replace (a := L) hch (by rw [hLv]) (by rw [hLv])
  · rw [if_neg hroom]
    have hleaf_lt : leaf < T2.next_page_id_ := by
      rw [hT2m.2.1]
      exact (hbd1 leaf (List.mem_cons_self _ _)).2
    have hne1 : ¬ leaf = T2.next_page_id_ := ne_of_lt hleaf_lt
    have hne2 : ¬ T2.next_page_id_ = leaf := fun e => hne1 e.symm
    have hT2leaf : T2.leafAt leaf = .ok { Lp with array_ := ins } :=
      leafAt_eq T2 leaf _ (by rw [hT2pm, if_pos rfl])
    simp only [SplitLeaf, NewPage_snd, ok_bind, pure_bind, leafAt_NewPage, hT2leaf, leafAt_setPage_leaf,
      if_true, hne1, hne2, if_false, LeafPage.MoveHalfTo, LeafPage.Init, LeafPage.GetMinSize,
      List.nil_append, LeafPage.KeyAt]
    have hnp : (NewPage T2).1.leaf_max_size_ = t.leaf_max_size_ := hT2m.2.2.1
    rw [hnp, hmax, hid, hpar]
    have hTnext : T2.next_page_id_ = t.next_page_id_ := hT2m.2.1
    generalize hs : T2.next_page_id_ = s at hleaf_lt hne1 hne2 hTnext ⊢
    have hge : t.leaf_max_size_ ≤ ins.length := by
      rw [hT2m.2.2.1] at hroom
      omega
    generalize hm : minSizeOf t.leaf_max_size_ = m
    have hm1 : 1 ≤ m := by rw [← hm]; unfold minSizeOf; omega
    have hLpos : 1 ≤ Lp.array_.length := List.length_pos.2 (hne rfl)
    have hm2 : m + 1 ≤ ins.length := by rw [← hm]; unfold minSizeOf; omega
    have htd : ins.take m ++ ins.drop m = ins := List.take_append_drop m ins
    have htlen : (ins.take m).length = m := by rw [List.length_take]; omega
    have hdlen : (ins.drop m).length = ins.length - m := List.length_drop _ _
    obtain ⟨rk, rv, Dr, hDr⟩ : ∃ rk rv Dr, ins.drop m = (rk, rv) :: Dr := by
      cases hd : ins.drop m with
      | nil => rw [hd] at hdlen; simp at hdlen; omega
      | cons e r => exact ⟨e.1, e.2, r, rfl⟩
    have htne : ins.take m ≠ [] := by
      intro e
      rw [e] at htlen
      simp at htlen
      omega
    generalize hTk : ins.take m = Tk at htd htlen htne ⊢
    rw [hDr] at htd ⊢
    simp only [List.get?_cons_zero, ok_bind]
    generalize hT5 : Tree.setPage _ leaf _ = T5
    have hT5pm : ∀ id, T5.pm id =
        if id = leaf then some (.leaf ⟨leaf, parL, t.leaf_max_size_, s, Tk⟩)
        else if id = s then
          some (.leaf ⟨s, parL, t.leaf_max_size_, Lp.next_page_id_, (rk, rv) :: Dr⟩)
        else t.pm id := by
      intro id
      rw [← hT5, pm_setPage, pm_setPage, pm_setPage, pm_setPage, pm_setPage, pm_NewPage, hT2pm]
      by_cases e1 : id = leaf
      · rw [if_pos e1, if_pos e1]
      · rw [if_neg e1, if_neg e1]
        by_cases e2 : id = s
        · rw [if_pos e2, if_pos e2, if_neg e1]
        · rw [if_neg e2, if_neg e2, if_neg e1, if_neg e2, if_neg e2, if_neg e1]
    have hT5m : T5.root_page_id_ = t.root_page_id_ ∧ T5.next_page_id_ = s + 1 ∧
        T5.leaf_max_size_ = t.leaf_max_size_ ∧ T5.internal_max_size_ = t.internal_max_size_ ∧
        T5.deleted_page_set_ = t.deleted_page_set_ := by
      rw [← hT5]
      refine ⟨hT2m.1, ?_, hT2m.2.2.1, hT2m.2.2.2.1, hT2m.2.2.2.2⟩
      show T2.next_page_id_ + 1 = s + 1
      rw [hs]
    -- order of the two halves
    have hpw : ((Tk ++ (rk, rv) :: Dr).map Prod.fst).Pairwise (· < ·) := by
      rw [htd]; exact hins_sorted
    rw [List.map_append, List.pairwise_append] at hpw
    obtain ⟨hpw1, hpw2, hpw3⟩ := hpw
    have hinsb : ∀ e ∈ Tk ++ (rk, rv) :: Dr, inB loL hiL e.1 := by
      rw [htd]; exact hins_bnd
    have hnotin : leaf ∉ idsC1 := (List.nodup_cons.1 hnd1).1
    have hsC : s ∉ idsC1 := fun hm => by
      have := (hbd1 s (List.mem_cons_of_mem _ hm)).2
      omega
    have hRep1 : Rep T5.pm T5.leaf_max_size_ T5.internal_max_size_ true 0 leaf parL loL
        (some rk) [⟨leaf, s, Tk⟩] [leaf] := by
      rw [hT5m.2.2.1, hT5m.2.2.2.1]
      refine ⟨⟨leaf, parL, t.leaf_max_size_, s, Tk⟩, by rw [hT5pm, if_pos rfl], rfl, rfl, rfl,
        hpw1, fun e he => ⟨(hinsb e (List.mem_append_left _ he)).1, fun u hu => ?_⟩,
        fun _ => htne, rfl, rfl⟩
      simp only [Option.some.injEq] at hu
      rw [← hu]
      exact hpw3 e.1 (List.mem_map_of_mem _ he) rk (by simp)
    have hRep2 : Rep T5.pm T5.leaf_max_size_ T5.internal_max_size_ true 0 s parL (some rk)
        hiL [⟨s, Lp.next_page_id_, (rk, rv) :: Dr⟩] [s] := by
      rw [hT5m.2.2.1, hT5m.2.2.2.1]
      refine ⟨⟨s, parL, t.leaf_max_size_, Lp.next_page_id_, (rk, rv) :: Dr⟩,
        by rw [hT5pm, if_neg hne2, if_pos rfl], rfl, rfl, rfl, hpw2,
        fun e he => ⟨fun l hl => ?_, (hinsb e (List.mem_append_right _ he)).2⟩,
        fun _ => by simp, rfl, rfl⟩
      simp only [Option.some.injEq] at hl
      rw [← hl]
      rcases List.mem_cons.1 he with e1 | e1
      · rw [e1]
      · have hpw2' := hpw2
        simp only [List.map_cons, List.pairwise_cons] at hpw2'
        exact le_of_lt (hpw2'.1 e.1 (List.mem_map_of_mem _ e1))
    have hCtx5 : Ctx T5.pm T5.leaf_max_size_ T5.internal_max_size_ T5.root_page_id_ h 0 leaf
        parL loL hiL lsL1 lsR1 idsC1 := by
      rw [hT5m.2.2.1, hT5m.2.2.2.1, hT5m.1]
      apply Ctx_frame _ hc
      intro id hid
      rw [hT5pm, if_neg (fun e : id = leaf => hnotin (e ▸ hid)),
        if_neg (fun e : id = s => hsC (e ▸ hid))]
    have hnd5 : ([leaf] ++ [s] ++ idsC1).Nodup := by
      show (leaf :: s :: idsC1).Nodup
      refine List.nodup_cons.2 ⟨?_, List.nodup_cons.2 ⟨hsC, (List.nodup_cons.1 hnd1).2⟩⟩
      intro hm
      rcases List.mem_cons.1 hm with e | e
      · exact hne1 e
      · exact hnotin e
    have hbd5 : ∀ id ∈ [leaf] ++ [s] ++ idsC1, 0 < id ∧ id < T5.next_page_id_ := by
      intro id hid
      rw [hT5m.2.1]
      have hid' : id = leaf ∨ id = s ∨ id ∈ idsC1 := by simpa using hid
      rcases hid' with e | e | e
      · have := hbd1 leaf (List.mem_cons_self _ _); rw [e]; omega
      · have := hbd1 leaf (List.mem_cons_self _ _); rw [e]; omega
      · have := hbd1 id (List.mem_cons_of_mem _ e); omega
    have him5 : 3 ≤ T5.internal_max_size_ := by rw [hT5m.2.2.2.1]; exact him
    rcases InsertIntoParent_spec h fuel T5 leaf s rk 0 parL loL hiL lsL1 lsR1
      [⟨leaf, s, Tk⟩] [⟨s, Lp.next_page_id_, (rk, rv) :: Dr⟩] idsC1 [leaf] [s] him5 hCtx5
      hRep1 hRep2 hnd5 hbd5 with ⟨hfu, herr⟩ | ⟨t6, hok6, l6, i6, d6, hk6, hw6⟩
    · left
      refine ⟨hfu, ?_⟩
      rw [herr]
      rfl
    · right
      rw [hok6]
      simp only [ok_bind]
      have hs5 : T5.pm s = some (.leaf
          ⟨s, parL, t.leaf_max_size_, Lp.next_page_id_, (rk, rv) :: Dr⟩) := by
        rw [hT5pm, if_neg hne2, if_pos rfl]
      have hk6s := hk6.2 s (by rw [hT5m.2.1]; omega) (by rw [hs5]; rfl)
      rw [hs5] at hk6s
      obtain ⟨L6, hL6, hL6id⟩ := leafAt_of_kind t6 s hk6s
      rw [leafAt_eq t6 s L6 hL6]
      simp only [ok_bind]
      have hsc6 : SameCore t6 (UnpinPage (UnpinPage t6 leaf true) L6.page_id_ true) :=
        (SameCore_UnpinPage _ _ _).trans (SameCore_UnpinPage _ _ _)
      refine ⟨_, lsL1 ++ ([⟨leaf, s, Tk⟩] ++ [⟨s, Lp.next_page_id_, (rk, rv) :: Dr⟩]) ++ lsR1,
        rfl, ?_, ?_, ?_, WellFormed_of_SameCore hsc6 hw6, ?_, hpost _ ?_,
        fun hh => (hnoabs hh).elim⟩
      · rw [hsc6.2.2.2.1, l6, hT5m.2.2.1]
      · rw [hsc6.2.2.2.2.1, i6, hT5m.2.2.2.1]
      · rw [hsc6.2.2.2.2.2, d6, hT5m.2.2.2.2]
      · rw [hls] at hch
        exact Chain_split (a := L) hch (by rw [hLv]) rfl (by rw [hLv])
      · rw [contents_append, contents_singleton, contents_singleton]
        exact htd

end BPlusTree

namespace BPlusTree

variable {K V : Type} [LinearOrder K]

theorem WellFormed_root_pos {t : Tree K V} {ls : List (LeafView K V)} (hw : WellFormed t ls) :
    0 < t.root_page_id_ ∧ t.root_page_id_ < t.next_page_id_ := by
  obtain ⟨h, ids, hr, -, hb⟩ := hw
  exact hb _ (Rep_pid_mem hr)

theorem WellFormed_not_empty {t : Tree K V} {ls : List (LeafView K V)} (hw : WellFormed t ls) :
    t.root_page_id_ ≠ INVALID_PAGE_ID := by
  have := (WellFormed_root_pos hw).1
  intro e
  rw [e] at this
  exact absurd this (by decide)

theorem WellFormed_ls_ne {t : Tree K V} {ls : List (LeafView K V)} (hw : WellFormed t ls) :
    ls ≠ [] := by
  obtain ⟨h, ids, hr, -, -⟩ := hw
  exact Rep_ls_ne hr

end BPlusTree

namespace BPlusTree

variable {K V : Type} [LinearOrder K] [Inhabited K]

/-- `Insert` keeps the invariant; it adds the pair when the key is new and
changes nothing when the key is there. With fuel above a bound that depends on
the tree only, it returns. -/
theorem Insert_keeps_inv (key : K) (value : V) (t : Tree K V) (ls : List (LeafView K V))
    (hinv : TreeInv t ls) (hfree : t.rootLatchHeld = false) :
    ∃ n, ∀ fuel,
      (fuel ≤ n ∧ Insert fuel t key value = .error .out_of_fuel) ∨
      ∃ t1 ls1,
        Insert fuel t key value = .ok (t1, !(lookupKV (contents ls) key).isSome) ∧
        TreeInv t1 ls1 ∧
        (∀ k, lookupKV (contents ls1) k
          = if k = key then
              (if (lookupKV (contents ls) key).isSome then lookupKV (contents ls) key
               else some value)
            else lookupKV (contents ls) k) ∧
        ((lookupKV (contents ls) key).isSome = true →
          t1.pages_ = t.pages_ ∧ t1.root_page_id_ = t.root_page_id_ ∧
          t1.next_page_id_ = t.next_page_id_ ∧ ls1 = ls) := by
  rcases hinv.shape with ⟨hroot, hls⟩ | ⟨hw, hch⟩
  · -- the empty tree
    refine ⟨0, fun fuel => Or.inr ?_⟩
    subst hls
    have hemp : IsEmpty (AddIntoPageSet t none) = true := by
      simp [IsEmpty, AddIntoPageSet, hroot]
    rw [Insert_free hfree]
    simp only [hemp, if_true]
    have hST : StartNewTree (AddIntoPageSet t none) key value
        = UnpinPage (Tree.setPage
            { (NewPage (AddIntoPageSet t none)).1 with root_page_id_ := t.next_page_id_ }
            t.next_page_id_
            (.leaf ⟨t.next_page_id_, INVALID_PAGE_ID, t.leaf_max_size_, INVALID_PAGE_ID,
              [(key, value)]⟩)) t.next_page_id_ true := rfl
    rw [hST]
    generalize hX : Tree.setPage _ t.next_page_id_ _ = X
    have hXpm : ∀ id, X.pm id = if id = t.next_page_id_ then
        some (.leaf ⟨t.next_page_id_, INVALID_PAGE_ID, t.leaf_max_size_, INVALID_PAGE_ID,
          [(key, value)]⟩) else t.pm id := by
      intro id
      rw [← hX, pm_setPage]
      rfl
    have hXm : X.root_page_id_ = t.next_page_id_ ∧ X.next_page_id_ = t.next_page_id_ + 1 ∧
        X.leaf_max_size_ = t.leaf_max_size_ ∧ X.internal_max_size_ = t.internal_max_size_ ∧
        X.deleted_page_set_ = t.deleted_page_set_ := by
      rw [← hX]
      exact ⟨rfl, rfl, rfl, rfl, rfl⟩
    have hsc : SameCore X (ReleaseLatchFromQueue (UnpinPage X t.next_page_id_ true)) :=
      (SameCore_UnpinPage _ _ _).trans (SameCore_ReleaseLatchFromQueue _)
    have hnp := hinv.next_pos
    refine ⟨_, [⟨t.next_page_id_, INVALID_PAGE_ID, [(key, value)]⟩], rfl, ?_, ?_,
      fun hh => by simp [contents, lookupKV] at hh⟩
    · refine ⟨?_, ?_, ?_, ?_, Or.inr ⟨?_, rfl⟩⟩
      · rw [hsc.2.2.2.1, hXm.2.2.1]; exact hinv.lm_ge
      · rw [hsc.2.2.2.2.1, hXm.2.2.2.1]; exact hinv.im_ge
      · rw [hsc.2.2.2.2.2, hXm.2.2.2.2]; exact hinv.deleted_nil
      · rw [hsc.2.2.1, hXm.2.1]; omega
      · apply WellFormed_of_SameCore hsc
        refine ⟨0, [t.next_page_id_], ?_, List.nodup_singleton _, fun id hid => ?_⟩
        · rw [hXm.1]
          refine ⟨⟨t.next_page_id_, INVALID_PAGE_ID, t.leaf_max_size_, INVALID_PAGE_ID,
            [(key, value)]⟩, by rw [hXpm, if_pos rfl], rfl, rfl, hXm.2.2.1.symm, by simp,
            fun e he => ⟨fun l hl => (by cases hl), fun u hu => (by cases hu)⟩,
            fun _ => by simp, rfl, rfl⟩
        · rw [List.mem_singleton] at hid
          rw [hid, hXm.2.1]
          omega
    · intro k
      have e1 : contents ([] : List (LeafView K V)) = [] := rfl
      rw [contents_singleton, e1, lookupKV_cons, lookupKV_nil]
      simp only [Option.isSome_none, Bool.false_eq_true, if_false]
      by_cases hk : k = key
      · rw [if_pos hk, if_pos hk.symm]
        rfl
      · rw [if_neg hk, if_neg (fun e : key = k => hk e.symm)]
  · -- a tree with pages
    obtain ⟨h, ids, hr, hnd, hbd⟩ := hw
    refine ⟨h, fun fuel => ?_⟩
    have hne : IsEmpty (AddIntoPageSet t none) = false := by
      have := WellFormed_not_empty ⟨h, ids, hr, hnd, hbd⟩
      simp [IsEmpty, AddIntoPageSet, this]
    rw [Insert_free hfree]
    simp only [hne, Bool.false_eq_true, if_false]
    rcases InsertIntoLeaf_spec key value fuel (AddIntoPageSet t none) h ls ids hinv.lm_ge
      hinv.im_ge hr hnd hbd hch with ⟨hf, herr⟩ | ⟨t1, ls1, hok, l1, i1, d1, hw1, hch1, hlk1,
        hsame⟩
    · exact Or.inl ⟨hf, herr⟩
    · right
      refine ⟨t1, ls1, hok, ⟨?_, ?_, ?_, ?_, Or.inr ⟨hw1, hch1⟩⟩, hlk1, hsame⟩
      · rw [l1]; exact hinv.lm_ge
      · rw [i1]; exact hinv.im_ge
      · rw [d1]; exact hinv.deleted_nil
      · have := WellFormed_root_pos hw1
        omega

end BPlusTree

namespace BPlusTree

variable {K V : Type}

theorem KindPres_of_pm_eq {t t1 : Tree K V} (hn : t.next_page_id_ ≤ t1.next_page_id_)
    (h : t1.pm = t.pm) : KindPres t t1 :=
  ⟨hn, fun id _ _ => by rw [h]⟩

theorem AdjustRoot_leaf (t : Tree K V) (node : Int) (L : LeafPage K V)
    (hP : t.pm node = some (.leaf L)) :
    AdjustRoot t node = .ok (if L.array_.length = 0
      then (({ t with root_page_id_ := INVALID_PAGE_ID } : Tree K V), true) else (t, false)) := by
  simp only [AdjustRoot, pageAt_eq t node _ hP, ok_bind, LeafPage.GetSize]
  split <;> rfl

theorem AdjustRoot_internal_keep (t : Tree K V) (node : Int) (N : InternalPage K)
    (hP : t.pm node = some (.internal N)) (hlen : N.array_.length ≠ 1) :
    AdjustRoot t node = .ok (t, false) := by
  simp only [AdjustRoot, pageAt_eq t node _ hP, ok_bind, InternalPage.GetSize, hlen, if_false]
  rfl

theorem AdjustRoot_internal_one (t : Tree K V) (node : Int) (N : InternalPage K) (k : K)
    (c : Int) (cn : TreePage K V)
    (hP : t.pm node = some (.internal N)) (harr : N.array_ = [(k, c)])
    (hc : t.pm c = some cn) :
    AdjustRoot t node = .ok (UnpinPage (UpdateRootPageId
      ({ (t.pin c).setPage c (cn.SetParentPageId INVALID_PAGE_ID) with
          root_page_id_ := cn.GetPageId } : Tree K V) 0) c true, true) := by
  simp only [AdjustRoot, pageAt_eq t node _ hP, ok_bind, InternalPage.GetSize, harr,
    List.length_singleton, if_true, InternalPage.ValueAt, List.get?_cons_zero,
    FetchPage_eq t c cn hc, pageAt_setPage_eq, GetPageId_SetParentPageId]
  rfl

end BPlusTree

namespace BPlusTree

variable {K V : Type} [LinearOrder K]

theorem Rep_strengthen {P : Int → Option (TreePage K V)} {lm im : Nat} {s : Bool} {h : Nat}
    {pid par : Int} {lo hi : Option K} {ls : List (LeafView K V)} {ids : List Int}
    (hr : Rep P lm im s h pid par lo hi ls ids)
    (hleaf : ∀ L : LeafPage K V, P pid = some (.leaf L) → L.array_ ≠ [])
    (hint : ∀ N : InternalPage K, P pid = some (.internal N) → 2 ≤ N.array_.length) :
    Rep P lm im true h pid par lo hi ls ids := by
  cases h with
  | zero =>
    obtain ⟨L, h1, h2, h3, h4, h5, h6, h7, h8, h9⟩ := hr
    exact ⟨L, h1, h2, h3, h4, h5, h6, fun _ => hleaf L h1, h8, h9⟩
  | succ n =>
    obtain ⟨N, ids1, h1, h2, h3, h4, h5, h6, h7, h8⟩ := hr
    exact ⟨N, ids1, h1, h2, h3, h4, h5, fun _ => hint N h1, h7, h8⟩

end BPlusTree

namespace BPlusTree

variable {K V : Type} [LinearOrder K]

/-- `CoalesceOrRedistribute` on the root page. -/
theorem COR_root : CORSpec K V 0 := by
  intro fuel t node h par lo hi lsL lsR ls idsC ids hlm him hdel hctx hrep hnd hbd hch
  unfold Ctx at hctx
  obtain ⟨e1, e2, e3, e4, e5, e6, e7⟩ := hctx
  subst e2 e3 e4 e5 e6 e7
  simp only [List.append_nil, List.nil_append] at hnd hbd hch ⊢
  cases fuel with
  | zero => exact Or.inl ⟨le_refl _, rfl⟩
  | succ f =>
    right
    obtain ⟨nd, hP, hid, hpar, hkind⟩ := Rep_page hrep
    have hroot : nd.IsRootPage = true := by simp [TreePage.IsRootPage, hpar]
    simp only [CoalesceOrRedistribute, pageAt_eq t node nd hP, ok_bind, hroot, if_true]
    cases h with
    | zero =>
      obtain ⟨L, h1, h2, h3, h4, h5, h6, h7, h8, h9⟩ := hrep
      rw [AdjustRoot_leaf t node L h1]
      by_cases hz : L.array_.length = 0
      · rw [if_pos hz]
        simp only [ok_bind]
        have hsc : SameCore ({ t with root_page_id_ := INVALID_PAGE_ID } : Tree K V)
            (ReleaseLatchFromQueue ({ t with root_page_id_ := INVALID_PAGE_ID } : Tree K V)) :=
          SameCore_ReleaseLatchFromQueue _
        refine ⟨_, true, rfl, hsc.2.2.2.1, hsc.2.2.2.2.1, hsc.2.2.1,
          KindPres_of_pm_eq (le_of_eq hsc.2.2.1.symm) hsc.pm, [], [], Or.inl ⟨hsc.2.1, rfl, rfl⟩,
          trivial, ?_, List.nodup_nil, fun id hid => (by cases hid), fun id _ hid => (by cases hid),
          fun _ hid => (by cases hid)⟩
        rw [h8, contents_singleton]
        exact (List.length_eq_zero.1 hz).symm
      · rw [if_neg hz]
        simp only [ok_bind]
        have hsc : SameCore t (ReleaseLatchFromQueue t) := SameCore_ReleaseLatchFromQueue _
        have hstrict : Rep t.pm t.leaf_max_size_ t.internal_max_size_ true 0 t.root_page_id_
            INVALID_PAGE_ID none none ls ids :=
          e1 ▸ ⟨L, h1, h2, h3, h4, h5, h6, fun _ hn => hz (by rw [hn]; rfl), h8, h9⟩
        refine ⟨_, false, rfl, hsc.2.2.2.1, hsc.2.2.2.2.1, hsc.2.2.1,
          KindPres_of_pm_eq (le_of_eq hsc.2.2.1.symm) hsc.pm, ls, ids, Or.inr ⟨0, ?_⟩, hch, rfl,
          hnd, fun id hid => hid, ?_, fun hb => (by cases hb)⟩
        · rw [hsc.pm, hsc.2.1]
          exact hstrict
        · rw [hsc.2.2.2.2.2, hdel]
          intro id hid
          cases hid
    | succ n =>
      obtain ⟨N, ids1, h1, h2, h3, h4, h5, h6, h7, h8⟩ := hrep
      by_cases hone : N.array_.length = 1
      · obtain ⟨⟨k, c⟩, harr⟩ := List.length_eq_one.1 hone
        rw [harr] at h7
        obtain ⟨-, lsa, lsb, idsa, idsb, e1a, e2a, hrc, hnil⟩ := h7
        obtain ⟨rfl, rfl⟩ := hnil
        simp only [List.append_nil] at e1a e2a
        subst e1a e2a
        obtain ⟨cn, hcP, hcid, hcpar, -⟩ := Rep_page hrc
        rw [AdjustRoot_internal_one t node N k c cn h1 harr hcP]
        simp only [ok_bind]
        generalize hX : ({ (t.pin c).setPage c (cn.SetParentPageId INVALID_PAGE_ID) with
          root_page_id_ := cn.GetPageId } : Tree K V) = X
        have hXpm : ∀ id, X.pm id = if id = c then some (cn.SetParentPageId INVALID_PAGE_ID)
            else t.pm id := by
          intro id
          rw [← hX]
          exact pm_setPage (t.pin c) c _ id
        have hXm : X.root_page_id_ = c ∧ X.next_page_id_ = t.next_page_id_ ∧
            X.leaf_max_size_ = t.leaf_max_size_ ∧ X.internal_max_size_ = t.internal_max_size_ ∧
            X.deleted_page_set_ = t.deleted_page_set_ := by
          rw [← hX]
          exact ⟨hcid, rfl, rfl, rfl, rfl⟩
        have hsc : SameCore X (ReleaseLatchFromQueue (UnpinPage (UpdateRootPageId X 0) c true)) :=
          ((SameCore_UpdateRootPageId X 0).trans (SameCore_UnpinPage _ c true)).trans
            (SameCore_ReleaseLatchFromQueue _)
        have hndc : ids1.Nodup := by
          rw [h8] at hnd
          exact (List.nodup_cons.1 hnd).2
        have hnc : node ∉ ids1 := by
          rw [h8] at hnd
          exact (List.nodup_cons.1 hnd).1
        refine ⟨_, true, rfl, hsc.2.2.2.1.trans hXm.2.2.1, hsc.2.2.2.2.1.trans hXm.2.2.2.1,
          hsc.2.2.1.trans hXm.2.1, ?_, ls, ids1, Or.inr ⟨n, ?_⟩, hch, rfl, ?_, ?_, ?_,
          fun _ => hnc⟩
        · refine ⟨le_of_eq (hsc.2.2.1.trans hXm.2.1).symm, fun id _ hs => ?_⟩
          rw [hsc.pm, hXpm]
          by_cases e : id = c
          · rw [if_pos e, e, hcP]
            simp only [Option.map_some', kindId_SetParentPageId]
          · rw [if_neg e]
        · rw [hsc.pm, hsc.2.1, hXm.1]
          refine Rep_reparent INVALID_PAGE_ID hrc ?_ ?_ ?_
          · rw [h8] at hnd
            exact (List.nodup_cons.1 hnd).2
          · rw [hXpm, if_pos rfl, hcP]
            rfl
          · intro id _ hne
            rw [hXpm, if_neg hne]
        · rw [h8] at hnd
          exact (List.nodup_cons.1 hnd).2
        · intro id hid
          rw [h8]
          exact List.mem_cons_of_mem _ hid
        · rw [hsc.2.2.2.2.2, hXm.2.2.2.2, hdel]
          intro id hid
          cases hid
      · rw [AdjustRoot_internal_keep t node N h1 hone]
        simp only [ok_bind]
        have hsc : SameCore t (ReleaseLatchFromQueue t) := SameCore_ReleaseLatchFromQueue _
        have hlen : 2 ≤ N.array_.length := by
          have : N.array_.length ≠ 0 := fun e => h5 (List.length_eq_zero.1 e)
          omega
        have hstrict : Rep t.pm t.leaf_max_size_ t.internal_max_size_ true (n + 1)
            t.root_page_id_ INVALID_PAGE_ID none none ls ids :=
          e1 ▸ ⟨N, ids1, h1, h2, h3, h4, h5, fun _ => hlen, h7, h8⟩
        refine ⟨_, false, rfl, hsc.2.2.2.1, hsc.2.2.2.2.1, hsc.2.2.1,
          KindPres_of_pm_eq (le_of_eq hsc.2.2.1.symm) hsc.pm, ls, ids, Or.inr ⟨n + 1, ?_⟩, hch,
          rfl, hnd, fun id hid => hid, ?_, fun hb => (by cases hb)⟩
        · rw [hsc.pm, hsc.2.1]
          exact hstrict
        · rw [hsc.2.2.2.2.2, hdel]
          intro id hid
          cases hid

end BPlusTree

namespace BPlusTree

variable {K V : Type}

theorem internalAt_setPage (t : Tree K V) (id : Int) (p : TreePage K V) (id1 : Int)
    (h : id1 ≠ id) : (t.setPage id p).internalAt id1 = t.internalAt id1 := by
  have h1 := pm_setPage_ne t id p id1 h
  unfold Tree.pm at h1
  unfold Tree.internalAt
  rw [h1]

theorem SetKeyAt_cons (N : InternalPage K) (k0 : K) (c0 : Int) (rest : List (K × Int)) (key : K)
    (h : N.array_ = (k0, c0) :: rest) :
    N.SetKeyAt 0 key = { N with array_ := (key, c0) :: rest } := by
  simp only [InternalPage.SetKeyAt, h, List.get?_cons_zero, List.set_cons_zero]

theorem SetKeyAt_mid (N : InternalPage K) (A : List (K × Int)) (k0 : K) (c0 : Int)
    (rest : List (K × Int)) (key : K) (h : N.array_ = A ++ (k0, c0) :: rest) :
    N.SetKeyAt A.length key = { N with array_ := A ++ (key, c0) :: rest } := by
  simp only [InternalPage.SetKeyAt, h, getq_mid, List.set_append_right _ _ (le_refl _),
    Nat.sub_self, List.set_cons_zero]

theorem KeyAt_mid (N : InternalPage K) (A : List (K × Int)) (k0 : K) (c0 : Int)
    (rest : List (K × Int)) (h : N.array_ = A ++ (k0, c0) :: rest) :
    N.KeyAt A.length = .ok k0 := by
  simp only [InternalPage.KeyAt, h, getq_mid]

theorem ValueAt_mid (N : InternalPage K) (A : List (K × Int)) (k0 : K) (c0 : Int)
    (rest : List (K × Int)) (h : N.array_ = A ++ (k0, c0) :: rest) :
    N.ValueAt A.length = .ok c0 := by
  simp only [InternalPage.ValueAt, h, getq_mid]

theorem Remove_mid (N : InternalPage K) (A : List (K × Int)) (e : K × Int)
    (rest : List (K × Int)) (h : N.array_ = A ++ e :: rest) :
    N.Remove A.length = .ok { N with array_ := A ++ rest } := by
  have hlt : A.length < (A ++ e :: rest).length := by
    rw [List.length_append, List.length_cons]
    omega
  simp only [InternalPage.Remove, InternalPage.GetSize, hlt, if_true, h,
    List.eraseIdx_append_of_length_le (le_refl _), Nat.sub_self, List.eraseIdx_cons_zero]

/-- `CopyNFrom`: the recipient takes the items at its end and their children
take it as parent. -/
theorem CopyNFrom_spec (t : Tree K V) (rcp : Int) (Nr : InternalPage K) (items : List (K × Int))
    (hr : t.pm rcp = some (.internal Nr)) (hid : Nr.page_id_ = rcp)
    (hpages : ∀ e ∈ items, (t.pm e.2).isSome = true)
    (hnot : rcp ∉ items.map Prod.snd) :
    ∃ T, InternalPage.CopyNFrom t rcp items = .ok T ∧ SameMeta t T ∧
      ∀ id, T.pm id =
        if id = rcp then some (.internal { Nr with array_ := Nr.array_ ++ items })
        else if id ∈ items.map Prod.snd then (t.pm id).map (fun p => p.SetParentPageId rcp)
        else t.pm id := by
  obtain ⟨t1, had, hm1, hpm1⟩ := adoptChildren_spec rcp items t hpages
  have h1 : t1.internalAt rcp = .ok Nr := internalAt_eq _ _ _ (by rw [hpm1, if_neg hnot, hr])
  refine ⟨t1.setPage rcp (.internal { Nr with array_ := Nr.array_ ++ items }), ?_,
    hm1.trans_meta (SameMeta_setPage _ _ _), fun id => ?_⟩
  · simp only [InternalPage.CopyNFrom, internalAt_eq t rcp Nr hr, ok_bind, hid, had, h1]
    rfl
  · rw [pm_setPage]
    by_cases e : id = rcp
    · rw [if_pos e, if_pos e]
    · rw [if_neg e, if_neg e, hpm1]

/-- `CopyLastFrom`: the recipient takes the pair at its end and the child
takes it as parent. -/
theorem CopyLastFrom_spec (t : Tree K V) (rcp : Int) (Nr : InternalPage K) (pair : K × Int)
    (hr : t.pm rcp = some (.internal Nr)) (hid : Nr.page_id_ = rcp)
    (hpage : (t.pm pair.2).isSome = true) (hnot : rcp ≠ pair.2) :
    ∃ T, InternalPage.CopyLastFrom t rcp pair = .ok T ∧ SameMeta t T ∧
      ∀ id, T.pm id =
        if id = rcp then some (.internal { Nr with array_ := Nr.array_ ++ [pair] })
        else if id = pair.2 then (t.pm id).map (fun p => p.SetParentPageId rcp)
        else t.pm id := by
  subst hid
  generalize hX : t.setPage Nr.page_id_ (.internal { Nr with array_ := Nr.array_ ++ [pair] }) = X
  have hXpm : ∀ id, X.pm id = if id = Nr.page_id_
      then some (.internal { Nr with array_ := Nr.array_ ++ [pair] }) else t.pm id := by
    intro id
    rw [← hX, pm_setPage]
  obtain ⟨t1, had, hm1, hpm1⟩ := adoptChildren_spec Nr.page_id_ [pair] X (by
    intro e he
    rw [List.mem_singleton.1 he, hXpm, if_neg (Ne.symm hnot)]
    exact hpage)
  refine ⟨t1, ?_, ?_, fun id => ?_⟩
  · simp only [InternalPage.CopyLastFrom, internalAt_eq t _ Nr hr, ok_bind, hX, had]
  · rw [← hX] at hm1
    exact (SameMeta_setPage _ _ _).trans_meta hm1
  · rw [hpm1, hXpm]
    simp only [List.map_cons, List.map_nil, List.mem_singleton]
    by_cases e : id = Nr.page_id_
    · rw [if_pos e, if_pos e, if_neg (by rw [e]; exact hnot)]
    · rw [if_neg e, if_neg e]

/-- `CopyFirstFrom`: the recipient takes the pair at its front and the child
takes it as parent. -/
theorem CopyFirstFrom_spec (t : Tree K V) (rcp : Int) (Nr : InternalPage K) (pair : K × Int)
    (hr : t.pm rcp = some (.internal Nr)) (hid : Nr.page_id_ = rcp)
    (hpage : (t.pm pair.2).isSome = true) (hnot : rcp ≠ pair.2) :
    ∃ T, InternalPage.CopyFirstFrom t rcp pair = .ok T ∧ SameMeta t T ∧
      ∀ id, T.pm id =
        if id = rcp then some (.internal { Nr with array_ := pair :: Nr.array_ })
        else if id = pair.2 then (t.pm id).map (fun p => p.SetParentPageId rcp)
        else t.pm id := by
  subst hid
  generalize hX : t.setPage Nr.page_id_ (.internal { Nr with array_ := pair :: Nr.array_ }) = X
  have hXpm : ∀ id, X.pm id = if id = Nr.page_id_
      then some (.internal { Nr with array_ := pair :: Nr.array_ }) else t.pm id := by
    intro id
    rw [← hX, pm_setPage]
  obtain ⟨t1, had, hm1, hpm1⟩ := adoptChildren_spec Nr.page_id_ [pair] X (by
    intro e he
    rw [List.mem_singleton.1 he, hXpm, if_neg (Ne.symm hnot)]
    exact hpage)
  refine ⟨t1, ?_, ?_, fun id => ?_⟩
  · simp only [InternalPage.CopyFirstFrom, internalAt_eq t _ Nr hr, ok_bind, hX, had]
  · rw [← hX] at hm1
    exact (SameMeta_setPage _ _ _).trans_meta hm1
  · rw [hpm1, hXpm]
    simp only [List.map_cons, List.map_nil, List.mem_singleton]
    by_cases e : id = Nr.page_id_
    · rw [if_pos e, if_pos e, if_neg (by rw [e]; exact hnot)]
    · rw [if_neg e, if_neg e]

end BPlusTree

namespace BPlusTree

variable {K V : Type}

/-- `MoveAllTo` between internal pages: the recipient takes every entry, the
first under the middle key, and the children take the recipient as parent. -/
theorem MoveAllTo_spec (t : Tree K V) (page rcp : Int) (Np Nr : InternalPage K) (middle k0 : K)
    (c0 : Int) (rest : List (K × Int))
    (hp : t.pm page = some (.internal Np)) (harr : Np.array_ = (k0, c0) :: rest)
    (hr : t.pm rcp = some (.internal Nr)) (hid : Nr.page_id_ = rcp) (hne : page ≠ rcp)
    (hpages : ∀ e ∈ Np.array_, (t.pm e.2).isSome = true)
    (hnr : rcp ∉ Np.array_.map Prod.snd) (hnp : page ∉ Np.array_.map Prod.snd) :
    ∃ T, InternalPage.MoveAllTo t page rcp middle = .ok T ∧ SameMeta t T ∧
      ∀ id, T.pm id =
        if id = page then some (.internal { Np with array_ := [] })
        else if id = rcp then
          some (.internal { Nr with array_ := Nr.array_ ++ (middle, c0) :: rest })
        else if id ∈ Np.array_.map Prod.snd then
          (t.pm id).map (fun p => p.SetParentPageId rcp)
        else t.pm id := by
  have hset : Np.SetKeyAt 0 middle = { Np with array_ := (middle, c0) :: rest } :=
    SetKeyAt_cons Np k0 c0 rest middle harr
  have hmap : ((middle, c0) :: rest).map Prod.snd = Np.array_.map Prod.snd := by
    rw [harr]
    rfl
  generalize hX : t.setPage page (.internal { Np with array_ := (middle, c0) :: rest }) = X
  have hXpm : ∀ id, X.pm id = if id = page
      then some (.internal { Np with array_ := (middle, c0) :: rest }) else t.pm id := by
    intro id
    rw [← hX, pm_setPage]
  have hXm : SameMeta t X := by
    rw [← hX]
    exact SameMeta_setPage _ _ _
  obtain ⟨T1, hrun, hm1, hpm1⟩ := CopyNFrom_spec X rcp Nr ((middle, c0) :: rest)
    (by rw [hXpm, if_neg (Ne.symm hne), hr]) hid
    (by
      intro e he
      have he1 : e.2 ∈ Np.array_.map Prod.snd := by
        rw [← hmap]
        exact List.mem_map_of_mem _ he
      have hne1 : e.2 ≠ page := fun e1 => hnp (e1 ▸ he1)
      rw [hXpm, if_neg hne1]
      obtain ⟨e2, he2, he3⟩ := List.mem_map.1 he1
      rw [← he3]
      exact hpages e2 he2)
    (by rw [hmap]; exact hnr)
  have hpg1 : T1.internalAt page = .ok { Np with array_ := (middle, c0) :: rest } :=
    internalAt_eq _ _ _ (by rw [hpm1, if_neg hne, hmap, if_neg hnp, hXpm, if_pos rfl])
  refine ⟨T1.setPage page (.internal { Np with array_ := [] }), ?_,
    (hXm.trans_meta hm1).trans_meta (SameMeta_setPage _ _ _), fun id => ?_⟩
  · simp only [InternalPage.MoveAllTo, internalAt_eq t page Np hp, ok_bind, hset, hX, hrun,
      hpg1]
    rfl
  · rw [pm_setPage]
    by_cases e : id = page
    · rw [if_pos e, if_pos e]
    · rw [if_neg e, if_neg e, hpm1, hmap]
      by_cases e1 : id = rcp
      · rw [if_pos e1, if_pos e1]
      · rw [if_neg e1, if_neg e1, hXpm, if_neg e]

/-- `MoveFirstToEndOf` between internal pages: the recipient takes the first
entry at its end under the middle key, and the child takes it as parent. -/
theorem MoveFirstToEndOf_spec (t : Tree K V) (page rcp : Int) (Np Nr : InternalPage K)
    (middle k0 : K) (c0 : Int) (rest : List (K × Int))
    (hp : t.pm page = some (.internal Np)) (harr : Np.array_ = (k0, c0) :: rest)
    (hr : t.pm rcp = some (.internal Nr)) (hid : Nr.page_id_ = rcp) (hne : page ≠ rcp)
    (hpage : (t.pm c0).isSome = true) (hnr : rcp ≠ c0) (hnp : page ≠ c0) :
    ∃ T, InternalPage.MoveFirstToEndOf t page rcp middle = .ok T ∧ SameMeta t T ∧
      ∀ id, T.pm id =
        if id = page then some (.internal { Np with array_ := rest })
        else if id = rcp then some (.internal { Nr with array_ := Nr.array_ ++ [(middle, c0)] })
        else if id = c0 then (t.pm id).map (fun p => p.SetParentPageId rcp)
        else t.pm id := by
  have hset : Np.SetKeyAt 0 middle = { Np with array_ := (middle, c0) :: rest } :=
    SetKeyAt_cons Np k0 c0 rest middle harr
  generalize hX : t.setPage page (.internal { Np with array_ := (middle, c0) :: rest }) = X
  have hXpm : ∀ id, X.pm id = if id = page
      then some (.internal { Np with array_ := (middle, c0) :: rest }) else t.pm id := by
    intro id
    rw [← hX, pm_setPage]
  have hXm : SameMeta t X := by
    rw [← hX]
    exact SameMeta_setPage _ _ _
  obtain ⟨T1, hrun, hm1, hpm1⟩ := CopyLastFrom_spec X rcp Nr (middle, c0)
    (by rw [hXpm, if_neg (Ne.symm hne), hr]) hid
    (by
      show (X.pm c0).isSome = true
      rw [hXpm, if_neg (Ne.symm hnp)]
      exact hpage)
    hnr
  have hpg1 : T1.internalAt page = .ok { Np with array_ := (middle, c0) :: rest } :=
    internalAt_eq _ _ _ (by
      rw [hpm1, if_neg hne, if_neg (by exact hnp), hXpm, if_pos rfl])
  refine ⟨T1.setPage page (.internal { Np with array_ := rest }), ?_,
    (hXm.trans_meta hm1).trans_meta (SameMeta_setPage _ _ _), fun id => ?_⟩
  · simp only [InternalPage.MoveFirstToEndOf, internalAt_eq t page Np hp, ok_bind, hset, hX,
      hrun, hpg1]
    rfl
  · rw [pm_setPage]
    by_cases e : id = page
    · rw [if_pos e, if_pos e]
    · rw [if_neg e, if_neg e, hpm1]
      by_cases e1 : id = rcp
      · rw [if_pos e1, if_pos e1]
      · rw [if_neg e1, if_neg e1]
        by_cases e2 : id = c0
        · rw [if_pos e2, if_pos (by exact e2), hXpm, if_neg e]
        · rw [if_neg e2, if_neg (by exact e2), hXpm, if_neg e]

/-- `MoveLastToFrontOf` between internal pages: the recipient takes the last
entry at its front, its old first entry gets the middle key, and the child
takes the recipient as parent. -/
theorem MoveLastToFrontOf_spec (t : Tree K V) (page rcp : Int) (Np Nr : InternalPage K)
    (middle kl k0 : K) (cl c0 : Int) (init rest : List (K × Int))
    (hp : t.pm page = some (.internal Np)) (harr : Np.array_ = init ++ [(kl, cl)])
    (hr : t.pm rcp = some (.internal Nr)) (harr1 : Nr.array_ = (k0, c0) :: rest)
    (hid : Nr.page_id_ = rcp) (hne : page ≠ rcp)
    (hpage : (t.pm cl).isSome = true) (hnr : rcp ≠ cl) (hnp : page ≠ cl) :
    ∃ T, InternalPage.MoveLastToFrontOf t page rcp middle = .ok T ∧ SameMeta t T ∧
      ∀ id, T.pm id =
        if id = page then some (.internal { Np with array_ := init })
        else if id = rcp then
          some (.internal { Nr with array_ := (kl, cl) :: (middle, c0) :: rest })
        else if id = cl then (t.pm id).map (fun p => p.SetParentPageId rcp)
        else t.pm id := by
  have hset : Nr.SetKeyAt 0 middle = { Nr with array_ := (middle, c0) :: rest } :=
    SetKeyAt_cons Nr k0 c0 rest middle harr1
  have hlast : Np.array_.getLast? = some (kl, cl) := by
    rw [harr, List.getLast?_append]
    rfl
  generalize hX : t.setPage rcp (.internal { Nr with array_ := (middle, c0) :: rest }) = X
  have hXpm : ∀ id, X.pm id = if id = rcp
      then some (.internal { Nr with array_ := (middle, c0) :: rest }) else t.pm id := by
    intro id
    rw [← hX, pm_setPage]
  have hXm : SameMeta t X := by
    rw [← hX]
    exact SameMeta_setPage _ _ _
  obtain ⟨T1, hrun, hm1, hpm1⟩ := CopyFirstFrom_spec X rcp
    { Nr with array_ := (middle, c0) :: rest } (kl, cl)
    (by rw [hXpm, if_pos rfl]) hid
    (by
      show (X.pm cl).isSome = true
      rw [hXpm, if_neg (Ne.symm hnr)]
      exact hpage)
    hnr
  have hpg1 : T1.internalAt page = .ok Np :=
    internalAt_eq _ _ _ (by
      rw [hpm1, if_neg hne, if_neg (by exact hnp), hXpm, if_neg hne, hp])
  have htake : Np.array_.take (Np.array_.length - 1) = init := by
    rw [harr]
    simp
  refine ⟨T1.setPage page (.internal { Np with array_ := init }), ?_,
    (hXm.trans_meta hm1).trans_meta (SameMeta_setPage _ _ _), fun id => ?_⟩
  · simp only [InternalPage.MoveLastToFrontOf, internalAt_eq t page Np hp, ok_bind, hlast,
      internalAt_eq t rcp Nr hr, hset, hX, hrun, hpg1, htake]
    rfl
  · rw [pm_setPage]
    by_cases e : id = page
    · rw [if_pos e, if_pos e]
    · rw [if_neg e, if_neg e, hpm1]
      by_cases e1 : id = rcp
      · rw [if_pos e1, if_pos e1]
      · rw [if_neg e1, if_neg e1]
        by_cases e2 : id = cl
        · rw [if_pos e2, if_pos (by exact e2), hXpm, if_neg e1]
        · rw [if_neg e2, if_neg (by exact e2), hXpm, if_neg e1]

end BPlusTree

namespace BPlusTree

variable {K V : Type}

theorem pair_assoc {α : Type} (X : List α) (a b : α) (Y : List α) :
    X ++ a :: b :: Y = (X ++ [a]) ++ b :: Y := by
  simp

theorem KeyAt_pair (N : InternalPage K) (X : List (K × Int)) (a : K × Int) (kr : K) (r : Int)
    (Y : List (K × Int)) (h : N.array_ = X ++ a :: (kr, r) :: Y) :
    N.KeyAt (X.length + 1) = .ok kr := by
  have h1 := KeyAt_mid N (X ++ [a]) kr r Y (by rw [h, pair_assoc])
  rwa [List.length_append, List.length_singleton] at h1

theorem SetKeyAt_pair (N : InternalPage K) (X : List (K × Int)) (a : K × Int) (kr : K) (r : Int)
    (Y : List (K × Int)) (key : K) (h : N.array_ = X ++ a :: (kr, r) :: Y) :
    N.SetKeyAt (X.length + 1) key = { N with array_ := X ++ a :: (key, r) :: Y } := by
  have h1 := SetKeyAt_mid N (X ++ [a]) kr r Y key (by rw [h, pair_assoc])
  rw [List.length_append, List.length_singleton] at h1
  rw [h1, pair_assoc]

theorem Remove_pair (N : InternalPage K) (X : List (K × Int)) (a b : K × Int)
    (Y : List (K × Int)) (h : N.array_ = X ++ a :: b :: Y) :
    N.Remove (X.length + 1) = .ok { N with array_ := X ++ a :: Y } := by
  have h1 := Remove_mid N (X ++ [a]) b Y (by rw [h, pair_assoc])
  rw [List.length_append, List.length_singleton] at h1
  rw [h1]
  simp

/-- `Coalesce` of the leaf `r` into its left sibling `l`. -/
theorem Coalesce_leaf_eval (recurse : Tree K V → Int → Except Err (Tree K V × Bool))
    (t : Tree K V) (par l r : Int) (N : InternalPage K) (X Y : List (K × Int)) (kl kr : K)
    (Ll Lr : LeafPage K V)
    (hN : t.pm par = some (.internal N)) (harr : N.array_ = X ++ (kl, l) :: (kr, r) :: Y)
    (hl : t.pm l = some (.leaf Ll)) (hr : t.pm r = some (.leaf Lr))
    (_hlr : l ≠ r) (hpl : par ≠ l) (hpr : par ≠ r) :
    ∃ T, Coalesce recurse t l r par (X.length + 1) = recurse T par ∧ SameMeta t T ∧
      ∀ id, T.pm id =
        if id = par then some (.internal { N with array_ := X ++ (kl, l) :: Y })
        else if id = l then some (.leaf ⟨Ll.page_id_, Ll.parent_page_id_, Ll.max_size_, Lr.next_page_id_, Ll.array_ ++ Lr.array_⟩)
        else if id = r then some (.leaf { Lr with array_ := [] })
        else t.pm id := by
  generalize hX : (t.setPage r (.leaf { Lr with array_ := [] })).setPage l
    (.leaf ⟨Ll.page_id_, Ll.parent_page_id_, Ll.max_size_, Lr.next_page_id_, Ll.array_ ++ Lr.array_⟩) = T1
  have hpm1 : ∀ id, T1.pm id =
      if id = l then some (.leaf ⟨Ll.page_id_, Ll.parent_page_id_, Ll.max_size_, Lr.next_page_id_, Ll.array_ ++ Lr.array_⟩)
      else if id = r then some (.leaf { Lr with array_ := [] }) else t.pm id := by
    intro id
    rw [← hX, pm_setPage, pm_setPage]
  have hm1 : SameMeta t T1 := by
    rw [← hX]
    exact (SameMeta_setPage _ _ _).trans_meta (SameMeta_setPage _ _ _)
  have hp1 : T1.internalAt par = .ok N :=
    internalAt_eq _ _ _ (by rw [hpm1, if_neg hpl, if_neg hpr, hN])
  refine ⟨T1.setPage par (.internal { N with array_ := X ++ (kl, l) :: Y }), ?_,
    hm1.trans_meta (SameMeta_setPage _ _ _), fun id => ?_⟩
  · simp only [Coalesce, internalAt_eq t par N hN, ok_bind, KeyAt_pair N X (kl, l) kr r Y harr,
      pageAt_eq t r _ hr, leafAt_eq t l Ll hl, LeafPage.MoveAllTo, pure_bind]
    rw [hX]
    simp only [hp1, ok_bind, Remove_pair N X (kl, l) (kr, r) Y harr]
  · rw [pm_setPage]
    by_cases e : id = par
    · rw [if_pos e, if_pos e]
    · rw [if_neg e, if_neg e, hpm1]

/-- `Coalesce` of the internal page `r` into its left sibling `l`. -/
theorem Coalesce_internal_eval (recurse : Tree K V → Int → Except Err (Tree K V × Bool))
    (t : Tree K V) (par l r : Int) (N : InternalPage K) (X Y : List (K × Int)) (kl kr : K)
    (Nl Nr : InternalPage K) (k0 : K) (c0 : Int) (rest : List (K × Int))
    (hN : t.pm par = some (.internal N)) (harr : N.array_ = X ++ (kl, l) :: (kr, r) :: Y)
    (hl : t.pm l = some (.internal Nl)) (hlid : Nl.page_id_ = l)
    (hr : t.pm r = some (.internal Nr)) (harr1 : Nr.array_ = (k0, c0) :: rest)
    (hlr : l ≠ r) (hpl : par ≠ l) (hpr : par ≠ r)
    (hpages : ∀ e ∈ Nr.array_, (t.pm e.2).isSome = true)
    (hnl : l ∉ Nr.array_.map Prod.snd) (hnr : r ∉ Nr.array_.map Prod.snd)
    (hnp : par ∉ Nr.array_.map Prod.snd) :
    ∃ T, Coalesce recurse t l r par (X.length + 1) = recurse T par ∧ SameMeta t T ∧
      ∀ id, T.pm id =
        if id = par then some (.internal { N with array_ := X ++ (kl, l) :: Y })
        else if id = r then some (.internal { Nr with array_ := [] })
        else if id = l then
          some (.internal { Nl with array_ := Nl.array_ ++ (kr, c0) :: rest })
        else if id ∈ Nr.array_.map Prod.snd then
          (t.pm id).map (fun p => p.SetParentPageId l)
        else t.pm id := by
  obtain ⟨T1, hrun, hm1, hpm1⟩ := MoveAllTo_spec t r l Nr Nl kr k0 c0 rest hr harr1 hl hlid
    (Ne.symm hlr) hpages hnl hnr
  have hp1 : T1.internalAt par = .ok N :=
    internalAt_eq _ _ _ (by rw [hpm1, if_neg hpr, if_neg hpl, if_neg hnp, hN])
  refine ⟨T1.setPage par (.internal { N with array_ := X ++ (kl, l) :: Y }), ?_,
    hm1.trans_meta (SameMeta_setPage _ _ _), fun id => ?_⟩
  · simp only [Coalesce, internalAt_eq t par N hN, ok_bind, KeyAt_pair N X (kl, l) kr r Y harr,
      pageAt_eq t r _ hr, hrun, hp1, Remove_pair N X (kl, l) (kr, r) Y harr]
  · rw [pm_setPage]
    by_cases e : id = par
    · rw [if_pos e, if_pos e]
    · rw [if_neg e, if_neg e, hpm1]

end BPlusTree

namespace BPlusTree

variable {K V : Type}

/-- `Redistribute` between leaves, the last pair of the left sibling `l` moving
to the front of `r`. -/
theorem Redistribute_leaf_prev (t : Tree K V) (par l r : Int) (N : InternalPage K)
    (X Y : List (K × Int)) (kl kr : K) (Ll Lr : LeafPage K V) (init : List (K × V)) (e : K × V)
    (hN : t.pm par = some (.internal N)) (harr : N.array_ = X ++ (kl, l) :: (kr, r) :: Y)
    (hl : t.pm l = some (.leaf Ll)) (hr : t.pm r = some (.leaf Lr))
    (hLl : Ll.array_ = init ++ [e])
    (_hlr : l ≠ r) (hpl : par ≠ l) (hpr : par ≠ r) :
    ∃ T, Redistribute t l r par (X.length + 1) true = .ok T ∧ SameMeta t T ∧
      ∀ id, T.pm id =
        if id = par then some (.internal { N with array_ := X ++ (kl, l) :: (e.1, r) :: Y })
        else if id = r then some (.leaf { Lr with array_ := e :: Lr.array_ })
        else if id = l then some (.leaf { Ll with array_ := init })
        else t.pm id := by
  generalize hX : (t.setPage l (.leaf { Ll with array_ := init })).setPage r
    (.leaf { Lr with array_ := e :: Lr.array_ }) = T1
  have hpm1 : ∀ id, T1.pm id =
      if id = r then some (.leaf { Lr with array_ := e :: Lr.array_ })
      else if id = l then some (.leaf { Ll with array_ := init }) else t.pm id := by
    intro id
    rw [← hX, pm_setPage, pm_setPage]
  have hm1 : SameMeta t T1 := by
    rw [← hX]
    exact (SameMeta_setPage _ _ _).trans_meta (SameMeta_setPage _ _ _)
  have hp1 : T1.internalAt par = .ok N :=
    internalAt_eq _ _ _ (by rw [hpm1, if_neg hpr, if_neg hpl, hN])
  have hr1 : T1.leafAt r = .ok { Lr with array_ := e :: Lr.array_ } :=
    leafAt_eq _ _ _ (by rw [hpm1, if_pos rfl])
  have htake : Ll.array_.take (Ll.array_.length - 1) = init := by
    rw [hLl]
    simp
  have hdrop : Ll.array_.drop (Ll.array_.length - 1) = [e] := by
    rw [hLl]
    simp
  refine ⟨T1.setPage par (.internal { N with array_ := X ++ (kl, l) :: (e.1, r) :: Y }), ?_,
    hm1.trans_meta (SameMeta_setPage _ _ _), fun id => ?_⟩
  · simp only [Redistribute, pageAt_eq t r _ hr, ok_bind, leafAt_eq t l Ll hl,
      LeafPage.MoveLastToFrontOf, htake, hdrop, List.singleton_append, not_true_eq_false,
      if_false]
    rw [hX]
    simp only [hr1, ok_bind, LeafPage.KeyAt, List.get?_cons_zero, hp1,
      SetKeyAt_pair N X (kl, l) kr r Y e.1 harr]
    rfl
  · rw [pm_setPage]
    by_cases e1 : id = par
    · rw [if_pos e1, if_pos e1]
    · rw [if_neg e1, if_neg e1, hpm1]

/-- `Redistribute` between leaves, the first pair of the right sibling `r`
moving to the end of `l`. -/
theorem Redistribute_leaf_next (t : Tree K V) (par l r : Int) (N : InternalPage K)
    (X Y : List (K × Int)) (kl kr : K) (Ll Lr : LeafPage K V) (e e2 : K × V)
    (rest : List (K × V))
    (hN : t.pm par = some (.internal N)) (harr : N.array_ = X ++ (kl, l) :: (kr, r) :: Y)
    (hl : t.pm l = some (.leaf Ll)) (hr : t.pm r = some (.leaf Lr))
    (hLr : Lr.array_ = e :: e2 :: rest)
    (hlr : l ≠ r) (hpl : par ≠ l) (hpr : par ≠ r) :
    ∃ T, Redistribute t r l par X.length false = .ok T ∧ SameMeta t T ∧
      ∀ id, T.pm id =
        if id = par then some (.internal { N with array_ := X ++ (kl, l) :: (e2.1, r) :: Y })
        else if id = l then some (.leaf { Ll with array_ := Ll.array_ ++ [e] })
        else if id = r then some (.leaf { Lr with array_ := e2 :: rest })
        else t.pm id := by
  generalize hX : (t.setPage r (.leaf { Lr with array_ := e2 :: rest })).setPage l
    (.leaf { Ll with array_ := Ll.array_ ++ [e] }) = T1
  have hpm1 : ∀ id, T1.pm id =
      if id = l then some (.leaf { Ll with array_ := Ll.array_ ++ [e] })
      else if id = r then some (.leaf { Lr with array_ := e2 :: rest }) else t.pm id := by
    intro id
    rw [← hX, pm_setPage, pm_setPage]
  have hm1 : SameMeta t T1 := by
    rw [← hX]
    exact (SameMeta_setPage _ _ _).trans_meta (SameMeta_setPage _ _ _)
  have hp1 : T1.internalAt par = .ok N :=
    internalAt_eq _ _ _ (by rw [hpm1, if_neg hpl, if_neg hpr, hN])
  have hr1 : T1.leafAt r = .ok { Lr with array_ := e2 :: rest } :=
    leafAt_eq _ _ _ (by rw [hpm1, if_neg (Ne.symm hlr), if_pos rfl])
  have htake : Lr.array_.take 1 = [e] := by
    rw [hLr]
    rfl
  have hdrop : Lr.array_.drop 1 = e2 :: rest := by
    rw [hLr]
    rfl
  refine ⟨T1.setPage par (.internal { N with array_ := X ++ (kl, l) :: (e2.1, r) :: Y }), ?_,
    hm1.trans_meta (SameMeta_setPage _ _ _), fun id => ?_⟩
  · simp only [Redistribute, pageAt_eq t l _ hl, ok_bind, leafAt_eq t r Lr hr,
      LeafPage.MoveFirstToEndOf, htake, hdrop, Bool.false_eq_true, not_false_eq_true, if_true]
    rw [hX]
    simp only [hr1, ok_bind, LeafPage.KeyAt, List.get?_cons_zero, hp1,
      SetKeyAt_pair N X (kl, l) kr r Y e2.1 harr]
    rfl
  · rw [pm_setPage]
    by_cases e1 : id = par
    · rw [if_pos e1, if_pos e1]
    · rw [if_neg e1, if_neg e1, hpm1]

/-- `Redistribute` between internal pages, the last entry of the left sibling
`l` moving to the front of `r`. -/
theorem Redistribute_internal_prev (t : Tree K V) (par l r : Int) (N : InternalPage K)
    (X Y : List (K × Int)) (kl kr : K) (Nl Nr : InternalPage K) (init rest : List (K × Int))
    (kq k0 : K) (cq c0 : Int)
    (hN : t.pm par = some (.internal N)) (harr : N.array_ = X ++ (kl, l) :: (kr, r) :: Y)
    (hl : t.pm l = some (.internal Nl)) (hNl : Nl.array_ = init ++ [(kq, cq)])
    (hr : t.pm r = some (.internal Nr)) (hNr : Nr.array_ = (k0, c0) :: rest)
    (hrid : Nr.page_id_ = r)
    (hlr : l ≠ r) (hpl : par ≠ l) (hpr : par ≠ r)
    (hpage : (t.pm cq).isSome = true) (hcl : l ≠ cq) (hcr : r ≠ cq) (hcp : par ≠ cq) :
    ∃ T, Redistribute t l r par (X.length + 1) true = .ok T ∧ SameMeta t T ∧
      ∀ id, T.pm id =
        if id = par then some (.internal { N with array_ := X ++ (kl, l) :: (kq, r) :: Y })
        else if id = l then some (.internal { Nl with array_ := init })
        else if id = r then
          some (.internal { Nr with array_ := (kq, cq) :: (kr, c0) :: rest })
        else if id = cq then (t.pm id).map (fun p => p.SetParentPageId r)
        else t.pm id := by
  obtain ⟨T1, hrun, hm1, hpm1⟩ := MoveLastToFrontOf_spec t l r Nl Nr kr kq k0 cq c0 init rest
    hl hNl hr hNr hrid hlr hpage hcr hcl
  have hp1 : T1.internalAt par = .ok N :=
    internalAt_eq _ _ _ (by rw [hpm1, if_neg hpl, if_neg hpr, if_neg hcp, hN])
  have hr1 : T1.internalAt r = .ok { Nr with array_ := (kq, cq) :: (kr, c0) :: rest } :=
    internalAt_eq _ _ _ (by rw [hpm1, if_neg (Ne.symm hlr), if_pos rfl])
  refine ⟨T1.setPage par (.internal { N with array_ := X ++ (kl, l) :: (kq, r) :: Y }), ?_,
    hm1.trans_meta (SameMeta_setPage _ _ _), fun id => ?_⟩
  · simp only [Redistribute, pageAt_eq t r _ hr, ok_bind, internalAt_eq t par N hN,
      not_true_eq_false, if_false, KeyAt_pair N X (kl, l) kr r Y harr, hrun, hr1, hp1]
    simp only [InternalPage.KeyAt, List.get?_cons_zero, ok_bind]
    rw [SetKeyAt_pair N X (kl, l) kr r Y kq harr]
    rfl
  · rw [pm_setPage]
    by_cases e1 : id = par
    · rw [if_pos e1, if_pos e1]
    · rw [if_neg e1, if_neg e1, hpm1]

/-- `Redistribute` between internal pages, the first entry of the right
sibling `r` moving to the end of `l`. -/
theorem Redistribute_internal_next (t : Tree K V) (par l r : Int) (N : InternalPage K)
    (X Y : List (K × Int)) (kl kr : K) (Nl Nr : InternalPage K) (rest : List (K × Int))
    (k0 k1 : K) (c0 c1 : Int)
    (hN : t.pm par = some (.internal N)) (harr : N.array_ = X ++ (kl, l) :: (kr, r) :: Y)
    (hl : t.pm l = some (.internal Nl)) (hlid : Nl.page_id_ = l)
    (hr : t.pm r = some (.internal Nr)) (hNr : Nr.array_ = (k0, c0) :: (k1, c1) :: rest)
    (hlr : l ≠ r) (hpl : par ≠ l) (hpr : par ≠ r)
    (hpage : (t.pm c0).isSome = true) (hcl : l ≠ c0) (hcr : r ≠ c0) (hcp : par ≠ c0) :
    ∃ T, Redistribute t r l par X.length false = .ok T ∧ SameMeta t T ∧
      ∀ id, T.pm id =
        if id = par then some (.internal { N with array_ := X ++ (kl, l) :: (k1, r) :: Y })
        else if id = r then some (.internal { Nr with array_ := (k1, c1) :: rest })
        else if id = l then some (.internal { Nl with array_ := Nl.array_ ++ [(kr, c0)] })
        else if id = c0 then (t.pm id).map (fun p => p.SetParentPageId l)
        else t.pm id := by
  obtain ⟨T1, hrun, hm1, hpm1⟩ := MoveFirstToEndOf_spec t r l Nr Nl kr k0 c0 ((k1, c1) :: rest)
    hr hNr hl hlid (Ne.symm hlr) hpage hcl hcr
  have hp1 : T1.internalAt par = .ok N :=
    internalAt_eq _ _ _ (by rw [hpm1, if_neg hpr, if_neg hpl, if_neg hcp, hN])
  have hr1 : T1.internalAt r = .ok { Nr with array_ := (k1, c1) :: rest } :=
    internalAt_eq _ _ _ (by rw [hpm1, if_pos rfl])
  refine ⟨T1.setPage par (.internal { N with array_ := X ++ (kl, l) :: (k1, r) :: Y }), ?_,
    hm1.trans_meta (SameMeta_setPage _ _ _), fun id => ?_⟩
  · simp only [Redistribute, pageAt_eq t l _ hl, ok_bind, internalAt_eq t par N hN,
      Bool.false_eq_true, not_false_eq_true, if_true, KeyAt_pair N X (kl, l) kr r Y harr, hrun,
      hr1, hp1]
    simp only [InternalPage.KeyAt, List.get?_cons_zero, ok_bind]
    rw [SetKeyAt_pair N X (kl, l) kr r Y k1 harr]
    rfl
  · rw [pm_setPage]
    by_cases e1 : id = par
    · rw [if_pos e1, if_pos e1]
    · rw [if_neg e1, if_neg e1, hpm1]

end BPlusTree

namespace BPlusTree

variable {K V : Type}

theorem Chain_links {ls ls1 : List (LeafView K V)} (last : Int)
    (h : ls1.map (fun L => (L.id, L.next)) = ls.map (fun L => (L.id, L.next)))
    (hc : Chain ls last) : Chain ls1 last := by
  induction ls generalizing ls1 with
  | nil =>
    cases ls1 with
    | nil => exact hc
    | cons a r => cases h
  | cons a rest ih =>
    cases ls1 with
    | nil => cases h
    | cons b rest1 =>
      simp only [List.map_cons, List.cons.injEq, Prod.mk.injEq] at h
      obtain ⟨⟨h1, h2⟩, h3⟩ := h
      rw [Chain_cons] at hc ⊢
      refine ⟨?_, ih h3 hc.2⟩
      rw [h2, hc.1]
      cases rest with
      | nil =>
        cases rest1 with
        | nil => rfl
        | cons c r => cases h3
      | cons c r =>
        cases rest1 with
        | nil => cases h3
        | cons c1 r1 =>
          simp only [List.map_cons, List.cons.injEq, Prod.mk.injEq] at h3
          exact h3.1.1.symm

theorem Chain_links_around {A B ls ls1 : List (LeafView K V)} (last : Int)
    (h : ls1.map (fun L => (L.id, L.next)) = ls.map (fun L => (L.id, L.next)))
    (hc : Chain (A ++ ls ++ B) last) : Chain (A ++ ls1 ++ B) last :=
  Chain_links last (by simp only [List.map_append, h]) hc

section
variable [LT K]

theorem KidsL_head_key {R : Int → Option K → Option K → List (LeafView K V) → List Int → Prop}
    {lo hi : Option K} {k k1 : K} {c : Int} {rest : List (K × Int)} {ls : List (LeafView K V)}
    {ids : List Int} (h : KidsL R lo ((k, c) :: rest) hi ls ids) :
    KidsL R lo ((k1, c) :: rest) hi ls ids := by
  unfold KidsL at h ⊢
  exact h

theorem KidsL_hi_irrel {R : Int → Option K → Option K → List (LeafView K V) → List Int → Prop}
    {lo hi hi1 : Option K} {A : List (K × Int)} {ls : List (LeafView K V)}
    {ids : List Int} (hh : A ≠ [] → hi1 = hi) (h : KidsL R lo A hi ls ids) :
    KidsL R lo A hi1 ls ids := by
  cases A with
  | nil => exact h
  | cons e rest =>
    rw [hh (List.cons_ne_nil _ _)]
    exact h

end

section
variable [LinearOrder K]

theorem KidsL_frame {P P1 : Int → Option (TreePage K V)} {lm im : Nat} {h : Nat} {par : Int}
    {lo hi : Option K} {A : List (K × Int)} {ls : List (LeafView K V)} {ids : List Int}
    (hP : ∀ id ∈ ids, P1 id = P id)
    (hk : KidsL (fun c lo1 hi1 ls1 ids2 => Rep P lm im true h c par lo1 hi1 ls1 ids2)
      lo A hi ls ids) :
    KidsL (fun c lo1 hi1 ls1 ids2 => Rep P1 lm im true h c par lo1 hi1 ls1 ids2)
      lo A hi ls ids :=
  KidsL_imp (fun id => P1 id = P id) hP
    (fun _ _ _ _ _ hS hr => Rep_frame hS hr) hk

theorem inB_of_le_lt {lo hi : Option K} {k : K} (h1 : ∀ l, lo = some l → l ≤ k)
    (h2 : ∀ u, hi = some u → k < u) : inB lo hi k := ⟨h1, h2⟩

end

theorem nodup_mid_sublist {A M B C : List Int} (hs : M.Sublist B) (hnd : (A ++ B ++ C).Nodup) :
    (A ++ M ++ C).Nodup :=
  hnd.sublist (((List.Sublist.refl A).append hs).append (List.Sublist.refl C))

end BPlusTree

namespace BPlusTree

variable {K V : Type}

theorem minSizeOf_pos {n : Nat} (h : 1 ≤ n) : 1 ≤ minSizeOf n := by
  unfold minSizeOf
  omega

theorem minSizeOf_two {n : Nat} (h : 3 ≤ n) : 2 ≤ minSizeOf n := by
  unfold minSizeOf
  omega

variable [LinearOrder K]

/-- Redistribution between two leaves from the left one, seen from the parent:
both leaves are well formed around the new separator. -/
theorem RD_prev_leaf (t : Tree K V) (par l r : Int) (N : InternalPage K)
    (X Y : List (K × Int)) (kl kr : K) (loL hiR : Option K) (sr : Bool)
    (lsl lsr : List (LeafView K V)) (idsl idsr : List Int)
    (hlm : 1 ≤ t.leaf_max_size_)
    (hN : t.pm par = some (.internal N)) (harr : N.array_ = X ++ (kl, l) :: (kr, r) :: Y)
    (hl : Rep t.pm t.leaf_max_size_ t.internal_max_size_ true 0 l par loL (some kr) lsl idsl)
    (hr : Rep t.pm t.leaf_max_size_ t.internal_max_size_ sr 0 r par (some kr) hiR lsr idsr)
    (hlt : ltB (some kr) hiR)
    (hnd : (par :: (idsl ++ idsr)).Nodup)
    (hsz : ∀ p, t.pm l = some p → p.GetMinSize < p.GetSize) :
    ∃ T k1 lsl1 lsr1 idsl1 idsr1,
      Redistribute t l r par (X.length + 1) true = .ok T ∧ SameMeta t T ∧
      T.pm par = some (.internal { N with array_ := X ++ (kl, l) :: (k1, r) :: Y }) ∧
      (∀ id, id ∉ par :: (idsl ++ idsr) → T.pm id = t.pm id) ∧
      (∀ id, (T.pm id).map kindId = (t.pm id).map kindId) ∧
      Rep T.pm t.leaf_max_size_ t.internal_max_size_ true 0 l par loL (some k1) lsl1 idsl1 ∧
      Rep T.pm t.leaf_max_size_ t.internal_max_size_ true 0 r par (some k1) hiR lsr1 idsr1 ∧
      (idsl1 ++ idsr1).Perm (idsl ++ idsr) ∧
      contents (lsl1 ++ lsr1) = contents (lsl ++ lsr) ∧
      (lsl1 ++ lsr1).map (fun L => (L.id, L.next))
        = (lsl ++ lsr).map (fun L => (L.id, L.next)) := by
  obtain ⟨Ll, l1, l2, l3, l4, l5, l6, l7, l8, l9⟩ := hl
  obtain ⟨Lr, r1, r2, r3, r4, r5, r6, r7, r8, r9⟩ := hr
  subst l8 l9 r8 r9
  have hpl : par ≠ l := by
    intro e
    rw [e] at hnd
    simp at hnd
  have hpr : par ≠ r := by
    intro e
    rw [e] at hnd
    simp at hnd
  have hlr : l ≠ r := by
    intro e
    rw [e] at hnd
    simp at hnd
  have hlen : 2 ≤ Ll.array_.length := by
    have h1 := hsz _ l1
    simp only [TreePage.GetMinSize, TreePage.GetMaxSize, TreePage.GetSize, LeafPage.GetSize,
      l4] at h1
    have h2 := minSizeOf_pos hlm
    omega
  rcases List.eq_nil_or_concat Ll.array_ with hnil | ⟨init, e, hcat⟩
  · rw [hnil] at hlen
    simp at hlen
  rw [List.concat_eq_append] at hcat
  have hinit : init ≠ [] := by
    intro e1
    rw [hcat, e1] at hlen
    simp at hlen
  obtain ⟨T, hrun, hmeta, hpm⟩ := Redistribute_leaf_prev t par l r N X Y kl kr Ll Lr init e
    hN harr l1 r1 hcat hlr hpl hpr
  rw [hcat, List.map_append, List.pairwise_append] at l5
  obtain ⟨s1, -, s3⟩ := l5
  have hinit_lt : ∀ x ∈ init, x.1 < e.1 := fun x hx =>
    s3 x.1 (List.mem_map_of_mem _ hx) e.1 (by simp)
  have he : inB loL (some kr) e.1 := l6 e (by rw [hcat]; simp)
  have hekr : e.1 < kr := he.2 kr rfl
  refine ⟨T, e.1, [⟨l, Ll.next_page_id_, init⟩], [⟨r, Lr.next_page_id_, e :: Lr.array_⟩],
    [l], [r], hrun, hmeta, ?_, ?_, ?_, ?_, ?_, List.Perm.refl _, ?_, rfl⟩
  · rw [hpm, if_pos rfl]
  · intro id hid
    simp only [List.mem_cons, List.mem_append, List.mem_singleton, List.not_mem_nil, or_false,
      not_or] at hid
    rw [hpm, if_neg hid.1, if_neg hid.2.2, if_neg hid.2.1]
  · intro id
    rw [hpm]
    by_cases e1 : id = par
    · rw [if_pos e1, e1, hN]
      rfl
    · rw [if_neg e1]
      by_cases e2 : id = r
      · rw [if_pos e2, e2, r1]
        rfl
      · rw [if_neg e2]
        by_cases e3 : id = l
        · rw [if_pos e3, e3, l1]
          rfl
        · rw [if_neg e3]
  · refine ⟨{ Ll with array_ := init }, ?_, l2, l3, l4, s1, ?_, fun _ => hinit, rfl, rfl⟩
    · rw [hpm, if_neg (Ne.symm hpl), if_neg hlr, if_pos rfl]
    · intro x hx
      exact ⟨(l6 x (by rw [hcat]; exact List.mem_append_left _ hx)).1,
        fun u hu => by cases hu; exact hinit_lt x hx⟩
  · refine ⟨{ Lr with array_ := e :: Lr.array_ }, ?_, r2, r3, r4, ?_, ?_,
      fun _ => List.cons_ne_nil _ _, rfl, rfl⟩
    · rw [hpm, if_neg (Ne.symm hpr), if_pos rfl]
    · rw [List.map_cons, List.pairwise_cons]
      refine ⟨fun b hb => ?_, r5⟩
      obtain ⟨x, hx, rfl⟩ := List.mem_map.1 hb
      exact lt_of_lt_of_le hekr ((r6 x hx).1 kr rfl)
    · intro x hx
      rcases List.mem_cons.1 hx with rfl | hx
      · exact ⟨fun u hu => by cases hu; exact le_refl _,
          fun u hu => lt_trans hekr (hlt kr u rfl hu)⟩
      · exact ⟨fun u hu => by cases hu; exact le_of_lt (lt_of_lt_of_le hekr ((r6 x hx).1 kr rfl)),
          (r6 x hx).2⟩
  · simp only [contents, List.singleton_append, List.map_cons, List.map_nil, List.flatten_cons,
      List.flatten_nil, List.append_nil, hcat, List.append_assoc]

/-- Redistribution between two leaves from the right one, seen from the parent:
both leaves are well formed around the new separator. -/
theorem RD_next_leaf (t : Tree K V) (par l r : Int) (N : InternalPage K)
    (X Y : List (K × Int)) (kl kr : K) (loL hiR : Option K) (sl : Bool)
    (lsl lsr : List (LeafView K V)) (idsl idsr : List Int)
    (hlm : 1 ≤ t.leaf_max_size_)
    (hN : t.pm par = some (.internal N)) (harr : N.array_ = X ++ (kl, l) :: (kr, r) :: Y)
    (hl : Rep t.pm t.leaf_max_size_ t.internal_max_size_ sl 0 l par loL (some kr) lsl idsl)
    (hr : Rep t.pm t.leaf_max_size_ t.internal_max_size_ true 0 r par (some kr) hiR lsr idsr)
    (hlt : ltB loL (some kr))
    (hnd : (par :: (idsl ++ idsr)).Nodup)
    (hsz : ∀ p, t.pm r = some p → p.GetMinSize < p.GetSize) :
    ∃ T k1 lsl1 lsr1 idsl1 idsr1,
      Redistribute t r l par X.length false = .ok T ∧ SameMeta t T ∧
      T.pm par = some (.internal { N with array_ := X ++ (kl, l) :: (k1, r) :: Y }) ∧
      (∀ id, id ∉ par :: (idsl ++ idsr) → T.pm id = t.pm id) ∧
      (∀ id, (T.pm id).map kindId = (t.pm id).map kindId) ∧
      Rep T.pm t.leaf_max_size_ t.internal_max_size_ true 0 l par loL (some k1) lsl1 idsl1 ∧
      Rep T.pm t.leaf_max_size_ t.internal_max_size_ true 0 r par (some k1) hiR lsr1 idsr1 ∧
      (idsl1 ++ idsr1).Perm (idsl ++ idsr) ∧
      contents (lsl1 ++ lsr1) = contents (lsl ++ lsr) ∧
      (lsl1 ++ lsr1).map (fun L => (L.id, L.next))
        = (lsl ++ lsr).map (fun L => (L.id, L.next)) := by
  obtain ⟨Ll, l1, l2, l3, l4, l5, l6, l7, l8, l9⟩ := hl
  obtain ⟨Lr, r1, r2, r3, r4, r5, r6, r7, r8, r9⟩ := hr
  subst l8 l9 r8 r9
  have hpl : par ≠ l := by
    intro e
    rw [e] at hnd
    simp at hnd
  have hpr : par ≠ r := by
    intro e
    rw [e] at hnd
    simp at hnd
  have hlr : l ≠ r := by
    intro e
    rw [e] at hnd
    simp at hnd
  have hlen : 2 ≤ Lr.array_.length := by
    have h1 := hsz _ r1
    simp only [TreePage.GetMinSize, TreePage.GetMaxSize, TreePage.GetSize, LeafPage.GetSize,
      r4] at h1
    have h2 := minSizeOf_pos hlm
    omega
  obtain ⟨e, e2, rest, hcat⟩ : ∃ e e2 rest, Lr.array_ = e :: e2 :: rest := by
    cases hA : Lr.array_ with
    | nil => rw [hA] at hlen; simp at hlen
    | cons a A1 =>
      cases A1 with
      | nil => rw [hA] at hlen; simp at hlen
      | cons b A2 => exact ⟨a, b, A2, rfl⟩
  obtain ⟨T, hrun, hmeta, hpm⟩ := Redistribute_leaf_next t par l r N X Y kl kr Ll Lr e e2 rest
    hN harr l1 r1 hcat hlr hpl hpr
  rw [hcat, List.map_cons, List.map_cons, List.pairwise_cons, List.pairwise_cons] at r5
  obtain ⟨s1, s2, s3⟩ := r5
  have he12 : e.1 < e2.1 := s1 e2.1 (List.mem_cons_self _ _)
  have he : inB (some kr) hiR e.1 := r6 e (by rw [hcat]; simp)
  have he2 : inB (some kr) hiR e2.1 := r6 e2 (by rw [hcat]; simp)
  have hkre : kr ≤ e.1 := he.1 kr rfl
  refine ⟨T, e2.1, [⟨l, Ll.next_page_id_, Ll.array_ ++ [e]⟩],
    [⟨r, Lr.next_page_id_, e2 :: rest⟩],
    [l], [r], hrun, hmeta, ?_, ?_, ?_, ?_, ?_, List.Perm.refl _, ?_, rfl⟩
  · rw [hpm, if_pos rfl]
  · intro id hid
    simp only [List.mem_cons, List.mem_append, List.mem_singleton, List.not_mem_nil, or_false,
      not_or] at hid
    rw [hpm, if_neg hid.1, if_neg hid.2.1, if_neg hid.2.2]
  · intro id
    rw [hpm]
    by_cases e1 : id = par
    · rw [if_pos e1, e1, hN]
      rfl
    · rw [if_neg e1]
      by_cases e3 : id = l
      · rw [if_pos e3, e3, l1]
        rfl
      · rw [if_neg e3]
        by_cases e4 : id = r
        · rw [if_pos e4, e4, r1]
          rfl
        · rw [if_neg e4]
  · refine ⟨{ Ll with array_ := Ll.array_ ++ [e] }, ?_, l2, l3, l4, ?_, ?_,
      fun _ => (by simp), rfl, rfl⟩
    · rw [hpm, if_neg (Ne.symm hpl), if_pos rfl]
    · rw [List.map_append, List.pairwise_append]
      refine ⟨l5, by simp, fun a ha b hb => ?_⟩
      obtain ⟨x, hx, rfl⟩ := List.mem_map.1 ha
      simp only [List.map_cons, List.map_nil, List.mem_singleton] at hb
      rw [hb]
      exact lt_of_lt_of_le ((l6 x hx).2 kr rfl) hkre
    · intro x hx
      rcases List.mem_append.1 hx with hx | hx
      · exact ⟨(l6 x hx).1, fun u hu => by
          cases hu
          exact lt_trans (lt_of_lt_of_le ((l6 x hx).2 kr rfl) hkre) he12⟩
      · rw [List.mem_singleton.1 hx]
        exact ⟨fun u hu => le_trans (le_of_lt (hlt u kr hu rfl)) hkre,
          fun u hu => by cases hu; exact he12⟩
  · refine ⟨{ Lr with array_ := e2 :: rest }, ?_, r2, r3, r4, ?_, ?_,
      fun _ => List.cons_ne_nil _ _, rfl, rfl⟩
    · rw [hpm, if_neg (Ne.symm hpr), if_neg (Ne.symm hlr), if_pos rfl]
    · rw [List.map_cons, List.pairwise_cons]
      exact ⟨s2, s3⟩
    · intro x hx
      refine ⟨fun u hu => ?_, (r6 x (by rw [hcat]; exact List.mem_cons_of_mem _ hx)).2⟩
      cases hu
      rcases List.mem_cons.1 hx with rfl | hx
      · exact le_refl _
      · exact le_of_lt (s2 x.1 (List.mem_map_of_mem _ hx))
  · simp only [contents, List.singleton_append, List.map_cons, List.map_nil, List.flatten_cons,
      List.flatten_nil, List.append_nil, hcat, List.append_assoc]

/-- Merge of the leaf `r` into its left sibling `l`, seen from the parent: the
left leaf is well formed over the keys of both. -/
theorem CO_leaf (recurse : Tree K V → Int → Except Err (Tree K V × Bool))
    (t : Tree K V) (par l r : Int) (N : InternalPage K)
    (X Y : List (K × Int)) (kl kr : K) (loL hiR : Option K) (sl sr : Bool)
    (lsl lsr : List (LeafView K V)) (idsl idsr : List Int)
    (hN : t.pm par = some (.internal N)) (harr : N.array_ = X ++ (kl, l) :: (kr, r) :: Y)
    (hl : Rep t.pm t.leaf_max_size_ t.internal_max_size_ sl 0 l par loL (some kr) lsl idsl)
    (hr : Rep t.pm t.leaf_max_size_ t.internal_max_size_ sr 0 r par (some kr) hiR lsr idsr)
    (hs : sl = true ∨ sr = true)
    (hltL : ltB loL (some kr)) (hltR : ltB (some kr) hiR)
    (hnd : (par :: (idsl ++ idsr)).Nodup) :
    ∃ T lsm idsm,
      Coalesce recurse t l r par (X.length + 1) = recurse T par ∧ SameMeta t T ∧
      T.pm par = some (.internal { N with array_ := X ++ (kl, l) :: Y }) ∧
      (∀ id, id ∉ par :: (idsl ++ idsr) → T.pm id = t.pm id) ∧
      (∀ id, (T.pm id).map kindId = (t.pm id).map kindId) ∧
      Rep T.pm t.leaf_max_size_ t.internal_max_size_ true 0 l par loL hiR lsm idsm ∧
      idsm.Sublist (idsl ++ idsr) ∧ r ∉ idsm ∧
      contents lsm = contents (lsl ++ lsr) ∧
      ∀ A B last, Chain (A ++ (lsl ++ lsr) ++ B) last → Chain (A ++ lsm ++ B) last := by
  obtain ⟨Ll, l1, l2, l3, l4, l5, l6, l7, l8, l9⟩ := hl
  obtain ⟨Lr, r1, r2, r3, r4, r5, r6, r7, r8, r9⟩ := hr
  subst l8 l9 r8 r9
  have hpl : par ≠ l := by
    intro e
    rw [e] at hnd
    simp at hnd
  have hpr : par ≠ r := by
    intro e
    rw [e] at hnd
    simp at hnd
  have hlr : l ≠ r := by
    intro e
    rw [e] at hnd
    simp at hnd
  obtain ⟨T, hrun, hmeta, hpm⟩ := Coalesce_leaf_eval recurse t par l r N X Y kl kr Ll Lr
    hN harr l1 r1 hlr hpl hpr
  refine ⟨T, [⟨l, Lr.next_page_id_, Ll.array_ ++ Lr.array_⟩], [l], hrun, hmeta, ?_, ?_, ?_, ?_,
    ?_, ?_, ?_, ?_⟩
  · rw [hpm, if_pos rfl]
  · intro id hid
    simp only [List.mem_cons, List.mem_append, List.mem_singleton, List.not_mem_nil, or_false,
      not_or] at hid
    rw [hpm, if_neg hid.1, if_neg hid.2.1, if_neg hid.2.2]
  · intro id
    rw [hpm]
    by_cases e1 : id = par
    · rw [if_pos e1, e1, hN]
      rfl
    · rw [if_neg e1]
      by_cases e3 : id = l
      · rw [if_pos e3, e3, l1]
        rfl
      · rw [if_neg e3]
        by_cases e4 : id = r
        · rw [if_pos e4, e4, r1]
          rfl
        · rw [if_neg e4]
  · refine ⟨⟨Ll.page_id_, Ll.parent_page_id_, Ll.max_size_, Lr.next_page_id_,
      Ll.array_ ++ Lr.array_⟩, ?_, l2, l3, l4, ?_, ?_, ?_, rfl, rfl⟩
    · rw [hpm, if_neg (Ne.symm hpl), if_pos rfl]
    · rw [List.map_append, List.pairwise_append]
      refine ⟨l5, r5, fun a ha b hb => ?_⟩
      obtain ⟨x, hx, rfl⟩ := List.mem_map.1 ha
      obtain ⟨y, hy, rfl⟩ := List.mem_map.1 hb
      exact lt_of_lt_of_le ((l6 x hx).2 kr rfl) ((r6 y hy).1 kr rfl)
    · intro x hx
      rcases List.mem_append.1 hx with hx | hx
      · exact ⟨(l6 x hx).1, fun u hu =>
          lt_trans ((l6 x hx).2 kr rfl) (hltR kr u rfl hu)⟩
      · exact ⟨fun u hu => le_trans (le_of_lt (hltL u kr hu rfl)) ((r6 x hx).1 kr rfl),
          (r6 x hx).2⟩
    · intro _ hnil
      obtain ⟨h1, h2⟩ := List.append_eq_nil.1 hnil
      rcases hs with hs | hs
      · exact l7 hs h1
      · exact r7 hs h2
  · exact List.Sublist.cons₂ _ (List.nil_sublist _)
  · intro hm
    exact hlr (List.mem_singleton.1 hm).symm
  · simp only [contents, List.singleton_append, List.map_cons, List.map_nil, List.flatten_cons,
      List.flatten_nil, List.append_nil]
  · intro A B last hc
    exact Chain_merge hc rfl rfl

end BPlusTree

namespace BPlusTree

variable {K V : Type}

theorem nodup_parts {A B : List Int} (h : (A ++ B).Nodup) :
    A.Nodup ∧ B.Nodup ∧ ∀ x ∈ A, x ∉ B := by
  rw [List.nodup_append] at h
  exact ⟨h.1, h.2.1, fun x hx hb => h.2.2 hx hb⟩

variable [LinearOrder K]

/-- Redistribution between two internal pages from the left one, seen from the
parent: both pages are well formed around the new separator. -/
theorem RD_prev_internal (t : Tree K V) (par l r : Int) (N : InternalPage K) (h : Nat)
    (X Y : List (K × Int)) (kl kr : K) (loL hiR : Option K) (sr : Bool)
    (lsl lsr : List (LeafView K V)) (idsl idsr : List Int)
    (him : 3 ≤ t.internal_max_size_)
    (hN : t.pm par = some (.internal N)) (harr : N.array_ = X ++ (kl, l) :: (kr, r) :: Y)
    (hl : Rep t.pm t.leaf_max_size_ t.internal_max_size_ true (h + 1) l par loL (some kr)
      lsl idsl)
    (hr : Rep t.pm t.leaf_max_size_ t.internal_max_size_ sr (h + 1) r par (some kr) hiR
      lsr idsr)
    (hnd : (par :: (idsl ++ idsr)).Nodup)
    (hsz : ∀ p, t.pm l = some p → p.GetMinSize < p.GetSize) :
    ∃ T k1 lsl1 lsr1 idsl1 idsr1,
      Redistribute t l r par (X.length + 1) true = .ok T ∧ SameMeta t T ∧
      T.pm par = some (.internal { N with array_ := X ++ (kl, l) :: (k1, r) :: Y }) ∧
      (∀ id, id ∉ par :: (idsl ++ idsr) → T.pm id = t.pm id) ∧
      (∀ id, (T.pm id).map kindId = (t.pm id).map kindId) ∧
      Rep T.pm t.leaf_max_size_ t.internal_max_size_ true (h + 1) l par loL (some k1)
        lsl1 idsl1 ∧
      Rep T.pm t.leaf_max_size_ t.internal_max_size_ true (h + 1) r par (some k1) hiR
        lsr1 idsr1 ∧
      (idsl1 ++ idsr1).Perm (idsl ++ idsr) ∧
      contents (lsl1 ++ lsr1) = contents (lsl ++ lsr) ∧
      (lsl1 ++ lsr1).map (fun L => (L.id, L.next))
        = (lsl ++ lsr).map (fun L => (L.id, L.next)) := by
  obtain ⟨Nl, kidsl, l1, l2, l3, l4, l5, l6, l7, l8⟩ := hl
  obtain ⟨Nr, kidsr, r1, r2, r3, r4, r5, r6, r7, r8⟩ := hr
  subst l8 r8
  have hlen : 3 ≤ Nl.array_.length := by
    have h1 := hsz _ l1
    simp only [TreePage.GetMinSize, TreePage.GetMaxSize, TreePage.GetSize,
      InternalPage.GetSize, l4] at h1
    have h2 := minSizeOf_two him
    omega
  rcases List.eq_nil_or_concat Nl.array_ with hnil | ⟨init, ⟨kq, cq⟩, hcat⟩
  · exact absurd hnil l5
  rw [List.concat_eq_append] at hcat
  have hinit : 2 ≤ init.length := by
    rw [hcat, List.length_append, List.length_singleton] at hlen
    omega
  have hinit0 : init ≠ [] := by
    intro e
    rw [e] at hinit
    simp at hinit
  obtain ⟨⟨k0, c0⟩, rest, hNr⟩ := List.exists_cons_of_ne_nil r5
  rw [hcat] at l7
  obtain ⟨ls1, ls2, i1, i2, e1, e2, hk1, hk2⟩ := KidsL_append_elim l7
  rw [if_neg hinit0] at hk2
  obtain ⟨hltq, lsa, lsb, ia, ib, e3, e4, hrq, hnil⟩ := hk2
  obtain ⟨rfl, rfl⟩ := hnil
  simp only [List.append_nil] at e3 e4
  subst e1 e2 e3 e4
  rw [hNr] at r7
  -- distinctness of the page ids
  obtain ⟨hpar, hnd1⟩ := List.nodup_cons.1 hnd
  obtain ⟨hndl, hndr, hdlr⟩ := nodup_parts hnd1
  obtain ⟨hl0, hndl1⟩ := List.nodup_cons.1 hndl
  obtain ⟨hnd_i1, hnd_i2, hd12⟩ := nodup_parts hndl1
  obtain ⟨hr0, hndkr⟩ := List.nodup_cons.1 hndr
  have hcq2 : cq ∈ i2 := Rep_pid_mem hrq
  have hpl : par ≠ l := fun e => hpar (by rw [e]; simp)
  have hpr : par ≠ r := fun e => hpar (by rw [e]; simp)
  have hlr : l ≠ r := fun e => hdlr l (by simp) (by rw [e]; simp)
  have hcl : l ≠ cq := fun e => hl0 (by rw [e]; simp [hcq2])
  have hcr : r ≠ cq := fun e => hdlr cq (by simp [hcq2]) (by rw [e]; simp)
  have hcp : par ≠ cq := fun e => hpar (by rw [e]; simp [hcq2])
  obtain ⟨cqn, hcqP, -, -, -⟩ := Rep_page hrq
  obtain ⟨T, hrun, hmeta, hpm⟩ := Redistribute_internal_prev t par l r N X Y kl kr Nl Nr init
    rest kq k0 cq c0 hN harr l1 hcat r1 hNr r2 hlr hpl hpr (by rw [hcqP]; rfl) hcl hcr hcp
  have hfr1 : ∀ id ∈ i1, T.pm id = t.pm id := by
    intro id hid
    have a1 : id ≠ par := fun e => hpar (by rw [← e]; simp [hid])
    have a2 : id ≠ l := fun e => hl0 (by rw [← e]; simp [hid])
    have a3 : id ≠ r := fun e => hdlr id (by simp [hid]) (by rw [e]; simp)
    have a4 : id ≠ cq := fun e => hd12 id hid (by rw [e]; exact hcq2)
    rw [hpm, if_neg a1, if_neg a2, if_neg a3, if_neg a4]
  have hfr2 : ∀ id ∈ i2, id ≠ cq → T.pm id = t.pm id := by
    intro id hid a4
    have a1 : id ≠ par := fun e => hpar (by rw [← e]; simp [hid])
    have a2 : id ≠ l := fun e => hl0 (by rw [← e]; simp [hid])
    have a3 : id ≠ r := fun e => hdlr id (by simp [hid]) (by rw [e]; simp)
    rw [hpm, if_neg a1, if_neg a2, if_neg a3, if_neg a4]
  have hfr3 : ∀ id ∈ kidsr, T.pm id = t.pm id := by
    intro id hid
    have a1 : id ≠ par := fun e => hpar (by rw [← e]; simp [hid])
    have a2 : id ≠ l := fun e => hdlr l (by simp) (by rw [← e]; simp [hid])
    have a3 : id ≠ r := fun e => hr0 (by rw [← e]; exact hid)
    have a4 : id ≠ cq := fun e => hdlr cq (by simp [hcq2]) (by rw [← e]; simp [hid])
    rw [hpm, if_neg a1, if_neg a2, if_neg a3, if_neg a4]
  refine ⟨T, kq, ls1, ls2 ++ lsr, l :: i1, r :: (i2 ++ kidsr), hrun, hmeta, ?_, ?_, ?_, ?_, ?_,
    ?_, ?_, ?_⟩
  · rw [hpm, if_pos rfl]
  · intro id hid
    simp only [List.mem_cons, List.mem_append, not_or] at hid
    have a4 : id ≠ cq := fun e => hid.2.1.2.2 (e ▸ hcq2)
    rw [hpm, if_neg hid.1, if_neg hid.2.1.1, if_neg hid.2.2.1, if_neg a4]
  · intro id
    rw [hpm]
    by_cases a1 : id = par
    · rw [if_pos a1, a1, hN]
      rfl
    · rw [if_neg a1]
      by_cases a2 : id = l
      · rw [if_pos a2, a2, l1]
        rfl
      · rw [if_neg a2]
        by_cases a3 : id = r
        · rw [if_pos a3, a3, r1]
          rfl
        · rw [if_neg a3]
          by_cases a4 : id = cq
          · rw [if_pos a4, a4, hcqP]
            simp only [Option.map_some', kindId_SetParentPageId]
          · rw [if_neg a4]
  · refine ⟨{ Nl with array_ := init }, i1, ?_, l2, l3, l4, hinit0, fun _ => hinit, ?_, rfl⟩
    · rw [hpm, if_neg (Ne.symm hpl), if_pos rfl]
    · exact KidsL_frame hfr1 hk1
  · refine ⟨{ Nr with array_ := (kq, cq) :: (kr, c0) :: rest }, i2 ++ kidsr, ?_, r2, r3, r4,
      List.cons_ne_nil _ _, fun _ => (by simp), ?_, rfl⟩
    · rw [hpm, if_neg (Ne.symm hpr), if_neg (Ne.symm hlr), if_pos rfl]
    · refine ⟨hltq, ls2, lsr, i2, kidsr, rfl, rfl, ?_, ?_⟩
      · refine Rep_reparent r hrq hnd_i2 ?_ hfr2
        rw [hpm, if_neg (Ne.symm hcp), if_neg (Ne.symm hcl), if_neg (Ne.symm hcr), if_pos rfl]
      · exact KidsL_head_key (KidsL_frame hfr3 r7)
  · simp only [List.cons_append, List.append_assoc]
    refine List.Perm.cons _ ?_
    refine List.Perm.append_left _ ?_
    exact (List.perm_middle).symm
  · rw [List.append_assoc]
  · rw [List.append_assoc]

/-- Redistribution between two internal pages from the right one, seen from
the parent: both pages are well formed around the new separator. -/
theorem RD_next_internal (t : Tree K V) (par l r : Int) (N : InternalPage K) (h : Nat)
    (X Y : List (K × Int)) (kl kr : K) (loL hiR : Option K) (sl : Bool)
    (lsl lsr : List (LeafView K V)) (idsl idsr : List Int)
    (him : 3 ≤ t.internal_max_size_)
    (hN : t.pm par = some (.internal N)) (harr : N.array_ = X ++ (kl, l) :: (kr, r) :: Y)
    (hl : Rep t.pm t.leaf_max_size_ t.internal_max_size_ sl (h + 1) l par loL (some kr)
      lsl idsl)
    (hr : Rep t.pm t.leaf_max_size_ t.internal_max_size_ true (h + 1) r par (some kr) hiR
      lsr idsr)
    (hnd : (par :: (idsl ++ idsr)).Nodup)
    (hsz : ∀ p, t.pm r = some p → p.GetMinSize < p.GetSize) :
    ∃ T k1 lsl1 lsr1 idsl1 idsr1,
      Redistribute t r l par X.length false = .ok T ∧ SameMeta t T ∧
      T.pm par = some (.internal { N with array_ := X ++ (kl, l) :: (k1, r) :: Y }) ∧
      (∀ id, id ∉ par :: (idsl ++ idsr) → T.pm id = t.pm id) ∧
      (∀ id, (T.pm id).map kindId = (t.pm id).map kindId) ∧
      Rep T.pm t.leaf_max_size_ t.internal_max_size_ true (h + 1) l par loL (some k1)
        lsl1 idsl1 ∧
      Rep T.pm t.leaf_max_size_ t.internal_max_size_ true (h + 1) r par (some k1) hiR
        lsr1 idsr1 ∧
      (idsl1 ++ idsr1).Perm (idsl ++ idsr) ∧
      contents (lsl1 ++ lsr1) = contents (lsl ++ lsr) ∧
      (lsl1 ++ lsr1).map (fun L => (L.id, L.next))
        = (lsl ++ lsr).map (fun L => (L.id, L.next)) := by
  obtain ⟨Nl, kidsl, l1, l2, l3, l4, l5, l6, l7, l8⟩ := hl
  obtain ⟨Nr, kidsr, r1, r2, r3, r4, r5, r6, r7, r8⟩ := hr
  subst l8 r8
  have hlen : 3 ≤ Nr.array_.length := by
    have h1 := hsz _ r1
    simp only [TreePage.GetMinSize, TreePage.GetMaxSize, TreePage.GetSize,
      InternalPage.GetSize, r4] at h1
    have h2 := minSizeOf_two him
    omega
  obtain ⟨k0, c0, k1, c1, rest, hNr, hrest⟩ :
      ∃ k0 c0 k1 c1 rest, Nr.array_ = (k0, c0) :: (k1, c1) :: rest ∧ 1 ≤ rest.length := by
    cases hA : Nr.array_ with
    | nil => rw [hA] at hlen; simp at hlen
    | cons a A1 =>
      cases A1 with
      | nil => rw [hA] at hlen; simp at hlen
      | cons b A2 =>
        refine ⟨a.1, a.2, b.1, b.2, A2, rfl, ?_⟩
        rw [hA] at hlen
        simp only [List.length_cons] at hlen
        omega
  rw [hNr] at r7
  obtain ⟨hlt1, lsa, lsb, ia, ib, e3, e4, hrc, hkb⟩ := r7
  subst e3 e4
  -- distinctness of the page ids
  obtain ⟨hpar, hnd1⟩ := List.nodup_cons.1 hnd
  obtain ⟨hndl, hndr, hdlr⟩ := nodup_parts hnd1
  obtain ⟨hl0, hndl1⟩ := List.nodup_cons.1 hndl
  obtain ⟨hr0, hndkr⟩ := List.nodup_cons.1 hndr
  obtain ⟨hnd_ia, hnd_ib, hdab⟩ := nodup_parts hndkr
  have hc0 : c0 ∈ ia := Rep_pid_mem hrc
  have hpl : par ≠ l := fun e => hpar (by rw [e]; simp)
  have hpr : par ≠ r := fun e => hpar (by rw [e]; simp)
  have hlr : l ≠ r := fun e => hdlr l (by simp) (by rw [e]; simp)
  have hcl : l ≠ c0 := fun e => hdlr l (by simp) (by rw [e]; simp [hc0])
  have hcr : r ≠ c0 := fun e => hr0 (by rw [e]; simp [hc0])
  have hcp : par ≠ c0 := fun e => hpar (by rw [e]; simp [hc0])
  obtain ⟨c0n, hc0P, -, -, -⟩ := Rep_page hrc
  obtain ⟨T, hrun, hmeta, hpm⟩ := Redistribute_internal_next t par l r N X Y kl kr Nl Nr rest
    k0 k1 c0 c1 hN harr l1 l2 r1 hNr hlr hpl hpr (by rw [hc0P]; rfl) hcl hcr hcp
  have hfr1 : ∀ id ∈ kidsl, T.pm id = t.pm id := by
    intro id hid
    have a1 : id ≠ par := fun e => hpar (by rw [← e]; simp [hid])
    have a2 : id ≠ l := fun e => hl0 (by rw [← e]; exact hid)
    have a3 : id ≠ r := fun e => hdlr id (by simp [hid]) (by rw [e]; simp)
    have a4 : id ≠ c0 := fun e => hdlr id (by simp [hid]) (by rw [e]; simp [hc0])
    rw [hpm, if_neg a1, if_neg a3, if_neg a2, if_neg a4]
  have hfr2 : ∀ id ∈ ia, id ≠ c0 → T.pm id = t.pm id := by
    intro id hid a4
    have a1 : id ≠ par := fun e => hpar (by rw [← e]; simp [hid])
    have a2 : id ≠ l := fun e => hdlr l (by simp) (by rw [← e]; simp [hid])
    have a3 : id ≠ r := fun e => hr0 (by rw [← e]; simp [hid])
    rw [hpm, if_neg a1, if_neg a3, if_neg a2, if_neg a4]
  have hfr3 : ∀ id ∈ ib, T.pm id = t.pm id := by
    intro id hid
    have a1 : id ≠ par := fun e => hpar (by rw [← e]; simp [hid])
    have a2 : id ≠ l := fun e => hdlr l (by simp) (by rw [← e]; simp [hid])
    have a3 : id ≠ r := fun e => hr0 (by rw [← e]; simp [hid])
    have a4 : id ≠ c0 := fun e => hdab c0 hc0 (by rw [← e]; exact hid)
    rw [hpm, if_neg a1, if_neg a3, if_neg a2, if_neg a4]
  refine ⟨T, k1, lsl ++ lsa, lsb, l :: (kidsl ++ ia), r :: ib, hrun, hmeta, ?_, ?_, ?_, ?_, ?_,
    ?_, ?_, ?_⟩
  · rw [hpm, if_pos rfl]
  · intro id hid
    simp only [List.mem_cons, List.mem_append, not_or] at hid
    have a4 : id ≠ c0 := fun e => hid.2.2.2.1 (e ▸ hc0)
    rw [hpm, if_neg hid.1, if_neg hid.2.2.1, if_neg hid.2.1.1, if_neg a4]
  · intro id
    rw [hpm]
    by_cases a1 : id = par
    · rw [if_pos a1, a1, hN]
      rfl
    · rw [if_neg a1]
      by_cases a3 : id = r
      · rw [if_pos a3, a3, r1]
        rfl
      · rw [if_neg a3]
        by_cases a2 : id = l
        · rw [if_pos a2, a2, l1]
          rfl
        · rw [if_neg a2]
          by_cases a4 : id = c0
          · rw [if_pos a4, a4, hc0P]
            simp only [Option.map_some', kindId_SetParentPageId]
          · rw [if_neg a4]
  · refine ⟨{ Nl with array_ := Nl.array_ ++ [(kr, c0)] }, kidsl ++ ia, ?_, l2, l3, l4,
      (by simp), fun _ => ?_, ?_, rfl⟩
    · rw [hpm, if_neg (Ne.symm hpl), if_neg hlr, if_pos rfl]
    · have : 1 ≤ Nl.array_.length := by
        cases hA : Nl.array_ with
        | nil => exact absurd hA l5
        | cons a A => simp
      simp only [List.length_append, List.length_singleton]
      omega
    · refine KidsL_append_intro (KidsL_frame hfr1 l7) ?_
      rw [if_neg l5]
      refine ⟨hlt1, lsa, [], ia, [], by simp, by simp, ?_, rfl, rfl⟩
      refine Rep_reparent l hrc hnd_ia ?_ hfr2
      rw [hpm, if_neg (Ne.symm hcp), if_neg (Ne.symm hcr), if_neg (Ne.symm hcl), if_pos rfl]
  · refine ⟨{ Nr with array_ := (k1, c1) :: rest }, ib, ?_, r2, r3, r4,
      List.cons_ne_nil _ _, fun _ => ?_, ?_, rfl⟩
    · rw [hpm, if_neg (Ne.symm hpr), if_pos rfl]
    · simp only [List.length_cons]
      omega
    · exact KidsL_frame hfr3 hkb
  · simp only [List.cons_append, List.append_assoc]
    refine List.Perm.cons _ ?_
    refine List.Perm.append_left _ ?_
    exact List.perm_middle
  · rw [List.append_assoc]
  · rw [List.append_assoc]

/-- Merge of the internal page `r` into its left sibling `l`, seen from the
parent: the left page is well formed over the children of both. -/
theorem CO_internal (recurse : Tree K V → Int → Except Err (Tree K V × Bool))
    (t : Tree K V) (par l r : Int) (N : InternalPage K) (h : Nat)
    (X Y : List (K × Int)) (kl kr : K) (loL hiR : Option K) (sl sr : Bool)
    (lsl lsr : List (LeafView K V)) (idsl idsr : List Int)
    (hN : t.pm par = some (.internal N)) (harr : N.array_ = X ++ (kl, l) :: (kr, r) :: Y)
    (hl : Rep t.pm t.leaf_max_size_ t.internal_max_size_ sl (h + 1) l par loL (some kr)
      lsl idsl)
    (hr : Rep t.pm t.leaf_max_size_ t.internal_max_size_ sr (h + 1) r par (some kr) hiR
      lsr idsr)
    (hnd : (par :: (idsl ++ idsr)).Nodup) :
    ∃ T lsm idsm,
      Coalesce recurse t l r par (X.length + 1) = recurse T par ∧ SameMeta t T ∧
      T.pm par = some (.internal { N with array_ := X ++ (kl, l) :: Y }) ∧
      (∀ id, id ∉ par :: (idsl ++ idsr) → T.pm id = t.pm id) ∧
      (∀ id, (T.pm id).map kindId = (t.pm id).map kindId) ∧
      Rep T.pm t.leaf_max_size_ t.internal_max_size_ true (h + 1) l par loL hiR lsm idsm ∧
      idsm.Sublist (idsl ++ idsr) ∧ r ∉ idsm ∧
      contents lsm = contents (lsl ++ lsr) ∧
      ∀ A B last, Chain (A ++ (lsl ++ lsr) ++ B) last → Chain (A ++ lsm ++ B) last := by
  obtain ⟨Nl, kidsl, l1, l2, l3, l4, l5, l6, l7, l8⟩ := hl
  obtain ⟨Nr, kidsr, r1, r2, r3, r4, r5, r6, r7, r8⟩ := hr
  subst l8 r8
  obtain ⟨⟨k0, c0⟩, rest, hNr⟩ := List.exists_cons_of_ne_nil r5
  -- distinctness of the page ids
  obtain ⟨hpar, hnd1⟩ := List.nodup_cons.1 hnd
  obtain ⟨hndl, hndr, hdlr⟩ := nodup_parts hnd1
  obtain ⟨hl0, hndl1⟩ := List.nodup_cons.1 hndl
  obtain ⟨hr0, hndkr⟩ := List.nodup_cons.1 hndr
  have hpl : par ≠ l := fun e => hpar (by rw [e]; simp)
  have hpr : par ≠ r := fun e => hpar (by rw [e]; simp)
  have hlr : l ≠ r := fun e => hdlr l (by simp) (by rw [e]; simp)
  have hkids : ∀ e ∈ Nr.array_, e.2 ∈ kidsr :=
    KidsL_child_mem (fun _ _ _ _ _ hr => Rep_pid_mem hr) r7
  have hpages : ∀ e ∈ Nr.array_, (t.pm e.2).isSome = true :=
    KidsL_child_prop (fun c => (t.pm c).isSome = true)
      (fun _ _ _ _ _ hr => by
        obtain ⟨n, hn, -⟩ := Rep_page hr
        rw [hn]
        rfl) r7
  have hmem : ∀ id, id ∈ Nr.array_.map Prod.snd → id ∈ kidsr := by
    intro id hid
    obtain ⟨e, he, rfl⟩ := List.mem_map.1 hid
    exact hkids e he
  have hnl : l ∉ Nr.array_.map Prod.snd := fun hm =>
    hdlr l (by simp) (List.mem_cons_of_mem _ (hmem l hm))
  have hnr : r ∉ Nr.array_.map Prod.snd := fun hm => hr0 (hmem r hm)
  have hnp : par ∉ Nr.array_.map Prod.snd := fun hm =>
    hpar (List.mem_append_right _ (List.mem_cons_of_mem _ (hmem par hm)))
  obtain ⟨T, hrun, hmeta, hpm⟩ := Coalesce_internal_eval recurse t par l r N X Y kl kr Nl Nr
    k0 c0 rest hN harr l1 l2 r1 hNr hlr hpl hpr hpages hnl hnr hnp
  have hfr1 : ∀ id ∈ kidsl, T.pm id = t.pm id := by
    intro id hid
    have a1 : id ≠ par := fun e => hpar (by rw [← e]; simp [hid])
    have a2 : id ≠ l := fun e => hl0 (by rw [← e]; exact hid)
    have a3 : id ≠ r := fun e => hdlr id (by simp [hid]) (by rw [e]; simp)
    have a4 : id ∉ Nr.array_.map Prod.snd := fun hm =>
      hdlr id (by simp [hid]) (List.mem_cons_of_mem _ (hmem id hm))
    rw [hpm, if_neg a1, if_neg a3, if_neg a2, if_neg a4]
  have hfr3 : ∀ id ∈ kidsr, T.pm id = if id ∈ Nr.array_.map Prod.snd
      then (t.pm id).map (fun p => p.SetParentPageId l) else t.pm id := by
    intro id hid
    have a1 : id ≠ par := fun e => hpar (by rw [← e]; simp [hid])
    have a2 : id ≠ l := fun e => hdlr l (by simp) (by rw [← e]; simp [hid])
    have a3 : id ≠ r := fun e => hr0 (by rw [← e]; exact hid)
    rw [hpm, if_neg a1, if_neg a3, if_neg a2]
  refine ⟨T, lsl ++ lsr, l :: (kidsl ++ kidsr), hrun, hmeta, ?_, ?_, ?_, ?_, ?_, ?_, rfl,
    fun _ _ _ hc => hc⟩
  · rw [hpm, if_pos rfl]
  · intro id hid
    simp only [List.mem_cons, List.mem_append, not_or] at hid
    have a4 : id ∉ Nr.array_.map Prod.snd := fun hm => hid.2.2.2 (hmem id hm)
    rw [hpm, if_neg hid.1, if_neg hid.2.2.1, if_neg hid.2.1.1, if_neg a4]
  · intro id
    rw [hpm]
    by_cases a1 : id = par
    · rw [if_pos a1, a1, hN]
      rfl
    · rw [if_neg a1]
      by_cases a3 : id = r
      · rw [if_pos a3, a3, r1]
        rfl
      · rw [if_neg a3]
        by_cases a2 : id = l
        · rw [if_pos a2, a2, l1]
          rfl
        · rw [if_neg a2]
          by_cases a4 : id ∈ Nr.array_.map Prod.snd
          · rw [if_pos a4]
            cases hq : t.pm id with
            | none => rfl
            | some q => simp only [Option.map_some', kindId_SetParentPageId]
          · rw [if_neg a4]
  · refine ⟨{ Nl with array_ := Nl.array_ ++ (kr, c0) :: rest }, kidsl ++ kidsr, ?_, l2, l3,
      l4, (by simp), fun _ => ?_, ?_, rfl⟩
    · rw [hpm, if_neg (Ne.symm hpl), if_neg hlr, if_pos rfl]
    · have : 1 ≤ Nl.array_.length := by
        cases hA : Nl.array_ with
        | nil => exact absurd hA l5
        | cons a A => simp
      simp only [List.length_append, List.length_cons]
      omega
    · refine KidsL_append_intro (KidsL_frame hfr1 l7) ?_
      rw [if_neg l5]
      refine KidsL_head_key (k := k0) ?_
      rw [← hNr]
      exact KidsL_adopt r7 hndkr hfr3
  · simp only [List.cons_append]
    exact List.Sublist.cons₂ _ ((List.Sublist.refl _).append (List.sublist_cons_self _ _))
  · intro hm
    rcases List.mem_cons.1 hm with e | hm
    · exact hlr e.symm
    · rcases List.mem_append.1 hm with hm | hm
      · exact hdlr r (List.mem_cons_of_mem _ hm) (List.mem_cons_self _ _)
      · exact hr0 hm

end BPlusTree

namespace BPlusTree

variable {K V : Type}

theorem COR_unfold_small (fuel : Nat) (t : Tree K V) (node : Int) (nd : TreePage K V)
    (hnd : t.pm node = some nd) (hroot : nd.IsRootPage = false)
    (hsz : nd.GetSize ≥ nd.GetMinSize) :
    CoalesceOrRedistribute (fuel + 1) t node = .ok (ReleaseLatchFromQueue t, false) := by
  simp only [CoalesceOrRedistribute, pageAt_eq t node nd hnd, ok_bind, hroot, hsz, if_true]
  rfl

theorem COR_unfold_left (fuel : Nat) (t : Tree K V) (node par s : Int) (nd sn : TreePage K V)
    (N : InternalPage K) (idx : Nat)
    (hnd : t.pm node = some nd) (hroot : nd.IsRootPage = false)
    (hsz : ¬ nd.GetSize ≥ nd.GetMinSize) (hpar : nd.GetParentPageId = par)
    (hid : nd.GetPageId = node)
    (hN : t.pm par = some (.internal N)) (hidx : N.ValueIndex node = idx + 1)
    (hval : N.ValueAt idx = .ok s) (hs : t.pm s = some sn) :
    CoalesceOrRedistribute (fuel + 1) t node =
      if sn.GetSize > sn.GetMinSize then
        (Redistribute ((t.pin par).pin s) s node par (idx + 1) true >>= fun t3 =>
          pure (UnpinPage (UnpinPage (ReleaseLatchFromQueue t3) par true) s true, false))
      else
        (Coalesce (CoalesceOrRedistribute fuel) ((t.pin par).pin s) s node par (idx + 1)
          >>= fun r => r.1.internalAt par >>= fun p =>
            pure (UnpinPage (UnpinPage
              (if r.2 = true then AddIntoDeletedPageSet r.1 p.page_id_ else r.1) par true)
              s true, true)) := by
  have hs1 : (t.pin par).pm s = some sn := by rw [(SameCore_pin t par).pm, hs]
  simp only [CoalesceOrRedistribute, pageAt_eq t node nd hnd, ok_bind, hroot, hsz, if_false,
    hpar, FetchPage_eq t par _ hN, hid, hidx, Bool.false_eq_true, gt_iff_lt, Nat.zero_lt_succ,
    if_true, Nat.add_sub_cancel, hval, FetchPage_eq (t.pin par) s sn hs1]

theorem COR_unfold_right (fuel : Nat) (t : Tree K V) (node par s : Int) (nd sn : TreePage K V)
    (N : InternalPage K)
    (hnd : t.pm node = some nd) (hroot : nd.IsRootPage = false)
    (hsz : ¬ nd.GetSize ≥ nd.GetMinSize) (hpar : nd.GetParentPageId = par)
    (hid : nd.GetPageId = node)
    (hN : t.pm par = some (.internal N)) (hidx : N.ValueIndex node = 0)
    (hlen : 1 ≠ N.GetSize) (hsid : sn.GetPageId = s) (hsidx : N.ValueIndex s = 1)
    (hval : N.ValueAt 1 = .ok s) (hs : t.pm s = some sn) :
    CoalesceOrRedistribute (fuel + 1) t node =
      if sn.GetSize > sn.GetMinSize then
        (Redistribute ((t.pin par).pin s) s node par 0 false >>= fun t3 =>
          pure (UnpinPage (UnpinPage (ReleaseLatchFromQueue t3) par true) s true, false))
      else
        (Coalesce (CoalesceOrRedistribute fuel) ((t.pin par).pin s) node s par 1
          >>= fun r => r.1.pageAt s >>= fun s1 =>
            (AddIntoDeletedPageSet r.1 s1.GetPageId).internalAt par >>= fun p =>
            pure (UnpinPage (UnpinPage
              (if r.2 = true then
                AddIntoDeletedPageSet (AddIntoDeletedPageSet r.1 s1.GetPageId) p.page_id_
               else AddIntoDeletedPageSet r.1 s1.GetPageId) par true)
              s true, false)) := by
  have hs1 : (t.pin par).pm s = some sn := by rw [(SameCore_pin t par).pm, hs]
  simp only [CoalesceOrRedistribute, pageAt_eq t node nd hnd, ok_bind, hroot, hsz, if_false,
    hpar, FetchPage_eq t par _ hN, hid, hidx, Bool.false_eq_true, gt_iff_lt, lt_self_iff_false,
    Nat.zero_add, ne_eq, hlen, not_false_eq_true, if_true, hval,
    FetchPage_eq (t.pin par) s sn hs1, hsid, hsidx]

end BPlusTree

namespace BPlusTree

variable {K V : Type} [LinearOrder K]

/-- Redistribution from the left sibling, at any height. -/
theorem RD_prev_local (t : Tree K V) (par l r : Int) (N : InternalPage K) (h : Nat)
    (X Y : List (K × Int)) (kl kr : K) (loL hiR : Option K) (sr : Bool)
    (lsl lsr : List (LeafView K V)) (idsl idsr : List Int)
    (hlm : 1 ≤ t.leaf_max_size_) (him : 3 ≤ t.internal_max_size_)
    (hN : t.pm par = some (.internal N)) (harr : N.array_ = X ++ (kl, l) :: (kr, r) :: Y)
    (hl : Rep t.pm t.leaf_max_size_ t.internal_max_size_ true h l par loL (some kr) lsl idsl)
    (hr : Rep t.pm t.leaf_max_size_ t.internal_max_size_ sr h r par (some kr) hiR lsr idsr)
    (hlt : ltB (some kr) hiR)
    (hnd : (par :: (idsl ++ idsr)).Nodup)
    (hsz : ∀ p, t.pm l = some p → p.GetMinSize < p.GetSize) :
    ∃ T k1 lsl1 lsr1 idsl1 idsr1,
      Redistribute t l r par (X.length + 1) true = .ok T ∧ SameMeta t T ∧
      T.pm par = some (.internal { N with array_ := X ++ (kl, l) :: (k1, r) :: Y }) ∧
      (∀ id, id ∉ par :: (idsl ++ idsr) → T.pm id = t.pm id) ∧
      (∀ id, (T.pm id).map kindId = (t.pm id).map kindId) ∧
      Rep T.pm t.leaf_max_size_ t.internal_max_size_ true h l par loL (some k1) lsl1 idsl1 ∧
      Rep T.pm t.leaf_max_size_ t.internal_max_size_ true h r par (some k1) hiR lsr1 idsr1 ∧
      (idsl1 ++ idsr1).Perm (idsl ++ idsr) ∧
      contents (lsl1 ++ lsr1) = contents (lsl ++ lsr) ∧
      (lsl1 ++ lsr1).map (fun L => (L.id, L.next))
        = (lsl ++ lsr).map (fun L => (L.id, L.next)) := by
  cases h with
  | zero =>
    exact RD_prev_leaf t par l r N X Y kl kr loL hiR sr lsl lsr idsl idsr hlm hN harr
      hl hr hlt hnd hsz
  | succ n =>
    exact RD_prev_internal t par l r N n X Y kl kr loL hiR sr lsl lsr idsl idsr him
      hN harr hl hr hnd hsz

/-- Redistribution from the right sibling, at any height. -/
theorem RD_next_local (t : Tree K V) (par l r : Int) (N : InternalPage K) (h : Nat)
    (X Y : List (K × Int)) (kl kr : K) (loL hiR : Option K) (sl : Bool)
    (lsl lsr : List (LeafView K V)) (idsl idsr : List Int)
    (hlm : 1 ≤ t.leaf_max_size_) (him : 3 ≤ t.internal_max_size_)
    (hN : t.pm par = some (.internal N)) (harr : N.array_ = X ++ (kl, l) :: (kr, r) :: Y)
    (hl : Rep t.pm t.leaf_max_size_ t.internal_max_size_ sl h l par loL (some kr) lsl idsl)
    (hr : Rep t.pm t.leaf_max_size_ t.internal_max_size_ true h r par (some kr) hiR lsr idsr)
    (hlt : ltB loL (some kr))
    (hnd : (par :: (idsl ++ idsr)).Nodup)
    (hsz : ∀ p, t.pm r = some p → p.GetMinSize < p.GetSize) :
    ∃ T k1 lsl1 lsr1 idsl1 idsr1,
      Redistribute t r l par X.length false = .ok T ∧ SameMeta t T ∧
      T.pm par = some (.internal { N with array_ := X ++ (kl, l) :: (k1, r) :: Y }) ∧
      (∀ id, id ∉ par :: (idsl ++ idsr) → T.pm id = t.pm id) ∧
      (∀ id, (T.pm id).map kindId = (t.pm id).map kindId) ∧
      Rep T.pm t.leaf_max_size_ t.internal_max_size_ true h l par loL (some k1) lsl1 idsl1 ∧
      Rep T.pm t.leaf_max_size_ t.internal_max_size_ true h r par (some k1) hiR lsr1 idsr1 ∧
      (idsl1 ++ idsr1).Perm (idsl ++ idsr) ∧
      contents (lsl1 ++ lsr1) = contents (lsl ++ lsr) ∧
      (lsl1 ++ lsr1).map (fun L => (L.id, L.next))
        = (lsl ++ lsr).map (fun L => (L.id, L.next)) := by
  cases h with
  | zero =>
    exact RD_next_leaf t par l r N X Y kl kr loL hiR sl lsl lsr idsl idsr hlm hN harr
      hl hr hlt hnd hsz
  | succ n =>
    exact RD_next_internal t par l r N n X Y kl kr loL hiR sl lsl lsr idsl idsr him
      hN harr hl hr hnd hsz

/-- Merge of `r` into its left sibling `l`, at any height. -/
theorem CO_local (recurse : Tree K V → Int → Except Err (Tree K V × Bool))
    (t : Tree K V) (par l r : Int) (N : InternalPage K) (h : Nat)
    (X Y : List (K × Int)) (kl kr : K) (loL hiR : Option K) (sl sr : Bool)
    (lsl lsr : List (LeafView K V)) (idsl idsr : List Int)
    (hN : t.pm par = some (.internal N)) (harr : N.array_ = X ++ (kl, l) :: (kr, r) :: Y)
    (hl : Rep t.pm t.leaf_max_size_ t.internal_max_size_ sl h l par loL (some kr) lsl idsl)
    (hr : Rep t.pm t.leaf_max_size_ t.internal_max_size_ sr h r par (some kr) hiR lsr idsr)
    (hs : sl = true ∨ sr = true)
    (hltL : ltB loL (some kr)) (hltR : ltB (some kr) hiR)
    (hnd : (par :: (idsl ++ idsr)).Nodup) :
    ∃ T lsm idsm,
      Coalesce recurse t l r par (X.length + 1) = recurse T par ∧ SameMeta t T ∧
      T.pm par = some (.internal { N with array_ := X ++ (kl, l) :: Y }) ∧
      (∀ id, id ∉ par :: (idsl ++ idsr) → T.pm id = t.pm id) ∧
      (∀ id, (T.pm id).map kindId = (t.pm id).map kindId) ∧
      Rep T.pm t.leaf_max_size_ t.internal_max_size_ true h l par loL hiR lsm idsm ∧
      idsm.Sublist (idsl ++ idsr) ∧ r ∉ idsm ∧
      contents lsm = contents (lsl ++ lsr) ∧
      ∀ A B last, Chain (A ++ (lsl ++ lsr) ++ B) last → Chain (A ++ lsm ++ B) last := by
  cases h with
  | zero =>
    exact CO_leaf recurse t par l r N X Y kl kr loL hiR sl sr lsl lsr idsl idsr hN harr
      hl hr hs hltL hltR hnd
  | succ n =>
    exact CO_internal recurse t par l r N n X Y kl kr loL hiR sl sr lsl lsr idsl idsr
      hN harr hl hr hnd

theorem Settled_of_eq {t t1 : Tree K V} {lm im : Nat} {ls : List (LeafView K V)}
    {ids : List Int} (hpm : t1.pm = t.pm) (hroot : t1.root_page_id_ = t.root_page_id_)
    (h : Settled t lm im ls ids) : Settled t1 lm im ls ids := by
  rcases h with ⟨h1, h2, h3⟩ | ⟨h1, hr⟩
  · exact Or.inl ⟨hroot.trans h1, h2, h3⟩
  · refine Or.inr ⟨h1, ?_⟩
    rw [hpm, hroot]
    exact hr

/-- The parent page with a pair of adjacent children, rebuilt in a changed
page map. -/
theorem parent_rep_pair {P P1 : Int → Option (TreePage K V)} {lm im : Nat} {h : Nat}
    {par gpar l r : Int} {N : InternalPage K} {X Y : List (K × Int)} {kl k1 : K}
    {loP hiP : Option K} {lsX lsY lsl1 lsr1 : List (LeafView K V)}
    {idsX idsY idsl1 idsr1 : List Int}
    (hNid : N.page_id_ = par) (hNpar : N.parent_page_id_ = gpar) (hNmax : N.max_size_ = im)
    (hX : KidsL (fun c lo1 hi1 ls1 ids2 => Rep P lm im true h c par lo1 hi1 ls1 ids2)
      loP X (some kl) lsX idsX)
    (hY : KidsL (fun c lo1 hi1 ls1 ids2 => Rep P lm im true h c par lo1 hi1 ls1 ids2)
      (nextLo Y hiP) Y hiP lsY idsY)
    (hfX : ∀ id ∈ idsX, P1 id = P id) (hfY : ∀ id ∈ idsY, P1 id = P id)
    (hP1 : P1 par = some (.internal { N with array_ := X ++ (kl, l) :: (k1, r) :: Y }))
    (hl1 : Rep P1 lm im true h l par (if X = [] then loP else some kl) (some k1) lsl1 idsl1)
    (hr1 : Rep P1 lm im true h r par (some k1) (nextLo Y hiP) lsr1 idsr1) :
    Rep P1 lm im true (h + 1) par gpar loP hiP (lsX ++ (lsl1 ++ (lsr1 ++ lsY)))
      (par :: (idsX ++ (idsl1 ++ (idsr1 ++ idsY)))) := by
  refine ⟨{ N with array_ := X ++ (kl, l) :: (k1, r) :: Y }, _, hP1, hNid, hNpar, hNmax,
    (by simp), fun _ => (by simp; omega), ?_, rfl⟩
  refine KidsL_append_intro (KidsL_frame hfX hX) ?_
  exact ⟨Rep_ltB hl1, lsl1, lsr1 ++ lsY, idsl1, idsr1 ++ idsY, rfl, rfl, hl1,
    Rep_ltB hr1, lsr1, lsY, idsr1, idsY, rfl, rfl, hr1, KidsL_frame hfY hY⟩

/-- The parent page with one child in the place of two, rebuilt in a changed
page map. -/
theorem parent_rep_one {P P1 : Int → Option (TreePage K V)} {lm im : Nat} {h : Nat}
    {par gpar l : Int} {N : InternalPage K} {X Y : List (K × Int)} {kl : K}
    {loP hiP : Option K} {lsX lsY lsm : List (LeafView K V)}
    {idsX idsY idsm : List Int}
    (hNid : N.page_id_ = par) (hNpar : N.parent_page_id_ = gpar) (hNmax : N.max_size_ = im)
    (hX : KidsL (fun c lo1 hi1 ls1 ids2 => Rep P lm im true h c par lo1 hi1 ls1 ids2)
      loP X (some kl) lsX idsX)
    (hY : KidsL (fun c lo1 hi1 ls1 ids2 => Rep P lm im true h c par lo1 hi1 ls1 ids2)
      (nextLo Y hiP) Y hiP lsY idsY)
    (hfX : ∀ id ∈ idsX, P1 id = P id) (hfY : ∀ id ∈ idsY, P1 id = P id)
    (hP1 : P1 par = some (.internal { N with array_ := X ++ (kl, l) :: Y }))
    (hl1 : Rep P1 lm im true h l par (if X = [] then loP else some kl) (nextLo Y hiP)
      lsm idsm) :
    Rep P1 lm im false (h + 1) par gpar loP hiP (lsX ++ (lsm ++ lsY))
      (par :: (idsX ++ (idsm ++ idsY))) := by
  refine ⟨{ N with array_ := X ++ (kl, l) :: Y }, _, hP1, hNid, hNpar, hNmax,
    (by simp), fun hf => (by cases hf), ?_, rfl⟩
  refine KidsL_append_intro (KidsL_frame hfX hX) ?_
  exact ⟨Rep_ltB hl1, lsm, lsY, idsm, idsY, rfl, rfl, hl1, KidsL_frame hfY hY⟩

end BPlusTree

namespace BPlusTree

variable {K V : Type}

theorem nodup_pair_facts {par : Int} {X L Y C : List Int}
    (h : ((par :: (X ++ (L ++ Y))) ++ C).Nodup) :
    (par :: L).Nodup ∧ (∀ id ∈ X, id ∉ par :: L) ∧ (∀ id ∈ Y, id ∉ par :: L) ∧
      (∀ id ∈ C, id ∉ par :: L) := by
  obtain ⟨h1, hC, hd1⟩ := nodup_parts h
  obtain ⟨hp, h2⟩ := List.nodup_cons.1 h1
  obtain ⟨hX, h3, hd2⟩ := nodup_parts h2
  obtain ⟨hL, hY, hd3⟩ := nodup_parts h3
  refine ⟨List.nodup_cons.2 ⟨fun hm => hp (by simp [hm]), hL⟩, ?_, ?_, ?_⟩
  · intro id hid hm
    rcases List.mem_cons.1 hm with e | hm
    · exact hp (by rw [← e]; simp [hid])
    · exact hd2 id hid (by simp [hm])
  · intro id hid hm
    rcases List.mem_cons.1 hm with e | hm
    · exact hp (by rw [← e]; simp [hid])
    · exact hd3 id hm hid
  · intro id hid hm
    rcases List.mem_cons.1 hm with e | hm
    · exact hd1 par (by simp) (by rw [← e]; exact hid)
    · exact hd1 id (by simp [hm]) hid

variable [LinearOrder K]

theorem CORPost_of_SameCore {t t2 : Tree K V} (hsc : SameCore t t2) {node : Int}
    {lsAll : List (LeafView K V)} {idsAll : List Int} {res : Tree K V × Bool}
    (h : CORPost t2 node lsAll idsAll res) : CORPost t node lsAll idsAll res := by
  obtain ⟨h1, h2, h3, h4, ls1, ids1, h5, h6⟩ := h
  refine ⟨h1.trans hsc.2.2.2.1, h2.trans hsc.2.2.2.2.1, h3.trans hsc.2.2.1,
    hsc.kind.trans_kind h4, ls1, ids1, ?_, h6⟩
  rw [← hsc.2.2.2.1, ← hsc.2.2.2.2.1]
  exact h5

/-- After a redistribution within a pair the whole tree is well formed. -/
theorem pair_RD_finish {t T : Tree K V} {d h : Nat} {par gpar l r : Int}
    {N : InternalPage K} {X Y : List (K × Int)} {kl kr : K} {loP hiP : Option K}
    {sl sr : Bool} {lsX lsl lsr lsY lsL1 lsR1 : List (LeafView K V)}
    {idsX idsl idsr idsY idsC1 : List Int}
    (pc : PairCtx t d h par gpar l r N X Y kl kr loP hiP sl sr lsX lsl lsr lsY lsL1 lsR1
      idsX idsl idsr idsY idsC1)
    {k1 : K} {lsl1 lsr1 : List (LeafView K V)} {idsl1 idsr1 : List Int}
    (hmeta : SameMeta t T)
    (hTpar : T.pm par = some (.internal { N with array_ := X ++ (kl, l) :: (k1, r) :: Y }))
    (hout : ∀ id, id ∉ par :: (idsl ++ idsr) → T.pm id = t.pm id)
    (hkind : ∀ id, (T.pm id).map kindId = (t.pm id).map kindId)
    (hl1 : Rep T.pm t.leaf_max_size_ t.internal_max_size_ true h l par
      (if X = [] then loP else some kl) (some k1) lsl1 idsl1)
    (hr1 : Rep T.pm t.leaf_max_size_ t.internal_max_size_ true h r par (some k1)
      (nextLo Y hiP) lsr1 idsr1)
    (hperm : (idsl1 ++ idsr1).Perm (idsl ++ idsr))
    (hcont : contents (lsl1 ++ lsr1) = contents (lsl ++ lsr))
    (hlinks : (lsl1 ++ lsr1).map (fun L => (L.id, L.next))
      = (lsl ++ lsr).map (fun L => (L.id, L.next)))
    (node : Int) (Tf : Tree K V) (hsc : SameCore T Tf) :
    CORPost t node (lsL1 ++ (lsX ++ ((lsl ++ lsr) ++ lsY)) ++ lsR1)
      ((par :: (idsX ++ ((idsl ++ idsr) ++ idsY))) ++ idsC1) (Tf, false) := by
  obtain ⟨hnd0, hdX, hdY, hdC⟩ := nodup_pair_facts pc.nodup
  have hrepP := parent_rep_pair pc.pg_id pc.pg_par pc.pg_max pc.kidsX pc.kidsY
    (fun id hid => hout id (hdX id hid)) (fun id hid => hout id (hdY id hid)) hTpar hl1 hr1
  have hctxT : Ctx T.pm _ _ _ _ _ _ _ _ _ _ _ _ :=
    Ctx_frame (fun id hid => hout id (hdC id hid)) pc.ctx
  obtain ⟨ids1, hroot, hp1⟩ := Ctx_plug hctxT hrepP
  have hpermAll : ids1.Perm ((par :: (idsX ++ ((idsl ++ idsr) ++ idsY))) ++ idsC1) := by
    refine hp1.trans (List.Perm.append_right _ (List.Perm.cons _ (List.Perm.append_left _ ?_)))
    rw [← List.append_assoc]
    exact List.Perm.append_right _ hperm
  refine ⟨hsc.2.2.2.1.trans hmeta.2.2.1, hsc.2.2.2.2.1.trans hmeta.2.2.2.1,
    hsc.2.2.1.trans hmeta.2.1, ⟨le_of_eq (hsc.2.2.1.trans hmeta.2.1).symm, fun id _ _ => ?_⟩,
    lsL1 ++ (lsX ++ (lsl1 ++ (lsr1 ++ lsY))) ++ lsR1, ids1, Or.inr ⟨h + 1 + d, ?_⟩, ?_, ?_,
    (hpermAll.nodup_iff).2 pc.nodup, fun id hid => hpermAll.subset hid, ?_,
    fun hf => (by cases hf)⟩
  · show (Tf.pm id).map kindId = _
    rw [hsc.pm]
    exact hkind id
  · show Rep Tf.pm _ _ true _ Tf.root_page_id_ _ _ _ _ _
    rw [hsc.pm, hsc.2.1, hmeta.1]
    exact hroot
  · refine Chain_links INVALID_PAGE_ID ?_ pc.chain
    simp only [List.map_append] at hlinks ⊢
    simp only [List.append_assoc]
    rw [← List.append_assoc (List.map _ lsl1), hlinks, List.append_assoc]
  · simp only [contents_append] at hcont ⊢
    simp only [List.append_assoc]
    rw [← List.append_assoc (contents lsl1), hcont, List.append_assoc]
  · show ∀ id ∈ Tf.deleted_page_set_, id ∉ ids1
    rw [hsc.2.2.2.2.2, hmeta.2.2.2.2, pc.deleted_nil]
    intro id hid
    cases hid

/-- A merge within a pair hands a tree that is well formed around the parent
to the call for the parent. -/
theorem pair_CO {d : Nat} (hrec : CORSpec K V d) {t : Tree K V} {h : Nat}
    {par gpar l r : Int}
    {N : InternalPage K} {X Y : List (K × Int)} {kl kr : K} {loP hiP : Option K}
    {sl sr : Bool} {lsX lsl lsr lsY lsL1 lsR1 : List (LeafView K V)}
    {idsX idsl idsr idsY idsC1 : List Int}
    (pc : PairCtx t d h par gpar l r N X Y kl kr loP hiP sl sr lsX lsl lsr lsY lsL1 lsR1
      idsX idsl idsr idsY idsC1)
    (hs : sl = true ∨ sr = true) (fuel : Nat) :
    (fuel ≤ d ∧
      Coalesce (CoalesceOrRedistribute fuel) t l r par (X.length + 1) = .error .out_of_fuel) ∨
    ∃ t3 b idsNew,
      Coalesce (CoalesceOrRedistribute fuel) t l r par (X.length + 1) = .ok (t3, b) ∧
      r ∉ idsNew ∧
      (∀ id ∈ idsNew, id ∈ (par :: (idsX ++ ((idsl ++ idsr) ++ idsY))) ++ idsC1) ∧
      CORPost t par (lsL1 ++ (lsX ++ ((lsl ++ lsr) ++ lsY)) ++ lsR1) idsNew (t3, b) := by
  obtain ⟨hnd0, hdX, hdY, hdC⟩ := nodup_pair_facts pc.nodup
  obtain ⟨T, lsm, idsm, hrun, hmeta, hTpar, hout, hkind, hl1, hsub, hrm, hcont, hchain⟩ :=
    CO_local (CoalesceOrRedistribute fuel) t par l r N h X Y kl kr _ _ sl sr lsl lsr idsl idsr
      pc.pg pc.arr pc.left pc.right hs pc.ltL pc.ltR hnd0
  have hrepP := parent_rep_one pc.pg_id pc.pg_par pc.pg_max pc.kidsX pc.kidsY
    (fun id hid => hout id (hdX id hid)) (fun id hid => hout id (hdY id hid)) hTpar hl1
  have hctxT : Ctx T.pm _ _ _ _ _ _ _ _ _ _ _ _ :=
    Ctx_frame (fun id hid => hout id (hdC id hid)) pc.ctx
  have hsubAll : ((par :: (idsX ++ (idsm ++ idsY))) ++ idsC1).Sublist
      ((par :: (idsX ++ ((idsl ++ idsr) ++ idsY))) ++ idsC1) :=
    (List.Sublist.cons₂ _ ((List.Sublist.refl _).append
      (hsub.append (List.Sublist.refl _)))).append (List.Sublist.refl _)
  have hndNew : ((par :: (idsX ++ (idsm ++ idsY))) ++ idsC1).Nodup := pc.nodup.sublist hsubAll
  have hrNew : r ∉ (par :: (idsX ++ (idsm ++ idsY))) ++ idsC1 := by
    have hr_in : r ∈ idsr := Rep_pid_mem pc.right
    have hr0 : r ∈ par :: (idsl ++ idsr) := by simp [hr_in]
    intro hm
    rcases List.mem_append.1 hm with hm | hm
    · rcases List.mem_cons.1 hm with e | hm
      · have := (List.nodup_cons.1 hnd0).1
        exact this (by rw [← e]; simp [hr_in])
      · rcases List.mem_append.1 hm with hm | hm
        · exact hdX r hm hr0
        · rcases List.mem_append.1 hm with hm | hm
          · exact hrm hm
          · exact hdY r hm hr0
    · exact hdC r hm hr0
  have hlmT := hmeta.2.2.1
  have himT := hmeta.2.2.2.1
  have hres := hrec fuel T par (h + 1) gpar loP hiP lsL1 lsR1 (lsX ++ (lsm ++ lsY)) idsC1
    (par :: (idsX ++ (idsm ++ idsY)))
    (by rw [hlmT]; exact pc.lm_ge) (by rw [himT]; exact pc.im_ge)
    (hmeta.2.2.2.2.trans pc.deleted_nil)
    (by rw [hlmT, himT, hmeta.1]; exact hctxT)
    (by rw [hlmT, himT]; exact hrepP)
    hndNew
    (fun id hid => by rw [hmeta.2.1]; exact pc.bound id (hsubAll.subset hid))
    (by
      have := hchain (lsL1 ++ lsX) (lsY ++ lsR1) INVALID_PAGE_ID
      have hc := pc.chain
      simp only [List.append_assoc] at this hc ⊢
      exact this hc)
  rcases hres with ⟨hf, herr⟩ | ⟨t3, b, hok, p1, p2, p3, p4, ls1, ids1, q1, q2, q3, q4, q5, q6,
    q7⟩
  · left
    exact ⟨hf, hrun.trans herr⟩
  · right
    refine ⟨t3, b, (par :: (idsX ++ (idsm ++ idsY))) ++ idsC1, hrun.trans hok, hrNew,
      fun id hid => hsubAll.subset hid, p1.trans hlmT, p2.trans himT, p3.trans hmeta.2.1, ?_,
      ls1, ids1, ?_, q2, ?_, q4, q5, q6, q7⟩
    · refine KindPres.trans_kind ⟨le_of_eq hmeta.2.1.symm, fun id _ _ => hkind id⟩ p4
    · rw [← hlmT, ← himT]
      exact q1
    · rw [q3]
      simp only [contents_append] at hcont ⊢
      rw [hcont]

end BPlusTree

namespace BPlusTree

variable {K V : Type} [LinearOrder K]

theorem Rep_strict_of_size {P : Int → Option (TreePage K V)} {lm im : Nat} {s : Bool}
    {h : Nat} {pid par : Int} {lo hi : Option K} {ls : List (LeafView K V)} {ids : List Int}
    (hr : Rep P lm im s h pid par lo hi ls ids) (hlm : 1 ≤ lm) (him : 3 ≤ im)
    (hsz : ∀ nd, P pid = some nd → nd.GetSize ≥ nd.GetMinSize) :
    Rep P lm im true h pid par lo hi ls ids := by
  cases h with
  | zero =>
    obtain ⟨L, h1, h2, h3, h4, h5, h6, h7, h8, h9⟩ := hr
    refine ⟨L, h1, h2, h3, h4, h5, h6, fun _ hn => ?_, h8, h9⟩
    have := hsz _ h1
    simp only [TreePage.GetMinSize, TreePage.GetMaxSize, TreePage.GetSize, LeafPage.GetSize, h4,
      hn, List.length_nil] at this
    have h2 := minSizeOf_pos hlm
    omega
  | succ n =>
    obtain ⟨N, ids1, h1, h2, h3, h4, h5, h6, h7, h8⟩ := hr
    refine ⟨N, ids1, h1, h2, h3, h4, h5, fun _ => ?_, h7, h8⟩
    have := hsz _ h1
    simp only [TreePage.GetMinSize, TreePage.GetMaxSize, TreePage.GetSize,
      InternalPage.GetSize, h4] at this
    have h2 := minSizeOf_two him
    omega

theorem CORPost_mono {t : Tree K V} {node : Int} {lsAll lsAll1 : List (LeafView K V)}
    {idsAll idsAll1 : List Int} {res : Tree K V × Bool}
    (hls : contents lsAll = contents lsAll1) (hids : ∀ id ∈ idsAll, id ∈ idsAll1)
    (h : CORPost t node lsAll idsAll res) : CORPost t node lsAll1 idsAll1 res := by
  obtain ⟨h1, h2, h3, h4, ls1, ids1, h5, h6, h7, h8, h9, h10⟩ := h
  exact ⟨h1, h2, h3, h4, ls1, ids1, h5, h6, h7.trans hls, h8, fun id hid => hids id (h9 id hid),
    h10⟩

/-- The end of `CoalesceOrRedistribute` after a merge: the pages scheduled for
deletion are not part of the tree. -/
theorem CORPost_wrap {t t3 Tf : Tree K V} {par node r : Int} {b flag : Bool}
    {lsAll : List (LeafView K V)} {idsNew idsOld : List Int}
    (hpost : CORPost t par lsAll idsNew (t3, b)) (hr : r ∉ idsNew)
    (hsub : ∀ id ∈ idsNew, id ∈ idsOld)
    (hpm : Tf.pm = t3.pm) (hroot : Tf.root_page_id_ = t3.root_page_id_)
    (hlm : Tf.leaf_max_size_ = t3.leaf_max_size_)
    (him : Tf.internal_max_size_ = t3.internal_max_size_)
    (hnext : Tf.next_page_id_ = t3.next_page_id_)
    (hdel : ∀ id ∈ Tf.deleted_page_set_,
      id ∈ t3.deleted_page_set_ ∨ (id = par ∧ b = true) ∨ id = r)
    (hflag : flag = true → node = r) :
    CORPost t node lsAll idsOld (Tf, flag) := by
  obtain ⟨h1, h2, h3, h4, ls1, ids1, h5, h6, h7, h8, h9, h10, h11⟩ := hpost
  refine ⟨hlm.trans h1, him.trans h2, hnext.trans h3,
    h4.trans_kind (KindPres_of_pm_eq (le_of_eq hnext.symm) hpm), ls1, ids1,
    Settled_of_eq hpm hroot h5, h6, h7, h8, fun id hid => hsub id (h9 id hid), ?_, ?_⟩
  · intro id hid hm
    rcases hdel id hid with hd | ⟨hd, hb⟩ | hd
    · exact h10 id hd hm
    · rw [hd] at hm
      exact h11 hb hm
    · rw [hd] at hm
      exact hr (h9 r hm)
  · intro hf hm
    rw [hflag hf] at hm
    exact hr (h9 r hm)

/-- `CoalesceOrRedistribute` on a page, not the root, that holds enough
entries. -/
theorem COR_enough (fuel d : Nat) (t : Tree K V) (node : Int) (h : Nat) (par : Int)
    (lo hi : Option K) (lsL lsR ls : List (LeafView K V)) (idsC ids : List Int)
    (nd : TreePage K V)
    (hlm : 1 ≤ t.leaf_max_size_) (him : 3 ≤ t.internal_max_size_)
    (hdel : t.deleted_page_set_ = [])
    (hctx : Ctx t.pm t.leaf_max_size_ t.internal_max_size_ t.root_page_id_ d h node par
      lo hi lsL lsR idsC)
    (hrep : Rep t.pm t.leaf_max_size_ t.internal_max_size_ false h node par lo hi ls ids)
    (hnd : (ids ++ idsC).Nodup)
    (hch : Chain (lsL ++ ls ++ lsR) INVALID_PAGE_ID)
    (hP : t.pm node = some nd) (hroot : nd.IsRootPage = false)
    (hsz : nd.GetSize ≥ nd.GetMinSize) :
    ∃ t1 b, CoalesceOrRedistribute (fuel + 1) t node = .ok (t1, b) ∧
      CORPost t node (lsL ++ ls ++ lsR) (ids ++ idsC) (t1, b) := by
  have hstrict := Rep_strict_of_size hrep hlm him (fun nd1 h1 => by
    rw [hP] at h1
    cases h1
    exact hsz)
  obtain ⟨ids1, hr1, hp1⟩ := Ctx_plug hctx hstrict
  have hsc : SameCore t (ReleaseLatchFromQueue t) := SameCore_ReleaseLatchFromQueue _
  refine ⟨_, false, COR_unfold_small fuel t node nd hP hroot hsz, hsc.2.2.2.1, hsc.2.2.2.2.1,
    hsc.2.2.1, hsc.kind, lsL ++ ls ++ lsR, ids1, Or.inr ⟨h + d, ?_⟩, hch, rfl,
    (hp1.nodup_iff).2 hnd, fun id hid => hp1.subset hid, ?_, fun hf => (by cases hf)⟩
  · show Rep (ReleaseLatchFromQueue t).pm _ _ true _ (ReleaseLatchFromQueue t).root_page_id_
      _ _ _ _ _
    rw [hsc.pm, hsc.2.1]
    exact hr1
  · show ∀ id ∈ (ReleaseLatchFromQueue t).deleted_page_set_, id ∉ ids1
    rw [hsc.2.2.2.2.2, hdel]
    intro id hid
    cases hid

end BPlusTree

namespace BPlusTree

variable {K V : Type}

theorem perm_left_pair (par : Int) (ids idsX idss idsB idsC1 : List Int) :
    (ids ++ (par :: ((idsX ++ idss) ++ idsB ++ idsC1))).Perm
      ((par :: (idsX ++ ((idss ++ ids) ++ idsB))) ++ idsC1) := by
  rw [List.perm_iff_count]
  intro x
  simp only [List.count_append, List.count_cons, List.cons_append]
  omega

theorem perm_right_pair (par : Int) (ids idss idsY idsC1 : List Int) :
    (ids ++ (par :: (([] ++ (idss ++ idsY)) ++ idsC1))).Perm
      ((par :: ([] ++ ((ids ++ idss) ++ idsY))) ++ idsC1) := by
  rw [List.perm_iff_count]
  intro x
  simp only [List.count_append, List.count_cons, List.cons_append, List.nil_append]
  omega

theorem AddIntoDeletedPageSet_pm (t : Tree K V) (id : Int) :
    (AddIntoDeletedPageSet t id).pm = t.pm := rfl

variable [LinearOrder K]

theorem PairCtx_of_SameCore {t t2 : Tree K V} (hsc : SameCore t t2) {d h : Nat}
    {par gpar l r : Int}
    {N : InternalPage K} {X Y : List (K × Int)} {kl kr : K} {loP hiP : Option K}
    {sl sr : Bool} {lsX lsl lsr lsY lsL1 lsR1 : List (LeafView K V)}
    {idsX idsl idsr idsY idsC1 : List Int}
    (pc : PairCtx t d h par gpar l r N X Y kl kr loP hiP sl sr lsX lsl lsr lsY lsL1 lsR1
      idsX idsl idsr idsY idsC1) :
    PairCtx t2 d h par gpar l r N X Y kl kr loP hiP sl sr lsX lsl lsr lsY lsL1 lsR1
      idsX idsl idsr idsY idsC1 := by
  obtain ⟨h1, h2, h3, h4, h5, h6⟩ := hsc
  have hpm : t2.pm = t.pm := SameCore.pm ⟨h1, h2, h3, h4, h5, h6⟩
  constructor
  · rw [h4]; exact pc.lm_ge
  · rw [h5]; exact pc.im_ge
  · rw [h6]; exact pc.deleted_nil
  · rw [hpm, h4, h5, h2]; exact pc.ctx
  · rw [hpm]; exact pc.pg
  · exact pc.pg_id
  · exact pc.pg_par
  · rw [h5]; exact pc.pg_max
  · exact pc.arr
  · rw [hpm, h4, h5]; exact pc.kidsX
  · rw [hpm, h4, h5]; exact pc.kidsY
  · rw [hpm, h4, h5]; exact pc.left
  · rw [hpm, h4, h5]; exact pc.right
  · exact pc.ltL
  · exact pc.ltR
  · exact pc.nodup
  · rw [h3]; exact pc.bound
  · exact pc.chain

end BPlusTree

namespace BPlusTree

variable {K V : Type} [LinearOrder K]

/-- `CoalesceOrRedistribute` on an under-full page that has a left sibling. -/
theorem COR_left {d : Nat} (hrec : CORSpec K V d) (f : Nat) (t : Tree K V) (node : Int)
    (h : Nat) (par : Int) (lo hi : Option K) (lsL lsR ls : List (LeafView K V))
    (idsC ids : List Int) (nd : TreePage K V) (N : InternalPage K) (X : List (K × Int))
    (ks : K) (s : Int) (kc : K) (B : List (K × Int)) (gpar : Int) (loP hiP : Option K)
    (lsA lsB lsL1 lsR1 : List (LeafView K V)) (idsA idsB idsC1 : List Int)
    (hlm : 1 ≤ t.leaf_max_size_) (him : 3 ≤ t.internal_max_size_)
    (hdel : t.deleted_page_set_ = [])
    (hrep : Rep t.pm t.leaf_max_size_ t.internal_max_size_ false h node par lo hi ls ids)
    (hnd : (ids ++ idsC).Nodup)
    (hbd : ∀ id ∈ ids ++ idsC, 0 < id ∧ id < t.next_page_id_)
    (hch : Chain (lsL ++ ls ++ lsR) INVALID_PAGE_ID)
    (hP : t.pm node = some nd) (hid : nd.GetPageId = node) (hpar : nd.GetParentPageId = par)
    (hroot : nd.IsRootPage = false) (hsz : ¬ nd.GetSize ≥ nd.GetMinSize)
    (c1 : t.pm par = some (.internal N)) (c2 : N.page_id_ = par)
    (c3 : N.parent_page_id_ = gpar) (c4 : N.max_size_ = t.internal_max_size_)
    (c5 : N.array_ = (X ++ [(ks, s)]) ++ (kc, node) :: B)
    (c7 : lo = some kc) (c8 : hi = nextLo B hiP) (c9 : ltB lo hi)
    (c10 : KidsL (fun c lo1 hi1 ls1 ids2 =>
        Rep t.pm t.leaf_max_size_ t.internal_max_size_ true h c par lo1 hi1 ls1 ids2)
      loP (X ++ [(ks, s)]) lo lsA idsA)
    (c11 : KidsL (fun c lo1 hi1 ls1 ids2 =>
        Rep t.pm t.leaf_max_size_ t.internal_max_size_ true h c par lo1 hi1 ls1 ids2)
      hi B hiP lsB idsB)
    (c12 : Ctx t.pm t.leaf_max_size_ t.internal_max_size_ t.root_page_id_ d (h + 1) par gpar
      loP hiP lsL1 lsR1 idsC1)
    (c13 : lsL = lsL1 ++ lsA) (c14 : lsR = lsB ++ lsR1)
    (c15 : idsC = par :: (idsA ++ idsB ++ idsC1)) :
    (f ≤ d ∧ CoalesceOrRedistribute (f + 1) t node = .error .out_of_fuel) ∨
    ∃ t1 b, CoalesceOrRedistribute (f + 1) t node = .ok (t1, b) ∧
      CORPost t node (lsL ++ ls ++ lsR) (ids ++ idsC) (t1, b) := by
  subst c7 c8 c13 c14 c15
  -- the children of the left part are none of `node`
  have hA : ∀ e ∈ X ++ [(ks, s)], e.2 ≠ node := by
    intro e he e1
    have h1 : e.2 ∈ idsA := KidsL_child_mem (fun _ _ _ _ _ hr => Rep_pid_mem hr) c10 e he
    have h2 : node ∈ ids := Rep_pid_mem hrep
    exact (nodup_parts hnd).2.2 node h2 (by rw [← e1]; simp [h1])
  obtain ⟨lsX, ls2, idsX, i2, e1, e2, hkX, hk2⟩ := KidsL_append_elim c10
  obtain ⟨hlt2, lss, lsn, idss, idsn, e3, e4, hrs, hnil⟩ := hk2
  obtain ⟨rfl, rfl⟩ := hnil
  simp only [List.append_nil] at e3 e4
  subst e3 e4 e1 e2
  have harr : N.array_ = X ++ (ks, s) :: (kc, node) :: B := by
    rw [c5]
    simp
  have hperm := perm_left_pair par ids idsX i2 idsB idsC1
  have pc0 : PairCtx t d h par gpar s node N X B ks kc loP hiP true false lsX ls2 ls lsB
      lsL1 lsR1 idsX i2 ids idsB idsC1 :=
    { lm_ge := hlm
      im_ge := him
      deleted_nil := hdel
      ctx := c12
      pg := c1
      pg_id := c2
      pg_par := c3
      pg_max := c4
      arr := harr
      kidsX := hkX
      kidsY := c11
      left := hrs
      right := hrep
      ltL := Rep_ltB hrs
      ltR := c9
      nodup := (hperm.nodup_iff).1 hnd
      bound := fun id hid => hbd id (hperm.symm.subset hid)
      chain := by
        simp only [List.append_assoc] at hch ⊢
        exact hch }
  have hidx : N.ValueIndex node = X.length + 1 := by
    have := ValueIndex_spec N (X ++ [(ks, s)]) kc node B c5 hA
    rwa [List.length_append, List.length_singleton] at this
  have hval : N.ValueAt X.length = .ok s := ValueAt_mid N X ks s ((kc, node) :: B) harr
  obtain ⟨sn, hsP, hsid, -, -⟩ := Rep_page hrs
  rw [COR_unfold_left f t node par s nd sn N X.length hP hroot hsz hpar hid c1 hidx hval hsP]
  have hsc2 : SameCore t ((t.pin par).pin s) := (SameCore_pin t par).trans (SameCore_pin _ s)
  generalize (t.pin par).pin s = t2 at hsc2 ⊢
  have pc := PairCtx_of_SameCore hsc2 pc0
  have hlsEq : contents (lsL1 ++ (lsX ++ ((ls2 ++ ls) ++ lsB)) ++ lsR1)
      = contents (lsL1 ++ (lsX ++ ls2) ++ ls ++ (lsB ++ lsR1)) := by
    simp only [List.append_assoc]
  by_cases hbig : sn.GetSize > sn.GetMinSize
  · rw [if_pos hbig]
    right
    obtain ⟨T, k1, lsl1, lsr1, idsl1, idsr1, hrun, hmeta, hTpar, hout, hkind, hl1, hr1, hpm1,
      hcont, hlinks⟩ := RD_prev_local t2 par s node N h X B ks kc _ _ false ls2 ls i2 ids
        pc.lm_ge pc.im_ge pc.pg pc.arr pc.left pc.right pc.ltR (nodup_pair_facts pc.nodup).1
        (fun p hp => by
          rw [hsc2.pm, hsP] at hp
          cases hp
          exact hbig)
    rw [hrun]
    simp only [ok_bind]
    refine ⟨_, false, rfl, ?_⟩
    have hpost := pair_RD_finish pc hmeta hTpar hout hkind hl1 hr1 hpm1 hcont hlinks node
      (UnpinPage (UnpinPage (ReleaseLatchFromQueue T) par true) s true)
      (((SameCore_ReleaseLatchFromQueue T).trans (SameCore_UnpinPage _ par true)).trans
        (SameCore_UnpinPage _ s true))
    exact CORPost_mono hlsEq (fun id hid => hperm.symm.subset hid)
      (CORPost_of_SameCore hsc2 hpost)
  · rw [if_neg hbig]
    rcases pair_CO hrec pc (Or.inl rfl) f with ⟨hf, herr⟩ | ⟨t3, b, idsNew, hok, hrN, hsubN,
      hpost⟩
    · left
      exact ⟨hf, by rw [herr]; rfl⟩
    · right
      rw [hok]
      simp only [ok_bind]
      have hparlt : par < t2.next_page_id_ := (pc.bound par (by simp)).2
      obtain ⟨N3, hN3, hN3id⟩ := internalAt_of_kind t3 par (by
        rw [hpost.2.2.2.1.2 par hparlt (by rw [pc.pg]; rfl), pc.pg]
        simp only [Option.map_some', kindId, TreePage.IsLeafPage, TreePage.GetPageId, pc.pg_id])
      rw [internalAt_eq t3 par N3 hN3]
      simp only [ok_bind]
      refine ⟨_, true, rfl, ?_⟩
      have hsc3 : SameCore (if b = true then AddIntoDeletedPageSet t3 N3.page_id_ else t3)
          (UnpinPage (UnpinPage (if b = true then AddIntoDeletedPageSet t3 N3.page_id_ else t3)
            par true) s true) :=
        (SameCore_UnpinPage _ par true).trans (SameCore_UnpinPage _ s true)
      refine CORPost_mono hlsEq (fun id hid => hperm.symm.subset hid)
        (CORPost_of_SameCore hsc2 (CORPost_wrap hpost hrN hsubN ?_ ?_ ?_ ?_ ?_ ?_
          (fun _ => rfl)))
      · rw [hsc3.pm]
        cases b <;> rfl
      · rw [hsc3.2.1]
        cases b <;> rfl
      · rw [hsc3.2.2.2.1]
        cases b <;> rfl
      · rw [hsc3.2.2.2.2.1]
        cases b <;> rfl
      · rw [hsc3.2.2.1]
        cases b <;> rfl
      · rw [hsc3.2.2.2.2.2]
        intro id hid
        cases b with
        | false => exact Or.inl hid
        | true =>
          simp only [if_true, AddIntoDeletedPageSet, List.mem_append, List.mem_singleton] at hid
          rcases hid with hid | hid
          · exact Or.inl hid
          · exact Or.inr (Or.inl ⟨hid.trans hN3id, rfl⟩)

end BPlusTree

namespace BPlusTree

variable {K V : Type} [LinearOrder K]

/-- `CoalesceOrRedistribute` on an under-full page that is the first child of
its parent. -/
theorem COR_right {d : Nat} (hrec : CORSpec K V d) (f : Nat) (t : Tree K V) (node : Int)
    (h : Nat) (par : Int) (lo hi : Option K) (lsL lsR ls : List (LeafView K V))
    (idsC ids : List Int) (nd : TreePage K V) (N : InternalPage K)
    (ks : K) (s : Int) (kc : K) (Y : List (K × Int)) (gpar : Int) (loP hiP : Option K)
    (lsA lsB lsL1 lsR1 : List (LeafView K V)) (idsA idsB idsC1 : List Int)
    (hlm : 1 ≤ t.leaf_max_size_) (him : 3 ≤ t.internal_max_size_)
    (hdel : t.deleted_page_set_ = [])
    (hrep : Rep t.pm t.leaf_max_size_ t.internal_max_size_ false h node par lo hi ls ids)
    (hnd : (ids ++ idsC).Nodup)
    (hbd : ∀ id ∈ ids ++ idsC, 0 < id ∧ id < t.next_page_id_)
    (hch : Chain (lsL ++ ls ++ lsR) INVALID_PAGE_ID)
    (hP : t.pm node = some nd) (hid : nd.GetPageId = node) (hpar : nd.GetParentPageId = par)
    (hroot : nd.IsRootPage = false) (hsz : ¬ nd.GetSize ≥ nd.GetMinSize)
    (c1 : t.pm par = some (.internal N)) (c2 : N.page_id_ = par)
    (c3 : N.parent_page_id_ = gpar) (c4 : N.max_size_ = t.internal_max_size_)
    (c5 : N.array_ = [] ++ (kc, node) :: (ks, s) :: Y)
    (c7 : lo = loP) (c8 : hi = some ks) (c9 : ltB lo hi)
    (c10 : lsA = [] ∧ idsA = [])
    (c11 : KidsL (fun c lo1 hi1 ls1 ids2 =>
        Rep t.pm t.leaf_max_size_ t.internal_max_size_ true h c par lo1 hi1 ls1 ids2)
      hi ((ks, s) :: Y) hiP lsB idsB)
    (c12 : Ctx t.pm t.leaf_max_size_ t.internal_max_size_ t.root_page_id_ d (h + 1) par gpar
      loP hiP lsL1 lsR1 idsC1)
    (c13 : lsL = lsL1 ++ lsA) (c14 : lsR = lsB ++ lsR1)
    (c15 : idsC = par :: (idsA ++ idsB ++ idsC1)) :
    (f ≤ d ∧ CoalesceOrRedistribute (f + 1) t node = .error .out_of_fuel) ∨
    ∃ t1 b, CoalesceOrRedistribute (f + 1) t node = .ok (t1, b) ∧
      CORPost t node (lsL ++ ls ++ lsR) (ids ++ idsC) (t1, b) := by
  obtain ⟨rfl, rfl⟩ := c10
  subst c7 c8 c13 c14 c15
  obtain ⟨hlt2, lss, lsY, idss, idsY, e3, e4, hrs, hkY⟩ := c11
  subst e3 e4
  have hns : node ≠ s := by
    intro e1
    have h1 : s ∈ idss := Rep_pid_mem hrs
    have h2 : node ∈ ids := Rep_pid_mem hrep
    exact (nodup_parts hnd).2.2 node h2 (by rw [e1]; simp [h1])
  have hperm := perm_right_pair par ids idss idsY idsC1
  have pc0 : PairCtx t d h par gpar node s N [] Y kc ks lo hiP false true [] ls lss lsY
      lsL1 lsR1 [] ids idss idsY idsC1 :=
    { lm_ge := hlm
      im_ge := him
      deleted_nil := hdel
      ctx := c12
      pg := c1
      pg_id := c2
      pg_par := c3
      pg_max := c4
      arr := c5
      kidsX := ⟨rfl, rfl⟩
      kidsY := hkY
      left := by
        rw [if_pos rfl]
        exact hrep
      right := hrs
      ltL := by
        rw [if_pos rfl]
        exact c9
      ltR := Rep_ltB hrs
      nodup := (hperm.nodup_iff).1 hnd
      bound := fun id hid => hbd id (hperm.symm.subset hid)
      chain := by
        simp only [List.append_assoc, List.append_nil, List.nil_append] at hch ⊢
        exact hch }
  have hidx : N.ValueIndex node = 0 :=
    ValueIndex_spec N [] kc node ((ks, s) :: Y) c5 (fun e he => by cases he)
  have harr1 : N.array_ = [(kc, node)] ++ (ks, s) :: Y := by
    rw [c5]
    rfl
  have hsidx : N.ValueIndex s = 1 :=
    ValueIndex_spec N [(kc, node)] ks s Y harr1 (fun e he => by
      rw [List.mem_singleton.1 he]
      exact hns)
  have hval : N.ValueAt 1 = .ok s := ValueAt_mid N [(kc, node)] ks s Y harr1
  have hlen : 1 ≠ N.GetSize := by
    simp only [InternalPage.GetSize, c5, List.nil_append, List.length_cons]
    omega
  obtain ⟨sn, hsP, hsid, -, -⟩ := Rep_page hrs
  rw [COR_unfold_right f t node par s nd sn N hP hroot hsz hpar hid c1 hidx hlen hsid hsidx hval
    hsP]
  have hsc2 : SameCore t ((t.pin par).pin s) := (SameCore_pin t par).trans (SameCore_pin _ s)
  generalize (t.pin par).pin s = t2 at hsc2 ⊢
  have pc := PairCtx_of_SameCore hsc2 pc0
  have hlsEq : contents (lsL1 ++ ([] ++ ((ls ++ lss) ++ lsY)) ++ lsR1)
      = contents (lsL1 ++ [] ++ ls ++ (lss ++ lsY ++ lsR1)) := by
    simp only [List.append_assoc, List.append_nil, List.nil_append]
  by_cases hbig : sn.GetSize > sn.GetMinSize
  · rw [if_pos hbig]
    right
    obtain ⟨T, k1, lsl1, lsr1, idsl1, idsr1, hrun, hmeta, hTpar, hout, hkind, hl1, hr1, hpm1,
      hcont, hlinks⟩ := RD_next_local t2 par node s N h [] Y kc ks _ _ false ls lss ids idss
        pc.lm_ge pc.im_ge pc.pg pc.arr pc.left pc.right pc.ltL (nodup_pair_facts pc.nodup).1
        (fun p hp => by
          rw [hsc2.pm, hsP] at hp
          cases hp
          exact hbig)
    rw [List.length_nil] at hrun
    rw [hrun]
    simp only [ok_bind]
    refine ⟨_, false, rfl, ?_⟩
    have hpost := pair_RD_finish pc hmeta hTpar hout hkind hl1 hr1 hpm1 hcont hlinks node
      (UnpinPage (UnpinPage (ReleaseLatchFromQueue T) par true) s true)
      (((SameCore_ReleaseLatchFromQueue T).trans (SameCore_UnpinPage _ par true)).trans
        (SameCore_UnpinPage _ s true))
    exact CORPost_mono hlsEq (fun id hid => hperm.symm.subset hid)
      (CORPost_of_SameCore hsc2 hpost)
  · rw [if_neg hbig]
    rcases pair_CO hrec pc (Or.inr rfl) f with ⟨hf, herr⟩ | ⟨t3, b, idsNew, hok, hrN, hsubN,
      hpost⟩
    · left
      rw [List.length_nil, Nat.zero_add] at herr
      exact ⟨hf, by rw [herr]; rfl⟩
    · right
      rw [List.length_nil, Nat.zero_add] at hok
      rw [hok]
      simp only [ok_bind]
      have hparlt : par < t2.next_page_id_ := (pc.bound par (by simp)).2
      have hslt : s < t2.next_page_id_ :=
        (pc.bound s (by simp [Rep_pid_mem hrs])).2
      obtain ⟨N3, hN3, hN3id⟩ := internalAt_of_kind t3 par (by
        rw [hpost.2.2.2.1.2 par hparlt (by rw [pc.pg]; rfl), pc.pg]
        simp only [Option.map_some', kindId, TreePage.IsLeafPage, TreePage.GetPageId, pc.pg_id])
      have hs3 : (t3.pm s).map kindId = some (kindId sn) := by
        rw [hpost.2.2.2.1.2 s hslt (by rw [hsc2.pm, hsP]; rfl), hsc2.pm, hsP]
        rfl
      cases hs3P : t3.pm s with
      | none =>
        rw [hs3P] at hs3
        cases hs3
      | some s1 =>
        rw [hs3P] at hs3
        have hs1id : s1.GetPageId = s := by
          simp only [Option.map_some', Option.some.injEq, kindId, Prod.mk.injEq] at hs3
          exact hs3.2.trans hsid
        rw [pageAt_eq t3 s s1 hs3P]
        simp only [ok_bind]
        rw [internalAt_eq (AddIntoDeletedPageSet t3 s1.GetPageId) par N3 hN3]
        simp only [ok_bind]
        refine ⟨_, false, rfl, ?_⟩
        generalize hT4 : (if b = true then
            AddIntoDeletedPageSet (AddIntoDeletedPageSet t3 s1.GetPageId) N3.page_id_
          else AddIntoDeletedPageSet t3 s1.GetPageId) = T4
        have hsc3 : SameCore T4 (UnpinPage (UnpinPage T4 par true) s true) :=
          (SameCore_UnpinPage _ par true).trans (SameCore_UnpinPage _ s true)
        refine CORPost_mono hlsEq (fun id hid => hperm.symm.subset hid)
          (CORPost_of_SameCore hsc2 (CORPost_wrap hpost hrN hsubN ?_ ?_ ?_ ?_ ?_ ?_
            (fun hf => by cases hf)))
        · rw [hsc3.pm, ← hT4]
          cases b <;> rfl
        · rw [hsc3.2.1, ← hT4]
          cases b <;> rfl
        · rw [hsc3.2.2.2.1, ← hT4]
          cases b <;> rfl
        · rw [hsc3.2.2.2.2.1, ← hT4]
          cases b <;> rfl
        · rw [hsc3.2.2.1, ← hT4]
          cases b <;> rfl
        · rw [hsc3.2.2.2.2.2, ← hT4]
          intro id hid
          cases b with
          | false =>
            simp only [Bool.false_eq_true, if_false, AddIntoDeletedPageSet, List.mem_append,
              List.mem_singleton] at hid
            rcases hid with hid | hid
            · exact Or.inl hid
            · exact Or.inr (Or.inr (hid.trans hs1id))
          | true =>
            simp only [if_true, AddIntoDeletedPageSet, List.mem_append,
              List.mem_singleton] at hid
            rcases hid with (hid | hid) | hid
            · exact Or.inl hid
            · exact Or.inr (Or.inr (hid.trans hs1id))
            · exact Or.inr (Or.inl ⟨hid.trans hN3id, rfl⟩)

end BPlusTree

namespace BPlusTree

variable {K V : Type} [LinearOrder K]

theorem CORSpec_succ {d : Nat} (hrec : CORSpec K V d) : CORSpec K V (d + 1) := by
  intro fuel t node h par lo hi lsL lsR ls idsC ids hlm him hdel hctx hrep hnd hbd hch
  cases fuel with
  | zero => exact Or.inl ⟨Nat.zero_le _, rfl⟩
  | succ f =>
    obtain ⟨nd, hP, hid, hpar, -⟩ := Rep_page hrep
    have hctx0 := hctx
    unfold Ctx at hctx
    obtain ⟨N, A, kc, B, gpar, loP, hiP, lsA, lsB, lsL1, lsR1, idsA, idsB, idsC1, c1, c2, c3, c4,
      c5, c6, c7, c8, c9, c10, c11, c12, c13, c14, c15⟩ := hctx
    have hparpos : 0 < par := (hbd par (by rw [c15]; simp)).1
    have hroot : nd.IsRootPage = false := by
      simp only [TreePage.IsRootPage, hpar, decide_eq_false_iff_not]
      intro e
      rw [e] at hparpos
      exact absurd hparpos (by decide)
    have hconv : ∀ {res : Except Err (Tree K V × Bool)},
        ((f ≤ d ∧ res = .error .out_of_fuel) ∨
          ∃ t1 b, res = .ok (t1, b) ∧ CORPost t node (lsL ++ ls ++ lsR) (ids ++ idsC) (t1, b)) →
        (f + 1 ≤ d + 1 ∧ res = .error .out_of_fuel) ∨
          ∃ t1 b, res = .ok (t1, b) ∧
            t1.leaf_max_size_ = t.leaf_max_size_ ∧
            t1.internal_max_size_ = t.internal_max_size_ ∧
            t1.next_page_id_ = t.next_page_id_ ∧ KindPres t t1 ∧
            ∃ ls1 ids1, Settled t1 t.leaf_max_size_ t.internal_max_size_ ls1 ids1 ∧
              Chain ls1 INVALID_PAGE_ID ∧ contents ls1 = contents (lsL ++ ls ++ lsR) ∧
              ids1.Nodup ∧ (∀ id ∈ ids1, id ∈ ids ++ idsC) ∧
              (∀ id ∈ t1.deleted_page_set_, id ∉ ids1) ∧ (b = true → node ∉ ids1) := by
      intro res hres
      rcases hres with ⟨hf, he⟩ | ⟨t1, b, hok, hpost⟩
      · exact Or.inl ⟨Nat.succ_le_succ hf, he⟩
      · exact Or.inr ⟨t1, b, hok, hpost⟩
    apply hconv
    by_cases hsz : nd.GetSize ≥ nd.GetMinSize
    · exact Or.inr (COR_enough f (d + 1) t node h par lo hi lsL lsR ls idsC ids nd hlm him hdel
        hctx0 hrep hnd hch hP hroot hsz)
    · rcases List.eq_nil_or_concat A with hA | ⟨X, ⟨ks, s⟩, hA⟩
      · subst hA
        rw [if_pos rfl] at c7
        cases B with
        | nil =>
          rw [c5] at c6
          simp at c6
        | cons e Y =>
          obtain ⟨ks, s⟩ := e
          exact COR_right hrec f t node h par lo hi lsL lsR ls idsC ids nd N ks s kc Y gpar loP
            hiP lsA lsB lsL1 lsR1 idsA idsB idsC1 hlm him hdel hrep hnd hbd hch hP hid hpar
            hroot hsz c1 c2 c3 c4 c5 c7 c8 c9 c10 c11 c12 c13 c14 c15
      · rw [List.concat_eq_append] at hA
        subst hA
        rw [if_neg (by simp)] at c7
        exact COR_left hrec f t node h par lo hi lsL lsR ls idsC ids nd N X ks s kc B gpar loP
          hiP lsA lsB lsL1 lsR1 idsA idsB idsC1 hlm him hdel hrep hnd hbd hch hP hid hpar
          hroot hsz c1 c2 c3 c4 c5 c7 c8 c9 c10 c11 c12 c13 c14 c15

/-- `CoalesceOrRedistribute` meets its specification at every depth. -/
theorem CoalesceOrRedistribute_spec : ∀ d, CORSpec K V d
  | 0 => COR_root
  | d + 1 => CORSpec_succ (CoalesceOrRedistribute_spec d)

end BPlusTree

namespace BPlusTree

variable {K V : Type}

theorem DeletePage_pm (t : Tree K V) (id id1 : Int) (h : id1 ≠ id) :
    (DeletePage t id).pm id1 = t.pm id1 := by
  unfold DeletePage
  split
  · rfl
  · show UMap.find (UMap.erase t.pages_ id) id1 = UMap.find t.pages_ id1
    rw [UMap.find_erase, if_neg h]

theorem DeletePage_meta (t : Tree K V) (id : Int) :
    (DeletePage t id).root_page_id_ = t.root_page_id_ ∧
    (DeletePage t id).next_page_id_ = t.next_page_id_ ∧
    (DeletePage t id).leaf_max_size_ = t.leaf_max_size_ ∧
    (DeletePage t id).internal_max_size_ = t.internal_max_size_ := by
  unfold DeletePage
  split <;> exact ⟨rfl, rfl, rfl, rfl⟩

theorem foldl_DeletePage (dl : List Int) (t : Tree K V) :
    (dl.foldl DeletePage t).root_page_id_ = t.root_page_id_ ∧
    (dl.foldl DeletePage t).next_page_id_ = t.next_page_id_ ∧
    (dl.foldl DeletePage t).leaf_max_size_ = t.leaf_max_size_ ∧
    (dl.foldl DeletePage t).internal_max_size_ = t.internal_max_size_ ∧
    ∀ id, id ∉ dl → (dl.foldl DeletePage t).pm id = t.pm id := by
  induction dl generalizing t with
  | nil => exact ⟨rfl, rfl, rfl, rfl, fun _ _ => rfl⟩
  | cons a rest ih =>
    obtain ⟨h1, h2, h3, h4, h5⟩ := ih (DeletePage t a)
    obtain ⟨m1, m2, m3, m4⟩ := DeletePage_meta t a
    refine ⟨h1.trans m1, h2.trans m2, h3.trans m3, h4.trans m4, fun id hid => ?_⟩
    rw [List.foldl_cons, h5 id (fun hm => hid (List.mem_cons_of_mem _ hm)),
      DeletePage_pm t a id (fun e => hid (by rw [e]; exact List.mem_cons_self _ _))]

theorem filter_eq_self_of_length {α : Type} (p : α → Bool) (l : List α)
    (h : l.length = (l.filter p).length) : l.filter p = l := by
  induction l with
  | nil => rfl
  | cons a rest ih =>
    by_cases ha : p a = true
    · rw [List.filter_cons_of_pos ha] at h ⊢
      simp only [List.length_cons, Nat.add_right_cancel_iff] at h
      rw [ih h]
    · rw [List.filter_cons_of_neg ha] at h
      have := List.length_filter_le p rest
      simp only [List.length_cons] at h
      omega

end BPlusTree

namespace BPlusTree

variable {K V : Type} [LinearOrder K]

theorem TreeInv_of_SameCore {t t1 : Tree K V} (hsc : SameCore t t1)
    {ls : List (LeafView K V)} (hinv : TreeInv t ls) : TreeInv t1 ls := by
  refine ⟨by rw [hsc.2.2.2.1]; exact hinv.lm_ge, by rw [hsc.2.2.2.2.1]; exact hinv.im_ge,
    hsc.2.2.2.2.2.trans hinv.deleted_nil, by rw [hsc.2.2.1]; exact hinv.next_pos, ?_⟩
  rcases hinv.shape with ⟨h1, h2⟩ | ⟨hw, hch⟩
  · exact Or.inl ⟨hsc.2.1.trans h1, h2⟩
  · exact Or.inr ⟨WellFormed_of_SameCore hsc hw, hch⟩

/-- `Remove` keeps the invariant and takes the key out of the leaves. With
fuel above a bound that depends on the tree only, it returns. -/
theorem Remove_keeps_inv (key : K) (t : Tree K V) (ls : List (LeafView K V))
    (hinv : TreeInv t ls) (hfree : t.rootLatchHeld = false) :
    ∃ n, ∀ fuel,
      (fuel ≤ n ∧ Remove fuel t key = .error .out_of_fuel) ∨
      ∃ t1 ls1, Remove fuel t key = .ok t1 ∧ TreeInv t1 ls1 ∧
        ∀ k, lookupKV (contents ls1) k = if k = key then none else lookupKV (contents ls) k := by
  rcases hinv.shape with ⟨hroot, hls⟩ | ⟨hw, hch⟩
  · -- the empty tree
    refine ⟨0, fun fuel => Or.inr ?_⟩
    subst hls
    have hemp : IsEmpty (AddIntoPageSet t none) = true := by
      simp [IsEmpty, AddIntoPageSet, hroot]
    have hsc : SameCore t (ReleaseLatchFromQueue (AddIntoPageSet t none)) :=
      (SameCore_AddIntoPageSet t none).trans (SameCore_ReleaseLatchFromQueue _)
    refine ⟨_, [], ?_, TreeInv_of_SameCore hsc hinv, fun k => ?_⟩
    · rw [Remove_free hfree]
      simp only [hemp, if_true]
      rfl
    · split <;> rfl
  -- a tree with pages
  have hsc0 : SameCore t (AddIntoPageSet t none) := SameCore_AddIntoPageSet t none
  have hinv0 := TreeInv_of_SameCore hsc0 hinv
  have hw0 := WellFormed_of_SameCore hsc0 hw
  have hemp : IsEmpty (AddIntoPageSet t none) = false := by
    have := WellFormed_not_empty hw0
    simp [IsEmpty, this]
  obtain ⟨h, ids, hr, hnd, hbd⟩ := hw0
  refine ⟨h, fun fuel => ?_⟩
  rw [Remove_free hfree]
  simp only [hemp, Bool.false_eq_true, if_false]
  generalize AddIntoPageSet t none = t0 at hsc0 hinv0 hemp hr hnd hbd ⊢
  rcases FindLeaf_spec .DELETE key fuel t0 h ls ids hr (fun id hid => (hbd id hid).1) with
    ⟨hf, herr⟩ | ⟨t1, leaf, parL, loL, hiL, lsL1, lsR1, idsC1, L, hok, hsc, hc, hrl, hinl, hls,
      hperm⟩
  · left
    refine ⟨Nat.le_of_lt hf, ?_⟩
    rw [herr]
    rfl
  obtain ⟨hnd1, hbd1⟩ := perm_nodup_bound hperm hnd hbd
  have hrl0 := hrl
  obtain ⟨Lp, hLp, hid, hpar, hmax, hsorted, hbnd, hne, hview, -⟩ := hrl
  have hLp1 : t1.pm leaf = some (.leaf Lp) := by rw [hsc.pm]; exact hLp
  have hLv : L = ⟨leaf, Lp.next_page_id_, Lp.array_⟩ := by simpa using hview
  have hlk : lookupKV (contents ls) key = lookupKV Lp.array_ key := by
    rw [hls, lookupKV_focus hc key hinl [L], contents_singleton, hLv]
  rw [hok]
  simp only [ok_bind, leafAt_eq t1 leaf Lp hLp1, LeafPage.RemoveAndDeleteRecord,
    LeafPage.GetSize]
  generalize harr : Lp.array_.filter (fun it => decide (¬ it.1 = key)) = arr
  have hfl : ∀ k, lookupKV arr k = if k = key then none else lookupKV Lp.array_ k := by
    intro k
    rw [← harr]
    exact lookupKV_filter Lp.array_ key k
  have hpost : ∀ X : List (LeafView K V), contents X = arr →
      ∀ k, lookupKV (contents (lsL1 ++ X ++ lsR1)) k
        = if k = key then none else lookupKV (contents ls) k := by
    intro X hX k
    by_cases hk : k = key
    · rw [if_pos hk, hk, lookupKV_focus hc key hinl X, hX, hfl, if_pos rfl]
    · rw [if_neg hk, hls]
      apply lookupKV_around
      rw [hX, hfl, if_neg hk, contents_singleton, hLv]
  by_cases hsame : Lp.array_.length = arr.length
  · right
    rw [if_pos hsame]
    have harr1 : arr = Lp.array_ := by
      rw [← harr] at hsame ⊢
      exact filter_eq_self_of_length _ _ hsame
    have hset : t1.setPage leaf (.leaf { Lp with array_ := arr }) = t1 := by
      rw [harr1]
      exact setPage_same t1 leaf _ hLp1
    rw [hset]
    have hsc2 : SameCore t (UnpinPage (ReleaseLatchFromQueue t1) leaf false) :=
      ((hsc0.trans hsc).trans (SameCore_ReleaseLatchFromQueue _)).trans
        (SameCore_UnpinPage _ _ _)
    refine ⟨_, ls, rfl, TreeInv_of_SameCore hsc2 hinv, fun k => ?_⟩
    by_cases hk : k = key
    · rw [if_pos hk, hk, hlk, ← harr1, hfl, if_pos rfl]
    · rw [if_neg hk]
  rw [if_neg hsame]
  have hsorted1 : (arr.map Prod.fst).Pairwise (· < ·) := by
    rw [← harr]
    exact hsorted.sublist ((List.filter_sublist _).map _)
  have hbnd1 : ∀ e ∈ arr, inB loL hiL e.1 := by
    intro e he
    rw [← harr] at he
    exact hbnd e (List.mem_filter.1 he).1
  generalize hT2 : t1.setPage leaf (.leaf { Lp with array_ := arr }) = T2
  have hT2pm : ∀ id, T2.pm id = if id = leaf then some (.leaf { Lp with array_ := arr })
      else t0.pm id := by
    intro id
    rw [← hT2, pm_setPage, hsc.pm]
  have hT2m : SameMeta t0 T2 := by
    rw [← hT2]
    exact hsc.meta.trans_meta (SameMeta_setPage _ _ _)
  obtain ⟨hc2, hrl2, -⟩ := leaf_update arr false hc hrl0 hLp hnd1 hT2pm hsorted1 hbnd1
    (fun hf => by cases hf)
  have hch2 : Chain (lsL1 ++ [⟨leaf, Lp.next_page_id_, arr⟩] ++ lsR1) INVALID_PAGE_ID := by
    rw [hls] at hch
    exact Chain_replace (a := L) hch (by rw [hLv]) (by rw [hLv])
  have hlmT := hT2m.2.2.1
  have himT := hT2m.2.2.2.1
  rcases CoalesceOrRedistribute_spec h fuel T2 leaf 0 parL loL hiL lsL1 lsR1
      [⟨leaf, Lp.next_page_id_, arr⟩] idsC1 [leaf]
      (by rw [hlmT]; exact hinv0.lm_ge) (by rw [himT]; exact hinv0.im_ge)
      (hT2m.2.2.2.2.trans hinv0.deleted_nil)
      (by rw [hlmT, himT, hT2m.1]; exact hc2)
      (by rw [hlmT, himT]; exact hrl2)
      hnd1 (fun id hid => by rw [hT2m.2.1]; exact hbd1 id hid) hch2 with
    ⟨hf, herr⟩ | ⟨t3, b, hok3, p1, p2, p3, p4, ls1, ids1, q1, q2, q3, q4, q5, q6, q7⟩
  · left
    refine ⟨hf, ?_⟩
    rw [herr]
    rfl
  right
  rw [hok3]
  simp only [ok_bind]
  have hleaflt : leaf < T2.next_page_id_ := by
    rw [hT2m.2.1]
    exact (hbd1 leaf (List.mem_cons_self _ _)).2
  obtain ⟨L3, hL3, hL3id⟩ := leafAt_of_kind t3 leaf (by
    rw [p4.2 leaf hleaflt (by rw [hT2pm, if_pos rfl]; rfl), hT2pm, if_pos rfl]
    simp only [Option.map_some', kindId, TreePage.IsLeafPage, TreePage.GetPageId, hid])
  rw [leafAt_eq t3 leaf L3 hL3]
  simp only [ok_bind]
  generalize hT4 : (if b = true then AddIntoDeletedPageSet t3 L3.page_id_ else t3) = T4
  have hT4m : T4.pm = t3.pm ∧ T4.root_page_id_ = t3.root_page_id_ ∧
      T4.next_page_id_ = t3.next_page_id_ ∧ T4.leaf_max_size_ = t3.leaf_max_size_ ∧
      T4.internal_max_size_ = t3.internal_max_size_ ∧
      ∀ id ∈ T4.deleted_page_set_, id ∈ t3.deleted_page_set_ ∨ (id = leaf ∧ b = true) := by
    rw [← hT4]
    cases b with
    | false => exact ⟨rfl, rfl, rfl, rfl, rfl, fun id hid => Or.inl hid⟩
    | true =>
      refine ⟨rfl, rfl, rfl, rfl, rfl, fun id hid => ?_⟩
      simp only [if_true, AddIntoDeletedPageSet, List.mem_append, List.mem_singleton] at hid
      rcases hid with hid | hid
      · exact Or.inl hid
      · exact Or.inr ⟨hid.trans hL3id, rfl⟩
  have hsc5 : SameCore T4 (UnpinPage T4 leaf true) := SameCore_UnpinPage _ _ _
  generalize UnpinPage T4 leaf true = T5 at hsc5 ⊢
  obtain ⟨f1, f2, f3, f4, f5⟩ := foldl_DeletePage T5.deleted_page_set_ T5
  generalize T5.deleted_page_set_.foldl DeletePage T5 = T6 at f1 f2 f3 f4 f5 ⊢
  have hnotdel : ∀ id ∈ ids1, id ∉ T5.deleted_page_set_ := by
    intro id hid hm
    rw [hsc5.2.2.2.2.2] at hm
    rcases hT4m.2.2.2.2.2 id hm with hd | ⟨hd, hb⟩
    · exact q6 id hd hid
    · rw [hd] at hid
      exact q7 hb hid
  have hlm6 : T6.leaf_max_size_ = t.leaf_max_size_ :=
    ((((f3.trans hsc5.2.2.2.1).trans hT4m.2.2.2.1).trans p1).trans hlmT).trans hsc0.2.2.2.1
  have him6 : T6.internal_max_size_ = t.internal_max_size_ :=
    ((((f4.trans hsc5.2.2.2.2.1).trans hT4m.2.2.2.2.1).trans p2).trans himT).trans
      hsc0.2.2.2.2.1
  have hnext6 : T6.next_page_id_ = t0.next_page_id_ :=
    (((f2.trans hsc5.2.2.1).trans hT4m.2.2.1).trans p3).trans hT2m.2.1
  have hroot6 : T6.root_page_id_ = t3.root_page_id_ :=
    (f1.trans hsc5.2.1).trans hT4m.2.1
  refine ⟨_, ls1, rfl, ⟨?_, ?_, rfl, ?_, ?_⟩, fun k => ?_⟩
  · show 1 ≤ T6.leaf_max_size_
    rw [hlm6]
    exact hinv.lm_ge
  · show 3 ≤ T6.internal_max_size_
    rw [him6]
    exact hinv.im_ge
  · show 0 < T6.next_page_id_
    rw [hnext6]
    exact hinv0.next_pos
  · rcases q1 with ⟨r1, r2, r3⟩ | ⟨h1, hrep1⟩
    · exact Or.inl ⟨hroot6.trans r1, r2⟩
    · refine Or.inr ⟨⟨h1, ids1, ?_, q4, fun id hid => ?_⟩, q2⟩
      · show Rep T6.pm T6.leaf_max_size_ T6.internal_max_size_ true h1 T6.root_page_id_ _ _ _ _ _
        rw [hroot6, hlm6, him6, ← hsc0.2.2.2.1, ← hsc0.2.2.2.2.1, ← hlmT, ← himT]
        refine Rep_frame (fun id hid => ?_) hrep1
        rw [f5 id (hnotdel id hid), hsc5.pm, hT4m.1]
      · show 0 < id ∧ id < T6.next_page_id_
        rw [hnext6]
        exact hbd1 id (q5 id hid)
  · rw [q3]
    exact hpost _ (contents_singleton _) k

end BPlusTree

namespace BPlusTree

variable {K V : Type} [LinearOrder K] [Inhabited K]

omit [Inhabited K] in
theorem TreeInv_new (lm im : Nat) (hlm : 1 ≤ lm) (him : 3 ≤ im) :
    TreeInv (Tree.new lm im : Tree K V) [] :=
  ⟨hlm, him, rfl, Int.one_pos, Or.inl ⟨rfl, rfl⟩⟩

/-- Every run of calls that returns keeps the invariant, and the leaves hold
for each key what the calls leave for it. -/
theorem run_keeps_inv (ops : List (Op K V)) : ∀ (fuel : Nat) (t t1 : Tree K V)
    (ls : List (LeafView K V)), TreeInv t ls → run fuel t ops = .ok t1 →
    ∃ ls1, TreeInv t1 ls1 ∧
      ∀ k, lookupKV (contents ls1) k = ops.foldl (applyOp k) (lookupKV (contents ls) k) := by
  induction ops with
  | nil =>
    intro fuel t t1 ls hinv hrun
    simp only [run, Except.ok.injEq] at hrun
    subst hrun
    exact ⟨ls, hinv, fun k => rfl⟩
  | cons op rest ih =>
    intro fuel t t1 ls hinv hrun
    cases op with
    | insert key value =>
      have hfree : t.rootLatchHeld = false := by
        cases hI : Insert fuel t key value with
        | error e => simp only [run, hI] at hrun; cases hrun
        | ok x => exact Insert_unlatched hI
      obtain ⟨n, hspec⟩ := Insert_keeps_inv key value t ls hinv hfree
      rcases hspec fuel with ⟨-, herr⟩ | ⟨t2, ls2, hok, hinv2, hlk, -⟩
      · simp only [run, herr] at hrun
        cases hrun
      · simp only [run, hok] at hrun
        obtain ⟨ls1, hinv1, hlk1⟩ := ih fuel t2 t1 ls2 hinv2 hrun
        refine ⟨ls1, hinv1, fun k => ?_⟩
        rw [hlk1 k, List.foldl_cons, hlk k]
        congr 1
        simp only [applyOp]
        by_cases hk : k = key
        · rw [if_pos hk, if_pos hk.symm, hk]
        · rw [if_neg hk, if_neg (fun e => hk e.symm)]
    | remove key =>
      have hfree : t.rootLatchHeld = false := by
        cases hR : Remove fuel t key with
        | error e => simp only [run, hR] at hrun; cases hrun
        | ok x => exact Remove_unlatched hR
      obtain ⟨n, hspec⟩ := Remove_keeps_inv key t ls hinv hfree
      rcases hspec fuel with ⟨-, herr⟩ | ⟨t2, ls2, hok, hinv2, hlk⟩
      · simp only [run, herr] at hrun
        cases hrun
      · simp only [run, hok] at hrun
        obtain ⟨ls1, hinv1, hlk1⟩ := ih fuel t2 t1 ls2 hinv2 hrun
        refine ⟨ls1, hinv1, fun k => ?_⟩
        rw [hlk1 k, List.foldl_cons, hlk k]
        congr 1
        simp only [applyOp]
        by_cases hk : k = key
        · rw [if_pos hk, if_pos hk.symm]
        · rw [if_neg hk, if_neg (fun e => hk e.symm)]

/-- A tree reached from the empty tree by calls of `Insert` and `Remove`
satisfies the invariant, with leaves that hold what the calls leave. -/
theorem reachable_inv (lm im : Nat) (hlm : 1 ≤ lm) (him : 3 ≤ im) (ops : List (Op K V))
    (fuel : Nat) (t : Tree K V) (hrun : run fuel (Tree.new lm im) ops = .ok t) :
    ∃ ls, TreeInv t ls ∧ ∀ k, lookupKV (contents ls) k = expected k ops := by
  obtain ⟨ls, hinv, hlk⟩ := run_keeps_inv ops fuel _ t [] (TreeInv_new lm im hlm him) hrun
  exact ⟨ls, hinv, fun k => by rw [hlk k]; rfl⟩

end BPlusTree

namespace BPlusTree

variable {K V : Type}

variable [LinearOrder K]

end BPlusTree

namespace BPlusTree

variable {K V : Type} [LinearOrder K] [Inhabited K]

omit [Inhabited K] in
/-- `GetValue` on a tree with pages that satisfies the invariant. -/
theorem GetValue_inv (t : Tree K V) (ls : List (LeafView K V))
    (hinv : TreeInv t ls) (hne : t.root_page_id_ ≠ INVALID_PAGE_ID)
    (hfree : t.rootLatchHeld = false) :
    ∃ n, ∀ fuel, n < fuel → ∀ key,
      ∃ t1, GetValue fuel t key = .ok (t1, lookupKV (contents ls) key) ∧ SameCore t t1 := by
  rcases hinv.shape with ⟨hroot, -⟩ | ⟨⟨h, ids, hr, hnd, hbd⟩, -⟩
  · exact absurd hroot hne
  · refine ⟨h, fun fuel hf key => ?_⟩
    rcases GetValue_spec key fuel t h ls ids hr (fun id hid => (hbd id hid).1) hfree with
      ⟨hlt, -⟩ | hok
    · omega
    · exact hok

end BPlusTree

namespace BPlusTree

variable {K V : Type}

theorem FetchPage_ok {t t1 : Tree K V} {id : Int} {p : TreePage K V}
    (h : FetchPage t id = .ok (t1, p)) : t1 = t.pin id := by
  unfold FetchPage at h
  split at h
  · simp only [Except.ok.injEq, Prod.mk.injEq] at h
    exact h.1.symm
  · cases h

variable [LinearOrder K]

end BPlusTree

namespace BPlusTree

variable {K V : Type} [LinearOrder K] [Inhabited K]

end BPlusTree

namespace LRUKReplacer

theorem EarliestBelowMax_of_lift {r r1 : Replacer} (h : EarliestBelowMax r)
    (hl : ∀ g info, UMap.find r1.frame_table_ g = some info →
      ∃ info0, UMap.find r.frame_table_ g = some info0 ∧
        info.earliest_time = info0.earliest_time) : EarliestBelowMax r1 := by
  intro g info hgi
  obtain ⟨i0, h0, he⟩ := hl g info hgi
  rw [he]; exact h g i0 h0

theorem EarliestBelowMax_RemoveFrame {r : Replacer} (h : EarliestBelowMax r) (f : Int) :
    EarliestBelowMax (RemoveFrame r f) := by
  apply EarliestBelowMax_of_lift h
  intro g info hgi
  rw [RemoveFrame_table, UMap.find_erase] at hgi
  by_cases e : g = f
  · rw [if_pos e] at hgi; cases hgi
  · rw [if_neg e] at hgi; exact ⟨info, hgi, rfl⟩

theorem EarliestBelowMax_step {r : Replacer} (h : EarliestBelowMax r) (op : Op)
    (hc : ∀ t ∈ timestamps [op], t < TIME_MAX) : EarliestBelowMax (step r op) := by
  cases op with
  | access f t =>
    simp only [step]
    by_cases hg : castSizeT f ≥ r.replacer_size_
    · have : RecordAccess r f t = r := by unfold RecordAccess; rw [if_pos hg]
      rw [this]; exact h
    · intro g info hgi
      rw [RecordAccess_table r f t hg, UMap.find_put] at hgi
      by_cases e : g = f
      · rw [if_pos e] at hgi
        injection hgi with hgi
        subst hgi
        simp only []
        by_cases h1 : ((r.tableAt f).history ++ [t]).length = 1
        · rw [if_pos h1]; exact hc t (by simp [timestamps])
        · rw [if_neg h1]
          cases hh : (r.tableAt f).history with
          | nil => rw [hh] at h1; simp at h1
          | cons a l => exact h f _ (tableAt_history_nonempty r f a l hh)
      · rw [if_neg e] at hgi
        exact h g info hgi
  | setEvictable f b =>
    simp only [step]
    apply EarliestBelowMax_of_lift h
    intro g info hgi
    rw [SetEvictable_find] at hgi
    by_cases e : g = f
    · rw [if_pos e] at hgi
      cases hf : UMap.find r.frame_table_ f with
      | none => rw [hf] at hgi; cases hgi
      | some i0 =>
        rw [hf] at hgi
        simp only [Option.map_some', Option.some.injEq] at hgi
        subst hgi
        exact ⟨i0, by rw [e, hf], rfl⟩
    · rw [if_neg e] at hgi
      exact ⟨info, hgi, rfl⟩
  | evict =>
    simp only [step]
    rw [Evict_eq]
    split
    · exact EarliestBelowMax_RemoveFrame h _
    · split
      · exact EarliestBelowMax_RemoveFrame h _
      · exact h
  | remove f =>
    simp only [step]
    unfold Remove
    split
    · exact h
    · split
      · exact h
      · exact EarliestBelowMax_RemoveFrame h _

theorem EarliestBelowMax_run (ops : List Op) (r : Replacer) (h : EarliestBelowMax r)
    (hc : ClockInRange ops) : EarliestBelowMax (run r ops) := by
  induction ops generalizing r with
  | nil => exact h
  | cons op rest ih =>
    show EarliestBelowMax (run (step r op) rest)
    apply ih
    · apply EarliestBelowMax_step h
      intro t ht
      apply hc t
      cases op <;> simp_all [timestamps]
    · intro t ht
      apply hc t
      cases op <;> simp_all [timestamps]

/-- A frame without a record gets none from calls other than `RecordAccess`
of that frame. -/
theorem untracked_step (r : Replacer) (f : Int) (op : Op)
    (h : UMap.find r.frame_table_ f = none) (hop : isAccessOf f op = false) :
    UMap.find (step r op).frame_table_ f = none := by
  have hrf : ∀ g, UMap.find (RemoveFrame r g).frame_table_ f = none := by
    intro g
    rw [RemoveFrame_table, UMap.find_erase]
    split
    · rfl
    · exact h
  cases op with
  | access g t =>
    simp only [isAccessOf, decide_eq_false_iff_not] at hop
    simp only [step]
    by_cases hg : castSizeT g ≥ r.replacer_size_
    · have : RecordAccess r g t = r := by unfold RecordAccess; rw [if_pos hg]
      rw [this]; exact h
    · rw [RecordAccess_table r g t hg, UMap.find_put, if_neg (fun e => hop e.symm)]
      exact h
  | setEvictable g b =>
    simp only [step]
    rw [SetEvictable_find]
    by_cases e : f = g
    · rw [if_pos e, ← e, h]; rfl
    · rw [if_neg e]; exact h
  | evict =>
    simp only [step]
    rw [Evict_eq]
    split
    · exact hrf _
    · split
      · exact hrf _
      · exact h
  | remove g =>
    simp only [step]
    unfold Remove
    split
    · exact h
    · split
      · exact h
      · exact hrf _

theorem untracked_run (ops : List Op) (r : Replacer) (f : Int)
    (h : UMap.find r.frame_table_ f = none) (hop : noAccess f ops) :
    UMap.find (run r ops).frame_table_ f = none := by
  induction ops generalizing r with
  | nil => exact h
  | cons op rest ih =>
    show UMap.find (run (step r op) rest).frame_table_ f = none
    apply ih
    · exact untracked_step r f op h (hop op (List.mem_cons_self _ _))
    · exact fun o ho => hop o (List.mem_cons_of_mem _ ho)

theorem SetEvictable_untracked (r : Replacer) (f : Int) (b : Bool)
    (h : UMap.find r.frame_table_ f = none) : SetEvictable r f b = r := by
  unfold SetEvictable
  rw [h]

/-- With a tracked evictable frame, `Evict` returns a frame. -/
theorem Evict_isSome {r : Replacer} (hl : ListInv r) (hb : EarliestBelowMax r)
    (hsize : r.replacer_size_ < 2 ^ 64) (f0 : Int) (info0 : FrameInfo)
    (hf0 : UMap.find r.frame_table_ f0 = some info0) (hev : info0.evictable = true) :
    (Evict r).2.isSome = true := by
  rw [Evict_eq]
  cases hc : scanCache r r.cache_list_.reverse with
  | some g => rfl
  | none =>
    simp only []
    have hta := tableAt_of_find r f0 info0 hf0
    have hnc := scanCache_none r _ hc
    have hmem : f0 ∈ r.history_list_ := by
      by_cases hk : info0.history.length < r.k_
      · exact (hl.hist f0).2 ⟨info0, hf0, hk⟩
      · exfalso
        have := hnc f0 (by simpa using (hl.cache f0).2 ⟨info0, hf0, not_lt.1 hk⟩)
        rw [hta, hev] at this
        cases this
    obtain ⟨_, hmin, hres⟩ := scanHistory_spec r r.history_list_ (-1) TIME_MAX
    have hres2 : (scanHistory r r.history_list_ (-1, TIME_MAX)).1 ∈ r.history_list_ := by
      rcases hres with h1 | h1
      · exfalso
        have := hmin f0 hmem (by rw [hta]; exact hev)
        rw [h1, hta] at this
        exact absurd (hb f0 info0 hf0) (not_lt.2 this)
      · exact h1.1
    obtain ⟨ginfo, hgi, _⟩ := (hl.hist _).1 hres2
    have hgne : (scanHistory r r.history_list_ (-1, TIME_MAX)).1 ≠ -1 := by
      intro e
      have := hl.range _ ginfo hgi
      rw [e] at this
      have h1 : castSizeT (-1) = 2 ^ 64 - 1 := by decide
      rw [h1] at this
      omega
    rw [if_pos hgne]
    rfl

theorem evictableCount_pos_iff (r : Replacer) (hnd : (r.frame_table_.map Prod.fst).Nodup) :
    0 < evictableCount r ↔
      ∃ f info, UMap.find r.frame_table_ f = some info ∧ info.evictable = true := by
  unfold evictableCount
  rw [List.length_pos_iff_exists_mem]
  constructor
  · rintro ⟨⟨f, info⟩, hm⟩
    rw [List.mem_filter] at hm
    exact ⟨f, info, UMap.mem_find_of_nodup _ hnd f info hm.1, by simpa using hm.2⟩
  · rintro ⟨f, info, hf, hev⟩
    exact ⟨(f, info), List.mem_filter.2 ⟨UMap.find_some_mem _ _ _ hf, by simpa using hev⟩⟩

/-- Claim C38. In every state the replacer reaches from its constructor by
calls with `int32_t` frame ids and clock readings below the largest `time_t`:
`Evict` returns a frame iff `Size() > 0`; when it returns `f`, `Size()` drops by
exactly one, `f` has no record and is in neither list, `SetEvictable(f, _)` is a
no-op after any later calls that do not access `f`, and the record of every
other frame and the order of both lists are unchanged. -/
theorem evict_iff_size_positive_and_purges (num_frames k : Nat) (hn : num_frames < 2 ^ 64)
    (ops : List Op) (hv : validOps ops) (hclock : ClockInRange ops)
    (r : Replacer) (hr : r = run (Replacer.new num_frames k) ops) :
    ((Evict r).2.isSome = true ↔ 0 < Size r) ∧
    ∀ f, (Evict r).2 = some f →
      Size (Evict r).1 + 1 = Size r ∧
      UMap.find (Evict r).1.frame_table_ f = none ∧
      f ∉ (Evict r).1.history_list_ ∧ f ∉ (Evict r).1.cache_list_ ∧
      (∀ later, noAccess f later → ∀ b,
        SetEvictable (run (Evict r).1 later) f b = run (Evict r).1 later) ∧
      (∀ g, g ≠ f → UMap.find (Evict r).1.frame_table_ g = UMap.find r.frame_table_ g) ∧
      (Evict r).1.history_list_ = r.history_list_.erase f ∧
      (Evict r).1.cache_list_ = r.cache_list_.erase f := by
  have hs : SizeInv r := by rw [hr]; exact SizeInv_run ops _ (SizeInv_new _ _) hv
  have hl : ListInv r := by rw [hr]; exact ListInv_run ops _ (ListInv_new _ _)
  have hb : EarliestBelowMax r := by
    rw [hr]
    exact EarliestBelowMax_run ops _ (by intro f info h; simp [Replacer.new, UMap.find] at h) hclock
  have hsz : r.replacer_size_ < 2 ^ 64 := by
    rw [hr, run_replacer_size]; exact hn
  have hpos := evictableCount_pos_iff r hs.nodup
  have hres : ∀ f, (Evict r).2 = some f → (Evict r).1 = RemoveFrame r f := by
    intro f hf
    rw [Evict_eq] at hf ⊢
    split at hf
    · next g hg =>
      simp only [Option.some.injEq] at hf
      rw [hf]
    · next hg =>
      by_cases hne : (scanHistory r r.history_list_ (-1, TIME_MAX)).1 ≠ -1
      · rw [if_pos hne] at hf ⊢
        simp only [Option.some.injEq] at hf
        rw [hf]
      · rw [if_neg hne] at hf
        cases hf
  refine ⟨⟨?_, ?_⟩, ?_⟩
  · intro h
    cases hf : (Evict r).2 with
    | none => rw [hf] at h; cases h
    | some f =>
      obtain ⟨info, hi, hev⟩ := evict_returns_evictable r f hf
      show 0 < r.current_size_
      rw [hs.size]
      exact hpos.2 ⟨f, info, hi, hev⟩
  · intro h
    have h1 : 0 < evictableCount r := by rw [← hs.size]; exact h
    obtain ⟨f, info, hi, hev⟩ := hpos.1 h1
    exact Evict_isSome hl hb hsz f info hi hev
  · intro f hf
    obtain ⟨info, hi, hev⟩ := evict_returns_evictable r f hf
    have hE := hres f hf
    obtain ⟨e1, _, e3, _, _, _⟩ := RemoveFrame_fields r f hl.hmap hl.cmap
    have htab : (Evict r).1.frame_table_ = UMap.erase r.frame_table_ f := by
      rw [hE, RemoveFrame_table]
    have hnone : UMap.find (Evict r).1.frame_table_ f = none := by
      rw [htab, UMap.find_erase, if_pos rfl]
    refine ⟨?_, hnone, ?_, ?_, ?_, ?_, ?_, ?_⟩
    · show (Evict r).1.current_size_ + 1 = r.current_size_
      rw [hE, RemoveFrame_size, tableAt_of_find r f info hi, hev, if_pos rfl]
      have h1 : 0 < r.current_size_ := by
        rw [hs.size]; exact hpos.2 ⟨f, info, hi, hev⟩
      have h2 : r.current_size_ < 2 ^ 64 := by
        rw [hs.size]
        have := evictableCount_le r
        have := hs.table_le
        omega
      rw [sizeDec_pos _ h1 h2]
      omega
    · rw [hE, e1]
      exact fun hm => (List.Nodup.mem_erase_iff hl.hist_nodup).1 hm |>.1 rfl
    · rw [hE, e3]
      exact fun hm => (List.Nodup.mem_erase_iff hl.cache_nodup).1 hm |>.1 rfl
    · intro later hno b
      exact SetEvictable_untracked _ f b (untracked_run later _ f hnone hno)
    · intro g hg
      rw [htab, UMap.find_erase, if_neg hg]
    · rw [hE, e1]
    · rw [hE, e3]

theorem evict_iff_size_positive_and_purges_witness :
    validOps sampleOps ∧ ClockInRange sampleOps ∧ noAccess 1 laterOps ∧
    (Evict sampleState).2 = some 1 ∧ Size sampleState = 5 ∧ Size (Evict sampleState).1 = 4 ∧
    SetEvictable (run (Evict sampleState).1 laterOps) 1 true
      = run (Evict sampleState).1 laterOps ∧
    (((Evict sampleState).2.isSome = true ↔ 0 < Size sampleState) ∧
    ∀ f, (Evict sampleState).2 = some f →
      Size (Evict sampleState).1 + 1 = Size sampleState ∧
      UMap.find (Evict sampleState).1.frame_table_ f = none ∧
      f ∉ (Evict sampleState).1.history_list_ ∧ f ∉ (Evict sampleState).1.cache_list_ ∧
      (∀ later, noAccess f later → ∀ b,
        SetEvictable (run (Evict sampleState).1 later) f b = run (Evict sampleState).1 later) ∧
      (∀ g, g ≠ f → UMap.find (Evict sampleState).1.frame_table_ g
        = UMap.find sampleState.frame_table_ g) ∧
      (Evict sampleState).1.history_list_ = sampleState.history_list_.erase f ∧
      (Evict sampleState).1.cache_list_ = sampleState.cache_list_.erase f) :=
  ⟨by decide, by decide, by decide, by decide, by decide, by decide, by decide,
   evict_iff_size_positive_and_purges 7 2 (by norm_num) sampleOps (by decide) (by decide)
     sampleState rfl⟩

end LRUKReplacer

namespace LRUKReplacer

theorem lastAccess_snoc (f : Int) (ops : List Op) (op : Op) :
    lastAccess f (ops ++ [op]) = if isAccessOf f op then ops.length + 1 else lastAccess f ops := by
  unfold lastAccess
  rw [List.reverse_append]
  simp [lastAccessRev]

theorem lastAccessRev_le (f : Int) (ops : List Op) : lastAccessRev f ops ≤ ops.length := by
  induction ops with
  | nil => simp [lastAccessRev]
  | cons op rest ih =>
    simp only [lastAccessRev, List.length_cons]
    split
    · exact le_refl _
    · exact Nat.le_succ_of_le ih

theorem lastAccess_le (f : Int) (ops : List Op) : lastAccess f ops ≤ ops.length := by
  unfold lastAccess
  have := lastAccessRev_le f ops.reverse
  simpa using this

theorem run_snoc (r : Replacer) (ops : List Op) (op : Op) :
    run r (ops ++ [op]) = step (run r ops) op := by
  simp [run, List.foldl_append]

/-- The history list is ordered by the latest `RecordAccess` call, the frame
accessed last standing at the front. -/
theorem history_by_recency (num_frames k : Nat) (ops : List Op) :
    (run (Replacer.new num_frames k) ops).history_list_.Pairwise
      (fun a b => lastAccess b ops < lastAccess a ops) := by
  induction ops using List.reverseRecOn with
  | nil => simp [run, Replacer.new]
  | append_singleton ops op ih =>
    rw [run_snoc]
    have hl : ListInv (run (Replacer.new num_frames k) ops) :=
      ListInv_run ops _ (ListInv_new _ _)
    generalize run (Replacer.new num_frames k) ops = r at ih hl
    -- erasing a frame keeps the order when the call is no access
    have herase : ∀ l : List Int, l.Sublist r.history_list_ →
        (∀ x ∈ l, isAccessOf x op = false) →
        l.Pairwise (fun a b => lastAccess b (ops ++ [op]) < lastAccess a (ops ++ [op])) := by
      intro l hsub hno
      refine List.Pairwise.imp_of_mem ?_ (ih.sublist hsub)
      intro a b ha hb hab
      rw [lastAccess_snoc, lastAccess_snoc, hno a ha, hno b hb]
      simpa using hab
    have hrf : ∀ g, (∀ x ∈ r.history_list_, isAccessOf x op = false) →
        (RemoveFrame r g).history_list_.Pairwise
          (fun a b => lastAccess b (ops ++ [op]) < lastAccess a (ops ++ [op])) := by
      intro g hno
      rw [(RemoveFrame_fields r g hl.hmap hl.cmap).1]
      exact herase _ (List.erase_sublist _ _)
        (fun x hx => hno x (List.mem_of_mem_erase hx))
    cases op with
    | access f t =>
      simp only [step]
      have hother : ∀ x, x ≠ f → isAccessOf x (Op.access f t) = false := by
        intro x hx
        simp only [isAccessOf, decide_eq_false_iff_not]
        exact fun e => hx e.symm
      by_cases hg : castSizeT f ≥ r.replacer_size_
      · have : RecordAccess r f t = r := by unfold RecordAccess; rw [if_pos hg]
        rw [this]
        apply herase _ (List.Sublist.refl _)
        intro x hx
        apply hother
        rintro rfl
        obtain ⟨info, hi, _⟩ := (hl.hist x).1 hx
        exact absurd (hl.range x info hi) (not_lt.2 hg)
      · have hrest : (r.history_list_.erase f).Pairwise
            (fun a b => lastAccess b (ops ++ [Op.access f t])
              < lastAccess a (ops ++ [Op.access f t])) := by
          apply herase _ (List.erase_sublist _ _)
          intro x hx
          exact hother x ((List.Nodup.mem_erase_iff hl.hist_nodup).1 hx).1
        by_cases hy : (if ((r.tableAt f).history ++ [t]).length > r.k_
            then ((r.tableAt f).history ++ [t]).tail
            else (r.tableAt f).history ++ [t]).length < r.k_
        · rw [(RecordAccess_fields_young r f t hg hl.hmap hl.cmap hy).1]
          refine List.Pairwise.cons ?_ hrest
          intro x hx
          have hxf := ((List.Nodup.mem_erase_iff hl.hist_nodup).1 hx).1
          rw [lastAccess_snoc, lastAccess_snoc, hother x hxf]
          have h1 : isAccessOf f (Op.access f t) = true := by simp [isAccessOf]
          rw [h1]
          simp only [Bool.false_eq_true, if_false, if_true]
          have := lastAccess_le x ops
          omega
        · rw [(RecordAccess_fields_mature r f t hg hl.hmap hl.cmap hy).2.2.1]
          exact hrest
    | setEvictable f b =>
      simp only [step]
      have : (SetEvictable r f b).history_list_ = r.history_list_ := by
        unfold SetEvictable
        split <;> rfl
      rw [this]
      exact herase _ (List.Sublist.refl _) (fun x _ => rfl)
    | evict =>
      simp only [step]
      rw [Evict_eq]
      split
      · exact hrf _ (fun x _ => rfl)
      · split
        · exact hrf _ (fun x _ => rfl)
        · exact herase _ (List.Sublist.refl _) (fun x _ => rfl)
    | remove f =>
      simp only [step]
      unfold Remove
      split
      · exact herase _ (List.Sublist.refl _) (fun x _ => rfl)
      · split
        · exact herase _ (List.Sublist.refl _) (fun x _ => rfl)
        · exact hrf _ (fun x _ => rfl)

/-- The history scan breaks ties towards the front: when the scan replaces its
starting candidate, the frame it ends with is the first frame of the list that
is evictable and has the smallest earliest time. -/
theorem scanHistory_first (r : Replacer) (l : List Int) (c e : Int)
    (h : (scanHistory r l (c, e)).2 < e) :
    ∃ pre post, l = pre ++ (scanHistory r l (c, e)).1 :: post ∧
      ∀ x ∈ pre, ¬ ((r.tableAt x).evictable = true ∧
        (r.tableAt x).earliest_time = (scanHistory r l (c, e)).2) := by
  induction l generalizing c e with
  | nil => simp [scanHistory] at h
  | cons a rest ih =>
    simp only [scanHistory] at h ⊢
    by_cases hc : (r.tableAt a).evictable = true ∧ (r.tableAt a).earliest_time < e
    · rw [if_pos hc] at h ⊢
      by_cases h2 : (scanHistory r rest (a, (r.tableAt a).earliest_time)).2
          < (r.tableAt a).earliest_time
      · obtain ⟨pre, post, e1, e2⟩ := ih a _ h2
        refine ⟨a :: pre, post, by rw [List.cons_append, ← e1], ?_⟩
        intro x hx
        rcases List.mem_cons.1 hx with e3 | e3
        · rw [e3]
          exact fun hh => by have := hh.2; omega
        · exact e2 x e3
      · obtain ⟨_, _, h3⟩ := scanHistory_spec r rest a (r.tableAt a).earliest_time
        rcases h3 with h3 | h3
        · rw [h3]
          exact ⟨[], rest, rfl, by simp⟩
        · exact absurd h3.2.2.2 h2
    · rw [if_neg hc] at h ⊢
      obtain ⟨pre, post, e1, e2⟩ := ih c e h
      refine ⟨a :: pre, post, by rw [List.cons_append, ← e1], ?_⟩
      intro x hx
      rcases List.mem_cons.1 hx with e3 | e3
      · rw [e3]
        intro hh
        apply hc
        exact ⟨hh.1, by rw [hh.2]; exact h⟩
      · exact e2 x e3

/-- Facts on an evictable frame with fewer than `k_` accesses. -/
theorem young_facts {r : Replacer} (hl : ListInv r) (f : Int) (hf : YoungEvictable r f) :
    f ∈ r.history_list_ ∧ f ∉ r.cache_list_ ∧ (r.tableAt f).evictable = true ∧
      firstAccess r f = (r.tableAt f).earliest_time := by
  obtain ⟨info, hi, hev, hlen⟩ := (YoungEvictable_iff r f).1 hf
  have hta := tableAt_of_find r f info hi
  refine ⟨(hl.hist f).2 ⟨info, hi, hlen⟩, ?_, by rw [hta]; exact hev, ?_⟩
  · intro hm
    obtain ⟨i2, h2, hk⟩ := (hl.cache f).1 hm
    rw [hi] at h2
    injection h2 with h2
    subst h2
    omega
  · unfold firstAccess
    rw [hta]
    have := hl.young_first f info hi hlen
    cases hh : info.history with
    | nil => rw [hh] at this; cases this
    | cons a l =>
      rw [hh] at this
      simp only [List.head?_cons, Option.some.injEq] at this
      simp [this]

/-- Claim C39. In a state reached from the constructor with clock readings
below the largest `time_t` (equal readings allowed): when no evictable frame
has `k` or more accesses and some evictable frame has fewer, `Evict` returns an
evictable frame with fewer than `k` accesses whose first access is not later
than that of any other such frame; and whenever `Evict` returns such a frame
`g`, every other evictable frame `f` with fewer than `k` accesses and the same
first-access timestamp stands behind `g` in the history list and was last
passed to `RecordAccess` before `g` was. -/
theorem evict_tie_goes_to_latest_access (num_frames k : Nat) (hn : num_frames < 2 ^ 64)
    (ops : List Op) (hclock : ClockInRange ops)
    (r : Replacer) (hr : r = run (Replacer.new num_frames k) ops) :
    ((∀ m, ¬ MatureEvictable r m) → (∃ f, YoungEvictable r f) →
      ∃ g, (Evict r).2 = some g ∧ YoungEvictable r g ∧
        ∀ f, YoungEvictable r f → firstAccess r g ≤ firstAccess r f) ∧
    ∀ g, (Evict r).2 = some g → YoungEvictable r g →
      ∀ f, YoungEvictable r f → f ≠ g → firstAccess r f = firstAccess r g →
        Before r.history_list_ g f ∧ lastAccess f ops < lastAccess g ops := by
  have hl : ListInv r := by rw [hr]; exact ListInv_run ops _ (ListInv_new _ _)
  have hb : EarliestBelowMax r := by
    rw [hr]
    exact EarliestBelowMax_run ops _ (by intro f info h; simp [Replacer.new, UMap.find] at h) hclock
  have hsz : r.replacer_size_ < 2 ^ 64 := by
    rw [hr, run_replacer_size]; exact hn
  have hrec : r.history_list_.Pairwise (fun a b => lastAccess b ops < lastAccess a ops) := by
    rw [hr]; exact history_by_recency num_frames k ops
  -- a young victim comes from the history scan
  have hscan : ∀ g, (Evict r).2 = some g → YoungEvictable r g →
      g = (scanHistory r r.history_list_ (-1, TIME_MAX)).1 ∧
      (scanHistory r r.history_list_ (-1, TIME_MAX)).2 < TIME_MAX ∧
      (scanHistory r r.history_list_ (-1, TIME_MAX)).2 = (r.tableAt g).earliest_time := by
    intro g hg hy
    obtain ⟨_, hnc, _, _⟩ := young_facts hl g hy
    rw [Evict_eq] at hg
    cases hc : scanCache r r.cache_list_.reverse with
    | some g1 =>
      rw [hc] at hg
      simp only [Option.some.injEq] at hg
      have := (scanCache_some r _ _ hc).1
      rw [hg] at this
      exact absurd (by simpa using this) hnc
    | none =>
      rw [hc] at hg
      simp only [] at hg
      by_cases hne : (scanHistory r r.history_list_ (-1, TIME_MAX)).1 ≠ -1
      · rw [if_pos hne] at hg
        simp only [Option.some.injEq] at hg
        obtain ⟨_, _, h3⟩ := scanHistory_spec r r.history_list_ (-1) TIME_MAX
        rcases h3 with h3 | h3
        · rw [h3] at hne
          exact absurd rfl hne
        · exact ⟨hg.symm, h3.2.2.2, by rw [← hg]; exact h3.2.2.1.symm⟩
      · rw [if_neg hne] at hg
        cases hg
  refine ⟨?_, ?_⟩
  · intro hno ⟨f0, hf0⟩
    obtain ⟨info0, hi0, hev0, _⟩ := (YoungEvictable_iff r f0).1 hf0
    have hsome := Evict_isSome hl hb hsz f0 info0 hi0 hev0
    cases hg : (Evict r).2 with
    | none => rw [hg] at hsome; cases hsome
    | some g =>
      obtain ⟨hmem, hgev⟩ := Evict_some r g hg
      obtain ⟨ginfo, hgi, hgev2⟩ := evict_returns_evictable r g hg
      have hgy : YoungEvictable r g := by
        rw [YoungEvictable_iff]
        refine ⟨ginfo, hgi, hgev2, ?_⟩
        by_contra hk
        apply hno g
        rw [MatureEvictable_iff]
        exact ⟨ginfo, hgi, hgev2, not_lt.1 hk⟩
      refine ⟨g, rfl, hgy, ?_⟩
      intro f hf
      obtain ⟨e1, _, e3⟩ := hscan g hg hgy
      obtain ⟨hfm, _, hfev, hff⟩ := young_facts hl f hf
      obtain ⟨_, _, _, hgf⟩ := young_facts hl g hgy
      obtain ⟨_, hmin, _⟩ := scanHistory_spec r r.history_list_ (-1) TIME_MAX
      rw [hff, hgf, ← e3]
      exact hmin f hfm hfev
  · intro g hg hgy f hf hne htie
    obtain ⟨e1, e2, e3⟩ := hscan g hg hgy
    obtain ⟨hfm, _, hfev, hff⟩ := young_facts hl f hf
    obtain ⟨_, _, _, hgf⟩ := young_facts hl g hgy
    obtain ⟨pre, post, hdec, hpre⟩ := scanHistory_first r r.history_list_ (-1) TIME_MAX e2
    rw [← e1] at hdec
    have hfpost : f ∈ post := by
      rw [hdec] at hfm
      rcases List.mem_append.1 hfm with h1 | h1
      · exfalso
        apply hpre f h1
        refine ⟨hfev, ?_⟩
        rw [e3, ← hff, ← hgf, htie]
      · rcases List.mem_cons.1 h1 with h2 | h2
        · exact absurd h2 hne
        · exact h2
    have hbefore : Before r.history_list_ g f := by
      unfold Before
      rw [hdec]
      apply List.Sublist.trans _ (List.sublist_append_right pre _)
      exact List.Sublist.cons₂ g (List.singleton_sublist.2 hfpost)
    refine ⟨hbefore, ?_⟩
    have := hrec.sublist hbefore
    simp only [List.pairwise_cons, List.mem_singleton, forall_eq, List.not_mem_nil,
      IsEmpty.forall_iff, implies_true, List.Pairwise.nil, and_true] at this
    exact this

theorem evict_tie_goes_to_latest_access_witness :
    ClockInRange sameSecondOps ∧
    firstAccess (run (Replacer.new 7 2) sameSecondOps) 1 = 5 ∧
    firstAccess (run (Replacer.new 7 2) sameSecondOps) 2 = 5 ∧
    firstAccess (run (Replacer.new 7 2) sameSecondOps) 3 = 5 ∧
    (run (Replacer.new 7 2) sameSecondOps).history_list_ = [3, 2, 1] ∧
    (Evict (run (Replacer.new 7 2) sameSecondOps)).2 = some 3 ∧
    Before (run (Replacer.new 7 2) sameSecondOps).history_list_ 3 1 ∧
    lastAccess 1 sameSecondOps < lastAccess 3 sameSecondOps :=
  ⟨by decide, by decide, by decide, by decide, by decide, by decide,
   (evict_tie_goes_to_latest_access 7 2 (by norm_num) sameSecondOps (by decide)
     (run (Replacer.new 7 2) sameSecondOps) rfl).2 3 (by decide) (by decide) 1 (by decide)
     (by decide) (by decide)⟩

end LRUKReplacer

namespace ExtendibleHashTable

variable {K V : Type} [DecidableEq K]

/-- Local depth of a key's bucket after the redirect and redistribution steps
of `SplitBucket`. -/
theorem split_depth_core {hash : K → Nat} {t t1 : Table K V} (old ld hb : Nat)
    (F1 : t1.directory_.length = 2 ^ t1.global_depth_)
    (F2 : ∀ key, t1.dirAt (IndexOf hash t1 key) = t.dirAt (IndexOf hash t key))
    (F4 : t1.buckets_ = t.buckets_)
    (holdlt : old < t.buckets_.length) (kept moved : List (K × V)) :
    let t2 : Table K V :=
      { t1 with directory_ := redirectFrom old t1.buckets_.length hb 0 t1.directory_ }
    let t3 : Table K V :=
      { t2 with
        buckets_ := (t2.buckets_.set old ⟨ld + 1, kept⟩)
          ++ [insertAll (Bucket.new (ld + 1)) moved] }
    ∀ key, t.dirAt (IndexOf hash t key) = old →
      (t3.bucketAt (t3.dirAt (IndexOf hash t3 key))).depth_ = ld + 1 := by
  intro t2 t3 key hkey
  have hB : ∀ p, t3.bucketAt p
      = if p = t.buckets_.length then insertAll (Bucket.new (ld + 1)) moved
        else if old = p ∧ old < t.buckets_.length then ⟨ld + 1, kept⟩ else t.bucketAt p := by
    intro p
    show List.getD ((t1.buckets_.set old _) ++ [insertAll _ _]) p _ = _
    rw [getD_set_append, F4]
    rfl
  have hI : IndexOf hash t3 key = IndexOf hash t1 key := rfl
  have hlt : IndexOf hash t1 key < t1.directory_.length := by
    rw [F1, IndexOf_eq]
    exact Nat.mod_lt _ (Nat.pos_pow_of_pos _ (by decide))
  have e : t3.dirAt (IndexOf hash t1 key)
      = if t1.directory_.getD (IndexOf hash t1 key) 0 = old ∧
            ((0 + IndexOf hash t1 key) &&& hb) ≠ 0 then t.buckets_.length
        else t1.directory_.getD (IndexOf hash t1 key) 0 := by
    show List.getD (redirectFrom old t1.buckets_.length hb 0 t1.directory_) _ 0 = _
    rw [redirectFrom_getD old t1.buckets_.length hb 0 t1.directory_ _ 0 hlt, F4]
  have hD : t3.dirAt (IndexOf hash t3 key) = t.buckets_.length ∨
      t3.dirAt (IndexOf hash t3 key) = old := by
    rw [hI, e]
    split
    · exact Or.inl rfl
    · exact Or.inr ((F2 key).trans hkey)
  rcases hD with e | e
  · rw [e, hB, if_pos rfl, insertAll_depth]
    rfl
  · rw [e, hB, if_neg (Nat.ne_of_lt holdlt), if_pos ⟨rfl, holdlt⟩]

/-- One `SplitBucket(IndexOf(key))`: the bucket `key` maps to afterwards is one
level deeper than the bucket it mapped to before, and the directory doubles
exactly when that bucket was as deep as the directory. -/
theorem SplitBucket_depth {hash : K → Nat} {t : Table K V} (h : WF hash t) (key : K) :
    GetLocalDepth (SplitBucket hash t (IndexOf hash t key))
        (IndexOf hash (SplitBucket hash t (IndexOf hash t key)) key)
      = GetLocalDepth t (IndexOf hash t key) + 1 ∧
    GetGlobalDepth (SplitBucket hash t (IndexOf hash t key))
      = if GetLocalDepth t (IndexOf hash t key) = GetGlobalDepth t then GetGlobalDepth t + 1
        else GetGlobalDepth t := by
  have hidx := h.index_lt key
  have hold : t.dirAt (IndexOf hash t key) ∈ t.directory_ := getD_mem _ _ _ hidx
  have holdlt := h.dir_lt _ hold
  unfold GetLocalDepth GetGlobalDepth
  by_cases hd : (t.bucketAt (t.dirAt (IndexOf hash t key))).depth_ = t.global_depth_
  · have hlenpos : 0 < t.directory_.length := by
      rw [h.dir_len]; exact Nat.pos_pow_of_pos _ (by decide)
    have key1 := @split_depth_core K V _ hash t
      { t with directory_ := t.directory_ ++ t.directory_, global_depth_ := t.global_depth_ + 1 }
      (t.dirAt (IndexOf hash t key)) (t.bucketAt (t.dirAt (IndexOf hash t key))).depth_
      (1 <<< (t.bucketAt (t.dirAt (IndexOf hash t key))).depth_)
      (by simp [h.dir_len, pow_succ]; ring)
      (by
        intro key
        simp only [Table.dirAt, IndexOf_eq]
        rw [getD_append_self _ _ (by
          rw [h.dir_len, ← pow_succ']
          exact Nat.mod_lt _ (Nat.pos_pow_of_pos _ (by decide)))]
        rw [h.dir_len, Nat.mod_mod_of_dvd _ (pow_dvd_pow 2 (Nat.le_succ _))])
      rfl holdlt
    rw [if_pos hd]
    unfold SplitBucket
    simp only [hd, if_true] at key1 ⊢
    exact ⟨key1 _ _ key rfl, trivial⟩
  · have key1 := @split_depth_core K V _ hash t t
      (t.dirAt (IndexOf hash t key)) (t.bucketAt (t.dirAt (IndexOf hash t key))).depth_
      (1 <<< (t.bucketAt (t.dirAt (IndexOf hash t key))).depth_)
      h.dir_len (fun _ => rfl) rfl holdlt
    rw [if_neg hd]
    unfold SplitBucket
    simp only [hd, if_false] at key1 ⊢
    exact ⟨key1 _ _ key rfl, trivial⟩

theorem splitsFor_front (hash : K → Nat) (key : K) (n : Nat) (t : Table K V) :
    splitsFor hash key (n + 1) t
      = splitsFor hash key n (SplitBucket hash t (IndexOf hash t key)) := by
  induction n with
  | zero => rfl
  | succ n ih =>
    show SplitBucket hash (splitsFor hash key (n + 1) t) _ = _
    rw [ih]
    rfl

theorem splitsFor_inv {hash : K → Nat} {t : Table K V} (h : WF hash t) (hs : Shape t) (key : K)
    (n : Nat) : WF hash (splitsFor hash key n t) ∧ Shape (splitsFor hash key n t) := by
  induction n with
  | zero => exact ⟨h, hs⟩
  | succ n ih =>
    exact ⟨(SplitBucket_spec ih.1 _ (ih.1.index_lt key)).1,
      SplitBucket_shape ih.1 ih.2 _ (ih.1.index_lt key)⟩

/-- A bucket as deep as the hash values are wide holds at most the key that
maps to it, so it accepts the pair. -/
theorem deep_bucket_accepts {hash : K → Nat} {t : Table K V} (h : WF hash t) (hs : Shape t)
    (w : Nat) (hw : ∀ k, hash k < 2 ^ w) (hinj : Function.Injective hash) (key : K) (value : V)
    (hdeep : w ≤ GetLocalDepth t (IndexOf hash t key)) :
    ((t.bucketAt (t.dirAt (IndexOf hash t key))).Insert key value).2 = true := by
  by_contra hok
  simp only [Bool.not_eq_true] at hok
  obtain ⟨hfull, habs⟩ := Bucket.Insert_false _ key value hok
  have hb := h.dirAt_mem key
  cases hitems : (t.bucketAt (t.dirAt (IndexOf hash t key))).items_ with
  | nil => rw [hitems] at hfull; simp [BUCKET_SIZE] at hfull
  | cons it rest =>
    have hit : it ∈ (t.bucketAt (t.dirAt (IndexOf hash t key))).items_ := by
      rw [hitems]; exact List.mem_cons_self _ _
    have hhome := h.home _ hb it hit
    have hpos : 0 < 2 ^ t.global_depth_ := Nat.pos_pow_of_pos _ (by decide)
    have hi : IndexOf hash t key < 2 ^ t.global_depth_ := by
      rw [IndexOf_eq]; exact Nat.mod_lt _ hpos
    have hj : IndexOf hash t it.1 < 2 ^ t.global_depth_ := by
      rw [IndexOf_eq]; exact Nat.mod_lt _ hpos
    have hle : (t.bucketAt (t.dirAt (IndexOf hash t key))).depth_ ≤ t.global_depth_ :=
      hs.1 _ hi
    have hmod := (hs.2 (IndexOf hash t key) (IndexOf hash t it.1) hi hj).1 hhome.symm
    simp only [] at hmod
    rw [IndexOf_eq, IndexOf_eq, mod_mod_two_pow _ _ _ (by rw [← IndexOf_eq]; exact hle),
      mod_mod_two_pow _ _ _ (by rw [← IndexOf_eq]; exact hle)] at hmod
    have hpw : 2 ^ w ≤ 2 ^ (t.bucketAt (t.dirAt (IndexOf hash t key))).depth_ :=
      Nat.pow_le_pow_right (by decide) hdeep
    rw [← IndexOf_eq] at hmod
    rw [Nat.mod_eq_of_lt (lt_of_lt_of_le (hw key) hpw),
      Nat.mod_eq_of_lt (lt_of_lt_of_le (hw it.1) hpw)] at hmod
    exact habs (List.mem_map.2 ⟨it, hit, (hinj hmod).symm⟩)

/-- With an injective hash of `w` bits the loop of `Insert` ends after at most
`w` minus the target's local depth splits. -/
theorem Insert_splits_bounded {hash : K → Nat} (w : Nat) (hw : ∀ k, hash k < 2 ^ w)
    (hinj : Function.Injective hash) (key : K) (value : V) (m : Nat) :
    ∀ t : Table K V, WF hash t → Shape t → w ≤ GetLocalDepth t (IndexOf hash t key) + m →
      ∃ s t1, s ≤ m ∧ Insert hash s t key value = none ∧
        (∀ fuel, s < fuel → Insert hash fuel t key value = some t1) ∧
        t1.directory_ = (splitsFor hash key s t).directory_ := by
  induction m with
  | zero =>
    intro t h hs hm
    have hok := deep_bucket_accepts h hs w hw hinj key value (by omega)
    refine ⟨0, { t with buckets_ := (t.buckets_.set (t.dirAt (IndexOf hash t key))
      ((t.bucketAt (t.dirAt (IndexOf hash t key))).Insert key value).1) }, le_refl _, rfl, ?_, ?_⟩
    · intro fuel hf
      obtain ⟨f, rfl⟩ : ∃ f, fuel = f + 1 := ⟨fuel - 1, by omega⟩
      simp only [Insert]
      rw [if_pos hok]
    · rfl
  | succ m ih =>
    intro t h hs hm
    by_cases hok : ((t.bucketAt (t.dirAt (IndexOf hash t key))).Insert key value).2 = true
    · refine ⟨0, { t with buckets_ := (t.buckets_.set (t.dirAt (IndexOf hash t key))
        ((t.bucketAt (t.dirAt (IndexOf hash t key))).Insert key value).1) }, Nat.zero_le _, rfl, ?_, ?_⟩
      · intro fuel hf
        obtain ⟨f, rfl⟩ : ∃ f, fuel = f + 1 := ⟨fuel - 1, by omega⟩
        simp only [Insert]
        rw [if_pos hok]
      · rfl
    · have hwf := (SplitBucket_spec h _ (h.index_lt key)).1
      have hsh := SplitBucket_shape h hs _ (h.index_lt key)
      have hdep := (SplitBucket_depth h key).1
      obtain ⟨s, t1, hsm, hnone, hsome, hdir⟩ := ih _ hwf hsh (by rw [hdep]; omega)
      refine ⟨s + 1, t1, by omega, ?_, ?_, ?_⟩
      · simp only [Insert]
        rw [if_neg hok]
        exact hnone
      · intro fuel hf
        obtain ⟨f, rfl⟩ : ∃ f, fuel = f + 1 := ⟨fuel - 1, by omega⟩
        simp only [Insert]
        rw [if_neg hok]
        exact hsome f (by omega)
      · rw [splitsFor_front]
        exact hdir

/-- Claim C36. In a table reached from the constructor, each `SplitBucket`
call of the loop of `Insert(key, _)` raises by exactly one the local depth of
the bucket `key` maps to afterwards, and raises the global depth by one when
that bucket was as deep as the directory and leaves it otherwise; with an
injective hash whose values have `w` bits, `Insert` makes `s` splits for some
`s ≤ w` and then succeeds. -/
theorem split_deepens_target_bucket (hash : K → Nat) (fuel bucket_size : Nat)
    (ops : List (Op K V)) (t : Table K V)
    (hrun : run hash fuel (Table.new bucket_size) ops = some t) (key : K) :
    (∀ n,
      GetLocalDepth (splitsFor hash key (n + 1) t)
          (IndexOf hash (splitsFor hash key (n + 1) t) key)
        = GetLocalDepth (splitsFor hash key n t) (IndexOf hash (splitsFor hash key n t) key) + 1 ∧
      GetGlobalDepth (splitsFor hash key (n + 1) t)
        = if GetLocalDepth (splitsFor hash key n t) (IndexOf hash (splitsFor hash key n t) key)
              = GetGlobalDepth (splitsFor hash key n t)
          then GetGlobalDepth (splitsFor hash key n t) + 1
          else GetGlobalDepth (splitsFor hash key n t)) ∧
    ∀ w, (∀ k, hash k < 2 ^ w) → Function.Injective hash → ∀ value,
      ∃ s t1, s ≤ w ∧ Insert hash s t key value = none ∧
        (∀ fuel1, s < fuel1 → Insert hash fuel1 t key value = some t1) ∧
        t1.directory_ = (splitsFor hash key s t).directory_ := by
  have h := (run_spec fuel ops (WF_new hash bucket_size) hrun).1
  have hs := run_shape fuel ops (WF_new hash bucket_size) (Shape_new bucket_size) hrun
  refine ⟨fun n => ?_, fun w hw hinj value => ?_⟩
  · exact SplitBucket_depth (splitsFor_inv h hs key n).1 key
  · exact Insert_splits_bounded w hw hinj key value w t h hs (by omega)

theorem split_deepens_target_bucket_witness :
    run bitsHash 1 (Table.new 2) fillOps = some fillTable ∧
    Insert bitsHash 2 fillTable 2 20 = none ∧
    Insert bitsHash 3 fillTable 2 20 = some fillTableAfter ∧
    GetLocalDepth fillTable (IndexOf bitsHash fillTable 2) = 0 ∧
    GetLocalDepth (splitsFor bitsHash 2 1 fillTable)
      (IndexOf bitsHash (splitsFor bitsHash 2 1 fillTable) 2) = 1 ∧
    GetGlobalDepth (splitsFor bitsHash 2 1 fillTable) = 1 ∧
    ∃ s t1, s ≤ 3 ∧ Insert bitsHash s fillTable 2 20 = none ∧
      (∀ fuel1, s < fuel1 → Insert bitsHash fuel1 fillTable 2 20 = some t1) ∧
      t1.directory_ = (splitsFor bitsHash 2 s fillTable).directory_ :=
  ⟨by decide, by decide, by decide, by decide, by decide, by decide,
   (split_deepens_target_bucket bitsHash 1 2 fillOps fillTable (by decide) 2).2 3
     (by decide) (fun a b hab => Fin.ext hab) 20⟩

end ExtendibleHashTable

namespace BPlusTree

variable {K : Type} [LinearOrder K]

/-- An internal page splits at the last slot from 1 on whose key is at most
`key`: slots up to it hold keys at most `key`, later slots hold larger keys. -/
theorem split_at_key (a0 : K × Int) (rest : List (K × Int))
    (hsorted : (rest.map Prod.fst).Pairwise (· < ·)) (key : K) :
    ∃ A kc c B, a0 :: rest = A ++ (kc, c) :: B ∧ A.length ≤ rest.length ∧
      (A ≠ [] → kc ≤ key) ∧ (∀ e ∈ A.tail, e.1 ≤ key) ∧ (∀ e ∈ B, key < e.1) ∧
      (A = [] → c = a0.2) ∧ (A ≠ [] → A.head? = some a0) := by
  induction rest generalizing a0 with
  | nil =>
    exact ⟨[], a0.1, a0.2, [], rfl, by simp, by simp, by simp, by simp, by simp, by simp⟩
  | cons b rest ih =>
    simp only [List.map_cons, List.pairwise_cons] at hsorted
    by_cases hb : b.1 ≤ key
    · obtain ⟨A, kc, c, B, harr, hlen, hlo, hA, hB, hc, hh⟩ := ih b hsorted.2
      refine ⟨a0 :: A, kc, c, B, by rw [harr]; rfl, by simp; omega, ?_, ?_, hB, by simp, by simp⟩
      · intro _
        cases A with
        | nil =>
          simp only [List.nil_append, List.cons.injEq] at harr
          have e1 : b.1 = kc := by rw [harr.1]
          rw [← e1]
          exact hb
        | cons x A1 => exact hlo (by simp)
      · intro e he
        simp only [List.tail_cons] at he
        cases A with
        | nil => cases he
        | cons x A1 =>
          have hx := hh (by simp)
          simp only [List.head?_cons, Option.some.injEq] at hx
          rcases List.mem_cons.1 he with e1 | e1
          · rw [e1, hx]; exact hb
          · exact hA e (by simpa using e1)
    · refine ⟨[], a0.1, a0.2, b :: rest, rfl, by simp, by simp, by simp, ?_, by simp, by simp⟩
      intro e he
      rcases List.mem_cons.1 he with e1 | e1
      · rw [e1]; exact not_le.1 hb
      · exact lt_trans (not_le.1 hb) (hsorted.1 e.1 (List.mem_map_of_mem _ e1))

/-- Claim C32. On an internal page of size `n ≥ 1` whose keys in slots
`1..n-1` ascend strictly, `Lookup(key)` returns the child of slot `i`, where
`i` is the largest slot in `1..n-1` whose key is at most `key`, and slot 0 when
there is none (`key` is below the key of slot 1, or `n = 1`); writing any key
into slot 0 does not change the result. -/
theorem lookup_returns_covering_child (N : InternalPage K) (hn : 1 ≤ N.GetSize)
    (hsorted : ((N.array_.drop 1).map Prod.fst).Pairwise (· < ·)) (key : K) :
    ∃ i c, i < N.GetSize ∧ N.Lookup key = .ok c ∧ N.ValueAt i = .ok c ∧
      (∀ j kj, 1 ≤ j → j ≤ i → N.KeyAt j = .ok kj → kj ≤ key) ∧
      (∀ j kj, i < j → N.KeyAt j = .ok kj → key < kj) ∧
      ∀ k0, (N.SetKeyAt 0 k0).Lookup key = .ok c := by
  cases harr0 : N.array_ with
  | nil => simp [InternalPage.GetSize, harr0] at hn
  | cons a0 rest =>
    rw [harr0] at hsorted
    simp only [List.drop_succ_cons, List.drop_zero] at hsorted
    obtain ⟨A, kc, c, B, harr, hlen, hlo, hA, hB, hc, hh⟩ := split_at_key a0 rest hsorted key
    have harrN : N.array_ = A ++ (kc, c) :: B := by rw [harr0, harr]
    have hsortedN : ((N.array_.drop 1).map Prod.fst).Pairwise (· < ·) := by
      rw [harr0]; simpa using hsorted
    refine ⟨A.length, c, ?_, Lookup_spec N A kc c B key harrN hsortedN hlo hB, ?_, ?_, ?_, ?_⟩
    · simp only [InternalPage.GetSize, harr0, List.length_cons]; omega
    · simp only [InternalPage.ValueAt, harrN, getq_mid]
    · intro j kj h1 h2 hk
      simp only [InternalPage.KeyAt, harrN] at hk
      rcases Nat.lt_or_ge j A.length with hlt | hge
      · rw [List.get?_eq_getElem?, List.getElem?_append_left hlt] at hk
        cases A with
        | nil => simp at hlt
        | cons x A1 =>
          obtain ⟨j1, rfl⟩ : ∃ j1, j = j1 + 1 := ⟨j - 1, by omega⟩
          simp only [List.getElem?_cons_succ] at hk
          cases hg : A1[j1]? with
          | none => rw [hg] at hk; cases hk
          | some e =>
            rw [hg] at hk
            simp only [Except.ok.injEq] at hk
            rw [← hk]
            exact hA e (by simpa using List.getElem?_mem hg)
      · have : j = A.length := by omega
        subst this
        rw [getq_mid] at hk
        simp only [Except.ok.injEq] at hk
        rw [← hk]
        exact hlo (by intro e; rw [e] at h1; simp at h1)
    · intro j kj h1 hk
      simp only [InternalPage.KeyAt, harrN] at hk
      obtain ⟨d, rfl⟩ : ∃ d, j = A.length + 1 + d := ⟨j - A.length - 1, by omega⟩
      rw [List.get?_eq_getElem?, List.getElem?_append_right (by omega)] at hk
      have e1 : A.length + 1 + d - A.length = d + 1 := by omega
      rw [e1, List.getElem?_cons_succ] at hk
      cases hg : B[d]? with
      | none => rw [hg] at hk; cases hk
      | some e =>
        rw [hg] at hk
        simp only [Except.ok.injEq] at hk
        rw [← hk]
        exact hB e (List.getElem?_mem hg)
    · intro k0
      have hset : (N.SetKeyAt 0 k0).array_ = (k0, a0.2) :: rest := by
        simp [InternalPage.SetKeyAt, harr0]
      have hs2 : (((N.SetKeyAt 0 k0).array_.drop 1).map Prod.fst).Pairwise (· < ·) := by
        rw [hset]; simpa using hsorted
      cases A with
      | nil =>
        simp only [List.nil_append, List.cons.injEq] at harr
        rw [hc rfl]
        exact Lookup_spec (N.SetKeyAt 0 k0) [] k0 a0.2 B key (by rw [hset, harr.2]; rfl) hs2
          (by simp) hB
      | cons x A1 =>
        have hx := hh (by simp)
        simp only [List.head?_cons, Option.some.injEq] at hx
        simp only [List.cons_append, List.cons.injEq] at harr
        exact Lookup_spec (N.SetKeyAt 0 k0) ((k0, a0.2) :: A1) kc c B key
          (by rw [hset, harr.2]; rfl) hs2 (fun _ => hlo (by simp)) hB

theorem lookup_returns_covering_child_witness :
    lookupPage.Lookup 25 = .ok 102 ∧ lookupPage.Lookup 5 = .ok 100 ∧
    lookupPage.Lookup 30 = .ok 103 ∧
    ∃ i c, i < lookupPage.GetSize ∧ lookupPage.Lookup 25 = .ok c ∧
      lookupPage.ValueAt i = .ok c ∧
      (∀ j kj, 1 ≤ j → j ≤ i → lookupPage.KeyAt j = .ok kj → kj ≤ 25) ∧
      (∀ j kj, i < j → lookupPage.KeyAt j = .ok kj → 25 < kj) ∧
      ∀ k0, (lookupPage.SetKeyAt 0 k0).Lookup 25 = .ok c :=
  ⟨rfl, rfl, rfl,
   lookup_returns_covering_child lookupPage (by decide) (by decide) 25⟩

end BPlusTree

namespace BPlusTree

variable {K V : Type}

/-- Claim C33. `AdjustRoot` on the page `old_root_node`: an internal page of
size 1 makes the page id of its only child the root id, sets that child's
parent id to `INVALID_PAGE_ID`, changes no other page and returns true; a leaf
page of size 0 makes the root id `INVALID_PAGE_ID` and returns true; in every
other case the tree is unchanged and the result is false. -/
theorem adjust_root_three_cases (t : Tree K V) (old_root_node : Int) (P : TreePage K V)
    (hP : t.pm old_root_node = some P) :
    (∀ N, P = .internal N → N.GetSize = 1 → ∀ c cn, N.ValueAt 0 = .ok c → t.pm c = some cn →
      ∃ t1, AdjustRoot t old_root_node = .ok (t1, true) ∧
        t1.root_page_id_ = cn.GetPageId ∧
        t1.pm c = some (cn.SetParentPageId INVALID_PAGE_ID) ∧
        (cn.SetParentPageId INVALID_PAGE_ID).GetParentPageId = INVALID_PAGE_ID ∧
        ∀ id, id ≠ c → t1.pm id = t.pm id) ∧
    (∀ L, P = .leaf L → L.GetSize = 0 →
      AdjustRoot t old_root_node
        = .ok (({ t with root_page_id_ := INVALID_PAGE_ID } : Tree K V), true)) ∧
    ((P.IsLeafPage = false → P.GetSize ≠ 1) → (P.IsLeafPage = true → P.GetSize ≠ 0) →
      AdjustRoot t old_root_node = .ok (t, false)) := by
  refine ⟨?_, ?_, ?_⟩
  · intro N hN hsize c cn hval hc
    subst hN
    obtain ⟨k, harr⟩ : ∃ k, N.array_ = [(k, c)] := by
      unfold InternalPage.GetSize at hsize
      unfold InternalPage.ValueAt at hval
      cases harr : N.array_ with
      | nil => rw [harr] at hsize; cases hsize
      | cons a rest =>
        rw [harr] at hsize hval
        cases rest with
        | nil =>
          simp only [List.get?_cons_zero, Except.ok.injEq] at hval
          exact ⟨a.1, by rw [← hval]⟩
        | cons b rest1 => simp at hsize
    refine ⟨_, AdjustRoot_internal_one t old_root_node N k c cn hP harr hc, ?_, ?_, ?_, ?_⟩
    · rw [(SameCore_UnpinPage _ c true).2.1, (SameCore_UpdateRootPageId _ 0).2.1]
    · rw [(SameCore_UnpinPage _ c true).pm, (SameCore_UpdateRootPageId _ 0).pm]
      exact pm_setPage_self (t.pin c) c _
    · cases cn <;> rfl
    · intro id hid
      rw [(SameCore_UnpinPage _ c true).pm, (SameCore_UpdateRootPageId _ 0).pm]
      exact pm_setPage_ne (t.pin c) c _ id hid
  · intro L hL hsize
    subst hL
    rw [AdjustRoot_leaf t old_root_node L hP, if_pos (show L.array_.length = 0 from hsize)]
  · intro h1 h2
    cases P with
    | leaf L =>
      rw [AdjustRoot_leaf t old_root_node L hP,
        if_neg (show ¬ L.array_.length = 0 from h2 rfl)]
    | internal N =>
      exact AdjustRoot_internal_keep t old_root_node N hP (h1 rfl)

theorem adjust_root_three_cases_witness :
    loneChildTree.pm 1 = some (.internal ⟨1, -1, 4, [(0, 2)]⟩) ∧
    (∃ t1, AdjustRoot loneChildTree 1 = .ok (t1, true) ∧ t1.root_page_id_ = 2 ∧
      t1.pm 2 = some (.leaf ⟨2, -1, 4, -1, [(5, 50)]⟩) ∧
      ∀ id, id ≠ 2 → t1.pm id = loneChildTree.pm id) ∧
    (∃ t2, AdjustRoot emptyLeafTree 1 = .ok (t2, true) ∧ t2.root_page_id_ = INVALID_PAGE_ID) ∧
    AdjustRoot loneChildTree 2 = .ok (loneChildTree, false) := by
  have h := (adjust_root_three_cases loneChildTree 1 (.internal ⟨1, -1, 4, [(0, 2)]⟩) rfl).1
    ⟨1, -1, 4, [(0, 2)]⟩ rfl rfl 2 (.leaf ⟨2, 1, 4, -1, [(5, 50)]⟩) rfl rfl
  obtain ⟨t1, h1, h2, h3, _, h5⟩ := h
  exact ⟨rfl, ⟨t1, h1, h2, h3, h5⟩, ⟨_, rfl, rfl⟩, rfl⟩

end BPlusTree

namespace BPlusTree

variable {K V : Type}

theorem slotSeq_append (A B : List (K × Int)) : slotSeq (A ++ B) = slotSeq A ++ slotSeq B := by
  induction A with
  | nil => rfl
  | cons a rest ih => simp [slotSeq, ih]

theorem inorderSeq_append (A B : List (K × Int)) (hA : A ≠ []) :
    inorderSeq (A ++ B) = inorderSeq A ++ slotSeq B := by
  cases A with
  | nil => exact absurd rfl hA
  | cons a rest => simp [inorderSeq, slotSeq, slotSeq_append]

/-- Claim C34. `Redistribute` on two adjacent internal siblings `l` and `r`
under the parent `par`, the donor holding at least two entries and the
under-full node at least one. Borrowing from the left sibling moves the last
child pointer of `l` to the front of `r`; borrowing from the right sibling
moves the first child pointer of `r` to the end of `l`. Either way one child
pointer moves, the in-order sequence of child pointers and separator keys over
`l`, the parent's separator and `r` is unchanged, the parent keeps its other
entries, and its separator between the two is the key in slot 0 of `r`
afterwards. -/
theorem redistribute_internal_keeps_order (t : Tree K V) (par l r : Int) (N : InternalPage K)
    (X Y : List (K × Int)) (kl kr : K) (Nl Nr : InternalPage K)
    (hN : t.pm par = some (.internal N)) (harr : N.array_ = X ++ (kl, l) :: (kr, r) :: Y)
    (hl : t.pm l = some (.internal Nl)) (hlid : Nl.page_id_ = l)
    (hr : t.pm r = some (.internal Nr)) (hrid : Nr.page_id_ = r)
    (hlr : l ≠ r) (hpl : par ≠ l) (hpr : par ≠ r) :
    (∀ c, Nl.array_.getLast?.map Prod.snd = some c → 2 ≤ Nl.GetSize → 1 ≤ Nr.GetSize →
      (t.pm c).isSome = true → l ≠ c → r ≠ c → par ≠ c →
      ∃ T Nl1 Nr1 N1 sep, Redistribute t l r par (X.length + 1) true = .ok T ∧
        T.pm l = some (.internal Nl1) ∧ T.pm r = some (.internal Nr1) ∧
        T.pm par = some (.internal N1) ∧
        Nl1.array_.map Prod.snd ++ [c] = Nl.array_.map Prod.snd ∧
        Nr1.array_.map Prod.snd = c :: Nr.array_.map Prod.snd ∧
        spanSeq Nl1.array_ sep Nr1.array_ = spanSeq Nl.array_ kr Nr.array_ ∧
        N1.array_ = X ++ (kl, l) :: (sep, r) :: Y ∧ Nr1.KeyAt 0 = .ok sep) ∧
    (∀ c, Nr.array_.head?.map Prod.snd = some c → 2 ≤ Nr.GetSize → 1 ≤ Nl.GetSize →
      (t.pm c).isSome = true → l ≠ c → r ≠ c → par ≠ c →
      ∃ T Nl1 Nr1 N1 sep, Redistribute t r l par X.length false = .ok T ∧
        T.pm l = some (.internal Nl1) ∧ T.pm r = some (.internal Nr1) ∧
        T.pm par = some (.internal N1) ∧
        Nl1.array_.map Prod.snd = Nl.array_.map Prod.snd ++ [c] ∧
        c :: Nr1.array_.map Prod.snd = Nr.array_.map Prod.snd ∧
        spanSeq Nl1.array_ sep Nr1.array_ = spanSeq Nl.array_ kr Nr.array_ ∧
        N1.array_ = X ++ (kl, l) :: (sep, r) :: Y ∧ Nr1.KeyAt 0 = .ok sep) := by
  refine ⟨?_, ?_⟩
  · intro c hc h2 h1 hpage hcl hcr hcp
    obtain ⟨init, kq, hNl, hinit⟩ : ∃ init kq, Nl.array_ = init ++ [(kq, c)] ∧ init ≠ [] := by
      rcases List.eq_nil_or_concat Nl.array_ with e | ⟨init, x, e⟩
      · rw [e] at hc; cases hc
      · rw [List.concat_eq_append] at e
        rw [e] at hc
        have hx : x.2 = c := by simpa [List.getLast?_append] using hc
        refine ⟨init, x.1, by rw [e, ← hx], ?_⟩
        intro hi
        rw [hi] at e
        simp only [InternalPage.GetSize, e, List.nil_append, List.length_singleton] at h2
        omega
    obtain ⟨k0, c0, rest, hNr⟩ : ∃ k0 c0 rest, Nr.array_ = (k0, c0) :: rest := by
      cases e : Nr.array_ with
      | nil => simp [InternalPage.GetSize, e] at h1
      | cons a rest => exact ⟨a.1, a.2, rest, rfl⟩
    obtain ⟨T, hrun, _, hpm⟩ := Redistribute_internal_prev t par l r N X Y kl kr Nl Nr init rest
      kq k0 c c0 hN harr hl hNl hr hNr hrid hlr hpl hpr hpage hcl hcr hcp
    refine ⟨T, { Nl with array_ := init }, { Nr with array_ := (kq, c) :: (kr, c0) :: rest },
      { N with array_ := X ++ (kl, l) :: (kq, r) :: Y }, kq, hrun, ?_, ?_, ?_, ?_, ?_, ?_, rfl,
      rfl⟩
    · rw [hpm, if_neg (Ne.symm hpl), if_pos rfl]
    · rw [hpm, if_neg (Ne.symm hpr), if_neg (Ne.symm hlr), if_pos rfl]
    · rw [hpm, if_pos rfl]
    · simp [hNl]
    · simp [hNr]
    · simp only [spanSeq, hNl, hNr, inorderSeq_append init _ hinit]
      simp [inorderSeq, slotSeq]
  · intro c hc h2 h1 hpage hcl hcr hcp
    obtain ⟨k0, k1, c1, rest, hNr⟩ : ∃ k0 k1 c1 rest, Nr.array_ = (k0, c) :: (k1, c1) :: rest := by
      cases e : Nr.array_ with
      | nil => simp [InternalPage.GetSize, e] at h2
      | cons a rest =>
        cases rest with
        | nil => simp [InternalPage.GetSize, e] at h2
        | cons b rest1 =>
          rw [e] at hc
          simp only [List.head?_cons, Option.map_some', Option.some.injEq] at hc
          exact ⟨a.1, b.1, b.2, rest1, by rw [← hc]⟩
    have hNl : Nl.array_ ≠ [] := by
      intro e
      simp [InternalPage.GetSize, e] at h1
    obtain ⟨T, hrun, _, hpm⟩ := Redistribute_internal_next t par l r N X Y kl kr Nl Nr rest
      k0 k1 c c1 hN harr hl hlid hr hNr hlr hpl hpr hpage hcl hcr hcp
    refine ⟨T, { Nl with array_ := Nl.array_ ++ [(kr, c)] }, { Nr with array_ := (k1, c1) :: rest },
      { N with array_ := X ++ (kl, l) :: (k1, r) :: Y }, k1, hrun, ?_, ?_, ?_, ?_, ?_, ?_, rfl,
      rfl⟩
    · rw [hpm, if_neg (Ne.symm hpl), if_neg hlr, if_pos rfl]
    · rw [hpm, if_neg (Ne.symm hpr), if_pos rfl]
    · rw [hpm, if_pos rfl]
    · simp
    · simp [hNr]
    · simp only [spanSeq, hNr, inorderSeq_append Nl.array_ _ hNl]
      simp [inorderSeq, slotSeq]

theorem redistribute_internal_keeps_order_witness :
    (∃ T, Redistribute siblingTree 2 3 1 1 true = .ok T ∧
      T.pm 1 = some (.internal ⟨1, -1, 4, [(0, 2), (20, 3)]⟩) ∧
      T.pm 2 = some (.internal ⟨2, 1, 4, [(0, 10), (10, 11)]⟩) ∧
      T.pm 3 = some (.internal ⟨3, 1, 4, [(20, 12), (50, 13), (60, 14)]⟩)) ∧
    (∃ T, Redistribute siblingTree 3 2 1 0 false = .ok T ∧
      T.pm 1 = some (.internal ⟨1, -1, 4, [(0, 2), (60, 3)]⟩) ∧
      T.pm 2 = some (.internal ⟨2, 1, 4, [(0, 10), (10, 11), (20, 12), (50, 13)]⟩) ∧
      T.pm 3 = some (.internal ⟨3, 1, 4, [(60, 14)]⟩)) ∧
    (∃ T Nl1 Nr1 N1 sep, Redistribute siblingTree 2 3 1 1 true = .ok T ∧
      T.pm 2 = some (.internal Nl1) ∧ T.pm 3 = some (.internal Nr1) ∧
      T.pm 1 = some (.internal N1) ∧
      Nl1.array_.map Prod.snd ++ [12] = [10, 11, 12] ∧
      Nr1.array_.map Prod.snd = 12 :: [13, 14] ∧
      spanSeq Nl1.array_ sep Nr1.array_
        = spanSeq [(0, 10), (10, 11), (20, 12)] 50 [(0, 13), (60, 14)] ∧
      N1.array_ = [] ++ (0, 2) :: (sep, 3) :: [] ∧ Nr1.KeyAt 0 = .ok sep) :=
  ⟨⟨_, rfl, rfl, rfl, rfl⟩, ⟨_, rfl, rfl, rfl, rfl⟩,
   (redistribute_internal_keeps_order siblingTree 1 2 3 ⟨1, -1, 4, [(0, 2), (50, 3)]⟩ [] [] 0 50
     ⟨2, 1, 4, [(0, 10), (10, 11), (20, 12)]⟩ ⟨3, 1, 4, [(0, 13), (60, 14)]⟩
     rfl rfl rfl rfl rfl rfl (by decide) (by decide) (by decide)).1 12 rfl (by decide) (by decide)
     rfl (by decide) (by decide) (by decide)⟩

end BPlusTree

namespace BPlusTree

variable {K V : Type} [Inhabited K]

/-- Claim C35. `InsertIntoParent(old_node, key, new_node)` on a full parent
(`GetSize() == internal_max_size`): the `max_size + 1` entries `Full` formed by
putting `(key, new_node)` right after the pointer to `old_node` are divided;
the parent keeps the first `min_size` of them, the new sibling page gets all
the others in order, the two arrays together are `Full`, and the call goes on
one level up with the key of the sibling's slot 0, which is the key of the
first moved entry. -/
theorem full_parent_split_divides_entries (fuel : Nat) (t : Tree K V) (o n par : Int) (key : K)
    (nodeO nodeN : TreePage K V) (N : InternalPage K) (A B : List (K × Int)) (kc : K)
    (hPo : t.pm o = some nodeO) (hPn : t.pm n = some nodeN)
    (hnotroot : nodeO.IsRootPage = false) (hparO : nodeO.GetParentPageId = par)
    (hidO : nodeO.GetPageId = o) (hidN : nodeN.GetPageId = n)
    (hN : t.pm par = some (.internal N)) (hmax : N.max_size_ = t.internal_max_size_)
    (harr : N.array_ = A ++ (kc, o) :: B) (hAo : ∀ e ∈ A, e.2 ≠ o)
    (hfull : N.GetSize = t.internal_max_size_)
    (hchild : ∀ e ∈ A ++ (kc, o) :: (key, n) :: B,
      (t.pm e.2).isSome = true ∧ e.2 ≠ t.next_page_id_)
    (hpar : par ≠ t.next_page_id_) :
    ∃ T3 P1 S1 sep,
      (A ++ (kc, o) :: (key, n) :: B).length = t.internal_max_size_ + 1 ∧
      T3.pm par = some (.internal P1) ∧ T3.pm t.next_page_id_ = some (.internal S1) ∧
      P1.array_ = (A ++ (kc, o) :: (key, n) :: B).take (minSizeOf t.internal_max_size_) ∧
      S1.array_ = (A ++ (kc, o) :: (key, n) :: B).drop (minSizeOf t.internal_max_size_) ∧
      P1.GetSize = minSizeOf t.internal_max_size_ ∧
      P1.array_ ++ S1.array_ = A ++ (kc, o) :: (key, n) :: B ∧
      S1.array_.head?.map Prod.fst = some sep ∧ S1.KeyAt 0 = .ok sep ∧
      S1.page_id_ = t.next_page_id_ ∧ S1.parent_page_id_ = N.parent_page_id_ ∧
      P1.page_id_ = N.page_id_ ∧ P1.parent_page_id_ = N.parent_page_id_ ∧
      InsertIntoParent (fuel + 1) t o key n
        = (InsertIntoParent fuel T3 par sep t.next_page_id_).bind (fun t4 =>
            (t4.internalAt t.next_page_id_).bind (fun sibling1 =>
              .ok (UnpinPage (UnpinPage t4 par true) sibling1.page_id_ true))) := by
  have hins := InsertNodeAfter_spec N A kc o B key n harr hAo
  generalize hFull : A ++ (kc, o) :: (key, n) :: B = Full at hins hchild ⊢
  have hFlen : Full.length = t.internal_max_size_ + 1 := by
    rw [← hFull, ← hfull, InternalPage.GetSize, harr]
    simp only [List.length_append, List.length_cons]
    omega
  have hmle : minSizeOf t.internal_max_size_ < Full.length := by unfold minSizeOf; omega
  have hsplit := SplitInternal_spec (t.pin par)
    ({ N with array_ := Full } : InternalPage K)
    (by show minSizeOf N.max_size_ ≤ Full.length; rw [hmax]; omega)
    (fun e he => (hchild e (List.mem_of_mem_drop he)).1)
    (fun e he => (hchild e (List.mem_of_mem_drop he)).2)
  obtain ⟨t2, hsp, _, _, _, _, _, hpm2⟩ := hsplit
  dsimp only at hsp hpm2
  simp only [hmax] at hsp hpm2
  generalize hm : minSizeOf t.internal_max_size_ = m at hmle hsp hpm2 ⊢
  have hLR : Full.take m ++ Full.drop m = Full := List.take_append_drop m Full
  have hLlen : (Full.take m).length = m := by rw [List.length_take]; omega
  have hRlen : (Full.drop m).length = Full.length - m := List.length_drop _ _
  obtain ⟨k0, c0, Rt, hRt⟩ : ∃ k0 c0 Rt, Full.drop m = (k0, c0) :: Rt := by
    cases hd : Full.drop m with
    | nil => rw [hd] at hRlen; simp at hRlen; omega
    | cons e r => exact ⟨e.1, e.2, r, rfl⟩
  have hnx : (t.pin par).next_page_id_ = t.next_page_id_ := rfl
  have hsib : t2.pm t.next_page_id_ = some (.internal
      ⟨t.next_page_id_, N.parent_page_id_, t.internal_max_size_, Full.drop m⟩) := by
    rw [hpm2, hnx, if_pos rfl]
    rfl
  refine ⟨t2.setPage par (.internal { N with array_ := Full.take m }),
    { N with array_ := Full.take m },
    ⟨t.next_page_id_, N.parent_page_id_, t.internal_max_size_, Full.drop m⟩, k0,
    hFlen, pm_setPage_self _ _ _, ?_, rfl, rfl, hLlen, hLR, by rw [hRt]; rfl,
    by simp [InternalPage.KeyAt, hRt], rfl, rfl, rfl, rfl, ?_⟩
  · rw [pm_setPage_ne _ _ _ _ (Ne.symm hpar)]
    exact hsib
  · simp only [InsertIntoParent, pageAt_eq t o nodeO hPo, pageAt_eq t n nodeN hPn, ok_bind,
      hnotroot, Bool.false_eq_true, if_false, hparO, FetchPage_eq t par _ hN, hidO, hidN]
    rw [if_neg (show ¬ N.GetSize < (t.pin par).internal_max_size_ from by
      rw [hfull]; exact lt_irrefl _), hins]
    simp only [ok_bind, hmax]
    rw [hsp]
    simp only [ok_bind]
    rw [hnx, internalAt_eq t2 _ _ hsib]
    simp only [ok_bind, InternalPage.KeyAt, hRt, List.get?_cons_zero]
    rfl

theorem full_parent_split_divides_entries_witness :
    fullParentAfter =
      [(1, .internal ⟨1, 7, 3, [(0, 2), (10, 3)]⟩),
       (2, .leaf ⟨2, 1, 3, 3, [(1, 1), (2, 2)]⟩),
       (3, .leaf ⟨3, 1, 3, 5, [(10, 10), (11, 11)]⟩),
       (4, .leaf ⟨4, 6, 3, -1, [(20, 20), (21, 21)]⟩),
       (5, .leaf ⟨5, 6, 3, 4, [(15, 15), (16, 16)]⟩),
       (6, .internal ⟨6, 7, 3, [(15, 5), (20, 4)]⟩),
       (7, .internal ⟨7, -1, 3, [(default, 1), (15, 6)]⟩)] ∧
    ∃ T3 P1 S1 sep,
      (([(0, 2)] : List (Nat × Int)) ++ (10, 3) :: (15, 5) :: [(20, 4)]).length
        = fullParentTree.internal_max_size_ + 1 ∧
      T3.pm 1 = some (.internal P1) ∧ T3.pm fullParentTree.next_page_id_ = some (.internal S1) ∧
      P1.array_ = (([(0, 2)] : List (Nat × Int)) ++ (10, 3) :: (15, 5) :: [(20, 4)]).take
        (minSizeOf fullParentTree.internal_max_size_) ∧
      S1.array_ = (([(0, 2)] : List (Nat × Int)) ++ (10, 3) :: (15, 5) :: [(20, 4)]).drop
        (minSizeOf fullParentTree.internal_max_size_) ∧
      P1.GetSize = minSizeOf fullParentTree.internal_max_size_ ∧
      P1.array_ ++ S1.array_ = [(0, 2)] ++ (10, 3) :: (15, 5) :: [(20, 4)] ∧
      S1.array_.head?.map Prod.fst = some sep ∧ S1.KeyAt 0 = .ok sep ∧
      S1.page_id_ = fullParentTree.next_page_id_ ∧ S1.parent_page_id_ = -1 ∧
      P1.page_id_ = 1 ∧ P1.parent_page_id_ = -1 ∧
      InsertIntoParent (2 + 1) fullParentTree 3 15 5
        = (InsertIntoParent 2 T3 1 sep fullParentTree.next_page_id_).bind (fun t4 =>
            (t4.internalAt fullParentTree.next_page_id_).bind (fun sibling1 =>
              .ok (UnpinPage (UnpinPage t4 1 true) sibling1.page_id_ true))) :=
  ⟨by decide,
   full_parent_split_divides_entries 2 fullParentTree 3 5 1 15
     (.leaf ⟨3, 1, 3, 5, [(10, 10), (11, 11)]⟩) (.leaf ⟨5, 1, 3, 4, [(15, 15), (16, 16)]⟩)
     ⟨1, -1, 3, [(0, 2), (10, 3), (20, 4)]⟩ [(0, 2)] [(20, 4)] 10
     rfl rfl (by decide) rfl rfl rfl rfl rfl rfl (by decide) rfl (by decide) (by decide)⟩

end BPlusTree

namespace BPlusTree

variable {K V : Type}

theorem pinOf_pin (t : Tree K V) (id x : Int) :
    (t.pin id).pinOf x = if x = id then t.pinOf id + 1 else t.pinOf x := by
  unfold Tree.pin Tree.pinOf
  simp only [UMap.find_put]
  split <;> rfl

theorem pinOf_setPage (t : Tree K V) (id : Int) (p : TreePage K V) (x : Int) :
    (t.setPage id p).pinOf x = t.pinOf x := rfl

theorem pinOf_UnpinPage (t : Tree K V) (id : Int) (d : Bool) (x : Int) :
    (UnpinPage t id d).pinOf x = if x = id then t.pinOf id - 1 else t.pinOf x := by
  unfold UnpinPage
  by_cases h0 : t.pinOf id = 0
  · rw [if_pos h0]
    split
    · next e => rw [e, h0]
    · rfl
  · rw [if_neg h0]
    unfold Tree.pinOf
    simp only [UMap.find_put]
    split <;> rfl

theorem page_set_UnpinPage (t : Tree K V) (id : Int) (d : Bool) :
    (UnpinPage t id d).page_set_ = t.page_set_ := by
  unfold UnpinPage
  split <;> rfl

theorem PinSame.refl_pin (t : Tree K V) : PinSame t t := ⟨fun _ => rfl, rfl⟩

theorem PinSame.trans_pin {t t1 t2 : Tree K V} (h1 : PinSame t t1) (h2 : PinSame t1 t2) :
    PinSame t t2 :=
  ⟨fun id => (h2.1 id).trans (h1.1 id), h2.2.trans h1.2⟩

theorem PinSame_setPage (t : Tree K V) (id : Int) (p : TreePage K V) :
    PinSame t (t.setPage id p) := ⟨fun _ => rfl, rfl⟩

/-- A fetch followed by the unpin of the same page leaves every pin count. -/
theorem PinSame_fetch_unpin (t : Tree K V) (id : Int) (p : TreePage K V) (d : Bool) :
    PinSame t (UnpinPage ((t.pin id).setPage id p) id d) := by
  refine ⟨fun x => ?_, ?_⟩
  · rw [pinOf_UnpinPage, pinOf_setPage, pinOf_setPage, pinOf_pin, if_pos rfl]
    by_cases e : x = id
    · rw [if_pos e, e]
      omega
    · rw [if_neg e, pinOf_pin, if_neg e]
  · rw [page_set_UnpinPage]
    rfl

theorem bind_eq_ok {α β : Type} (x : Except Err α) (f : α → Except Err β) (r : β)
    (h : (x >>= f) = .ok r) : ∃ a, x = .ok a ∧ f a = .ok r := by
  cases x with
  | error e => cases h
  | ok a => exact ⟨a, rfl, h⟩

/-- The loop of `CopyNFrom` fetches and unpins each moved child once. -/
theorem adoptChildren_pins (q : Int) (items : List (K × Int)) (t T : Tree K V)
    (h : adoptChildren q t items = .ok T) : PinSame t T := by
  induction items generalizing t with
  | nil =>
    simp only [adoptChildren, Except.ok.injEq] at h
    rw [← h]
    exact PinSame.refl_pin t
  | cons e rest ih =>
    simp only [adoptChildren] at h
    cases hf : FetchPage t e.2 with
    | error err => rw [hf] at h; cases h
    | ok r =>
      rw [hf] at h
      simp only [] at h
      have hr : r.1 = t.pin e.2 := by
        unfold FetchPage at hf
        split at hf
        · simp only [Except.ok.injEq] at hf
          rw [← hf]
        · cases hf
      rw [hr] at h
      exact (PinSame_fetch_unpin t e.2 _ true).trans_pin (ih _ h)

theorem CopyNFrom_pins (t T : Tree K V) (rcp : Int) (items : List (K × Int))
    (h : InternalPage.CopyNFrom t rcp items = .ok T) : PinSame t T := by
  unfold InternalPage.CopyNFrom at h
  obtain ⟨this, _, h⟩ := bind_eq_ok _ _ _ h
  obtain ⟨t1, h1, h⟩ := bind_eq_ok _ _ _ h
  obtain ⟨this1, _, h⟩ := bind_eq_ok _ _ _ h
  simp only [pure, Except.pure, Except.ok.injEq] at h
  rw [← h]
  exact (adoptChildren_pins _ _ _ _ h1).trans_pin (PinSame_setPage _ _ _)

theorem CopyLastFrom_pins (t T : Tree K V) (rcp : Int) (pair : K × Int)
    (h : InternalPage.CopyLastFrom t rcp pair = .ok T) : PinSame t T := by
  unfold InternalPage.CopyLastFrom at h
  obtain ⟨this, _, h⟩ := bind_eq_ok _ _ _ h
  exact (PinSame_setPage _ _ _).trans_pin (adoptChildren_pins _ _ _ _ h)

theorem CopyFirstFrom_pins (t T : Tree K V) (rcp : Int) (pair : K × Int)
    (h : InternalPage.CopyFirstFrom t rcp pair = .ok T) : PinSame t T := by
  unfold InternalPage.CopyFirstFrom at h
  obtain ⟨this, _, h⟩ := bind_eq_ok _ _ _ h
  exact (PinSame_setPage _ _ _).trans_pin (adoptChildren_pins _ _ _ _ h)

theorem GetParentPageId_SetParentPageId (p : TreePage K V) (q : Int) :
    (p.SetParentPageId q).GetParentPageId = q := by
  cases p <;> rfl

theorem Adopted_of_pm (t T : Tree K V) (rcp : Int) (items : List (K × Int)) (x : TreePage K V)
    (hpages : ∀ e ∈ items, (t.pm e.2).isSome = true)
    (hnot : rcp ∉ items.map Prod.snd) (hpin : PinSame t T)
    (hpm : ∀ id, T.pm id = if id = rcp then some x
      else if id ∈ items.map Prod.snd then (t.pm id).map (fun p => p.SetParentPageId rcp)
      else t.pm id) : Adopted t T rcp items := by
  have h1 : ∀ c ∈ items.map Prod.snd, T.pm c = (t.pm c).map (fun p => p.SetParentPageId rcp) := by
    intro c hc
    rw [hpm, if_neg (fun e : c = rcp => hnot (e ▸ hc)), if_pos hc]
  refine ⟨h1, ?_, ?_, hpin.1⟩
  · intro c hc
    rw [h1 c hc]
    obtain ⟨e, he, he2⟩ := List.mem_map.1 hc
    have := hpages e he
    rw [he2] at this
    cases hp : t.pm c with
    | none => rw [hp] at this; cases this
    | some p => simp [GetParentPageId_SetParentPageId]
  · intro id h1 h2
    rw [hpm, if_neg h1, if_neg h2]

/-- Claim C37. `CopyNFrom`, `CopyLastFrom` and `CopyFirstFrom` into the internal
page `rcp`, the moved children having pages of their own: the recipient takes
the entries at its end (at its front for `CopyFirstFrom`), every moved child
page gets `rcp` as its parent id and is otherwise kept, every other page is
unchanged, and the pin count of every page is what it was before the call. -/
theorem copied_children_adopt_recipient (t : Tree K V) (rcp : Int) (Nr : InternalPage K)
    (items : List (K × Int))
    (hr : t.pm rcp = some (.internal Nr)) (hid : Nr.page_id_ = rcp)
    (hpages : ∀ e ∈ items, (t.pm e.2).isSome = true)
    (hnot : rcp ∉ items.map Prod.snd) :
    (∃ T, InternalPage.CopyNFrom t rcp items = .ok T ∧ Adopted t T rcp items ∧
      T.pm rcp = some (.internal { Nr with array_ := Nr.array_ ++ items })) ∧
    (∀ pair, items = [pair] →
      (∃ T, InternalPage.CopyLastFrom t rcp pair = .ok T ∧ Adopted t T rcp items ∧
        T.pm rcp = some (.internal { Nr with array_ := Nr.array_ ++ [pair] })) ∧
      (∃ T, InternalPage.CopyFirstFrom t rcp pair = .ok T ∧ Adopted t T rcp items ∧
        T.pm rcp = some (.internal { Nr with array_ := pair :: Nr.array_ }))) := by
  refine ⟨?_, ?_⟩
  · obtain ⟨T, hrun, _, hpm⟩ := CopyNFrom_spec t rcp Nr items hr hid hpages hnot
    exact ⟨T, hrun, Adopted_of_pm t T rcp items _ hpages hnot (CopyNFrom_pins _ _ _ _ hrun) hpm,
      by rw [hpm, if_pos rfl]⟩
  · intro pair hitems
    subst hitems
    have hpage : (t.pm pair.2).isSome = true := hpages pair (List.mem_singleton.2 rfl)
    have hne : rcp ≠ pair.2 := fun e => hnot (by simp [← e])
    refine ⟨?_, ?_⟩
    · obtain ⟨T, hrun, _, hpm⟩ := CopyLastFrom_spec t rcp Nr pair hr hid hpage hne
      refine ⟨T, hrun, Adopted_of_pm t T rcp [pair]
        (.internal { Nr with array_ := Nr.array_ ++ [pair] }) hpages hnot
        (CopyLastFrom_pins _ _ _ _ hrun) (fun id => ?_), by rw [hpm, if_pos rfl]⟩
      rw [hpm]
      simp only [List.map_cons, List.map_nil, List.mem_singleton]
    · obtain ⟨T, hrun, _, hpm⟩ := CopyFirstFrom_spec t rcp Nr pair hr hid hpage hne
      refine ⟨T, hrun, Adopted_of_pm t T rcp [pair]
        (.internal { Nr with array_ := pair :: Nr.array_ }) hpages hnot
        (CopyFirstFrom_pins _ _ _ _ hrun) (fun id => ?_), by rw [hpm, if_pos rfl]⟩
      rw [hpm]
      simp only [List.map_cons, List.map_nil, List.mem_singleton]

theorem copied_children_adopt_recipient_witness :
    (∃ T, InternalPage.CopyNFrom pinnedSiblingTree 3 [(20, 12), (30, 11)] = .ok T ∧
      T.pm 12 = some (.leaf ⟨12, 3, 4, 13, [(20, 20)]⟩) ∧
      T.pm 11 = some (.leaf ⟨11, 3, 4, 12, [(10, 10)]⟩) ∧
      T.pm 10 = some (.leaf ⟨10, 2, 4, 11, [(1, 1)]⟩) ∧
      T.pinOf 12 = 2 ∧ T.pinOf 11 = 0 ∧ T.pinOf 3 = 1) ∧
    (∃ T, InternalPage.CopyNFrom pinnedSiblingTree 3 [(20, 12), (30, 11)] = .ok T ∧
      Adopted pinnedSiblingTree T 3 [(20, 12), (30, 11)] ∧
      T.pm 3 = some (.internal { (⟨3, 1, 4, [(0, 13), (60, 14)]⟩ : InternalPage Nat) with
        array_ := [(0, 13), (60, 14)] ++ [(20, 12), (30, 11)] })) :=
  ⟨⟨_, rfl, rfl, rfl, rfl, rfl, rfl, rfl⟩,
   (copied_children_adopt_recipient pinnedSiblingTree 3 ⟨3, 1, 4, [(0, 13), (60, 14)]⟩
     [(20, 12), (30, 11)] rfl rfl (by decide) (by decide)).1⟩

end BPlusTree

namespace BPlusTree

variable {K V : Type}

/-- The loop of `FindLeaf` returns the same with more fuel. -/
theorem descend_mono [LinearOrder K] (key : K) (operation : Operation) (leftMost rightMost : Bool)
    (fuel : Nat) : ∀ (t : Tree K V) (page : Int) (node : TreePage K V) (r : Tree K V × Int),
    descend key operation leftMost rightMost fuel t page node = .ok r →
    descend key operation leftMost rightMost (fuel + 1) t page node = .ok r := by
  induction fuel with
  | zero =>
    intro t page node r h
    cases node with
    | leaf L => simpa [descend] using h
    | internal N => simp [descend] at h
  | succ n ih =>
    intro t page node r h
    cases node with
    | leaf L => simpa [descend] using h
    | internal N =>
      simp only [descend] at h ⊢
      split at h
      · cases h
      · next c hc =>
        split at h
        · cases h
        · next hpos =>
          split at h
          · cases h
          · next t1 cn hf =>
            rw [if_neg hpos]
            exact ih _ _ _ _ h

theorem FindLeaf_mono [LinearOrder K] (fuel : Nat) (t : Tree K V) (key : K)
    (operation : Operation) (leftMost rightMost : Bool) (r : Tree K V × Int)
    (h : FindLeaf fuel t key operation leftMost rightMost = .ok r) :
    FindLeaf (fuel + 1) t key operation leftMost rightMost = .ok r := by
  unfold FindLeaf at h ⊢
  split at h
  · cases h
  · next h1 =>
    rw [if_neg h1]
    split at h
    · cases h
    · next h2 =>
      rw [if_neg h2]
      split at h
      · cases h
      · next t1 node hf =>
        exact descend_mono _ _ _ _ _ _ _ _ _ h

end BPlusTree

namespace BPlusTree

variable {K V : Type}

theorem InsertIntoParent_mono [Inhabited K] (fuel : Nat) :
    ∀ (t : Tree K V) (o : Int) (key : K) (n : Int) (r : Tree K V),
    InsertIntoParent fuel t o key n = .ok r → InsertIntoParent (fuel + 1) t o key n = .ok r := by
  induction fuel with
  | zero =>
    intro t o key n r h
    simp [InsertIntoParent] at h
  | succ f ih =>
    intro t o key n r h
    unfold InsertIntoParent at h ⊢
    simp only [] at h ⊢
    obtain ⟨old, h1, h⟩ := bind_eq_ok _ _ _ h
    rw [h1, ok_bind]
    obtain ⟨new, h2, h⟩ := bind_eq_ok _ _ _ h
    rw [h2, ok_bind]
    by_cases hroot : old.IsRootPage = true
    · rw [if_pos hroot] at h ⊢
      exact h
    · rw [if_neg hroot] at h ⊢
      obtain ⟨x, h3, h⟩ := bind_eq_ok _ _ _ h
      rw [h3, ok_bind]
      split at h
      · cases h
      · next pn hpn =>
        by_cases hsz : pn.GetSize < x.1.internal_max_size_
        · rw [if_pos hsz] at h ⊢
          exact h
        · rw [if_neg hsz] at h ⊢
          obtain ⟨cp, h4, h⟩ := bind_eq_ok _ _ _ h
          rw [h4, ok_bind]
          obtain ⟨y, h5, h⟩ := bind_eq_ok _ _ _ h
          rw [h5, ok_bind]
          obtain ⟨sib, h6, h⟩ := bind_eq_ok _ _ _ h
          rw [h6, ok_bind]
          obtain ⟨nk, h7, h⟩ := bind_eq_ok _ _ _ h
          rw [h7, ok_bind]
          obtain ⟨t4, h8, h⟩ := bind_eq_ok _ _ _ h
          rw [ih _ _ _ _ _ h8, ok_bind]
          exact h

end BPlusTree

namespace BPlusTree

variable {K V : Type}

theorem InsertIntoLeaf_mono [LinearOrder K] [Inhabited K] (fuel : Nat) (t : Tree K V) (key : K)
    (value : V) (r : Tree K V × Bool) (h : InsertIntoLeaf fuel t key value = .ok r) :
    InsertIntoLeaf (fuel + 1) t key value = .ok r := by
  unfold InsertIntoLeaf at h ⊢
  obtain ⟨x, h1, h⟩ := bind_eq_ok _ _ _ h
  rw [FindLeaf_mono _ _ _ _ _ _ _ h1, ok_bind]
  obtain ⟨t1, lp⟩ := x
  simp only [] at h ⊢
  obtain ⟨node, h2, h⟩ := bind_eq_ok _ _ _ h
  rw [h2, ok_bind]
  rcases hI : node.Insert key value with ⟨node1, ns⟩
  rw [hI] at h
  simp only [] at h ⊢
  split at h
  · next hc => rw [if_pos hc]; exact h
  · next hc =>
    rw [if_neg hc]
    split at h
    · next hc2 => rw [if_pos hc2]; exact h
    · next hc2 =>
      rw [if_neg hc2]
      obtain ⟨y, h3, h⟩ := bind_eq_ok _ _ _ h
      rw [h3, ok_bind]
      obtain ⟨t3, sl⟩ := y
      simp only [] at h ⊢
      obtain ⟨node2, h4, h⟩ := bind_eq_ok _ _ _ h
      rw [h4, ok_bind]
      obtain ⟨sib, h5, h⟩ := bind_eq_ok _ _ _ h
      rw [h5, ok_bind]
      obtain ⟨sib1, h6, h⟩ := bind_eq_ok _ _ _ h
      rw [h6, ok_bind]
      obtain ⟨node3, h7, h⟩ := bind_eq_ok _ _ _ h
      rw [h7, ok_bind]
      obtain ⟨sib2, h8, h⟩ := bind_eq_ok _ _ _ h
      rw [h8, ok_bind]
      obtain ⟨rk, h9, h⟩ := bind_eq_ok _ _ _ h
      rw [h9, ok_bind]
      obtain ⟨t6, h10, h⟩ := bind_eq_ok _ _ _ h
      rw [InsertIntoParent_mono _ _ _ _ _ _ h10, ok_bind]
      exact h

theorem Insert_mono [LinearOrder K] [Inhabited K] (fuel : Nat) (t : Tree K V) (key : K)
    (value : V) (r : Tree K V × Bool) (h : Insert fuel t key value = .ok r) :
    Insert (fuel + 1) t key value = .ok r := by
  have hfree := Insert_unlatched h
  rw [Insert_free hfree] at h ⊢
  simp only [] at h ⊢
  split at h
  · next hc => rw [if_pos hc]; exact h
  · next hc => rw [if_neg hc]; exact InsertIntoLeaf_mono _ _ _ _ _ h

/-- `Coalesce` returns the same when the call that ends it does. -/
theorem Coalesce_mono (rec1 rec2 : Tree K V → Int → Except Err (Tree K V × Bool))
    (hrec : ∀ T p r, rec1 T p = .ok r → rec2 T p = .ok r)
    (t : Tree K V) (neighbor node parent : Int) (index : Nat) (r : Tree K V × Bool)
    (h : Coalesce rec1 t neighbor node parent index = .ok r) :
    Coalesce rec2 t neighbor node parent index = .ok r := by
  unfold Coalesce at h ⊢
  obtain ⟨p, h1, h⟩ := bind_eq_ok _ _ _ h
  rw [h1, ok_bind]
  obtain ⟨mk, h2, h⟩ := bind_eq_ok _ _ _ h
  rw [h2, ok_bind]
  obtain ⟨n, h3, h⟩ := bind_eq_ok _ _ _ h
  rw [h3, ok_bind]
  obtain ⟨t1, h4, h⟩ := bind_eq_ok _ _ _ h
  rw [h4, ok_bind]
  obtain ⟨p1, h5, h⟩ := bind_eq_ok _ _ _ h
  rw [h5, ok_bind]
  obtain ⟨p2, h6, h⟩ := bind_eq_ok _ _ _ h
  rw [h6, ok_bind]
  exact hrec _ _ _ h

theorem CoalesceOrRedistribute_mono (fuel : Nat) :
    ∀ (t : Tree K V) (node : Int) (r : Tree K V × Bool),
    CoalesceOrRedistribute fuel t node = .ok r →
    CoalesceOrRedistribute (fuel + 1) t node = .ok r := by
  induction fuel with
  | zero =>
    intro t node r h
    simp [CoalesceOrRedistribute] at h
  | succ f ih =>
    intro t node r h
    unfold CoalesceOrRedistribute at h ⊢
    simp only [] at h ⊢
    obtain ⟨n, h1, h⟩ := bind_eq_ok _ _ _ h
    rw [h1, ok_bind]
    by_cases hroot : n.IsRootPage = true
    · rw [if_pos hroot] at h ⊢
      exact h
    · rw [if_neg hroot] at h ⊢
      by_cases hsz : n.GetSize ≥ n.GetMinSize
      · rw [if_pos hsz] at h ⊢
        exact h
      · rw [if_neg hsz] at h ⊢
        obtain ⟨x, h2, h⟩ := bind_eq_ok _ _ _ h
        rw [h2, ok_bind]
        split at h
        · cases h
        · next pn hpn =>
          by_cases hidx : pn.ValueIndex n.GetPageId > 0
          · rw [if_pos hidx] at h ⊢
            obtain ⟨sp, h3, h⟩ := bind_eq_ok _ _ _ h
            rw [h3, ok_bind]
            obtain ⟨y, h4, h⟩ := bind_eq_ok _ _ _ h
            rw [h4, ok_bind]
            by_cases hbig : y.2.GetSize > y.2.GetMinSize
            · rw [if_pos hbig] at h ⊢
              exact h
            · rw [if_neg hbig] at h ⊢
              obtain ⟨z, h5, h⟩ := bind_eq_ok _ _ _ h
              rw [Coalesce_mono _ _ ih _ _ _ _ _ _ h5, ok_bind]
              exact h
          · rw [if_neg hidx] at h ⊢
            by_cases hlast : pn.ValueIndex n.GetPageId + 1 ≠ pn.GetSize
            · rw [if_pos hlast] at h ⊢
              obtain ⟨sp, h3, h⟩ := bind_eq_ok _ _ _ h
              rw [h3, ok_bind]
              obtain ⟨y, h4, h⟩ := bind_eq_ok _ _ _ h
              rw [h4, ok_bind]
              by_cases hbig : y.2.GetSize > y.2.GetMinSize
              · rw [if_pos hbig] at h ⊢
                exact h
              · rw [if_neg hbig] at h ⊢
                obtain ⟨z, h5, h⟩ := bind_eq_ok _ _ _ h
                rw [Coalesce_mono _ _ ih _ _ _ _ _ _ h5, ok_bind]
                exact h
            · rw [if_neg hlast] at h ⊢
              exact h

theorem Remove_mono [LinearOrder K] (fuel : Nat) (t : Tree K V) (key : K) (r : Tree K V)
    (h : Remove fuel t key = .ok r) : Remove (fuel + 1) t key = .ok r := by
  have hfree := Remove_unlatched h
  rw [Remove_free hfree] at h ⊢
  dsimp only at h ⊢
  by_cases hc : IsEmpty (AddIntoPageSet t none) = true
  · rw [if_pos hc] at h ⊢; exact h
  · rw [if_neg hc] at h ⊢
    obtain ⟨x, h1, h⟩ := bind_eq_ok _ _ _ h
    rw [FindLeaf_mono _ _ _ _ _ _ _ h1, ok_bind]
    obtain ⟨t1, lp⟩ := x
    dsimp only at h ⊢
    obtain ⟨node, h2, h⟩ := bind_eq_ok _ _ _ h
    rw [h2, ok_bind]
    rcases hI : node.RemoveAndDeleteRecord key with ⟨node1, ns⟩
    rw [hI] at h
    dsimp only at h ⊢
    by_cases hc2 : node.GetSize = ns
    · rw [if_pos hc2] at h ⊢; exact h
    · rw [if_neg hc2] at h ⊢
      obtain ⟨y, h3, h⟩ := bind_eq_ok _ _ _ h
      rw [CoalesceOrRedistribute_mono _ _ _ _ h3, ok_bind]
      exact h

end BPlusTree


namespace BPlusTree

variable {K V : Type}

theorem fuel_mono_le {α : Type} (f : Nat → Except Err α)
    (hm : ∀ fuel r, f fuel = .ok r → f (fuel + 1) = .ok r) (m k : Nat) (r : α)
    (h : f m = .ok r) (hk : m ≤ k) : f k = .ok r := by
  induction hk with
  | refl => exact h
  | step _ ih => exact hm _ _ ih

theorem KidsL_contents_ne [LinearOrder K]
    {R : Int → Option K → Option K → List (LeafView K V) → List Int → Prop}
    {lo hi : Option K} {A : List (K × Int)} {ls : List (LeafView K V)} {ids : List Int}
    (H : ∀ c lo1 hi1 ls1 ids1, R c lo1 hi1 ls1 ids1 → contents ls1 ≠ [])
    (hne : A ≠ []) (h : KidsL R lo A hi ls ids) : contents ls ≠ [] := by
  cases A with
  | nil => exact absurd rfl hne
  | cons e rest =>
    obtain ⟨_, la, lb, ia, ib, e1, _, hR, _⟩ := h
    subst e1
    have := H _ _ _ _ _ hR
    intro hc
    rw [contents_append] at hc
    exact this (List.append_eq_nil.1 hc).1

/-- A well-formed subtree whose top page is not under-full holds a pair. -/
theorem Rep_contents_ne [LinearOrder K] {P : Int → Option (TreePage K V)} {lm im : Nat} {h : Nat}
    {pid par : Int} {lo hi : Option K} {ls : List (LeafView K V)} {ids : List Int}
    (hr : Rep P lm im true h pid par lo hi ls ids) : contents ls ≠ [] := by
  induction h generalizing pid par lo hi ls ids with
  | zero =>
    obtain ⟨L, h1, h2, h3, h4, h5, h6, h7, h8, h9⟩ := hr
    rw [h8, contents_singleton]
    exact h7 rfl
  | succ n ih =>
    obtain ⟨N, ids1, h1, h2, h3, h4, h5, h6, h7, h8⟩ := hr
    exact KidsL_contents_ne (fun c lo1 hi1 ls1 ids2 hrc => ih hrc) h5 h7

/-- A tree that satisfies the invariant and holds no pair is empty. -/
theorem TreeInv_empty_of_no_key [LinearOrder K] {t : Tree K V} {ls : List (LeafView K V)}
    (hinv : TreeInv t ls) (hk : ∀ k, lookupKV (contents ls) k = none) :
    t.root_page_id_ = INVALID_PAGE_ID := by
  rcases hinv.shape with ⟨hroot, -⟩ | ⟨⟨h, ids, hr, -, -⟩, -⟩
  · exact hroot
  · exfalso
    apply Rep_contents_ne hr
    cases hc : contents ls with
    | nil => rfl
    | cons e rest =>
      have := hk e.1
      rw [hc, lookupKV_cons, if_pos rfl] at this
      cases this

variable [LinearOrder K] [Inhabited K]

/-- With fuel above a bound that depends on the tree only, `Insert` returns one
and the same result, which keeps the invariant. -/
theorem Insert_returns (key : K) (value : V) (t : Tree K V) (ls : List (LeafView K V))
    (hinv : TreeInv t ls) (hfree : t.rootLatchHeld = false) :
    ∃ n t1 ls1 b, (∀ fuel, n < fuel → Insert fuel t key value = .ok (t1, b)) ∧ TreeInv t1 ls1 := by
  obtain ⟨n, hspec⟩ := Insert_keeps_inv key value t ls hinv hfree
  rcases hspec (n + 1) with ⟨hle, -⟩ | ⟨t1, ls1, hok, hinv1, -, -⟩
  · omega
  · exact ⟨n, t1, ls1, _, fun fuel hf =>
      fuel_mono_le (fun f => Insert f t key value) (fun f r => Insert_mono f t key value r)
        (n + 1) fuel _ hok hf, hinv1⟩

omit [Inhabited K] in
/-- With fuel above a bound that depends on the tree only, `Remove` returns one
and the same tree, which keeps the invariant. -/
theorem Remove_returns (key : K) (t : Tree K V) (ls : List (LeafView K V))
    (hinv : TreeInv t ls) (hfree : t.rootLatchHeld = false) :
    ∃ n t1 ls1, (∀ fuel, n < fuel → Remove fuel t key = .ok t1) ∧ TreeInv t1 ls1 := by
  obtain ⟨n, hspec⟩ := Remove_keeps_inv key t ls hinv hfree
  rcases hspec (n + 1) with ⟨hle, -⟩ | ⟨t1, ls1, hok, hinv1, -⟩
  · omega
  · exact ⟨n, t1, ls1, fun fuel hf =>
      fuel_mono_le (fun f => Remove f t key) (fun f r => Remove_mono f t key r)
        (n + 1) fuel _ hok hf, hinv1⟩

omit [Inhabited K] in
theorem foldl_applyOp_removes (k : K) (removals : List K) (cur : Option V) :
    (removals.map Op.remove).foldl (applyOp k) cur = if k ∈ removals then none else cur := by
  induction removals generalizing cur with
  | nil => simp
  | cons r rest ih =>
    rw [List.map_cons, List.foldl_cons, ih]
    simp only [applyOp, List.mem_cons]
    by_cases h1 : k ∈ rest
    · simp [h1]
    · by_cases h2 : r = k
      · simp [h2]
      · have h3 : ¬ k = r := fun e => h2 e.symm
        simp [h1, h2, h3]

omit [Inhabited K] in
theorem foldl_applyOp_inserts (k : K) (pairs : List (K × V)) (hk : k ∉ pairs.map Prod.fst) :
    (pairs.map (fun p => Op.insert p.1 p.2)).foldl (applyOp k) none = none := by
  induction pairs with
  | nil => rfl
  | cons p rest ih =>
    simp only [List.map_cons, List.mem_cons, not_or] at hk
    rw [List.map_cons, List.foldl_cons]
    rw [show applyOp k none (Op.insert p.1 p.2) = none from by
      simp only [applyOp]; exact if_neg (fun e : p.1 = k => hk.1 e.symm)]
    exact ih hk.2

end BPlusTree

namespace BPlusTree

variable {K V : Type}

theorem bump_comm (held : Int → Nat) (a b : Int) :
    bump (bump held a) b = bump (bump held b) a := by
  funext x
  simp only [bump]
  split_ifs <;> rfl

theorem Bal_of_BalZ {t : Tree K V} {held : Int → Nat} (h : BalZ t held) : Bal t held := by
  intro id
  rw [h.1 id, h.2]
  simp

theorem BalZ_of_Bal {t : Tree K V} {held : Int → Nat} (h : Bal t held) (hp : t.page_set_ = []) :
    BalZ t held := by
  refine ⟨fun id => ?_, hp⟩
  rw [h id, hp]
  simp

theorem Bal_of_PinSame {t T : Tree K V} {held : Int → Nat} (hp : PinSame t T)
    (h : Bal t held) : Bal T held := by
  intro id
  rw [hp.1 id, hp.2]
  exact h id

theorem Bal_pin {t : Tree K V} {held : Int → Nat} (h : Bal t held) (id : Int) :
    Bal (t.pin id) (bump held id) := by
  intro x
  rw [pinOf_pin]
  show _ = t.page_set_.count (some x) + bump held id x
  simp only [bump]
  have := h x
  split_ifs with e
  · subst e; omega
  · omega

theorem Bal_UnpinPage {t : Tree K V} {held : Int → Nat} {id : Int} (h : Bal t (bump held id))
    (d : Bool) : Bal (UnpinPage t id d) held := by
  intro x
  rw [pinOf_UnpinPage, page_set_UnpinPage]
  have := h x
  simp only [bump] at this
  have h2 := h id
  simp only [bump, if_true] at h2
  split_ifs with e
  · subst e; omega
  · rw [if_neg e] at this; omega

theorem Bal_setPage {t : Tree K V} {held : Int → Nat} (h : Bal t held) (id : Int)
    (p : TreePage K V) : Bal (t.setPage id p) held := h

theorem Bal_AddIntoPageSet_none {t : Tree K V} {held : Int → Nat} (h : Bal t held) :
    Bal (AddIntoPageSet t none) held := by
  intro x
  show t.pinOf x = List.count (some x) (t.page_set_ ++ [none]) + held x
  rw [h x]
  simp [List.count_append, List.count_cons]

theorem Bal_AddIntoPageSet_some {t : Tree K V} {held : Int → Nat} {p : Int}
    (h : Bal t (bump held p)) : Bal (AddIntoPageSet t (some p)) held := by
  intro x
  show t.pinOf x = List.count (some x) (t.page_set_ ++ [some p]) + held x
  rw [h x]
  simp only [bump, List.count_append, List.count_cons, List.count_nil, beq_iff_eq,
    Option.some.injEq]
  by_cases e : x = p
  · subst e; simp; omega
  · have e2 : ¬ p = x := fun e1 => e e1.symm
    simp [e, e2]

theorem Bal_foldl_unpin (l : List (Option Int)) (held : Int → Nat) : ∀ (t : Tree K V),
    (∀ id, t.pinOf id = l.count (some id) + held id) →
    ∀ id, (l.foldl (fun acc page => match page with
      | none => acc
      | some page_id => UnpinPage acc page_id false) t).pinOf id = held id := by
  induction l with
  | nil =>
    intro t h id
    simpa using h id
  | cons p rest ih =>
    intro t h
    simp only [List.foldl_cons]
    cases p with
    | none =>
      apply ih
      intro id
      rw [h id]
      simp [List.count_cons]
    | some a =>
      apply ih
      intro id
      rw [pinOf_UnpinPage]
      have h1 := h id
      have h2 := h a
      simp only [List.count_cons, beq_iff_eq, Option.some.injEq, if_true] at h1 h2
      by_cases e : id = a
      · subst e
        rw [if_pos rfl]
        omega
      · rw [if_neg e]
        rw [if_neg (fun e1 => e e1.symm)] at h1
        omega

theorem Bal_ReleaseLatchFromQueue {t : Tree K V} {held : Int → Nat} (h : Bal t held) :
    BalZ (ReleaseLatchFromQueue t) held :=
  ⟨fun id => Bal_foldl_unpin t.page_set_ held t h id, rfl⟩

theorem pinOf_NewPage (t : Tree K V) (x : Int) :
    (NewPage t).1.pinOf x = if x = t.next_page_id_ then 1 else t.pinOf x := by
  unfold NewPage Tree.pinOf
  simp only [UMap.find_put]
  split_ifs <;> rfl

theorem Bal_NewPage {t : Tree K V} {held : Int → Nat} (h : Bal t held) (hf : Fresh t) :
    Bal (NewPage t).1 (bump held t.next_page_id_) := by
  have h0 : t.pinOf t.next_page_id_ = 0 := by
    by_contra hne
    exact lt_irrefl _ (hf.2.1 _ (Nat.pos_of_ne_zero hne))
  intro x
  rw [pinOf_NewPage]
  show _ = t.page_set_.count (some x) + bump held t.next_page_id_ x
  simp only [bump]
  have := h x
  split_ifs with e
  · subst e; omega
  · omega

theorem Fresh_NewPage {t : Tree K V} (hf : Fresh t) : Fresh (NewPage t).1 := by
  refine ⟨?_, fun id hid => ?_, fun id hid => ?_⟩
  · show 0 < t.next_page_id_ + 1
    have := hf.1
    omega
  · show id < t.next_page_id_ + 1
    rw [pinOf_NewPage] at hid
    split_ifs at hid with e
    · omega
    · have := hf.2.1 id hid
      omega
  · show id < t.next_page_id_ + 1
    have := hf.2.2 id hid
    omega

theorem Fresh_pin {t : Tree K V} (hf : Fresh t) {id : Int} (hid : id < t.next_page_id_) :
    Fresh (t.pin id) := by
  refine ⟨hf.1, fun x hx => ?_, hf.2.2⟩
  rw [pinOf_pin] at hx
  show x < t.next_page_id_
  split_ifs at hx with e
  · rw [e]; exact hid
  · exact hf.2.1 x hx

theorem Fresh_UnpinPage {t : Tree K V} (hf : Fresh t) (id : Int) (d : Bool) :
    Fresh (UnpinPage t id d) := by
  have hsc := SameCore_UnpinPage t id d
  refine ⟨by rw [hsc.2.2.1]; exact hf.1, fun x hx => ?_, fun x hx => ?_⟩
  · rw [hsc.2.2.1]
    rw [pinOf_UnpinPage] at hx
    split_ifs at hx with e
    · exact hf.2.1 x (by rw [e]; omega)
    · exact hf.2.1 x hx
  · rw [hsc.2.2.1]
    rw [hsc.pm] at hx
    exact hf.2.2 x hx

theorem Fresh_setPage {t : Tree K V} (hf : Fresh t) {id : Int} (hid : id < t.next_page_id_)
    (p : TreePage K V) : Fresh (t.setPage id p) := by
  refine ⟨hf.1, hf.2.1, fun x hx => ?_⟩
  show x < t.next_page_id_
  rw [pm_setPage] at hx
  split_ifs at hx with e
  · rw [e]; exact hid
  · exact hf.2.2 x hx

theorem Fresh_of_Quiet {t T : Tree K V} (hq : Quiet t T) (hf : Fresh t) : Fresh T := by
  refine ⟨by rw [hq.2.1]; exact hf.1, fun x hx => ?_, fun x hx => ?_⟩
  · rw [hq.2.1]
    rw [hq.1.1 x] at hx
    exact hf.2.1 x hx
  · rw [hq.2.1]
    exact hf.2.2 x (hq.2.2 x hx)

theorem Quiet.refl_q (t : Tree K V) : Quiet t t := ⟨PinSame.refl_pin t, rfl, fun _ h => h⟩

theorem Quiet.trans_q {t t1 t2 : Tree K V} (h1 : Quiet t t1) (h2 : Quiet t1 t2) : Quiet t t2 :=
  ⟨h1.1.trans_pin h2.1, h2.2.1.trans h1.2.1, fun id h => h1.2.2 id (h2.2.2 id h)⟩

theorem Quiet_setPage (t : Tree K V) (id : Int) (p : TreePage K V)
    (h : (t.pm id).isSome = true) : Quiet t (t.setPage id p) := by
  refine ⟨PinSame_setPage t id p, rfl, fun x hx => ?_⟩
  rw [pm_setPage] at hx
  split_ifs at hx with e
  · rw [e]; exact h
  · exact hx

theorem Quiet_of_SameCore_PinSame {t T : Tree K V} (hsc : SameCore t T) (hp : PinSame t T) :
    Quiet t T :=
  ⟨hp, hsc.2.2.1, fun id h => by rw [hsc.pm] at h; exact h⟩

theorem pageAt_ok {t : Tree K V} {id : Int} {p : TreePage K V} (h : t.pageAt id = .ok p) :
    t.pm id = some p := by
  unfold Tree.pageAt at h
  unfold Tree.pm
  split at h
  · rename_i q hq
    simp only [Except.ok.injEq] at h
    rw [hq, h]
  · cases h

theorem leafAt_ok {t : Tree K V} {id : Int} {L : LeafPage K V} (h : t.leafAt id = .ok L) :
    t.pm id = some (.leaf L) := by
  unfold Tree.leafAt at h
  unfold Tree.pm
  split at h
  · rename_i q hq
    simp only [Except.ok.injEq] at h
    rw [hq, h]
  · cases h

theorem internalAt_ok {t : Tree K V} {id : Int} {N : InternalPage K}
    (h : t.internalAt id = .ok N) : t.pm id = some (.internal N) := by
  unfold Tree.internalAt at h
  unfold Tree.pm
  split at h
  · rename_i q hq
    simp only [Except.ok.injEq] at h
    rw [hq, h]
  · cases h

theorem FetchPage_pm {t t1 : Tree K V} {id : Int} {p : TreePage K V}
    (h : FetchPage t id = .ok (t1, p)) : t.pm id = some p := by
  unfold FetchPage at h
  split at h
  · rename_i q hq
    simp only [Except.ok.injEq, Prod.mk.injEq] at h
    rw [← h.2]
    exact pageAt_ok hq
  · cases h

theorem isSome_of_eq {α : Type} {o : Option α} {a : α} (h : o = some a) : o.isSome = true := by
  rw [h]; rfl

/-- A fetch of a page, a write to it and the unpin keep pins and domain. -/
theorem Quiet_fetch_unpin (t : Tree K V) (id : Int) (p : TreePage K V) (d : Bool)
    (h : (t.pm id).isSome = true) : Quiet t (UnpinPage ((t.pin id).setPage id p) id d) := by
  refine ⟨PinSame_fetch_unpin t id p d, ?_, fun x hx => ?_⟩
  · rw [(SameCore_UnpinPage _ id d).2.2.1]
    rfl
  · rw [(SameCore_UnpinPage _ id d).pm, pm_setPage] at hx
    split_ifs at hx with e
    · rw [e]; exact h
    · exact hx

theorem PinSame_UpdateRootPageId (t : Tree K V) (r : Int) : PinSame t (UpdateRootPageId t r) := by
  unfold UpdateRootPageId
  simp only
  refine ⟨fun x => ?_, ?_⟩
  · rw [pinOf_UnpinPage]
    have e1 : ∀ y, (if r ≠ 0 then HeaderInsertRecord (t.pin HEADER_PAGE_ID)
          (t.pin HEADER_PAGE_ID).root_page_id_
        else HeaderUpdateRecord (t.pin HEADER_PAGE_ID) (t.pin HEADER_PAGE_ID).root_page_id_).pinOf y
        = (t.pin HEADER_PAGE_ID).pinOf y := by
      intro y
      split_ifs
      · unfold HeaderInsertRecord; split <;> rfl
      · unfold HeaderUpdateRecord; split <;> rfl
    rw [e1, e1, pinOf_pin, pinOf_pin, if_pos rfl]
    split_ifs with e
    · rw [e]; omega
    · rfl
  · rw [page_set_UnpinPage]
    split_ifs
    · unfold HeaderInsertRecord; split <;> rfl
    · unfold HeaderUpdateRecord; split <;> rfl

theorem Quiet_UpdateRootPageId (t : Tree K V) (r : Int) : Quiet t (UpdateRootPageId t r) :=
  Quiet_of_SameCore_PinSame (SameCore_UpdateRootPageId t r) (PinSame_UpdateRootPageId t r)

theorem pinOf_Release_le (t : Tree K V) (id : Int) :
    (ReleaseLatchFromQueue t).pinOf id ≤ t.pinOf id := by
  have key : ∀ (l : List (Option Int)) (s : Tree K V),
      (l.foldl (fun acc page => match page with
        | none => acc
        | some page_id => UnpinPage acc page_id false) s).pinOf id ≤ s.pinOf id := by
    intro l
    induction l with
    | nil => intro s; exact le_refl _
    | cons p rest ih =>
      intro s
      simp only [List.foldl_cons]
      cases p with
      | none => exact ih s
      | some a =>
        refine le_trans (ih _) ?_
        rw [pinOf_UnpinPage]
        split_ifs with e
        · rw [e]; omega
        · exact le_refl _
  exact key t.page_set_ t

theorem Fresh_ReleaseLatchFromQueue {t : Tree K V} (hf : Fresh t) :
    Fresh (ReleaseLatchFromQueue t) := by
  have hsc := SameCore_ReleaseLatchFromQueue t
  refine ⟨by rw [hsc.2.2.1]; exact hf.1, fun x hx => ?_, fun x hx => ?_⟩
  · rw [hsc.2.2.1]
    exact hf.2.1 x (lt_of_lt_of_le hx (pinOf_Release_le t x))
  · rw [hsc.2.2.1]
    rw [hsc.pm] at hx
    exact hf.2.2 x hx

end BPlusTree

namespace BPlusTree

variable {K V : Type}

theorem FetchPage_both {t t1 : Tree K V} {id : Int} {p : TreePage K V}
    (h : FetchPage t id = .ok (t1, p)) : t1 = t.pin id ∧ t.pm id = some p :=
  ⟨FetchPage_ok h, FetchPage_pm h⟩

/-- The loop of `CopyNFrom` keeps pins and domain. -/
theorem adoptChildren_quiet (q : Int) (items : List (K × Int)) (t T : Tree K V)
    (h : adoptChildren q t items = .ok T) : Quiet t T := by
  induction items generalizing t with
  | nil =>
    simp only [adoptChildren, Except.ok.injEq] at h
    rw [← h]
    exact Quiet.refl_q t
  | cons e rest ih =>
    simp only [adoptChildren] at h
    cases hf : FetchPage t e.2 with
    | error err => rw [hf] at h; cases h
    | ok r =>
      rw [hf] at h
      simp only [] at h
      obtain ⟨r1, r2⟩ := r
      obtain ⟨e1, e2⟩ := FetchPage_both hf
      subst e1
      exact (Quiet_fetch_unpin t e.2 _ true (isSome_of_eq e2)).trans_q (ih _ h)

theorem CopyNFrom_quiet (t T : Tree K V) (rcp : Int) (items : List (K × Int))
    (h : InternalPage.CopyNFrom t rcp items = .ok T) : Quiet t T := by
  unfold InternalPage.CopyNFrom at h
  obtain ⟨this, _, h⟩ := bind_eq_ok _ _ _ h
  obtain ⟨t1, h1, h⟩ := bind_eq_ok _ _ _ h
  obtain ⟨this1, h2, h⟩ := bind_eq_ok _ _ _ h
  simp only [pure, Except.pure, Except.ok.injEq] at h
  rw [← h]
  exact (adoptChildren_quiet _ _ _ _ h1).trans_q
    (Quiet_setPage _ _ _ (isSome_of_eq (internalAt_ok h2)))

theorem CopyLastFrom_quiet (t T : Tree K V) (rcp : Int) (pair : K × Int)
    (h : InternalPage.CopyLastFrom t rcp pair = .ok T) : Quiet t T := by
  unfold InternalPage.CopyLastFrom at h
  obtain ⟨this, h0, h⟩ := bind_eq_ok _ _ _ h
  exact (Quiet_setPage _ _ _ (isSome_of_eq (internalAt_ok h0))).trans_q
    (adoptChildren_quiet _ _ _ _ h)

theorem CopyFirstFrom_quiet (t T : Tree K V) (rcp : Int) (pair : K × Int)
    (h : InternalPage.CopyFirstFrom t rcp pair = .ok T) : Quiet t T := by
  unfold InternalPage.CopyFirstFrom at h
  obtain ⟨this, h0, h⟩ := bind_eq_ok _ _ _ h
  exact (Quiet_setPage _ _ _ (isSome_of_eq (internalAt_ok h0))).trans_q
    (adoptChildren_quiet _ _ _ _ h)

theorem MoveHalfTo_quiet (t T : Tree K V) (self self1 : InternalPage K) (rcp : Int)
    (h : InternalPage.MoveHalfTo t self rcp = .ok (T, self1)) : Quiet t T := by
  unfold InternalPage.MoveHalfTo at h
  dsimp only at h
  split at h
  · cases h
  · obtain ⟨_, _, h⟩ := bind_eq_ok _ _ _ h
    obtain ⟨t1, h1, h⟩ := bind_eq_ok _ _ _ h
    simp only [pure, Except.pure, Except.ok.injEq, Prod.mk.injEq] at h
    rw [← h.1]
    exact CopyNFrom_quiet _ _ _ _ h1

theorem MoveAllTo_quiet (t T : Tree K V) (page rcp : Int) (middle_key : K)
    (h : InternalPage.MoveAllTo t page rcp middle_key = .ok T) : Quiet t T := by
  unfold InternalPage.MoveAllTo at h
  obtain ⟨this, h0, h⟩ := bind_eq_ok _ _ _ h
  obtain ⟨t2, h1, h⟩ := bind_eq_ok _ _ _ h
  obtain ⟨this2, h2, h⟩ := bind_eq_ok _ _ _ h
  simp only [pure, Except.pure, Except.ok.injEq] at h
  rw [← h]
  exact ((Quiet_setPage _ _ _ (isSome_of_eq (internalAt_ok h0))).trans_q
    (CopyNFrom_quiet _ _ _ _ h1)).trans_q (Quiet_setPage _ _ _ (isSome_of_eq (internalAt_ok h2)))

theorem MoveFirstToEndOf_quiet (t T : Tree K V) (page rcp : Int) (middle_key : K)
    (h : InternalPage.MoveFirstToEndOf t page rcp middle_key = .ok T) : Quiet t T := by
  unfold InternalPage.MoveFirstToEndOf at h
  obtain ⟨this, h0, h⟩ := bind_eq_ok _ _ _ h
  simp only [] at h
  split at h
  · cases h
  · obtain ⟨t2, h1, h⟩ := bind_eq_ok _ _ _ h
    obtain ⟨this2, h2, h⟩ := bind_eq_ok _ _ _ h
    simp only [pure, Except.pure, Except.ok.injEq] at h
    rw [← h]
    exact ((Quiet_setPage _ _ _ (isSome_of_eq (internalAt_ok h0))).trans_q
      (CopyLastFrom_quiet _ _ _ _ h1)).trans_q
      (Quiet_setPage _ _ _ (isSome_of_eq (internalAt_ok h2)))

theorem MoveLastToFrontOf_quiet (t T : Tree K V) (page rcp : Int) (middle_key : K)
    (h : InternalPage.MoveLastToFrontOf t page rcp middle_key = .ok T) : Quiet t T := by
  unfold InternalPage.MoveLastToFrontOf at h
  obtain ⟨this, h0, h⟩ := bind_eq_ok _ _ _ h
  simp only [] at h
  split at h
  · cases h
  · obtain ⟨rec_page, hr, h⟩ := bind_eq_ok _ _ _ h
    obtain ⟨t2, h1, h⟩ := bind_eq_ok _ _ _ h
    obtain ⟨this2, h2, h⟩ := bind_eq_ok _ _ _ h
    simp only [pure, Except.pure, Except.ok.injEq] at h
    rw [← h]
    exact ((Quiet_setPage _ _ _ (isSome_of_eq (internalAt_ok hr))).trans_q
      (CopyFirstFrom_quiet _ _ _ _ h1)).trans_q
      (Quiet_setPage _ _ _ (isSome_of_eq (internalAt_ok h2)))

theorem isSome_setPage_of (t : Tree K V) (id : Int) (p : TreePage K V) (x : Int)
    (h : (t.pm x).isSome = true) : ((t.setPage id p).pm x).isSome = true := by
  rw [pm_setPage]
  split_ifs
  · rfl
  · exact h

/-- `Redistribute` keeps pins and domain. -/
theorem Redistribute_quiet (t T : Tree K V) (neighbor_node node parent : Int) (index : Nat)
    (from_prev : Bool) (h : Redistribute t neighbor_node node parent index from_prev = .ok T) :
    Quiet t T := by
  unfold Redistribute at h
  obtain ⟨n, h0, h⟩ := bind_eq_ok _ _ _ h
  have hn := isSome_of_eq (pageAt_ok h0)
  cases n with
  | leaf leaf_node =>
    simp only [] at h
    obtain ⟨nl, h1, h⟩ := bind_eq_ok _ _ _ h
    have hnb := isSome_of_eq (leafAt_ok h1)
    by_cases hp : from_prev = true
    · simp only [hp, not_true_eq_false, if_false] at h
      obtain ⟨leaf2, h2, h⟩ := bind_eq_ok _ _ _ h
      obtain ⟨key, h3, h⟩ := bind_eq_ok _ _ _ h
      obtain ⟨p, h4, h⟩ := bind_eq_ok _ _ _ h
      simp only [pure, Except.pure, Except.ok.injEq] at h
      rw [← h]
      exact ((Quiet_setPage _ _ _ hnb).trans_q
        (Quiet_setPage _ _ _ (isSome_setPage_of _ _ _ _ hn))).trans_q
        (Quiet_setPage _ _ _ (isSome_of_eq (internalAt_ok h4)))
    · simp only [hp, not_false_eq_true, if_true] at h
      obtain ⟨nb2, h2, h⟩ := bind_eq_ok _ _ _ h
      obtain ⟨key, h3, h⟩ := bind_eq_ok _ _ _ h
      obtain ⟨p, h4, h⟩ := bind_eq_ok _ _ _ h
      simp only [pure, Except.pure, Except.ok.injEq] at h
      rw [← h]
      exact ((Quiet_setPage _ _ _ hnb).trans_q
        (Quiet_setPage _ _ _ (isSome_setPage_of _ _ _ _ hn))).trans_q
        (Quiet_setPage _ _ _ (isSome_of_eq (internalAt_ok h4)))
  | internal i_node =>
    simp only [] at h
    obtain ⟨p, h1, h⟩ := bind_eq_ok _ _ _ h
    by_cases hp : from_prev = true
    · simp only [hp, not_true_eq_false, if_false] at h
      obtain ⟨mk, h2, h⟩ := bind_eq_ok _ _ _ h
      obtain ⟨t1, h3, h⟩ := bind_eq_ok _ _ _ h
      obtain ⟨i1, h4, h⟩ := bind_eq_ok _ _ _ h
      obtain ⟨key, h5, h⟩ := bind_eq_ok _ _ _ h
      obtain ⟨p1, h6, h⟩ := bind_eq_ok _ _ _ h
      simp only [pure, Except.pure, Except.ok.injEq] at h
      rw [← h]
      exact (MoveLastToFrontOf_quiet _ _ _ _ _ h3).trans_q
        (Quiet_setPage _ _ _ (isSome_of_eq (internalAt_ok h6)))
    · simp only [hp, not_false_eq_true, if_true] at h
      obtain ⟨mk, h2, h⟩ := bind_eq_ok _ _ _ h
      obtain ⟨t1, h3, h⟩ := bind_eq_ok _ _ _ h
      obtain ⟨i1, h4, h⟩ := bind_eq_ok _ _ _ h
      obtain ⟨key, h5, h⟩ := bind_eq_ok _ _ _ h
      obtain ⟨p1, h6, h⟩ := bind_eq_ok _ _ _ h
      simp only [pure, Except.pure, Except.ok.injEq] at h
      rw [← h]
      exact (MoveFirstToEndOf_quiet _ _ _ _ _ h3).trans_q
        (Quiet_setPage _ _ _ (isSome_of_eq (internalAt_ok h6)))

theorem Quiet_withRoot (t : Tree K V) (r : Int) :
    Quiet t ({ t with root_page_id_ := r } : Tree K V) :=
  ⟨⟨fun _ => rfl, rfl⟩, rfl, fun _ h => h⟩

/-- `AdjustRoot` keeps pins and domain. -/
theorem AdjustRoot_quiet (t T : Tree K V) (old_root_node : Int) (b : Bool)
    (h : AdjustRoot t old_root_node = .ok (T, b)) : Quiet t T := by
  unfold AdjustRoot at h
  obtain ⟨old_root, h0, h⟩ := bind_eq_ok _ _ _ h
  cases old_root with
  | internal root_node =>
    simp only [] at h
    split at h
    · obtain ⟨child, h1, h⟩ := bind_eq_ok _ _ _ h
      obtain ⟨x, h2, h⟩ := bind_eq_ok _ _ _ h
      obtain ⟨t1, only⟩ := x
      simp only [] at h
      obtain ⟨oc1, h3, h⟩ := bind_eq_ok _ _ _ h
      simp only [pure, Except.pure, Except.ok.injEq, Prod.mk.injEq] at h
      obtain ⟨e1, e2⟩ := FetchPage_both h2
      subst e1
      rw [← h.1]
      have hc := isSome_of_eq e2
      refine ⟨⟨fun x => ?_, ?_⟩, ?_, fun x hx => ?_⟩
      · rw [pinOf_UnpinPage, (PinSame_UpdateRootPageId _ 0).1, (PinSame_UpdateRootPageId _ 0).1]
        show (if x = child then (t.pin child).pinOf child - 1 else (t.pin child).pinOf x) = _
        rw [pinOf_pin, pinOf_pin, if_pos rfl]
        split_ifs with e
        · rw [e]; omega
        · rfl
      · rw [page_set_UnpinPage, (PinSame_UpdateRootPageId _ 0).2]
        rfl
      · rw [(SameCore_UnpinPage _ child true).2.2.1, (SameCore_UpdateRootPageId _ 0).2.2.1]
        rfl
      · rw [(SameCore_UnpinPage _ child true).pm, (SameCore_UpdateRootPageId _ 0).pm] at hx
        have hx1 : (((t.pin child).setPage child
            (only.SetParentPageId INVALID_PAGE_ID)).pm x).isSome = true := hx
        rw [pm_setPage] at hx1
        split_ifs at hx1 with e
        · rw [e]; exact hc
        · exact hx1
    · simp only [pure, Except.pure, Except.ok.injEq, Prod.mk.injEq] at h
      rw [← h.1]
      exact Quiet.refl_q t
  | leaf root_node =>
    simp only [] at h
    split at h
    · simp only [pure, Except.pure, Except.ok.injEq, Prod.mk.injEq] at h
      rw [← h.1]
      exact Quiet_withRoot t _
    · simp only [pure, Except.pure, Except.ok.injEq, Prod.mk.injEq] at h
      rw [← h.1]
      exact Quiet.refl_q t

/-- `Coalesce` hands to the call that ends it a state with the pins and the
domain it was called on. -/
theorem Coalesce_quiet (recurse : Tree K V → Int → Except Err (Tree K V × Bool)) (t : Tree K V)
    (neighbor_node node parent : Int) (index : Nat) (r : Tree K V × Bool)
    (h : Coalesce recurse t neighbor_node node parent index = .ok r) :
    ∃ T, Quiet t T ∧ recurse T parent = .ok r ∧
      ∀ recurse1, Coalesce recurse1 t neighbor_node node parent index = recurse1 T parent := by
  unfold Coalesce at h
  obtain ⟨p, h0, h⟩ := bind_eq_ok _ _ _ h
  obtain ⟨mk, h1, h⟩ := bind_eq_ok _ _ _ h
  obtain ⟨n, h2, h⟩ := bind_eq_ok _ _ _ h
  obtain ⟨t1, h3, h⟩ := bind_eq_ok _ _ _ h
  obtain ⟨p1, h4, h⟩ := bind_eq_ok _ _ _ h
  obtain ⟨p2, h5, h⟩ := bind_eq_ok _ _ _ h
  have hq1 : Quiet t t1 := by
    cases n with
    | leaf leaf_node =>
      simp only [] at h3
      obtain ⟨prev, h6, h3⟩ := bind_eq_ok _ _ _ h3
      simp only [pure, Except.pure, Except.ok.injEq] at h3
      rw [← h3]
      exact (Quiet_setPage _ _ _ (isSome_of_eq (pageAt_ok h2))).trans_q
        (Quiet_setPage _ _ _ (isSome_setPage_of _ _ _ _ (isSome_of_eq (leafAt_ok h6))))
    | internal i_node =>
      simp only [] at h3
      exact MoveAllTo_quiet _ _ _ _ _ h3
  refine ⟨_, hq1.trans_q (Quiet_setPage _ _ _ (isSome_of_eq (internalAt_ok h4))), h, ?_⟩
  intro recurse1
  unfold Coalesce
  rw [h0, ok_bind, h1, ok_bind, h2, ok_bind, h3, ok_bind, h4, ok_bind, h5, ok_bind]

end BPlusTree

namespace BPlusTree

variable {K V : Type}

theorem Fresh_AddIntoPageSet {t : Tree K V} (hf : Fresh t) (p : Option Int) :
    Fresh (AddIntoPageSet t p) := hf

theorem Fresh_AddIntoDeletedPageSet {t : Tree K V} (hf : Fresh t) (id : Int) :
    Fresh (AddIntoDeletedPageSet t id) := hf

theorem Bal_crabRoot {t : Tree K V} {held : Int → Nat} (h : Bal t held) (op : Operation)
    (node : TreePage K V) : Bal (crabRoot t op node) held := by
  unfold crabRoot
  cases op with
  | SEARCH => exact h
  | DELETE =>
    simp only
    split
    · exact Bal_of_BalZ (Bal_ReleaseLatchFromQueue h)
    · exact h
  | INSERT =>
    simp only
    split <;> split
    · exact Bal_of_BalZ (Bal_ReleaseLatchFromQueue (Bal_of_BalZ (Bal_ReleaseLatchFromQueue h)))
    · exact Bal_of_BalZ (Bal_ReleaseLatchFromQueue h)
    · exact Bal_of_BalZ (Bal_ReleaseLatchFromQueue h)
    · exact h

theorem Fresh_crabRoot {t : Tree K V} (h : Fresh t) (op : Operation)
    (node : TreePage K V) : Fresh (crabRoot t op node) := by
  unfold crabRoot
  cases op with
  | SEARCH => exact h
  | DELETE =>
    simp only
    split
    · exact Fresh_ReleaseLatchFromQueue h
    · exact h
  | INSERT =>
    simp only
    split <;> split
    · exact Fresh_ReleaseLatchFromQueue (Fresh_ReleaseLatchFromQueue h)
    · exact Fresh_ReleaseLatchFromQueue h
    · exact Fresh_ReleaseLatchFromQueue h
    · exact h

theorem Bal_crabChild {t : Tree K V} {held : Int → Nat} {page child : Int}
    (h : Bal t (bump (bump held child) page)) (op : Operation) (node : TreePage K V) :
    Bal (crabChild t op page node) (bump held child) := by
  unfold crabChild
  cases op with
  | SEARCH => exact Bal_UnpinPage h false
  | DELETE =>
    simp only
    split
    · exact Bal_of_BalZ (Bal_ReleaseLatchFromQueue (Bal_AddIntoPageSet_some h))
    · exact Bal_AddIntoPageSet_some h
  | INSERT =>
    simp only
    split <;> split
    · exact Bal_of_BalZ (Bal_ReleaseLatchFromQueue
        (Bal_of_BalZ (Bal_ReleaseLatchFromQueue (Bal_AddIntoPageSet_some h))))
    · exact Bal_of_BalZ (Bal_ReleaseLatchFromQueue (Bal_AddIntoPageSet_some h))
    · exact Bal_of_BalZ (Bal_ReleaseLatchFromQueue (Bal_AddIntoPageSet_some h))
    · exact Bal_AddIntoPageSet_some h

theorem Fresh_crabChild {t : Tree K V} (h : Fresh t) (op : Operation) (page : Int)
    (node : TreePage K V) : Fresh (crabChild t op page node) := by
  unfold crabChild
  cases op with
  | SEARCH => exact Fresh_UnpinPage h page false
  | DELETE =>
    simp only
    split
    · exact Fresh_ReleaseLatchFromQueue (Fresh_AddIntoPageSet h _)
    · exact Fresh_AddIntoPageSet h _
  | INSERT =>
    simp only
    split <;> split
    · exact Fresh_ReleaseLatchFromQueue (Fresh_ReleaseLatchFromQueue (Fresh_AddIntoPageSet h _))
    · exact Fresh_ReleaseLatchFromQueue (Fresh_AddIntoPageSet h _)
    · exact Fresh_ReleaseLatchFromQueue (Fresh_AddIntoPageSet h _)
    · exact Fresh_AddIntoPageSet h _

variable [LinearOrder K]

/-- The descent to a leaf: the pages on the way are in the page set or
unpinned, the leaf is pinned. -/
theorem descend_pins (key : K) (op : Operation) (lmost rmost : Bool) :
    ∀ (fuel : Nat) (t : Tree K V) (page : Int) (node : TreePage K V) (T : Tree K V)
      (leaf : Int) (held : Int → Nat),
      descend key op lmost rmost fuel t page node = .ok (T, leaf) →
      Bal t (bump held page) → Fresh t →
      Bal T (bump held leaf) ∧ Fresh T ∧ SameCore t T ∧
        (op = .SEARCH → T.page_set_ = t.page_set_) := by
  intro fuel
  induction fuel with
  | zero =>
    intro t page node T leaf held h hb hf
    cases node with
    | leaf L =>
      simp only [descend, Except.ok.injEq, Prod.mk.injEq] at h
      rw [← h.1, ← h.2]
      exact ⟨hb, hf, SameCore.refl t, fun _ => rfl⟩
    | internal N =>
      simp only [descend] at h
      cases h
  | succ f ih =>
    intro t page node T leaf held h hb hf
    cases node with
    | leaf L =>
      simp only [descend, Except.ok.injEq, Prod.mk.injEq] at h
      rw [← h.1, ← h.2]
      exact ⟨hb, hf, SameCore.refl t, fun _ => rfl⟩
    | internal N =>
      simp only [descend] at h
      split at h
      · cases h
      · split at h
        · cases h
        · split at h
          · cases h
          · rename_i child _ _ _ t2 cn hfetch
            obtain ⟨e1, e2⟩ := FetchPage_both hfetch
            subst e1
            have hlt := hf.2.2 _ (isSome_of_eq e2)
            have hb1 : Bal (t.pin child) (bump (bump held child) page) := by
              rw [bump_comm]
              exact Bal_pin hb child
            obtain ⟨r1, r2, r3, r4⟩ := ih _ _ _ _ _ held h (Bal_crabChild hb1 op cn)
              (Fresh_crabChild (Fresh_pin hf hlt) op page cn)
            refine ⟨r1, r2, ((SameCore_pin t child).trans (SameCore_crabChild _ op page cn)).trans
              r3, fun hop => ?_⟩
            rw [r4 hop]
            subst hop
            show (UnpinPage (t.pin child) page false).page_set_ = _
            rw [page_set_UnpinPage]
            rfl

/-- `FindLeaf`: the leaf is left pinned, the pages kept on the way are in the
page set. -/
theorem FindLeaf_pins (key : K) (op : Operation) (lmost rmost : Bool) (fuel : Nat)
    (t T : Tree K V) (leaf : Int) (held : Int → Nat)
    (h : FindLeaf fuel t key op lmost rmost = .ok (T, leaf)) (hb : Bal t held) (hf : Fresh t) :
    Bal T (bump held leaf) ∧ Fresh T ∧ SameCore t T ∧
      (op = .SEARCH → T.page_set_ = t.page_set_) := by
  unfold FindLeaf at h
  split at h
  · cases h
  · split at h
    · cases h
    · split at h
      · cases h
      · rename_i t2 node hfetch
        obtain ⟨e1, e2⟩ := FetchPage_both hfetch
        subst e1
        have hlt := hf.2.2 _ (isSome_of_eq e2)
        obtain ⟨r1, r2, r3, r4⟩ := descend_pins key op lmost rmost fuel _ _ _ _ _ held h
          (Bal_crabRoot (Bal_pin hb _) op node) (Fresh_crabRoot (Fresh_pin hf hlt) op node)
        refine ⟨r1, r2, ((SameCore_pin t _).trans (SameCore_crabRoot _ op node)).trans r3,
          fun hop => ?_⟩
        rw [r4 hop]
        subst hop
        rfl

/-- `GetValue` leaves every pin count and the page set as they were. -/
theorem GetValue_pins (fuel : Nat) (t T : Tree K V) (key : K) (v : Option V)
    (held : Int → Nat) (h : GetValue fuel t key = .ok (T, v)) (hb : Bal t held)
    (hf : Fresh t) : Bal T held ∧ Fresh T ∧ SameCore t T ∧ T.page_set_ = t.page_set_ := by
  rw [GetValue_free (GetValue_unlatched h)] at h
  obtain ⟨x, h1, h⟩ := bind_eq_ok _ _ _ h
  obtain ⟨t1, leaf⟩ := x
  simp only [] at h
  obtain ⟨node, h2, h⟩ := bind_eq_ok _ _ _ h
  simp only [pure, Except.pure, Except.ok.injEq, Prod.mk.injEq] at h
  obtain ⟨r1, r2, r3, r4⟩ := FindLeaf_pins key .SEARCH false false fuel t t1 leaf held h1 hb hf
  rw [← h.1]
  refine ⟨Bal_UnpinPage r1 false, Fresh_UnpinPage r2 _ _, r3.trans (SameCore_UnpinPage _ _ _), ?_⟩
  rw [page_set_UnpinPage]
  exact r4 rfl

end BPlusTree

namespace BPlusTree

variable {K V : Type}

theorem IdPres.refl_id (t : Tree K V) : IdPres t t := fun _ p h => ⟨p, h, rfl⟩

theorem IdPres.trans_id {t t1 t2 : Tree K V} (h1 : IdPres t t1) (h2 : IdPres t1 t2) :
    IdPres t t2 := by
  intro id p hp
  obtain ⟨q, hq, e1⟩ := h1 id p hp
  obtain ⟨r, hr, e2⟩ := h2 id q hq
  exact ⟨r, hr, e2.trans e1⟩

theorem IdPres_of_pm {t T : Tree K V} (h : T.pm = t.pm) : IdPres t T := by
  intro id p hp
  exact ⟨p, by rw [h]; exact hp, rfl⟩

theorem IdPres_setPage (t : Tree K V) (id : Int) (p q : TreePage K V) (hq : t.pm id = some q)
    (hid : p.GetPageId = q.GetPageId) : IdPres t (t.setPage id p) := by
  intro x r hr
  rw [pm_setPage]
  by_cases e : x = id
  · subst e
    rw [if_pos rfl]
    rw [hq] at hr
    cases hr
    exact ⟨p, rfl, hid⟩
  · rw [if_neg e]
    exact ⟨r, hr, rfl⟩

theorem IdPres_setPage_new (t : Tree K V) (id : Int) (p : TreePage K V) (hq : t.pm id = none) :
    IdPres t (t.setPage id p) := by
  intro x r hr
  rw [pm_setPage]
  by_cases e : x = id
  · subst e
    rw [hq] at hr
    cases hr
  · rw [if_neg e]
    exact ⟨r, hr, rfl⟩

theorem Fresh_pm_next {t : Tree K V} (hf : Fresh t) : t.pm t.next_page_id_ = none := by
  cases h : t.pm t.next_page_id_ with
  | none => rfl
  | some p => exact absurd (hf.2.2 _ (isSome_of_eq h)) (lt_irrefl _)

theorem BalZ_UnpinPage {t : Tree K V} {held : Int → Nat} {id : Int} (h : BalZ t (bump held id))
    (d : Bool) : BalZ (UnpinPage t id d) held := by
  have := Bal_UnpinPage (Bal_of_BalZ h) d
  exact BalZ_of_Bal this (by rw [page_set_UnpinPage]; exact h.2)

theorem adoptChildren_idpres (q : Int) (items : List (K × Int)) (t T : Tree K V)
    (h : adoptChildren q t items = .ok T) : IdPres t T := by
  induction items generalizing t with
  | nil =>
    simp only [adoptChildren, Except.ok.injEq] at h
    rw [← h]
    exact IdPres.refl_id t
  | cons e rest ih =>
    simp only [adoptChildren] at h
    cases hf : FetchPage t e.2 with
    | error err => rw [hf] at h; cases h
    | ok r =>
      rw [hf] at h
      simp only [] at h
      obtain ⟨r1, r2⟩ := r
      obtain ⟨e1, e2⟩ := FetchPage_both hf
      subst e1
      refine IdPres.trans_id ?_ (ih _ h)
      refine IdPres.trans_id (IdPres_setPage (t.pin e.2) e.2 (r2.SetParentPageId q) r2 e2
        (GetPageId_SetParentPageId _ _)) (IdPres_of_pm (SameCore_UnpinPage _ _ _).pm)

theorem CopyNFrom_idpres (t T : Tree K V) (rcp : Int) (items : List (K × Int))
    (h : InternalPage.CopyNFrom t rcp items = .ok T) : IdPres t T := by
  unfold InternalPage.CopyNFrom at h
  obtain ⟨this, _, h⟩ := bind_eq_ok _ _ _ h
  obtain ⟨t1, h1, h⟩ := bind_eq_ok _ _ _ h
  obtain ⟨this1, h2, h⟩ := bind_eq_ok _ _ _ h
  simp only [pure, Except.pure, Except.ok.injEq] at h
  rw [← h]
  exact (adoptChildren_idpres _ _ _ _ h1).trans_id
    (IdPres_setPage _ _ _ _ (internalAt_ok h2) rfl)

theorem MoveHalfTo_idpres (t T : Tree K V) (self self1 : InternalPage K) (rcp : Int)
    (h : InternalPage.MoveHalfTo t self rcp = .ok (T, self1)) :
    IdPres t T ∧ self1.page_id_ = self.page_id_ := by
  unfold InternalPage.MoveHalfTo at h
  dsimp only at h
  split at h
  · cases h
  · obtain ⟨_, _, h⟩ := bind_eq_ok _ _ _ h
    obtain ⟨t1, h1, h⟩ := bind_eq_ok _ _ _ h
    simp only [pure, Except.pure, Except.ok.injEq, Prod.mk.injEq] at h
    rw [← h.1, ← h.2]
    exact ⟨CopyNFrom_idpres _ _ _ _ h1, rfl⟩

theorem St_NewPage {t : Tree K V} {held : Int → Nat} (hb : Bal t held) (hf : Fresh t) :
    Bal (NewPage t).1 (bump held t.next_page_id_) ∧ Fresh (NewPage t).1 ∧
    (NewPage t).1.pm = t.pm ∧ (NewPage t).1.next_page_id_ = t.next_page_id_ + 1 :=
  ⟨Bal_NewPage hb hf, Fresh_NewPage hf, rfl, rfl⟩

/-- `Split` of a leaf page: the new page is pinned once more than before. -/
theorem SplitLeaf_pins (t T : Tree K V) (node new : Int) (held : Int → Nat)
    (h : SplitLeaf t node = .ok (T, new)) (hb : Bal t held) (hf : Fresh t) :
    new = t.next_page_id_ ∧ Bal T (bump held new) ∧ Fresh T ∧ IdPres t T ∧
      ∃ L : LeafPage K V, T.pm new = some (.leaf L) ∧ L.page_id_ = new := by
  unfold SplitLeaf at h
  rw [show NewPage t = ((NewPage t).1, t.next_page_id_) from rfl] at h
  dsimp only at h
  obtain ⟨b1, f1, p1, n1⟩ := St_NewPage hb hf
  have hnone := Fresh_pm_next hf
  generalize (NewPage t).1 = t1 at h b1 f1 p1 n1
  obtain ⟨leaf, h1, h⟩ := bind_eq_ok _ _ _ h
  simp only [LeafPage.MoveHalfTo, pure, Except.pure, Except.ok.injEq, Prod.mk.injEq] at h
  obtain ⟨hT, hnew⟩ := h
  subst hnew
  have hleaf := leafAt_ok h1
  have hlt : t.next_page_id_ < t1.next_page_id_ := by rw [n1]; omega
  have hnodelt : node < t1.next_page_id_ := f1.2.2 _ (isSome_of_eq hleaf)
  rw [← hT]
  refine ⟨rfl, b1, Fresh_setPage (Fresh_setPage (Fresh_setPage f1 hlt _) hnodelt _) hlt _, ?_,
    _, pm_setPage_self _ _ _, rfl⟩
  have hne : node ≠ t.next_page_id_ := by
    intro e
    rw [e, p1, hnone] at hleaf
    cases hleaf
  have i1 : IdPres t t1 := IdPres_of_pm p1
  have i2 := IdPres_setPage_new t1 t.next_page_id_
    (.leaf (LeafPage.Init t.next_page_id_ leaf.parent_page_id_ t1.leaf_max_size_))
    (by rw [p1]; exact hnone)
  refine IdPres.trans_id ?_ (IdPres_setPage _ _ _
    (.leaf (LeafPage.Init t.next_page_id_ leaf.parent_page_id_ t1.leaf_max_size_)) ?_ rfl)
  · refine IdPres.trans_id (i1.trans_id i2) (IdPres_setPage _ _ _ (.leaf leaf) ?_ rfl)
    rw [pm_setPage_ne _ _ _ _ hne]
    exact hleaf
  · rw [pm_setPage_ne _ _ _ _ (Ne.symm hne), pm_setPage_self]

/-- `Split` of an internal page: the new page is pinned once more than
before. -/
theorem SplitInternal_pins (t T : Tree K V) (node node1 : InternalPage K) (new : Int)
    (held : Int → Nat) (h : SplitInternal t node = .ok (T, node1, new)) (hb : Bal t held)
    (hf : Fresh t) :
    new = t.next_page_id_ ∧ Bal T (bump held new) ∧ Fresh T ∧ IdPres t T ∧
      node1.page_id_ = node.page_id_ ∧
      ∃ N : TreePage K V, T.pm new = some N ∧ N.GetPageId = new := by
  unfold SplitInternal at h
  rw [show NewPage t = ((NewPage t).1, t.next_page_id_) from rfl] at h
  dsimp only at h
  obtain ⟨b1, f1, p1, n1⟩ := St_NewPage hb hf
  have hnone := Fresh_pm_next hf
  generalize (NewPage t).1 = t1 at h b1 f1 p1 n1
  obtain ⟨x, h1, h⟩ := bind_eq_ok _ _ _ h
  obtain ⟨t3, nd1⟩ := x
  simp only [pure, Except.pure, Except.ok.injEq, Prod.mk.injEq] at h
  obtain ⟨hT, hn1, hnew⟩ := h
  subst hnew hT hn1
  have hlt : t.next_page_id_ < t1.next_page_id_ := by rw [n1]; omega
  have hq := MoveHalfTo_quiet _ _ _ _ _ h1
  obtain ⟨hi, hpid⟩ := MoveHalfTo_idpres _ _ _ _ _ h1
  have i1 : IdPres t t1 := IdPres_of_pm p1
  have i2 := IdPres_setPage_new t1 t.next_page_id_
    (.internal (InternalPage.Init t.next_page_id_ node.parent_page_id_ t1.internal_max_size_))
    (by rw [p1]; exact hnone)
  obtain ⟨N, hN, hNid⟩ := hi t.next_page_id_ _ (pm_setPage_self _ _ _)
  exact ⟨rfl, Bal_of_PinSame hq.1 b1, Fresh_of_Quiet hq (Fresh_setPage f1 hlt _),
    (i1.trans_id i2).trans_id hi, hpid, N, hN, hNid⟩

end BPlusTree

namespace BPlusTree

variable {K V : Type}

theorem InsertNodeAfter_page_id (p p1 : InternalPage K) (o : Int) (k : K) (n : Int)
    (h : p.InsertNodeAfter o k n = .ok p1) : p1.page_id_ = p.page_id_ := by
  unfold InternalPage.InsertNodeAfter at h
  dsimp only at h
  split at h
  · simp only [Except.ok.injEq] at h
    rw [← h]
  · cases h

theorem Track.start {t : Tree K V} {held : Int → Nat} (hb : Bal t held) (hf : Fresh t) :
    Track t t held := ⟨hb, hf, IdPres.refl_id t⟩

theorem Track.setPage_tr {t s : Tree K V} {held : Int → Nat} (h : Track t s held)
    {id : Int} {p q : TreePage K V} (hq : s.pm id = some q) (hid : p.GetPageId = q.GetPageId) :
    Track t (s.setPage id p) held :=
  ⟨h.1, Fresh_setPage h.2.1 (h.2.1.2.2 _ (isSome_of_eq hq)) p,
    h.2.2.trans_id (IdPres_setPage s id p q hq hid)⟩

theorem Track.setPage_new {t s : Tree K V} {held : Int → Nat} (h : Track t s held)
    {id : Int} (p : TreePage K V) (hq : s.pm id = none) (hlt : id < s.next_page_id_) :
    Track t (s.setPage id p) held :=
  ⟨h.1, Fresh_setPage h.2.1 hlt p, h.2.2.trans_id (IdPres_setPage_new s id p hq)⟩

theorem Track.withRoot {t s : Tree K V} {held : Int → Nat} (h : Track t s held) (r : Int) :
    Track t ({ s with root_page_id_ := r } : Tree K V) held :=
  ⟨h.1, h.2.1, h.2.2.trans_id (IdPres_of_pm rfl)⟩

theorem Track.unpin {t s : Tree K V} {held : Int → Nat} {id : Int}
    (h : Track t s (bump held id)) (d : Bool) : Track t (UnpinPage s id d) held :=
  ⟨Bal_UnpinPage h.1 d, Fresh_UnpinPage h.2.1 id d,
    h.2.2.trans_id (IdPres_of_pm (SameCore_UnpinPage s id d).pm)⟩

theorem Track.pin {t s : Tree K V} {held : Int → Nat} (h : Track t s held) {id : Int}
    {q : TreePage K V} (hq : s.pm id = some q) : Track t (s.pin id) (bump held id) :=
  ⟨Bal_pin h.1 id, Fresh_pin h.2.1 (h.2.1.2.2 _ (isSome_of_eq hq)),
    h.2.2.trans_id (IdPres_of_pm (SameCore_pin s id).pm)⟩

theorem Track.updateRoot {t s : Tree K V} {held : Int → Nat} (h : Track t s held) (r : Int) :
    Track t (UpdateRootPageId s r) held :=
  ⟨Bal_of_PinSame (PinSame_UpdateRootPageId s r) h.1,
    Fresh_of_Quiet (Quiet_UpdateRootPageId s r) h.2.1,
    h.2.2.trans_id (IdPres_of_pm (SameCore_UpdateRootPageId s r).pm)⟩

theorem Track.release {t s : Tree K V} {held : Int → Nat} (h : Track t s held) :
    Track t (ReleaseLatchFromQueue s) held ∧ (ReleaseLatchFromQueue s).page_set_ = [] :=
  ⟨⟨Bal_of_BalZ (Bal_ReleaseLatchFromQueue h.1), Fresh_ReleaseLatchFromQueue h.2.1,
    h.2.2.trans_id (IdPres_of_pm (SameCore_ReleaseLatchFromQueue s).pm)⟩, rfl⟩

theorem Track.newPage {t s : Tree K V} {held : Int → Nat} (h : Track t s held) :
    Track t (NewPage s).1 (bump held s.next_page_id_) ∧ (NewPage s).1.pm s.next_page_id_ = none ∧
      s.next_page_id_ < (NewPage s).1.next_page_id_ :=
  ⟨⟨Bal_NewPage h.1 h.2.1, Fresh_NewPage h.2.1, h.2.2.trans_id (IdPres_of_pm rfl)⟩,
    Fresh_pm_next h.2.1, by show s.next_page_id_ < s.next_page_id_ + 1; omega⟩

theorem Track.addPageSet_none {t s : Tree K V} {held : Int → Nat} (h : Track t s held) :
    Track t (AddIntoPageSet s none) held :=
  ⟨Bal_AddIntoPageSet_none h.1, Fresh_AddIntoPageSet h.2.1 _, h.2.2.trans_id (IdPres_of_pm rfl)⟩

theorem Track.comm {t s : Tree K V} {held : Int → Nat} {a b : Int}
    (h : Track t s (bump (bump held a) b)) : Track t s (bump (bump held b) a) := by
  rw [bump_comm]
  exact h

theorem Track.balZ {t s : Tree K V} {held : Int → Nat} (h : Track t s held)
    (hp : s.page_set_ = []) : BalZ s held := BalZ_of_Bal h.1 hp

theorem Track.trans_tr {t s u : Tree K V} {held : Int → Nat} (h : Track t s held)
    {held1 : Int → Nat} (h2 : Track s u held1) : Track t u held1 :=
  ⟨h2.1, h2.2.1, h.2.2.trans_id h2.2.2⟩

variable [Inhabited K]

/-- `InsertIntoParent` releases the page set and unpins what it has pinned. -/
theorem InsertIntoParent_pins (fuel : Nat) : ∀ (t T : Tree K V) (o : Int) (key : K) (n : Int)
    (held : Int → Nat), InsertIntoParent fuel t o key n = .ok T → Bal t held → Fresh t →
    Track t T held ∧ T.page_set_ = [] := by
  induction fuel with
  | zero =>
    intro t T o key n held h
    simp only [InsertIntoParent] at h
    cases h
  | succ f ih =>
    intro t T o key n held h hb hf
    have tr0 := Track.start hb hf
    unfold InsertIntoParent at h
    obtain ⟨old, h1, h⟩ := bind_eq_ok _ _ _ h
    obtain ⟨new, h2, h⟩ := bind_eq_ok _ _ _ h
    have hold := pageAt_ok h1
    have hnew := pageAt_ok h2
    by_cases hroot : old.IsRootPage = true
    · rw [if_pos hroot] at h
      rw [show NewPage t = ((NewPage t).1, t.next_page_id_) from rfl] at h
      dsimp only at h
      obtain ⟨tr1, hnone, hlt⟩ := tr0.newPage
      generalize (NewPage t).1 = t1 at h tr1 hnone hlt
      obtain ⟨old1, h3, h⟩ := bind_eq_ok _ _ _ h
      obtain ⟨new1, h4, h⟩ := bind_eq_ok _ _ _ h
      simp only [pure, Except.pure, Except.ok.injEq] at h
      have hold1 := pageAt_ok h3
      have hnew1 := pageAt_ok h4
      rw [← h]
      have tr3 := (tr1.withRoot t.next_page_id_).setPage_new
        (.internal ((InternalPage.Init t.next_page_id_ INVALID_PAGE_ID
          t1.internal_max_size_).PopulateNewRoot old.GetPageId key new.GetPageId)) hnone hlt
      have tr4 := tr3.setPage_tr (p := old1.SetParentPageId t.next_page_id_) hold1
        (GetPageId_SetParentPageId _ _)
      have tr5 := tr4.setPage_tr (p := new1.SetParentPageId t.next_page_id_) hnew1
        (GetPageId_SetParentPageId _ _)
      exact ((tr5.unpin true).updateRoot 0).release
    · rw [if_neg hroot] at h
      obtain ⟨x, h3, h⟩ := bind_eq_ok _ _ _ h
      obtain ⟨t1, parent⟩ := x
      obtain ⟨e1, hpar⟩ := FetchPage_both h3
      subst e1
      have tr1 := tr0.pin hpar
      cases parent with
      | leaf L =>
        simp only [] at h
        cases h
      | internal pn =>
        simp only [] at h
        by_cases hsz : pn.GetSize < (t.pin old.GetParentPageId).internal_max_size_
        · rw [if_pos hsz] at h
          obtain ⟨pn1, h4, h⟩ := bind_eq_ok _ _ _ h
          simp only [pure, Except.pure, Except.ok.injEq] at h
          rw [← h]
          have hid := InsertNodeAfter_page_id _ _ _ _ _ h4
          have tr2 := tr1.setPage_tr (p := .internal pn1) hpar hid
          obtain ⟨tr3, hps⟩ := tr2.release
          refine ⟨tr3.unpin true, ?_⟩
          rw [page_set_UnpinPage]
          exact hps
        · rw [if_neg hsz] at h
          obtain ⟨cp, h4, h⟩ := bind_eq_ok _ _ _ h
          obtain ⟨y, h5, h⟩ := bind_eq_ok _ _ _ h
          obtain ⟨t2, copy1, sib⟩ := y
          simp only [] at h
          obtain ⟨sibling, h6, h⟩ := bind_eq_ok _ _ _ h
          obtain ⟨nk, h7, h⟩ := bind_eq_ok _ _ _ h
          obtain ⟨t4, h8, h⟩ := bind_eq_ok _ _ _ h
          obtain ⟨sibling1, h9, h⟩ := bind_eq_ok _ _ _ h
          simp only [pure, Except.pure, Except.ok.injEq] at h
          have hid := InsertNodeAfter_page_id _ _ _ _ _ h4
          obtain ⟨hsibeq, b2, f2, i2, hc1, N, hN, hNid⟩ :=
            SplitInternal_pins _ _ _ _ _ _ h5 tr1.1 tr1.2.1
          have tr2 : Track t t2 (bump (bump held old.GetParentPageId) sib) :=
            ⟨b2, f2, tr1.2.2.trans_id i2⟩
          obtain ⟨q, hq, hqid⟩ := i2 _ _ hpar
          have tr3 := tr2.setPage_tr (p := .internal copy1) hq
            (by rw [hqid]; exact hc1.trans hid)
          obtain ⟨tr4, hps4⟩ := ih _ _ _ _ _ _ h8 tr3.1 tr3.2.1
          have hne : sib ≠ old.GetParentPageId := by
            intro e
            have hlt := tr1.2.1.2.2 _ (isSome_of_eq hpar)
            rw [← e, hsibeq] at hlt
            exact lt_irrefl _ hlt
          have hsib3 : (t2.setPage old.GetParentPageId (.internal copy1)).pm sib = some N := by
            rw [pm_setPage_ne _ _ _ _ hne]
            exact hN
          obtain ⟨q1, hq1, hq1id⟩ := tr4.2.2 _ _ hsib3
          have hs1 := internalAt_ok h9
          rw [hq1] at hs1
          cases hs1
          have hsid : sibling1.page_id_ = sib := hq1id.trans hNid
          rw [← h, hsid]
          have tr5 : Track t t4 (bump (bump held old.GetParentPageId) sib) := tr3.trans_tr tr4
          refine ⟨(tr5.comm.unpin true).unpin true, ?_⟩
          rw [page_set_UnpinPage, page_set_UnpinPage]
          exact hps4

end BPlusTree

namespace BPlusTree

variable {K V : Type} [LinearOrder K] [Inhabited K]

omit [Inhabited K] in
theorem Track.of_FindLeaf {t T : Tree K V} {held : Int → Nat} (key : K) (op : Operation)
    (lmost rmost : Bool) (fuel : Nat) (leaf : Int)
    (h : FindLeaf fuel t key op lmost rmost = .ok (T, leaf)) (hb : Bal t held) (hf : Fresh t) :
    Track t T (bump held leaf) ∧ SameCore t T := by
  obtain ⟨r1, r2, r3, -⟩ := FindLeaf_pins key op lmost rmost fuel t T leaf held h hb hf
  exact ⟨⟨r1, r2, IdPres_of_pm r3.pm⟩, r3⟩

/-- `InsertIntoLeaf` releases the page set and unpins what it has pinned. -/
theorem InsertIntoLeaf_pins (fuel : Nat) (t T : Tree K V) (key : K) (value : V) (b : Bool)
    (held : Int → Nat) (h : InsertIntoLeaf fuel t key value = .ok (T, b)) (hb : Bal t held)
    (hf : Fresh t) : Track t T held ∧ T.page_set_ = [] := by
  unfold InsertIntoLeaf at h
  obtain ⟨x, h1, h⟩ := bind_eq_ok _ _ _ h
  obtain ⟨t1, lp⟩ := x
  simp only [] at h
  obtain ⟨tr1, -⟩ := Track.of_FindLeaf key .INSERT false false fuel lp h1 hb hf
  obtain ⟨node, h2, h⟩ := bind_eq_ok _ _ _ h
  have hnode := leafAt_ok h2
  rcases hI : node.Insert key value with ⟨node1, ns⟩
  rw [hI] at h
  simp only [] at h
  have hid1 : node1.page_id_ = node.page_id_ := by
    have := congrArg Prod.fst hI
    simp only [LeafPage.Insert] at this
    rw [← this]
  have tr2 := tr1.setPage_tr (p := .leaf node1) hnode hid1
  split at h
  · simp only [pure, Except.pure, Except.ok.injEq, Prod.mk.injEq] at h
    rw [← h.1]
    obtain ⟨tr3, hps⟩ := tr2.release
    refine ⟨tr3.unpin false, ?_⟩
    rw [page_set_UnpinPage]
    exact hps
  · split at h
    · simp only [pure, Except.pure, Except.ok.injEq, Prod.mk.injEq] at h
      rw [← h.1]
      obtain ⟨tr3, hps⟩ := tr2.release
      refine ⟨tr3.unpin true, ?_⟩
      rw [page_set_UnpinPage]
      exact hps
    · obtain ⟨y, h3, h⟩ := bind_eq_ok _ _ _ h
      obtain ⟨t3, sl⟩ := y
      simp only [] at h
      obtain ⟨node2, h4, h⟩ := bind_eq_ok _ _ _ h
      obtain ⟨sib, h5, h⟩ := bind_eq_ok _ _ _ h
      obtain ⟨sib1, h6, h⟩ := bind_eq_ok _ _ _ h
      obtain ⟨node3, h7, h⟩ := bind_eq_ok _ _ _ h
      obtain ⟨sib2, h8, h⟩ := bind_eq_ok _ _ _ h
      obtain ⟨rk, h9, h⟩ := bind_eq_ok _ _ _ h
      obtain ⟨t6, h10, h⟩ := bind_eq_ok _ _ _ h
      obtain ⟨sib3, h11, h⟩ := bind_eq_ok _ _ _ h
      simp only [pure, Except.pure, Except.ok.injEq, Prod.mk.injEq] at h
      obtain ⟨hsl, b3, f3, i3, L, hL, hLid⟩ := SplitLeaf_pins _ _ _ _ _ h3 tr2.1 tr2.2.1
      have tr3 : Track t t3 (bump (bump held lp) sl) := ⟨b3, f3, tr2.2.2.trans_id i3⟩
      have tr4 := tr3.setPage_tr
        (p := .leaf { sib with next_page_id_ := node2.next_page_id_ }) (leafAt_ok h5) rfl
      have i4 := IdPres_setPage t3 sl
        (.leaf { sib with next_page_id_ := node2.next_page_id_ }) _ (leafAt_ok h5) rfl
      have tr5 := tr4.setPage_tr
        (p := .leaf { node3 with next_page_id_ := sib1.page_id_ }) (leafAt_ok h7) rfl
      have i5 := IdPres_setPage _ lp
        (.leaf { node3 with next_page_id_ := sib1.page_id_ }) _ (leafAt_ok h7) rfl
      obtain ⟨tr6, hps6⟩ := InsertIntoParent_pins fuel _ _ _ _ _ _ h10 tr5.1 tr5.2.1
      obtain ⟨q, hq, hqid⟩ := ((i4.trans_id i5).trans_id tr6.2.2) _ _ hL
      have hs3 := leafAt_ok h11
      rw [hq] at hs3
      cases hs3
      have hsid : sib3.page_id_ = sl := hqid.trans hLid
      rw [← h.1, hsid]
      have tr7 : Track t t6 (bump (bump held lp) sl) := tr5.trans_tr tr6
      refine ⟨(tr7.comm.unpin true).unpin true, ?_⟩
      rw [page_set_UnpinPage, page_set_UnpinPage]
      exact hps6

/-- `Insert` releases the page set and unpins what it has pinned. -/
theorem Insert_pins (fuel : Nat) (t T : Tree K V) (key : K) (value : V) (b : Bool)
    (held : Int → Nat) (h : Insert fuel t key value = .ok (T, b)) (hb : Bal t held)
    (hf : Fresh t) : Track t T held ∧ T.page_set_ = [] := by
  rw [Insert_free (Insert_unlatched h)] at h
  dsimp only at h
  have tr0 := (Track.start hb hf).addPageSet_none
  by_cases hc : IsEmpty (AddIntoPageSet t none) = true
  · rw [if_pos hc] at h
    simp only [Except.ok.injEq, Prod.mk.injEq] at h
    rw [← h.1]
    unfold StartNewTree
    rw [show NewPage (AddIntoPageSet t none)
      = ((NewPage (AddIntoPageSet t none)).1, (AddIntoPageSet t none).next_page_id_) from rfl]
    dsimp only
    obtain ⟨tr1, hnone, hlt⟩ := tr0.newPage
    generalize (NewPage (AddIntoPageSet t none)).1 = t1 at tr1 hnone hlt
    have tr3 := (tr1.withRoot (AddIntoPageSet t none).next_page_id_).setPage_new
      (.leaf ((LeafPage.Init (AddIntoPageSet t none).next_page_id_ INVALID_PAGE_ID
        t1.leaf_max_size_ : LeafPage K V).Insert key value).1) hnone hlt
    exact (tr3.unpin true).release
  · rw [if_neg hc] at h
    obtain ⟨tr1, hps⟩ := InsertIntoLeaf_pins fuel _ _ key value b held h tr0.1 tr0.2.1
    exact ⟨tr0.trans_tr tr1, hps⟩

end BPlusTree

namespace BPlusTree

variable {K V : Type} [LinearOrder K]

/-- `CoalesceOrRedistribute` on the root page. -/
theorem CORPin_root : CORPin K V 0 := by
  intro fuel t node h par lo hi lsL lsR ls idsC ids hlm him hdel hctx hrep hnd hbd hch T b held
    hrun hb
  unfold Ctx at hctx
  obtain ⟨e1, e2, e3, e4, e5, e6, e7⟩ := hctx
  subst e2
  cases fuel with
  | zero =>
    simp only [CoalesceOrRedistribute] at hrun
    cases hrun
  | succ f =>
    obtain ⟨nd, hP, hid, hpar, hkind⟩ := Rep_page hrep
    have hroot : nd.IsRootPage = true := by simp [TreePage.IsRootPage, hpar]
    simp only [CoalesceOrRedistribute, pageAt_eq t node nd hP, ok_bind, hroot, if_true] at hrun
    obtain ⟨x, h1, h2⟩ := bind_eq_ok _ _ _ hrun
    obtain ⟨t1, flag⟩ := x
    simp only [pure, Except.pure, Except.ok.injEq, Prod.mk.injEq] at h2
    rw [← h2.1]
    exact Bal_ReleaseLatchFromQueue (Bal_of_PinSame (AdjustRoot_quiet _ _ _ _ h1).1 hb)

theorem pair_CO_pin {d : Nat} (hrec : CORPin K V d) {t : Tree K V} {h : Nat}
    {par gpar l r : Int}
    {N : InternalPage K} {X Y : List (K × Int)} {kl kr : K} {loP hiP : Option K}
    {sl sr : Bool} {lsX lsl lsr lsY lsL1 lsR1 : List (LeafView K V)}
    {idsX idsl idsr idsY idsC1 : List Int}
    (pc : PairCtx t d h par gpar l r N X Y kl kr loP hiP sl sr lsX lsl lsr lsY lsL1 lsR1
      idsX idsl idsr idsY idsC1)
    (hs : sl = true ∨ sr = true) (fuel : Nat) (t3 : Tree K V) (b : Bool) (held : Int → Nat)
    (hrun : Coalesce (CoalesceOrRedistribute fuel) t l r par (X.length + 1) = .ok (t3, b))
    (hb : Bal t held) : BalZ t3 held := by
  obtain ⟨T1, hq, hrec1, hall⟩ := Coalesce_quiet _ _ _ _ _ _ _ hrun
  obtain ⟨hnd0, hdX, hdY, hdC⟩ := nodup_pair_facts pc.nodup
  obtain ⟨T, lsm, idsm, hrun0, hmeta, hTpar, hout, hkind, hl1, hsub, hrm, hcont, hchain⟩ :=
    CO_local (fun T _ => .ok (T, true)) t par l r N h X Y kl kr _ _ sl sr lsl lsr idsl idsr
      pc.pg pc.arr pc.left pc.right hs pc.ltL pc.ltR hnd0
  have hrepP := parent_rep_one pc.pg_id pc.pg_par pc.pg_max pc.kidsX pc.kidsY
    (fun id hid => hout id (hdX id hid)) (fun id hid => hout id (hdY id hid)) hTpar hl1
  have hctxT : Ctx T.pm _ _ _ _ _ _ _ _ _ _ _ _ :=
    Ctx_frame (fun id hid => hout id (hdC id hid)) pc.ctx
  have hsubAll : ((par :: (idsX ++ (idsm ++ idsY))) ++ idsC1).Sublist
      ((par :: (idsX ++ ((idsl ++ idsr) ++ idsY))) ++ idsC1) :=
    (List.Sublist.cons₂ _ ((List.Sublist.refl _).append
      (hsub.append (List.Sublist.refl _)))).append (List.Sublist.refl _)
  have hndNew : ((par :: (idsX ++ (idsm ++ idsY))) ++ idsC1).Nodup := pc.nodup.sublist hsubAll
  have hlmT := hmeta.2.2.1
  have himT := hmeta.2.2.2.1
  have hTT : T1 = T := by
    have e := (hall (fun T _ => .ok (T, true))).symm.trans hrun0
    simp only [Except.ok.injEq, Prod.mk.injEq, and_true] at e
    exact e
  subst hTT
  exact hrec fuel T1 par (h + 1) gpar loP hiP lsL1 lsR1 (lsX ++ (lsm ++ lsY)) idsC1
    (par :: (idsX ++ (idsm ++ idsY)))
    (by rw [hlmT]; exact pc.lm_ge) (by rw [himT]; exact pc.im_ge)
    (hmeta.2.2.2.2.trans pc.deleted_nil)
    (by rw [hlmT, himT, hmeta.1]; exact hctxT)
    (by rw [hlmT, himT]; exact hrepP)
    hndNew
    (fun id hid => by rw [hmeta.2.1]; exact pc.bound id (hsubAll.subset hid))
    (by
      have := hchain (lsL1 ++ lsX) (lsY ++ lsR1) INVALID_PAGE_ID
      have hc := pc.chain
      simp only [List.append_assoc] at this hc ⊢
      exact this hc)
    t3 b held hrec1 (Bal_of_PinSame hq.1 hb)

theorem CORPin_left {d : Nat} (hrec : CORPin K V d) (f : Nat) (t : Tree K V) (node : Int)
    (h : Nat) (par : Int) (lo hi : Option K) (lsL lsR ls : List (LeafView K V))
    (idsC ids : List Int) (nd : TreePage K V) (N : InternalPage K) (X : List (K × Int))
    (ks : K) (s : Int) (kc : K) (B : List (K × Int)) (gpar : Int) (loP hiP : Option K)
    (lsA lsB lsL1 lsR1 : List (LeafView K V)) (idsA idsB idsC1 : List Int)
    (hlm : 1 ≤ t.leaf_max_size_) (him : 3 ≤ t.internal_max_size_)
    (hdel : t.deleted_page_set_ = [])
    (hrep : Rep t.pm t.leaf_max_size_ t.internal_max_size_ false h node par lo hi ls ids)
    (hnd : (ids ++ idsC).Nodup)
    (hbd : ∀ id ∈ ids ++ idsC, 0 < id ∧ id < t.next_page_id_)
    (hch : Chain (lsL ++ ls ++ lsR) INVALID_PAGE_ID)
    (hP : t.pm node = some nd) (hid : nd.GetPageId = node) (hpar : nd.GetParentPageId = par)
    (hroot : nd.IsRootPage = false) (hsz : ¬ nd.GetSize ≥ nd.GetMinSize)
    (c1 : t.pm par = some (.internal N)) (c2 : N.page_id_ = par)
    (c3 : N.parent_page_id_ = gpar) (c4 : N.max_size_ = t.internal_max_size_)
    (c5 : N.array_ = (X ++ [(ks, s)]) ++ (kc, node) :: B)
    (c7 : lo = some kc) (c8 : hi = nextLo B hiP) (c9 : ltB lo hi)
    (c10 : KidsL (fun c lo1 hi1 ls1 ids2 =>
        Rep t.pm t.leaf_max_size_ t.internal_max_size_ true h c par lo1 hi1 ls1 ids2)
      loP (X ++ [(ks, s)]) lo lsA idsA)
    (c11 : KidsL (fun c lo1 hi1 ls1 ids2 =>
        Rep t.pm t.leaf_max_size_ t.internal_max_size_ true h c par lo1 hi1 ls1 ids2)
      hi B hiP lsB idsB)
    (c12 : Ctx t.pm t.leaf_max_size_ t.internal_max_size_ t.root_page_id_ d (h + 1) par gpar
      loP hiP lsL1 lsR1 idsC1)
    (c13 : lsL = lsL1 ++ lsA) (c14 : lsR = lsB ++ lsR1)
    (c15 : idsC = par :: (idsA ++ idsB ++ idsC1))
    (T : Tree K V) (b : Bool) (held : Int → Nat)
    (hrun : CoalesceOrRedistribute (f + 1) t node = .ok (T, b)) (hb : Bal t held) :
    BalZ T held := by
  subst c7 c8 c13 c14 c15
  -- the children of the left part are none of `node`
  have hA : ∀ e ∈ X ++ [(ks, s)], e.2 ≠ node := by
    intro e he e1
    have h1 : e.2 ∈ idsA := KidsL_child_mem (fun _ _ _ _ _ hr => Rep_pid_mem hr) c10 e he
    have h2 : node ∈ ids := Rep_pid_mem hrep
    exact (nodup_parts hnd).2.2 node h2 (by rw [← e1]; simp [h1])
  obtain ⟨lsX, ls2, idsX, i2, e1, e2, hkX, hk2⟩ := KidsL_append_elim c10
  obtain ⟨hlt2, lss, lsn, idss, idsn, e3, e4, hrs, hnil⟩ := hk2
  obtain ⟨rfl, rfl⟩ := hnil
  simp only [List.append_nil] at e3 e4
  subst e3 e4 e1 e2
  have harr : N.array_ = X ++ (ks, s) :: (kc, node) :: B := by
    rw [c5]
    simp
  have hperm := perm_left_pair par ids idsX i2 idsB idsC1
  have pc0 : PairCtx t d h par gpar s node N X B ks kc loP hiP true false lsX ls2 ls lsB
      lsL1 lsR1 idsX i2 ids idsB idsC1 :=
    { lm_ge := hlm
      im_ge := him
      deleted_nil := hdel
      ctx := c12
      pg := c1
      pg_id := c2
      pg_par := c3
      pg_max := c4
      arr := harr
      kidsX := hkX
      kidsY := c11
      left := hrs
      right := hrep
      ltL := Rep_ltB hrs
      ltR := c9
      nodup := (hperm.nodup_iff).1 hnd
      bound := fun id hid => hbd id (hperm.symm.subset hid)
      chain := by
        simp only [List.append_assoc] at hch ⊢
        exact hch }
  have hidx : N.ValueIndex node = X.length + 1 := by
    have := ValueIndex_spec N (X ++ [(ks, s)]) kc node B c5 hA
    rwa [List.length_append, List.length_singleton] at this
  have hval : N.ValueAt X.length = .ok s := ValueAt_mid N X ks s ((kc, node) :: B) harr
  obtain ⟨sn, hsP, hsid, -, -⟩ := Rep_page hrs
  rw [COR_unfold_left f t node par s nd sn N X.length hP hroot hsz hpar hid c1 hidx hval
    hsP] at hrun
  have hsc2 : SameCore t ((t.pin par).pin s) := (SameCore_pin t par).trans (SameCore_pin _ s)
  have hb2 : Bal ((t.pin par).pin s) (bump (bump held par) s) := Bal_pin (Bal_pin hb par) s
  generalize (t.pin par).pin s = t2 at hsc2 hrun hb2
  have pc := PairCtx_of_SameCore hsc2 pc0
  by_cases hbig : sn.GetSize > sn.GetMinSize
  · rw [if_pos hbig] at hrun
    obtain ⟨t3, h1, h2⟩ := bind_eq_ok _ _ _ hrun
    simp only [pure, Except.pure, Except.ok.injEq, Prod.mk.injEq] at h2
    rw [← h2.1]
    have hq := Redistribute_quiet _ _ _ _ _ _ _ h1
    have hz := Bal_ReleaseLatchFromQueue (Bal_of_PinSame hq.1 hb2)
    rw [bump_comm] at hz
    exact BalZ_UnpinPage (BalZ_UnpinPage hz true) true
  · rw [if_neg hbig] at hrun
    obtain ⟨r, h1, h2⟩ := bind_eq_ok _ _ _ hrun
    obtain ⟨t3, b3⟩ := r
    obtain ⟨p, h3, h4⟩ := bind_eq_ok _ _ _ h2
    simp only [pure, Except.pure, Except.ok.injEq, Prod.mk.injEq] at h4
    rw [← h4.1]
    have hz := pair_CO_pin hrec pc (Or.inl rfl) f t3 b3 _ h1 hb2
    have hz2 : BalZ (if b3 = true then AddIntoDeletedPageSet t3 p.page_id_ else t3)
        (bump (bump held par) s) := by
      cases b3
      · exact hz
      · exact hz
    rw [bump_comm] at hz2
    exact BalZ_UnpinPage (BalZ_UnpinPage hz2 true) true

theorem CORPin_right {d : Nat} (hrec : CORPin K V d) (f : Nat) (t : Tree K V) (node : Int)
    (h : Nat) (par : Int) (lo hi : Option K) (lsL lsR ls : List (LeafView K V))
    (idsC ids : List Int) (nd : TreePage K V) (N : InternalPage K)
    (ks : K) (s : Int) (kc : K) (Y : List (K × Int)) (gpar : Int) (loP hiP : Option K)
    (lsA lsB lsL1 lsR1 : List (LeafView K V)) (idsA idsB idsC1 : List Int)
    (hlm : 1 ≤ t.leaf_max_size_) (him : 3 ≤ t.internal_max_size_)
    (hdel : t.deleted_page_set_ = [])
    (hrep : Rep t.pm t.leaf_max_size_ t.internal_max_size_ false h node par lo hi ls ids)
    (hnd : (ids ++ idsC).Nodup)
    (hbd : ∀ id ∈ ids ++ idsC, 0 < id ∧ id < t.next_page_id_)
    (hch : Chain (lsL ++ ls ++ lsR) INVALID_PAGE_ID)
    (hP : t.pm node = some nd) (hid : nd.GetPageId = node) (hpar : nd.GetParentPageId = par)
    (hroot : nd.IsRootPage = false) (hsz : ¬ nd.GetSize ≥ nd.GetMinSize)
    (c1 : t.pm par = some (.internal N)) (c2 : N.page_id_ = par)
    (c3 : N.parent_page_id_ = gpar) (c4 : N.max_size_ = t.internal_max_size_)
    (c5 : N.array_ = [] ++ (kc, node) :: (ks, s) :: Y)
    (c7 : lo = loP) (c8 : hi = some ks) (c9 : ltB lo hi)
    (c10 : lsA = [] ∧ idsA = [])
    (c11 : KidsL (fun c lo1 hi1 ls1 ids2 =>
        Rep t.pm t.leaf_max_size_ t.internal_max_size_ true h c par lo1 hi1 ls1 ids2)
      hi ((ks, s) :: Y) hiP lsB idsB)
    (c12 : Ctx t.pm t.leaf_max_size_ t.internal_max_size_ t.root_page_id_ d (h + 1) par gpar
      loP hiP lsL1 lsR1 idsC1)
    (c13 : lsL = lsL1 ++ lsA) (c14 : lsR = lsB ++ lsR1)
    (c15 : idsC = par :: (idsA ++ idsB ++ idsC1))
    (T : Tree K V) (b : Bool) (held : Int → Nat)
    (hrun : CoalesceOrRedistribute (f + 1) t node = .ok (T, b)) (hb : Bal t held) :
    BalZ T held := by
  obtain ⟨rfl, rfl⟩ := c10
  subst c7 c8 c13 c14 c15
  obtain ⟨hlt2, lss, lsY, idss, idsY, e3, e4, hrs, hkY⟩ := c11
  subst e3 e4
  have hns : node ≠ s := by
    intro e1
    have h1 : s ∈ idss := Rep_pid_mem hrs
    have h2 : node ∈ ids := Rep_pid_mem hrep
    exact (nodup_parts hnd).2.2 node h2 (by rw [e1]; simp [h1])
  have hperm := perm_right_pair par ids idss idsY idsC1
  have pc0 : PairCtx t d h par gpar node s N [] Y kc ks lo hiP false true [] ls lss lsY
      lsL1 lsR1 [] ids idss idsY idsC1 :=
    { lm_ge := hlm
      im_ge := him
      deleted_nil := hdel
      ctx := c12
      pg := c1
      pg_id := c2
      pg_par := c3
      pg_max := c4
      arr := c5
      kidsX := ⟨rfl, rfl⟩
      kidsY := hkY
      left := by
        rw [if_pos rfl]
        exact hrep
      right := hrs
      ltL := by
        rw [if_pos rfl]
        exact c9
      ltR := Rep_ltB hrs
      nodup := (hperm.nodup_iff).1 hnd
      bound := fun id hid => hbd id (hperm.symm.subset hid)
      chain := by
        simp only [List.append_assoc, List.append_nil, List.nil_append] at hch ⊢
        exact hch }
  have hidx : N.ValueIndex node = 0 :=
    ValueIndex_spec N [] kc node ((ks, s) :: Y) c5 (fun e he => by cases he)
  have harr1 : N.array_ = [(kc, node)] ++ (ks, s) :: Y := by
    rw [c5]
    rfl
  have hsidx : N.ValueIndex s = 1 :=
    ValueIndex_spec N [(kc, node)] ks s Y harr1 (fun e he => by
      rw [List.mem_singleton.1 he]
      exact hns)
  have hval : N.ValueAt 1 = .ok s := ValueAt_mid N [(kc, node)] ks s Y harr1
  have hlen : 1 ≠ N.GetSize := by
    simp only [InternalPage.GetSize, c5, List.nil_append, List.length_cons]
    omega
  obtain ⟨sn, hsP, hsid, -, -⟩ := Rep_page hrs
  rw [COR_unfold_right f t node par s nd sn N hP hroot hsz hpar hid c1 hidx hlen hsid hsidx hval
    hsP] at hrun
  have hsc2 : SameCore t ((t.pin par).pin s) := (SameCore_pin t par).trans (SameCore_pin _ s)
  have hb2 : Bal ((t.pin par).pin s) (bump (bump held par) s) := Bal_pin (Bal_pin hb par) s
  generalize (t.pin par).pin s = t2 at hsc2 hrun hb2
  have pc := PairCtx_of_SameCore hsc2 pc0
  by_cases hbig : sn.GetSize > sn.GetMinSize
  · rw [if_pos hbig] at hrun
    obtain ⟨t3, h1, h2⟩ := bind_eq_ok _ _ _ hrun
    simp only [pure, Except.pure, Except.ok.injEq, Prod.mk.injEq] at h2
    rw [← h2.1]
    have hq := Redistribute_quiet _ _ _ _ _ _ _ h1
    have hz := Bal_ReleaseLatchFromQueue (Bal_of_PinSame hq.1 hb2)
    rw [bump_comm] at hz
    exact BalZ_UnpinPage (BalZ_UnpinPage hz true) true
  · rw [if_neg hbig] at hrun
    obtain ⟨r, h1, h2⟩ := bind_eq_ok _ _ _ hrun
    obtain ⟨t3, b3⟩ := r
    obtain ⟨s1, h3, h4⟩ := bind_eq_ok _ _ _ h2
    obtain ⟨p, h5, h6⟩ := bind_eq_ok _ _ _ h4
    simp only [pure, Except.pure, Except.ok.injEq, Prod.mk.injEq] at h6
    rw [← h6.1]
    have hz := pair_CO_pin hrec pc (Or.inr rfl) f t3 b3 _ h1 hb2
    have hz2 : BalZ (if b3 = true then
          AddIntoDeletedPageSet (AddIntoDeletedPageSet t3 s1.GetPageId) p.page_id_
        else AddIntoDeletedPageSet t3 s1.GetPageId) (bump (bump held par) s) := by
      cases b3
      · exact hz
      · exact hz
    rw [bump_comm] at hz2
    exact BalZ_UnpinPage (BalZ_UnpinPage hz2 true) true

theorem CORPin_succ {d : Nat} (hrec : CORPin K V d) : CORPin K V (d + 1) := by
  intro fuel t node h par lo hi lsL lsR ls idsC ids hlm him hdel hctx hrep hnd hbd hch T b held
    hrun hb
  cases fuel with
  | zero =>
    simp only [CoalesceOrRedistribute] at hrun
    cases hrun
  | succ f =>
    obtain ⟨nd, hP, hid, hpar, -⟩ := Rep_page hrep
    unfold Ctx at hctx
    obtain ⟨N, A, kc, B, gpar, loP, hiP, lsA, lsB, lsL1, lsR1, idsA, idsB, idsC1, c1, c2, c3, c4,
      c5, c6, c7, c8, c9, c10, c11, c12, c13, c14, c15⟩ := hctx
    have hparpos : 0 < par := (hbd par (by rw [c15]; simp)).1
    have hroot : nd.IsRootPage = false := by
      simp only [TreePage.IsRootPage, hpar, decide_eq_false_iff_not]
      intro e
      rw [e] at hparpos
      exact absurd hparpos (by decide)
    by_cases hsz : nd.GetSize ≥ nd.GetMinSize
    · rw [COR_unfold_small f t node nd hP hroot hsz] at hrun
      simp only [Except.ok.injEq, Prod.mk.injEq] at hrun
      rw [← hrun.1]
      exact Bal_ReleaseLatchFromQueue hb
    · rcases List.eq_nil_or_concat A with hA | ⟨X, ⟨ks, s⟩, hA⟩
      · subst hA
        rw [if_pos rfl] at c7
        cases B with
        | nil =>
          rw [c5] at c6
          simp at c6
        | cons e Y =>
          obtain ⟨ks, s⟩ := e
          exact CORPin_right hrec f t node h par lo hi lsL lsR ls idsC ids nd N ks s kc Y gpar
            loP hiP lsA lsB lsL1 lsR1 idsA idsB idsC1 hlm him hdel hrep hnd hbd hch hP hid hpar
            hroot hsz c1 c2 c3 c4 c5 c7 c8 c9 c10 c11 c12 c13 c14 c15 T b held hrun hb
      · rw [List.concat_eq_append] at hA
        subst hA
        rw [if_neg (by simp)] at c7
        exact CORPin_left hrec f t node h par lo hi lsL lsR ls idsC ids nd N X ks s kc B gpar
          loP hiP lsA lsB lsL1 lsR1 idsA idsB idsC1 hlm him hdel hrep hnd hbd hch hP hid hpar
          hroot hsz c1 c2 c3 c4 c5 c7 c8 c9 c10 c11 c12 c13 c14 c15 T b held hrun hb

/-- At every depth, a `CoalesceOrRedistribute` that returns has released the
page set and unpinned every page it has pinned. -/
theorem CoalesceOrRedistribute_pins : ∀ d, CORPin K V d
  | 0 => CORPin_root
  | d + 1 => CORPin_succ (CoalesceOrRedistribute_pins d)

end BPlusTree

namespace BPlusTree

variable {K V : Type}

theorem DomLe.refl_d (t : Tree K V) : DomLe t t := ⟨rfl, fun _ h => h⟩

theorem DomLe.trans_d {t t1 t2 : Tree K V} (h1 : DomLe t t1) (h2 : DomLe t1 t2) : DomLe t t2 :=
  ⟨h2.1.trans h1.1, fun id h => h1.2 id (h2.2 id h)⟩

theorem DomLe_of_Quiet {t T : Tree K V} (h : Quiet t T) : DomLe t T := h.2

theorem DomLe_of_SameCore {t T : Tree K V} (h : SameCore t T) : DomLe t T :=
  ⟨h.2.2.1, fun id hid => by rw [h.pm] at hid; exact hid⟩

theorem DomLe_setPage (t : Tree K V) (id : Int) (p : TreePage K V)
    (h : (t.pm id).isSome = true) : DomLe t (t.setPage id p) := (Quiet_setPage t id p h).2

theorem pinOf_DeletePage (t : Tree K V) (id x : Int) : (DeletePage t id).pinOf x = t.pinOf x := by
  unfold DeletePage
  split
  · rfl
  · rename_i h0
    show (UMap.find (UMap.erase t.pin_count_ id) x).getD 0 = t.pinOf x
    rw [UMap.find_erase]
    split_ifs with e
    · rw [e]
      simp only [Option.getD_none]
      omega
    · rfl

theorem page_set_DeletePage (t : Tree K V) (id : Int) :
    (DeletePage t id).page_set_ = t.page_set_ := by
  unfold DeletePage
  split <;> rfl

theorem DomLe_DeletePage (t : Tree K V) (id : Int) : DomLe t (DeletePage t id) := by
  refine ⟨(DeletePage_meta t id).2.1, fun x hx => ?_⟩
  by_cases e : x = id
  · unfold DeletePage at hx
    split at hx
    · exact hx
    · have hx1 : (UMap.find (UMap.erase t.pages_ id) x).isSome = true := hx
      rw [UMap.find_erase, if_pos e] at hx1
      cases hx1
  · rw [DeletePage_pm t id x e] at hx
    exact hx

theorem foldl_DeletePage_pins (dl : List Int) (t : Tree K V) :
    (∀ x, (dl.foldl DeletePage t).pinOf x = t.pinOf x) ∧
    (dl.foldl DeletePage t).page_set_ = t.page_set_ ∧ DomLe t (dl.foldl DeletePage t) := by
  induction dl generalizing t with
  | nil => exact ⟨fun _ => rfl, rfl, DomLe.refl_d t⟩
  | cons a rest ih =>
    obtain ⟨h1, h2, h3⟩ := ih (DeletePage t a)
    refine ⟨fun x => ?_, ?_, ?_⟩
    · rw [List.foldl_cons, h1 x, pinOf_DeletePage]
    · rw [List.foldl_cons, h2, page_set_DeletePage]
    · exact (DomLe_DeletePage t a).trans_d h3

/-- An unpinned page that `DeletePage` is called on is gone. -/
theorem DeletePage_gone (t : Tree K V) (id : Int) (h : t.pinOf id = 0) :
    (DeletePage t id).pm id = none := by
  unfold DeletePage
  rw [if_neg (by omega)]
  show UMap.find (UMap.erase t.pages_ id) id = none
  rw [UMap.find_erase, if_pos rfl]

/-- `CoalesceOrRedistribute` allocates no page and writes to pages that are
there. -/
theorem CoalesceOrRedistribute_dom (fuel : Nat) : ∀ (t T : Tree K V) (node : Int) (b : Bool),
    CoalesceOrRedistribute fuel t node = .ok (T, b) → DomLe t T := by
  induction fuel with
  | zero =>
    intro t T node b h
    simp only [CoalesceOrRedistribute] at h
    cases h
  | succ f ih =>
    intro t T node b h
    unfold CoalesceOrRedistribute at h
    obtain ⟨n, h0, h⟩ := bind_eq_ok _ _ _ h
    by_cases hroot : n.IsRootPage = true
    · rw [if_pos hroot] at h
      obtain ⟨x, h1, h⟩ := bind_eq_ok _ _ _ h
      obtain ⟨t1, flag⟩ := x
      simp only [pure, Except.pure, Except.ok.injEq, Prod.mk.injEq] at h
      rw [← h.1]
      exact (DomLe_of_Quiet (AdjustRoot_quiet _ _ _ _ h1)).trans_d
        (DomLe_of_SameCore (SameCore_ReleaseLatchFromQueue _))
    · rw [if_neg hroot] at h
      by_cases hsz : n.GetSize ≥ n.GetMinSize
      · rw [if_pos hsz] at h
        simp only [pure, Except.pure, Except.ok.injEq, Prod.mk.injEq] at h
        rw [← h.1]
        exact DomLe_of_SameCore (SameCore_ReleaseLatchFromQueue _)
      · rw [if_neg hsz] at h
        dsimp only at h
        obtain ⟨x, h1, h⟩ := bind_eq_ok _ _ _ h
        obtain ⟨t1, parent⟩ := x
        obtain ⟨e1, hpar⟩ := FetchPage_both h1
        subst e1
        have d1 : DomLe t (t.pin n.GetParentPageId) := DomLe_of_SameCore (SameCore_pin _ _)
        cases parent with
        | leaf L =>
          simp only [] at h
          cases h
        | internal pn =>
          simp only [] at h
          have tail : ∀ (s : Tree K V) (a c : Int),
              DomLe s (UnpinPage (UnpinPage s a true) c true) :=
            fun s a c => DomLe_of_SameCore
              ((SameCore_UnpinPage _ _ _).trans (SameCore_UnpinPage _ _ _))
          by_cases hidx : pn.ValueIndex n.GetPageId > 0
          · rw [if_pos hidx] at h
            obtain ⟨sp, h2, h⟩ := bind_eq_ok _ _ _ h
            obtain ⟨y, h3, h⟩ := bind_eq_ok _ _ _ h
            obtain ⟨t2, sn⟩ := y
            obtain ⟨e2, hsp⟩ := FetchPage_both h3
            subst e2
            have d2 : DomLe t ((t.pin n.GetParentPageId).pin sp) :=
              d1.trans_d (DomLe_of_SameCore (SameCore_pin _ _))
            simp only [] at h
            by_cases hbig : sn.GetSize > sn.GetMinSize
            · rw [if_pos hbig] at h
              obtain ⟨t3, h4, h⟩ := bind_eq_ok _ _ _ h
              simp only [pure, Except.pure, Except.ok.injEq, Prod.mk.injEq] at h
              rw [← h.1]
              exact ((d2.trans_d (DomLe_of_Quiet (Redistribute_quiet _ _ _ _ _ _ _ h4))).trans_d
                (DomLe_of_SameCore (SameCore_ReleaseLatchFromQueue _))).trans_d (tail _ _ _)
            · rw [if_neg hbig] at h
              obtain ⟨r, h4, h⟩ := bind_eq_ok _ _ _ h
              obtain ⟨t3, b3⟩ := r
              obtain ⟨p, h5, h⟩ := bind_eq_ok _ _ _ h
              simp only [pure, Except.pure, Except.ok.injEq, Prod.mk.injEq] at h
              rw [← h.1]
              obtain ⟨T1, hq, hrec1, -⟩ := Coalesce_quiet _ _ _ _ _ _ _ h4
              have d3 := (d2.trans_d (DomLe_of_Quiet hq)).trans_d (ih _ _ _ _ hrec1)
              refine (d3.trans_d ?_).trans_d (tail _ _ _)
              cases b3
              · exact DomLe.refl_d _
              · exact DomLe.refl_d _
          · rw [if_neg hidx] at h
            by_cases hlast : pn.ValueIndex n.GetPageId + 1 ≠ pn.GetSize
            · rw [if_pos hlast] at h
              obtain ⟨sp, h2, h⟩ := bind_eq_ok _ _ _ h
              obtain ⟨y, h3, h⟩ := bind_eq_ok _ _ _ h
              obtain ⟨t2, sn⟩ := y
              obtain ⟨e2, hsp⟩ := FetchPage_both h3
              subst e2
              have d2 : DomLe t ((t.pin n.GetParentPageId).pin sp) :=
                d1.trans_d (DomLe_of_SameCore (SameCore_pin _ _))
              simp only [] at h
              by_cases hbig : sn.GetSize > sn.GetMinSize
              · rw [if_pos hbig] at h
                obtain ⟨t3, h4, h⟩ := bind_eq_ok _ _ _ h
                simp only [pure, Except.pure, Except.ok.injEq, Prod.mk.injEq] at h
                rw [← h.1]
                exact ((d2.trans_d (DomLe_of_Quiet (Redistribute_quiet _ _ _ _ _ _ _ h4))).trans_d
                  (DomLe_of_SameCore (SameCore_ReleaseLatchFromQueue _))).trans_d (tail _ _ _)
              · rw [if_neg hbig] at h
                obtain ⟨r, h4, h⟩ := bind_eq_ok _ _ _ h
                obtain ⟨t3, b3⟩ := r
                obtain ⟨s1, h5, h⟩ := bind_eq_ok _ _ _ h
                obtain ⟨p, h6, h⟩ := bind_eq_ok _ _ _ h
                simp only [pure, Except.pure, Except.ok.injEq, Prod.mk.injEq] at h
                rw [← h.1]
                obtain ⟨T1, hq, hrec1, -⟩ := Coalesce_quiet _ _ _ _ _ _ _ h4
                have d3 := (d2.trans_d (DomLe_of_Quiet hq)).trans_d (ih _ _ _ _ hrec1)
                refine (d3.trans_d ?_).trans_d (tail _ _ _)
                cases b3
                · exact DomLe.refl_d _
                · exact DomLe.refl_d _
            · rw [if_neg hlast] at h
              simp only [pure, Except.pure, Except.ok.injEq, Prod.mk.injEq] at h
              rw [← h.1]
              exact d1

end BPlusTree

namespace BPlusTree

variable {K V : Type}

theorem BalZ_beforeDeletes {t3 : Tree K V} {held : Int → Nat} {leaf : Int}
    (h : BalZ t3 (bump held leaf)) (b : Bool) (node2 : LeafPage K V) :
    BalZ (beforeDeletes t3 b leaf node2) held := by
  unfold beforeDeletes
  cases b
  · exact BalZ_UnpinPage h true
  · exact BalZ_UnpinPage (t := AddIntoDeletedPageSet t3 node2.page_id_) h true

theorem BalZ_deleteAll {t5 : Tree K V} {held : Int → Nat} (h : BalZ t5 held) :
    BalZ (deleteAll t5) held := by
  obtain ⟨h1, h2, -⟩ := foldl_DeletePage_pins t5.deleted_page_set_ t5
  exact ⟨fun id => (h1 id).trans (h.1 id), h2.trans h.2⟩

theorem DomLe_deleteAll (t5 : Tree K V) : DomLe t5 (deleteAll t5) :=
  (foldl_DeletePage_pins t5.deleted_page_set_ t5).2.2

theorem DomLe_beforeDeletes (t3 : Tree K V) (b : Bool) (leaf : Int) (node2 : LeafPage K V) :
    DomLe t3 (beforeDeletes t3 b leaf node2) := by
  unfold beforeDeletes
  cases b
  · exact DomLe_of_SameCore (SameCore_UnpinPage _ _ _)
  · exact DomLe.trans_d
      (⟨rfl, fun _ h => h⟩ : DomLe t3 (AddIntoDeletedPageSet t3 node2.page_id_))
      (DomLe_of_SameCore (SameCore_UnpinPage _ _ _))

/-- Every call of `DeletePage` in the loop of `Remove` finds its page unpinned
and removes it, when no page is pinned at the start of the loop. -/
theorem deleteAll_unpinned (t5 : Tree K V) (h : ∀ id, t5.pinOf id = 0) (A : List Int) (id : Int)
    (B : List Int) (_hsplit : t5.deleted_page_set_ = A ++ id :: B) :
    (A.foldl DeletePage t5).pinOf id = 0 ∧
    (DeletePage (A.foldl DeletePage t5) id).pm id = none := by
  have h0 : (A.foldl DeletePage t5).pinOf id = 0 := by
    rw [(foldl_DeletePage_pins A t5).1 id]
    exact h id
  exact ⟨h0, DeletePage_gone _ id h0⟩

variable [LinearOrder K]

/-- `Remove` on a tree with pages: what it does in turn, and what it leaves
of the pins. -/
theorem Remove_pins (key : K) (t : Tree K V) (ls : List (LeafView K V)) (hinv : TreeInv t ls)
    (hne : t.root_page_id_ ≠ INVALID_PAGE_ID) (fuel : Nat) (T : Tree K V) (held : Int → Nat)
    (hrun : Remove fuel t key = .ok T) (hb : Bal t held) (hf : Fresh t) :
    ∃ t1 leaf node,
      FindLeaf fuel (AddIntoPageSet t none) key .DELETE false false = .ok (t1, leaf) ∧
      t1.leafAt leaf = .ok node ∧
      (node.GetSize = (node.RemoveAndDeleteRecord key).2 →
        T = UnpinPage (ReleaseLatchFromQueue
          (t1.setPage leaf (.leaf (node.RemoveAndDeleteRecord key).1))) leaf false) ∧
      (node.GetSize ≠ (node.RemoveAndDeleteRecord key).2 →
        ∃ t3 b node2,
          CoalesceOrRedistribute fuel
            (t1.setPage leaf (.leaf (node.RemoveAndDeleteRecord key).1)) leaf = .ok (t3, b) ∧
          t3.leafAt leaf = .ok node2 ∧ T = deleteAll (beforeDeletes t3 b leaf node2) ∧
          BalZ (beforeDeletes t3 b leaf node2) held) ∧
      BalZ T held ∧ DomLe t T := by
  rcases hinv.shape with ⟨hroot, -⟩ | ⟨hw, hch⟩
  · exact absurd hroot hne
  have hsc0 : SameCore t (AddIntoPageSet t none) := SameCore_AddIntoPageSet t none
  have hinv0 := TreeInv_of_SameCore hsc0 hinv
  have hw0 := WellFormed_of_SameCore hsc0 hw
  have hemp : IsEmpty (AddIntoPageSet t none) = false := by
    have := WellFormed_not_empty hw0
    simp [IsEmpty, this]
  have hb0 : Bal (AddIntoPageSet t none) held := Bal_AddIntoPageSet_none hb
  have hf0 : Fresh (AddIntoPageSet t none) := Fresh_AddIntoPageSet hf _
  obtain ⟨h, ids, hr, hnd, hbd⟩ := hw0
  rw [Remove_free (Remove_unlatched hrun)] at hrun
  simp only [hemp, Bool.false_eq_true, if_false] at hrun
  generalize AddIntoPageSet t none = t0 at hsc0 hinv0 hemp hr hnd hbd hrun hb0 hf0 ⊢
  obtain ⟨x, h1, hrun⟩ := bind_eq_ok _ _ _ hrun
  obtain ⟨t1, leaf⟩ := x
  simp only [] at hrun
  obtain ⟨node, h2, hrun⟩ := bind_eq_ok _ _ _ hrun
  rcases FindLeaf_spec .DELETE key fuel t0 h ls ids hr (fun id hid => (hbd id hid).1) with
    ⟨-, herr⟩ | ⟨t1a, leafa, parL, loL, hiL, lsL1, lsR1, idsC1, L, hok, hsc, hc, hrl, hinl, hls,
      hperm⟩
  · rw [herr] at h1
    cases h1
  rw [h1] at hok
  simp only [Except.ok.injEq, Prod.mk.injEq] at hok
  obtain ⟨e1, e2⟩ := hok
  subst e1 e2
  obtain ⟨r1, r2, -, -⟩ := FindLeaf_pins key .DELETE false false fuel t0 t1 leaf held h1 hb0 hf0
  obtain ⟨hnd1, hbd1⟩ := perm_nodup_bound hperm hnd hbd
  have hrl0 := hrl
  obtain ⟨Lp, hLp, hid, hpar, hmax, hsorted, hbnd, hne1, hview, -⟩ := hrl
  have hLp1 : t1.pm leaf = some (.leaf Lp) := by rw [hsc.pm]; exact hLp
  have hnodeLp : node = Lp := by
    have := leafAt_ok h2
    rw [hLp1] at this
    simp only [Option.some.injEq, TreePage.leaf.injEq] at this
    exact this.symm
  subst hnodeLp
  have d01 : DomLe t t1 := (DomLe_of_SameCore hsc0).trans_d (DomLe_of_SameCore hsc)
  refine ⟨t1, leaf, node, h1, h2, ?_⟩
  simp only [LeafPage.RemoveAndDeleteRecord, LeafPage.GetSize] at hrun ⊢
  generalize harr : node.array_.filter (fun it => decide (¬ it.1 = key)) = arr at hrun ⊢
  have d12 : DomLe t1 (t1.setPage leaf (.leaf { node with array_ := arr })) :=
    DomLe_setPage t1 leaf _ (isSome_of_eq hLp1)
  have hb2 : Bal (t1.setPage leaf (.leaf { node with array_ := arr })) (bump held leaf) := r1
  by_cases hsame : node.array_.length = arr.length
  · rw [if_pos hsame] at hrun
    simp only [pure, Except.pure, Except.ok.injEq] at hrun
    refine ⟨fun _ => hrun.symm, fun hc1 => absurd hsame hc1, ?_, ?_⟩
    · rw [← hrun]
      exact BalZ_UnpinPage (Bal_ReleaseLatchFromQueue hb2) false
    · rw [← hrun]
      exact ((d01.trans_d d12).trans_d
        (DomLe_of_SameCore (SameCore_ReleaseLatchFromQueue _))).trans_d
        (DomLe_of_SameCore (SameCore_UnpinPage _ _ _))
  rw [if_neg hsame] at hrun
  obtain ⟨y, h3, hrun⟩ := bind_eq_ok _ _ _ hrun
  obtain ⟨t3, b⟩ := y
  simp only [] at hrun
  obtain ⟨node2, h4, hrun⟩ := bind_eq_ok _ _ _ hrun
  simp only [pure, Except.pure, Except.ok.injEq] at hrun
  have hTeq : T = deleteAll (beforeDeletes t3 b leaf node2) := hrun.symm
  have hsorted1 : (arr.map Prod.fst).Pairwise (· < ·) := by
    rw [← harr]
    exact hsorted.sublist ((List.filter_sublist _).map _)
  have hbnd1 : ∀ e ∈ arr, inB loL hiL e.1 := by
    intro e he
    rw [← harr] at he
    exact hbnd e (List.mem_filter.1 he).1
  generalize hT2 : t1.setPage leaf (.leaf { node with array_ := arr }) = T2 at h3 d12 hb2 ⊢
  have hT2pm : ∀ id, T2.pm id = if id = leaf then some (.leaf { node with array_ := arr })
      else t0.pm id := by
    intro id
    rw [← hT2, pm_setPage, hsc.pm]
  have hT2m : SameMeta t0 T2 := by
    rw [← hT2]
    exact hsc.meta.trans_meta (SameMeta_setPage _ _ _)
  obtain ⟨hc2, hrl2, hLv⟩ := leaf_update arr false hc hrl0 hLp hnd1 hT2pm hsorted1 hbnd1
    (fun hf1 => by cases hf1)
  have hch2 : Chain (lsL1 ++ [⟨leaf, node.next_page_id_, arr⟩] ++ lsR1) INVALID_PAGE_ID := by
    rw [hls] at hch
    exact Chain_replace (a := L) hch (by rw [hLv]) (by rw [hLv])
  have hlmT := hT2m.2.2.1
  have himT := hT2m.2.2.2.1
  have hz3 : BalZ t3 (bump held leaf) :=
    CoalesceOrRedistribute_pins h fuel T2 leaf 0 parL loL hiL lsL1 lsR1
      [⟨leaf, node.next_page_id_, arr⟩] idsC1 [leaf]
      (by rw [hlmT]; exact hinv0.lm_ge) (by rw [himT]; exact hinv0.im_ge)
      (hT2m.2.2.2.2.trans hinv0.deleted_nil)
      (by rw [hlmT, himT, hT2m.1]; exact hc2)
      (by rw [hlmT, himT]; exact hrl2)
      hnd1 (fun id hid => by rw [hT2m.2.1]; exact hbd1 id hid) hch2 t3 b (bump held leaf) h3 hb2
  have hz5 := BalZ_beforeDeletes hz3 b node2
  refine ⟨fun hc1 => absurd hc1 hsame, fun _ => ⟨t3, b, node2, h3, h4, hTeq, hz5⟩, ?_, ?_⟩
  · rw [hTeq]
    exact BalZ_deleteAll hz5
  · rw [hTeq]
    exact ((((d01.trans_d d12).trans_d (CoalesceOrRedistribute_dom fuel _ _ _ _ h3)).trans_d
      (DomLe_beforeDeletes t3 b leaf node2))).trans_d (DomLe_deleteAll _)

end BPlusTree

namespace BPlusTree

variable {K V : Type}

theorem Bal_self {t : Tree K V} (hp : t.page_set_ = []) : Bal t t.pinOf := by
  intro id
  rw [hp]
  simp

theorem PoolIdle_new (lm im : Nat) : PoolIdle (Tree.new lm im : Tree K V) := by
  refine ⟨fun _ => rfl, rfl, Int.one_pos, fun id h => ?_, fun id h => ?_⟩
  · exact absurd h (lt_irrefl 0)
  · cases h

theorem PoolIdle_of {t T : Tree K V} (hi : PoolIdle t) (hz : BalZ T t.pinOf) (hf : Fresh T) :
    PoolIdle T :=
  ⟨fun id => (hz.1 id).trans (hi.1 id), hz.2, hf⟩

theorem Fresh_of_DomLe {t T : Tree K V} (hd : DomLe t T) (hp : ∀ id, T.pinOf id = t.pinOf id)
    (hf : Fresh t) : Fresh T := by
  refine ⟨by rw [hd.1]; exact hf.1, fun x hx => ?_, fun x hx => ?_⟩
  · rw [hd.1]
    rw [hp x] at hx
    exact hf.2.1 x hx
  · rw [hd.1]
    exact hf.2.2 x (hd.2 x hx)

theorem SameCore_withPins (t : Tree K V) (pins : List (Int × Nat)) :
    SameCore t (withPins t pins) := ⟨rfl, rfl, rfl, rfl, rfl, rfl⟩

theorem PinSame_of_BalZ {t T : Tree K V} (hp : t.page_set_ = []) (hz : BalZ T t.pinOf) :
    PinSame t T := ⟨hz.1, hz.2.trans hp.symm⟩

variable [LinearOrder K]

/-- A finished `GetValue` has given back every pin it has taken. -/
theorem GetValue_net (fuel : Nat) (t T : Tree K V) (key : K) (v : Option V) (hf : Fresh t)
    (hp : t.page_set_ = []) (h : GetValue fuel t key = .ok (T, v)) :
    BalZ T t.pinOf ∧ Fresh T := by
  obtain ⟨r1, r2, -, r4⟩ := GetValue_pins fuel t T key v t.pinOf h (Bal_self hp) hf
  exact ⟨BalZ_of_Bal r1 (r4.trans hp), r2⟩

/-- A finished `Remove` has given back every pin it has taken. -/
theorem Remove_net (key : K) (t : Tree K V) (ls : List (LeafView K V)) (hinv : TreeInv t ls)
    (fuel : Nat) (T : Tree K V) (hf : Fresh t) (hp : t.page_set_ = [])
    (h : Remove fuel t key = .ok T) : BalZ T t.pinOf ∧ Fresh T := by
  by_cases hne : t.root_page_id_ = INVALID_PAGE_ID
  · have hemp : IsEmpty (AddIntoPageSet t none) = true := by
      simp [IsEmpty, AddIntoPageSet, hne]
    rw [Remove_free (Remove_unlatched h)] at h
    simp only [hemp, if_true, pure, Except.pure, Except.ok.injEq] at h
    rw [← h]
    exact ⟨Bal_ReleaseLatchFromQueue (Bal_AddIntoPageSet_none (Bal_self hp)),
      Fresh_ReleaseLatchFromQueue (Fresh_AddIntoPageSet hf _)⟩
  · obtain ⟨-, -, -, -, -, -, -, hz, hd⟩ :=
      Remove_pins key t ls hinv hne fuel T t.pinOf h (Bal_self hp) hf
    exact ⟨hz, Fresh_of_DomLe hd hz.1 hf⟩

/-- A finished `GetValue` leaves the pool idle. -/
theorem GetValue_idle (fuel : Nat) (t T : Tree K V) (key : K) (v : Option V) (hi : PoolIdle t)
    (h : GetValue fuel t key = .ok (T, v)) : PoolIdle T := by
  obtain ⟨hz, hf⟩ := GetValue_net fuel t T key v hi.2.2 hi.2.1 h
  exact PoolIdle_of hi hz hf

/-- A finished `Remove` leaves the pool idle. -/
theorem Remove_idle (key : K) (t : Tree K V) (ls : List (LeafView K V)) (hinv : TreeInv t ls)
    (fuel : Nat) (T : Tree K V) (hi : PoolIdle t) (h : Remove fuel t key = .ok T) :
    PoolIdle T := by
  obtain ⟨hz, hf⟩ := Remove_net key t ls hinv fuel T hi.2.2 hi.2.1 h
  exact PoolIdle_of hi hz hf

variable [Inhabited K]

/-- A finished `Insert` has given back every pin it has taken. -/
theorem Insert_net (fuel : Nat) (t T : Tree K V) (key : K) (value : V) (b : Bool)
    (hf : Fresh t) (hp : t.page_set_ = []) (h : Insert fuel t key value = .ok (T, b)) :
    BalZ T t.pinOf ∧ Fresh T := by
  obtain ⟨tr, hps⟩ := Insert_pins fuel t T key value b t.pinOf h (Bal_self hp) hf
  exact ⟨tr.balZ hps, tr.2.1⟩

/-- A finished `Insert` leaves the pool idle. -/
theorem Insert_idle (fuel : Nat) (t T : Tree K V) (key : K) (value : V) (b : Bool)
    (hi : PoolIdle t) (h : Insert fuel t key value = .ok (T, b)) : PoolIdle T := by
  obtain ⟨hz, hf⟩ := Insert_net fuel t T key value b hi.2.2 hi.2.1 h
  exact PoolIdle_of hi hz hf

/-- Every run of calls that returns leaves the pool idle. -/
theorem run_idle (ops : List (Op K V)) : ∀ (fuel : Nat) (t t1 : Tree K V)
    (ls : List (LeafView K V)), TreeInv t ls → PoolIdle t → run fuel t ops = .ok t1 →
    PoolIdle t1 := by
  induction ops with
  | nil =>
    intro fuel t t1 ls hinv hi hrun
    simp only [run, Except.ok.injEq] at hrun
    subst hrun
    exact hi
  | cons op rest ih =>
    intro fuel t t1 ls hinv hi hrun
    cases op with
    | insert key value =>
      obtain ⟨n, hspec⟩ := Insert_keeps_inv key value t ls hinv (rootLatchHeld_of_nil hi.2.1)
      rcases hspec fuel with ⟨-, herr⟩ | ⟨t2, ls2, hok, hinv2, -, -⟩
      · simp only [run, herr] at hrun
        cases hrun
      · simp only [run, hok] at hrun
        exact ih fuel t2 t1 ls2 hinv2 (Insert_idle fuel t t2 key value _ hi hok) hrun
    | remove key =>
      obtain ⟨n, hspec⟩ := Remove_keeps_inv key t ls hinv (rootLatchHeld_of_nil hi.2.1)
      rcases hspec fuel with ⟨-, herr⟩ | ⟨t2, ls2, hok, hinv2, -⟩
      · simp only [run, herr] at hrun
        cases hrun
      · simp only [run, hok] at hrun
        exact ih fuel t2 t1 ls2 hinv2 (Remove_idle key t ls hinv fuel t2 hi hok) hrun

/-- Pin balance of the B+ tree operations for `leaf_max_size` at least 1 and
`internal_max_size` at least 3, in a tree reached from the empty tree by calls
of `Insert` and `Remove` (the pool has enough frames). Between calls every
page has pin count 0 and the page set is empty. From there a `GetValue` on a
tree with pages, an `Insert` and a `Remove` return, given enough fuel, with
every pin count 0 again and the page set empty. `Remove` of a key that is there
reaches its loop over the deleted page set with every pin count 0, so that
each `DeletePage` of the loop is called on a page with pin count 0, and
removes it. Every pin taken is given back by one `UnpinPage`: whatever pins
other users of the pool hold on the pages handed out, each operation returns
with the pin count of every page as it found it. -/
theorem pin_balance_of_tree_operations (lm im : Nat) (hlm : 1 ≤ lm) (him : 3 ≤ im)
    (ops : List (Op K V)) (fuel0 : Nat) (t : Tree K V)
    (hrun : run fuel0 (Tree.new lm im) ops = .ok t) :
    ((∀ id, t.pinOf id = 0) ∧ t.page_set_ = []) ∧
    (t.root_page_id_ ≠ INVALID_PAGE_ID →
      ∃ n, ∀ fuel, n < fuel → ∀ key, ∃ T v, GetValue fuel t key = .ok (T, v) ∧
        (∀ id, T.pinOf id = 0) ∧ T.page_set_ = []) ∧
    (∀ key value, ∃ n, ∀ fuel, n < fuel → ∃ T b, Insert fuel t key value = .ok (T, b) ∧
      (∀ id, T.pinOf id = 0) ∧ T.page_set_ = []) ∧
    (∀ key, ∃ n, ∀ fuel, n < fuel → ∃ T, Remove fuel t key = .ok T ∧
      (∀ id, T.pinOf id = 0) ∧ T.page_set_ = [] ∧
      (t.root_page_id_ ≠ INVALID_PAGE_ID →
        ∃ t1 leaf node,
          FindLeaf fuel (AddIntoPageSet t none) key .DELETE false false = .ok (t1, leaf) ∧
          t1.leafAt leaf = .ok node ∧
          (node.GetSize ≠ (node.RemoveAndDeleteRecord key).2 →
            ∃ t3 b node2,
              CoalesceOrRedistribute fuel
                (t1.setPage leaf (.leaf (node.RemoveAndDeleteRecord key).1)) leaf
                = .ok (t3, b) ∧
              t3.leafAt leaf = .ok node2 ∧ T = deleteAll (beforeDeletes t3 b leaf node2) ∧
              (∀ id, (beforeDeletes t3 b leaf node2).pinOf id = 0) ∧
              ∀ A id B, (beforeDeletes t3 b leaf node2).deleted_page_set_ = A ++ id :: B →
                (A.foldl DeletePage (beforeDeletes t3 b leaf node2)).pinOf id = 0 ∧
                (DeletePage (A.foldl DeletePage (beforeDeletes t3 b leaf node2)) id).pm id
                  = none))) ∧
    (∀ pins, Fresh (withPins t pins) →
      (t.root_page_id_ ≠ INVALID_PAGE_ID →
        ∃ n, ∀ fuel, n < fuel → ∀ key, ∃ T v,
          GetValue fuel (withPins t pins) key = .ok (T, v) ∧ PinSame (withPins t pins) T) ∧
      (∀ key value, ∃ n, ∀ fuel, n < fuel → ∃ T b,
        Insert fuel (withPins t pins) key value = .ok (T, b) ∧ PinSame (withPins t pins) T) ∧
      (∀ key, ∃ n, ∀ fuel, n < fuel → ∃ T,
        Remove fuel (withPins t pins) key = .ok T ∧ PinSame (withPins t pins) T)) := by
  obtain ⟨ls, hinv, -⟩ := reachable_inv lm im hlm him ops fuel0 t hrun
  have hi : PoolIdle t :=
    run_idle ops fuel0 _ t [] (TreeInv_new lm im hlm him) (PoolIdle_new lm im) hrun
  have hfree : t.rootLatchHeld = false := rootLatchHeld_of_nil hi.2.1
  refine ⟨⟨hi.1, hi.2.1⟩, fun hne => ?_, fun key value => ?_, fun key => ?_, fun pins hfp => ?_⟩
  · obtain ⟨n, hget⟩ := GetValue_inv t ls hinv hne hfree
    refine ⟨n, fun fuel hf key => ?_⟩
    obtain ⟨T, hg, -⟩ := hget fuel hf key
    have hT := GetValue_idle fuel t T key _ hi hg
    exact ⟨T, _, hg, hT.1, hT.2.1⟩
  · obtain ⟨n, hspec⟩ := Insert_keeps_inv key value t ls hinv hfree
    refine ⟨n, fun fuel hf => ?_⟩
    rcases hspec fuel with ⟨hle, -⟩ | ⟨T, ls1, hok, -, -, -⟩
    · omega
    · have hT := Insert_idle fuel t T key value _ hi hok
      exact ⟨T, _, hok, hT.1, hT.2.1⟩
  · obtain ⟨n, hspec⟩ := Remove_keeps_inv key t ls hinv hfree
    refine ⟨n, fun fuel hf => ?_⟩
    rcases hspec fuel with ⟨hle, -⟩ | ⟨T, ls1, hok, -, -⟩
    · omega
    · have hT := Remove_idle key t ls hinv fuel T hi hok
      refine ⟨T, hok, hT.1, hT.2.1, fun hne => ?_⟩
      obtain ⟨t1, leaf, node, h1, h2, -, h4, -, -⟩ :=
        Remove_pins key t ls hinv hne fuel T t.pinOf hok (Bal_self hi.2.1) hi.2.2
      refine ⟨t1, leaf, node, h1, h2, fun hsz => ?_⟩
      obtain ⟨t3, b, node2, h5, h6, h7, h8⟩ := h4 hsz
      have hz : ∀ id, (beforeDeletes t3 b leaf node2).pinOf id = 0 :=
        fun id => (h8.1 id).trans (hi.1 id)
      exact ⟨t3, b, node2, h5, h6, h7, hz,
        fun A id B hsplit => deleteAll_unpinned _ hz A id B hsplit⟩
  · have hinvp : TreeInv (withPins t pins) ls := TreeInv_of_SameCore (SameCore_withPins t pins) hinv
    have hpp : (withPins t pins).page_set_ = [] := hi.2.1
    have hfreep : (withPins t pins).rootLatchHeld = false := rootLatchHeld_of_nil hpp
    refine ⟨fun hne => ?_, fun key value => ?_, fun key => ?_⟩
    · obtain ⟨n, hget⟩ := GetValue_inv (withPins t pins) ls hinvp hne hfreep
      refine ⟨n, fun fuel hf key => ?_⟩
      obtain ⟨T, hg, -⟩ := hget fuel hf key
      exact ⟨T, _, hg, PinSame_of_BalZ hpp (GetValue_net fuel _ T key _ hfp hpp hg).1⟩
    · obtain ⟨n, hspec⟩ := Insert_keeps_inv key value (withPins t pins) ls hinvp hfreep
      refine ⟨n, fun fuel hf => ?_⟩
      rcases hspec fuel with ⟨hle, -⟩ | ⟨T, ls1, hok, -, -, -⟩
      · omega
      · exact ⟨T, _, hok, PinSame_of_BalZ hpp (Insert_net fuel _ T key value _ hfp hpp hok).1⟩
    · obtain ⟨n, hspec⟩ := Remove_keeps_inv key (withPins t pins) ls hinvp hfreep
      refine ⟨n, fun fuel hf => ?_⟩
      rcases hspec fuel with ⟨hle, -⟩ | ⟨T, ls1, hok, -, -⟩
      · omega
      · exact ⟨T, hok, PinSame_of_BalZ hpp (Remove_net key _ ls hinvp fuel T hfp hpp hok).1⟩

set_option maxRecDepth 100000 in
theorem pin_balance_of_tree_operations_witness :
    (1 ≤ 4 ∧ 3 ≤ 4 ∧ run 10 (Tree.new 4 4) mixedCalls = .ok (treeAfter 10 mixedCalls) ∧
      (treeAfter 10 mixedCalls).pin_count_
        = [(13, 0), (14, 0), (8, 0), (1, 0), (3, 0), (6, 0), (5, 0), (10, 0), (0, 0)] ∧
      (treeAfter 10 mixedCalls).pages_.map Prod.fst = [1, 3, 5, 6, 8, 10, 13, 14] ∧
      (treeAfter 10 (insertsTo 20 ++ removesFrom 20)).pages_ = [] ∧
      (treeAfter 10 (insertsTo 20 ++ removesFrom 20)).pin_count_ = [(0, 0)]) ∧
    (((∀ id, (treeAfter 10 mixedCalls).pinOf id = 0) ∧ (treeAfter 10 mixedCalls).page_set_ = []) ∧
     ((treeAfter 10 mixedCalls).root_page_id_ ≠ INVALID_PAGE_ID →
       ∃ n, ∀ fuel, n < fuel → ∀ key : Nat, ∃ T v,
         GetValue fuel (treeAfter 10 mixedCalls) key = .ok (T, v) ∧
         (∀ id, T.pinOf id = 0) ∧ T.page_set_ = []) ∧
     (∀ (key value : Nat), ∃ n, ∀ fuel, n < fuel → ∃ T b,
       Insert fuel (treeAfter 10 mixedCalls) key value = .ok (T, b) ∧
       (∀ id, T.pinOf id = 0) ∧ T.page_set_ = []) ∧
     (∀ key : Nat, ∃ n, ∀ fuel, n < fuel → ∃ T, Remove fuel (treeAfter 10 mixedCalls) key = .ok T ∧
       (∀ id, T.pinOf id = 0) ∧ T.page_set_ = [] ∧
       ((treeAfter 10 mixedCalls).root_page_id_ ≠ INVALID_PAGE_ID →
         ∃ t1 leaf node,
           FindLeaf fuel (AddIntoPageSet (treeAfter 10 mixedCalls) none) key .DELETE false false
             = .ok (t1, leaf) ∧
           t1.leafAt leaf = .ok node ∧
           (node.GetSize ≠ (node.RemoveAndDeleteRecord key).2 →
             ∃ t3 b node2,
               CoalesceOrRedistribute fuel
                 (t1.setPage leaf (.leaf (node.RemoveAndDeleteRecord key).1)) leaf
                 = .ok (t3, b) ∧
               t3.leafAt leaf = .ok node2 ∧ T = deleteAll (beforeDeletes t3 b leaf node2) ∧
               (∀ id, (beforeDeletes t3 b leaf node2).pinOf id = 0) ∧
               ∀ A id B, (beforeDeletes t3 b leaf node2).deleted_page_set_ = A ++ id :: B →
                 (A.foldl DeletePage (beforeDeletes t3 b leaf node2)).pinOf id = 0 ∧
                 (DeletePage (A.foldl DeletePage (beforeDeletes t3 b leaf node2)) id).pm id
                   = none))) ∧
     (∀ pins, Fresh (withPins (treeAfter 10 mixedCalls) pins) →
       ((treeAfter 10 mixedCalls).root_page_id_ ≠ INVALID_PAGE_ID →
         ∃ n, ∀ fuel, n < fuel → ∀ key : Nat, ∃ T v,
           GetValue fuel (withPins (treeAfter 10 mixedCalls) pins) key = .ok (T, v) ∧
           PinSame (withPins (treeAfter 10 mixedCalls) pins) T) ∧
       (∀ (key value : Nat), ∃ n, ∀ fuel, n < fuel → ∃ T b,
         Insert fuel (withPins (treeAfter 10 mixedCalls) pins) key value = .ok (T, b) ∧
         PinSame (withPins (treeAfter 10 mixedCalls) pins) T) ∧
       (∀ key : Nat, ∃ n, ∀ fuel, n < fuel → ∃ T,
         Remove fuel (withPins (treeAfter 10 mixedCalls) pins) key = .ok T ∧
         PinSame (withPins (treeAfter 10 mixedCalls) pins) T))) := by
  have h1 : run 10 (Tree.new 4 4) mixedCalls = .ok (treeAfter 10 mixedCalls) := rfl
  exact ⟨⟨by decide, by decide, h1, rfl, rfl, rfl, rfl⟩,
    pin_balance_of_tree_operations 4 4 (by decide) (by decide) mixedCalls 10
      (treeAfter 10 mixedCalls) h1⟩

end BPlusTree

namespace BPlusTree

variable {K V : Type} [LinearOrder K] [Inhabited K]

/-- A run of calls from a tree that satisfies the invariant returns one and the
same tree for every fuel above a bound. -/
theorem run_returns (ops : List (Op K V)) : ∀ (t : Tree K V) (ls : List (LeafView K V)),
    TreeInv t ls → PoolIdle t → ∃ n t1, ∀ fuel, n < fuel → run fuel t ops = .ok t1 := by
  induction ops with
  | nil => exact fun t ls _ _ => ⟨0, t, fun fuel _ => rfl⟩
  | cons op rest ih =>
    intro t ls hinv hi
    cases op with
    | insert key value =>
      obtain ⟨n1, t2, ls2, b, h1, hinv2⟩ :=
        Insert_returns key value t ls hinv (rootLatchHeld_of_nil hi.2.1)
      obtain ⟨n2, t1, h2⟩ := ih t2 ls2 hinv2
        (Insert_idle (n1 + 1) t t2 key value b hi (h1 (n1 + 1) (Nat.lt_succ_self n1)))
      refine ⟨max n1 n2, t1, fun fuel hf => ?_⟩
      simp only [run, h1 fuel (lt_of_le_of_lt (le_max_left _ _) hf)]
      exact h2 fuel (lt_of_le_of_lt (le_max_right _ _) hf)
    | remove key =>
      obtain ⟨n1, t2, ls2, h1, hinv2⟩ :=
        Remove_returns key t ls hinv (rootLatchHeld_of_nil hi.2.1)
      obtain ⟨n2, t1, h2⟩ := ih t2 ls2 hinv2
        (Remove_idle key t ls hinv (n1 + 1) t2 hi (h1 (n1 + 1) (Nat.lt_succ_self n1)))
      refine ⟨max n1 n2, t1, fun fuel hf => ?_⟩
      simp only [run, h1 fuel (lt_of_le_of_lt (le_max_left _ _) hf)]
      exact h2 fuel (lt_of_le_of_lt (le_max_right _ _) hf)

/-- Inserting and then removing everything, for `leaf_max_size` at least 1 and
`internal_max_size` at least 3. For every list of pairs (the keys need not even
be distinct) and every ordering `removals` of their keys, the calls `Insert` of
all the pairs and then `Remove` of all the keys, run from the empty tree,
return with enough fuel and leave the tree empty: `IsEmpty()` is true and the
root page id is `INVALID_PAGE_ID`. -/
theorem insert_all_remove_all_leaves_empty (lm im : Nat) (hlm : 1 ≤ lm) (him : 3 ≤ im)
    (pairs : List (K × V)) (removals : List K) (hperm : removals.Perm (pairs.map Prod.fst)) :
    ∃ n t, (∀ fuel, n < fuel →
        run fuel (Tree.new lm im)
          (pairs.map (fun p => Op.insert p.1 p.2) ++ removals.map Op.remove) = .ok t) ∧
      IsEmpty t = true ∧ t.root_page_id_ = INVALID_PAGE_ID := by
  obtain ⟨n, t, hrun⟩ := run_returns
    (pairs.map (fun p => Op.insert p.1 p.2) ++ removals.map Op.remove)
    (Tree.new lm im : Tree K V) [] (TreeInv_new lm im hlm him) (PoolIdle_new lm im)
  obtain ⟨ls, hinv, hlk⟩ := reachable_inv lm im hlm him _ (n + 1) t (hrun (n + 1) (Nat.lt_succ_self n))
  have hroot : t.root_page_id_ = INVALID_PAGE_ID := by
    apply TreeInv_empty_of_no_key hinv
    intro k
    rw [hlk k, expected, List.foldl_append, foldl_applyOp_removes]
    by_cases hk : k ∈ removals
    · rw [if_pos hk]
    · rw [if_neg hk]
      exact foldl_applyOp_inserts k pairs (fun hmem => hk (hperm.mem_iff.2 hmem))
  exact ⟨n, t, hrun, by simp [IsEmpty, hroot], hroot⟩

set_option maxRecDepth 100000 in
theorem insert_all_remove_all_leaves_empty_witness :
    (1 ≤ 4 ∧ 3 ≤ 4 ∧ (keysFrom 20).Perm ((pairsTo 20).map Prod.fst) ∧
      (pairsTo 20).map (fun p => Op.insert p.1 p.2) = insertsTo 20 ∧
      (keysFrom 20).map Op.remove = removesFrom 20 ∧
      run 10 (Tree.new 4 4) (insertsTo 20 ++ removesFrom 20)
        = .ok (treeAfter 10 (insertsTo 20 ++ removesFrom 20)) ∧
      IsEmpty (treeAfter 10 (insertsTo 20 ++ removesFrom 20)) = true ∧
      (treeAfter 10 (insertsTo 20 ++ removesFrom 20)).root_page_id_ = INVALID_PAGE_ID ∧
      IsEmpty (treeAfter 10 (insertsTo 20)) = false) ∧
    ∃ n t, (∀ fuel, n < fuel →
        run fuel (Tree.new 4 4)
          ((pairsTo 20).map (fun p => Op.insert p.1 p.2) ++ (keysFrom 20).map Op.remove)
            = .ok t) ∧
      IsEmpty t = true ∧ t.root_page_id_ = INVALID_PAGE_ID := by
  have hp : (keysFrom 20).Perm ((pairsTo 20).map Prod.fst) := by decide
  have h1 : run 10 (Tree.new 4 4) (insertsTo 20 ++ removesFrom 20)
      = .ok (treeAfter 10 (insertsTo 20 ++ removesFrom 20)) := rfl
  exact ⟨⟨by decide, by decide, hp, rfl, rfl, h1, rfl, rfl, rfl⟩,
    insert_all_remove_all_leaves_empty 4 4 (by decide) (by decide) (pairsTo 20) (keysFrom 20) hp⟩

end BPlusTree

namespace BPlusTree

variable {K V : Type} [LinearOrder K] [Inhabited K]

end BPlusTree

namespace BPlusTree

end BPlusTree

namespace BPlusTree

variable {K V : Type} [LinearOrder K] [Inhabited K]

/-- A run of calls that returns returns the same with more fuel. -/
theorem run_mono (ops : List (Op K V)) : ∀ (fuel : Nat) (t r : Tree K V),
    run fuel t ops = .ok r → run (fuel + 1) t ops = .ok r := by
  induction ops with
  | nil => exact fun fuel t r h => h
  | cons op rest ih =>
    intro fuel t r h
    cases op with
    | insert key value =>
      simp only [run] at h ⊢
      cases hI : Insert fuel t key value with
      | error e => rw [hI] at h; cases h
      | ok x =>
        rw [hI] at h
        rw [Insert_mono fuel t key value x hI]
        exact ih fuel x.1 r h
    | remove key =>
      simp only [run] at h ⊢
      cases hR : Remove fuel t key with
      | error e => rw [hR] at h; cases h
      | ok x =>
        rw [hR] at h
        rw [Remove_mono fuel t key x hR]
        exact ih fuel x r h

/-- A run of two lists of calls is the run of the second from where the first
ends. -/
theorem run_append (fuel : Nat) (A B : List (Op K V)) : ∀ t : Tree K V,
    run fuel t (A ++ B) = (run fuel t A).bind (fun s => run fuel s B) := by
  induction A with
  | nil => exact fun t => rfl
  | cons op rest ih =>
    intro t
    cases op with
    | insert key value =>
      simp only [List.cons_append, run]
      cases Insert fuel t key value with
      | error e => rfl
      | ok x => exact ih x.1
    | remove key =>
      simp only [List.cons_append, run]
      cases Remove fuel t key with
      | error e => rfl
      | ok x => exact ih x

/-- Claim C31. Inserting a set of keys into an empty tree and removing them all
is to leave the tree empty; with `leaf_max_size = 2` and `internal_max_size = 2`
it does not. `Insert` of the keys 1, 2, 3 builds the root page 6 over the
internal pages 3 (one child, the leaf 1) and 5 (the leaves 2 and 4). `Remove(3)`
merges leaf 4 into leaf 2 and leaves page 5 with one child. `Remove(2)` empties
leaf 2: `CoalesceOrRedistribute` finds no sibling under page 5 and returns by
its last `return false`, so the call returns with the empty leaf still in the
tree and with the root latch entry and the pages 6 and 5 still in the page set:
the root latch stays write-locked. `Remove(1)` then never returns, whatever the
fuel: it waits for the root latch. Key 1 is never removed, `IsEmpty()` stays
false and the root stays page 6. -/
theorem insert_all_remove_all_not_empty_at_internal_size_two :
    removesFrom 3 = [Op.remove 3, Op.remove 2, Op.remove 1] ∧
    (narrowTreeAfter 10 (insertsTo 3)).pages_ =
      [(1, .leaf ⟨1, 3, 2, 2, [(1, 10)]⟩), (2, .leaf ⟨2, 5, 2, 4, [(2, 20)]⟩),
       (3, .internal ⟨3, 6, 2, [(0, 1)]⟩), (4, .leaf ⟨4, 5, 2, -1, [(3, 30)]⟩),
       (5, .internal ⟨5, 6, 2, [(2, 2), (3, 4)]⟩), (6, .internal ⟨6, -1, 2, [(0, 3), (2, 5)]⟩)] ∧
    run 10 (Tree.new 2 2) (insertsTo 3 ++ [Op.remove 3])
      = .ok (narrowTreeAfter 10 (insertsTo 3 ++ [Op.remove 3])) ∧
    (narrowTreeAfter 10 (insertsTo 3 ++ [Op.remove 3])).pages_ =
      [(1, .leaf ⟨1, 3, 2, 2, [(1, 10)]⟩), (2, .leaf ⟨2, 5, 2, -1, [(2, 20)]⟩),
       (3, .internal ⟨3, 6, 2, [(0, 1)]⟩), (5, .internal ⟨5, 6, 2, [(2, 2)]⟩),
       (6, .internal ⟨6, -1, 2, [(0, 3), (2, 5)]⟩)] ∧
    (narrowTreeAfter 10 (insertsTo 3 ++ [Op.remove 3])).page_set_ = [] ∧
    (∀ fuel, 10 ≤ fuel →
      run fuel (Tree.new 2 2) (insertsTo 3 ++ [Op.remove 3, Op.remove 2])
        = .ok (narrowTreeAfter 10 (insertsTo 3 ++ [Op.remove 3, Op.remove 2]))) ∧
    (narrowTreeAfter 10 (insertsTo 3 ++ [Op.remove 3, Op.remove 2])).pages_ =
      [(1, .leaf ⟨1, 3, 2, 2, [(1, 10)]⟩), (2, .leaf ⟨2, 5, 2, -1, []⟩),
       (3, .internal ⟨3, 6, 2, [(0, 1)]⟩), (5, .internal ⟨5, 6, 2, [(2, 2)]⟩),
       (6, .internal ⟨6, -1, 2, [(0, 3), (2, 5)]⟩)] ∧
    (narrowTreeAfter 10 (insertsTo 3 ++ [Op.remove 3, Op.remove 2])).page_set_
      = [none, some 6, some 5] ∧
    (narrowTreeAfter 10 (insertsTo 3 ++ [Op.remove 3, Op.remove 2])).rootLatchHeld = true ∧
    IsEmpty (narrowTreeAfter 10 (insertsTo 3 ++ [Op.remove 3, Op.remove 2])) = false ∧
    (narrowTreeAfter 10 (insertsTo 3 ++ [Op.remove 3, Op.remove 2])).root_page_id_ = 6 ∧
    (∀ fuel, Remove fuel (narrowTreeAfter 10 (insertsTo 3 ++ [Op.remove 3, Op.remove 2])) 1
      = .error .out_of_fuel) ∧
    (∀ fuel, 10 ≤ fuel →
      run fuel (Tree.new 2 2) (insertsTo 3 ++ removesFrom 3) = .error .out_of_fuel) := by
  have h2 : run 10 (Tree.new 2 2) (insertsTo 3 ++ [Op.remove 3, Op.remove 2])
      = .ok (narrowTreeAfter 10 (insertsTo 3 ++ [Op.remove 3, Op.remove 2])) := rfl
  have h2f : ∀ fuel, 10 ≤ fuel →
      run fuel (Tree.new 2 2) (insertsTo 3 ++ [Op.remove 3, Op.remove 2])
        = .ok (narrowTreeAfter 10 (insertsTo 3 ++ [Op.remove 3, Op.remove 2])) :=
    fun fuel hf => fuel_mono_le
      (fun f => run f (Tree.new 2 2) (insertsTo 3 ++ [Op.remove 3, Op.remove 2]))
      (fun f r => run_mono _ f _ r) 10 fuel _ h2 hf
  have hheld :
      (narrowTreeAfter 10 (insertsTo 3 ++ [Op.remove 3, Op.remove 2])).rootLatchHeld = true :=
    rfl
  refine ⟨rfl, rfl, rfl, rfl, rfl, h2f, rfl, rfl, hheld, rfl, rfl,
    fun fuel => Remove_held hheld fuel 1, fun fuel hf => ?_⟩
  have e : insertsTo 3 ++ removesFrom 3
      = (insertsTo 3 ++ [Op.remove 3, Op.remove 2]) ++ [Op.remove 1] := rfl
  rw [e, run_append, h2f fuel hf]
  simp only [Except.bind, run, Remove_held hheld fuel 1]

/-- Claim C40. A completed `Remove` is to leave every pin count 0 and the page
set empty; with `leaf_max_size = 2` and `internal_max_size = 2` it does not.
After `Insert` of the keys 1, 2, 3 no page is pinned, the page set is empty,
and the internal page 3 has the leaf page 1 as its only child. `Remove(1)` then
returns, with any fuel from 10 on, with page 3 pinned twice, the root page 6
pinned once, and the root latch entry and both pages still in the page set:
`CoalesceOrRedistribute` on the leaf fetches the parent page 3, finds no
sibling, and returns by its last `return false`, without the `UnpinPage` of the
parent and the `ReleaseLatchFromQueue` of its other branches. -/
theorem remove_leaks_pins_at_internal_size_two :
    run 10 (Tree.new 2 2) (insertsTo 3) = .ok (narrowTreeAfter 10 (insertsTo 3)) ∧
    (narrowTreeAfter 10 (insertsTo 3)).pin_count_
      = [(4, 0), (2, 0), (5, 0), (3, 0), (0, 0), (6, 0), (1, 0)] ∧
    (narrowTreeAfter 10 (insertsTo 3)).page_set_ = [] ∧
    (narrowTreeAfter 10 (insertsTo 3)).root_page_id_ = 6 ∧
    (narrowTreeAfter 10 (insertsTo 3)).pm 6 = some (.internal ⟨6, -1, 2, [(0, 3), (2, 5)]⟩) ∧
    (narrowTreeAfter 10 (insertsTo 3)).pm 3 = some (.internal ⟨3, 6, 2, [(0, 1)]⟩) ∧
    (narrowTreeAfter 10 (insertsTo 3)).pm 1 = some (.leaf ⟨1, 3, 2, 2, [(1, 10)]⟩) ∧
    (∀ fuel, 10 ≤ fuel →
      Remove fuel (narrowTreeAfter 10 (insertsTo 3)) 1
        = .ok (narrowTreeAfter 10 (insertsTo 3 ++ [Op.remove 1]))) ∧
    (narrowTreeAfter 10 (insertsTo 3 ++ [Op.remove 1])).pinOf 3 = 2 ∧
    (narrowTreeAfter 10 (insertsTo 3 ++ [Op.remove 1])).pinOf 6 = 1 ∧
    (narrowTreeAfter 10 (insertsTo 3 ++ [Op.remove 1])).pin_count_
      = [(1, 0), (3, 2), (6, 1), (4, 0), (2, 0), (5, 0), (0, 0)] ∧
    (narrowTreeAfter 10 (insertsTo 3 ++ [Op.remove 1])).page_set_ = [none, some 6, some 3] ∧
    (narrowTreeAfter 10 (insertsTo 3 ++ [Op.remove 1])).deleted_page_set_ = [] ∧
    (narrowTreeAfter 10 (insertsTo 3 ++ [Op.remove 1])).pm 1 = some (.leaf ⟨1, 3, 2, 2, []⟩) := by
  have h1 : Remove 10 (narrowTreeAfter 10 (insertsTo 3)) 1
      = .ok (narrowTreeAfter 10 (insertsTo 3 ++ [Op.remove 1])) := rfl
  exact ⟨rfl, rfl, rfl, rfl, rfl, rfl, rfl,
    fun fuel hf => fuel_mono_le (fun f => Remove f (narrowTreeAfter 10 (insertsTo 3)) 1)
      (fun f r => Remove_mono f _ 1 r) 10 fuel _ h1 hf, rfl, rfl, rfl, rfl, rfl, rfl⟩

end BPlusTree

namespace BPlusTree

variable {K V : Type} [LinearOrder K]

variable [Inhabited K]

end BPlusTree

namespace BufferPoolManager

set_option maxRecDepth 100000 in
theorem phantomState_run : run 40 (BPM.new 2 2) phantomOps = some phantomState :=
  getD_of_isSome _ _ (by decide)

set_option maxRecDepth 100000 in
theorem phantomState_lookup (p : Int) : phantomState.lookup p ≠ some 0 := by
  have ht : phantomState.page_table_
      = ⟨2, 0, [0], [⟨0, [(0, 1)]⟩]⟩ := by decide
  unfold BPM.lookup
  rw [ht]
  simp only [ExtendibleHashTable.Find, ExtendibleHashTable.IndexOf, Nat.shiftLeft_zero,
    Nat.sub_self, Nat.and_zero]
  show ExtendibleHashTable.Bucket.findItem p [(0, 1)] ≠ some 0
  unfold ExtendibleHashTable.Bucket.findItem
  split
  · intro h; cases h
  · intro h; cases h

set_option maxRecDepth 100000 in
/-- Claim C6, counterexample. In a pool of two frames, `FetchPage(0)` before
any page exists puts id 0 into frame 0; after an unpin, `NewPage` hands out id
0 and puts it into frame 1. Both frames then store page id 0, the page table
maps id 0 to frame 1 only, and frame 0 is neither on the free list nor the
frame of a resident page id. -/
theorem fetch_of_unallocated_id_breaks_partition :
    run 40 (BPM.new 2 2) phantomOps = some phantomState ∧
    (run 40 (BPM.new 2 2) [Op.fetchPage 0 1]).map
      (fun s => (s.lookup 0, s.free_list_, s.next_page_id_)) = some (some 0, [1], 0) ∧
    (NewPgImp 40 ((run 40 (BPM.new 2 2) (phantomOps.take 3)).getD (BPM.new 2 2)) 2).map
      (fun r => r.2) = some (0, some 1) ∧
    phantomState.pool_size_ = 2 ∧
    (phantomState.pageAt 0).page_id_ = 0 ∧ (phantomState.pageAt 1).page_id_ = 0 ∧
    phantomState.lookup 0 = some 1 ∧
    phantomState.free_list_ = [] ∧
    (∀ p : Int, phantomState.lookup p ≠ some 0) ∧
    ¬ (∀ f : Int, 0 ≤ f → f < (phantomState.pool_size_ : Int) →
      (phantomState.free_list_.count f = 1 ∧ ∀ p : Int, phantomState.lookup p ≠ some f) ∨
      (f ∉ phantomState.free_list_ ∧ ∃ p : Int, phantomState.lookup p = some f ∧
        ∀ q : Int, phantomState.lookup q = some f → q = p)) := by
  refine ⟨phantomState_run, by decide, by decide, by decide, by decide, by decide, by decide,
    by decide, phantomState_lookup, ?_⟩
  intro h
  rcases h 0 (by decide) (by decide) with ⟨hc, _⟩ | ⟨_, p, hp, _⟩
  · revert hc; decide
  · exact phantomState_lookup p hp

set_option maxRecDepth 100000 in
theorem staleState_run : run 40 (BPM.new 2 2) staleOps = some staleState :=
  getD_of_isSome _ _ (by decide)

set_option maxRecDepth 100000 in
theorem staleEvicted_run :
    run 40 (UnpinPgImp (WriteData staleState 0 [7, 7]) 0 true).1 staleAfterOps
      = some (staleEvicted 4) :=
  getD_of_isSome _ _ (by decide)

set_option maxRecDepth 100000 in
theorem staleRefetched_run :
    FetchPgImp 40 (staleEvicted 4) 0 6 = some (staleRefetched, some 1) :=
  fetch_result_of_parts _ _ _ (by decide)

set_option maxRecDepth 100000 in
/-- Claim C2, counterexample. In a pool of two frames with `k = 2`:
`FetchPage(0)` before any page exists, `[9, 9]` written, dirty unpin; `NewPage`
hands out id 0 into frame 1; `FetchPage(0)` pins it a second time. Then
`B = [7, 7]` is written into the pinned page 0 and the page is unpinned dirty
twice, down to pin count 0. `NewPage` (id 1) evicts the frame of page 0 and
writes `[7, 7]` back; the next `NewPage` (id 2) evicts frame 0, which still
stores id 0, and writes `[9, 9]` over it. After page 1 is unpinned,
`FetchPage(0)` succeeds and the frame it returns holds `[9, 9]`, not `B`. -/
theorem dirty_page_lost_after_fetch_of_unallocated_id :
    run 40 (BPM.new 2 2) staleOps = some staleState ∧
    staleState.lookup 0 = some 1 ∧ (staleState.pageAt 1).pin_count_ = 2 ∧
    ((WriteData staleState 0 [7, 7]).pageAt 1).data_ = [7, 7] ∧
    noWriteTo 0 staleAfterOps = true ∧
    ((staleEvicted 1).lookup 0, ((staleEvicted 1).pageAt 1).pin_count_,
      ((staleEvicted 1).pageAt 1).is_dirty_, ((staleEvicted 1).pageAt 1).data_)
      = (some 1, 0, true, [7, 7]) ∧
    ((staleEvicted 2).lookup 0, (staleEvicted 2).lookup 1, ReadPage (staleEvicted 2).disk_ 0)
      = (none, some 1, [7, 7]) ∧
    ((staleEvicted 3).lookup 0, (staleEvicted 3).lookup 2, ReadPage (staleEvicted 3).disk_ 0)
      = (none, some 0, [9, 9]) ∧
    run 40 (UnpinPgImp (WriteData staleState 0 [7, 7]) 0 true).1 staleAfterOps
      = some (staleEvicted 4) ∧
    FetchPgImp 40 (staleEvicted 4) 0 6 = some (staleRefetched, some 1) ∧
    (staleRefetched.pageAt 1).data_ = [9, 9] ∧
    (staleRefetched.pageAt 1).data_ ≠ [7, 7] :=
  ⟨staleState_run, by decide, by decide, by decide, by decide, by decide, by decide, by decide,
   staleEvicted_run, staleRefetched_run, by decide, by decide⟩

end BufferPoolManager

namespace ExtendibleHashTable

variable {K V : Type} [DecidableEq K]

end ExtendibleHashTable

namespace ExtendibleHashTable

end ExtendibleHashTable
